import Mathlib

/-!
PL/0 JIT compiler: a shallow embedding and its verified properties.

The definitions below transcribe the C++ sources of the `pljit` library
(lexer, parser, semantic analysis, optimisation passes, evaluator and the
JIT front end) into Lean functions, keeping the names of the source.

Conventions of the embedding

* `int64_t` values are integers kept in the signed 64-bit range by
  `wrapInt64` after every arithmetic operation (two's complement wrap); this
  includes the negation of the smallest value, which gives the smallest
  value again.  The division of the smallest value by -1 is different: its
  quotient is not representable, the division instruction raises the divide
  error and the process is terminated (SIGFPE), which is the outcome
  `Fault.divisionOverflow` of the model.
* A call that the C++ code cannot complete normally has an explicit outcome
  of type `Fault`: a violated `assert`, an access outside a `std::vector`,
  a division whose quotient is not representable, or the exhaustion of the
  recursion budget of the parser model.
* The functions `visitExpressionTraced`, `visitStatementTraced`,
  `visitStatementsTraced` and `visitTraced` of the constant propagation are
  the functions of the source with a log as additional result: the value of
  `constantResultFromLastCall` on entry to each visit of an expression
  node.  The functions `visitExpression`, `visitStatement`,
  `visitStatements` and `visit` are their outcomes without the log.
* A parsing or analysis function that returns `nullptr` for failure has the
  outcome `error` of `ParseResult` or `AnalysisResult`, which carries the
  state with the diagnostics printed so far.
* The calls of `SourceCodeManager::printContext` are recorded in the source
  code manager, and `SourceCodeManager.contextOutput` gives the characters
  that a call writes; the lines that the evaluator and the front end write
  to the console directly are not part of the model.
* The mutex of a function frame is not part of the model: invocations run
  one after another.
-/

namespace pljit

/-- Abnormal outcomes of the embedded code: a violated `assert`, an index
outside a vector, an `int64_t` division whose quotient is not representable
(the process receives SIGFPE), or the recursion budget of the parser model
running out. -/
inductive Fault where
  | assertion
  | outOfBounds
  | divisionOverflow
  | outOfFuel
  deriving DecidableEq, Repr

/-- Two's complement reduction of an integer to the range of `int64_t`. -/
def wrapInt64 (x : Int) : Int :=
  (x + 9223372036854775808) % 18446744073709551616 - 9223372036854775808

/-- Test that the quotient of the `int64_t` division `lhs / rhs` is not
representable: the division of the smallest value by -1.  The C++ expression
`lhs / rhs` has no defined result for these operands, and the division
instruction of the processor raises the divide error. -/
def divisionOverflows (lhs rhs : Int) : Bool :=
  decide (lhs = -9223372036854775808) && decide (rhs = -1)

namespace common

/-- Range of characters of the source code (`References.h`): the index of
its first character in the source buffer and its length in characters. -/
structure SourceRangeReference where
  ref : Nat
  length : Nat
  deriving DecidableEq, Repr

end common

namespace ast

/-- Namespace tag of an identifier (`ast::Identifier::Type`). -/
inductive IdentifierType where
  | Parameter
  | Variable
  | Constant
  deriving DecidableEq, Repr

/-- Sign of a unary operation (`ast::UnaryOp::Type`). -/
inductive UnaryOpType where
  | PlusSign
  | MinusSign
  deriving DecidableEq, Repr

/-- Operator of a binary operation (`ast::BinaryOp::Type`). -/
inductive BinaryOpType where
  | Add
  | Sub
  | Mul
  | Div
  deriving DecidableEq, Repr

/-- Expression nodes of the AST (`ast::Expression` and its subclasses). -/
inductive Expression where
  | ConstantLiteral (value : Int)
  | Identifier (identifierType : IdentifierType) (id : Nat)
  | UnaryOp (unaryOpType : UnaryOpType) (expression : Expression)
  | BinaryOp (lhsExpression : Expression) (binaryOpType : BinaryOpType)
      (rhsExpression : Expression)
  deriving DecidableEq, Repr

/-- Identifier node used as assignment target (`ast::Identifier`). -/
structure Identifier where
  identifierType : IdentifierType
  id : Nat
  deriving DecidableEq, Repr

/-- Statement nodes of the AST (`ast::AssignmentStatement`,
`ast::ReturnStatement`). -/
inductive Statement where
  | AssignmentStatement (assignmentTarget : Identifier) (expression : Expression)
  | ReturnStatement (expression : Expression)
  deriving DecidableEq, Repr

/-- Root node of the AST (`ast::Function`). -/
structure Function where
  statements : List Statement
  deriving DecidableEq, Repr

/-- Expression of a statement (`Statement::getExpression`). -/
def Statement.getExpression : Statement → Expression
  | .AssignmentStatement _ expression => expression
  | .ReturnStatement expression => expression

/-- Test `stmt->getType() == ASTNode::Type::ReturnStatement`. -/
def Statement.isReturnStatement : Statement → Bool
  | .AssignmentStatement _ _ => false
  | .ReturnStatement _ => true

end ast

namespace analysis

/-- Entry of the symbol table (`SymbolTable::SymbolEntry`). -/
structure SymbolEntry where
  symbolId : Nat
  declarationRef : common.SourceRangeReference
  symbolType : ast.IdentifierType
  deriving DecidableEq, Repr

/-- Symbol table (`SymbolTable.h`).  The `std::unordered_map` from the text
of a symbol to its entry is an association list searched by key; a
`std::string_view` is the list of its characters. -/
structure SymbolTable where
  nextParameterId : Nat := 0
  nextVariableId : Nat := 0
  nextConstantId : Nat := 0
  symbolStrToSymbolEntryMapping : List (List Char × SymbolEntry) := []
  parameterIdToStringMapping : List (List Char) := []
  variableIdToStringMapping : List (List Char) := []
  constantIdToStringMapping : List (List Char) := []
  constantValues : List Int := []
  deriving DecidableEq, Repr

/-- Value of a registered constant (`SymbolTable::getConstantValue`); the
source asserts `constantId < constantValues.size()`. -/
def SymbolTable.getConstantValue (table : SymbolTable) (constantId : Nat) :
    Except Fault Int :=
  match table.constantValues[constantId]? with
  | some value => .ok value
  | none => .error .assertion

/-- Number of registered parameters (`SymbolTable::getNumberOfParameters`). -/
def SymbolTable.getNumberOfParameters (table : SymbolTable) : Nat :=
  table.parameterIdToStringMapping.length

/-- Number of registered variables (`SymbolTable::getNumberOfVariables`). -/
def SymbolTable.getNumberOfVariables (table : SymbolTable) : Nat :=
  table.variableIdToStringMapping.length

end analysis

namespace exec

/-- Runtime errors (`ExecutionContext::ErrorType`). -/
inductive ErrorType where
  | NoError
  | DivisionByZero
  deriving DecidableEq, Repr

/-- Data needed to execute an AST (`ExecutionContext.h`). -/
structure ExecutionContext where
  parameterValues : List Int
  variableValues : List Int
  symbolTable : analysis.SymbolTable
  returnValue : Int := 0
  error : ErrorType := .NoError
  deriving DecidableEq, Repr

/-- Constructor of `ExecutionContext`: the parameters are moved in, the
variables are value-initialised (zero), one per registered variable. -/
def ExecutionContext.new (parameterValues : List Int)
    (symbolTable : analysis.SymbolTable) : ExecutionContext :=
  { parameterValues := parameterValues
    variableValues := List.replicate symbolTable.getNumberOfVariables 0
    symbolTable := symbolTable }

/-- Test whether an error is set (`ExecutionContext::hasError`). -/
def ExecutionContext.hasError (context : ExecutionContext) : Bool :=
  context.error != .NoError

end exec

namespace ast

open exec

/-- Evaluation of an expression (`ConstantLiteral::evaluate`,
`Identifier::evaluate`, `UnaryOp::evaluate`, `BinaryOp::evaluate`).  The
result is the returned value together with the context after the call (only
its `error` field can change).  Reading `parameterValues[id]` or
`variableValues[id]` outside the vector is the fault `outOfBounds`, and the
division `lhs / rhs` of the smallest value by -1, which only a zero divisor
is tested for, is the fault `divisionOverflow`.  The console output of the
division-by-zero case is not part of the model. -/
def Expression.evaluate : Expression → ExecutionContext →
    Except Fault (Int × ExecutionContext)
  | .ConstantLiteral value, context => .ok (value, context)
  | .Identifier identifierType id, context =>
    match identifierType with
    | .Parameter =>
      match context.parameterValues[id]? with
      | some value => .ok (value, context)
      | none => .error .outOfBounds
    | .Variable =>
      match context.variableValues[id]? with
      | some value => .ok (value, context)
      | none => .error .outOfBounds
    | .Constant =>
      match context.symbolTable.getConstantValue id with
      | .ok value => .ok (value, context)
      | .error fault => .error fault
  | .UnaryOp unaryOpType expression, context =>
    match expression.evaluate context with
    | .error fault => .error fault
    | .ok (result, context) =>
      if context.hasError then .ok (0, context)
      else
        match unaryOpType with
        | .MinusSign => .ok (wrapInt64 (-result), context)
        | .PlusSign => .ok (result, context)
  | .BinaryOp lhsExpression binaryOpType rhsExpression, context =>
    match lhsExpression.evaluate context with
    | .error fault => .error fault
    | .ok (lhs, context) =>
      if context.hasError then .ok (0, context)
      else
        match rhsExpression.evaluate context with
        | .error fault => .error fault
        | .ok (rhs, context) =>
          if context.hasError then .ok (0, context)
          else
            match binaryOpType with
            | .Add => .ok (wrapInt64 (lhs + rhs), context)
            | .Sub => .ok (wrapInt64 (lhs - rhs), context)
            | .Mul => .ok (wrapInt64 (lhs * rhs), context)
            | .Div =>
              if rhs = 0 then
                .ok (0, { context with error := .DivisionByZero })
              else if divisionOverflows lhs rhs then .error .divisionOverflow
              else .ok (wrapInt64 (Int.tdiv lhs rhs), context)

/-- Execution of a statement (`AssignmentStatement::execute`,
`ReturnStatement::execute`).  Writing outside a vector is the fault
`outOfBounds`; an assignment target that is neither a variable nor a
parameter violates the assertion of the source. -/
def Statement.execute : Statement → ExecutionContext → Except Fault ExecutionContext
  | .AssignmentStatement assignmentTarget expression, context =>
    match expression.evaluate context with
    | .error fault => .error fault
    | .ok (result, context) =>
      if !context.hasError then
        match assignmentTarget.identifierType with
        | .Variable =>
          if assignmentTarget.id < context.variableValues.length then
            .ok { context with
              variableValues := context.variableValues.set assignmentTarget.id result }
          else .error .outOfBounds
        | .Parameter =>
          if assignmentTarget.id < context.parameterValues.length then
            .ok { context with
              parameterValues := context.parameterValues.set assignmentTarget.id result }
          else .error .outOfBounds
        | .Constant => .error .assertion
      else .ok context
  | .ReturnStatement expression, context =>
    match expression.evaluate context with
    | .error fault => .error fault
    | .ok (result, context) =>
      if !context.hasError then .ok { context with returnValue := result }
      else .ok context

/-- The loop of `Function::execute` over the statements still to run: it
stops after the first statement that leaves an error and after the first
return statement. -/
def executeStatements : List Statement → ExecutionContext → Except Fault ExecutionContext
  | [], context => .ok context
  | stmt :: rest, context =>
    match stmt.execute context with
    | .error fault => .error fault
    | .ok context =>
      if context.hasError then .ok context
      else if stmt.isReturnStatement then .ok context
      else executeStatements rest context

/-- Execution of a function (`Function::execute`). -/
def Function.execute (node : Function) (context : ExecutionContext) :
    Except Fault ExecutionContext :=
  executeStatements node.statements context

end ast

namespace optim

open ast

/-- The search loop of `DeadCodeElimination::visit(ast::Function&)`: the
index of the first return statement, or the number of statements when there
is none. -/
def DeadCodeElimination.firstReturnStatementId : List Statement → Nat
  | [] => 0
  | stmt :: rest =>
    if stmt.isReturnStatement then 0
    else DeadCodeElimination.firstReturnStatementId rest + 1

/-- Dead code elimination (`DeadCodeElimination::visit(ast::Function&)`):
all statements behind the first return statement are cut off.  The source
asserts that a return statement was found. -/
def DeadCodeElimination.visit (node : Function) : Except Fault Function :=
  let statementId := DeadCodeElimination.firstReturnStatementId node.statements
  if statementId < node.statements.length then
    .ok { statements := node.statements.take (statementId + 1) }
  else .error .assertion

/-- Record the constant propagation keeps per parameter or variable
(`ConstantPropagation::VariableAssignment`). -/
structure VariableAssignment where
  value : Int := 0
  hasConstantAssignment : Bool := false
  deriving DecidableEq, Repr

/-- Key of the variable table (`ConstantPropagation::IdentifierKey`). -/
abbrev IdentifierKey := Nat × IdentifierType

/-- Lookup in the variable table (`variableTable.find`). -/
def variableTableFind : List (IdentifierKey × VariableAssignment) → IdentifierKey →
    Option VariableAssignment
  | [], _ => none
  | (k, assignment) :: rest, key =>
    if k = key then some assignment else variableTableFind rest key

/-- The idiom `auto it = variableTable.emplace(key, VariableAssignment{});`
followed by writes through `it.first->second`: the record stored under the
key (a fresh default record when the key is new) is updated by `update`. -/
def variableTableEmplaceAndSet : List (IdentifierKey × VariableAssignment) →
    IdentifierKey → (VariableAssignment → VariableAssignment) →
    List (IdentifierKey × VariableAssignment)
  | [], key, update => [(key, update {})]
  | (k, assignment) :: rest, key, update =>
    if k = key then (k, update assignment) :: rest
    else (k, assignment) :: variableTableEmplaceAndSet rest key update

/-- State of the constant propagation pass (`ConstantPropagation.h`). -/
structure ConstantPropagation where
  symbolTable : analysis.SymbolTable
  constantResultFromLastCall : Option Int := none
  variableTable : List (IdentifierKey × VariableAssignment) := []
  deriving DecidableEq, Repr

/-- Key of an identifier (`constructKey`); the source asserts that the
identifier is not a constant. -/
def constructKey (identifierType : IdentifierType) (id : Nat) : Except Fault IdentifierKey :=
  if identifierType = .Constant then .error .assertion else .ok (id, identifierType)

/-- Constant propagation on expressions (`ConstantPropagation::visit` for
`ConstantLiteral`, `Identifier`, `UnaryOp` and `BinaryOp`), with a log.  The
second component is the outcome of the call: the node after the in-place
rewriting and the state of the pass after the call; the division
`lhsValue / rhsValue` of the smallest value by -1, which only a zero divisor
is tested for, is the fault `divisionOverflow`.  The first component is not
in the source: it is the log of the values of `constantResultFromLastCall`
on entry to the call and to the calls for the nodes below, in the order of
the calls. -/
def ConstantPropagation.visitExpressionTraced : Expression → ConstantPropagation →
    List (Option Int) × Except Fault (Expression × ConstantPropagation)
  | .ConstantLiteral value, pass =>
    ([pass.constantResultFromLastCall],
      .ok (.ConstantLiteral value, { pass with constantResultFromLastCall := some value }))
  | .Identifier identifierType id, pass =>
    ([pass.constantResultFromLastCall],
      if identifierType = .Constant then
        match pass.symbolTable.getConstantValue id with
        | .ok value =>
          .ok (.Identifier identifierType id,
            { pass with constantResultFromLastCall := some value })
        | .error fault => .error fault
      else
        match constructKey identifierType id with
        | .error fault => .error fault
        | .ok key =>
          match variableTableFind pass.variableTable key with
          | some assignment =>
            if assignment.hasConstantAssignment then
              .ok (.Identifier identifierType id,
                { pass with constantResultFromLastCall := some assignment.value })
            else .ok (.Identifier identifierType id, pass)
          | none => .ok (.Identifier identifierType id, pass))
  | .UnaryOp unaryOpType expression, pass =>
    let entry := pass.constantResultFromLastCall
    match ConstantPropagation.visitExpressionTraced expression pass with
    | (entries, .error fault) => (entry :: entries, .error fault)
    | (entries, .ok (expression, pass)) =>
      (entry :: entries,
        match pass.constantResultFromLastCall with
        | some value =>
          if unaryOpType = .MinusSign then
            .ok (.UnaryOp unaryOpType expression,
              { pass with constantResultFromLastCall := some (wrapInt64 (-value)) })
          else .ok (.UnaryOp unaryOpType expression, pass)
        | none => .ok (.UnaryOp unaryOpType expression, pass))
  | .BinaryOp lhsExpression binaryOpType rhsExpression, pass =>
    let entry := pass.constantResultFromLastCall
    match ConstantPropagation.visitExpressionTraced lhsExpression pass with
    | (entriesLeft, .error fault) => (entry :: entriesLeft, .error fault)
    | (entriesLeft, .ok (lhsExpression, pass)) =>
      let leftConstantResultOpt := pass.constantResultFromLastCall
      match ConstantPropagation.visitExpressionTraced rhsExpression
          { pass with constantResultFromLastCall := none } with
      | (entriesRight, .error fault) =>
        (entry :: (entriesLeft ++ entriesRight), .error fault)
      | (entriesRight, .ok (rhsExpression, pass)) =>
        let rightConstantResultOpt := pass.constantResultFromLastCall
        let pass := { pass with constantResultFromLastCall := none }
        (entry :: (entriesLeft ++ entriesRight),
          match leftConstantResultOpt, rightConstantResultOpt with
          | some lhsValue, some rhsValue =>
            match binaryOpType with
            | .Add =>
              .ok (.BinaryOp lhsExpression binaryOpType rhsExpression,
                { pass with
                  constantResultFromLastCall := some (wrapInt64 (lhsValue + rhsValue)) })
            | .Sub =>
              .ok (.BinaryOp lhsExpression binaryOpType rhsExpression,
                { pass with
                  constantResultFromLastCall := some (wrapInt64 (lhsValue - rhsValue)) })
            | .Mul =>
              .ok (.BinaryOp lhsExpression binaryOpType rhsExpression,
                { pass with
                  constantResultFromLastCall := some (wrapInt64 (lhsValue * rhsValue)) })
            | .Div =>
              if rhsValue = 0 then
                .ok (.BinaryOp lhsExpression binaryOpType rhsExpression,
                  { pass with constantResultFromLastCall := none })
              else if divisionOverflows lhsValue rhsValue then .error .divisionOverflow
              else
                .ok (.BinaryOp lhsExpression binaryOpType rhsExpression,
                  { pass with
                    constantResultFromLastCall :=
                      some (wrapInt64 (Int.tdiv lhsValue rhsValue)) })
          | some lhsValue, none =>
            .ok (.BinaryOp (.ConstantLiteral lhsValue) binaryOpType rhsExpression, pass)
          | none, some rhsValue =>
            .ok (.BinaryOp lhsExpression binaryOpType (.ConstantLiteral rhsValue), pass)
          | none, none => .ok (.BinaryOp lhsExpression binaryOpType rhsExpression, pass))

/-- Constant propagation on expressions (`ConstantPropagation::visit` for
`ConstantLiteral`, `Identifier`, `UnaryOp` and `BinaryOp`): the outcome of
the call, without the log. -/
def ConstantPropagation.visitExpression (expression : Expression)
    (pass : ConstantPropagation) : Except Fault (Expression × ConstantPropagation) :=
  (ConstantPropagation.visitExpressionTraced expression pass).2

/-- Constant propagation on statements (`ConstantPropagation::visit` for
`AssignmentStatement` and `ReturnStatement`), with the log of the visit of
the expression of the statement. -/
def ConstantPropagation.visitStatementTraced : Statement → ConstantPropagation →
    List (Option Int) × Except Fault (Statement × ConstantPropagation)
  | .AssignmentStatement assignmentTarget expression, pass =>
    match constructKey assignmentTarget.identifierType assignmentTarget.id with
    | .error fault => ([], .error fault)
    | .ok assignmentTargetKey =>
      match ConstantPropagation.visitExpressionTraced expression pass with
      | (entries, .error fault) => (entries, .error fault)
      | (entries, .ok (expression, pass)) =>
        (entries,
          match pass.constantResultFromLastCall with
          | some result =>
            .ok (.AssignmentStatement assignmentTarget (.ConstantLiteral result),
              { pass with
                variableTable := variableTableEmplaceAndSet pass.variableTable
                  assignmentTargetKey
                  (fun _ => { value := result, hasConstantAssignment := true })
                constantResultFromLastCall := none })
          | none =>
            .ok (.AssignmentStatement assignmentTarget expression,
              { pass with
                variableTable := variableTableEmplaceAndSet pass.variableTable
                  assignmentTargetKey
                  (fun assignment => { assignment with hasConstantAssignment := false }) }))
  | .ReturnStatement expression, pass =>
    match ConstantPropagation.visitExpressionTraced expression pass with
    | (entries, .error fault) => (entries, .error fault)
    | (entries, .ok (expression, pass)) =>
      (entries,
        match pass.constantResultFromLastCall with
        | some result =>
          .ok (.ReturnStatement (.ConstantLiteral result),
            { pass with constantResultFromLastCall := none })
        | none => .ok (.ReturnStatement expression, pass))

/-- Constant propagation on statements (`ConstantPropagation::visit` for
`AssignmentStatement` and `ReturnStatement`): the outcome of the call,
without the log. -/
def ConstantPropagation.visitStatement (stmt : Statement) (pass : ConstantPropagation) :
    Except Fault (Statement × ConstantPropagation) :=
  (ConstantPropagation.visitStatementTraced stmt pass).2

/-- The loop of `ConstantPropagation::visit(ast::Function&)` over the
statements, with the log of the visits of the statements one after the
other. -/
def ConstantPropagation.visitStatementsTraced : List Statement → ConstantPropagation →
    List (Option Int) × Except Fault (List Statement × ConstantPropagation)
  | [], pass => ([], .ok ([], pass))
  | stmt :: rest, pass =>
    match ConstantPropagation.visitStatementTraced stmt pass with
    | (entries, .error fault) => (entries, .error fault)
    | (entries, .ok (stmt, pass)) =>
      match ConstantPropagation.visitStatementsTraced rest pass with
      | (entriesRest, .error fault) => (entries ++ entriesRest, .error fault)
      | (entriesRest, .ok (rest, pass)) => (entries ++ entriesRest, .ok (stmt :: rest, pass))

/-- The loop of `ConstantPropagation::visit(ast::Function&)` over the
statements: the outcome, without the log. -/
def ConstantPropagation.visitStatements (statements : List Statement)
    (pass : ConstantPropagation) : Except Fault (List Statement × ConstantPropagation) :=
  (ConstantPropagation.visitStatementsTraced statements pass).2

/-- Constant propagation on a function
(`ConstantPropagation::visit(ast::Function&)`), with the log of the loop
over the statements. -/
def ConstantPropagation.visitTraced (node : Function) (pass : ConstantPropagation) :
    List (Option Int) × Except Fault (Function × ConstantPropagation) :=
  match ConstantPropagation.visitStatementsTraced node.statements pass with
  | (entries, .error fault) => (entries, .error fault)
  | (entries, .ok (statements, pass)) => (entries, .ok ({ statements := statements }, pass))

/-- Constant propagation on a function
(`ConstantPropagation::visit(ast::Function&)`): the outcome, without the
log. -/
def ConstantPropagation.visit (node : Function) (pass : ConstantPropagation) :
    Except Fault (Function × ConstantPropagation) :=
  (ConstantPropagation.visitTraced node pass).2

end optim

end pljit

namespace pljit

namespace optim

open ast exec

/-- Current value of the storage location named by a key of the variable
table: the parameter or the variable with that id, when it exists. -/
def valueAt (context : ExecutionContext) (key : IdentifierKey) : Option Int :=
  match key.2 with
  | .Parameter => context.parameterValues[key.1]?
  | .Variable => context.variableValues[key.1]?
  | .Constant => none

/-- An execution context agrees with a variable table when every parameter
and variable that the table marks as constant holds the recorded value. -/
def Consistent (table : List (IdentifierKey × VariableAssignment))
    (context : ExecutionContext) : Prop :=
  ∀ key assignment, variableTableFind table key = some assignment →
    assignment.hasConstantAssignment = true →
      valueAt context key = some assignment.value

end optim

end pljit

namespace pljit

namespace common

/-- Single location in the source code (`SourceLocationReference`): the
index of the character right of the location. -/
structure SourceLocationReference where
  ref : Nat
  deriving DecidableEq, Repr

/-- Constructor `SourceRangeReference(from, to)`. -/
def SourceRangeReference.fromTo (fromRef toRef : SourceLocationReference) :
    SourceRangeReference :=
  { ref := fromRef.ref, length := toRef.ref - fromRef.ref + 1 }

/-- Constructor `SourceRangeReference(locationRef)` of a range of length 1. -/
def SourceRangeReference.ofLocation (locationRef : SourceLocationReference) :
    SourceRangeReference :=
  { ref := locationRef.ref, length := 1 }

/-- Conversion of a range to the `std::string_view` of its characters. -/
def SourceRangeReference.toStringView (range : SourceRangeReference)
    (sourceCode : List Char) : List Char :=
  (sourceCode.drop range.ref).take range.length

/-- Extension of a range up to a location (`SourceRangeReference::extendUntil`);
the source asserts `location.ref >= ref`. -/
def SourceRangeReference.extendUntil (range : SourceRangeReference)
    (location : SourceLocationReference) : Except Fault SourceRangeReference :=
  if range.ref ≤ location.ref then
    .ok { ref := range.ref, length := location.ref - range.ref + 1 }
  else .error .assertion

/-- Location of the first character (`SourceRangeReference::first`); the
source asserts `length > 0`. -/
def SourceRangeReference.first (range : SourceRangeReference) :
    Except Fault SourceLocationReference :=
  if 0 < range.length then .ok { ref := range.ref } else .error .assertion

/-- Location of the last character (`SourceRangeReference::last`); the
source asserts `length > 0`. -/
def SourceRangeReference.last (range : SourceRangeReference) :
    Except Fault SourceLocationReference :=
  if 0 < range.length then .ok { ref := range.ref + (range.length - 1) }
  else .error .assertion

/-- One call of `SourceCodeManager::printContext`: the referenced range and
the message. -/
structure Diagnostic where
  ref : SourceRangeReference
  message : String
  deriving DecidableEq, Repr

/-- Source code manager (`SourceCodeManager.h`): the source text, and the
record of the calls of `printContext` made so far, oldest first. -/
structure SourceCodeManager where
  sourceCode : List Char
  printed : List Diagnostic := []
  deriving DecidableEq, Repr

/-- Call `printContext(SourceRangeReference, message)`. -/
def SourceCodeManager.printContext (manager : SourceCodeManager)
    (ref : SourceRangeReference) (message : String) : SourceCodeManager :=
  { manager with printed := manager.printed ++ [{ ref := ref, message := message }] }

/-- Call `printContext(SourceLocationReference, message)`: the context of the
range of length 1 at the location. -/
def SourceCodeManager.printContextAt (manager : SourceCodeManager)
    (location : SourceLocationReference) (message : String) : SourceCodeManager :=
  manager.printContext (SourceRangeReference.ofLocation location) message

end common

namespace lexer

open common

/-- Token types (`Token::Type`). -/
inductive TokenType where
  | Unknown
  | Param
  | Var
  | Const
  | Begin
  | End
  | Return
  | Comma
  | SemiColon
  | Assignment
  | Init
  | LeftParenthesis
  | RightParenthesis
  | ProgramTerminator
  | OpPlus
  | OpMinus
  | OpMul
  | OpDiv
  | Identifier
  | Literal
  | LexerError
  deriving DecidableEq, Repr

/-- Token returned by the lexer (`Token.h`). -/
structure Token where
  tokenType : TokenType
  ref : SourceRangeReference
  deriving DecidableEq, Repr

/-- Constructor of `Token`; the source asserts `tokenType != Type::Unknown`. -/
def Token.new (tokenType : TokenType) (ref : SourceRangeReference) : Except Fault Token :=
  if tokenType = .Unknown then .error .assertion
  else .ok { tokenType := tokenType, ref := ref }

/-- Test for an error token (`Token::hasError`). -/
def Token.hasError (token : Token) : Bool :=
  token.tokenType = .LexerError

/-- Whitespace characters (`isWhitespace`). -/
def isWhitespace (c : Char) : Bool :=
  c = ' ' || c = '\n' || c = '\t'

/-- Characters of a literal (`isLiteralChar`). -/
def isLiteralChar (c : Char) : Bool :=
  decide ('0' ≤ c) && decide (c ≤ '9')

/-- Characters of identifiers and keywords (`isAlphaChar`). -/
def isAlphaChar (c : Char) : Bool :=
  (decide ('A' ≤ c) && decide (c ≤ 'Z')) || (decide ('a' ≤ c) && decide (c ≤ 'z'))

/-- Characters that may occur in a program (`isLegalChar`). -/
def isLegalChar (c : Char) : Bool :=
  (decide ('(' ≤ c) && decide (c ≤ ';')) || c = '=' || isAlphaChar c || isWhitespace c

/-- Lexer (`Lexer.h`): `current` is the index of the next character to
read, the end iterator is the length of the source code. -/
structure Lexer where
  sourceCodeManager : SourceCodeManager
  current : Nat
  tokenCache : Option Token := none
  deriving DecidableEq, Repr

/-- Number of whitespace characters at the head of a character list. -/
def leadingWhitespace : List Char → Nat
  | [] => 0
  | c :: rest => if isWhitespace c then leadingWhitespace rest + 1 else 0

/-- Advance `current` to the next non-whitespace character or to the end
(`Lexer::trimLeadingWhitespace`). -/
def Lexer.trimLeadingWhitespace (lexer : Lexer) : Lexer :=
  { lexer with
    current := lexer.current +
      leadingWhitespace (lexer.sourceCodeManager.sourceCode.drop lexer.current) }

/-- Constructor of `Lexer`. -/
def Lexer.new (manager : SourceCodeManager) : Lexer :=
  Lexer.trimLeadingWhitespace { sourceCodeManager := manager, current := 0 }

/-- Test whether tokens are left (`Lexer::hasNext`). -/
def Lexer.hasNext (lexer : Lexer) : Bool :=
  lexer.current != lexer.sourceCodeManager.sourceCode.length || lexer.tokenCache.isSome

/-- Type of a single character token (`Lexer::determineSingleCharacterTokenType`). -/
def Lexer.determineSingleCharacterTokenType (c : Char) : TokenType :=
  if c = ',' then .Comma
  else if c = ';' then .SemiColon
  else if c = '=' then .Init
  else if c = '(' then .LeftParenthesis
  else if c = ')' then .RightParenthesis
  else if c = '.' then .ProgramTerminator
  else if c = '+' then .OpPlus
  else if c = '-' then .OpMinus
  else if c = '*' then .OpMul
  else if c = '/' then .OpDiv
  else .Unknown

/-- Type of a token made of letters (`Lexer::determineAlphaCharTokenType`);
the source asserts that the text is not empty. -/
def Lexer.determineAlphaCharTokenType (codeString : List Char) : Except Fault TokenType :=
  if codeString.isEmpty then .error .assertion
  else if codeString = "PARAM".toList then .ok .Param
  else if codeString = "VAR".toList then .ok .Var
  else if codeString = "CONST".toList then .ok .Const
  else if codeString = "BEGIN".toList then .ok .Begin
  else if codeString = "END".toList then .ok .End
  else if codeString = "RETURN".toList then .ok .Return
  else .ok .Identifier

/-- Ways in which the scanning loop of `Lexer::next` over the characters of
a multi-character token ends. -/
inductive ScanResult where
  | illegalCharacter (current : Nat)
  | unknownToken (current : Nat)
  | finished (tokenType : TokenType) (endRef : Nat) (current : Nat)
  deriving DecidableEq, Repr

/-- The loop `for (; current != end; ++current)` of `Lexer::next` over the
characters from `current` on, with the loop-carried `lastChar`, `tokenType`
and `endRef`. -/
def Lexer.scan (isLiteral : Bool) : List Char → Nat → Char → TokenType → Nat → ScanResult
  | [], current, _, tokenType, endRef => .finished tokenType endRef current
  | currentChar :: rest, current, lastChar, tokenType, endRef =>
    if !isLegalChar currentChar then .illegalCharacter current
    else if lastChar = ':' then
      if currentChar ≠ '=' then .unknownToken current
      else .finished .Assignment current (current + 1)
    else if !isLiteral && !isAlphaChar currentChar then .finished tokenType endRef current
    else if isLiteral && !isLiteralChar currentChar then .finished tokenType endRef current
    else Lexer.scan isLiteral rest (current + 1) currentChar tokenType current

/-- Store an error token in the cache and return it: the common end of the
three error paths of `Lexer::next`. -/
def Lexer.cacheError (lexer : Lexer) (ref : SourceRangeReference) (message : String) :
    Except Fault (Token × Lexer) :=
  match Token.new .LexerError ref with
  | .error fault => .error fault
  | .ok token =>
    .ok (token,
      { lexer with
        sourceCodeManager := lexer.sourceCodeManager.printContext ref message
        tokenCache := some token })

/-- Next token (`Lexer::next`).  The source asserts `hasNext()` and that
`current` does not point to a whitespace character. -/
def Lexer.next (lexer : Lexer) : Except Fault (Token × Lexer) :=
  match lexer.tokenCache with
  | some token =>
    if token.tokenType = .LexerError then .ok (token, lexer)
    else .ok (token, { lexer with tokenCache := none })
  | none =>
    if !lexer.hasNext then .error .assertion
    else
      match lexer.sourceCodeManager.sourceCode[lexer.current]? with
      | none => .error .outOfBounds
      | some firstChar =>
        if isWhitespace firstChar then .error .assertion
        else
          let startRef : SourceLocationReference := { ref := lexer.current }
          if !isLegalChar firstChar then
            lexer.cacheError (SourceRangeReference.ofLocation startRef)
              "error: illegal character"
          else
            let lexer := { lexer with current := lexer.current + 1 }
            let tokenType := Lexer.determineSingleCharacterTokenType firstChar
            if tokenType ≠ .Unknown then
              match Token.new tokenType (SourceRangeReference.ofLocation startRef) with
              | .error fault => .error fault
              | .ok token => .ok (token, lexer.trimLeadingWhitespace)
            else
              let isLiteral := isLiteralChar firstChar
              let tokenType := if isLiteral then TokenType.Literal else TokenType.Unknown
              match Lexer.scan isLiteral
                  (lexer.sourceCodeManager.sourceCode.drop lexer.current)
                  lexer.current firstChar tokenType startRef.ref with
              | .illegalCharacter current =>
                { lexer with current := current }.cacheError
                  (SourceRangeReference.ofLocation { ref := current })
                  "error: illegal character"
              | .unknownToken current =>
                { lexer with current := current }.cacheError
                  (SourceRangeReference.fromTo startRef { ref := current })
                  "error: unknown multi-character token"
              | .finished tokenType endRef current =>
                let lexer := { lexer with current := current }
                let ref := SourceRangeReference.fromTo startRef { ref := endRef }
                match (if tokenType = .Unknown then
                    Lexer.determineAlphaCharTokenType
                      (ref.toStringView lexer.sourceCodeManager.sourceCode)
                  else .ok tokenType) with
                | .error fault => .error fault
                | .ok tokenType =>
                  match Token.new tokenType ref with
                  | .error fault => .error fault
                  | .ok token => .ok (token, lexer.trimLeadingWhitespace)

/-- Peek at the next token (`Lexer::peek`). -/
def Lexer.peek (lexer : Lexer) : Except Fault (Token × Lexer) :=
  match lexer.tokenCache with
  | some token => .ok (token, lexer)
  | none =>
    match lexer.next with
    | .error fault => .error fault
    | .ok (token, lexer) => .ok (token, { lexer with tokenCache := some token })

end lexer

end pljit

namespace pljit

namespace parse_tree

open common

/-- Leaf node of a keyword, separator or operator (`parse_tree::GenericToken`). -/
structure GenericToken where
  ref : SourceRangeReference
  deriving DecidableEq, Repr

/-- Leaf node of an identifier (`parse_tree::Identifier`). -/
structure Identifier where
  ref : SourceRangeReference
  deriving DecidableEq, Repr

/-- Leaf node of a literal with its value (`parse_tree::Literal`). -/
structure Literal where
  value : Int
  ref : SourceRangeReference
  deriving DecidableEq, Repr

/-- Type tag of an additive expression (`AdditiveExpression::Type`). -/
inductive AdditiveExpressionType where
  | None
  | Add
  | Sub
  deriving DecidableEq, Repr

/-- Type tag of a multiplicative expression (`MultiplicativeExpression::Type`). -/
inductive MultiplicativeExpressionType where
  | None
  | Mul
  | Div
  deriving DecidableEq, Repr

/-- Type tag of a unary expression (`UnaryExpression::Type`). -/
inductive UnaryExpressionType where
  | Unsigned
  | PlusSign
  | MinusSign
  deriving DecidableEq, Repr

mutual

/-- Node `additive-expression`: a multiplicative expression alone, or a
multiplicative expression, an operator token and an additive expression. -/
inductive AdditiveExpression where
  | single (multiplicativeExpression : MultiplicativeExpression)
      (ref : SourceRangeReference)
  | binary (multiplicativeExpression : MultiplicativeExpression) (op : GenericToken)
      (additiveExpression : AdditiveExpression)
      (additiveExpressionType : AdditiveExpressionType) (ref : SourceRangeReference)

/-- Node `multiplicative-expression`: a unary expression alone, or a unary
expression, an operator token and a multiplicative expression. -/
inductive MultiplicativeExpression where
  | single (unaryExpression : UnaryExpression) (ref : SourceRangeReference)
  | binary (unaryExpression : UnaryExpression) (op : GenericToken)
      (multiplicativeExpression : MultiplicativeExpression)
      (multiplicativeExpressionType : MultiplicativeExpressionType)
      (ref : SourceRangeReference)

/-- Node `unary-expression`: a primary expression with an optional sign. -/
inductive UnaryExpression where
  | unsigned (primaryExpression : PrimaryExpression) (ref : SourceRangeReference)
  | signed (sign : GenericToken) (primaryExpression : PrimaryExpression)
      (unaryExpressionType : UnaryExpressionType) (ref : SourceRangeReference)

/-- Node `primary-expression`: an identifier, a literal or a parenthesized
additive expression. -/
inductive PrimaryExpression where
  | Identifier (identifier : Identifier) (ref : SourceRangeReference)
  | Literal (literal : Literal) (ref : SourceRangeReference)
  | Parenthesized (leftParenthesis : GenericToken)
      (additiveExpression : AdditiveExpression) (rightParenthesis : GenericToken)
      (ref : SourceRangeReference)

end

/-- Range of an additive expression (`getReference`). -/
def AdditiveExpression.getReference : AdditiveExpression → SourceRangeReference
  | .single _ ref => ref
  | .binary _ _ _ _ ref => ref

/-- Range of a multiplicative expression (`getReference`). -/
def MultiplicativeExpression.getReference : MultiplicativeExpression → SourceRangeReference
  | .single _ ref => ref
  | .binary _ _ _ _ ref => ref

/-- Range of a unary expression (`getReference`). -/
def UnaryExpression.getReference : UnaryExpression → SourceRangeReference
  | .unsigned _ ref => ref
  | .signed _ _ _ ref => ref

/-- Range of a primary expression (`getReference`). -/
def PrimaryExpression.getReference : PrimaryExpression → SourceRangeReference
  | .Identifier _ ref => ref
  | .Literal _ ref => ref
  | .Parenthesized _ _ _ ref => ref

/-- Constructor of an additive expression with operator: the type is `Add`
when the text of the operator token is `+` and `Sub` otherwise; the source
asserts that the text is `-` in the second case. -/
def AdditiveExpression.newBinary (sourceCode : List Char)
    (multiplicativeExpression : MultiplicativeExpression) (op : GenericToken)
    (additiveExpression : AdditiveExpression) (ref : SourceRangeReference) :
    Except Fault AdditiveExpression :=
  if op.ref.toStringView sourceCode = ['+'] then
    .ok (.binary multiplicativeExpression op additiveExpression .Add ref)
  else if op.ref.toStringView sourceCode = ['-'] then
    .ok (.binary multiplicativeExpression op additiveExpression .Sub ref)
  else .error .assertion

/-- Constructor of a multiplicative expression with operator: the type is
`Mul` when the text of the operator token is `*` and `Div` otherwise; the
source asserts that the text is `/` in the second case. -/
def MultiplicativeExpression.newBinary (sourceCode : List Char)
    (unaryExpression : UnaryExpression) (op : GenericToken)
    (multiplicativeExpression : MultiplicativeExpression) (ref : SourceRangeReference) :
    Except Fault MultiplicativeExpression :=
  if op.ref.toStringView sourceCode = ['*'] then
    .ok (.binary unaryExpression op multiplicativeExpression .Mul ref)
  else if op.ref.toStringView sourceCode = ['/'] then
    .ok (.binary unaryExpression op multiplicativeExpression .Div ref)
  else .error .assertion

/-- Constructor of a signed unary expression: the type is `PlusSign` when
the text of the sign token is `+` and `MinusSign` otherwise; the source
asserts that the text is `-` in the second case. -/
def UnaryExpression.newSigned (sourceCode : List Char) (sign : GenericToken)
    (primaryExpression : PrimaryExpression) (ref : SourceRangeReference) :
    Except Fault UnaryExpression :=
  if sign.ref.toStringView sourceCode = ['+'] then
    .ok (.signed sign primaryExpression .PlusSign ref)
  else if sign.ref.toStringView sourceCode = ['-'] then
    .ok (.signed sign primaryExpression .MinusSign ref)
  else .error .assertion

/-- Node `assignment-expression` (`parse_tree::AssignmentExpression`). -/
structure AssignmentExpression where
  identifier : Identifier
  assignmentToken : GenericToken
  additiveExpression : AdditiveExpression
  ref : SourceRangeReference

/-- Node `statement` (`parse_tree::Statement`): an assignment expression,
or the keyword `RETURN` and an additive expression. -/
inductive Statement where
  | AssignmentStatement (assignmentExpression : AssignmentExpression)
      (ref : SourceRangeReference)
  | ReturnStatement (returnKeyword : GenericToken)
      (additiveExpression : AdditiveExpression) (ref : SourceRangeReference)

/-- Range of a statement (`getReference`). -/
def Statement.getReference : Statement → SourceRangeReference
  | .AssignmentStatement _ ref => ref
  | .ReturnStatement _ _ ref => ref

/-- Child of a statement list: a statement or a separating semicolon. -/
inductive StatementListChild where
  | Statement (statement : Statement)
  | GenericToken (token : GenericToken)

/-- Range of a child of a statement list. -/
def StatementListChild.getReference : StatementListChild → SourceRangeReference
  | .Statement statement => statement.getReference
  | .GenericToken token => token.ref

/-- Node `statement-list` (`parse_tree::StatementList`). -/
structure StatementList where
  children : List StatementListChild
  ref : SourceRangeReference

/-- Node `compound-statement` (`parse_tree::CompoundStatement`). -/
structure CompoundStatement where
  beginKeyword : GenericToken
  statementList : StatementList
  endKeyword : GenericToken
  ref : SourceRangeReference

/-- Child of a declarator list: an identifier or a separating comma. -/
inductive DeclaratorListChild where
  | Identifier (identifier : Identifier)
  | GenericToken (token : GenericToken)
  deriving DecidableEq, Repr

/-- Range of a child of a declarator list. -/
def DeclaratorListChild.getReference : DeclaratorListChild → SourceRangeReference
  | .Identifier identifier => identifier.ref
  | .GenericToken token => token.ref

/-- Node `declarator-list` (`parse_tree::DeclaratorList`). -/
structure DeclaratorList where
  children : List DeclaratorListChild
  ref : SourceRangeReference
  deriving DecidableEq, Repr

/-- Node `init-declarator` (`parse_tree::InitDeclarator`). -/
structure InitDeclarator where
  identifier : Identifier
  initToken : GenericToken
  literal : Literal
  ref : SourceRangeReference
  deriving DecidableEq, Repr

/-- Child of an init-declarator list: an init-declarator or a comma. -/
inductive InitDeclaratorListChild where
  | InitDeclarator (initDeclarator : InitDeclarator)
  | GenericToken (token : GenericToken)
  deriving DecidableEq, Repr

/-- Range of a child of an init-declarator list. -/
def InitDeclaratorListChild.getReference : InitDeclaratorListChild → SourceRangeReference
  | .InitDeclarator initDeclarator => initDeclarator.ref
  | .GenericToken token => token.ref

/-- Node `init-declarator-list` (`parse_tree::InitDeclaratorList`). -/
structure InitDeclaratorList where
  children : List InitDeclaratorListChild
  ref : SourceRangeReference
  deriving DecidableEq, Repr

/-- Node `parameter-declarations` (`parse_tree::ParameterDeclarations`). -/
structure ParameterDeclarations where
  paramKeyword : GenericToken
  declaratorList : DeclaratorList
  semiColon : GenericToken
  ref : SourceRangeReference
  deriving DecidableEq, Repr

/-- Node `variable-declarations` (`parse_tree::VariableDeclarations`). -/
structure VariableDeclarations where
  varKeyword : GenericToken
  declaratorList : DeclaratorList
  semiColon : GenericToken
  ref : SourceRangeReference
  deriving DecidableEq, Repr

/-- Node `constant-declarations` (`parse_tree::ConstantDeclarations`). -/
structure ConstantDeclarations where
  constKeyword : GenericToken
  initDeclaratorList : InitDeclaratorList
  semiColon : GenericToken
  ref : SourceRangeReference
  deriving DecidableEq, Repr

/-- Root node `function-definition` (`parse_tree::FunctionDefinition`). -/
structure FunctionDefinition where
  parameterDeclarations : Option ParameterDeclarations
  variableDeclarations : Option VariableDeclarations
  constantDeclarations : Option ConstantDeclarations
  compoundStatement : CompoundStatement
  programTerminator : GenericToken
  ref : SourceRangeReference

end parse_tree

end pljit

namespace pljit

namespace parser

open common lexer parse_tree

/-- Conversion of the text of a literal (`parseLiteralToInt64`): the loop
runs from the last character to the first with `uint64_t` arithmetic. -/
def parseLiteralToInt64.loop (str : List Char) : Nat → Nat → Nat → Nat
  | 0, result, _ => result
  | offset + 1, result, shift =>
    parseLiteralToInt64.loop str offset
      ((result + (((str.getD offset '0').toNat - '0'.toNat) * shift) % 18446744073709551616)
        % 18446744073709551616)
      ((shift * 10) % 18446744073709551616)

/-- Conversion of the text of a literal into an `int64_t`
(`parseLiteralToInt64`): the `uint64_t` result is cast to `int64_t`. -/
def parseLiteralToInt64 (str : List Char) : Int :=
  wrapInt64 (parseLiteralToInt64.loop str str.length 0 1 : Nat)

/-- Error messages of the parser for an expected token
(`getErrorMessageForToken`). -/
def getErrorMessageForToken (tokenType : TokenType) (noTokenLeft : Bool) : String :=
  match tokenType with
  | .SemiColon =>
    if noTokenLeft then "error: expected ';' afterwards" else "error: expected ';'"
  | .Comma =>
    if noTokenLeft then "error: expected ',' afterwards" else "error: expected ','"
  | .Identifier =>
    if noTokenLeft then "error: expected identifier afterwards"
    else "error: expected identifier"
  | .Literal =>
    if noTokenLeft then "error: expected literal afterwards" else "error: expected literal"
  | .Init =>
    if noTokenLeft then "error: expected '=' afterwards" else "error: expected '='"
  | .Begin =>
    if noTokenLeft then "error: expected 'BEGIN' afterwards" else "error: expected 'BEGIN'"
  | .End =>
    if noTokenLeft then "error: expected 'END' afterwards" else "error: expected 'END'"
  | .ProgramTerminator =>
    if noTokenLeft then "error: expected '.' afterwards" else "error: expected '.'"
  | .Assignment =>
    if noTokenLeft then "error: expected ':=' afterwards" else "error: expected ':='"
  | .LeftParenthesis =>
    if noTokenLeft then "error: expected '(' afterwards" else "error: expected '('"
  | .RightParenthesis =>
    if noTokenLeft then "error: expected ')' afterwards" else "error: expected ')'"
  | _ => "unknown error"

/-- Parser (`Parser.h`).  The source code manager of the parser is the one
held by its lexer. -/
structure Parser where
  lexer : Lexer
  refToLastChar : SourceLocationReference
  deriving DecidableEq, Repr

/-- Outcome of a parsing function: a node and the parser after the call, a
`nullptr` (parse error) and the parser after the call, or a fault. -/
inductive ParseResult (α : Type) where
  | ok (node : α) (parser : Parser)
  | error (parser : Parser)
  | fault (fault : Fault)

/-- Continue after a parsing function unless it returned `nullptr` or
faulted: the pattern `auto x = parseX(); if (hasError(x)) return error();`. -/
def ParseResult.bind {α β : Type} (result : ParseResult α)
    (next : α → Parser → ParseResult β) : ParseResult β :=
  match result with
  | .ok node parser => next node parser
  | .error parser => .error parser
  | .fault cause => .fault cause

/-- Continue with the value of a computation that can only fault. -/
def ParseResult.ofExcept {α β : Type} (result : Except Fault α)
    (next : α → ParseResult β) : ParseResult β :=
  match result with
  | .ok value => next value
  | .error cause => .fault cause

/-- Call of `sourceCodeManager.printContext` with a range from the parser. -/
def Parser.printContext (parser : Parser) (ref : SourceRangeReference)
    (message : String) : Parser :=
  { parser with
    lexer := { parser.lexer with
      sourceCodeManager := parser.lexer.sourceCodeManager.printContext ref message } }

/-- Call of `sourceCodeManager.printContext` with a location from the parser. -/
def Parser.printContextAt (parser : Parser) (location : SourceLocationReference)
    (message : String) : Parser :=
  parser.printContext (SourceRangeReference.ofLocation location) message

/-- Constructor of `Parser`: the lexer is constructed and `refToLastChar` is
initialised with `lexer.peek().getReference().first()`. -/
def Parser.new (sourceCodeManager : SourceCodeManager) : Except Fault Parser :=
  match (Lexer.new sourceCodeManager).peek with
  | .error fault => .error fault
  | .ok (token, lexer) =>
    match token.ref.first with
    | .error fault => .error fault
    | .ok first => .ok { lexer := lexer, refToLastChar := first }

/-- The test `lexer.hasNext() && lexer.peek().getTokenType() == ...` on the
type of the next token: the peeked token type when a token is left. -/
def Parser.peekTokenType (parser : Parser) : Except Fault (Option Token × Parser) :=
  if !parser.lexer.hasNext then .ok (none, parser)
  else
    match parser.lexer.peek with
    | .error fault => .error fault
    | .ok (token, lexer) => .ok (some token, { parser with lexer := lexer })

/-- Parse an identifier (`Parser::parseIdentifier`). -/
def Parser.parseIdentifier (parser : Parser) : ParseResult Identifier :=
  if !parser.lexer.hasNext then
    .error (parser.printContextAt parser.refToLastChar
      (getErrorMessageForToken .Identifier true))
  else
    match parser.lexer.next with
    | .error fault => .fault fault
    | .ok (token, lexer) =>
      let parser := { parser with lexer := lexer }
      if token.hasError then .error parser
      else if token.tokenType ≠ .Identifier then
        .error (parser.printContext token.ref (getErrorMessageForToken .Identifier false))
      else
        ParseResult.ofExcept token.ref.last fun last =>
          .ok { ref := token.ref } { parser with refToLastChar := last }

/-- Parse a literal (`Parser::parseLiteral`). -/
def Parser.parseLiteral (parser : Parser) : ParseResult Literal :=
  if !parser.lexer.hasNext then
    .error (parser.printContextAt parser.refToLastChar
      (getErrorMessageForToken .Literal true))
  else
    match parser.lexer.next with
    | .error fault => .fault fault
    | .ok (token, lexer) =>
      let parser := { parser with lexer := lexer }
      if token.hasError then .error parser
      else if token.tokenType ≠ .Literal then
        .error (parser.printContext token.ref (getErrorMessageForToken .Literal false))
      else
        ParseResult.ofExcept token.ref.last fun last =>
          .ok
            { value := parseLiteralToInt64
                (token.ref.toStringView parser.lexer.sourceCodeManager.sourceCode)
              ref := token.ref }
            { parser with refToLastChar := last }

/-- Parse a token of an expected type (`Parser::parseGenericToken`). -/
def Parser.parseGenericToken (expectedTokenType : TokenType) (parser : Parser) :
    ParseResult GenericToken :=
  if !parser.lexer.hasNext then
    .error (parser.printContextAt parser.refToLastChar
      (getErrorMessageForToken expectedTokenType true))
  else
    match parser.lexer.next with
    | .error fault => .fault fault
    | .ok (token, lexer) =>
      let parser := { parser with lexer := lexer }
      if token.hasError then .error parser
      else if token.tokenType ≠ expectedTokenType then
        .error (parser.printContext token.ref
          (getErrorMessageForToken expectedTokenType false))
      else
        ParseResult.ofExcept token.ref.last fun last =>
          .ok { ref := token.ref } { parser with refToLastChar := last }

/-- The loop of `Parser::parseDeclaratorList`: as long as the next token is a
comma, the comma and an identifier are parsed and appended. -/
def Parser.parseDeclaratorListLoop : Nat → List DeclaratorListChild → Parser →
    ParseResult (List DeclaratorListChild)
  | 0, _, _ => .fault .outOfFuel
  | fuel + 1, children, parser =>
    ParseResult.ofExcept parser.peekTokenType fun (peeked, parser) =>
      if (peeked.map (·.tokenType)) = some .Comma then
        (parser.parseGenericToken .Comma).bind fun comma parser =>
          parser.parseIdentifier.bind fun identifier parser =>
            Parser.parseDeclaratorListLoop fuel
              (children ++ [.GenericToken comma, .Identifier identifier]) parser
      else .ok children parser

/-- Parse a declarator list (`Parser::parseDeclaratorList`). -/
def Parser.parseDeclaratorList (fuel : Nat) (parser : Parser) : ParseResult DeclaratorList :=
  parser.parseIdentifier.bind fun firstIdentifier parser =>
    (Parser.parseDeclaratorListLoop fuel [.Identifier firstIdentifier] parser).bind
      fun children parser =>
        match children.head?, children.getLast? with
        | some front, some back =>
          if children.length ≠ 1 then
            ParseResult.ofExcept back.getReference.last fun last =>
              ParseResult.ofExcept (front.getReference.extendUntil last) fun newRangeRef =>
                .ok { children := children, ref := newRangeRef } parser
          else .ok { children := children, ref := front.getReference } parser
        | _, _ => .fault .outOfBounds

/-- Parse an init-declarator (`Parser::parseInitDeclarator`). -/
def Parser.parseInitDeclarator (parser : Parser) : ParseResult InitDeclarator :=
  parser.parseIdentifier.bind fun identifier parser =>
    (parser.parseGenericToken .Init).bind fun init parser =>
      parser.parseLiteral.bind fun literal parser =>
        ParseResult.ofExcept literal.ref.last fun last =>
          ParseResult.ofExcept (identifier.ref.extendUntil last) fun newRangeRef =>
            .ok { identifier := identifier, initToken := init, literal := literal,
                  ref := newRangeRef } parser

/-- The loop of `Parser::parseInitDeclaratorList`: as long as the next token
is a comma, the comma and an init-declarator are parsed and appended. -/
def Parser.parseInitDeclaratorListLoop : Nat → List InitDeclaratorListChild → Parser →
    ParseResult (List InitDeclaratorListChild)
  | 0, _, _ => .fault .outOfFuel
  | fuel + 1, children, parser =>
    ParseResult.ofExcept parser.peekTokenType fun (peeked, parser) =>
      if (peeked.map (·.tokenType)) = some .Comma then
        (parser.parseGenericToken .Comma).bind fun comma parser =>
          parser.parseInitDeclarator.bind fun initDeclarator parser =>
            Parser.parseInitDeclaratorListLoop fuel
              (children ++ [.GenericToken comma, .InitDeclarator initDeclarator]) parser
      else .ok children parser

/-- Parse an init-declarator list (`Parser::parseInitDeclaratorList`). -/
def Parser.parseInitDeclaratorList (fuel : Nat) (parser : Parser) :
    ParseResult InitDeclaratorList :=
  parser.parseInitDeclarator.bind fun firstInitDeclarator parser =>
    (Parser.parseInitDeclaratorListLoop fuel [.InitDeclarator firstInitDeclarator]
      parser).bind fun children parser =>
        match children.head?, children.getLast? with
        | some front, some back =>
          if children.length ≠ 1 then
            ParseResult.ofExcept back.getReference.last fun last =>
              ParseResult.ofExcept (front.getReference.extendUntil last) fun newRangeRef =>
                .ok { children := children, ref := newRangeRef } parser
          else .ok { children := children, ref := front.getReference } parser
        | _, _ => .fault .outOfBounds

/-- Parse the parameter declarations (`Parser::parseParameterDeclarations`). -/
def Parser.parseParameterDeclarations (fuel : Nat) (parser : Parser) :
    ParseResult ParameterDeclarations :=
  (parser.parseGenericToken .Param).bind fun paramKeyword parser =>
    (parser.parseDeclaratorList fuel).bind fun declaratorList parser =>
      (parser.parseGenericToken .SemiColon).bind fun semiColon parser =>
        ParseResult.ofExcept semiColon.ref.last fun last =>
          ParseResult.ofExcept (paramKeyword.ref.extendUntil last) fun newRangeRef =>
            .ok { paramKeyword := paramKeyword, declaratorList := declaratorList,
                  semiColon := semiColon, ref := newRangeRef } parser

/-- Parse the variable declarations (`Parser::parseVariableDeclarations`). -/
def Parser.parseVariableDeclarations (fuel : Nat) (parser : Parser) :
    ParseResult VariableDeclarations :=
  (parser.parseGenericToken .Var).bind fun varKeyword parser =>
    (parser.parseDeclaratorList fuel).bind fun declaratorList parser =>
      (parser.parseGenericToken .SemiColon).bind fun semiColon parser =>
        ParseResult.ofExcept semiColon.ref.last fun last =>
          ParseResult.ofExcept (varKeyword.ref.extendUntil last) fun newRangeRef =>
            .ok { varKeyword := varKeyword, declaratorList := declaratorList,
                  semiColon := semiColon, ref := newRangeRef } parser

/-- Parse the constant declarations (`Parser::parseConstantDeclarations`). -/
def Parser.parseConstantDeclarations (fuel : Nat) (parser : Parser) :
    ParseResult ConstantDeclarations :=
  (parser.parseGenericToken .Const).bind fun constKeyword parser =>
    (parser.parseInitDeclaratorList fuel).bind fun initDeclaratorList parser =>
      (parser.parseGenericToken .SemiColon).bind fun semiColon parser =>
        ParseResult.ofExcept semiColon.ref.last fun last =>
          ParseResult.ofExcept (constKeyword.ref.extendUntil last) fun newRangeRef =>
            .ok { constKeyword := constKeyword, initDeclaratorList := initDeclaratorList,
                  semiColon := semiColon, ref := newRangeRef } parser

mutual

/-- Parse an additive expression (`Parser::parseAdditiveExpression`). -/
def Parser.parseAdditiveExpression : Nat → Parser → ParseResult AdditiveExpression
  | 0, _ => .fault .outOfFuel
  | fuel + 1, parser =>
    (Parser.parseMultiplicativeExpression fuel parser).bind
      fun multiplicativeExpression parser =>
        ParseResult.ofExcept parser.peekTokenType fun (peeked, parser) =>
          match peeked with
          | some token =>
            if token.tokenType = .OpPlus ∨ token.tokenType = .OpMinus then
              (parser.parseGenericToken token.tokenType).bind fun op parser =>
                (Parser.parseAdditiveExpression fuel parser).bind
                  fun additiveExpression parser =>
                    ParseResult.ofExcept additiveExpression.getReference.last fun last =>
                      ParseResult.ofExcept
                        (multiplicativeExpression.getReference.extendUntil last)
                        fun newRangeRef =>
                          ParseResult.ofExcept
                            (AdditiveExpression.newBinary
                              parser.lexer.sourceCodeManager.sourceCode
                              multiplicativeExpression op additiveExpression newRangeRef)
                            fun node => .ok node parser
            else
              .ok (.single multiplicativeExpression multiplicativeExpression.getReference)
                parser
          | none =>
            .ok (.single multiplicativeExpression multiplicativeExpression.getReference)
              parser

/-- Parse a multiplicative expression (`Parser::parseMultiplicativeExpression`). -/
def Parser.parseMultiplicativeExpression : Nat → Parser →
    ParseResult MultiplicativeExpression
  | 0, _ => .fault .outOfFuel
  | fuel + 1, parser =>
    (Parser.parseUnaryExpression fuel parser).bind fun unaryExpression parser =>
      ParseResult.ofExcept parser.peekTokenType fun (peeked, parser) =>
        match peeked with
        | some token =>
          if token.tokenType = .OpMul ∨ token.tokenType = .OpDiv then
            (parser.parseGenericToken token.tokenType).bind fun op parser =>
              (Parser.parseMultiplicativeExpression fuel parser).bind
                fun multiplicativeExpression parser =>
                  ParseResult.ofExcept multiplicativeExpression.getReference.last
                    fun last =>
                      ParseResult.ofExcept (unaryExpression.getReference.extendUntil last)
                        fun newRangeRef =>
                          ParseResult.ofExcept
                            (MultiplicativeExpression.newBinary
                              parser.lexer.sourceCodeManager.sourceCode
                              unaryExpression op multiplicativeExpression newRangeRef)
                            fun node => .ok node parser
          else .ok (.single unaryExpression unaryExpression.getReference) parser
        | none => .ok (.single unaryExpression unaryExpression.getReference) parser

/-- Parse a unary expression (`Parser::parseUnaryExpression`). -/
def Parser.parseUnaryExpression : Nat → Parser → ParseResult UnaryExpression
  | 0, _ => .fault .outOfFuel
  | fuel + 1, parser =>
    if !parser.lexer.hasNext then
      .error (parser.printContextAt parser.refToLastChar
        "error: expected unary-expression or primary-expression afterwards")
    else
      ParseResult.ofExcept parser.lexer.peek fun (token, lexer) =>
        let parser := { parser with lexer := lexer }
        let nextTokenType := token.tokenType
        if nextTokenType = .OpPlus ∨ nextTokenType = .OpMinus then
          (parser.parseGenericToken nextTokenType).bind fun sign parser =>
            (Parser.parsePrimaryExpression fuel parser).bind fun primaryExpression parser =>
              ParseResult.ofExcept primaryExpression.getReference.last fun last =>
                ParseResult.ofExcept (sign.ref.extendUntil last) fun newRangeRef =>
                  ParseResult.ofExcept
                    (UnaryExpression.newSigned parser.lexer.sourceCodeManager.sourceCode
                      sign primaryExpression newRangeRef)
                    fun node => .ok node parser
        else
          (Parser.parsePrimaryExpression fuel parser).bind fun primaryExpression parser =>
            .ok (.unsigned primaryExpression primaryExpression.getReference) parser

/-- Parse a primary expression (`Parser::parsePrimaryExpression`). -/
def Parser.parsePrimaryExpression : Nat → Parser → ParseResult PrimaryExpression
  | 0, _ => .fault .outOfFuel
  | fuel + 1, parser =>
    if !parser.lexer.hasNext then
      .error (parser.printContextAt parser.refToLastChar
        "error: expected primary-expression afterwards")
    else
      ParseResult.ofExcept parser.lexer.peek fun (token, lexer) =>
        let parser := { parser with lexer := lexer }
        let nextTokenType := token.tokenType
        if nextTokenType = .Identifier then
          parser.parseIdentifier.bind fun identifier parser =>
            .ok (.Identifier identifier identifier.ref) parser
        else if nextTokenType = .Literal then
          parser.parseLiteral.bind fun literal parser =>
            .ok (.Literal literal literal.ref) parser
        else if nextTokenType ≠ .LeftParenthesis then
          .error (parser.printContext token.ref "error: expected primary-expression")
        else
          (parser.parseGenericToken .LeftParenthesis).bind fun leftParenthesis parser =>
            (Parser.parseAdditiveExpression fuel parser).bind
              fun additiveExpression parser =>
                match parser.parseGenericToken .RightParenthesis with
                | .fault fault => .fault fault
                | .error parser =>
                  .error (parser.printContext leftParenthesis.ref "note: to match this '('")
                | .ok rightParenthesis parser =>
                  ParseResult.ofExcept rightParenthesis.ref.last fun last =>
                    ParseResult.ofExcept (leftParenthesis.ref.extendUntil last)
                      fun newRangeRef =>
                        .ok (.Parenthesized leftParenthesis additiveExpression
                          rightParenthesis newRangeRef) parser

end

/-- Parse an assignment expression (`Parser::parseAssignmentExpression`). -/
def Parser.parseAssignmentExpression (fuel : Nat) (parser : Parser) :
    ParseResult AssignmentExpression :=
  parser.parseIdentifier.bind fun identifier parser =>
    (parser.parseGenericToken .Assignment).bind fun assignment parser =>
      (Parser.parseAdditiveExpression fuel parser).bind fun additiveExpression parser =>
        ParseResult.ofExcept additiveExpression.getReference.last fun last =>
          ParseResult.ofExcept (identifier.ref.extendUntil last) fun newRangeRef =>
            .ok { identifier := identifier, assignmentToken := assignment,
                  additiveExpression := additiveExpression, ref := newRangeRef } parser

/-- Parse a statement (`Parser::parseStatement`). -/
def Parser.parseStatement (fuel : Nat) (parser : Parser) : ParseResult Statement :=
  if !parser.lexer.hasNext then
    .error (parser.printContextAt parser.refToLastChar "error: expected statement afterwards")
  else
    ParseResult.ofExcept parser.lexer.peek fun (token, lexer) =>
      let parser := { parser with lexer := lexer }
      if token.tokenType = .Return then
        (parser.parseGenericToken .Return).bind fun returnKeyword parser =>
          (Parser.parseAdditiveExpression fuel parser).bind fun additiveExpression parser =>
            ParseResult.ofExcept additiveExpression.getReference.last fun last =>
              ParseResult.ofExcept (returnKeyword.ref.extendUntil last) fun newRangeRef =>
                .ok (.ReturnStatement returnKeyword additiveExpression newRangeRef) parser
      else if token.tokenType ≠ .Identifier then
        .error (parser.printContext token.ref "error: expected statement")
      else
        (Parser.parseAssignmentExpression fuel parser).bind
          fun assignmentExpression parser =>
            .ok (.AssignmentStatement assignmentExpression assignmentExpression.ref) parser

/-- The loop of `Parser::parseStatementList`: as long as the next token is a
semicolon, the semicolon and a statement are parsed and appended. -/
def Parser.parseStatementListLoop : Nat → List StatementListChild → Parser →
    ParseResult (List StatementListChild)
  | 0, _, _ => .fault .outOfFuel
  | fuel + 1, children, parser =>
    ParseResult.ofExcept parser.peekTokenType fun (peeked, parser) =>
      if (peeked.map (·.tokenType)) = some .SemiColon then
        (parser.parseGenericToken .SemiColon).bind fun semiColon parser =>
          (Parser.parseStatement fuel parser).bind fun statement parser =>
            Parser.parseStatementListLoop fuel
              (children ++ [.GenericToken semiColon, .Statement statement]) parser
      else .ok children parser

/-- Parse a statement list (`Parser::parseStatementList`). -/
def Parser.parseStatementList (fuel : Nat) (parser : Parser) : ParseResult StatementList :=
  (Parser.parseStatement fuel parser).bind fun firstStatement parser =>
    (Parser.parseStatementListLoop fuel [.Statement firstStatement] parser).bind
      fun children parser =>
        match children.head?, children.getLast? with
        | some front, some back =>
          if children.length ≠ 1 then
            ParseResult.ofExcept back.getReference.last fun last =>
              ParseResult.ofExcept (front.getReference.extendUntil last) fun newRangeRef =>
                .ok { children := children, ref := newRangeRef } parser
          else .ok { children := children, ref := front.getReference } parser
        | _, _ => .fault .outOfBounds

/-- Parse a compound statement (`Parser::parseCompoundStatement`). -/
def Parser.parseCompoundStatement (fuel : Nat) (parser : Parser) :
    ParseResult CompoundStatement :=
  (parser.parseGenericToken .Begin).bind fun beginKeyword parser =>
    (Parser.parseStatementList fuel parser).bind fun statementList parser =>
      match parser.parseGenericToken .End with
      | .fault fault => .fault fault
      | .error parser =>
        .error (parser.printContext beginKeyword.ref "note: to match this 'BEGIN'")
      | .ok endKeyword parser =>
        ParseResult.ofExcept endKeyword.ref.last fun last =>
          ParseResult.ofExcept (beginKeyword.ref.extendUntil last) fun newRangeRef =>
            .ok { beginKeyword := beginKeyword, statementList := statementList,
                  endKeyword := endKeyword, ref := newRangeRef } parser

/-- First range of a function definition
(`getStartingRangeReferenceForFunctionDef`). -/
def getStartingRangeReferenceForFunctionDef
    (parameterDeclarations : Option ParameterDeclarations)
    (variableDeclarations : Option VariableDeclarations)
    (constantDeclarations : Option ConstantDeclarations)
    (compoundStatement : CompoundStatement) : SourceRangeReference :=
  match parameterDeclarations with
  | some node => node.ref
  | none =>
    match variableDeclarations with
    | some node => node.ref
    | none =>
      match constantDeclarations with
      | some node => node.ref
      | none => compoundStatement.ref

/-- One of the three optional declaration sections of
`Parser::parseFunctionDefinition`: when the next token has the type of the
section keyword, the section is parsed, and the end of the input right
after it is reported with the message of the section. -/
def Parser.parseOptionalSection {α : Type} (keyword : TokenType)
    (parseSection : Parser → ParseResult α) (getReference : α → SourceRangeReference)
    (message : String) (parser : Parser) : ParseResult (Option α) :=
  ParseResult.ofExcept parser.peekTokenType fun (peeked, parser) =>
    if (peeked.map (·.tokenType)) = some keyword then
      (parseSection parser).bind fun declarations parser =>
        if !parser.lexer.hasNext then
          ParseResult.ofExcept (getReference declarations).last fun last =>
            .error (parser.printContextAt last message)
        else .ok (some declarations) parser
    else .ok none parser

/-- Parse the source code (`Parser::parseFunctionDefinition`). -/
def Parser.parseFunctionDefinition (fuel : Nat) (parser : Parser) :
    ParseResult FunctionDefinition :=
  (Parser.parseOptionalSection .Param (Parser.parseParameterDeclarations fuel) (·.ref)
    "error: expected afterwards either 'VAR', 'CONST', or 'BEGIN'" parser).bind
    fun parameterDeclarations parser =>
  (Parser.parseOptionalSection .Var (Parser.parseVariableDeclarations fuel) (·.ref)
    "error: expected afterwards either 'CONST' or 'BEGIN'" parser).bind
    fun variableDeclarations parser =>
  (Parser.parseOptionalSection .Const (Parser.parseConstantDeclarations fuel) (·.ref)
    "error: expected afterwards 'BEGIN'" parser).bind
    fun constantDeclarations parser =>
  (Parser.parseCompoundStatement fuel parser).bind fun compoundStatement parser =>
  (parser.parseGenericToken .ProgramTerminator).bind fun programTerminator parser =>
    if parser.lexer.hasNext then
      ParseResult.ofExcept parser.lexer.peek fun (token, lexer) =>
        .error ({ parser with lexer := lexer }.printContext token.ref
          "error: expected no tokens after the program terminator")
    else
      ParseResult.ofExcept programTerminator.ref.last fun last =>
        ParseResult.ofExcept
          ((getStartingRangeReferenceForFunctionDef parameterDeclarations
            variableDeclarations constantDeclarations compoundStatement).extendUntil last)
          fun ref =>
            .ok { parameterDeclarations := parameterDeclarations
                  variableDeclarations := variableDeclarations
                  constantDeclarations := constantDeclarations
                  compoundStatement := compoundStatement
                  programTerminator := programTerminator
                  ref := ref } parser

end parser

end pljit

namespace pljit

namespace analysis

open common

/-- Result of `SymbolTable::registerSymbol` (`SymbolTable::RegistrationResult`). -/
structure RegistrationResult where
  entry : SymbolEntry
  newlyRegistered : Bool
  deriving DecidableEq, Repr

/-- Lookup in the map from symbol text to entry
(`symbolStrToSymbolEntryMapping.find`). -/
def findSymbolEntry : List (List Char × SymbolEntry) → List Char → Option SymbolEntry
  | [], _ => none
  | (key, entry) :: rest, symbolStr =>
    if key = symbolStr then some entry else findSymbolEntry rest symbolStr

/-- Register a symbol unless its text is registered already
(`SymbolTable::registerSymbol`).  The text of the symbol is the text of the
declaration range in the source code.  For a constant the source asserts
`constantValue != -1`. -/
def SymbolTable.registerSymbol (table : SymbolTable) (sourceCode : List Char)
    (symbolType : ast.IdentifierType) (declarationRef : SourceRangeReference)
    (constantValue : Int := -1) : Except Fault (RegistrationResult × SymbolTable) :=
  let symbolStr := declarationRef.toStringView sourceCode
  match findSymbolEntry table.symbolStrToSymbolEntryMapping symbolStr with
  | some entry => .ok ({ entry := entry, newlyRegistered := false }, table)
  | none =>
    match symbolType with
    | .Parameter =>
      let newEntry : SymbolEntry :=
        { symbolId := table.nextParameterId, declarationRef := declarationRef,
          symbolType := symbolType }
      .ok ({ entry := newEntry, newlyRegistered := true },
        { table with
          nextParameterId := table.nextParameterId + 1
          parameterIdToStringMapping := table.parameterIdToStringMapping ++ [symbolStr]
          symbolStrToSymbolEntryMapping :=
            table.symbolStrToSymbolEntryMapping ++ [(symbolStr, newEntry)] })
    | .Variable =>
      let newEntry : SymbolEntry :=
        { symbolId := table.nextVariableId, declarationRef := declarationRef,
          symbolType := symbolType }
      .ok ({ entry := newEntry, newlyRegistered := true },
        { table with
          nextVariableId := table.nextVariableId + 1
          variableIdToStringMapping := table.variableIdToStringMapping ++ [symbolStr]
          symbolStrToSymbolEntryMapping :=
            table.symbolStrToSymbolEntryMapping ++ [(symbolStr, newEntry)] })
    | .Constant =>
      if constantValue = -1 then .error .assertion
      else
        let newEntry : SymbolEntry :=
          { symbolId := table.nextConstantId, declarationRef := declarationRef,
            symbolType := symbolType }
        .ok ({ entry := newEntry, newlyRegistered := true },
          { table with
            nextConstantId := table.nextConstantId + 1
            constantIdToStringMapping := table.constantIdToStringMapping ++ [symbolStr]
            constantValues := table.constantValues ++ [constantValue]
            symbolStrToSymbolEntryMapping :=
              table.symbolStrToSymbolEntryMapping ++ [(symbolStr, newEntry)] })

/-- Look up the entry of a symbol (`SymbolTable::lookUpSymbol`). -/
def SymbolTable.lookUpSymbol (table : SymbolTable) (symbolStr : List Char) :
    Option SymbolEntry :=
  findSymbolEntry table.symbolStrToSymbolEntryMapping symbolStr

/-- Look up the text of a symbol (`SymbolTable::lookUpSymbolName`). -/
def SymbolTable.lookUpSymbolName (table : SymbolTable) (symbolType : ast.IdentifierType)
    (symbolId : Nat) : Option (List Char) :=
  match symbolType with
  | .Parameter => table.parameterIdToStringMapping[symbolId]?
  | .Variable => table.variableIdToStringMapping[symbolId]?
  | .Constant => table.constantIdToStringMapping[symbolId]?

/-- Semantic analysis (`SemanticAnalysis.h`): the source code manager, the
symbol table under construction, the flag for a return statement and the
set of the ids of the initialised variables. -/
structure SemanticAnalysis where
  sourceCodeManager : SourceCodeManager
  symbolTable : SymbolTable := {}
  containsReturnStatement : Bool := false
  initializedVariables : List Nat := []
  deriving DecidableEq, Repr

/-- Outcome of an analysis function: a node and the analysis state after the
call, a `nullptr` (semantic error) and the state after the call, or a
fault. -/
inductive AnalysisResult (α : Type) where
  | ok (node : α) (analysis : SemanticAnalysis)
  | error (analysis : SemanticAnalysis)
  | fault (fault : Fault)

/-- Continue after an analysis function unless it returned `nullptr` or
faulted. -/
def AnalysisResult.bind {α β : Type} (result : AnalysisResult α)
    (next : α → SemanticAnalysis → AnalysisResult β) : AnalysisResult β :=
  match result with
  | .ok node analysis => next node analysis
  | .error analysis => .error analysis
  | .fault cause => .fault cause

/-- Call of `sourceCodeManager.printContext` from the analysis. -/
def SemanticAnalysis.printContext (analysis : SemanticAnalysis)
    (ref : SourceRangeReference) (message : String) : SemanticAnalysis :=
  { analysis with sourceCodeManager := analysis.sourceCodeManager.printContext ref message }

/-- Text of a range of the analysed source code. -/
def SemanticAnalysis.text (analysis : SemanticAnalysis) (ref : SourceRangeReference) :
    List Char :=
  ref.toStringView analysis.sourceCodeManager.sourceCode

/-- Register the symbols of a declarator list
(`SemanticAnalysis::registerDeclaratorList`): `true` on success, `false`
after a duplicate declaration.  The source asserts that a separator child
has the text `,`. -/
def SemanticAnalysis.registerDeclaratorList (symbolType : ast.IdentifierType) :
    List parse_tree.DeclaratorListChild → SemanticAnalysis →
    Except Fault (Bool × SemanticAnalysis)
  | [], analysis => .ok (true, analysis)
  | .GenericToken token :: rest, analysis =>
    if analysis.text token.ref = [','] then
      SemanticAnalysis.registerDeclaratorList symbolType rest analysis
    else .error .assertion
  | .Identifier identifier :: rest, analysis =>
    match analysis.symbolTable.registerSymbol analysis.sourceCodeManager.sourceCode
        symbolType identifier.ref with
    | .error fault => .error fault
    | .ok (result, table) =>
      let analysis := { analysis with symbolTable := table }
      if !result.newlyRegistered then
        .ok (false,
          (analysis.printContext identifier.ref
            "error: duplicate declaration of identifier").printContext
            result.entry.declarationRef "note: already declared here")
      else SemanticAnalysis.registerDeclaratorList symbolType rest analysis

/-- Register the parameters (`SemanticAnalysis::registerParameterDeclarations`). -/
def SemanticAnalysis.registerParameterDeclarations (node : parse_tree.ParameterDeclarations)
    (analysis : SemanticAnalysis) : Except Fault (Bool × SemanticAnalysis) :=
  SemanticAnalysis.registerDeclaratorList .Parameter node.declaratorList.children analysis

/-- Register the variables (`SemanticAnalysis::registerVariableDeclarations`). -/
def SemanticAnalysis.registerVariableDeclarations (node : parse_tree.VariableDeclarations)
    (analysis : SemanticAnalysis) : Except Fault (Bool × SemanticAnalysis) :=
  SemanticAnalysis.registerDeclaratorList .Variable node.declaratorList.children analysis

/-- The loop of `SemanticAnalysis::registerConstantDeclarations` over the
children of the init-declarator list. -/
def SemanticAnalysis.registerInitDeclarators :
    List parse_tree.InitDeclaratorListChild → SemanticAnalysis →
    Except Fault (Bool × SemanticAnalysis)
  | [], analysis => .ok (true, analysis)
  | .GenericToken token :: rest, analysis =>
    if analysis.text token.ref = [','] then
      SemanticAnalysis.registerInitDeclarators rest analysis
    else .error .assertion
  | .InitDeclarator initDeclarator :: rest, analysis =>
    match analysis.symbolTable.registerSymbol analysis.sourceCodeManager.sourceCode
        .Constant initDeclarator.identifier.ref initDeclarator.literal.value with
    | .error fault => .error fault
    | .ok (result, table) =>
      let analysis := { analysis with symbolTable := table }
      if !result.newlyRegistered then
        .ok (false,
          (analysis.printContext initDeclarator.identifier.ref
            "error: duplicate declaration of identifier").printContext
            result.entry.declarationRef "note: already declared here")
      else SemanticAnalysis.registerInitDeclarators rest analysis

/-- Register the constants with their values
(`SemanticAnalysis::registerConstantDeclarations`). -/
def SemanticAnalysis.registerConstantDeclarations (node : parse_tree.ConstantDeclarations)
    (analysis : SemanticAnalysis) : Except Fault (Bool × SemanticAnalysis) :=
  SemanticAnalysis.registerInitDeclarators node.initDeclaratorList.children analysis

/-- Analyse an identifier used in an expression
(`SemanticAnalysis::analyzeExpression(const parse_tree::Identifier&)`). -/
def SemanticAnalysis.analyzeIdentifier (node : parse_tree.Identifier)
    (analysis : SemanticAnalysis) : AnalysisResult ast.Expression :=
  match analysis.symbolTable.lookUpSymbol (analysis.text node.ref) with
  | none => .error (analysis.printContext node.ref "error: use of undeclared identifier")
  | some lookUpResult =>
    if lookUpResult.symbolType = .Variable ∧
        ¬ analysis.initializedVariables.contains lookUpResult.symbolId then
      .error (analysis.printContext node.ref "error: use of uninitialized identifier")
    else .ok (.Identifier lookUpResult.symbolType lookUpResult.symbolId) analysis

/-- Analyse a literal
(`SemanticAnalysis::analyzeExpression(const parse_tree::Literal&)`). -/
def SemanticAnalysis.analyzeLiteral (node : parse_tree.Literal)
    (analysis : SemanticAnalysis) : AnalysisResult ast.Expression :=
  .ok (.ConstantLiteral node.value) analysis

mutual

/-- Analyse an additive expression
(`SemanticAnalysis::analyzeExpression(const parse_tree::AdditiveExpression&)`). -/
def SemanticAnalysis.analyzeAdditiveExpression :
    parse_tree.AdditiveExpression → SemanticAnalysis → AnalysisResult ast.Expression
  | .single multiplicativeExpression _, analysis =>
    SemanticAnalysis.analyzeMultiplicativeExpression multiplicativeExpression analysis
  | .binary multiplicativeExpression _ additiveExpression addExprType _, analysis =>
    (SemanticAnalysis.analyzeMultiplicativeExpression multiplicativeExpression
      analysis).bind fun mulExpr analysis =>
        if addExprType = .None then .ok mulExpr analysis
        else
          let binaryOpType :=
            if addExprType = .Add then ast.BinaryOpType.Add else ast.BinaryOpType.Sub
          (SemanticAnalysis.analyzeAdditiveExpression additiveExpression analysis).bind
            fun addExpr analysis => .ok (.BinaryOp mulExpr binaryOpType addExpr) analysis

/-- Analyse a multiplicative expression
(`SemanticAnalysis::analyzeExpression(const parse_tree::MultiplicativeExpression&)`). -/
def SemanticAnalysis.analyzeMultiplicativeExpression :
    parse_tree.MultiplicativeExpression → SemanticAnalysis → AnalysisResult ast.Expression
  | .single unaryExpression _, analysis =>
    SemanticAnalysis.analyzeUnaryExpression unaryExpression analysis
  | .binary unaryExpression _ multiplicativeExpression mulExprType _, analysis =>
    (SemanticAnalysis.analyzeUnaryExpression unaryExpression analysis).bind
      fun unaryExpr analysis =>
        if mulExprType = .None then .ok unaryExpr analysis
        else
          let binaryOpType :=
            if mulExprType = .Mul then ast.BinaryOpType.Mul else ast.BinaryOpType.Div
          (SemanticAnalysis.analyzeMultiplicativeExpression multiplicativeExpression
            analysis).bind
            fun mulExpr analysis => .ok (.BinaryOp unaryExpr binaryOpType mulExpr) analysis

/-- Analyse a unary expression
(`SemanticAnalysis::analyzeExpression(const parse_tree::UnaryExpression&)`). -/
def SemanticAnalysis.analyzeUnaryExpression :
    parse_tree.UnaryExpression → SemanticAnalysis → AnalysisResult ast.Expression
  | .unsigned primaryExpression _, analysis =>
    SemanticAnalysis.analyzePrimaryExpression primaryExpression analysis
  | .signed _ primaryExpression unaryExprType _, analysis =>
    (SemanticAnalysis.analyzePrimaryExpression primaryExpression analysis).bind
      fun primaryExpr analysis =>
        if unaryExprType = .Unsigned then .ok primaryExpr analysis
        else
          let unaryOpType :=
            if unaryExprType = .PlusSign then ast.UnaryOpType.PlusSign
            else ast.UnaryOpType.MinusSign
          .ok (.UnaryOp unaryOpType primaryExpr) analysis

/-- Analyse a primary expression
(`SemanticAnalysis::analyzeExpression(const parse_tree::PrimaryExpression&)`). -/
def SemanticAnalysis.analyzePrimaryExpression :
    parse_tree.PrimaryExpression → SemanticAnalysis → AnalysisResult ast.Expression
  | .Literal literal _, analysis => SemanticAnalysis.analyzeLiteral literal analysis
  | .Identifier identifier _, analysis =>
    SemanticAnalysis.analyzeIdentifier identifier analysis
  | .Parenthesized _ additiveExpression _ _, analysis =>
    SemanticAnalysis.analyzeAdditiveExpression additiveExpression analysis

end

/-- Analyse a statement (`SemanticAnalysis::analyzeStatement`). -/
def SemanticAnalysis.analyzeStatement (node : parse_tree.Statement)
    (analysis : SemanticAnalysis) : AnalysisResult ast.Statement :=
  match node with
  | .ReturnStatement _ additiveExpression _ =>
    let analysis := { analysis with containsReturnStatement := true }
    (SemanticAnalysis.analyzeAdditiveExpression additiveExpression analysis).bind
      fun astExpr analysis => .ok (.ReturnStatement astExpr) analysis
  | .AssignmentStatement assignmentExpr _ =>
    (SemanticAnalysis.analyzeAdditiveExpression assignmentExpr.additiveExpression
      analysis).bind fun astExpr analysis =>
        let identifier := assignmentExpr.identifier
        match analysis.symbolTable.lookUpSymbol (analysis.text identifier.ref) with
        | none =>
          .error (analysis.printContext identifier.ref "error: use of undeclared identifier")
        | some lookUpResult =>
          if lookUpResult.symbolType = .Constant then
            .error
              ((analysis.printContext identifier.ref
                "error: trying to assign to an identifier declared 'CONST'").printContext
                lookUpResult.declarationRef "note: declared as 'CONST' here")
          else
            let assignmentTarget : ast.Identifier :=
              { identifierType := lookUpResult.symbolType, id := lookUpResult.symbolId }
            let analysis :=
              if lookUpResult.symbolType = .Variable then
                { analysis with
                  initializedVariables :=
                    if analysis.initializedVariables.contains lookUpResult.symbolId then
                      analysis.initializedVariables
                    else lookUpResult.symbolId :: analysis.initializedVariables }
              else analysis
            .ok (.AssignmentStatement assignmentTarget astExpr) analysis

/-- The loop of `SemanticAnalysis::analyzeStatements` over the children of the
statement list: `none` when a statement is rejected (the early `return
statementsError()`), the collected statements otherwise.  The source asserts
that a separator child has the text `;`. -/
def SemanticAnalysis.analyzeStatementsLoop :
    List parse_tree.StatementListChild → List ast.Statement → SemanticAnalysis →
    Except Fault (Option (List ast.Statement) × SemanticAnalysis)
  | [], statements, analysis => .ok (some statements, analysis)
  | .GenericToken token :: rest, statements, analysis =>
    if analysis.text token.ref = [';'] then
      SemanticAnalysis.analyzeStatementsLoop rest statements analysis
    else .error .assertion
  | .Statement statement :: rest, statements, analysis =>
    match SemanticAnalysis.analyzeStatement statement analysis with
    | .fault fault => .error fault
    | .error analysis => .ok (none, analysis)
    | .ok astStatement analysis =>
      SemanticAnalysis.analyzeStatementsLoop rest (statements ++ [astStatement]) analysis

/-- Analyse the statement list of the compound statement
(`SemanticAnalysis::analyzeStatements`); an empty result signals an error
(`statementsError`).  After the loop the source asserts `statements.size() ==
1 || statements.size() == (children.size() - statements.size() + 1)`. -/
def SemanticAnalysis.analyzeStatements (node : parse_tree.CompoundStatement)
    (analysis : SemanticAnalysis) : Except Fault (List ast.Statement × SemanticAnalysis) :=
  match SemanticAnalysis.analyzeStatementsLoop node.statementList.children [] analysis with
  | .error fault => .error fault
  | .ok (none, analysis) => .ok ([], analysis)
  | .ok (some statements, analysis) =>
    if statements.length = 1 ∨
        statements.length =
          node.statementList.children.length - statements.length + 1 then
      .ok (statements, analysis)
    else .error .assertion

/-- Analyse the parse tree and build the AST (`SemanticAnalysis::analyzeFunction`). -/
def SemanticAnalysis.analyzeFunction (node : parse_tree.FunctionDefinition)
    (analysis : SemanticAnalysis) : AnalysisResult ast.Function :=
  match (match node.parameterDeclarations with
      | some paramDeclarations => analysis.registerParameterDeclarations paramDeclarations
      | none => .ok (true, analysis)) with
  | .error fault => .fault fault
  | .ok (false, analysis) => .error analysis
  | .ok (true, analysis) =>
    match (match node.variableDeclarations with
        | some varDeclarations => analysis.registerVariableDeclarations varDeclarations
        | none => .ok (true, analysis)) with
    | .error fault => .fault fault
    | .ok (false, analysis) => .error analysis
    | .ok (true, analysis) =>
      match (match node.constantDeclarations with
          | some constDeclarations =>
            analysis.registerConstantDeclarations constDeclarations
          | none => .ok (true, analysis)) with
      | .error fault => .fault fault
      | .ok (false, analysis) => .error analysis
      | .ok (true, analysis) =>
        match analysis.analyzeStatements node.compoundStatement with
        | .error fault => .fault fault
        | .ok (statements, analysis) =>
          if statements.isEmpty then .error analysis
          else if !analysis.containsReturnStatement then
            .error (analysis.printContext node.compoundStatement.endKeyword.ref
              "error: function does not contain a return-statement")
          else .ok { statements := statements } analysis

end analysis

end pljit

namespace pljit

open common

/-- Result codes of an invocation (`ResultCode`). -/
inductive ResultCode where
  | Success
  | CompileError
  | RuntimeError
  | InvalidFunctionCall
  deriving DecidableEq, Repr

/-- Result of an invocation (`Result`). -/
structure Result where
  value : Int
  resultCode : ResultCode
  deriving DecidableEq, Repr

/-- Result of a failed compilation (`compileError`). -/
def compileError : Result := { value := -1, resultCode := .CompileError }

/-- Result of a failed execution (`runtimeError`). -/
def runtimeError : Result := { value := -1, resultCode := .RuntimeError }

/-- Result of a call with the wrong number of arguments
(`errorInvalidFunctionCall`). -/
def errorInvalidFunctionCall : Result := { value := -1, resultCode := .InvalidFunctionCall }

/-- Result of a successful execution (`success`). -/
def success (result : Int) : Result := { value := result, resultCode := .Success }

/-- The optimisation passes in the order of `optimize` in `Pljit.cpp`: dead
code elimination, then constant propagation. -/
def optimize (function : ast.Function) (symbolTable : analysis.SymbolTable) :
    Except Fault ast.Function :=
  match optim.DeadCodeElimination.visit function with
  | .error fault => .error fault
  | .ok function =>
    match optim.ConstantPropagation.visit function { symbolTable := symbolTable } with
    | .error fault => .error fault
    | .ok (function, _) => .ok function

/-- Compilation state of a registered function (`Pljit::FunctionState`). -/
inductive FunctionState where
  | NotCompiled
  | Compiled
  | CompileError
  deriving DecidableEq, Repr

/-- Frame of a registered function (`Pljit::FunctionFrame`); the mutex is not
part of the model, in which invocations run one after another. -/
structure FunctionFrame where
  sourceCodeManager : SourceCodeManager
  symbolTable : Option analysis.SymbolTable := none
  function : Option ast.Function := none
  state : FunctionState := .NotCompiled
  deriving DecidableEq, Repr

/-- Constructor of `FunctionFrame` from the code of the function. -/
def FunctionFrame.new (code : List Char) : FunctionFrame :=
  { sourceCodeManager := { sourceCode := code } }

/-- Recursion budget that the model of the parser gets for a source code. -/
def parserFuel (sourceCode : List Char) : Nat :=
  4 * sourceCode.length + 4

/-- Compilation of the function of a frame (`Pljit::FunctionFrame::compile`).
The console line of the empty-source case is not part of the model. -/
def FunctionFrame.compile (frame : FunctionFrame) : Except Fault FunctionFrame :=
  if frame.sourceCodeManager.sourceCode.isEmpty then
    .ok { frame with state := .CompileError }
  else
    match parser.Parser.new frame.sourceCodeManager with
    | .error fault => .error fault
    | .ok parser =>
      match parser.parseFunctionDefinition (parserFuel frame.sourceCodeManager.sourceCode) with
      | .fault fault => .error fault
      | .error parser =>
        .ok { frame with
          sourceCodeManager := parser.lexer.sourceCodeManager
          state := .CompileError }
      | .ok parseTree parser =>
        match analysis.SemanticAnalysis.analyzeFunction parseTree
            { sourceCodeManager := parser.lexer.sourceCodeManager } with
        | .fault fault => .error fault
        | .error analysis =>
          .ok { frame with
            sourceCodeManager := analysis.sourceCodeManager
            state := .CompileError }
        | .ok function analysis =>
          match optimize function analysis.symbolTable with
          | .error fault => .error fault
          | .ok function =>
            if frame.function.isSome then .error .assertion
            else
              .ok { sourceCodeManager := analysis.sourceCodeManager
                    function := some function
                    symbolTable := some analysis.symbolTable
                    state := .Compiled }

/-- What an invocation of a frame leaves behind: the returned result and the
frame after the call, and, for the statement of properties, whether
`compile()` ran during the call and the execution context left by
`function->execute` when the function was executed. -/
structure Invocation where
  result : Result
  frame : FunctionFrame
  compiled : Bool
  executionContext : Option exec.ExecutionContext
  deriving DecidableEq, Repr

/-- The part of `Pljit::FunctionFrame::execute` behind the compilation: the
check of the number of parameters and the execution of the function. -/
def FunctionFrame.run (frame : FunctionFrame) (parameters : List Int) (compiled : Bool) :
    Except Fault Invocation :=
  match frame.symbolTable, frame.function with
  | some symbolTable, some function =>
    if parameters.length ≠ symbolTable.getNumberOfParameters then
      .ok { result := errorInvalidFunctionCall, frame := frame, compiled := compiled,
            executionContext := none }
    else
      match function.execute (exec.ExecutionContext.new parameters symbolTable) with
      | .error fault => .error fault
      | .ok executionContext =>
        if executionContext.hasError then
          .ok { result := runtimeError, frame := frame, compiled := compiled,
                executionContext := some executionContext }
        else
          .ok { result := success executionContext.returnValue, frame := frame,
                compiled := compiled, executionContext := some executionContext }
  | _, _ => .error .outOfBounds

/-- Invocation of a function (`Pljit::FunctionFrame::execute`): the function
is compiled first when it was not compiled yet. -/
def FunctionFrame.execute (frame : FunctionFrame) (parameters : List Int) :
    Except Fault Invocation :=
  if frame.state = .CompileError then
    .ok { result := compileError, frame := frame, compiled := false,
          executionContext := none }
  else if frame.state = .Compiled then frame.run parameters false
  else
    match frame.compile with
    | .error fault => .error fault
    | .ok frame =>
      if frame.state = .CompileError then
        .ok { result := compileError, frame := frame, compiled := true,
              executionContext := none }
      else frame.run parameters true

/-- Registration of a function followed by its first invocation
(`Pljit::registerFunction` and `FunctionHandle::operator()`). -/
def invokeFresh (code : String) (parameters : List Int) : Except Fault Invocation :=
  (FunctionFrame.new code.toList).execute parameters

end pljit

namespace pljit

open common

/-- Lexing, parsing and semantic analysis of a source code: the steps of
`Pljit::FunctionFrame::compile` before the optimisation passes (and of the
test helper `ASTEnvironment` without optimisation).  The result is `none`
when the parser or the semantic analysis reports an error. -/
def parseAndAnalyze (code : List Char) :
    Except Fault (Option (ast.Function × analysis.SymbolTable)) :=
  match parser.Parser.new { sourceCode := code } with
  | .error fault => .error fault
  | .ok parser =>
    match parser.parseFunctionDefinition (parserFuel code) with
    | .fault fault => .error fault
    | .error _ => .ok none
    | .ok parseTree parser =>
      match analysis.SemanticAnalysis.analyzeFunction parseTree
          { sourceCodeManager := parser.lexer.sourceCodeManager } with
      | .fault fault => .error fault
      | .error _ => .ok none
      | .ok function analysis => .ok (some (function, analysis.symbolTable))

namespace analysis

/-- Number of symbols registered in a namespace of the symbol table; for
constants, the number of stored constant values. -/
def SymbolTable.size (table : SymbolTable) : ast.IdentifierType → Nat
  | .Parameter => table.parameterIdToStringMapping.length
  | .Variable => table.variableIdToStringMapping.length
  | .Constant => table.constantValues.length

/-- Consistency of a symbol table: the id counters are the sizes of the
namespaces and every entry of the map has an id below the size of its
namespace. -/
def SymbolTable.Valid (table : SymbolTable) : Prop :=
  table.nextParameterId = table.parameterIdToStringMapping.length ∧
  table.nextVariableId = table.variableIdToStringMapping.length ∧
  table.nextConstantId = table.constantValues.length ∧
  ∀ symbolStr entry,
    findSymbolEntry table.symbolStrToSymbolEntryMapping symbolStr = some entry →
      entry.symbolId < table.size entry.symbolType

end analysis

namespace ast

open exec

/-- Test that every identifier of an expression has an id below the size of
its namespace in the symbol table. -/
def Expression.idsInRange (table : analysis.SymbolTable) : Expression → Bool
  | .ConstantLiteral _ => true
  | .Identifier identifierType id => decide (id < table.size identifierType)
  | .UnaryOp _ expression => expression.idsInRange table
  | .BinaryOp lhsExpression _ rhsExpression =>
    lhsExpression.idsInRange table && rhsExpression.idsInRange table

/-- Test that the identifiers of a statement have ids below the size of
their namespace and that the target of an assignment is a parameter or a
variable. -/
def Statement.idsInRange (table : analysis.SymbolTable) : Statement → Bool
  | .AssignmentStatement assignmentTarget expression =>
    decide (assignmentTarget.identifierType ≠ .Constant) &&
      decide (assignmentTarget.id < table.size assignmentTarget.identifierType) &&
      expression.idsInRange table
  | .ReturnStatement expression => expression.idsInRange table

/-- The identifiers read by an expression, from left to right. -/
def Expression.reads : Expression → List (IdentifierType × Nat)
  | .ConstantLiteral _ => []
  | .Identifier identifierType id => [(identifierType, id)]
  | .UnaryOp _ expression => expression.reads
  | .BinaryOp lhsExpression _ rhsExpression => lhsExpression.reads ++ rhsExpression.reads

/-- Value of an expression in the arithmetic of the language, stated without
the error channel of the evaluator: literals denote themselves, identifiers
the current content of their storage location (0 where there is none),
unary minus and the operators `+`, `-`, `*` wrap in 64 bits, and `/` is the
division truncated toward zero (with the value 0 for a zero divisor).  The
value is that of the evaluator for an expression whose evaluation neither
divides by zero (`dividesByZero`) nor divides the smallest value by -1
(`overflows`). -/
def Expression.denote (context : ExecutionContext) : Expression → Int
  | .ConstantLiteral value => value
  | .Identifier .Parameter id => context.parameterValues.getD id 0
  | .Identifier .Variable id => context.variableValues.getD id 0
  | .Identifier .Constant id => context.symbolTable.constantValues.getD id 0
  | .UnaryOp .MinusSign expression => wrapInt64 (-(expression.denote context))
  | .UnaryOp .PlusSign expression => expression.denote context
  | .BinaryOp lhsExpression .Add rhsExpression =>
    wrapInt64 (lhsExpression.denote context + rhsExpression.denote context)
  | .BinaryOp lhsExpression .Sub rhsExpression =>
    wrapInt64 (lhsExpression.denote context - rhsExpression.denote context)
  | .BinaryOp lhsExpression .Mul rhsExpression =>
    wrapInt64 (lhsExpression.denote context * rhsExpression.denote context)
  | .BinaryOp lhsExpression .Div rhsExpression =>
    if rhsExpression.denote context = 0 then 0
    else wrapInt64 (Int.tdiv (lhsExpression.denote context) (rhsExpression.denote context))

/-- Test that the evaluation of an expression comes across a `Div` node
whose right operand evaluates to 0. -/
def Expression.dividesByZero (context : ExecutionContext) : Expression → Bool
  | .ConstantLiteral _ => false
  | .Identifier _ _ => false
  | .UnaryOp _ expression => expression.dividesByZero context
  | .BinaryOp lhsExpression binaryOpType rhsExpression =>
    lhsExpression.dividesByZero context || rhsExpression.dividesByZero context ||
      (decide (binaryOpType = .Div) && decide (rhsExpression.denote context = 0))

/-- Test that the evaluation of an expression comes across a `Div` node
whose operands evaluate to the smallest value and to -1, before a division
by zero stops it: the operands are evaluated from left to right, and the
right operand and the division are reached only when the operands before
them did not divide by zero. -/
def Expression.overflows (context : ExecutionContext) : Expression → Bool
  | .ConstantLiteral _ => false
  | .Identifier _ _ => false
  | .UnaryOp _ expression => expression.overflows context
  | .BinaryOp lhsExpression binaryOpType rhsExpression =>
    lhsExpression.overflows context ||
      (!lhsExpression.dividesByZero context &&
        (rhsExpression.overflows context ||
          (!rhsExpression.dividesByZero context && decide (binaryOpType = .Div) &&
            divisionOverflows (lhsExpression.denote context)
              (rhsExpression.denote context))))

/-- The context after a statement whose expression has the given value: an
assignment stores the value in its target, a return statement stores it as
return value. -/
def Statement.store (value : Int) : Statement → ExecutionContext → ExecutionContext
  | .AssignmentStatement assignmentTarget _, context =>
    match assignmentTarget.identifierType with
    | .Variable =>
      { context with variableValues := context.variableValues.set assignmentTarget.id value }
    | .Parameter =>
      { context with parameterValues := context.parameterValues.set assignmentTarget.id value }
    | .Constant => context
  | .ReturnStatement _, context => { context with returnValue := value }

/-- Test that the execution of a statement list comes across a `Div` node
whose right operand evaluates to 0 before it stops, that is in a statement
up to the first return statement. -/
def statementsDivideByZero : List Statement → ExecutionContext → Bool
  | [], _ => false
  | stmt :: rest, context =>
    stmt.getExpression.dividesByZero context ||
      (!stmt.isReturnStatement &&
        statementsDivideByZero rest
          (stmt.store (stmt.getExpression.denote context) context))

/-- Test that the execution of a statement list comes across a `Div` node
whose operands evaluate to the smallest value and to -1 before it stops,
that is before a division by zero and in a statement up to the first return
statement. -/
def statementsOverflow : List Statement → ExecutionContext → Bool
  | [], _ => false
  | stmt :: rest, context =>
    stmt.getExpression.overflows context ||
      (!stmt.getExpression.dividesByZero context && !stmt.isReturnStatement &&
        statementsOverflow rest
          (stmt.store (stmt.getExpression.denote context) context))

/-- The return value of a statement list in the arithmetic of the language:
the value of the expression of the first return statement in the context
built by the assignments before it (the initial return value when there is
no return statement). -/
def statementsReturnValue : List Statement → ExecutionContext → Int
  | [], context => context.returnValue
  | stmt :: rest, context =>
    if stmt.isReturnStatement then stmt.getExpression.denote context
    else statementsReturnValue rest (stmt.store (stmt.getExpression.denote context) context)

end ast

end pljit

namespace pljit

namespace analysis

/-- What the analysis guarantees for an accepted expression: its identifiers
have ids in range when the symbol table is consistent, and every variable
it reads is in the set of initialised variables. -/
def SemanticAnalysis.Accepts (analysis : SemanticAnalysis) (expression : ast.Expression) :
    Prop :=
  (analysis.symbolTable.Valid → expression.idsInRange analysis.symbolTable = true) ∧
  ∀ id, (ast.IdentifierType.Variable, id) ∈ expression.reads →
    id ∈ analysis.initializedVariables

end analysis

namespace ast

/-- Initialisation before use in a statement list: every variable read by
the expression of the statement at index `i` is the target of an assignment
statement at some index `j < i`. -/
def InitializedBeforeUse (statements : List Statement) : Prop :=
  ∀ (i : Nat) (stmt : Statement), statements[i]? = some stmt →
    ∀ id, (IdentifierType.Variable, id) ∈ stmt.getExpression.reads →
      ∃ (j : Nat) (expression : Expression), j < i ∧
        statements[j]? =
          some (Statement.AssignmentStatement
            { identifierType := .Variable, id := id } expression)

end ast

end pljit

namespace pljit

namespace analysis

/-- Invariant of the loop of `analyzeStatements`, relating the statements
collected so far to the state of the analysis: the identifiers of the
statements are in range, variables are initialised before use, every
variable in the set of initialised variables is the target of a collected
assignment, and the return flag is set only when a return statement was
collected. -/
def SemanticAnalysis.Collected (analysis : SemanticAnalysis)
    (statements : List ast.Statement) : Prop :=
  (∀ stmt ∈ statements, stmt.idsInRange analysis.symbolTable = true) ∧
  ast.InitializedBeforeUse statements ∧
  (∀ id ∈ analysis.initializedVariables,
    ∃ (j : Nat) (expression : ast.Expression),
      statements[j]? =
        some (ast.Statement.AssignmentStatement
          { identifierType := .Variable, id := id } expression)) ∧
  (analysis.containsReturnStatement = true →
    ∃ stmt ∈ statements, stmt.isReturnStatement = true)

end analysis

end pljit

namespace pljit

namespace exec

/-- An execution context fits a symbol table when it refers to that table
and has one parameter value per registered parameter and one variable value
per registered variable. -/
def ExecutionContext.Fits (context : ExecutionContext) (table : analysis.SymbolTable) :
    Prop :=
  context.symbolTable = table ∧
  context.parameterValues.length = table.size .Parameter ∧
  context.variableValues.length = table.size .Variable

end exec

end pljit

deriving instance DecidableEq for Except


namespace pljit

/-- Source code of the scenario with dead code and constant folding. -/
def scenarioDeadCode : List Char :=
  "VAR x; BEGIN x:=1+3-2+42; RETURN x+12; RETURN 999 END.".toList

/-- The AST that the semantic analysis builds for `scenarioDeadCode`. -/
def scenarioDeadCodeFunction : ast.Function :=
  { statements :=
      [.AssignmentStatement { identifierType := .Variable, id := 0 }
        (.BinaryOp (.ConstantLiteral 1) .Add
          (.BinaryOp (.ConstantLiteral 3) .Sub
            (.BinaryOp (.ConstantLiteral 2) .Add (.ConstantLiteral 42)))),
       .ReturnStatement (.BinaryOp (.Identifier .Variable 0) .Add (.ConstantLiteral 12)),
       .ReturnStatement (.ConstantLiteral 999)] }

/-- The symbol table that the semantic analysis builds for `scenarioDeadCode`. -/
def scenarioDeadCodeTable : analysis.SymbolTable :=
  { nextVariableId := 1
    symbolStrToSymbolEntryMapping :=
      [(['x'], { symbolId := 0, declarationRef := { ref := 4, length := 1 },
                 symbolType := .Variable })]
    variableIdToStringMapping := [['x']] }

end pljit

namespace pljit

/-- Source code of the scenario with a division of two parameters. -/
def scenarioDivision : List Char :=
  "PARAM a, b; BEGIN RETURN a / b END.".toList

/-- The symbol table that the semantic analysis builds for `scenarioDivision`. -/
def scenarioDivisionTable : analysis.SymbolTable :=
  { nextParameterId := 2
    symbolStrToSymbolEntryMapping :=
      [(['a'], { symbolId := 0, declarationRef := { ref := 6, length := 1 },
                 symbolType := .Parameter }),
       (['b'], { symbolId := 1, declarationRef := { ref := 9, length := 1 },
                 symbolType := .Parameter })]
    parameterIdToStringMapping := [['a'], ['b']] }

/-- The frame that the compilation of `scenarioDivision` leaves. -/
def scenarioDivisionFrame : FunctionFrame :=
  { sourceCodeManager := { sourceCode := scenarioDivision }
    symbolTable := some scenarioDivisionTable
    function := some
      { statements :=
          [.ReturnStatement
            (.BinaryOp (.Identifier .Parameter 0) .Div (.Identifier .Parameter 1))] }
    state := .Compiled }

/-- Source code of the scenario without program terminator. -/
def scenarioMissingTerminator : List Char :=
  "BEGIN RETURN 1 END".toList

/-- The frame that the compilation of `scenarioMissingTerminator` leaves. -/
def scenarioMissingTerminatorFrame : FunctionFrame :=
  { sourceCodeManager :=
      { sourceCode := scenarioMissingTerminator
        printed :=
          [{ ref := { ref := 17, length := 1 },
             message := "error: expected '.' afterwards" }] }
    state := .CompileError }

/-- Invocations of a frame one after another, each on the frame that the
invocation before it left (calls of `FunctionHandle::operator()` on one
handle from a single thread). -/
def FunctionFrame.executeAll : FunctionFrame → List (List Int) →
    Except Fault (List Invocation)
  | _, [] => .ok []
  | frame, parameters :: rest =>
    match frame.execute parameters with
    | .error fault => .error fault
    | .ok invocation =>
      match FunctionFrame.executeAll invocation.frame rest with
      | .error fault => .error fault
      | .ok invocations => .ok (invocation :: invocations)

end pljit

namespace pljit

namespace lexer

open common

/-- A token agrees with the source code: its range is not empty, and the
range of an operator token holds the character of the operator. -/
def Token.WellFormed (sourceCode : List Char) (token : Token) : Prop :=
  0 < token.ref.length ∧
  (token.tokenType = .OpPlus → token.ref.toStringView sourceCode = ['+']) ∧
  (token.tokenType = .OpMinus → token.ref.toStringView sourceCode = ['-']) ∧
  (token.tokenType = .OpMul → token.ref.toStringView sourceCode = ['*']) ∧
  (token.tokenType = .OpDiv → token.ref.toStringView sourceCode = ['/'])

instance (sourceCode : List Char) (token : Token) :
    Decidable (token.WellFormed sourceCode) := by
  unfold Token.WellFormed
  infer_instance

/-- Consistency of the token cache of a lexer: a cached token that is no
error token agrees with the source code and ends before `current`. -/
def Lexer.WellFormed (lexer : Lexer) : Prop :=
  ∀ token ∈ lexer.tokenCache, token.tokenType ≠ .LexerError →
    token.WellFormed lexer.sourceCodeManager.sourceCode ∧
    token.ref.ref + token.ref.length ≤ lexer.current

instance (lexer : Lexer) : Decidable lexer.WellFormed := by
  unfold Lexer.WellFormed
  infer_instance

/-- Position of the input that a lexer has not handed out yet: the start of
the cached token, or `current` when the cache is empty. -/
def Lexer.position (lexer : Lexer) : Nat :=
  match lexer.tokenCache with
  | some token => token.ref.ref
  | none => lexer.current

/-- A later state of a lexer on the same source code: the token cache is
consistent and the position has not moved back. -/
def Lexer.Advance (lexer lexer' : Lexer) : Prop :=
  lexer'.sourceCodeManager.sourceCode = lexer.sourceCodeManager.sourceCode ∧
  lexer'.WellFormed ∧
  lexer.position ≤ lexer'.position

/-- A range that was read from the input between two states of a lexer: the
second state is a later state of the first, the range is not empty and lies
between the positions of the two states. -/
def Lexer.Spans (lexer : Lexer) (ref : SourceRangeReference) (lexer' : Lexer) : Prop :=
  lexer.Advance lexer' ∧
  lexer.position ≤ ref.ref ∧
  0 < ref.length ∧
  ref.ref + ref.length ≤ lexer'.position

end lexer

end pljit

namespace pljit

deriving instance DecidableEq for
  parse_tree.AdditiveExpression, parse_tree.MultiplicativeExpression,
  parse_tree.UnaryExpression, parse_tree.PrimaryExpression

deriving instance DecidableEq for parser.ParseResult

namespace ast

/-- The AST of a chain `m1 op1 m2 op2 ... mk` whose operators nest to the
right, `BinaryOp(op1, m1, BinaryOp(op2, m2, ...))`, from the AST of the first
operand and the operators with the ASTs of the operands behind them. -/
def nestRight : Expression → List (BinaryOpType × Expression) → Expression
  | first, [] => first
  | first, (op, next) :: rest => .BinaryOp first op (nestRight next rest)

end ast

namespace parser

open common lexer parse_tree

/-- Reading of a chain `m1 op1 m2 op2 ... mk` of additive operators from
left to right: an operand is what `parseMultiplicativeExpression` reads, and
the chain goes on as long as the next token is `+` or `-`.  The result is
the first operand and the operator tokens with the operands behind them. -/
def Parser.readAdditiveChain : Nat → Parser →
    ParseResult (MultiplicativeExpression × List (TokenType × MultiplicativeExpression))
  | 0, _ => .fault .outOfFuel
  | fuel + 1, parser =>
    (Parser.parseMultiplicativeExpression fuel parser).bind fun first parser =>
      ParseResult.ofExcept parser.peekTokenType fun (peeked, parser) =>
        match peeked with
        | some token =>
          if token.tokenType = .OpPlus ∨ token.tokenType = .OpMinus then
            (parser.parseGenericToken token.tokenType).bind fun _ parser =>
              (Parser.readAdditiveChain fuel parser).bind fun (next, rest) parser =>
                .ok (first, (token.tokenType, next) :: rest) parser
          else .ok (first, []) parser
        | none => .ok (first, []) parser

/-- Reading of a chain `u1 op1 u2 op2 ... uk` of multiplicative operators
from left to right: an operand is what `parseUnaryExpression` reads, and the
chain goes on as long as the next token is `*` or `/`. -/
def Parser.readMultiplicativeChain : Nat → Parser →
    ParseResult (UnaryExpression × List (TokenType × UnaryExpression))
  | 0, _ => .fault .outOfFuel
  | fuel + 1, parser =>
    (Parser.parseUnaryExpression fuel parser).bind fun first parser =>
      ParseResult.ofExcept parser.peekTokenType fun (peeked, parser) =>
        match peeked with
        | some token =>
          if token.tokenType = .OpMul ∨ token.tokenType = .OpDiv then
            (parser.parseGenericToken token.tokenType).bind fun _ parser =>
              (Parser.readMultiplicativeChain fuel parser).bind fun (next, rest) parser =>
                .ok (first, (token.tokenType, next) :: rest) parser
          else .ok (first, []) parser
        | none => .ok (first, []) parser

end parser

namespace analysis

open lexer parse_tree

/-- The operator of the AST for the token `+` or `-`. -/
def additiveOperator (tokenType : TokenType) : ast.BinaryOpType :=
  if tokenType = .OpPlus then .Add else .Sub

/-- The operator of the AST for the token `*` or `/`. -/
def multiplicativeOperator (tokenType : TokenType) : ast.BinaryOpType :=
  if tokenType = .OpMul then .Mul else .Div

/-- Analysis of the operands behind the operators of a chain of additive
operators, from left to right; it stops at the first operand that the
semantic analysis rejects. -/
def SemanticAnalysis.analyzeAdditiveOperands :
    List (TokenType × MultiplicativeExpression) → SemanticAnalysis →
    AnalysisResult (List (ast.BinaryOpType × ast.Expression))
  | [], analysis => .ok [] analysis
  | (tokenType, operand) :: rest, analysis =>
    (SemanticAnalysis.analyzeMultiplicativeExpression operand analysis).bind
      fun expression analysis =>
        (SemanticAnalysis.analyzeAdditiveOperands rest analysis).bind fun operands analysis =>
          .ok ((additiveOperator tokenType, expression) :: operands) analysis

/-- Analysis of the operands behind the operators of a chain of
multiplicative operators, from left to right; it stops at the first operand
that the semantic analysis rejects. -/
def SemanticAnalysis.analyzeMultiplicativeOperands :
    List (TokenType × UnaryExpression) → SemanticAnalysis →
    AnalysisResult (List (ast.BinaryOpType × ast.Expression))
  | [], analysis => .ok [] analysis
  | (tokenType, operand) :: rest, analysis =>
    (SemanticAnalysis.analyzeUnaryExpression operand analysis).bind
      fun expression analysis =>
        (SemanticAnalysis.analyzeMultiplicativeOperands rest analysis).bind
          fun operands analysis =>
            .ok ((multiplicativeOperator tokenType, expression) :: operands) analysis

/-- The AST of a chain of additive operators that was read from left to
right: the analysis of the first operand, then of the operands behind the
operators, and the nesting of the operators to the right. -/
def SemanticAnalysis.analyzeAdditiveChain (first : MultiplicativeExpression)
    (rest : List (TokenType × MultiplicativeExpression)) (analysis : SemanticAnalysis) :
    AnalysisResult ast.Expression :=
  (SemanticAnalysis.analyzeMultiplicativeExpression first analysis).bind
    fun expression analysis =>
      (SemanticAnalysis.analyzeAdditiveOperands rest analysis).bind fun operands analysis =>
        .ok (ast.nestRight expression operands) analysis

/-- The AST of a chain of multiplicative operators that was read from left
to right. -/
def SemanticAnalysis.analyzeMultiplicativeChain (first : UnaryExpression)
    (rest : List (TokenType × UnaryExpression)) (analysis : SemanticAnalysis) :
    AnalysisResult ast.Expression :=
  (SemanticAnalysis.analyzeUnaryExpression first analysis).bind
    fun expression analysis =>
      (SemanticAnalysis.analyzeMultiplicativeOperands rest analysis).bind
        fun operands analysis => .ok (ast.nestRight expression operands) analysis

end analysis

end pljit

namespace pljit

open common lexer parse_tree parser

/-- The unary expression that the parser builds for a literal. -/
def scenarioLiteralUnary (value : Int) (ref : SourceRangeReference) : UnaryExpression :=
  .unsigned (.Literal { value := value, ref := ref } ref) ref

/-- The multiplicative expression that the parser builds for a literal. -/
def scenarioLiteralOperand (value : Int) (ref : SourceRangeReference) :
    MultiplicativeExpression :=
  .single (scenarioLiteralUnary value ref) ref

/-- The parser at the start of the source code `1 + 3 - 2 + 42`, as its
constructor leaves it. -/
def scenarioAdditiveChainStart : Parser :=
  { lexer :=
      { sourceCodeManager := { sourceCode := "1 + 3 - 2 + 42".toList }
        current := 2
        tokenCache := some { tokenType := .Literal, ref := { ref := 0, length := 1 } } }
    refToLastChar := { ref := 0 } }

/-- The parser at the end of the source code `1 + 3 - 2 + 42`. -/
def scenarioAdditiveChainEnd : Parser :=
  { lexer :=
      { sourceCodeManager := { sourceCode := "1 + 3 - 2 + 42".toList }
        current := 14 }
    refToLastChar := { ref := 13 } }

/-- The parser at the start of the source code `16 / 4 / 2`, as its
constructor leaves it. -/
def scenarioMultiplicativeChainStart : Parser :=
  { lexer :=
      { sourceCodeManager := { sourceCode := "16 / 4 / 2".toList }
        current := 3
        tokenCache := some { tokenType := .Literal, ref := { ref := 0, length := 2 } } }
    refToLastChar := { ref := 0 } }

/-- The parser at the end of the source code `16 / 4 / 2`. -/
def scenarioMultiplicativeChainEnd : Parser :=
  { lexer :=
      { sourceCodeManager := { sourceCode := "16 / 4 / 2".toList }
        current := 10 }
    refToLastChar := { ref := 9 } }

end pljit

namespace pljit

namespace parser

/-- Value of a decimal digit character. -/
def digitValue (c : Char) : Nat :=
  c.toNat - '0'.toNat

/-- The decimal value of a digit string: the accumulation from left to
right in base 10, without bound. -/
def decimalValue (str : List Char) : Nat :=
  str.foldl (fun value c => value * 10 + digitValue c) 0

/-- The accumulation from left to right in base 10 with `uint64_t`
arithmetic. -/
def decimalValueUInt64 (str : List Char) : Nat :=
  str.foldl (fun value c => (value * 10 + digitValue c) % 18446744073709551616) 0

end parser

end pljit

namespace pljit

namespace analysis

open common

/-- The texts of the symbols registered in a namespace, indexed by id
(`parameterIdToStringMapping`, `variableIdToStringMapping` and
`constantIdToStringMapping`). -/
def SymbolTable.names (table : SymbolTable) : ast.IdentifierType → List (List Char)
  | .Parameter => table.parameterIdToStringMapping
  | .Variable => table.variableIdToStringMapping
  | .Constant => table.constantIdToStringMapping

/-- The id that the next symbol of a namespace gets (`nextParameterId`,
`nextVariableId` and `nextConstantId`). -/
def SymbolTable.nextId (table : SymbolTable) : ast.IdentifierType → Nat
  | .Parameter => table.nextParameterId
  | .Variable => table.nextVariableId
  | .Constant => table.nextConstantId

/-- Coherence of the parts of a symbol table: the id counter of each
namespace is the number of symbols registered in it, every constant has a
value, the entry found for a text names an id under which the namespace
holds this text, and every text held by a namespace under an id is found
with an entry of this namespace and id. -/
def SymbolTable.Coherent (table : SymbolTable) : Prop :=
  (∀ symbolType, table.nextId symbolType = (table.names symbolType).length) ∧
  table.constantValues.length = table.constantIdToStringMapping.length ∧
  (∀ symbolStr entry,
    findSymbolEntry table.symbolStrToSymbolEntryMapping symbolStr = some entry →
      (table.names entry.symbolType)[entry.symbolId]? = some symbolStr) ∧
  (∀ symbolType symbolId symbolStr,
    (table.names symbolType)[symbolId]? = some symbolStr →
      ∃ entry, findSymbolEntry table.symbolStrToSymbolEntryMapping symbolStr = some entry ∧
        entry.symbolType = symbolType ∧ entry.symbolId = symbolId)

/-- A later state of a symbol table: the map and the texts of each namespace
were extended at their ends only. -/
def SymbolTable.Extends (table table' : SymbolTable) : Prop :=
  (∃ added, table'.symbolStrToSymbolEntryMapping =
    table.symbolStrToSymbolEntryMapping ++ added) ∧
  ∀ symbolType, ∃ added, table'.names symbolType = table.names symbolType ++ added

/-- One call of `registerSymbol`: the namespace, the declaration range and
the value of a constant. -/
structure Registration where
  symbolType : ast.IdentifierType
  declarationRef : SourceRangeReference
  constantValue : Int := -1

/-- Calls of `registerSymbol` one after another on the same symbol table. -/
def SymbolTable.registerSymbols (sourceCode : List Char) :
    List Registration → SymbolTable → Except Fault SymbolTable
  | [], table => .ok table
  | registration :: rest, table =>
    match table.registerSymbol sourceCode registration.symbolType
        registration.declarationRef registration.constantValue with
    | .error fault => .error fault
    | .ok (_, table) => SymbolTable.registerSymbols sourceCode rest table

end analysis

namespace parse_tree

/-- The identifiers of a declarator list, in the order of the source code. -/
def DeclaratorListChild.identifiers :
    List DeclaratorListChild → List parse_tree.Identifier
  | [] => []
  | .Identifier identifier :: rest => identifier :: DeclaratorListChild.identifiers rest
  | .GenericToken _ :: rest => DeclaratorListChild.identifiers rest

/-- The init-declarators of an init-declarator list, in the order of the
source code. -/
def InitDeclaratorListChild.initDeclarators :
    List InitDeclaratorListChild → List parse_tree.InitDeclarator
  | [] => []
  | .InitDeclarator initDeclarator :: rest =>
    initDeclarator :: InitDeclaratorListChild.initDeclarators rest
  | .GenericToken _ :: rest => InitDeclaratorListChild.initDeclarators rest

/-- The statements of a statement list, in the order of the source code. -/
def StatementListChild.statements :
    List StatementListChild → List parse_tree.Statement
  | [] => []
  | .Statement statement :: rest => statement :: StatementListChild.statements rest
  | .GenericToken _ :: rest => StatementListChild.statements rest

/-- The texts of the parameters declared in the `PARAM` section of a
function definition, in the order of the source code. -/
def FunctionDefinition.parameterNames (node : FunctionDefinition) (sourceCode : List Char) :
    List (List Char) :=
  match node.parameterDeclarations with
  | some declarations =>
    (DeclaratorListChild.identifiers declarations.declaratorList.children).map
      fun identifier => identifier.ref.toStringView sourceCode
  | none => []

/-- The texts of the variables declared in the `VAR` section of a function
definition, in the order of the source code. -/
def FunctionDefinition.variableNames (node : FunctionDefinition) (sourceCode : List Char) :
    List (List Char) :=
  match node.variableDeclarations with
  | some declarations =>
    (DeclaratorListChild.identifiers declarations.declaratorList.children).map
      fun identifier => identifier.ref.toStringView sourceCode
  | none => []

/-- The texts of the constants declared in the `CONST` section of a function
definition, in the order of the source code. -/
def FunctionDefinition.constantNames (node : FunctionDefinition) (sourceCode : List Char) :
    List (List Char) :=
  match node.constantDeclarations with
  | some declarations =>
    (InitDeclaratorListChild.initDeclarators
      declarations.initDeclaratorList.children).map
      fun initDeclarator => initDeclarator.identifier.ref.toStringView sourceCode
  | none => []

/-- The values of the constants declared in the `CONST` section of a
function definition, in the order of the source code. -/
def FunctionDefinition.constantLiterals (node : FunctionDefinition) : List Int :=
  match node.constantDeclarations with
  | some declarations =>
    (InitDeclaratorListChild.initDeclarators
      declarations.initDeclaratorList.children).map
      fun initDeclarator => initDeclarator.literal.value
  | none => []

/-- The texts declared in a namespace by a function definition. -/
def FunctionDefinition.declaredNames (node : FunctionDefinition) (sourceCode : List Char) :
    ast.IdentifierType → List (List Char)
  | .Parameter => node.parameterNames sourceCode
  | .Variable => node.variableNames sourceCode
  | .Constant => node.constantNames sourceCode

end parse_tree

end pljit

namespace pljit

namespace analysis

open common

/-- A statement of the parse tree and the AST statement that
`analyzeStatement` returns for it in some state of the analysis with the
given symbol table and source code. -/
def SemanticAnalysis.Analysed (table : SymbolTable) (sourceCode : List Char)
    (node : parse_tree.Statement) (stmt : ast.Statement) : Prop :=
  ∃ analysis analysis' : SemanticAnalysis,
    analysis.symbolTable = table ∧
    analysis.sourceCodeManager.sourceCode = sourceCode ∧
    SemanticAnalysis.analyzeStatement node analysis = .ok stmt analysis'

end analysis

namespace parse_tree

/-- Test for a `RETURN` statement of the parse tree. -/
def Statement.isReturnStatement : Statement → Bool
  | .ReturnStatement _ _ _ => true
  | .AssignmentStatement _ _ => false

/-- The texts of the targets of the assignment statements of a statement
list of the parse tree. -/
def assignmentTargets (sourceCode : List Char) : List parse_tree.Statement → List (List Char)
  | [] => []
  | .AssignmentStatement assignmentExpression _ :: rest =>
    assignmentExpression.identifier.ref.toStringView sourceCode ::
      assignmentTargets sourceCode rest
  | .ReturnStatement _ _ _ :: rest => assignmentTargets sourceCode rest

/-- The statements of a function definition of the parse tree, in the order
of the source code. -/
def FunctionDefinition.statements (node : FunctionDefinition) : List parse_tree.Statement :=
  StatementListChild.statements node.compoundStatement.statementList.children

end parse_tree

end pljit

namespace pljit

namespace lexer

open common

/-- Ranges that were read from the input one after the other between two
states of a lexer. -/
def Lexer.SpansList (start : Lexer) : List SourceRangeReference → Lexer → Prop
  | [], lexer => start.Advance lexer
  | ref :: rest, lexer => ∃ mid : Lexer, start.Spans ref mid ∧ Lexer.SpansList mid rest lexer

end lexer

end pljit

deriving instance DecidableEq for
  pljit.parse_tree.AssignmentExpression, pljit.parse_tree.Statement,
  pljit.parse_tree.StatementListChild, pljit.parse_tree.StatementList,
  pljit.parse_tree.CompoundStatement, pljit.parse_tree.FunctionDefinition

namespace pljit

open common lexer parse_tree parser

/-- The source code of the test `TestParser.SimpleTest`, with whitespace in
front of it and behind it. -/
def scenarioSimple : List Char :=
  " BEGIN\n\tRETURN 123\nEND\n. \n".toList

/-- The parser on `scenarioSimple` as its constructor leaves it. -/
def scenarioSimpleStart : Parser :=
  { lexer :=
      { sourceCodeManager := { sourceCode := scenarioSimple }
        current := 8
        tokenCache := some { tokenType := .Begin, ref := { ref := 1, length := 5 } } }
    refToLastChar := { ref := 1 } }

/-- The parser on `scenarioSimple` after `parseFunctionDefinition`. -/
def scenarioSimpleEnd : Parser :=
  { lexer :=
      { sourceCodeManager := { sourceCode := scenarioSimple }
        current := 26 }
    refToLastChar := { ref := 23 } }

/-- The parse tree of `scenarioSimple`. -/
def scenarioSimpleTree : FunctionDefinition :=
  { parameterDeclarations := none
    variableDeclarations := none
    constantDeclarations := none
    compoundStatement :=
      { beginKeyword := { ref := { ref := 1, length := 5 } }
        statementList :=
          { children :=
              [.Statement
                (.ReturnStatement { ref := { ref := 8, length := 6 } }
                  (.single (scenarioLiteralOperand 123 { ref := 15, length := 3 })
                    { ref := 15, length := 3 })
                  { ref := 8, length := 10 })]
            ref := { ref := 8, length := 10 } }
        endKeyword := { ref := { ref := 19, length := 3 } }
        ref := { ref := 1, length := 21 } }
    programTerminator := { ref := { ref := 23, length := 1 } }
    ref := { ref := 1, length := 23 } }

end pljit

deriving instance DecidableEq for pljit.analysis.AnalysisResult

namespace pljit

open common lexer parse_tree parser analysis

/-- The primary expression that the parser builds for an identifier. -/
def scenarioIdentifierOperand (ref : SourceRangeReference) : MultiplicativeExpression :=
  .single (.unsigned (.Identifier { ref := ref } ref) ref) ref

/-- A program with parameters, a variable and a constant. -/
def scenarioDeclarations : List Char :=
  "PARAM a, b; VAR c; CONST d = 1; BEGIN c := a; RETURN c + d END.".toList

/-- The parse tree of `scenarioDeclarations`. -/
def scenarioDeclarationsTree : FunctionDefinition :=
  { parameterDeclarations :=
      some
        { paramKeyword := { ref := { ref := 0, length := 5 } }
          declaratorList :=
            { children :=
                [.Identifier { ref := { ref := 6, length := 1 } },
                 .GenericToken { ref := { ref := 7, length := 1 } },
                 .Identifier { ref := { ref := 9, length := 1 } }]
              ref := { ref := 6, length := 4 } }
          semiColon := { ref := { ref := 10, length := 1 } }
          ref := { ref := 0, length := 11 } }
    variableDeclarations :=
      some
        { varKeyword := { ref := { ref := 12, length := 3 } }
          declaratorList :=
            { children := [.Identifier { ref := { ref := 16, length := 1 } }]
              ref := { ref := 16, length := 1 } }
          semiColon := { ref := { ref := 17, length := 1 } }
          ref := { ref := 12, length := 6 } }
    constantDeclarations :=
      some
        { constKeyword := { ref := { ref := 19, length := 5 } }
          initDeclaratorList :=
            { children :=
                [.InitDeclarator
                  { identifier := { ref := { ref := 25, length := 1 } }
                    initToken := { ref := { ref := 27, length := 1 } }
                    literal := { value := 1, ref := { ref := 29, length := 1 } }
                    ref := { ref := 25, length := 5 } }]
              ref := { ref := 25, length := 5 } }
          semiColon := { ref := { ref := 30, length := 1 } }
          ref := { ref := 19, length := 12 } }
    compoundStatement :=
      { beginKeyword := { ref := { ref := 32, length := 5 } }
        statementList :=
          { children :=
              [.Statement
                (.AssignmentStatement
                  { identifier := { ref := { ref := 38, length := 1 } }
                    assignmentToken := { ref := { ref := 40, length := 2 } }
                    additiveExpression :=
                      .single (scenarioIdentifierOperand { ref := 43, length := 1 })
                        { ref := 43, length := 1 }
                    ref := { ref := 38, length := 6 } }
                  { ref := 38, length := 6 }),
               .GenericToken { ref := { ref := 44, length := 1 } },
               .Statement
                (.ReturnStatement { ref := { ref := 46, length := 6 } }
                  (.binary (scenarioIdentifierOperand { ref := 53, length := 1 })
                    { ref := { ref := 55, length := 1 } }
                    (.single (scenarioIdentifierOperand { ref := 57, length := 1 })
                      { ref := 57, length := 1 })
                    .Add { ref := 53, length := 5 })
                  { ref := 46, length := 12 })]
            ref := { ref := 38, length := 20 } }
        endKeyword := { ref := { ref := 59, length := 3 } }
        ref := { ref := 32, length := 30 } }
    programTerminator := { ref := { ref := 62, length := 1 } }
    ref := { ref := 0, length := 63 } }

/-- The AST of `scenarioDeclarations`. -/
def scenarioDeclarationsFunction : ast.Function :=
  { statements :=
      [.AssignmentStatement { identifierType := .Variable, id := 0 }
        (.Identifier .Parameter 0),
       .ReturnStatement (.BinaryOp (.Identifier .Variable 0) .Add (.Identifier .Constant 0))] }

/-- The symbol table of `scenarioDeclarations`. -/
def scenarioDeclarationsTable : SymbolTable :=
  { nextParameterId := 2
    nextVariableId := 1
    nextConstantId := 1
    symbolStrToSymbolEntryMapping :=
      [(['a'], { symbolId := 0, declarationRef := { ref := 6, length := 1 },
                 symbolType := .Parameter }),
       (['b'], { symbolId := 1, declarationRef := { ref := 9, length := 1 },
                 symbolType := .Parameter }),
       (['c'], { symbolId := 0, declarationRef := { ref := 16, length := 1 },
                 symbolType := .Variable }),
       (['d'], { symbolId := 0, declarationRef := { ref := 25, length := 1 },
                 symbolType := .Constant })]
    parameterIdToStringMapping := [['a'], ['b']]
    variableIdToStringMapping := [['c']]
    constantIdToStringMapping := [['d']]
    constantValues := [1] }

/-- The state of the semantic analysis after `scenarioDeclarations`. -/
def scenarioDeclarationsAnalysis : SemanticAnalysis :=
  { sourceCodeManager := { sourceCode := scenarioDeclarations }
    symbolTable := scenarioDeclarationsTable
    containsReturnStatement := true
    initializedVariables := [0] }

/-- The source code of the test `IdentifierDeclaredTwice1`. -/
def scenarioDeclaredTwice1 : List Char :=
  "PARAM a, b, a;\nVAR x, y;\nCONST D = 42, F = 39, G = 1024;\nBEGIN\n  RETURN 1\nEND.\n".toList

/-- The source code of the test `IdentifierDeclaredTwice2`. -/
def scenarioDeclaredTwice2 : List Char :=
  "PARAM a, b, c;\nVAR x, y;\nCONST D = 42, a = 39, G = 1024;\nBEGIN\n  RETURN 1\nEND.\n".toList

/-- The source code of the test `IdentifierDeclaredTwice3`. -/
def scenarioDeclaredTwice3 : List Char :=
  "PARAM a, b, c;\nVAR x, y;\nCONST D = 42, D = 39, G = 1024;\nBEGIN\n  RETURN 1\nEND.\n".toList

/-- The source code of the test `IdentifierDeclaredTwice4`. -/
def scenarioDeclaredTwice4 : List Char :=
  "PARAM a, b, c;\nVAR a, y;\nCONST D = 42, E = 39, G = 1024;\nBEGIN\n  RETURN 1\nEND.\n".toList

/-- The source code of the test `AssigningValueToConstant`. -/
def scenarioAssignmentToConstant : List Char :=
  "CONST D = 42;\nBEGIN\n  D := 12;\n  RETURN D\nEND.\n".toList

/-- The source code of the test `MissingReturnStatement`. -/
def scenarioMissingReturn : List Char :=
  "VAR a;\nBEGIN\n  a := 1 + 3;\n  a := 4\nEND.\n".toList

/-- The source code of the test `TestSemanticAnalysis.ComplexTest`. -/
def scenarioComplex : List Char :=
  ("PARAM a, b;\nVAR x, y;\nCONST D = 42, F = 39, G = 1024;\nBEGIN\n" ++
    "      x := (a - D) / (b - (F * G));\n      y := x * (D + a);\n" ++
    "      a := -x;\n      RETURN +a\nEND.\n").toList

/-- The symbol table of `scenarioComplex`. -/
def scenarioComplexTable : SymbolTable :=
  { nextParameterId := 2
    nextVariableId := 2
    nextConstantId := 3
    symbolStrToSymbolEntryMapping :=
      [(['a'], { symbolId := 0, declarationRef := { ref := 6, length := 1 },
                 symbolType := .Parameter }),
       (['b'], { symbolId := 1, declarationRef := { ref := 9, length := 1 },
                 symbolType := .Parameter }),
       (['x'], { symbolId := 0, declarationRef := { ref := 16, length := 1 },
                 symbolType := .Variable }),
       (['y'], { symbolId := 1, declarationRef := { ref := 19, length := 1 },
                 symbolType := .Variable }),
       (['D'], { symbolId := 0, declarationRef := { ref := 28, length := 1 },
                 symbolType := .Constant }),
       (['F'], { symbolId := 1, declarationRef := { ref := 36, length := 1 },
                 symbolType := .Constant }),
       (['G'], { symbolId := 2, declarationRef := { ref := 44, length := 1 },
                 symbolType := .Constant })]
    parameterIdToStringMapping := [['a'], ['b']]
    variableIdToStringMapping := [['x'], ['y']]
    constantIdToStringMapping := [['D'], ['F'], ['G']]
    constantValues := [42, 39, 1024] }

end pljit

namespace pljit

namespace lexer

/-- The tokens that `next` hands out one after the other until `hasNext` is
false: the token sequence of the rest of the input.  There is no sequence
(`none`) when an error token comes, when `next` fails an assertion, or when
the recursion budget is used up before the end of the input. -/
def Lexer.tokens : Nat → Lexer → Option (List Token)
  | 0, _ => none
  | fuel + 1, lexer =>
    if !lexer.hasNext then some []
    else
      match lexer.next with
      | .error _ => none
      | .ok (token, lexer) =>
        if token.hasError then none
        else (Lexer.tokens fuel lexer).map (token :: ·)

/-- The rest of the input of a lexer with a consistent token cache lexes
without error into tokens of the given types. -/
def Lexer.Reads (lexer : Lexer) (types : List TokenType) : Prop :=
  lexer.WellFormed ∧
  ∃ (fuel : Nat) (tokens : List Token),
    Lexer.tokens fuel lexer = some tokens ∧ tokens.map (·.tokenType) = types

end lexer

namespace parser

open lexer

/-- The nonterminals of the grammar of the language below the root
`function-definition`. -/
inductive Nonterminal where
  | parameterDeclarations
  | variableDeclarations
  | constantDeclarations
  | declaratorList
  | initDeclaratorList
  | initDeclarator
  | compoundStatement
  | statementList
  | statement
  | assignmentExpression
  | additiveExpression
  | multiplicativeExpression
  | unaryExpression
  | primaryExpression
  deriving DecidableEq, Repr

/-- Derivability of a sequence of token types from a nonterminal of the
grammar of the language, production by production:

    parameter-declarations = "PARAM" declarator-list ";"
    variable-declarations  = "VAR"   declarator-list ";"
    constant-declarations  = "CONST" init-declarator-list ";"
    declarator-list        = identifier {"," identifier}
    init-declarator-list   = init-declarator {"," init-declarator}
    init-declarator        = identifier "=" literal
    compound-statement     = "BEGIN" statement-list "END"
    statement-list         = statement {";" statement}
    statement              = assignment-expression | "RETURN" additive-expression
    assignment-expression  = identifier ":=" additive-expression
    additive-expression       = multiplicative-expression [("+"|"-") additive-expression]
    multiplicative-expression = unary-expression [("*"|"/") multiplicative-expression]
    unary-expression          = ["+"|"-"] primary-expression
    primary-expression        = identifier | literal | "(" additive-expression ")"

A repetition `item {separator item}` is derived as one item, or as an item
followed by the separator and a further derivation of the repetition. -/
inductive Derives : Nonterminal → List TokenType → Prop
  | parameterDeclarations {list : List TokenType} :
    Derives .declaratorList list →
    Derives .parameterDeclarations (.Param :: list ++ [.SemiColon])
  | variableDeclarations {list : List TokenType} :
    Derives .declaratorList list →
    Derives .variableDeclarations (.Var :: list ++ [.SemiColon])
  | constantDeclarations {list : List TokenType} :
    Derives .initDeclaratorList list →
    Derives .constantDeclarations (.Const :: list ++ [.SemiColon])
  | declaratorListSingle : Derives .declaratorList [.Identifier]
  | declaratorListMore {rest : List TokenType} :
    Derives .declaratorList rest →
    Derives .declaratorList (.Identifier :: .Comma :: rest)
  | initDeclaratorListSingle {first : List TokenType} :
    Derives .initDeclarator first → Derives .initDeclaratorList first
  | initDeclaratorListMore {first rest : List TokenType} :
    Derives .initDeclarator first → Derives .initDeclaratorList rest →
    Derives .initDeclaratorList (first ++ .Comma :: rest)
  | initDeclarator : Derives .initDeclarator [.Identifier, .Init, .Literal]
  | compoundStatement {list : List TokenType} :
    Derives .statementList list →
    Derives .compoundStatement (.Begin :: list ++ [.End])
  | statementListSingle {first : List TokenType} :
    Derives .statement first → Derives .statementList first
  | statementListMore {first rest : List TokenType} :
    Derives .statement first → Derives .statementList rest →
    Derives .statementList (first ++ .SemiColon :: rest)
  | statementAssignment {assignment : List TokenType} :
    Derives .assignmentExpression assignment → Derives .statement assignment
  | statementReturn {expression : List TokenType} :
    Derives .additiveExpression expression → Derives .statement (.Return :: expression)
  | assignmentExpression {expression : List TokenType} :
    Derives .additiveExpression expression →
    Derives .assignmentExpression (.Identifier :: .Assignment :: expression)
  | additiveSingle {first : List TokenType} :
    Derives .multiplicativeExpression first → Derives .additiveExpression first
  | additivePlus {first rest : List TokenType} :
    Derives .multiplicativeExpression first → Derives .additiveExpression rest →
    Derives .additiveExpression (first ++ .OpPlus :: rest)
  | additiveMinus {first rest : List TokenType} :
    Derives .multiplicativeExpression first → Derives .additiveExpression rest →
    Derives .additiveExpression (first ++ .OpMinus :: rest)
  | multiplicativeSingle {first : List TokenType} :
    Derives .unaryExpression first → Derives .multiplicativeExpression first
  | multiplicativeMul {first rest : List TokenType} :
    Derives .unaryExpression first → Derives .multiplicativeExpression rest →
    Derives .multiplicativeExpression (first ++ .OpMul :: rest)
  | multiplicativeDiv {first rest : List TokenType} :
    Derives .unaryExpression first → Derives .multiplicativeExpression rest →
    Derives .multiplicativeExpression (first ++ .OpDiv :: rest)
  | unaryUnsigned {primary : List TokenType} :
    Derives .primaryExpression primary → Derives .unaryExpression primary
  | unaryPlus {primary : List TokenType} :
    Derives .primaryExpression primary → Derives .unaryExpression (.OpPlus :: primary)
  | unaryMinus {primary : List TokenType} :
    Derives .primaryExpression primary → Derives .unaryExpression (.OpMinus :: primary)
  | primaryIdentifier : Derives .primaryExpression [.Identifier]
  | primaryLiteral : Derives .primaryExpression [.Literal]
  | primaryParenthesized {expression : List TokenType} :
    Derives .additiveExpression expression →
    Derives .primaryExpression (.LeftParenthesis :: expression ++ [.RightParenthesis])

/-- Derivability of an optional part `[nonterminal]` of a production: the
empty sequence or a sequence derived from the nonterminal. -/
def DerivesOptional (nonterminal : Nonterminal) (types : List TokenType) : Prop :=
  types = [] ∨ Derives nonterminal types

/-- Derivability of a sequence of token types from the root of the grammar,

    function-definition = [parameter-declarations] [variable-declarations]
                          [constant-declarations] compound-statement "."
-/
def DerivesFunctionDefinition (types : List TokenType) : Prop :=
  ∃ parameterSection variableSection constantSection compound : List TokenType,
    DerivesOptional .parameterDeclarations parameterSection ∧
    DerivesOptional .variableDeclarations variableSection ∧
    DerivesOptional .constantDeclarations constantSection ∧
    Derives .compoundStatement compound ∧
    types = parameterSection ++ variableSection ++ constantSection ++ compound ++
      [.ProgramTerminator]

end parser

end pljit

namespace pljit

open common lexer

/-- The tokens of `scenarioSimple`. -/
def scenarioSimpleTokens : List Token :=
  [{ tokenType := .Begin, ref := { ref := 1, length := 5 } },
   { tokenType := .Return, ref := { ref := 8, length := 6 } },
   { tokenType := .Literal, ref := { ref := 15, length := 3 } },
   { tokenType := .End, ref := { ref := 19, length := 3 } },
   { tokenType := .ProgramTerminator, ref := { ref := 23, length := 1 } }]

/-- The source code of the test `TokensAfterProgramTerminator`. -/
def scenarioTokensAfterTerminator : List Char :=
  "BEGIN\nRETURN 1\nEND. 1234".toList

end pljit

namespace pljit

namespace lexer

/-- Test that `next`, called until `hasNext` is false, hands out an error
token: the source code does not lex without error. -/
def Lexer.meetsError : Nat → Lexer → Bool
  | 0, _ => false
  | fuel + 1, lexer =>
    if !lexer.hasNext then false
    else
      match lexer.next with
      | .error _ => false
      | .ok (token, lexer) => token.hasError || Lexer.meetsError fuel lexer

end lexer

end pljit

namespace pljit

namespace lexer

open common

/-- The two calls of the interface of the lexer that hand out a token. -/
inductive Lexer.Call where
  | peek
  | next
  deriving DecidableEq, Repr

/-- One call of `peek()` or `next()`. -/
def Lexer.call : Lexer.Call → Lexer → Except Fault (Token × Lexer)
  | .peek, lexer => lexer.peek
  | .next, lexer => lexer.next

/-- Calls of `peek()` and `next()` one after the other: the tokens they
return, in the order of the calls, and the lexer after the last call. -/
def Lexer.calls : List Lexer.Call → Lexer → Except Fault (List Token × Lexer)
  | [], lexer => .ok ([], lexer)
  | call :: rest, lexer =>
    match Lexer.call call lexer with
    | .error fault => .error fault
    | .ok (token, lexer) =>
      match Lexer.calls rest lexer with
      | .error fault => .error fault
      | .ok (tokens, lexer) => .ok (token :: tokens, lexer)

/-- States of the lexer reachable from its construction on a source code by
calls of `peek()` and `next()` that return. -/
def Lexer.Reachable (manager : SourceCodeManager) (lexer : Lexer) : Prop :=
  ∃ (calls : List Lexer.Call) (tokens : List Token),
    Lexer.calls calls (Lexer.new manager) = .ok (tokens, lexer)

/-- The scan position of a lexer rests on a character that is no whitespace
or on the end of the source code. -/
def Lexer.Rests (lexer : Lexer) : Prop :=
  lexer.current ≤ lexer.sourceCodeManager.sourceCode.length ∧
  ∀ c, lexer.sourceCodeManager.sourceCode[lexer.current]? = some c → isWhitespace c = false

/-- The state of a lexer is settled: an error token is cached, or the scan
position rests on a character that is no whitespace or on the end. -/
def Lexer.Settled (lexer : Lexer) : Prop :=
  (∃ token, lexer.tokenCache = some token ∧ token.tokenType = .LexerError) ∨ lexer.Rests

/-- The text of a token: the characters of its range. -/
def Token.text (sourceCode : List Char) (token : Token) : List Char :=
  token.ref.toStringView sourceCode

/-- The character of the source code right behind a token, when there is
one. -/
def Token.following (sourceCode : List Char) (token : Token) : Option Char :=
  sourceCode[token.ref.ref + token.ref.length]?

/-- The token types of the keywords and of identifiers: the types that
`determineAlphaCharTokenType` returns. -/
def TokenType.isWord : TokenType → Bool
  | .Param | .Var | .Const | .Begin | .End | .Return | .Identifier => true
  | _ => false

/-- Strings of skipped characters and texts of tokens in turn, starting and
ending with skipped characters: `gap₀ ++ text₁ ++ gap₁ ++ ... ++ textₙ ++ gapₙ`. -/
def weave : List (List Char) → List (List Char) → List Char
  | [], _ => []
  | gap :: _, [] => gap
  | gap :: gaps, text :: texts => gap ++ text ++ weave gaps texts

/-- Two ranges of the source code of which the first ends before the second
starts. -/
def Token.Before (first second : Token) : Prop :=
  first.ref.ref + first.ref.length ≤ second.ref.ref

instance (first second : Token) : Decidable (first.Before second) := by
  unfold Token.Before
  infer_instance

end lexer

end pljit

namespace pljit

namespace lexer

open common

/-- The character of the source code right before a token, when there is
one. -/
def Token.preceding (sourceCode : List Char) (token : Token) : Option Char :=
  if token.ref.ref = 0 then none else sourceCode[token.ref.ref - 1]?

/-- An index of the source code that lies neither within a run of letters
nor within a run of digits: the characters before it and at it are not two
letters and not two digits. -/
def Separates (sourceCode : List Char) (index : Nat) : Prop :=
  ∀ c d, 0 < index → sourceCode[index - 1]? = some c → sourceCode[index]? = some d →
    (isAlphaChar c = true → isAlphaChar d = false) ∧
    (isLiteralChar c = true → isLiteralChar d = false)

end lexer

end pljit

namespace pljit

open common lexer

/-- Source code of the test `TestLexer.Peek`. -/
def scenarioPeek : List Char :=
  "a 1".toList

/-- The identifier of the test `TestLexer.Peek`. -/
def scenarioPeekIdentifier : Token :=
  { tokenType := .Identifier, ref := { ref := 0, length := 1 } }

/-- The literal of the test `TestLexer.Peek`. -/
def scenarioPeekLiteral : Token :=
  { tokenType := .Literal, ref := { ref := 2, length := 1 } }

/-- Source code of the test `TestLexerErrors.IllegalMulticharacterOperator`. -/
def scenarioIllegalOperator : List Char :=
  ":+=".toList

/-- The error token of the test `TestLexerErrors.IllegalMulticharacterOperator`. -/
def scenarioIllegalOperatorToken : Token :=
  { tokenType := .LexerError, ref := { ref := 0, length := 2 } }

/-- The lexer of the test `TestLexerErrors.IllegalMulticharacterOperator`
after the error: the diagnostic was printed once, the error token is
cached. -/
def scenarioIllegalOperatorLexer : Lexer :=
  { sourceCodeManager :=
      { sourceCode := scenarioIllegalOperator
        printed :=
          [{ ref := { ref := 0, length := 2 },
             message := "error: unknown multi-character token" }] }
    current := 1
    tokenCache := some scenarioIllegalOperatorToken }

/-- Source code of the test `TestLexer.PackedParamsWithWeirdWhiteSpacing`. -/
def scenarioWhiteSpacing : List Char :=
  "x,y,   u,     v\n\n\t     ".toList

/-- The tokens of the test `TestLexer.PackedParamsWithWeirdWhiteSpacing`. -/
def scenarioWhiteSpacingTokens : List Token :=
  [{ tokenType := .Identifier, ref := { ref := 0, length := 1 } },
   { tokenType := .Comma, ref := { ref := 1, length := 1 } },
   { tokenType := .Identifier, ref := { ref := 2, length := 1 } },
   { tokenType := .Comma, ref := { ref := 3, length := 1 } },
   { tokenType := .Identifier, ref := { ref := 7, length := 1 } },
   { tokenType := .Comma, ref := { ref := 8, length := 1 } },
   { tokenType := .Identifier, ref := { ref := 14, length := 1 } }]

/-- Source code that consists of an illegal character. -/
def scenarioIllegalCharacter : List Char :=
  "?".toList

/-- The error token of the illegal character. -/
def scenarioIllegalCharacterToken : Token :=
  { tokenType := .LexerError, ref := { ref := 0, length := 1 } }

/-- Source code with a colon in front of an illegal character. -/
def scenarioColonIllegal : List Char :=
  ":?".toList

/-- Source code that ends with a colon. -/
def scenarioColonLast : List Char :=
  "x:".toList

/-- Source code of the test `TestLexer.MixNumericAndAlphaNumericWithNoSpaces`. -/
def scenarioMix : List Char :=
  "abc1234RETURN5678".toList

/-- The tokens of the test `TestLexer.MixNumericAndAlphaNumericWithNoSpaces`. -/
def scenarioMixTokens : List Token :=
  [{ tokenType := .Identifier, ref := { ref := 0, length := 3 } },
   { tokenType := .Literal, ref := { ref := 3, length := 4 } },
   { tokenType := .Return, ref := { ref := 7, length := 6 } },
   { tokenType := .Literal, ref := { ref := 13, length := 4 } }]

/-- Source code of the test `TestLexer.IdentifierTest`. -/
def scenarioParamLetter : List Char :=
  "PARAMa".toList

end pljit

namespace pljit

open common

/-- Source code with an illegal character where a primary expression is
expected. -/
def scenarioLexerErrorInExpression : List Char :=
  "BEGIN RETURN ? END.".toList

/-- Source code with an illegal character where a statement is expected. -/
def scenarioLexerErrorInStatement : List Char :=
  "BEGIN ? END.".toList

/-- Source code with an illegal character behind the program terminator. -/
def scenarioLexerErrorAfterTerminator : List Char :=
  "BEGIN RETURN 1 END. ?".toList

/-- Source code of the test `TestParserErrors.LexerErrorHandling`. -/
def scenarioLexerErrorHandling : List Char :=
  "CONST A != 1;".toList

/-- Source code of the test `TestParserErrors.LexerErrorHandling2`. -/
def scenarioLexerErrorHandling2 : List Char :=
  "PARAM a?;".toList

/-- Source code of the test `TestParserErrors.LexerErrorHandling3`. -/
def scenarioLexerErrorHandling3 : List Char :=
  "CONST A = !;\n".toList

/-- The frame of a source code after a failed compilation during which the
diagnostics `printed` were printed. -/
def failedFrame (code : List Char) (printed : List Diagnostic) : FunctionFrame :=
  { sourceCodeManager := { sourceCode := code, printed := printed }
    state := .CompileError }

end pljit

namespace pljit

namespace common

/-- Information about a location in the source code
(`SourceCodeManager::SourceCodeLocation`). -/
structure SourceCodeLocation where
  lineNumber : Nat
  lineOffset : Nat
  indexLineStart : Nat
  lineLength : Nat
  deriving DecidableEq, Repr

/-- The characters of the buffer of the `std::string` that holds the source
code: the characters of the source code and the terminating null
character. -/
def SourceCodeManager.data (manager : SourceCodeManager) : List Char :=
  manager.sourceCode ++ [Char.ofNat 0]

/-- The first loop of `SourceCodeManager::resolveLocation`,
`for (size_t i = 0; i < stopIndex; ++i)`, with the number of iterations
left, the index `i` and the loop-carried `currentLine` and
`startOfCurrentLine`.  Reading `sourceCode[i]` behind the terminating null
character is the fault `outOfBounds`. -/
def SourceCodeManager.resolveLocation.lineStartLoop (manager : SourceCodeManager) :
    Nat → Nat → Nat → Nat → Except Fault (Nat × Nat)
  | 0, _, currentLine, startOfCurrentLine => .ok (currentLine, startOfCurrentLine)
  | steps + 1, i, currentLine, startOfCurrentLine =>
    match manager.data[i]? with
    | none => .error .outOfBounds
    | some c =>
      if c = '\n' then
        SourceCodeManager.resolveLocation.lineStartLoop manager steps (i + 1)
          (currentLine + 1) (i + 1)
      else
        SourceCodeManager.resolveLocation.lineStartLoop manager steps (i + 1)
          currentLine startOfCurrentLine

/-- The second loop of `SourceCodeManager::resolveLocation`,
`for (size_t i = stopIndex + 1; i < sourceCode.size() && sourceCode[i] != '\n'; ++i)`,
over the characters of the source code from `i` on, with the loop-carried
`lineLength`. -/
def SourceCodeManager.resolveLocation.lineLengthLoop : List Char → Nat → Nat
  | [], lineLength => lineLength
  | c :: rest, lineLength =>
    if c ≠ '\n' then SourceCodeManager.resolveLocation.lineLengthLoop rest (lineLength + 1)
    else lineLength

/-- Resolution of a location into its line and its offset in the line
(`SourceCodeManager::resolveLocation`). -/
def SourceCodeManager.resolveLocation (manager : SourceCodeManager)
    (ref : SourceLocationReference) : Except Fault SourceCodeLocation :=
  let stopIndex := ref.ref
  match SourceCodeManager.resolveLocation.lineStartLoop manager stopIndex 0 1 0 with
  | .error fault => .error fault
  | .ok (currentLine, startOfCurrentLine) =>
    let lineLength :=
      SourceCodeManager.resolveLocation.lineLengthLoop
        (manager.sourceCode.drop (stopIndex + 1)) (stopIndex - startOfCurrentLine + 1)
    .ok { lineNumber := currentLine
          lineOffset := stopIndex - startOfCurrentLine + 1
          indexLineStart := startOfCurrentLine
          lineLength := lineLength }

/-- The conversion `static_cast<int>` of a `size_t` value: the value modulo
`2 ^ 32`, read as a signed number of 32 bits. -/
def castToInt (value : Nat) : Int :=
  ((value + 2147483648) % 4294967296 : Nat) - 2147483648

/-- Insertion of a text into the stream behind `std::setw(width)`, with the
fill character of the stream: the text is padded on the left up to the
width; a width that is not larger than the text adds nothing. -/
def setw (width : Int) (fill : Char) (text : List Char) : List Char :=
  List.replicate (width.toNat - text.length) fill ++ text

/-- The characters that `printContext(SourceRangeReference, message)`
writes to the console: the line with the position and the message, the line
of the source code, and the line that underlines the range.  The source
asserts in `ref.first()` that the range is not empty; a line that reaches
behind the buffer of the source code is the fault `outOfBounds`. -/
def SourceCodeManager.contextOutput (manager : SourceCodeManager) (ref : SourceRangeReference)
    (message : String) : Except Fault (List Char) :=
  match ref.first with
  | .error fault => .error fault
  | .ok location =>
    match manager.resolveLocation location with
    | .error fault => .error fault
    | .ok locationInfo =>
      if locationInfo.indexLineStart + locationInfo.lineLength ≤ manager.data.length then
        let line := (manager.data.drop locationInfo.indexLineStart).take locationInfo.lineLength
        .ok ((toString locationInfo.lineNumber).toList ++ [':'] ++
          (toString locationInfo.lineOffset).toList ++ [':', ' '] ++ message.toList ++ ['\n'] ++
          line ++ ['\n'] ++
          setw (castToInt locationInfo.lineOffset) ' ' ['^'] ++
          setw (castToInt ref.length) '~' ['\n'])
      else .error .outOfBounds

/-- The characters that the recorded calls of `printContext` wrote to the
console, in the order of the calls. -/
def SourceCodeManager.output (manager : SourceCodeManager) : Except Fault (List Char) :=
  manager.printed.foldlM
    (fun text diagnostic =>
      match manager.contextOutput diagnostic.ref diagnostic.message with
      | .error fault => .error fault
      | .ok context => .ok (text ++ context))
    []

/-- The number of the line of an index of the source code, as the
specification counts it: 1 plus the number of newline characters before the
index. -/
def specLineNumber (sourceCode : List Char) (index : Nat) : Nat :=
  1 + (sourceCode.take index).count '\n'

/-- The characters of the line of an index that stand before the index: the
characters between the last newline character before the index and the
index. -/
def specLineBefore (sourceCode : List Char) (index : Nat) : List Char :=
  ((sourceCode.take index).reverse.takeWhile (fun c => c ≠ '\n')).reverse

/-- The characters of the line of an index from the index on: the characters
up to the next newline character. -/
def specLineFrom (sourceCode : List Char) (index : Nat) : List Char :=
  (sourceCode.drop index).takeWhile (fun c => c ≠ '\n')

/-- The column of an index of the source code, as the specification counts
it: the offset of the index within its line, starting from 1. -/
def specColumn (sourceCode : List Char) (index : Nat) : Nat :=
  (specLineBefore sourceCode index).length + 1

/-- The full text of the line of an index of the source code. -/
def specLine (sourceCode : List Char) (index : Nat) : List Char :=
  specLineBefore sourceCode index ++ specLineFrom sourceCode index

/-- The diagnostic of the specification for a range and a message: the line
`L:C: message`, the line of the source code, and `C - 1` spaces followed by
`^` and `length - 1` characters `~`. -/
def specContext (sourceCode : List Char) (ref : SourceRangeReference) (message : String) :
    List Char :=
  (toString (specLineNumber sourceCode ref.ref)).toList ++ [':'] ++
    (toString (specColumn sourceCode ref.ref)).toList ++ [':', ' '] ++ message.toList ++
    ['\n'] ++ specLine sourceCode ref.ref ++ ['\n'] ++
    List.replicate (specColumn sourceCode ref.ref - 1) ' ' ++ ['^'] ++
    List.replicate (ref.length - 1) '~' ++ ['\n']

end common

/-- Source code of the test `TestLexerErrors.IllegalCharacter3`. -/
def scenarioIllegalCharacter3 : List Char :=
  "\n\n\n       _abcd".toList

/-- Source code of two lines. -/
def scenarioTwoLines : List Char :=
  "ab\ncd".toList

end pljit

namespace pljit

namespace optim

open ast

/-- Test that every identifier of an expression is a constant of the
program or a parameter or variable that the variable table of the constant
propagation currently records as constant. -/
def specAllConstant (variableTable : List (IdentifierKey × VariableAssignment)) :
    Expression → Bool
  | .ConstantLiteral _ => true
  | .Identifier identifierType id =>
    if identifierType = .Constant then true
    else
      match variableTableFind variableTable (id, identifierType) with
      | some assignment => assignment.hasConstantAssignment
      | none => false
  | .UnaryOp _ expression => specAllConstant variableTable expression
  | .BinaryOp lhsExpression _ rhsExpression =>
    specAllConstant variableTable lhsExpression && specAllConstant variableTable rhsExpression

/-- The constant value of an expression in the arithmetic of the language:
a constant of the program has its value in the symbol table, a parameter or
variable the value that the variable table records (0 where nothing is
recorded); the operations wrap in 64 bits and the division truncates toward
zero.  The division of the smallest value by -1 has no value in this
arithmetic (`specTraps`). -/
def specConstantValue (symbolTable : analysis.SymbolTable)
    (variableTable : List (IdentifierKey × VariableAssignment)) : Expression → Int
  | .ConstantLiteral value => value
  | .Identifier identifierType id =>
    if identifierType = .Constant then symbolTable.constantValues.getD id 0
    else
      match variableTableFind variableTable (id, identifierType) with
      | some assignment => assignment.value
      | none => 0
  | .UnaryOp .MinusSign expression =>
    wrapInt64 (-(specConstantValue symbolTable variableTable expression))
  | .UnaryOp .PlusSign expression => specConstantValue symbolTable variableTable expression
  | .BinaryOp lhsExpression .Add rhsExpression =>
    wrapInt64 (specConstantValue symbolTable variableTable lhsExpression +
      specConstantValue symbolTable variableTable rhsExpression)
  | .BinaryOp lhsExpression .Sub rhsExpression =>
    wrapInt64 (specConstantValue symbolTable variableTable lhsExpression -
      specConstantValue symbolTable variableTable rhsExpression)
  | .BinaryOp lhsExpression .Mul rhsExpression =>
    wrapInt64 (specConstantValue symbolTable variableTable lhsExpression *
      specConstantValue symbolTable variableTable rhsExpression)
  | .BinaryOp lhsExpression .Div rhsExpression =>
    wrapInt64 (Int.tdiv (specConstantValue symbolTable variableTable lhsExpression)
      (specConstantValue symbolTable variableTable rhsExpression))

/-- Test that an expression has a `Div` node whose divisor has the constant
value 0. -/
def specDividesByZero (symbolTable : analysis.SymbolTable)
    (variableTable : List (IdentifierKey × VariableAssignment)) : Expression → Bool
  | .ConstantLiteral _ => false
  | .Identifier _ _ => false
  | .UnaryOp _ expression => specDividesByZero symbolTable variableTable expression
  | .BinaryOp lhsExpression binaryOpType rhsExpression =>
    specDividesByZero symbolTable variableTable lhsExpression ||
      specDividesByZero symbolTable variableTable rhsExpression ||
      (decide (binaryOpType = .Div) &&
        decide (specConstantValue symbolTable variableTable rhsExpression = 0))

/-- Test that an expression is a compile-time constant in the words of the
claim: every identifier is a constant or recorded as constant, and no `Div`
node has a divisor with the constant value 0. -/
def specFolds (symbolTable : analysis.SymbolTable)
    (variableTable : List (IdentifierKey × VariableAssignment)) (expression : Expression) :
    Bool :=
  specAllConstant variableTable expression &&
    !specDividesByZero symbolTable variableTable expression

/-- Test that an expression has a `Div` node with two operands that are
compile-time constants, the dividend with the smallest value and the divisor
with the value -1: the quotient is not representable. -/
def specTraps (symbolTable : analysis.SymbolTable)
    (variableTable : List (IdentifierKey × VariableAssignment)) : Expression → Bool
  | .ConstantLiteral _ => false
  | .Identifier _ _ => false
  | .UnaryOp _ expression => specTraps symbolTable variableTable expression
  | .BinaryOp lhsExpression binaryOpType rhsExpression =>
    specTraps symbolTable variableTable lhsExpression ||
      specTraps symbolTable variableTable rhsExpression ||
      (decide (binaryOpType = .Div) &&
        specFolds symbolTable variableTable lhsExpression &&
        specFolds symbolTable variableTable rhsExpression &&
        divisionOverflows (specConstantValue symbolTable variableTable lhsExpression)
          (specConstantValue symbolTable variableTable rhsExpression))

end optim

/-- The AST of a source code after constant propagation alone, as the test
helper `ASTEnvironment` builds it with `Optimization::ConstantPropagation`. -/
def astAfterConstantPropagation (code : List Char) : Except Fault (Option ast.Function) :=
  match parseAndAnalyze code with
  | .error fault => .error fault
  | .ok none => .ok none
  | .ok (some (function, symbolTable)) =>
    match optim.ConstantPropagation.visit function { symbolTable := symbolTable } with
    | .error fault => .error fault
    | .ok (function, _) => .ok (some function)

/-- Source code of the test `TestConstantPropagation.SimpleTest`. -/
def scenarioFolding : List Char :=
  "VAR x;\nBEGIN\n     x := 1 + 3 - 2 + 42;\n     RETURN x + 12\nEND.".toList

/-- Source code of the test `TestConstantPropagation.DivisionByZero`. -/
def scenarioConstantDivisionByZero : List Char :=
  "BEGIN\n    RETURN 1 / 0\nEND.".toList

/-- Source code that returns the quotient of the literal `2^63`, which the
parser converts to the smallest value, and -1. -/
def scenarioConstantOverflow : List Char :=
  "BEGIN RETURN 9223372036854775808 / -1 END.".toList

/-- Source code that returns the quotient of the smallest value and -1, with
literals below `2^63` only. -/
def scenarioConstantOverflowSmall : List Char :=
  "BEGIN RETURN (-9223372036854775807 - 1) / -1 END.".toList

/-- Source code with a division by zero in front of a division of the
smallest value by -1. -/
def scenarioOverflowBehindError : List Char :=
  "VAR x; BEGIN x := 1/0; RETURN 9223372036854775808 / -1 END.".toList

/-- Source code with a division by zero in front of a division of the
smallest value by -1, in one expression and with literals below `2^63`
only. -/
def scenarioOverflowBehindErrorSmall : List Char :=
  "BEGIN RETURN 1/0 + (-9223372036854775807 - 1) / -1 END.".toList

/-- Source code with a division of the smallest value by -1 beside a
parameter. -/
def scenarioOverflowBesideParameter : List Char :=
  "PARAM a; BEGIN RETURN a + 9223372036854775808 / -1 END.".toList

/-- Source code with a division of the smallest value by -1 behind the
first return statement. -/
def scenarioOverflowInDeadCode : List Char :=
  "BEGIN RETURN 1; RETURN 9223372036854775808 / -1 END.".toList

end pljit

namespace pljit

/-- The variable table that constant propagation alone leaves behind on the
AST of a source code. -/
def variableTableAfterConstantPropagation (code : List Char) :
    Except Fault (Option (List (optim.IdentifierKey × optim.VariableAssignment))) :=
  match parseAndAnalyze code with
  | .error fault => .error fault
  | .ok none => .ok none
  | .ok (some (function, symbolTable)) =>
    match optim.ConstantPropagation.visit function { symbolTable := symbolTable } with
    | .error fault => .error fault
    | .ok (_, pass) => .ok (some pass.variableTable)

/-- Source code of the test
`TestConstantPropagation.MixtureOfConstVariablesAndConstantLiterals`. -/
def scenarioMixture : List Char :=
  ("PARAM a;\nVAR x, y;\nCONST A = 10, B = 5;\nBEGIN\n  x := 10 + 5;\n" ++
    "  y := x + A - B;\n  x := B * a + A - 2 + B;  y := A;\n  RETURN y + A + B\nEND.\n").toList

/-- Source code with the single statement `x := B*a+A-2+B` for the constants
`A = 10`, `B = 5` and the parameter `a`. -/
def scenarioMaterialize : List Char :=
  "PARAM a;\nVAR x;\nCONST A = 10, B = 5;\nBEGIN\n  x := B*a+A-2+B;\n  RETURN x\nEND.".toList

/-- Source code of the test
`TestConstantPropagation.AlternatingVariableAndConstantAssignment`. -/
def scenarioAlternating : List Char :=
  ("PARAM a, b;\nVAR c, d;\n\nBEGIN\n    c := 1;\n    d := 2;\n    c := a + b;\n" ++
    "    d := c + a + b;\n    c := 3;\n    d := 4;\n    RETURN c + d\nEND.").toList

/-- The statements of `scenarioDeadCodeFunction` after constant propagation
alone. -/
def scenarioDeadCodePropagated : ast.Function :=
  { statements :=
      [.AssignmentStatement { identifierType := .Variable, id := 0 } (.ConstantLiteral (-40)),
       .ReturnStatement (.ConstantLiteral (-28)),
       .ReturnStatement (.ConstantLiteral 999)] }

/-- The state of the pass after constant propagation on
`scenarioDeadCodeFunction`. -/
def scenarioDeadCodePass : optim.ConstantPropagation :=
  { symbolTable := scenarioDeadCodeTable
    variableTable := [((0, .Variable), { value := -40, hasConstantAssignment := true })] }

end pljit

namespace pljit

/-- Source code with a constant whose literal is `2^64 - 1`. -/
def scenarioConstantAllOnes : List Char :=
  "CONST A = 18446744073709551615; BEGIN RETURN A END.".toList

/-- Source code with a constant whose literal is `2^63`. -/
def scenarioConstantNegative : List Char :=
  "CONST A = 9223372036854775808; BEGIN RETURN A END.".toList

/-- Source code with a constant whose literal is `2^63 - 1`, the largest
`int64_t`. -/
def scenarioConstantLargest : List Char :=
  "CONST A = 9223372036854775807; BEGIN RETURN A END.".toList

/-- Source code that consists of whitespace only. -/
def scenarioBlank : List Char :=
  " \n\t ".toList

end pljit

namespace pljit

namespace common

/-- Test that a range lies within another one. -/
def SourceRangeReference.contains (outer inner : SourceRangeReference) : Bool :=
  decide (outer.ref ≤ inner.ref) &&
    decide (inner.ref + inner.length ≤ outer.ref + outer.length)

/-- Test that a range is not empty, starts at the first character of the
first of a sequence of ranges and ends at the last character of the last
one. -/
def SourceRangeReference.covers (ref : SourceRangeReference)
    (leaves : List SourceRangeReference) : Bool :=
  match leaves.head?, leaves.getLast? with
  | some first, some last =>
    decide (0 < ref.length) && decide (ref.ref = first.ref) &&
      decide (ref.ref + ref.length = last.ref + last.length)
  | _, _ => false

end common

namespace lexer

/-- Number of characters of the source code from the position of a lexer
on. -/
def Lexer.left (lexer : Lexer) : Nat :=
  lexer.sourceCodeManager.sourceCode.length - lexer.position

/-- The tokens that a lexer hands out between two of its states: every token
list of the rest of the input of the second state, with these tokens in
front of it, is a token list of the rest of the input of the first state. -/
def Lexer.Hands (lexer : Lexer) (tokens : List Token) (lexer' : Lexer) : Prop :=
  ∀ fuel rest, Lexer.tokens fuel lexer' = some rest →
    ∃ fuel', Lexer.tokens fuel' lexer = some (tokens ++ rest)

end lexer

namespace parse_tree

open common

/-- Leaf of a separator, keyword or operator token. -/
def GenericToken.leaves (node : GenericToken) : List SourceRangeReference := [node.ref]

/-- Leaf of an identifier. -/
def Identifier.leaves (node : Identifier) : List SourceRangeReference := [node.ref]

/-- Leaf of a literal. -/
def Literal.leaves (node : Literal) : List SourceRangeReference := [node.ref]

mutual

/-- The ranges of the leaves (`GenericToken`, `Identifier`, `Literal`) below
an additive expression, from left to right. -/
def AdditiveExpression.leaves : AdditiveExpression → List SourceRangeReference
  | .single multiplicativeExpression _ => multiplicativeExpression.leaves
  | .binary multiplicativeExpression op additiveExpression _ _ =>
    multiplicativeExpression.leaves ++ op.ref :: additiveExpression.leaves

/-- The ranges of the leaves below a multiplicative expression, from left to
right. -/
def MultiplicativeExpression.leaves : MultiplicativeExpression → List SourceRangeReference
  | .single unaryExpression _ => unaryExpression.leaves
  | .binary unaryExpression op multiplicativeExpression _ _ =>
    unaryExpression.leaves ++ op.ref :: multiplicativeExpression.leaves

/-- The ranges of the leaves below a unary expression, from left to right. -/
def UnaryExpression.leaves : UnaryExpression → List SourceRangeReference
  | .unsigned primaryExpression _ => primaryExpression.leaves
  | .signed sign primaryExpression _ _ => sign.ref :: primaryExpression.leaves

/-- The ranges of the leaves below a primary expression, from left to
right. -/
def PrimaryExpression.leaves : PrimaryExpression → List SourceRangeReference
  | .Identifier identifier _ => [identifier.ref]
  | .Literal literal _ => [literal.ref]
  | .Parenthesized leftParenthesis additiveExpression rightParenthesis _ =>
    leftParenthesis.ref :: (additiveExpression.leaves ++ [rightParenthesis.ref])

end

/-- The ranges of the leaves below an assignment expression, from left to
right. -/
def AssignmentExpression.leaves (node : AssignmentExpression) : List SourceRangeReference :=
  node.identifier.ref :: node.assignmentToken.ref :: node.additiveExpression.leaves

/-- The ranges of the leaves below a statement, from left to right. -/
def Statement.leaves : Statement → List SourceRangeReference
  | .AssignmentStatement assignmentExpression _ => assignmentExpression.leaves
  | .ReturnStatement returnKeyword additiveExpression _ =>
    returnKeyword.ref :: additiveExpression.leaves

/-- The ranges of the leaves of a child of a statement list. -/
def StatementListChild.leaves : StatementListChild → List SourceRangeReference
  | .Statement statement => statement.leaves
  | .GenericToken token => [token.ref]

/-- The ranges of the leaves below a statement list, from left to right. -/
def StatementList.leaves (node : StatementList) : List SourceRangeReference :=
  node.children.flatMap StatementListChild.leaves

/-- The ranges of the leaves below a compound statement, from left to
right. -/
def CompoundStatement.leaves (node : CompoundStatement) : List SourceRangeReference :=
  node.beginKeyword.ref :: (node.statementList.leaves ++ [node.endKeyword.ref])

/-- The ranges of the leaves of a child of a declarator list. -/
def DeclaratorListChild.leaves : DeclaratorListChild → List SourceRangeReference
  | .Identifier identifier => [identifier.ref]
  | .GenericToken token => [token.ref]

/-- The ranges of the leaves below a declarator list, from left to right. -/
def DeclaratorList.leaves (node : DeclaratorList) : List SourceRangeReference :=
  node.children.flatMap DeclaratorListChild.leaves

/-- The ranges of the leaves below an init-declarator, from left to right. -/
def InitDeclarator.leaves (node : InitDeclarator) : List SourceRangeReference :=
  [node.identifier.ref, node.initToken.ref, node.literal.ref]

/-- The ranges of the leaves of a child of an init-declarator list. -/
def InitDeclaratorListChild.leaves : InitDeclaratorListChild → List SourceRangeReference
  | .InitDeclarator initDeclarator => initDeclarator.leaves
  | .GenericToken token => [token.ref]

/-- The ranges of the leaves below an init-declarator list, from left to
right. -/
def InitDeclaratorList.leaves (node : InitDeclaratorList) : List SourceRangeReference :=
  node.children.flatMap InitDeclaratorListChild.leaves

/-- The ranges of the leaves below the parameter declarations, from left to
right. -/
def ParameterDeclarations.leaves (node : ParameterDeclarations) :
    List SourceRangeReference :=
  node.paramKeyword.ref :: (node.declaratorList.leaves ++ [node.semiColon.ref])

/-- The ranges of the leaves below the variable declarations, from left to
right. -/
def VariableDeclarations.leaves (node : VariableDeclarations) : List SourceRangeReference :=
  node.varKeyword.ref :: (node.declaratorList.leaves ++ [node.semiColon.ref])

/-- The ranges of the leaves below the constant declarations, from left to
right. -/
def ConstantDeclarations.leaves (node : ConstantDeclarations) : List SourceRangeReference :=
  node.constKeyword.ref :: (node.initDeclaratorList.leaves ++ [node.semiColon.ref])

/-- The ranges of the leaves of an optional node: none for a missing node. -/
def optionalLeaves {α : Type} (leaves : α → List SourceRangeReference) :
    Option α → List SourceRangeReference
  | some node => leaves node
  | none => []

/-- The ranges of the leaves (`GenericToken`, `Identifier`, `Literal`) of the
tree of a function definition, from left to right. -/
def FunctionDefinition.leaves (node : FunctionDefinition) : List SourceRangeReference :=
  optionalLeaves ParameterDeclarations.leaves node.parameterDeclarations ++
    optionalLeaves VariableDeclarations.leaves node.variableDeclarations ++
    optionalLeaves ConstantDeclarations.leaves node.constantDeclarations ++
    node.compoundStatement.leaves ++ [node.programTerminator.ref]

/-- Test of the range of a leaf of a separator, keyword or operator token:
it is not empty. -/
def GenericToken.ranged (node : GenericToken) : Bool := decide (0 < node.ref.length)

/-- Test of the range of a leaf of an identifier: it is not empty. -/
def Identifier.ranged (node : Identifier) : Bool := decide (0 < node.ref.length)

/-- Test of the range of a leaf of a literal: it is not empty. -/
def Literal.ranged (node : Literal) : Bool := decide (0 < node.ref.length)

mutual

/-- Test of the ranges of an additive expression and of all nodes below it:
the range of each node is not empty, starts at the first character of the
first leaf below the node, ends at the last character of the last one, and
contains the ranges of the children of the node. -/
def AdditiveExpression.ranged : AdditiveExpression → Bool
  | .single multiplicativeExpression ref =>
    ref.covers multiplicativeExpression.leaves &&
      ref.contains multiplicativeExpression.getReference &&
      multiplicativeExpression.ranged
  | .binary multiplicativeExpression op additiveExpression _ ref =>
    ref.covers (multiplicativeExpression.leaves ++ op.ref :: additiveExpression.leaves) &&
      ref.contains multiplicativeExpression.getReference && ref.contains op.ref &&
      ref.contains additiveExpression.getReference &&
      multiplicativeExpression.ranged && op.ranged && additiveExpression.ranged

/-- Test of the ranges of a multiplicative expression and of all nodes below
it. -/
def MultiplicativeExpression.ranged : MultiplicativeExpression → Bool
  | .single unaryExpression ref =>
    ref.covers unaryExpression.leaves && ref.contains unaryExpression.getReference &&
      unaryExpression.ranged
  | .binary unaryExpression op multiplicativeExpression _ ref =>
    ref.covers (unaryExpression.leaves ++ op.ref :: multiplicativeExpression.leaves) &&
      ref.contains unaryExpression.getReference && ref.contains op.ref &&
      ref.contains multiplicativeExpression.getReference &&
      unaryExpression.ranged && op.ranged && multiplicativeExpression.ranged

/-- Test of the ranges of a unary expression and of all nodes below it. -/
def UnaryExpression.ranged : UnaryExpression → Bool
  | .unsigned primaryExpression ref =>
    ref.covers primaryExpression.leaves && ref.contains primaryExpression.getReference &&
      primaryExpression.ranged
  | .signed sign primaryExpression _ ref =>
    ref.covers (sign.ref :: primaryExpression.leaves) && ref.contains sign.ref &&
      ref.contains primaryExpression.getReference && sign.ranged && primaryExpression.ranged

/-- Test of the ranges of a primary expression and of all nodes below it. -/
def PrimaryExpression.ranged : PrimaryExpression → Bool
  | .Identifier identifier ref =>
    ref.covers [identifier.ref] && ref.contains identifier.ref && identifier.ranged
  | .Literal literal ref =>
    ref.covers [literal.ref] && ref.contains literal.ref && literal.ranged
  | .Parenthesized leftParenthesis additiveExpression rightParenthesis ref =>
    ref.covers (leftParenthesis.ref :: (additiveExpression.leaves ++ [rightParenthesis.ref])) &&
      ref.contains leftParenthesis.ref && ref.contains additiveExpression.getReference &&
      ref.contains rightParenthesis.ref &&
      leftParenthesis.ranged && additiveExpression.ranged && rightParenthesis.ranged

end

/-- Test of the ranges of an assignment expression and of all nodes below
it. -/
def AssignmentExpression.ranged (node : AssignmentExpression) : Bool :=
  node.ref.covers node.leaves && node.ref.contains node.identifier.ref &&
    node.ref.contains node.assignmentToken.ref &&
    node.ref.contains node.additiveExpression.getReference &&
    node.identifier.ranged && node.assignmentToken.ranged && node.additiveExpression.ranged

/-- Test of the ranges of a statement and of all nodes below it. -/
def Statement.ranged : Statement → Bool
  | .AssignmentStatement assignmentExpression ref =>
    ref.covers assignmentExpression.leaves && ref.contains assignmentExpression.ref &&
      assignmentExpression.ranged
  | .ReturnStatement returnKeyword additiveExpression ref =>
    ref.covers (returnKeyword.ref :: additiveExpression.leaves) &&
      ref.contains returnKeyword.ref && ref.contains additiveExpression.getReference &&
      returnKeyword.ranged && additiveExpression.ranged

/-- Test of the ranges of a child of a statement list and of all nodes below
it. -/
def StatementListChild.ranged : StatementListChild → Bool
  | .Statement statement => statement.ranged
  | .GenericToken token => token.ranged

/-- Test of the ranges of a statement list and of all nodes below it. -/
def StatementList.ranged (node : StatementList) : Bool :=
  node.ref.covers node.leaves &&
    node.children.all (fun child => node.ref.contains child.getReference && child.ranged)

/-- Test of the ranges of a compound statement and of all nodes below it. -/
def CompoundStatement.ranged (node : CompoundStatement) : Bool :=
  node.ref.covers node.leaves && node.ref.contains node.beginKeyword.ref &&
    node.ref.contains node.statementList.ref && node.ref.contains node.endKeyword.ref &&
    node.beginKeyword.ranged && node.statementList.ranged && node.endKeyword.ranged

/-- Test of the range of a child of a declarator list. -/
def DeclaratorListChild.ranged : DeclaratorListChild → Bool
  | .Identifier identifier => identifier.ranged
  | .GenericToken token => token.ranged

/-- Test of the ranges of a declarator list and of all nodes below it. -/
def DeclaratorList.ranged (node : DeclaratorList) : Bool :=
  node.ref.covers node.leaves &&
    node.children.all (fun child => node.ref.contains child.getReference && child.ranged)

/-- Test of the ranges of an init-declarator and of all nodes below it. -/
def InitDeclarator.ranged (node : InitDeclarator) : Bool :=
  node.ref.covers node.leaves && node.ref.contains node.identifier.ref &&
    node.ref.contains node.initToken.ref && node.ref.contains node.literal.ref &&
    node.identifier.ranged && node.initToken.ranged && node.literal.ranged

/-- Test of the ranges of a child of an init-declarator list and of all
nodes below it. -/
def InitDeclaratorListChild.ranged : InitDeclaratorListChild → Bool
  | .InitDeclarator initDeclarator => initDeclarator.ranged
  | .GenericToken token => token.ranged

/-- Test of the ranges of an init-declarator list and of all nodes below
it. -/
def InitDeclaratorList.ranged (node : InitDeclaratorList) : Bool :=
  node.ref.covers node.leaves &&
    node.children.all (fun child => node.ref.contains child.getReference && child.ranged)

/-- Test of the ranges of the parameter declarations and of all nodes below
them. -/
def ParameterDeclarations.ranged (node : ParameterDeclarations) : Bool :=
  node.ref.covers node.leaves && node.ref.contains node.paramKeyword.ref &&
    node.ref.contains node.declaratorList.ref && node.ref.contains node.semiColon.ref &&
    node.paramKeyword.ranged && node.declaratorList.ranged && node.semiColon.ranged

/-- Test of the ranges of the variable declarations and of all nodes below
them. -/
def VariableDeclarations.ranged (node : VariableDeclarations) : Bool :=
  node.ref.covers node.leaves && node.ref.contains node.varKeyword.ref &&
    node.ref.contains node.declaratorList.ref && node.ref.contains node.semiColon.ref &&
    node.varKeyword.ranged && node.declaratorList.ranged && node.semiColon.ranged

/-- Test of the ranges of the constant declarations and of all nodes below
them. -/
def ConstantDeclarations.ranged (node : ConstantDeclarations) : Bool :=
  node.ref.covers node.leaves && node.ref.contains node.constKeyword.ref &&
    node.ref.contains node.initDeclaratorList.ref && node.ref.contains node.semiColon.ref &&
    node.constKeyword.ranged && node.initDeclaratorList.ranged && node.semiColon.ranged

/-- Test on an optional node: true for a missing node. -/
def optionalAll {α : Type} (test : α → Bool) : Option α → Bool
  | some node => test node
  | none => true

/-- Test of the ranges of the tree of a function definition: the range of
every node of the tree is not empty, starts at the first character of the
first leaf below the node, ends at the last character of the last leaf
below it, and contains the ranges of the children of the node. -/
def FunctionDefinition.ranged (node : FunctionDefinition) : Bool :=
  node.ref.covers node.leaves &&
    optionalAll (fun child : ParameterDeclarations =>
      node.ref.contains child.ref && child.ranged) node.parameterDeclarations &&
    optionalAll (fun child : VariableDeclarations =>
      node.ref.contains child.ref && child.ranged) node.variableDeclarations &&
    optionalAll (fun child : ConstantDeclarations =>
      node.ref.contains child.ref && child.ranged) node.constantDeclarations &&
    node.ref.contains node.compoundStatement.ref && node.compoundStatement.ranged &&
    node.ref.contains node.programTerminator.ref && node.programTerminator.ranged

end parse_tree

namespace parser

open common lexer parse_tree

/-- Steps of the lexer of a parser between two states of the parser: the
second state of the lexer is a later state of the first, it is settled, and
the lexer handed out tokens with the given ranges on the way. -/
structure Parser.Passes (parser : Parser) (leaves : List SourceRangeReference)
    (parser' : Parser) : Prop where
  advance : parser.lexer.Advance parser'.lexer
  settled : parser'.lexer.Settled
  hands : ∃ tokens : List Token,
    tokens.map (·.ref) = leaves ∧ parser.lexer.Hands tokens parser'.lexer

/-- A node with the given range and leaves that was parsed between two
states of the parser: the lexer handed out the tokens of the leaves on the
way, the range was read between the two states and covers the leaves, the
second state of the lexer is settled and nearer to the end of the source
code than the first. -/
structure Parser.Parsed (parser : Parser) (ref : SourceRangeReference)
    (leaves : List SourceRangeReference) (parser' : Parser) : Prop where
  spans : parser.lexer.Spans ref parser'.lexer
  settled : parser'.lexer.Settled
  hands : ∃ tokens : List Token,
    tokens.map (·.ref) = leaves ∧ parser.lexer.Hands tokens parser'.lexer
  covers : ref.covers leaves = true
  left : parser'.lexer.left < parser.lexer.left

/-- A property of the outcome of a parsing function that returns a node or
reports a parse error: it holds for the node and the parser returned, and
the function does not fault. -/
def ParseResult.Holds {α : Type} (post : α → Parser → Prop) : ParseResult α → Prop
  | .ok node parser => post node parser
  | .error _ => True
  | .fault _ => False

end parser

/-- Source code of an expression statement with every kind of expression
node. -/
def scenarioExpressionKinds : List Char :=
  "PARAM a;\nBEGIN\n  RETURN -(a + 2) * 3 / a - +1\nEND.".toList

end pljit

namespace pljit

namespace parser

open common lexer parse_tree

/-- The children of a list node that were parsed one after the other
between two states of the parser: there is a child, the ranges of the
children were read one after the other, the lexer handed out the tokens of
their leaves on the way, the range of each child covers its leaves and
passes the test of its ranges, and the second state of the lexer is settled
and nearer to the end of the source code than the first. -/
structure Parser.ParsedList {α : Type} (getReference : α → SourceRangeReference)
    (leaves : α → List SourceRangeReference) (ranged : α → Bool) (start : Parser)
    (children : List α) (parser : Parser) : Prop where
  nonempty : children ≠ []
  spans : start.lexer.SpansList (children.map getReference) parser.lexer
  settled : parser.lexer.Settled
  hands : ∃ tokens : List Token,
    tokens.map (·.ref) = children.flatMap leaves ∧ start.lexer.Hands tokens parser.lexer
  children : ∀ child ∈ children,
    (getReference child).covers (leaves child) = true ∧ ranged child = true
  left : parser.lexer.left < start.lexer.left

end parser

end pljit

namespace pljit

/-! ## The outcome of the visits of constant propagation -/

namespace optim

open ast

/-- Visit of a constant literal: the literal is reported as constant. -/
theorem ConstantPropagation.visitExpression_literal (value : Int) (pass : ConstantPropagation) :
    ConstantPropagation.visitExpression (.ConstantLiteral value) pass =
      .ok (.ConstantLiteral value, { pass with constantResultFromLastCall := some value }) :=
  rfl

/-- Visit of an identifier: a constant is reported with its value, a
parameter or variable with the value that the variable table records for
it as constant. -/
theorem ConstantPropagation.visitExpression_identifier (identifierType : IdentifierType)
    (id : Nat) (pass : ConstantPropagation) :
    ConstantPropagation.visitExpression (.Identifier identifierType id) pass =
      if identifierType = .Constant then
        match pass.symbolTable.getConstantValue id with
        | .ok value =>
          .ok (.Identifier identifierType id,
            { pass with constantResultFromLastCall := some value })
        | .error fault => .error fault
      else
        match constructKey identifierType id with
        | .error fault => .error fault
        | .ok key =>
          match variableTableFind pass.variableTable key with
          | some assignment =>
            if assignment.hasConstantAssignment then
              .ok (.Identifier identifierType id,
                { pass with constantResultFromLastCall := some assignment.value })
            else .ok (.Identifier identifierType id, pass)
          | none => .ok (.Identifier identifierType id, pass) :=
  rfl

/-- Visit of a unary operation: the operand is visited, and the reported
constant is negated behind a minus sign. -/
theorem ConstantPropagation.visitExpression_unaryOp (unaryOpType : UnaryOpType)
    (expression : Expression) (pass : ConstantPropagation) :
    ConstantPropagation.visitExpression (.UnaryOp unaryOpType expression) pass =
      match ConstantPropagation.visitExpression expression pass with
      | .error fault => .error fault
      | .ok (expression, pass) =>
        match pass.constantResultFromLastCall with
        | some value =>
          if unaryOpType = .MinusSign then
            .ok (.UnaryOp unaryOpType expression,
              { pass with constantResultFromLastCall := some (wrapInt64 (-value)) })
          else .ok (.UnaryOp unaryOpType expression, pass)
        | none => .ok (.UnaryOp unaryOpType expression, pass) := by
  simp only [ConstantPropagation.visitExpression, ConstantPropagation.visitExpressionTraced]
  rcases ConstantPropagation.visitExpressionTraced expression pass with
    ⟨entries, fault | ⟨expression', pass'⟩⟩ <;> rfl

/-- Visit of a binary operation: the left operand is visited, the right
operand is visited behind the reset of `constantResultFromLastCall`, and
the operation on two reported constants is computed, except for a zero
divisor; a single reported constant is materialised as a literal. -/
theorem ConstantPropagation.visitExpression_binaryOp (lhsExpression : Expression)
    (binaryOpType : BinaryOpType) (rhsExpression : Expression) (pass : ConstantPropagation) :
    ConstantPropagation.visitExpression (.BinaryOp lhsExpression binaryOpType rhsExpression)
        pass =
      match ConstantPropagation.visitExpression lhsExpression pass with
      | .error fault => .error fault
      | .ok (lhsExpression, pass) =>
        let leftConstantResultOpt := pass.constantResultFromLastCall
        match ConstantPropagation.visitExpression rhsExpression
            { pass with constantResultFromLastCall := none } with
        | .error fault => .error fault
        | .ok (rhsExpression, pass) =>
          let rightConstantResultOpt := pass.constantResultFromLastCall
          let pass := { pass with constantResultFromLastCall := none }
          match leftConstantResultOpt, rightConstantResultOpt with
          | some lhsValue, some rhsValue =>
            match binaryOpType with
            | .Add =>
              .ok (.BinaryOp lhsExpression binaryOpType rhsExpression,
                { pass with
                  constantResultFromLastCall := some (wrapInt64 (lhsValue + rhsValue)) })
            | .Sub =>
              .ok (.BinaryOp lhsExpression binaryOpType rhsExpression,
                { pass with
                  constantResultFromLastCall := some (wrapInt64 (lhsValue - rhsValue)) })
            | .Mul =>
              .ok (.BinaryOp lhsExpression binaryOpType rhsExpression,
                { pass with
                  constantResultFromLastCall := some (wrapInt64 (lhsValue * rhsValue)) })
            | .Div =>
              if rhsValue = 0 then
                .ok (.BinaryOp lhsExpression binaryOpType rhsExpression,
                  { pass with constantResultFromLastCall := none })
              else if divisionOverflows lhsValue rhsValue then .error .divisionOverflow
              else
                .ok (.BinaryOp lhsExpression binaryOpType rhsExpression,
                  { pass with
                    constantResultFromLastCall :=
                      some (wrapInt64 (Int.tdiv lhsValue rhsValue)) })
          | some lhsValue, none =>
            .ok (.BinaryOp (.ConstantLiteral lhsValue) binaryOpType rhsExpression, pass)
          | none, some rhsValue =>
            .ok (.BinaryOp lhsExpression binaryOpType (.ConstantLiteral rhsValue), pass)
          | none, none => .ok (.BinaryOp lhsExpression binaryOpType rhsExpression, pass) := by
  simp only [ConstantPropagation.visitExpression, ConstantPropagation.visitExpressionTraced]
  rcases ConstantPropagation.visitExpressionTraced lhsExpression pass with
    ⟨entriesLeft, fault | ⟨lhsExpression', pass'⟩⟩
  · rfl
  · simp only
    rcases ConstantPropagation.visitExpressionTraced rhsExpression
        { pass' with constantResultFromLastCall := none } with
      ⟨entriesRight, fault | ⟨rhsExpression', pass''⟩⟩ <;> rfl

/-- Visit of an assignment: the expression is visited, a reported constant
replaces the expression and is recorded for the target, and the record of
the target is marked as not constant otherwise. -/
theorem ConstantPropagation.visitStatement_assignment (assignmentTarget : Identifier)
    (expression : Expression) (pass : ConstantPropagation) :
    ConstantPropagation.visitStatement (.AssignmentStatement assignmentTarget expression)
        pass =
      match constructKey assignmentTarget.identifierType assignmentTarget.id with
      | .error fault => .error fault
      | .ok assignmentTargetKey =>
        match ConstantPropagation.visitExpression expression pass with
        | .error fault => .error fault
        | .ok (expression, pass) =>
          match pass.constantResultFromLastCall with
          | some result =>
            .ok (.AssignmentStatement assignmentTarget (.ConstantLiteral result),
              { pass with
                variableTable := variableTableEmplaceAndSet pass.variableTable
                  assignmentTargetKey
                  (fun _ => { value := result, hasConstantAssignment := true })
                constantResultFromLastCall := none })
          | none =>
            .ok (.AssignmentStatement assignmentTarget expression,
              { pass with
                variableTable := variableTableEmplaceAndSet pass.variableTable
                  assignmentTargetKey
                  (fun assignment => { assignment with hasConstantAssignment := false }) }) := by
  simp only [ConstantPropagation.visitStatement, ConstantPropagation.visitStatementTraced,
    ConstantPropagation.visitExpression]
  cases constructKey assignmentTarget.identifierType assignmentTarget.id with
  | error fault => rfl
  | ok key =>
    simp only
    rcases ConstantPropagation.visitExpressionTraced expression pass with
      ⟨entries, fault | ⟨expression', pass'⟩⟩ <;> rfl

/-- Visit of a return statement: the expression is visited, and a reported
constant replaces the expression. -/
theorem ConstantPropagation.visitStatement_return (expression : Expression)
    (pass : ConstantPropagation) :
    ConstantPropagation.visitStatement (.ReturnStatement expression) pass =
      match ConstantPropagation.visitExpression expression pass with
      | .error fault => .error fault
      | .ok (expression, pass) =>
        match pass.constantResultFromLastCall with
        | some result =>
          .ok (.ReturnStatement (.ConstantLiteral result),
            { pass with constantResultFromLastCall := none })
        | none => .ok (.ReturnStatement expression, pass) := by
  simp only [ConstantPropagation.visitStatement, ConstantPropagation.visitStatementTraced,
    ConstantPropagation.visitExpression]
  rcases ConstantPropagation.visitExpressionTraced expression pass with
    ⟨entries, fault | ⟨expression', pass'⟩⟩ <;> rfl

/-- The loop over no statement. -/
theorem ConstantPropagation.visitStatements_nil (pass : ConstantPropagation) :
    ConstantPropagation.visitStatements [] pass = .ok ([], pass) :=
  rfl

/-- The loop over the statements visits the first statement and then the
statements behind it. -/
theorem ConstantPropagation.visitStatements_cons (stmt : Statement) (rest : List Statement)
    (pass : ConstantPropagation) :
    ConstantPropagation.visitStatements (stmt :: rest) pass =
      match ConstantPropagation.visitStatement stmt pass with
      | .error fault => .error fault
      | .ok (stmt, pass) =>
        match ConstantPropagation.visitStatements rest pass with
        | .error fault => .error fault
        | .ok (rest, pass) => .ok (stmt :: rest, pass) := by
  simp only [ConstantPropagation.visitStatements, ConstantPropagation.visitStatementsTraced,
    ConstantPropagation.visitStatement]
  rcases ConstantPropagation.visitStatementTraced stmt pass with
    ⟨entries, fault | ⟨stmt', pass'⟩⟩
  · rfl
  · simp only
    rcases ConstantPropagation.visitStatementsTraced rest pass' with
      ⟨entriesRest, fault | ⟨rest', pass''⟩⟩ <;> rfl

/-- Constant propagation on a function is the loop over its statements. -/
theorem ConstantPropagation.visit_function (node : Function) (pass : ConstantPropagation) :
    ConstantPropagation.visit node pass =
      match ConstantPropagation.visitStatements node.statements pass with
      | .error fault => .error fault
      | .ok (statements, pass) => .ok ({ statements := statements }, pass) := by
  simp only [ConstantPropagation.visit, ConstantPropagation.visitTraced,
    ConstantPropagation.visitStatements]
  rcases ConstantPropagation.visitStatementsTraced node.statements pass with
    ⟨entries, fault | ⟨statements', pass'⟩⟩ <;> rfl

end optim

end pljit

namespace pljit

/-! ## Properties of the evaluator and of dead code elimination -/

namespace ast

open exec

/-- Evaluating an expression changes at most the `error` field of the
execution context. -/
theorem Expression.evaluate_frame (e : Expression) :
    ∀ (context : ExecutionContext) (value : Int) (context' : ExecutionContext),
      e.evaluate context = .ok (value, context') →
      context' = { context with error := context'.error } := by
  induction e with
  | ConstantLiteral v =>
    intro context value context' h
    simp only [Expression.evaluate, Except.ok.injEq, Prod.mk.injEq] at h
    rw [← h.2]
  | Identifier ty id =>
    intro context value context' h
    cases ty <;> simp only [Expression.evaluate] at h <;> split at h <;>
      simp only [Except.ok.injEq, Prod.mk.injEq, reduceCtorEq] at h <;> rw [← h.2]
  | UnaryOp ty e ih =>
    intro context value context' h
    simp only [Expression.evaluate] at h
    split at h
    · simp only [reduceCtorEq] at h
    · rename_i r c hc
      have hf := ih _ _ _ hc
      split at h
      · simp only [Except.ok.injEq, Prod.mk.injEq] at h
        rw [← h.2]; rw [hf]
      · cases ty <;> simp only [Except.ok.injEq, Prod.mk.injEq] at h <;>
          (rw [← h.2]; rw [hf])
  | BinaryOp l op r ihl ihr =>
    intro context value context' h
    simp only [Expression.evaluate] at h
    split at h
    · simp only [reduceCtorEq] at h
    · rename_i lv c1 hc1
      have hf1 := ihl _ _ _ hc1
      split at h
      · simp only [Except.ok.injEq, Prod.mk.injEq] at h
        rw [← h.2]; rw [hf1]
      · split at h
        · simp only [reduceCtorEq] at h
        · rename_i rv c2 hc2
          have hf2 := ihr _ _ _ hc2
          have hf12 : c2 = { context with error := c2.error } := by
            rw [hf2]; rw [hf1]
          split at h
          · simp only [Except.ok.injEq, Prod.mk.injEq] at h
            rw [← h.2]; exact hf12
          · cases op <;> simp only [Except.ok.injEq, Prod.mk.injEq] at h
            · rw [← h.2]; exact hf12
            · rw [← h.2]; exact hf12
            · rw [← h.2]; exact hf12
            · split at h
              · simp only [Except.ok.injEq, Prod.mk.injEq] at h
                rw [← h.2]; rw [hf12]
              · split at h
                · simp only [reduceCtorEq] at h
                · simp only [Except.ok.injEq, Prod.mk.injEq] at h
                  rw [← h.2]; exact hf12

end ast

end pljit

namespace pljit

namespace optim

open ast exec

/-- The statement list splits at the index found by the search loop of the
dead code elimination: the statements before it are no return statements and
the statement at it is one. -/
theorem DeadCodeElimination.firstReturnStatementId_split (statements : List Statement)
    (h : ∃ s ∈ statements, s.isReturnStatement = true) :
    ∃ kept e removed,
      statements = kept ++ Statement.ReturnStatement e :: removed ∧
      (∀ s ∈ kept, s.isReturnStatement = false) ∧
      DeadCodeElimination.firstReturnStatementId statements = kept.length := by
  induction statements with
  | nil => obtain ⟨s, hs, _⟩ := h; cases hs
  | cons stmt rest ih =>
    cases stmt with
    | ReturnStatement e =>
      exact ⟨[], e, rest, rfl, (fun s hs => by cases hs), rfl⟩
    | AssignmentStatement target e =>
      have h' : ∃ s ∈ rest, s.isReturnStatement = true := by
        obtain ⟨s, hs, hr⟩ := h
        rcases List.mem_cons.mp hs with rfl | hs
        · simp [Statement.isReturnStatement] at hr
        · exact ⟨s, hs, hr⟩
      obtain ⟨kept, e', removed, h1, h2, h3⟩ := ih h'
      refine ⟨Statement.AssignmentStatement target e :: kept, e', removed, ?_, ?_, ?_⟩
      · rw [h1]; rfl
      · intro s hs
        rcases List.mem_cons.mp hs with rfl | hs
        · rfl
        · exact h2 s hs
      · simp [DeadCodeElimination.firstReturnStatementId, Statement.isReturnStatement, h3]

/-- Statements behind the first return statement have no influence on the
execution. -/
theorem executeStatements_append_return (kept : List Statement) (e : Expression)
    (removed : List Statement) (context : ExecutionContext) :
    executeStatements (kept ++ Statement.ReturnStatement e :: removed) context =
      executeStatements (kept ++ [Statement.ReturnStatement e]) context := by
  induction kept generalizing context with
  | nil =>
    simp only [List.nil_append, executeStatements]
    cases (Statement.ReturnStatement e).execute context with
    | error f => rfl
    | ok c => simp [Statement.isReturnStatement]
  | cons stmt rest ih =>
    simp only [List.cons_append, executeStatements]
    cases stmt.execute context with
    | error f => rfl
    | ok c => simp only [List.append_eq, ih]

/-- Dead code elimination on a function with a return statement: the result
is the prefix of the statement list ending at the first return statement. -/
theorem DeadCodeElimination.visit_split (node : Function)
    (h : ∃ s ∈ node.statements, s.isReturnStatement = true) :
    ∃ kept e removed,
      DeadCodeElimination.visit node =
        .ok { statements := kept ++ [Statement.ReturnStatement e] } ∧
      node.statements = (kept ++ [Statement.ReturnStatement e]) ++ removed ∧
      (∀ s ∈ kept, s.isReturnStatement = false) := by
  obtain ⟨kept, e, removed, h1, h2, h3⟩ :=
    DeadCodeElimination.firstReturnStatementId_split node.statements h
  refine ⟨kept, e, removed, ?_, ?_, h2⟩
  · unfold DeadCodeElimination.visit
    simp only [h3]
    rw [h1]
    have hlen : kept.length < (kept ++ Statement.ReturnStatement e :: removed).length := by
      simp
    rw [if_pos hlen]
    have htake : ∀ (l : List Statement),
        List.take (l.length + 1) (l ++ Statement.ReturnStatement e :: removed) =
          l ++ [Statement.ReturnStatement e] := by
      intro l
      induction l with
      | nil => simp
      | cons a l ih => simp only [List.length_cons, List.cons_append, List.take_succ_cons, ih]
    rw [htake]
  · rw [h1]; simp

/-- C6: for every function whose statement list contains a return
statement, dead code elimination succeeds and leaves exactly the prefix of
the original statement list that ends at the first return statement: the
kept statements are unchanged and in order, the last one is a return
statement and no earlier one is. -/
theorem C6_dead_code_elimination_keeps_prefix (node : Function)
    (h : ∃ s ∈ node.statements, s.isReturnStatement = true) :
    ∃ kept e removed,
      DeadCodeElimination.visit node =
        .ok { statements := kept ++ [Statement.ReturnStatement e] } ∧
      node.statements = (kept ++ [Statement.ReturnStatement e]) ++ removed ∧
      (∀ s ∈ kept, s.isReturnStatement = false) :=
  DeadCodeElimination.visit_split node h

/-- Witness of C6 on `x := 1; RETURN x; RETURN 999`. -/
theorem C6_dead_code_elimination_keeps_prefix_witness :
    ∃ kept e removed,
      DeadCodeElimination.visit
        { statements :=
            [Statement.AssignmentStatement ⟨.Variable, 0⟩ (.ConstantLiteral 1),
             Statement.ReturnStatement (.Identifier .Variable 0),
             Statement.ReturnStatement (.ConstantLiteral 999)] } =
        .ok { statements := kept ++ [Statement.ReturnStatement e] } ∧
      [Statement.AssignmentStatement ⟨.Variable, 0⟩ (.ConstantLiteral 1),
       Statement.ReturnStatement (.Identifier .Variable 0),
       Statement.ReturnStatement (.ConstantLiteral 999)] =
        (kept ++ [Statement.ReturnStatement e]) ++ removed ∧
      (∀ s ∈ kept, s.isReturnStatement = false) :=
  C6_dead_code_elimination_keeps_prefix
    { statements :=
        [Statement.AssignmentStatement ⟨.Variable, 0⟩ (.ConstantLiteral 1),
         Statement.ReturnStatement (.Identifier .Variable 0),
         Statement.ReturnStatement (.ConstantLiteral 999)] }
    ⟨Statement.ReturnStatement (.Identifier .Variable 0), by simp, rfl⟩

/-- C7: for every function that contains a return statement and every
initial execution context, dead code elimination succeeds and executing the
function after the pass gives the same outcome, the same final context
(parameter values, variable values, return value and error), as executing it
before the pass. -/
theorem C7_dead_code_elimination_preserves_execution (node : Function)
    (context : ExecutionContext)
    (h : ∃ s ∈ node.statements, s.isReturnStatement = true) :
    ∃ node', DeadCodeElimination.visit node = .ok node' ∧
      node'.execute context = node.execute context := by
  obtain ⟨kept, e, removed, h1, h2, _⟩ := DeadCodeElimination.visit_split node h
  refine ⟨_, h1, ?_⟩
  unfold Function.execute
  rw [h2]
  simp only [List.append_assoc, List.singleton_append]
  exact (executeStatements_append_return kept e removed context).symm

/-- A prefix of statements without return statement that ran to its end
without error hands its final context to the statements that follow. -/
theorem executeStatements_append (pre rest : List Statement)
    (context₀ context : ExecutionContext)
    (hpre : ∀ s ∈ pre, s.isReturnStatement = false)
    (hrun : executeStatements pre context₀ = .ok context)
    (hok : context.hasError = false) :
    executeStatements (pre ++ rest) context₀ = executeStatements rest context := by
  induction pre generalizing context₀ with
  | nil =>
    simp only [executeStatements, Except.ok.injEq] at hrun
    rw [List.nil_append, hrun]
  | cons stmt pre ih =>
    simp only [executeStatements] at hrun
    simp only [List.cons_append, executeStatements, List.append_eq]
    cases hstmt : stmt.execute context₀ with
    | error f => rw [hstmt] at hrun; simp at hrun
    | ok c =>
      rw [hstmt] at hrun
      simp only at hrun ⊢
      have hnr : stmt.isReturnStatement = false := hpre stmt (List.mem_cons_self _ _)
      by_cases hc : c.hasError = true
      · rw [if_pos hc] at hrun
        simp only [Except.ok.injEq] at hrun
        rw [hrun] at hc
        rw [hok] at hc
        cases hc
      · rw [if_neg hc] at hrun ⊢
        rw [hnr] at hrun ⊢
        simp only [Bool.false_eq_true, if_false] at hrun ⊢
        exact ih c (fun s hs => hpre s (List.mem_cons_of_mem _ hs)) hrun

/-- C8: if the statements before an assignment or return statement ran
without error and without returning, and evaluating the expression of that
statement sets the error flag, then the execution of the function ends with
the context the evaluation left: the statement writes nothing, no later
statement runs, and `parameterValues`, `variableValues` and `returnValue`
are the ones just before the statement. -/
theorem C8_failed_expression_writes_nothing (pre : List Statement) (stmt : Statement)
    (post : List Statement) (context₀ context context' : ExecutionContext) (value : Int)
    (hpre : ∀ s ∈ pre, s.isReturnStatement = false)
    (hrun : executeStatements pre context₀ = .ok context)
    (hok : context.hasError = false)
    (heval : stmt.getExpression.evaluate context = .ok (value, context'))
    (herr : context'.hasError = true) :
    Function.execute { statements := pre ++ stmt :: post } context₀ = .ok context' ∧
      context'.parameterValues = context.parameterValues ∧
      context'.variableValues = context.variableValues ∧
      context'.returnValue = context.returnValue := by
  have hframe := Expression.evaluate_frame _ _ _ _ heval
  refine ⟨?_, ?_, ?_, ?_⟩
  · unfold Function.execute
    simp only
    rw [executeStatements_append pre (stmt :: post) context₀ context hpre hrun hok]
    cases stmt with
    | AssignmentStatement target e =>
      simp only [Statement.getExpression] at heval
      simp only [executeStatements, Statement.execute, heval, herr, Bool.not_true,
        Bool.false_eq_true, if_false, if_true]
    | ReturnStatement e =>
      simp only [Statement.getExpression] at heval
      simp only [executeStatements, Statement.execute, heval, herr, Bool.not_true,
        Bool.false_eq_true, if_false, if_true]
  · rw [hframe]
  · rw [hframe]
  · rw [hframe]

/-- Witness of C8 on `x := 7; y := 1 / 0; RETURN x` with one variable slot
for each of `x` and `y`. -/
theorem C8_failed_expression_writes_nothing_witness :
    Function.execute
        { statements :=
            [Statement.AssignmentStatement ⟨.Variable, 0⟩ (.ConstantLiteral 7)] ++
              Statement.AssignmentStatement ⟨.Variable, 1⟩
                (.BinaryOp (.ConstantLiteral 1) .Div (.ConstantLiteral 0)) ::
              [Statement.ReturnStatement (.Identifier .Variable 0)] }
        { parameterValues := [], variableValues := [0, 0], symbolTable := {} } =
      .ok { parameterValues := [], variableValues := [7, 0], symbolTable := {},
            error := .DivisionByZero } ∧
      ({ parameterValues := [], variableValues := [7, 0], symbolTable := {},
         error := .DivisionByZero } : ExecutionContext).parameterValues =
        ({ parameterValues := [], variableValues := [7, 0], symbolTable := {} } :
          ExecutionContext).parameterValues ∧
      ({ parameterValues := [], variableValues := [7, 0], symbolTable := {},
         error := .DivisionByZero } : ExecutionContext).variableValues =
        ({ parameterValues := [], variableValues := [7, 0], symbolTable := {} } :
          ExecutionContext).variableValues ∧
      ({ parameterValues := [], variableValues := [7, 0], symbolTable := {},
         error := .DivisionByZero } : ExecutionContext).returnValue =
        ({ parameterValues := [], variableValues := [7, 0], symbolTable := {} } :
          ExecutionContext).returnValue :=
  C8_failed_expression_writes_nothing
    [Statement.AssignmentStatement ⟨.Variable, 0⟩ (.ConstantLiteral 7)]
    (Statement.AssignmentStatement ⟨.Variable, 1⟩
      (.BinaryOp (.ConstantLiteral 1) .Div (.ConstantLiteral 0)))
    [Statement.ReturnStatement (.Identifier .Variable 0)]
    { parameterValues := [], variableValues := [0, 0], symbolTable := {} }
    { parameterValues := [], variableValues := [7, 0], symbolTable := {} }
    { parameterValues := [], variableValues := [7, 0], symbolTable := {},
      error := .DivisionByZero }
    0
    (by intro s hs; simp only [List.mem_singleton] at hs; rw [hs]; rfl)
    (by rfl) (by rfl) (by rfl) (by rfl)

/-- Witness of C7 on `x := 1; RETURN x; RETURN 999`. -/
theorem C7_dead_code_elimination_preserves_execution_witness :
    ∃ node', DeadCodeElimination.visit
        { statements :=
            [Statement.AssignmentStatement ⟨.Variable, 0⟩ (.ConstantLiteral 1),
             Statement.ReturnStatement (.Identifier .Variable 0),
             Statement.ReturnStatement (.ConstantLiteral 999)] } = .ok node' ∧
      node'.execute { parameterValues := [], variableValues := [0], symbolTable := {} } =
        Function.execute
          { statements :=
            [Statement.AssignmentStatement ⟨.Variable, 0⟩ (.ConstantLiteral 1),
             Statement.ReturnStatement (.Identifier .Variable 0),
             Statement.ReturnStatement (.ConstantLiteral 999)] }
          { parameterValues := [], variableValues := [0], symbolTable := {} } :=
  C7_dead_code_elimination_preserves_execution
    { statements :=
        [Statement.AssignmentStatement ⟨.Variable, 0⟩ (.ConstantLiteral 1),
         Statement.ReturnStatement (.Identifier .Variable 0),
         Statement.ReturnStatement (.ConstantLiteral 999)] }
    { parameterValues := [], variableValues := [0], symbolTable := {} }
    ⟨Statement.ReturnStatement (.Identifier .Variable 0), by simp, rfl⟩

end optim

end pljit

namespace pljit

namespace optim

open ast exec

/-- A context without error is left unchanged by an evaluation that ends
without error. -/
theorem evaluate_context_eq (e : Expression) (context context' : ExecutionContext)
    (value : Int) (h : e.evaluate context = .ok (value, context'))
    (hok : context.hasError = false) (hok' : context'.hasError = false) :
    context' = context := by
  have hf := Expression.evaluate_frame e context value context' h
  have h1 : context'.error = .NoError := by
    simpa [ExecutionContext.hasError] using hok'
  have h2 : context.error = .NoError := by
    simpa [ExecutionContext.hasError] using hok
  rw [hf, h1, ← h2]

/-- Evaluation of a binary operation only depends on how its operands
evaluate in the entry context. -/
theorem evaluate_binaryOp_congr (l l1 r r1 : Expression) (op : BinaryOpType)
    (context : ExecutionContext) (hok : context.hasError = false)
    (hl : l1.evaluate context = l.evaluate context)
    (hr : r1.evaluate context = r.evaluate context) :
    (Expression.BinaryOp l1 op r1).evaluate context =
      (Expression.BinaryOp l op r).evaluate context := by
  simp only [Expression.evaluate, hl]
  cases hle : l.evaluate context with
  | error f => rfl
  | ok res =>
    obtain ⟨lv, c1⟩ := res
    simp only
    by_cases hc1 : c1.hasError = true
    · simp only [hc1, if_true]
    · have hc1' : c1.hasError = false := by simpa using hc1
      have := evaluate_context_eq l context c1 lv hle hok hc1'
      subst this
      simp only [hc1', Bool.false_eq_true, if_false, hr]

/-- Evaluation of a binary operation both operands of which evaluate
without error in the entry context. -/
theorem evaluate_binaryOp_of_values (l r : Expression) (op : BinaryOpType)
    (context : ExecutionContext) (lv rv : Int) (hok : context.hasError = false)
    (hl : l.evaluate context = .ok (lv, context))
    (hr : r.evaluate context = .ok (rv, context)) :
    (Expression.BinaryOp l op r).evaluate context =
      match op with
      | .Add => .ok (wrapInt64 (lv + rv), context)
      | .Sub => .ok (wrapInt64 (lv - rv), context)
      | .Mul => .ok (wrapInt64 (lv * rv), context)
      | .Div =>
        if rv = 0 then .ok (0, { context with error := .DivisionByZero })
        else if divisionOverflows lv rv then .error .divisionOverflow
        else .ok (wrapInt64 (Int.tdiv lv rv), context) := by
  cases op <;> simp only [Expression.evaluate, hl, hr, hok, Bool.false_eq_true, if_false]

/-- Soundness of constant propagation on expressions.  When the pass enters
an expression with an empty `constantResultFromLastCall`, it leaves the
variable table and the symbol table alone; in every context without error
that agrees with the variable table, the rewritten expression evaluates like
the original one, and a reported constant is the value of the original
expression, obtained without error. -/
theorem ConstantPropagation.visitExpression_sound (e : Expression) :
    ∀ (pass : ConstantPropagation) (e' : Expression) (pass' : ConstantPropagation),
      pass.constantResultFromLastCall = none →
      ConstantPropagation.visitExpression e pass = .ok (e', pass') →
      pass'.variableTable = pass.variableTable ∧ pass'.symbolTable = pass.symbolTable ∧
      ∀ context : ExecutionContext, context.symbolTable = pass.symbolTable →
        Consistent pass.variableTable context → context.hasError = false →
        e'.evaluate context = e.evaluate context ∧
        ∀ v, pass'.constantResultFromLastCall = some v →
          e.evaluate context = .ok (v, context) := by
  induction e with
  | ConstantLiteral value =>
    intro pass e' pass' _ h
    simp only [ConstantPropagation.visitExpression_literal, ConstantPropagation.visitExpression_identifier,
      ConstantPropagation.visitExpression_unaryOp, ConstantPropagation.visitExpression_binaryOp, Except.ok.injEq, Prod.mk.injEq] at h
    obtain ⟨rfl, rfl⟩ := h
    refine ⟨rfl, rfl, ?_⟩
    intro context _ _ _
    refine ⟨rfl, ?_⟩
    intro v hv
    simp only [Option.some.injEq] at hv
    simp only [Expression.evaluate, hv]
  | Identifier ty id =>
    intro pass e' pass' hnone h
    simp only [ConstantPropagation.visitExpression_literal, ConstantPropagation.visitExpression_identifier,
      ConstantPropagation.visitExpression_unaryOp, ConstantPropagation.visitExpression_binaryOp] at h
    split at h
    · rename_i hty
      split at h
      · rename_i value hval
        simp only [Except.ok.injEq, Prod.mk.injEq] at h
        obtain ⟨rfl, rfl⟩ := h
        refine ⟨rfl, rfl, ?_⟩
        intro context hst _ _
        refine ⟨rfl, ?_⟩
        intro v hv
        simp only [Option.some.injEq] at hv
        subst hty
        simp only [Expression.evaluate, hst, hval, hv]
      · simp only [reduceCtorEq] at h
    · rename_i hty
      simp only [constructKey, if_neg hty] at h
      split at h
      · rename_i assignment hfind
        split at h
        · rename_i hconst
          simp only [Except.ok.injEq, Prod.mk.injEq] at h
          obtain ⟨rfl, rfl⟩ := h
          refine ⟨rfl, rfl, ?_⟩
          intro context _ hcons _
          refine ⟨rfl, ?_⟩
          intro v hv
          simp only [Option.some.injEq] at hv
          have hval := hcons (id, ty) assignment hfind hconst
          cases ty with
          | Constant => exact absurd rfl hty
          | Parameter =>
            simp only [valueAt] at hval
            simp only [Expression.evaluate, hval, hv]
          | Variable =>
            simp only [valueAt] at hval
            simp only [Expression.evaluate, hval, hv]
        · simp only [Except.ok.injEq, Prod.mk.injEq] at h
          obtain ⟨rfl, rfl⟩ := h
          refine ⟨rfl, rfl, ?_⟩
          intro context _ _ _
          refine ⟨rfl, ?_⟩
          intro v hv
          rw [hnone] at hv
          cases hv
      · simp only [Except.ok.injEq, Prod.mk.injEq] at h
        obtain ⟨rfl, rfl⟩ := h
        refine ⟨rfl, rfl, ?_⟩
        intro context _ _ _
        refine ⟨rfl, ?_⟩
        intro v hv
        rw [hnone] at hv
        cases hv
  | UnaryOp ty e ih =>
    intro pass e' pass' hnone h
    simp only [ConstantPropagation.visitExpression_literal, ConstantPropagation.visitExpression_identifier,
      ConstantPropagation.visitExpression_unaryOp, ConstantPropagation.visitExpression_binaryOp] at h
    split at h
    · simp only [reduceCtorEq] at h
    · rename_i e1 p1 hvisit
      obtain ⟨ht, hs, hsem⟩ := ih pass e1 p1 hnone hvisit
      split at h
      · rename_i value hres
        split at h
        · rename_i hminus
          simp only [Except.ok.injEq, Prod.mk.injEq] at h
          obtain ⟨rfl, rfl⟩ := h
          refine ⟨ht, hs, ?_⟩
          intro context hst hcons hok
          obtain ⟨heq, hconst⟩ := hsem context hst hcons hok
          have hev := hconst value hres
          refine ⟨?_, ?_⟩
          · simp only [Expression.evaluate, heq]
          · intro v hv
            simp only [Option.some.injEq] at hv
            subst hminus
            simp only [Expression.evaluate, hev, hok, Bool.false_eq_true, if_false, hv]
        · rename_i hplus
          simp only [Except.ok.injEq, Prod.mk.injEq] at h
          obtain ⟨rfl, rfl⟩ := h
          refine ⟨ht, hs, ?_⟩
          intro context hst hcons hok
          obtain ⟨heq, hconst⟩ := hsem context hst hcons hok
          have hev := hconst value hres
          refine ⟨?_, ?_⟩
          · simp only [Expression.evaluate, heq]
          · intro v hv
            rw [hres] at hv
            simp only [Option.some.injEq] at hv
            cases ty with
            | MinusSign => exact absurd rfl hplus
            | PlusSign =>
              simp only [Expression.evaluate, hev, hok, Bool.false_eq_true, if_false, hv]
      · rename_i hres
        simp only [Except.ok.injEq, Prod.mk.injEq] at h
        obtain ⟨rfl, rfl⟩ := h
        refine ⟨ht, hs, ?_⟩
        intro context hst hcons hok
        obtain ⟨heq, _⟩ := hsem context hst hcons hok
        refine ⟨?_, ?_⟩
        · simp only [Expression.evaluate, heq]
        · intro v hv
          rw [hres] at hv
          cases hv
  | BinaryOp l op r ihl ihr =>
    intro pass e' pass' hnone h
    simp only [ConstantPropagation.visitExpression_literal, ConstantPropagation.visitExpression_identifier,
      ConstantPropagation.visitExpression_unaryOp, ConstantPropagation.visitExpression_binaryOp] at h
    split at h
    · simp only [reduceCtorEq] at h
    · rename_i l1 p1 hvl
      obtain ⟨ht1, hs1, hsem1⟩ := ihl pass l1 p1 hnone hvl
      split at h
      · simp only [reduceCtorEq] at h
      · rename_i r1 p2 hvr
        obtain ⟨ht2, hs2, hsem2⟩ := ihr _ r1 p2 rfl hvr
        simp only at ht2 hs2 hsem2
        have hsem : ∀ context : ExecutionContext, context.symbolTable = pass.symbolTable →
            Consistent pass.variableTable context → context.hasError = false →
            (l1.evaluate context = l.evaluate context ∧
              ∀ v, p1.constantResultFromLastCall = some v →
                l.evaluate context = .ok (v, context)) ∧
            (r1.evaluate context = r.evaluate context ∧
              ∀ v, p2.constantResultFromLastCall = some v →
                r.evaluate context = .ok (v, context)) := by
          intro context hst hcons hok
          refine ⟨hsem1 context hst hcons hok, hsem2 context ?_ ?_ hok⟩
          · rw [hst, hs1]
          · rw [ht1]; exact hcons
        split at h
        · rename_i lhsValue rhsValue hlres hrres
          have hboth : ∀ context : ExecutionContext, context.symbolTable = pass.symbolTable →
              Consistent pass.variableTable context → context.hasError = false →
              (Expression.BinaryOp l1 op r1).evaluate context =
                (Expression.BinaryOp l op r).evaluate context ∧
              l.evaluate context = .ok (lhsValue, context) ∧
              r.evaluate context = .ok (rhsValue, context) := by
            intro context hst hcons hok
            obtain ⟨⟨heq1, hc1⟩, ⟨heq2, hc2⟩⟩ := hsem context hst hcons hok
            exact ⟨evaluate_binaryOp_congr l l1 r r1 op context hok heq1 heq2,
              hc1 _ hlres, hc2 _ hrres⟩
          cases op with
          | Add =>
            simp only [Except.ok.injEq, Prod.mk.injEq] at h
            obtain ⟨rfl, rfl⟩ := h
            refine ⟨by rw [← ht1, ← ht2], by rw [← hs1, ← hs2], ?_⟩
            intro context hst hcons hok
            obtain ⟨hcongr, hl, hr⟩ := hboth context hst hcons hok
            refine ⟨hcongr, ?_⟩
            intro v hv
            simp only [Option.some.injEq] at hv
            rw [evaluate_binaryOp_of_values l r _ context _ _ hok hl hr, ← hv]
          | Sub =>
            simp only [Except.ok.injEq, Prod.mk.injEq] at h
            obtain ⟨rfl, rfl⟩ := h
            refine ⟨by rw [← ht1, ← ht2], by rw [← hs1, ← hs2], ?_⟩
            intro context hst hcons hok
            obtain ⟨hcongr, hl, hr⟩ := hboth context hst hcons hok
            refine ⟨hcongr, ?_⟩
            intro v hv
            simp only [Option.some.injEq] at hv
            rw [evaluate_binaryOp_of_values l r _ context _ _ hok hl hr, ← hv]
          | Mul =>
            simp only [Except.ok.injEq, Prod.mk.injEq] at h
            obtain ⟨rfl, rfl⟩ := h
            refine ⟨by rw [← ht1, ← ht2], by rw [← hs1, ← hs2], ?_⟩
            intro context hst hcons hok
            obtain ⟨hcongr, hl, hr⟩ := hboth context hst hcons hok
            refine ⟨hcongr, ?_⟩
            intro v hv
            simp only [Option.some.injEq] at hv
            rw [evaluate_binaryOp_of_values l r _ context _ _ hok hl hr, ← hv]
          | Div =>
            simp only at h
            split at h
            · simp only [Except.ok.injEq, Prod.mk.injEq] at h
              obtain ⟨rfl, rfl⟩ := h
              refine ⟨by rw [← ht1, ← ht2], by rw [← hs1, ← hs2], ?_⟩
              intro context hst hcons hok
              obtain ⟨hcongr, _, _⟩ := hboth context hst hcons hok
              refine ⟨hcongr, ?_⟩
              intro v hv
              cases hv
            · rename_i hne
              split at h
              · simp only [reduceCtorEq] at h
              · rename_i hfits
                simp only [Except.ok.injEq, Prod.mk.injEq] at h
                obtain ⟨rfl, rfl⟩ := h
                refine ⟨by rw [← ht1, ← ht2], by rw [← hs1, ← hs2], ?_⟩
                intro context hst hcons hok
                obtain ⟨hcongr, hl, hr⟩ := hboth context hst hcons hok
                refine ⟨hcongr, ?_⟩
                intro v hv
                simp only [Option.some.injEq] at hv
                rw [evaluate_binaryOp_of_values l r _ context _ _ hok hl hr, ← hv]
                simp only [if_neg hne, if_neg hfits]
        · rename_i lhsValue hlres hrres
          simp only [Except.ok.injEq, Prod.mk.injEq] at h
          obtain ⟨rfl, rfl⟩ := h
          refine ⟨by rw [← ht1, ← ht2], by rw [← hs1, ← hs2], ?_⟩
          intro context hst hcons hok
          obtain ⟨⟨_, hc1⟩, ⟨heq2, _⟩⟩ := hsem context hst hcons hok
          refine ⟨?_, ?_⟩
          · apply evaluate_binaryOp_congr _ _ _ _ _ _ hok _ heq2
            rw [hc1 _ hlres]; rfl
          · intro v hv
            cases hv
        · rename_i rhsValue hlres hrres
          simp only [Except.ok.injEq, Prod.mk.injEq] at h
          obtain ⟨rfl, rfl⟩ := h
          refine ⟨by rw [← ht1, ← ht2], by rw [← hs1, ← hs2], ?_⟩
          intro context hst hcons hok
          obtain ⟨⟨heq1, _⟩, ⟨_, hc2⟩⟩ := hsem context hst hcons hok
          refine ⟨?_, ?_⟩
          · apply evaluate_binaryOp_congr _ _ _ _ _ _ hok heq1
            rw [hc2 _ hrres]; rfl
          · intro v hv
            cases hv
        · simp only [Except.ok.injEq, Prod.mk.injEq] at h
          obtain ⟨rfl, rfl⟩ := h
          refine ⟨by rw [← ht1, ← ht2], by rw [← hs1, ← hs2], ?_⟩
          intro context hst hcons hok
          obtain ⟨⟨heq1, _⟩, ⟨heq2, _⟩⟩ := hsem context hst hcons hok
          refine ⟨evaluate_binaryOp_congr l l1 r r1 op context hok heq1 heq2, ?_⟩
          intro v hv
          cases hv

/-- Lookup after the emplace-and-set idiom: the updated key holds the
updated record, every other key is untouched. -/
theorem variableTableFind_emplaceAndSet (table : List (IdentifierKey × VariableAssignment))
    (key key' : IdentifierKey) (update : VariableAssignment → VariableAssignment) :
    variableTableFind (variableTableEmplaceAndSet table key update) key' =
      if key = key' then some (update ((variableTableFind table key).getD {}))
      else variableTableFind table key' := by
  induction table with
  | nil =>
    simp only [variableTableEmplaceAndSet, variableTableFind, Option.getD_none]
  | cons entry rest ih =>
    obtain ⟨k, a⟩ := entry
    simp only [variableTableEmplaceAndSet]
    by_cases hk : k = key
    · subst hk
      simp only [if_true, variableTableFind, Option.getD_some]
      by_cases hk' : k = key'
      · simp only [hk', if_true]
      · simp only [hk', if_false]
    · simp only [hk, if_false, variableTableFind]
      by_cases hk' : k = key'
      · subst hk'
        simp only [if_true]
        rw [if_neg (fun h => hk h.symm)]
      · simp only [hk', if_false, ih]

/-- C5: for every expression and every state of the constant propagation
pass entered with an empty `constantResultFromLastCall`, the visit leaves
the variable table unchanged (so every subtree is visited under the same
table), and whenever it reports the constant `v`, then in every execution
context without error that shares the symbol table and in which each
parameter and variable marked constant by the table holds the recorded
value, evaluating the original expression yields `v` and leaves the context
unchanged, in particular `error = NoError`; the rewritten expression
evaluates to the same result. -/
theorem C5_reported_constant_is_evaluator_value (e e' : Expression)
    (pass pass' : ConstantPropagation) (v : Int) (context : ExecutionContext)
    (hentry : pass.constantResultFromLastCall = none)
    (hvisit : ConstantPropagation.visitExpression e pass = .ok (e', pass'))
    (hconst : pass'.constantResultFromLastCall = some v)
    (hst : context.symbolTable = pass.symbolTable)
    (hcons : Consistent pass.variableTable context)
    (hok : context.hasError = false) :
    e.evaluate context = .ok (v, context) ∧
      e'.evaluate context = .ok (v, context) ∧
      (Expression.ConstantLiteral v).evaluate context = e.evaluate context ∧
      context.error = .NoError ∧
      pass'.variableTable = pass.variableTable := by
  obtain ⟨ht, _, hsem⟩ := ConstantPropagation.visitExpression_sound e pass e' pass' hentry hvisit
  obtain ⟨heq, hval⟩ := hsem context hst hcons hok
  have hev := hval v hconst
  refine ⟨hev, by rw [heq, hev], by rw [hev]; rfl, ?_, ht⟩
  simpa [ExecutionContext.hasError] using hok

/-- Witness of C5: with the variable `x` (id 0) recorded as the constant 5,
`x * 3 - 4` is reported as the constant 11. -/
theorem C5_reported_constant_is_evaluator_value_witness :
    (Expression.BinaryOp
        (.BinaryOp (.Identifier .Variable 0) .Mul (.ConstantLiteral 3)) .Sub
        (.ConstantLiteral 4)).evaluate
        { parameterValues := [], variableValues := [5], symbolTable := {} } =
      .ok (11, { parameterValues := [], variableValues := [5], symbolTable := {} }) ∧
    (Expression.BinaryOp
        (.BinaryOp (.Identifier .Variable 0) .Mul (.ConstantLiteral 3)) .Sub
        (.ConstantLiteral 4)).evaluate
        { parameterValues := [], variableValues := [5], symbolTable := {} } =
      .ok (11, { parameterValues := [], variableValues := [5], symbolTable := {} }) ∧
    (Expression.ConstantLiteral 11).evaluate
        { parameterValues := [], variableValues := [5], symbolTable := {} } =
      (Expression.BinaryOp
        (.BinaryOp (.Identifier .Variable 0) .Mul (.ConstantLiteral 3)) .Sub
        (.ConstantLiteral 4)).evaluate
        { parameterValues := [], variableValues := [5], symbolTable := {} } ∧
    ({ parameterValues := [], variableValues := [5], symbolTable := {} } :
      ExecutionContext).error = .NoError ∧
    ({ symbolTable := {}, constantResultFromLastCall := some 11,
       variableTable := [((0, IdentifierType.Variable),
         { value := 5, hasConstantAssignment := true })] } :
      ConstantPropagation).variableTable =
    ({ symbolTable := {},
       variableTable := [((0, IdentifierType.Variable),
         { value := 5, hasConstantAssignment := true })] } :
      ConstantPropagation).variableTable :=
  C5_reported_constant_is_evaluator_value
    (.BinaryOp (.BinaryOp (.Identifier .Variable 0) .Mul (.ConstantLiteral 3)) .Sub
      (.ConstantLiteral 4))
    (.BinaryOp (.BinaryOp (.Identifier .Variable 0) .Mul (.ConstantLiteral 3)) .Sub
      (.ConstantLiteral 4))
    { symbolTable := {},
      variableTable := [((0, IdentifierType.Variable),
        { value := 5, hasConstantAssignment := true })] }
    { symbolTable := {}, constantResultFromLastCall := some 11,
      variableTable := [((0, IdentifierType.Variable),
        { value := 5, hasConstantAssignment := true })] }
    11
    { parameterValues := [], variableValues := [5], symbolTable := {} }
    rfl rfl rfl rfl
    (by
      intro key assignment hfind _
      simp only [variableTableFind] at hfind
      split at hfind
      · rename_i hkey
        simp only [Option.some.injEq] at hfind
        rw [← hkey, ← hfind]
        rfl
      · cases hfind)
    rfl

end optim

end pljit

namespace pljit

namespace optim

open ast exec

/-- Effect of an assignment statement that runs without error from a
context without error: the expression evaluated to some value without
changing the context, the target holds that value afterwards and every
other storage location is unchanged. -/
theorem execute_assignment_ok (target : Identifier) (e : Expression)
    (context context' : ExecutionContext)
    (h : (Statement.AssignmentStatement target e).execute context = .ok context')
    (hok : context.hasError = false) (hok' : context'.hasError = false) :
    ∃ value, e.evaluate context = .ok (value, context) ∧
      context'.symbolTable = context.symbolTable ∧
      valueAt context' (target.id, target.identifierType) = some value ∧
      ∀ key, key ≠ (target.id, target.identifierType) →
        valueAt context' key = valueAt context key := by
  simp only [Statement.execute] at h
  split at h
  · simp only [reduceCtorEq] at h
  · rename_i value c1 hev
    by_cases hc1 : c1.hasError = true
    · simp only [hc1, Bool.not_true, Bool.false_eq_true, if_false, Except.ok.injEq] at h
      rw [h] at hc1; rw [hok'] at hc1; cases hc1
    · have hc1' : c1.hasError = false := by simpa using hc1
      have hceq := evaluate_context_eq e context c1 value hev hok hc1'
      subst hceq
      simp only [hc1', Bool.not_false, if_true] at h
      refine ⟨value, hev, ?_⟩
      obtain ⟨ty, id⟩ := target
      cases ty with
      | Constant => simp only [reduceCtorEq] at h
      | Variable =>
        simp only at h
        split at h
        · rename_i hlt
          simp only [Except.ok.injEq] at h
          subst h
          refine ⟨rfl, ?_, ?_⟩
          · simp only [valueAt, List.getElem?_set_self hlt]
          · intro key hne
            obtain ⟨kid, kty⟩ := key
            cases kty with
            | Constant => rfl
            | Parameter => rfl
            | Variable =>
              have hid : id ≠ kid := by
                intro hid; apply hne; rw [hid]
              simp only [valueAt, List.getElem?_set_ne hid]
        · simp only [reduceCtorEq] at h
      | Parameter =>
        simp only at h
        split at h
        · rename_i hlt
          simp only [Except.ok.injEq] at h
          subst h
          refine ⟨rfl, ?_, ?_⟩
          · simp only [valueAt, List.getElem?_set_self hlt]
          · intro key hne
            obtain ⟨kid, kty⟩ := key
            cases kty with
            | Constant => rfl
            | Variable => rfl
            | Parameter =>
              have hid : id ≠ kid := by
                intro hid; apply hne; rw [hid]
              simp only [valueAt, List.getElem?_set_ne hid]
        · simp only [reduceCtorEq] at h

/-- Effect of a return statement that runs without error from a context
without error: no storage location changes. -/
theorem execute_return_ok (e : Expression) (context context' : ExecutionContext)
    (h : (Statement.ReturnStatement e).execute context = .ok context')
    (hok : context.hasError = false) (hok' : context'.hasError = false) :
    context'.symbolTable = context.symbolTable ∧
      ∀ key, valueAt context' key = valueAt context key := by
  simp only [Statement.execute] at h
  split at h
  · simp only [reduceCtorEq] at h
  · rename_i value c1 hev
    by_cases hc1 : c1.hasError = true
    · simp only [hc1, Bool.not_true, Bool.false_eq_true, if_false, Except.ok.injEq] at h
      rw [h] at hc1; rw [hok'] at hc1; cases hc1
    · have hc1' : c1.hasError = false := by simpa using hc1
      have hceq := evaluate_context_eq e context c1 value hev hok hc1'
      subst hceq
      simp only [hc1', Bool.not_false, if_true, Except.ok.injEq] at h
      subst h
      exact ⟨rfl, fun key => rfl⟩

/-- Soundness of constant propagation on a statement.  Entered with an
empty `constantResultFromLastCall`, the pass leaves it empty, keeps the
symbol table and the kind of the statement, the rewritten statement
executes like the original one in every context without error that agrees
with the variable table, and the context after an execution without error
agrees with the updated variable table. -/
theorem ConstantPropagation.visitStatement_sound (stmt stmt' : Statement)
    (pass pass' : ConstantPropagation)
    (hentry : pass.constantResultFromLastCall = none)
    (hvisit : ConstantPropagation.visitStatement stmt pass = .ok (stmt', pass')) :
    pass'.constantResultFromLastCall = none ∧ pass'.symbolTable = pass.symbolTable ∧
      stmt'.isReturnStatement = stmt.isReturnStatement ∧
      ∀ context : ExecutionContext, context.symbolTable = pass.symbolTable →
        Consistent pass.variableTable context → context.hasError = false →
        stmt'.execute context = stmt.execute context ∧
        ∀ context', stmt.execute context = .ok context' → context'.hasError = false →
          context'.symbolTable = pass.symbolTable ∧
            Consistent pass'.variableTable context' := by
  cases stmt with
  | AssignmentStatement target e =>
    simp only [ConstantPropagation.visitStatement_assignment,
      ConstantPropagation.visitStatement_return] at hvisit
    split at hvisit
    · simp only [reduceCtorEq] at hvisit
    · rename_i key hkey
      have hkey' : key = (target.id, target.identifierType) := by
        simp only [constructKey] at hkey
        split at hkey
        · simp only [reduceCtorEq] at hkey
        · simp only [Except.ok.injEq] at hkey
          exact hkey.symm
      split at hvisit
      · simp only [reduceCtorEq] at hvisit
      · rename_i e1 p1 hve
        obtain ⟨ht, hs, hsem⟩ :=
          ConstantPropagation.visitExpression_sound e pass e1 p1 hentry hve
        split at hvisit
        · rename_i result hres
          simp only [Except.ok.injEq, Prod.mk.injEq] at hvisit
          obtain ⟨rfl, rfl⟩ := hvisit
          refine ⟨rfl, hs, rfl, ?_⟩
          intro context hst hcons hok
          obtain ⟨_, hval⟩ := hsem context hst hcons hok
          have hev := hval result hres
          refine ⟨by simp only [Statement.execute, hev, Expression.evaluate], ?_⟩
          intro context' hexec hok'
          obtain ⟨value, hev', hst', hat, hother⟩ :=
            execute_assignment_ok target e context context' hexec hok hok'
          rw [hev] at hev'
          simp only [Except.ok.injEq, Prod.mk.injEq, and_true] at hev'
          subst hev'
          refine ⟨by rw [hst', hst], ?_⟩
          intro k a hfind hconst
          simp only at hfind
          rw [variableTableFind_emplaceAndSet] at hfind
          split at hfind
          · rename_i hk
            simp only [Option.some.injEq] at hfind
            rw [← hk, hkey', ← hfind]
            exact hat
          · rename_i hk
            rw [hother k (by rw [← hkey']; exact fun h => hk h.symm)]
            rw [ht] at hfind
            exact hcons k a hfind hconst
        · rename_i hres
          simp only [Except.ok.injEq, Prod.mk.injEq] at hvisit
          obtain ⟨rfl, rfl⟩ := hvisit
          refine ⟨hres, hs, rfl, ?_⟩
          intro context hst hcons hok
          obtain ⟨heq, _⟩ := hsem context hst hcons hok
          refine ⟨by simp only [Statement.execute, heq], ?_⟩
          intro context' hexec hok'
          obtain ⟨value, _, hst', _, hother⟩ :=
            execute_assignment_ok target e context context' hexec hok hok'
          refine ⟨by rw [hst', hst], ?_⟩
          intro k a hfind hconst
          simp only at hfind
          rw [variableTableFind_emplaceAndSet] at hfind
          split at hfind
          · simp only [Option.some.injEq] at hfind
            rw [← hfind] at hconst
            simp only [Bool.false_eq_true] at hconst
          · rename_i hk
            rw [hother k (by rw [← hkey']; exact fun h => hk h.symm)]
            rw [ht] at hfind
            exact hcons k a hfind hconst
  | ReturnStatement e =>
    simp only [ConstantPropagation.visitStatement_assignment,
      ConstantPropagation.visitStatement_return] at hvisit
    split at hvisit
    · simp only [reduceCtorEq] at hvisit
    · rename_i e1 p1 hve
      obtain ⟨ht, hs, hsem⟩ :=
        ConstantPropagation.visitExpression_sound e pass e1 p1 hentry hve
      split at hvisit
      · rename_i result hres
        simp only [Except.ok.injEq, Prod.mk.injEq] at hvisit
        obtain ⟨rfl, rfl⟩ := hvisit
        refine ⟨rfl, hs, rfl, ?_⟩
        intro context hst hcons hok
        obtain ⟨_, hval⟩ := hsem context hst hcons hok
        have hev := hval result hres
        refine ⟨by simp only [Statement.execute, hev, Expression.evaluate], ?_⟩
        intro context' hexec hok'
        obtain ⟨hst', hsame⟩ := execute_return_ok e context context' hexec hok hok'
        refine ⟨by rw [hst', hst], ?_⟩
        intro k a hfind hconst
        rw [hsame k]
        simp only at hfind
        rw [ht] at hfind
        exact hcons k a hfind hconst
      · rename_i hres
        simp only [Except.ok.injEq, Prod.mk.injEq] at hvisit
        obtain ⟨rfl, rfl⟩ := hvisit
        refine ⟨hres, hs, rfl, ?_⟩
        intro context hst hcons hok
        obtain ⟨heq, _⟩ := hsem context hst hcons hok
        refine ⟨by simp only [Statement.execute, heq], ?_⟩
        intro context' hexec hok'
        obtain ⟨hst', hsame⟩ := execute_return_ok e context context' hexec hok hok'
        refine ⟨by rw [hst', hst], ?_⟩
        intro k a hfind hconst
        rw [hsame k]
        rw [ht] at hfind
        exact hcons k a hfind hconst

/-- Soundness of constant propagation on a statement list: the rewritten
list executes like the original one in every context without error that
agrees with the variable table at entry. -/
theorem ConstantPropagation.visitStatements_sound (statements : List Statement) :
    ∀ (statements' : List Statement) (pass pass' : ConstantPropagation),
      pass.constantResultFromLastCall = none →
      ConstantPropagation.visitStatements statements pass = .ok (statements', pass') →
      ∀ context : ExecutionContext, context.symbolTable = pass.symbolTable →
        Consistent pass.variableTable context → context.hasError = false →
        executeStatements statements' context = executeStatements statements context := by
  induction statements with
  | nil =>
    intro statements' pass pass' _ hvisit context _ _ _
    simp only [ConstantPropagation.visitStatements_nil,
      ConstantPropagation.visitStatements_cons, Except.ok.injEq, Prod.mk.injEq] at hvisit
    rw [← hvisit.1]
  | cons stmt rest ih =>
    intro statements' pass pass' hentry hvisit context hst hcons hok
    simp only [ConstantPropagation.visitStatements_nil,
      ConstantPropagation.visitStatements_cons] at hvisit
    split at hvisit
    · simp only [reduceCtorEq] at hvisit
    · rename_i stmt1 p1 hvs
      split at hvisit
      · simp only [reduceCtorEq] at hvisit
      · rename_i rest1 p2 hvr
        simp only [Except.ok.injEq, Prod.mk.injEq] at hvisit
        obtain ⟨rfl, rfl⟩ := hvisit
        obtain ⟨hnone, hs, hret, hsem⟩ :=
          ConstantPropagation.visitStatement_sound stmt stmt1 pass p1 hentry hvs
        obtain ⟨hexec, hafter⟩ := hsem context hst hcons hok
        simp only [executeStatements, hexec, hret]
        cases hrun : stmt.execute context with
        | error f => rfl
        | ok c =>
          simp only
          by_cases hc : c.hasError = true
          · simp only [hc, if_true]
          · have hc' : c.hasError = false := by simpa using hc
            simp only [hc', Bool.false_eq_true, if_false]
            obtain ⟨hst1, hcons1⟩ := hafter c hrun hc'
            rw [ih rest1 p1 p2 hnone hvr c (by rw [hst1, hs]) hcons1 hc']

end optim

end pljit

namespace pljit

namespace analysis

open common ast

/-- Lookup in the map after a new entry was added at the end. -/
theorem findSymbolEntry_append (map : List (List Char × SymbolEntry)) (key : List Char)
    (entry : SymbolEntry) (symbolStr : List Char) :
    findSymbolEntry (map ++ [(key, entry)]) symbolStr =
      match findSymbolEntry map symbolStr with
      | some found => some found
      | none => if key = symbolStr then some entry else none := by
  induction map with
  | nil => simp [findSymbolEntry]
  | cons head rest ih =>
    obtain ⟨k, e⟩ := head
    simp only [List.cons_append, findSymbolEntry]
    by_cases hk : k = symbolStr
    · simp [hk]
    · simp only [hk, if_false, List.append_eq, ih]

/-- The empty symbol table is consistent. -/
theorem SymbolTable.valid_empty : ({} : SymbolTable).Valid := by
  refine ⟨rfl, rfl, rfl, ?_⟩
  intro symbolStr entry h
  simp [findSymbolEntry] at h

/-- Registration keeps the symbol table consistent. -/
theorem SymbolTable.registerSymbol_valid (table table' : SymbolTable)
    (sourceCode : List Char) (symbolType : IdentifierType)
    (declarationRef : SourceRangeReference) (constantValue : Int)
    (result : RegistrationResult) (hvalid : table.Valid)
    (h : table.registerSymbol sourceCode symbolType declarationRef constantValue =
      .ok (result, table')) :
    table'.Valid := by
  obtain ⟨hp, hv, hc, hentries⟩ := hvalid
  simp only [SymbolTable.registerSymbol] at h
  split at h
  · simp only [Except.ok.injEq, Prod.mk.injEq] at h
    rw [← h.2]
    exact ⟨hp, hv, hc, hentries⟩
  · rename_i hfind
    cases symbolType with
    | Parameter =>
      simp only [Except.ok.injEq, Prod.mk.injEq] at h
      rw [← h.2]
      refine ⟨by simp [hp], hv, hc, ?_⟩
      intro symbolStr entry hf
      simp only [findSymbolEntry_append] at hf
      split at hf
      · rename_i found hfound
        simp only [Option.some.injEq] at hf
        subst hf
        have := hentries symbolStr found hfound
        cases hty : found.symbolType <;> simp only [SymbolTable.size, hty] at this ⊢
        · simp only [List.length_append, List.length_singleton]; omega
        · exact this
        · exact this
      · split at hf
        · simp only [Option.some.injEq] at hf
          subst hf
          simp only [SymbolTable.size, List.length_append, List.length_singleton, hp]
          omega
        · cases hf
    | Variable =>
      simp only [Except.ok.injEq, Prod.mk.injEq] at h
      rw [← h.2]
      refine ⟨hp, by simp [hv], hc, ?_⟩
      intro symbolStr entry hf
      simp only [findSymbolEntry_append] at hf
      split at hf
      · rename_i found hfound
        simp only [Option.some.injEq] at hf
        subst hf
        have := hentries symbolStr found hfound
        cases hty : found.symbolType <;> simp only [SymbolTable.size, hty] at this ⊢
        · exact this
        · simp only [List.length_append, List.length_singleton]; omega
        · exact this
      · split at hf
        · simp only [Option.some.injEq] at hf
          subst hf
          simp only [SymbolTable.size, List.length_append, List.length_singleton, hv]
          omega
        · cases hf
    | Constant =>
      simp only at h
      split at h
      · simp only [reduceCtorEq] at h
      · simp only [Except.ok.injEq, Prod.mk.injEq] at h
        rw [← h.2]
        refine ⟨hp, hv, by simp [hc], ?_⟩
        intro symbolStr entry hf
        simp only [findSymbolEntry_append] at hf
        split at hf
        · rename_i found hfound
          simp only [Option.some.injEq] at hf
          subst hf
          have := hentries symbolStr found hfound
          cases hty : found.symbolType <;> simp only [SymbolTable.size, hty] at this ⊢
          · exact this
          · exact this
          · simp only [List.length_append, List.length_singleton]; omega
        · split at hf
          · simp only [Option.some.injEq] at hf
            subst hf
            simp only [SymbolTable.size, List.length_append, List.length_singleton, hc]
            omega
          · cases hf

/-- Printing a diagnostic changes neither the symbol table nor the set of
initialised variables nor the return flag. -/
theorem SemanticAnalysis.printContext_fields (analysis : SemanticAnalysis)
    (ref : SourceRangeReference) (message : String) :
    (analysis.printContext ref message).symbolTable = analysis.symbolTable ∧
    (analysis.printContext ref message).initializedVariables =
      analysis.initializedVariables ∧
    (analysis.printContext ref message).containsReturnStatement =
      analysis.containsReturnStatement := ⟨rfl, rfl, rfl⟩

/-- Registering a declarator list keeps the symbol table consistent and
leaves the set of initialised variables and the return flag alone. -/
theorem SemanticAnalysis.registerDeclaratorList_valid (symbolType : IdentifierType)
    (children : List parse_tree.DeclaratorListChild) :
    ∀ (analysis analysis' : SemanticAnalysis) (success : Bool),
      analysis.symbolTable.Valid →
      SemanticAnalysis.registerDeclaratorList symbolType children analysis =
        .ok (success, analysis') →
      analysis'.symbolTable.Valid ∧
        analysis'.initializedVariables = analysis.initializedVariables ∧
        analysis'.containsReturnStatement = analysis.containsReturnStatement := by
  induction children with
  | nil =>
    intro analysis analysis' success hvalid h
    simp only [SemanticAnalysis.registerDeclaratorList, Except.ok.injEq, Prod.mk.injEq] at h
    rw [← h.2]
    exact ⟨hvalid, rfl, rfl⟩
  | cons child rest ih =>
    intro analysis analysis' success hvalid h
    cases child with
    | GenericToken token =>
      simp only [SemanticAnalysis.registerDeclaratorList] at h
      split at h
      · exact ih analysis analysis' success hvalid h
      · simp only [reduceCtorEq] at h
    | Identifier identifier =>
      simp only [SemanticAnalysis.registerDeclaratorList] at h
      split at h
      · simp only [reduceCtorEq] at h
      · rename_i result table hreg
        have hvalid' := SymbolTable.registerSymbol_valid _ _ _ _ _ _ _ hvalid hreg
        split at h
        · simp only [Except.ok.injEq, Prod.mk.injEq] at h
          rw [← h.2]
          exact ⟨hvalid', rfl, rfl⟩
        · exact ih { analysis with symbolTable := table } analysis' success hvalid' h

/-- Registering the init-declarators keeps the symbol table consistent and
leaves the set of initialised variables and the return flag alone. -/
theorem SemanticAnalysis.registerInitDeclarators_valid
    (children : List parse_tree.InitDeclaratorListChild) :
    ∀ (analysis analysis' : SemanticAnalysis) (success : Bool),
      analysis.symbolTable.Valid →
      SemanticAnalysis.registerInitDeclarators children analysis =
        .ok (success, analysis') →
      analysis'.symbolTable.Valid ∧
        analysis'.initializedVariables = analysis.initializedVariables ∧
        analysis'.containsReturnStatement = analysis.containsReturnStatement := by
  induction children with
  | nil =>
    intro analysis analysis' success hvalid h
    simp only [SemanticAnalysis.registerInitDeclarators, Except.ok.injEq, Prod.mk.injEq] at h
    rw [← h.2]
    exact ⟨hvalid, rfl, rfl⟩
  | cons child rest ih =>
    intro analysis analysis' success hvalid h
    cases child with
    | GenericToken token =>
      simp only [SemanticAnalysis.registerInitDeclarators] at h
      split at h
      · exact ih analysis analysis' success hvalid h
      · simp only [reduceCtorEq] at h
    | InitDeclarator initDeclarator =>
      simp only [SemanticAnalysis.registerInitDeclarators] at h
      split at h
      · simp only [reduceCtorEq] at h
      · rename_i result table hreg
        have hvalid' := SymbolTable.registerSymbol_valid _ _ _ _ _ _ _ hvalid hreg
        split at h
        · simp only [Except.ok.injEq, Prod.mk.injEq] at h
          rw [← h.2]
          exact ⟨hvalid', rfl, rfl⟩
        · exact ih { analysis with symbolTable := table } analysis' success hvalid' h

/-- An identifier accepted by the analysis is resolved to the entry of its
text, leaves the state of the analysis unchanged and satisfies `Accepts`. -/
theorem SemanticAnalysis.analyzeIdentifier_ok (node : parse_tree.Identifier)
    (analysis analysis' : SemanticAnalysis) (e : Expression)
    (h : SemanticAnalysis.analyzeIdentifier node analysis = .ok e analysis') :
    analysis' = analysis ∧ analysis.Accepts e := by
  simp only [SemanticAnalysis.analyzeIdentifier] at h
  split at h
  · simp only [reduceCtorEq] at h
  · rename_i entry hlook
    split at h
    · simp only [reduceCtorEq] at h
    · rename_i hinit
      simp only [AnalysisResult.ok.injEq] at h
      obtain ⟨rfl, rfl⟩ := h
      refine ⟨rfl, ?_, ?_⟩
      · intro hvalid
        simp only [Expression.idsInRange, decide_eq_true_eq]
        exact hvalid.2.2.2 _ _ hlook
      · intro id hid
        simp only [Expression.reads, List.mem_singleton, Prod.mk.injEq] at hid
        obtain ⟨hty, rfl⟩ := hid
        by_contra hnot
        apply hinit
        refine ⟨hty.symm, ?_⟩
        simpa using hnot

mutual

/-- An additive expression accepted by the analysis leaves the state
unchanged and satisfies `Accepts`. -/
theorem SemanticAnalysis.analyzeAdditiveExpression_ok :
    ∀ (node : parse_tree.AdditiveExpression) (analysis analysis' : SemanticAnalysis)
      (e : Expression),
      SemanticAnalysis.analyzeAdditiveExpression node analysis = .ok e analysis' →
      analysis' = analysis ∧ analysis.Accepts e
  | .single m _, analysis, analysis', e, h => by
    simp only [SemanticAnalysis.analyzeAdditiveExpression] at h
    exact SemanticAnalysis.analyzeMultiplicativeExpression_ok m analysis analysis' e h
  | .binary m _ a ty _, analysis, analysis', e, h => by
    simp only [SemanticAnalysis.analyzeAdditiveExpression, AnalysisResult.bind] at h
    split at h
    · rename_i e1 an1 h1
      obtain ⟨rfl, hacc1⟩ :=
        SemanticAnalysis.analyzeMultiplicativeExpression_ok m analysis an1 e1 h1
      split at h
      · simp only [AnalysisResult.ok.injEq] at h
        obtain ⟨rfl, rfl⟩ := h
        exact ⟨rfl, hacc1⟩
      · split at h
        · rename_i e2 an2 h2
          obtain ⟨rfl, hacc2⟩ :=
            SemanticAnalysis.analyzeAdditiveExpression_ok a an1 an2 e2 h2
          simp only [AnalysisResult.ok.injEq] at h
          obtain ⟨rfl, rfl⟩ := h
          refine ⟨rfl, ?_, ?_⟩
          · intro hvalid
            simp only [Expression.idsInRange, Bool.and_eq_true]
            exact ⟨hacc1.1 hvalid, hacc2.1 hvalid⟩
          · intro id hid
            simp only [Expression.reads, List.mem_append] at hid
            rcases hid with hid | hid
            · exact hacc1.2 id hid
            · exact hacc2.2 id hid
        · simp only [reduceCtorEq] at h
        · simp only [reduceCtorEq] at h
    · simp only [reduceCtorEq] at h
    · simp only [reduceCtorEq] at h

/-- A multiplicative expression accepted by the analysis leaves the state
unchanged and satisfies `Accepts`. -/
theorem SemanticAnalysis.analyzeMultiplicativeExpression_ok :
    ∀ (node : parse_tree.MultiplicativeExpression) (analysis analysis' : SemanticAnalysis)
      (e : Expression),
      SemanticAnalysis.analyzeMultiplicativeExpression node analysis = .ok e analysis' →
      analysis' = analysis ∧ analysis.Accepts e
  | .single u _, analysis, analysis', e, h => by
    simp only [SemanticAnalysis.analyzeMultiplicativeExpression] at h
    exact SemanticAnalysis.analyzeUnaryExpression_ok u analysis analysis' e h
  | .binary u _ m ty _, analysis, analysis', e, h => by
    simp only [SemanticAnalysis.analyzeMultiplicativeExpression, AnalysisResult.bind] at h
    split at h
    · rename_i e1 an1 h1
      obtain ⟨rfl, hacc1⟩ :=
        SemanticAnalysis.analyzeUnaryExpression_ok u analysis an1 e1 h1
      split at h
      · simp only [AnalysisResult.ok.injEq] at h
        obtain ⟨rfl, rfl⟩ := h
        exact ⟨rfl, hacc1⟩
      · split at h
        · rename_i e2 an2 h2
          obtain ⟨rfl, hacc2⟩ :=
            SemanticAnalysis.analyzeMultiplicativeExpression_ok m an1 an2 e2 h2
          simp only [AnalysisResult.ok.injEq] at h
          obtain ⟨rfl, rfl⟩ := h
          refine ⟨rfl, ?_, ?_⟩
          · intro hvalid
            simp only [Expression.idsInRange, Bool.and_eq_true]
            exact ⟨hacc1.1 hvalid, hacc2.1 hvalid⟩
          · intro id hid
            simp only [Expression.reads, List.mem_append] at hid
            rcases hid with hid | hid
            · exact hacc1.2 id hid
            · exact hacc2.2 id hid
        · simp only [reduceCtorEq] at h
        · simp only [reduceCtorEq] at h
    · simp only [reduceCtorEq] at h
    · simp only [reduceCtorEq] at h

/-- A unary expression accepted by the analysis leaves the state unchanged
and satisfies `Accepts`. -/
theorem SemanticAnalysis.analyzeUnaryExpression_ok :
    ∀ (node : parse_tree.UnaryExpression) (analysis analysis' : SemanticAnalysis)
      (e : Expression),
      SemanticAnalysis.analyzeUnaryExpression node analysis = .ok e analysis' →
      analysis' = analysis ∧ analysis.Accepts e
  | .unsigned p _, analysis, analysis', e, h => by
    simp only [SemanticAnalysis.analyzeUnaryExpression] at h
    exact SemanticAnalysis.analyzePrimaryExpression_ok p analysis analysis' e h
  | .signed _ p ty _, analysis, analysis', e, h => by
    simp only [SemanticAnalysis.analyzeUnaryExpression, AnalysisResult.bind] at h
    split at h
    · rename_i e1 an1 h1
      obtain ⟨rfl, hacc1⟩ :=
        SemanticAnalysis.analyzePrimaryExpression_ok p analysis an1 e1 h1
      split at h
      · simp only [AnalysisResult.ok.injEq] at h
        obtain ⟨rfl, rfl⟩ := h
        exact ⟨rfl, hacc1⟩
      · simp only [AnalysisResult.ok.injEq] at h
        obtain ⟨rfl, rfl⟩ := h
        exact ⟨rfl, hacc1⟩
    · simp only [reduceCtorEq] at h
    · simp only [reduceCtorEq] at h

/-- A primary expression accepted by the analysis leaves the state unchanged
and satisfies `Accepts`. -/
theorem SemanticAnalysis.analyzePrimaryExpression_ok :
    ∀ (node : parse_tree.PrimaryExpression) (analysis analysis' : SemanticAnalysis)
      (e : Expression),
      SemanticAnalysis.analyzePrimaryExpression node analysis = .ok e analysis' →
      analysis' = analysis ∧ analysis.Accepts e
  | .Literal l _, analysis, analysis', e, h => by
    simp only [SemanticAnalysis.analyzePrimaryExpression, SemanticAnalysis.analyzeLiteral,
      AnalysisResult.ok.injEq] at h
    obtain ⟨rfl, rfl⟩ := h
    refine ⟨rfl, fun _ => rfl, ?_⟩
    intro id hid
    simp [Expression.reads] at hid
  | .Identifier i _, analysis, analysis', e, h => by
    simp only [SemanticAnalysis.analyzePrimaryExpression] at h
    exact SemanticAnalysis.analyzeIdentifier_ok i analysis analysis' e h
  | .Parenthesized _ a _ _, analysis, analysis', e, h => by
    simp only [SemanticAnalysis.analyzePrimaryExpression] at h
    exact SemanticAnalysis.analyzeAdditiveExpression_ok a analysis analysis' e h

end

end analysis

end pljit

namespace pljit

namespace analysis

open common ast

/-- A statement accepted by the analysis: the symbol table is unchanged, the
identifiers of the statement are in range, its expression reads initialised
variables only, a variable is added to the set of initialised variables only
as the target of the statement, and the return flag is raised only by a
return statement. -/
theorem SemanticAnalysis.analyzeStatement_ok (node : parse_tree.Statement)
    (analysis analysis' : SemanticAnalysis) (stmt : Statement)
    (h : SemanticAnalysis.analyzeStatement node analysis = .ok stmt analysis') :
    analysis'.symbolTable = analysis.symbolTable ∧
    (analysis.symbolTable.Valid → stmt.idsInRange analysis.symbolTable = true) ∧
    (∀ id, (IdentifierType.Variable, id) ∈ stmt.getExpression.reads →
      id ∈ analysis.initializedVariables) ∧
    (∀ id ∈ analysis'.initializedVariables, id ∈ analysis.initializedVariables ∨
      ∃ e, stmt = Statement.AssignmentStatement { identifierType := .Variable, id := id } e) ∧
    (analysis'.containsReturnStatement = true →
      analysis.containsReturnStatement = true ∨ stmt.isReturnStatement = true) := by
  cases node with
  | ReturnStatement kw a ref =>
    simp only [SemanticAnalysis.analyzeStatement, AnalysisResult.bind] at h
    split at h
    · rename_i e an1 h1
      obtain ⟨rfl, hacc⟩ := SemanticAnalysis.analyzeAdditiveExpression_ok a _ an1 e h1
      simp only [AnalysisResult.ok.injEq] at h
      obtain ⟨rfl, rfl⟩ := h
      refine ⟨rfl, ?_, ?_, ?_, ?_⟩
      · intro hvalid
        exact hacc.1 hvalid
      · intro id hid
        exact hacc.2 id hid
      · intro id hid
        exact Or.inl hid
      · intro _
        exact Or.inr rfl
    · simp only [reduceCtorEq] at h
    · simp only [reduceCtorEq] at h
  | AssignmentStatement ae ref =>
    simp only [SemanticAnalysis.analyzeStatement, AnalysisResult.bind] at h
    split at h
    · rename_i e an1 h1
      obtain ⟨rfl, hacc⟩ := SemanticAnalysis.analyzeAdditiveExpression_ok _ analysis an1 e h1
      split at h
      · simp only [reduceCtorEq] at h
      · rename_i entry hlook
        split at h
        · simp only [reduceCtorEq] at h
        · rename_i hnotconst
          simp only [AnalysisResult.ok.injEq] at h
          obtain ⟨rfl, rfl⟩ := h
          refine ⟨?_, ?_, ?_, ?_, ?_⟩
          · split <;> rfl
          · intro hvalid
            simp only [Statement.idsInRange, Bool.and_eq_true, decide_eq_true_eq]
            exact ⟨⟨hnotconst, hvalid.2.2.2 _ _ hlook⟩, hacc.1 hvalid⟩
          · intro id hid
            exact hacc.2 id hid
          · intro id hid
            split at hid
            · rename_i hvar
              simp only at hid
              split at hid
              · exact Or.inl hid
              · rcases List.mem_cons.mp hid with rfl | hid
                · right
                  refine ⟨e, ?_⟩
                  rw [← hvar]
                · exact Or.inl hid
            · exact Or.inl hid
          · intro hret
            left
            split at hret <;> exact hret
    · simp only [reduceCtorEq] at h
    · simp only [reduceCtorEq] at h

/-- Appending an accepted statement keeps the loop invariant. -/
theorem SemanticAnalysis.collected_append (analysis analysis' : SemanticAnalysis)
    (statements : List Statement) (stmt : Statement)
    (hvalid : analysis.symbolTable.Valid)
    (hinv : analysis.Collected statements)
    (htable : analysis'.symbolTable = analysis.symbolTable)
    (hrange : analysis.symbolTable.Valid → stmt.idsInRange analysis.symbolTable = true)
    (hreads : ∀ id, (IdentifierType.Variable, id) ∈ stmt.getExpression.reads →
      id ∈ analysis.initializedVariables)
    (hinit : ∀ id ∈ analysis'.initializedVariables, id ∈ analysis.initializedVariables ∨
      ∃ e, stmt = Statement.AssignmentStatement { identifierType := .Variable, id := id } e)
    (hret : analysis'.containsReturnStatement = true →
      analysis.containsReturnStatement = true ∨ stmt.isReturnStatement = true) :
    analysis'.Collected (statements ++ [stmt]) := by
  obtain ⟨h1, h2, h3, h4⟩ := hinv
  refine ⟨?_, ?_, ?_, ?_⟩
  · intro s hs
    rw [htable]
    rcases List.mem_append.mp hs with hs | hs
    · exact h1 s hs
    · simp only [List.mem_singleton] at hs
      rw [hs]
      exact hrange hvalid
  · intro i s hi id hid
    by_cases hlt : i < statements.length
    · rw [List.getElem?_append_left hlt] at hi
      obtain ⟨j, e, hj, hje⟩ := h2 i s hi id hid
      refine ⟨j, e, hj, ?_⟩
      rw [List.getElem?_append_left (by omega)]
      exact hje
    · have hge : statements.length ≤ i := by omega
      rw [List.getElem?_append_right hge] at hi
      have hi0 : i - statements.length = 0 := by
        by_contra hne
        have : ([stmt] : List Statement)[i - statements.length]? = none := by
          apply List.getElem?_eq_none
          simp only [List.length_singleton]
          omega
        rw [this] at hi
        cases hi
      rw [hi0] at hi
      simp only [List.getElem?_cons_zero, Option.some.injEq] at hi
      subst hi
      obtain ⟨j, e, hje⟩ := h3 id (hreads id hid)
      have hjlt : j < statements.length := by
        by_contra hnot
        rw [List.getElem?_eq_none (by omega)] at hje
        cases hje
      refine ⟨j, e, by omega, ?_⟩
      rw [List.getElem?_append_left hjlt]
      exact hje
  · intro id hid
    rcases hinit id hid with hold | ⟨e, he⟩
    · obtain ⟨j, e, hje⟩ := h3 id hold
      have hjlt : j < statements.length := by
        by_contra hnot
        rw [List.getElem?_eq_none (by omega)] at hje
        cases hje
      refine ⟨j, e, ?_⟩
      rw [List.getElem?_append_left hjlt]
      exact hje
    · refine ⟨statements.length, e, ?_⟩
      rw [List.getElem?_append_right (Nat.le_refl _)]
      simp only [Nat.sub_self, List.getElem?_cons_zero, he]
  · intro hr
    rcases hret hr with hold | hnew
    · obtain ⟨s, hs, hsr⟩ := h4 hold
      exact ⟨s, List.mem_append_left _ hs, hsr⟩
    · exact ⟨stmt, List.mem_append_right _ (List.mem_singleton_self _), hnew⟩

/-- The loop of `analyzeStatements` keeps the symbol table and the loop
invariant. -/
theorem SemanticAnalysis.analyzeStatementsLoop_collected
    (children : List parse_tree.StatementListChild) :
    ∀ (collected statements : List Statement) (analysis analysis' : SemanticAnalysis),
      analysis.symbolTable.Valid → analysis.Collected collected →
      SemanticAnalysis.analyzeStatementsLoop children collected analysis =
        .ok (some statements, analysis') →
      analysis'.symbolTable = analysis.symbolTable ∧ analysis'.Collected statements := by
  induction children with
  | nil =>
    intro collected statements analysis analysis' _ hinv h
    simp only [SemanticAnalysis.analyzeStatementsLoop, Except.ok.injEq, Prod.mk.injEq,
      Option.some.injEq] at h
    obtain ⟨rfl, rfl⟩ := h
    exact ⟨rfl, hinv⟩
  | cons child rest ih =>
    intro collected statements analysis analysis' hvalid hinv h
    cases child with
    | GenericToken token =>
      simp only [SemanticAnalysis.analyzeStatementsLoop] at h
      split at h
      · exact ih collected statements analysis analysis' hvalid hinv h
      · simp only [reduceCtorEq] at h
    | Statement statement =>
      simp only [SemanticAnalysis.analyzeStatementsLoop] at h
      split at h
      · simp only [reduceCtorEq] at h
      · simp only [Except.ok.injEq, Prod.mk.injEq, reduceCtorEq, false_and] at h
      · rename_i stmt an1 hstmt
        obtain ⟨htable, hrange, hreads, hinit, hret⟩ :=
          SemanticAnalysis.analyzeStatement_ok statement analysis an1 stmt hstmt
        have hinv1 := SemanticAnalysis.collected_append analysis an1 collected stmt
          hvalid hinv htable hrange hreads hinit hret
        have hvalid1 : an1.symbolTable.Valid := by rw [htable]; exact hvalid
        obtain ⟨ht, hc⟩ := ih (collected ++ [stmt]) statements an1 analysis' hvalid1 hinv1 h
        exact ⟨by rw [ht, htable], hc⟩

/-- Well-formedness of the result of the semantic analysis started on a
fresh state: the symbol table is consistent, the identifiers of all
statements are in range, variables are initialised before use and there is
a return statement. -/
theorem SemanticAnalysis.analyzeFunction_wellFormed (node : parse_tree.FunctionDefinition)
    (manager : SourceCodeManager) (function : Function) (analysis : SemanticAnalysis)
    (h : SemanticAnalysis.analyzeFunction node { sourceCodeManager := manager } =
      .ok function analysis) :
    analysis.symbolTable.Valid ∧
    (∀ stmt ∈ function.statements, stmt.idsInRange analysis.symbolTable = true) ∧
    InitializedBeforeUse function.statements ∧
    (∃ stmt ∈ function.statements, stmt.isReturnStatement = true) := by
  simp only [SemanticAnalysis.analyzeFunction] at h
  have h0 : ({ sourceCodeManager := manager } : SemanticAnalysis).symbolTable.Valid ∧
      ({ sourceCodeManager := manager } : SemanticAnalysis).initializedVariables = [] ∧
      ({ sourceCodeManager := manager } : SemanticAnalysis).containsReturnStatement =
        false := ⟨SymbolTable.valid_empty, rfl, rfl⟩
  split at h
  · simp only [reduceCtorEq] at h
  · simp only [reduceCtorEq] at h
  · rename_i an1 hreg1
    have h1 : an1.symbolTable.Valid ∧ an1.initializedVariables = [] ∧
        an1.containsReturnStatement = false := by
      cases hsection : node.parameterDeclarations with
      | none =>
        simp only [hsection, Except.ok.injEq, Prod.mk.injEq, true_and] at hreg1
        rw [← hreg1]
        exact h0
      | some declarations =>
        simp only [hsection] at hreg1
        obtain ⟨r1, r2, r3⟩ := SemanticAnalysis.registerDeclaratorList_valid _ _ _ an1 true
          h0.1 hreg1
        exact ⟨r1, by rw [r2, h0.2.1], by rw [r3, h0.2.2]⟩
    split at h
    · simp only [reduceCtorEq] at h
    · simp only [reduceCtorEq] at h
    · rename_i an2 hreg2
      have h2 : an2.symbolTable.Valid ∧ an2.initializedVariables = [] ∧
          an2.containsReturnStatement = false := by
        cases hsection : node.variableDeclarations with
        | none =>
          simp only [hsection, Except.ok.injEq, Prod.mk.injEq, true_and] at hreg2
          rw [← hreg2]
          exact h1
        | some declarations =>
          simp only [hsection] at hreg2
          obtain ⟨r1, r2, r3⟩ := SemanticAnalysis.registerDeclaratorList_valid _ _ _ an2 true
            h1.1 hreg2
          exact ⟨r1, by rw [r2, h1.2.1], by rw [r3, h1.2.2]⟩
      split at h
      · simp only [reduceCtorEq] at h
      · simp only [reduceCtorEq] at h
      · rename_i an3 hreg3
        have h3 : an3.symbolTable.Valid ∧ an3.initializedVariables = [] ∧
            an3.containsReturnStatement = false := by
          cases hsection : node.constantDeclarations with
          | none =>
            simp only [hsection, Except.ok.injEq, Prod.mk.injEq, true_and] at hreg3
            rw [← hreg3]
            exact h2
          | some declarations =>
            simp only [hsection] at hreg3
            obtain ⟨r1, r2, r3⟩ := SemanticAnalysis.registerInitDeclarators_valid _ _ an3 true
              h2.1 hreg3
            exact ⟨r1, by rw [r2, h2.2.1], by rw [r3, h2.2.2]⟩
        split at h
        · simp only [reduceCtorEq] at h
        · rename_i statements an4 hstmts
          split at h
          · simp only [reduceCtorEq] at h
          · split at h
            · simp only [reduceCtorEq] at h
            · rename_i hnotempty hret
              simp only [AnalysisResult.ok.injEq] at h
              obtain ⟨rfl, rfl⟩ := h
              simp only [SemanticAnalysis.analyzeStatements] at hstmts
              split at hstmts
              · simp only [reduceCtorEq] at hstmts
              · simp only [Except.ok.injEq, Prod.mk.injEq] at hstmts
                obtain ⟨rfl, rfl⟩ := hstmts
                simp at hnotempty
              · rename_i collected an5 hloop
                split at hstmts
                · simp only [Except.ok.injEq, Prod.mk.injEq] at hstmts
                  obtain ⟨rfl, rfl⟩ := hstmts
                  have hempty : an3.Collected [] := by
                    refine ⟨?_, ?_, ?_, ?_⟩
                    · intro s hs; cases hs
                    · intro i s hi; simp at hi
                    · intro id hid; rw [h3.2.1] at hid; cases hid
                    · intro hc; rw [h3.2.2] at hc; cases hc
                  obtain ⟨htable, hc1, hc2, _, hc4⟩ :=
                    SemanticAnalysis.analyzeStatementsLoop_collected _ [] collected an3 an5
                      h3.1 hempty hloop
                  refine ⟨by rw [htable]; exact h3.1, hc1, hc2, ?_⟩
                  apply hc4
                  simpa using hret
                · simp only [reduceCtorEq] at hstmts

end analysis

end pljit

namespace pljit

namespace ast

open exec

/-- An expression with ids in range evaluates without assertion failure and
without access outside a vector in a context that fits the symbol table: the
evaluation returns, or it stops in the division of the smallest value by
-1. -/
theorem Expression.evaluate_total (table : analysis.SymbolTable) (e : Expression) :
    ∀ context : ExecutionContext, context.Fits table → e.idsInRange table = true →
      (∃ value context', e.evaluate context = .ok (value, context') ∧ context'.Fits table) ∨
        e.evaluate context = .error .divisionOverflow := by
  induction e with
  | ConstantLiteral v =>
    intro context hfit _
    exact Or.inl ⟨v, context, rfl, hfit⟩
  | Identifier ty id =>
    intro context hfit hrange
    simp only [Expression.idsInRange, decide_eq_true_eq] at hrange
    obtain ⟨hst, hp, hv⟩ := hfit
    left
    cases ty with
    | Parameter =>
      have hlt : id < context.parameterValues.length := by rw [hp]; exact hrange
      refine ⟨context.parameterValues[id], context, ?_, hst, hp, hv⟩
      simp only [Expression.evaluate, List.getElem?_eq_getElem hlt]
    | Variable =>
      have hlt : id < context.variableValues.length := by rw [hv]; exact hrange
      refine ⟨context.variableValues[id], context, ?_, hst, hp, hv⟩
      simp only [Expression.evaluate, List.getElem?_eq_getElem hlt]
    | Constant =>
      have hlt : id < context.symbolTable.constantValues.length := by
        rw [hst]; exact hrange
      refine ⟨context.symbolTable.constantValues[id], context, ?_, hst, hp, hv⟩
      simp only [Expression.evaluate, analysis.SymbolTable.getConstantValue,
        List.getElem?_eq_getElem hlt]
  | UnaryOp ty e ih =>
    intro context hfit hrange
    simp only [Expression.idsInRange] at hrange
    rcases ih context hfit hrange with ⟨v, c, hev, hfit'⟩ | hev
    swap
    · right
      simp only [Expression.evaluate, hev]
    left
    simp only [Expression.evaluate, hev]
    by_cases hc : c.hasError = true
    · exact ⟨0, c, by simp only [hc, if_true], hfit'⟩
    · have hc' : c.hasError = false := by simpa using hc
      simp only [hc', Bool.false_eq_true, if_false]
      cases ty with
      | MinusSign => exact ⟨_, c, rfl, hfit'⟩
      | PlusSign => exact ⟨_, c, rfl, hfit'⟩
  | BinaryOp l op r ihl ihr =>
    intro context hfit hrange
    simp only [Expression.idsInRange, Bool.and_eq_true] at hrange
    rcases ihl context hfit hrange.1 with ⟨lv, c1, hev1, hfit1⟩ | hev1
    swap
    · right
      simp only [Expression.evaluate, hev1]
    by_cases hc1 : c1.hasError = true
    · left
      simp only [Expression.evaluate, hev1]
      exact ⟨0, c1, by simp only [hc1, if_true], hfit1⟩
    · have hc1' : c1.hasError = false := by simpa using hc1
      rcases ihr c1 hfit1 hrange.2 with ⟨rv, c2, hev2, hfit2⟩ | hev2
      swap
      · right
        simp only [Expression.evaluate, hev1, hc1', Bool.false_eq_true, if_false, hev2]
      by_cases hc2 : c2.hasError = true
      · left
        simp only [Expression.evaluate, hev1, hc1', Bool.false_eq_true, if_false, hev2]
        exact ⟨0, c2, by simp only [hc2, if_true], hfit2⟩
      · have hc2' : c2.hasError = false := by simpa using hc2
        cases op with
        | Add =>
          left
          simp only [Expression.evaluate, hev1, hc1', Bool.false_eq_true, if_false, hev2, hc2']
          exact ⟨_, c2, rfl, hfit2⟩
        | Sub =>
          left
          simp only [Expression.evaluate, hev1, hc1', Bool.false_eq_true, if_false, hev2, hc2']
          exact ⟨_, c2, rfl, hfit2⟩
        | Mul =>
          left
          simp only [Expression.evaluate, hev1, hc1', Bool.false_eq_true, if_false, hev2, hc2']
          exact ⟨_, c2, rfl, hfit2⟩
        | Div =>
          by_cases hz : rv = 0
          · left
            simp only [Expression.evaluate, hev1, hc1', Bool.false_eq_true, if_false, hev2,
              hc2', hz, if_true]
            exact ⟨0, _, rfl, hfit2⟩
          · by_cases hover : divisionOverflows lv rv = true
            · right
              simp only [Expression.evaluate, hev1, hc1', Bool.false_eq_true, if_false, hev2,
                hc2', hz, hover, if_true]
            · left
              simp only [Expression.evaluate, hev1, hc1', Bool.false_eq_true, if_false, hev2,
                hc2', hz, hover]
              exact ⟨_, c2, rfl, hfit2⟩

/-- A statement with ids in range executes without assertion failure and
without access outside a vector in a context that fits the symbol table: the
execution returns a context that fits the table, or it stops in the
division of the smallest value by -1. -/
theorem Statement.execute_total (table : analysis.SymbolTable) (stmt : Statement)
    (context : ExecutionContext) (hfit : context.Fits table)
    (hrange : stmt.idsInRange table = true) :
    (∃ context', stmt.execute context = .ok context' ∧ context'.Fits table) ∨
      stmt.execute context = .error .divisionOverflow := by
  cases stmt with
  | ReturnStatement e =>
    simp only [Statement.idsInRange] at hrange
    rcases Expression.evaluate_total table e context hfit hrange with
      ⟨v, c, hev, hfit'⟩ | hev
    swap
    · right
      simp only [Statement.execute, hev]
    left
    simp only [Statement.execute, hev]
    by_cases hc : c.hasError = true
    · exact ⟨c, by simp only [hc, Bool.not_true, Bool.false_eq_true, if_false], hfit'⟩
    · have hc' : c.hasError = false := by simpa using hc
      simp only [hc', Bool.not_false, if_true]
      exact ⟨_, rfl, hfit'⟩
  | AssignmentStatement target e =>
    simp only [Statement.idsInRange, Bool.and_eq_true, decide_eq_true_eq] at hrange
    obtain ⟨⟨hnc, hid⟩, hre⟩ := hrange
    rcases Expression.evaluate_total table e context hfit hre with ⟨v, c, hev, hfit'⟩ | hev
    swap
    · right
      simp only [Statement.execute, hev]
    left
    simp only [Statement.execute, hev]
    by_cases hc : c.hasError = true
    · exact ⟨c, by simp only [hc, Bool.not_true, Bool.false_eq_true, if_false], hfit'⟩
    · have hc' : c.hasError = false := by simpa using hc
      simp only [hc', Bool.not_false, if_true]
      obtain ⟨hst, hp, hv⟩ := hfit'
      obtain ⟨ty, id⟩ := target
      cases ty with
      | Constant => exact absurd rfl hnc
      | Variable =>
        have hlt : id < c.variableValues.length := by rw [hv]; exact hid
        simp only [hlt, if_true]
        refine ⟨_, rfl, hst, hp, ?_⟩
        simp only [List.length_set]
        exact hv
      | Parameter =>
        have hlt : id < c.parameterValues.length := by rw [hp]; exact hid
        simp only [hlt, if_true]
        refine ⟨_, rfl, hst, ?_, hv⟩
        simp only [List.length_set]
        exact hp

/-- A statement list with ids in range executes without assertion failure
and without access outside a vector in a context that fits the symbol
table: the execution returns, or it stops in the division of the smallest
value by -1. -/
theorem executeStatements_total (table : analysis.SymbolTable) (statements : List Statement) :
    ∀ context : ExecutionContext, context.Fits table →
      (∀ stmt ∈ statements, stmt.idsInRange table = true) →
      (∃ context', executeStatements statements context = .ok context') ∨
        executeStatements statements context = .error .divisionOverflow := by
  induction statements with
  | nil =>
    intro context _ _
    exact Or.inl ⟨context, rfl⟩
  | cons stmt rest ih =>
    intro context hfit hrange
    rcases Statement.execute_total table stmt context hfit
      (hrange stmt (List.mem_cons_self _ _)) with ⟨c, hexec, hfit'⟩ | hexec
    swap
    · right
      simp only [executeStatements, hexec]
    by_cases hc : c.hasError = true
    · left
      simp only [executeStatements, hexec]
      exact ⟨c, by simp only [hc, if_true]⟩
    · have hc' : c.hasError = false := by simpa using hc
      by_cases hr : stmt.isReturnStatement = true
      · left
        simp only [executeStatements, hexec, hc', Bool.false_eq_true, if_false]
        exact ⟨c, by simp only [hr, if_true]⟩
      · have hr' : stmt.isReturnStatement = false := by simpa using hr
        simp only [executeStatements, hexec, hc', hr', Bool.false_eq_true, if_false]
        exact ih c hfit' (fun s hs => hrange s (List.mem_cons_of_mem _ hs))

/-- The initial execution context fits the symbol table when there is one
argument per parameter. -/
theorem ExecutionContext.new_fits (table : analysis.SymbolTable) (parameters : List Int)
    (h : parameters.length = table.getNumberOfParameters) :
    (ExecutionContext.new parameters table).Fits table := by
  refine ⟨rfl, ?_, ?_⟩
  · simpa [ExecutionContext.new, analysis.SymbolTable.size,
      analysis.SymbolTable.getNumberOfParameters] using h
  · simp [ExecutionContext.new, analysis.SymbolTable.size,
      analysis.SymbolTable.getNumberOfVariables]

end ast

namespace optim

open ast exec

/-- Constant propagation visits an expression with ids in range without
assertion failure and without access outside a vector: the visit returns
and keeps the symbol table, or it stops in the division of the smallest
value by -1. -/
theorem ConstantPropagation.visitExpression_total (e : Expression) :
    ∀ pass : ConstantPropagation, e.idsInRange pass.symbolTable = true →
      (∃ e' pass', ConstantPropagation.visitExpression e pass = .ok (e', pass') ∧
        pass'.symbolTable = pass.symbolTable) ∨
      ConstantPropagation.visitExpression e pass = .error .divisionOverflow := by
  induction e with
  | ConstantLiteral v =>
    intro pass _
    exact Or.inl ⟨_, _, rfl, rfl⟩
  | Identifier ty id =>
    intro pass hrange
    simp only [Expression.idsInRange, decide_eq_true_eq] at hrange
    left
    simp only [ConstantPropagation.visitExpression_identifier]
    by_cases hty : ty = .Constant
    · subst hty
      have hlt : id < pass.symbolTable.constantValues.length := hrange
      simp only [if_true, analysis.SymbolTable.getConstantValue,
        List.getElem?_eq_getElem hlt]
      exact ⟨_, _, rfl, rfl⟩
    · simp only [hty, if_false, constructKey]
      split
      · split
        · exact ⟨_, _, rfl, rfl⟩
        · exact ⟨_, _, rfl, rfl⟩
      · exact ⟨_, _, rfl, rfl⟩
  | UnaryOp ty e ih =>
    intro pass hrange
    simp only [Expression.idsInRange] at hrange
    rcases ih pass hrange with ⟨e1, p1, hv, hs⟩ | hv
    swap
    · right
      simp only [ConstantPropagation.visitExpression_unaryOp, hv]
    left
    simp only [ConstantPropagation.visitExpression_unaryOp, hv]
    split
    · split
      · exact ⟨_, _, rfl, hs⟩
      · exact ⟨_, _, rfl, hs⟩
    · exact ⟨_, _, rfl, hs⟩
  | BinaryOp l op r ihl ihr =>
    intro pass hrange
    simp only [Expression.idsInRange, Bool.and_eq_true] at hrange
    rcases ihl pass hrange.1 with ⟨l1, p1, hv1, hs1⟩ | hv1
    swap
    · right
      simp only [ConstantPropagation.visitExpression_binaryOp, hv1]
    rcases ihr { p1 with constantResultFromLastCall := none }
      (by simp only [hs1]; exact hrange.2) with ⟨r1, p2, hv2, hs2⟩ | hv2
    swap
    · right
      simp only [ConstantPropagation.visitExpression_binaryOp, hv1, hv2]
    have hs : p2.symbolTable = pass.symbolTable := by rw [hs2]; exact hs1
    simp only [ConstantPropagation.visitExpression_binaryOp, hv1, hv2]
    split
    · cases op with
      | Add => exact Or.inl ⟨_, _, rfl, hs⟩
      | Sub => exact Or.inl ⟨_, _, rfl, hs⟩
      | Mul => exact Or.inl ⟨_, _, rfl, hs⟩
      | Div =>
        simp only
        split
        · exact Or.inl ⟨_, _, rfl, hs⟩
        · split
          · exact Or.inr rfl
          · exact Or.inl ⟨_, _, rfl, hs⟩
    · exact Or.inl ⟨_, _, rfl, hs⟩
    · exact Or.inl ⟨_, _, rfl, hs⟩
    · exact Or.inl ⟨_, _, rfl, hs⟩

/-- Constant propagation visits a statement with ids in range without
assertion failure and without access outside a vector: the visit returns
and keeps the symbol table, or it stops in the division of the smallest
value by -1. -/
theorem ConstantPropagation.visitStatement_total (stmt : Statement)
    (pass : ConstantPropagation) (hstmt : stmt.idsInRange pass.symbolTable = true) :
    (∃ stmt' pass', ConstantPropagation.visitStatement stmt pass = .ok (stmt', pass') ∧
      pass'.symbolTable = pass.symbolTable) ∨
    ConstantPropagation.visitStatement stmt pass = .error .divisionOverflow := by
  cases stmt with
  | ReturnStatement e =>
    simp only [Statement.idsInRange] at hstmt
    rcases ConstantPropagation.visitExpression_total e pass hstmt with
      ⟨e1, p1, hv, hs⟩ | hv
    swap
    · right
      simp only [ConstantPropagation.visitStatement_return, hv]
    left
    simp only [ConstantPropagation.visitStatement_return, hv]
    split
    · exact ⟨_, _, rfl, hs⟩
    · exact ⟨_, _, rfl, hs⟩
  | AssignmentStatement target e =>
    simp only [Statement.idsInRange, Bool.and_eq_true, decide_eq_true_eq] at hstmt
    obtain ⟨⟨hnc, _⟩, hre⟩ := hstmt
    rcases ConstantPropagation.visitExpression_total e pass hre with ⟨e1, p1, hv, hs⟩ | hv
    swap
    · right
      simp only [ConstantPropagation.visitStatement_assignment, constructKey, hnc, if_false,
        hv]
    left
    simp only [ConstantPropagation.visitStatement_assignment, constructKey, hnc, if_false, hv]
    split
    · exact ⟨_, _, rfl, hs⟩
    · exact ⟨_, _, rfl, hs⟩

/-- Constant propagation visits a statement list with ids in range without
assertion failure and without access outside a vector: the loop returns,
or it stops in the division of the smallest value by -1. -/
theorem ConstantPropagation.visitStatements_total (statements : List Statement) :
    ∀ pass : ConstantPropagation,
      (∀ stmt ∈ statements, stmt.idsInRange pass.symbolTable = true) →
      (∃ statements' pass',
        ConstantPropagation.visitStatements statements pass = .ok (statements', pass')) ∨
      ConstantPropagation.visitStatements statements pass = .error .divisionOverflow := by
  induction statements with
  | nil =>
    intro pass _
    exact Or.inl ⟨[], pass, rfl⟩
  | cons stmt rest ih =>
    intro pass hrange
    rcases ConstantPropagation.visitStatement_total stmt pass
      (hrange stmt (List.mem_cons_self _ _)) with ⟨stmt1, p1, hvs, hs⟩ | hvs
    swap
    · right
      simp only [ConstantPropagation.visitStatements_cons, hvs]
    rcases ih p1 (by
      intro s hs'
      rw [hs]
      exact hrange s (List.mem_cons_of_mem _ hs')) with ⟨rest1, p2, hvr⟩ | hvr
    · left
      simp only [ConstantPropagation.visitStatements_cons, hvs, hvr]
      exact ⟨_, _, rfl⟩
    · right
      simp only [ConstantPropagation.visitStatements_cons, hvs, hvr]

end optim

end pljit

namespace pljit

open ast exec optim analysis

/-- A successful `parseAndAnalyze` ends with a successful semantic analysis
of some parse tree, started on a fresh state. -/
theorem parseAndAnalyze_ok (code : List Char) (function : Function)
    (symbolTable : SymbolTable)
    (h : parseAndAnalyze code = .ok (some (function, symbolTable))) :
    ∃ node manager analysis,
      SemanticAnalysis.analyzeFunction node { sourceCodeManager := manager } =
        .ok function analysis ∧
      analysis.symbolTable = symbolTable := by
  simp only [parseAndAnalyze] at h
  split at h
  · simp only [reduceCtorEq] at h
  · split at h
    · simp only [reduceCtorEq] at h
    · simp only [Except.ok.injEq, reduceCtorEq] at h
    · rename_i node parser _
      split at h
      · simp only [reduceCtorEq] at h
      · simp only [Except.ok.injEq, reduceCtorEq] at h
      · rename_i fn an han
        simp only [Except.ok.injEq, Option.some.injEq, Prod.mk.injEq] at h
        obtain ⟨rfl, rfl⟩ := h
        exact ⟨node, _, an, han, rfl⟩

/-- The empty variable table agrees with every execution context. -/
theorem consistent_nil (context : ExecutionContext) : Consistent [] context := by
  intro key assignment h
  simp [variableTableFind] at h

/-- The optimisation passes on a function whose identifiers are in range and
that contains a return statement fail no assertion and make no access
outside a vector: they return, or constant propagation stops in the
division of the smallest value by -1.  A function that they return executes
like the original one in every context without error that refers to the
symbol table. -/
theorem optimize_preserves_execution (function : Function) (symbolTable : SymbolTable)
    (hrange : ∀ stmt ∈ function.statements, stmt.idsInRange symbolTable = true)
    (hreturn : ∃ stmt ∈ function.statements, stmt.isReturnStatement = true) :
    ((∃ optimized, optimize function symbolTable = .ok optimized) ∨
      optimize function symbolTable = .error .divisionOverflow) ∧
    ∀ optimized, optimize function symbolTable = .ok optimized →
      ∀ context : ExecutionContext, context.symbolTable = symbolTable →
        context.hasError = false →
        optimized.execute context = function.execute context := by
  obtain ⟨kept, e, removed, hdce, hsplit, _⟩ :=
    DeadCodeElimination.visit_split function hreturn
  have hrange' : ∀ stmt ∈ kept ++ [Statement.ReturnStatement e],
      stmt.idsInRange symbolTable = true := by
    intro s hs
    apply hrange
    rw [hsplit]
    exact List.mem_append_left _ hs
  rcases ConstantPropagation.visitStatements_total (kept ++ [Statement.ReturnStatement e])
      { symbolTable := symbolTable } hrange' with ⟨statements', pass', hcp⟩ | hcp
  · have hoptimize : optimize function symbolTable = .ok { statements := statements' } := by
      simp only [optimize, hdce, ConstantPropagation.visit_function, hcp]
    refine ⟨Or.inl ⟨_, hoptimize⟩, ?_⟩
    intro optimized hoptimized context hst hok
    rw [hoptimize] at hoptimized
    simp only [Except.ok.injEq] at hoptimized
    subst hoptimized
    have hsound := ConstantPropagation.visitStatements_sound _ statements'
      { symbolTable := symbolTable } pass' rfl hcp context hst (consistent_nil context) hok
    simp only [Function.execute]
    rw [hsound, hsplit]
    simp only [List.append_assoc, List.singleton_append]
    exact (executeStatements_append_return kept e removed context).symm
  · have hoptimize : optimize function symbolTable = .error .divisionOverflow := by
      simp only [optimize, hdce, ConstantPropagation.visit_function, hcp]
    refine ⟨Or.inr hoptimize, ?_⟩
    intro optimized hoptimized
    rw [hoptimize] at hoptimized
    cases hoptimized

/-- C1: the claim fails on the source code
`VAR x; BEGIN x := 1/0; RETURN 9223372036854775808 / -1 END.`: the
unoptimised AST executes and leaves the pair `(DivisionByZero, 0)`, because
the execution stops after the first statement, whereas constant propagation
visits the second statement as well and divides the smallest value by -1, a
division that only a zero divisor is tested for; the optimisation and with
it the compilation do not return.  The same holds with literals below `2^63`
(`RETURN 1/0 + (-9223372036854775807 - 1) / -1`).  For every source code that
parses and analyses successfully and every argument vector with one argument
per parameter, the optimisation returns or stops in such a division, and it
fails no assertion; an optimised AST that it returns executes like the
unoptimised AST from the initial execution context: both return the same
execution context, in particular the same `(error, returnValue)` pair, or
both stop in the division of the smallest value by -1.  On the scenario with
dead code and constant folding both return the value -28. -/
theorem C1_optimization_stops_in_division_overflow :
    (parseAndAnalyze scenarioOverflowBehindError).map
        (fun result => result.map (fun (function, symbolTable) =>
          (optimize function symbolTable,
            (function.execute (ExecutionContext.new [] symbolTable)).map
              (fun context => (context.error, context.returnValue))))) =
      .ok (some (.error .divisionOverflow, .ok (.DivisionByZero, 0))) ∧
    (FunctionFrame.new scenarioOverflowBehindError).compile = .error .divisionOverflow ∧
    (parseAndAnalyze scenarioOverflowBehindErrorSmall).map
        (fun result => result.map (fun (function, symbolTable) =>
          (optimize function symbolTable,
            (function.execute (ExecutionContext.new [] symbolTable)).map
              (fun context => (context.error, context.returnValue))))) =
      .ok (some (.error .divisionOverflow, .ok (.DivisionByZero, 0))) ∧
    (∀ (code : List Char) (function : Function) (symbolTable : SymbolTable)
        (parameters : List Int),
      parseAndAnalyze code = .ok (some (function, symbolTable)) →
      parameters.length = symbolTable.getNumberOfParameters →
      ((∃ optimized, optimize function symbolTable = .ok optimized) ∨
        optimize function symbolTable = .error .divisionOverflow) ∧
      ∀ optimized, optimize function symbolTable = .ok optimized →
        optimized.execute (ExecutionContext.new parameters symbolTable) =
          function.execute (ExecutionContext.new parameters symbolTable) ∧
        ((∃ context,
            function.execute (ExecutionContext.new parameters symbolTable) = .ok context ∧
            optimized.execute (ExecutionContext.new parameters symbolTable) = .ok context) ∨
          (function.execute (ExecutionContext.new parameters symbolTable) =
              .error .divisionOverflow ∧
            optimized.execute (ExecutionContext.new parameters symbolTable) =
              .error .divisionOverflow))) ∧
    parseAndAnalyze scenarioDeadCode =
      .ok (some (scenarioDeadCodeFunction, scenarioDeadCodeTable)) ∧
    (optimize scenarioDeadCodeFunction scenarioDeadCodeTable).bind
        (fun optimized =>
          (optimized.execute (ExecutionContext.new [] scenarioDeadCodeTable)).map
            (fun context => (context.error, context.returnValue))) =
      .ok (.NoError, -28) ∧
    (scenarioDeadCodeFunction.execute (ExecutionContext.new [] scenarioDeadCodeTable)).map
        (fun context => (context.error, context.returnValue)) =
      .ok (.NoError, -28) := by
  refine ⟨by decide!, by decide!, by decide!, ?_, by decide!, by decide!, by decide!⟩
  intro code function symbolTable parameters hcompile hparameters
  obtain ⟨node, manager, analysis, han, rfl⟩ := parseAndAnalyze_ok code function _ hcompile
  obtain ⟨_, hrange, _, hreturn⟩ :=
    SemanticAnalysis.analyzeFunction_wellFormed node manager function analysis han
  obtain ⟨htotal, hexec⟩ :=
    optimize_preserves_execution function analysis.symbolTable hrange hreturn
  refine ⟨htotal, ?_⟩
  intro optimized hoptimized
  have hsame := hexec optimized hoptimized
    (ExecutionContext.new parameters analysis.symbolTable) rfl rfl
  refine ⟨hsame, ?_⟩
  rcases executeStatements_total analysis.symbolTable function.statements
    (ExecutionContext.new parameters analysis.symbolTable)
    (ExecutionContext.new_fits _ _ hparameters) hrange with ⟨context, hcontext⟩ | htrap
  · exact Or.inl ⟨context, hcontext, by rw [hsame]; exact hcontext⟩
  · exact Or.inr ⟨htrap, by rw [hsame]; exact htrap⟩

/-- C4: when the semantic analysis of a source code succeeds, every variable
read by the expression of the statement at index `i` of the resulting AST is
the target of an assignment statement at some index `j < i`.  An identifier
that is registered as a parameter or as a constant is accepted wherever it
is read; an identifier registered as a variable is rejected as long as its
id is not in the set of initialised variables, and this set is extended
only after the expression of an assignment was analysed, so that
`x := x + 1` on a not yet assigned `x` is rejected. -/
theorem C4_variables_initialized_before_use (code : List Char) (function : Function)
    (symbolTable : SymbolTable)
    (hcompile : parseAndAnalyze code = .ok (some (function, symbolTable))) :
    (∀ (i : Nat) (stmt : Statement), function.statements[i]? = some stmt →
      ∀ id, (IdentifierType.Variable, id) ∈ stmt.getExpression.reads →
        ∃ (j : Nat) (expression : Expression), j < i ∧
          function.statements[j]? =
            some (Statement.AssignmentStatement
              { identifierType := .Variable, id := id } expression)) ∧
    (∀ (node : parse_tree.Identifier) (analysis : SemanticAnalysis) (entry : SymbolEntry),
      analysis.symbolTable.lookUpSymbol (analysis.text node.ref) = some entry →
      entry.symbolType ≠ .Variable →
      SemanticAnalysis.analyzeIdentifier node analysis =
        .ok (.Identifier entry.symbolType entry.symbolId) analysis) ∧
    (∀ (node : parse_tree.Identifier) (analysis : SemanticAnalysis) (entry : SymbolEntry),
      analysis.symbolTable.lookUpSymbol (analysis.text node.ref) = some entry →
      entry.symbolType = .Variable →
      entry.symbolId ∉ analysis.initializedVariables →
      SemanticAnalysis.analyzeIdentifier node analysis =
        .error (analysis.printContext node.ref "error: use of uninitialized identifier")) ∧
    parseAndAnalyze "VAR x; BEGIN x := x + 1; RETURN x END.".toList = .ok none := by
  obtain ⟨node, manager, analysis, han, _⟩ := parseAndAnalyze_ok code function _ hcompile
  obtain ⟨_, _, hinit, _⟩ :=
    SemanticAnalysis.analyzeFunction_wellFormed node manager function analysis han
  refine ⟨hinit, ?_, ?_, by decide!⟩
  · intro node analysis entry hlook hty
    simp only [SemanticAnalysis.analyzeIdentifier, hlook]
    rw [if_neg]
    intro hcontra
    exact hty hcontra.1
  · intro node analysis entry hlook hty hnot
    simp only [SemanticAnalysis.analyzeIdentifier, hlook]
    rw [if_pos]
    refine ⟨hty, ?_⟩
    simpa using hnot

/-- Witness of C4 on the scenario with dead code and constant folding. -/
theorem C4_variables_initialized_before_use_witness :
    (∀ (i : Nat) (stmt : Statement), scenarioDeadCodeFunction.statements[i]? = some stmt →
      ∀ id, (IdentifierType.Variable, id) ∈ stmt.getExpression.reads →
        ∃ (j : Nat) (expression : Expression), j < i ∧
          scenarioDeadCodeFunction.statements[j]? =
            some (Statement.AssignmentStatement
              { identifierType := .Variable, id := id } expression)) ∧
    (∀ (node : parse_tree.Identifier) (analysis : SemanticAnalysis) (entry : SymbolEntry),
      analysis.symbolTable.lookUpSymbol (analysis.text node.ref) = some entry →
      entry.symbolType ≠ .Variable →
      SemanticAnalysis.analyzeIdentifier node analysis =
        .ok (.Identifier entry.symbolType entry.symbolId) analysis) ∧
    (∀ (node : parse_tree.Identifier) (analysis : SemanticAnalysis) (entry : SymbolEntry),
      analysis.symbolTable.lookUpSymbol (analysis.text node.ref) = some entry →
      entry.symbolType = .Variable →
      entry.symbolId ∉ analysis.initializedVariables →
      SemanticAnalysis.analyzeIdentifier node analysis =
        .error (analysis.printContext node.ref "error: use of uninitialized identifier")) ∧
    parseAndAnalyze "VAR x; BEGIN x := x + 1; RETURN x END.".toList = .ok none :=
  C4_variables_initialized_before_use scenarioDeadCode scenarioDeadCodeFunction
    scenarioDeadCodeTable (by decide!)

end pljit

namespace pljit

open ast exec optim analysis

/-- Outcome of a compilation that returns: either the frame is in the state
`CompileError` and holds neither function nor symbol table, or it is in the
state `Compiled` and holds the symbol table of the semantic analysis and
the optimised AST. -/
theorem FunctionFrame.compile_new (code : List Char) (frame : FunctionFrame)
    (h : (FunctionFrame.new code).compile = .ok frame) :
    (frame.state = .CompileError ∧ frame.function = none ∧ frame.symbolTable = none) ∨
    (frame.state = .Compiled ∧
      ∃ function symbolTable optimized,
        parseAndAnalyze code = .ok (some (function, symbolTable)) ∧
        optimize function symbolTable = .ok optimized ∧
        frame.function = some optimized ∧ frame.symbolTable = some symbolTable) := by
  simp only [FunctionFrame.compile, FunctionFrame.new] at h
  split at h
  · simp only [Except.ok.injEq] at h
    subst h
    exact Or.inl ⟨rfl, rfl, rfl⟩
  · split at h
    · simp only [reduceCtorEq] at h
    · rename_i parser hparser
      split at h
      · simp only [reduceCtorEq] at h
      · simp only [Except.ok.injEq] at h
        subst h
        exact Or.inl ⟨rfl, rfl, rfl⟩
      · rename_i parseTree parser' hparse
        split at h
        · simp only [reduceCtorEq] at h
        · simp only [Except.ok.injEq] at h
          subst h
          exact Or.inl ⟨rfl, rfl, rfl⟩
        · rename_i function analysis hanalysis
          split at h
          · simp only [reduceCtorEq] at h
          · rename_i optimized hopt
            simp only [Option.isSome_none, Bool.false_eq_true, if_false,
              Except.ok.injEq] at h
            subst h
            refine Or.inr ⟨rfl, function, analysis.symbolTable, optimized, ?_, hopt, rfl, rfl⟩
            simp only [parseAndAnalyze, hparser, hparse, hanalysis]

end pljit

namespace pljit

namespace ast

open exec

/-- Evaluation of an expression in a context without error.  When it
returns, it did not divide the smallest value by -1, the error flag
afterwards tells whether a division by zero was evaluated, and without one
the value is the denotation of the expression and the context is unchanged.
When it stops in a division whose quotient is not representable, the
expression divides the smallest value by -1 before a division by zero. -/
theorem Expression.evaluate_denote (e : Expression) :
    ∀ (context : ExecutionContext), context.hasError = false →
      (∀ (value : Int) (context' : ExecutionContext),
        e.evaluate context = .ok (value, context') →
        e.overflows context = false ∧
        context'.hasError = e.dividesByZero context ∧
        (e.dividesByZero context = false →
          value = e.denote context ∧ context' = context)) ∧
      (e.evaluate context = .error .divisionOverflow → e.overflows context = true) := by
  induction e with
  | ConstantLiteral v =>
    intro context hok
    refine ⟨?_, fun h => ?_⟩
    · intro value context' h
      simp only [Expression.evaluate, Except.ok.injEq, Prod.mk.injEq] at h
      obtain ⟨rfl, rfl⟩ := h
      exact ⟨rfl, hok, fun _ => ⟨rfl, rfl⟩⟩
    · simp only [Expression.evaluate, reduceCtorEq] at h
  | Identifier ty id =>
    intro context hok
    cases ty with
    | Parameter =>
      refine ⟨?_, fun h => ?_⟩
      · intro value context' h
        simp only [Expression.evaluate] at h
        split at h
        · rename_i v hv
          simp only [Except.ok.injEq, Prod.mk.injEq] at h
          obtain ⟨rfl, rfl⟩ := h
          refine ⟨rfl, hok, fun _ => ⟨?_, rfl⟩⟩
          simp only [Expression.denote, List.getD_eq_getElem?_getD, hv, Option.getD_some]
        · simp only [reduceCtorEq] at h
      · simp only [Expression.evaluate] at h
        split at h <;> simp only [reduceCtorEq, Except.error.injEq] at h
    | Variable =>
      refine ⟨?_, fun h => ?_⟩
      · intro value context' h
        simp only [Expression.evaluate] at h
        split at h
        · rename_i v hv
          simp only [Except.ok.injEq, Prod.mk.injEq] at h
          obtain ⟨rfl, rfl⟩ := h
          refine ⟨rfl, hok, fun _ => ⟨?_, rfl⟩⟩
          simp only [Expression.denote, List.getD_eq_getElem?_getD, hv, Option.getD_some]
        · simp only [reduceCtorEq] at h
      · simp only [Expression.evaluate] at h
        split at h <;> simp only [reduceCtorEq, Except.error.injEq] at h
    | Constant =>
      refine ⟨?_, fun h => ?_⟩
      · intro value context' h
        simp only [Expression.evaluate, analysis.SymbolTable.getConstantValue] at h
        split at h
        · rename_i v hv
          split at hv
          · rename_i w hw
            simp only [Except.ok.injEq] at hv
            simp only [Except.ok.injEq, Prod.mk.injEq] at h
            obtain ⟨rfl, rfl⟩ := h
            subst hv
            refine ⟨rfl, hok, fun _ => ⟨?_, rfl⟩⟩
            simp only [Expression.denote, List.getD_eq_getElem?_getD, hw, Option.getD_some]
          · simp only [reduceCtorEq] at hv
        · simp only [reduceCtorEq] at h
      · simp only [Expression.evaluate, analysis.SymbolTable.getConstantValue] at h
        split at h
        · simp only [reduceCtorEq] at h
        · rename_i fault hfault
          split at hfault
          · simp only [reduceCtorEq] at hfault
          · simp only [Except.error.injEq] at hfault h
            rw [← hfault] at h
            cases h
  | UnaryOp ty e ih =>
    intro context hok
    obtain ⟨ihok, ihtrap⟩ := ih context hok
    cases hc : e.evaluate context with
    | error fault =>
      refine ⟨?_, fun h => ?_⟩
      · intro value context' h
        simp only [Expression.evaluate, hc, reduceCtorEq] at h
      · simp only [Expression.evaluate, hc, Except.error.injEq] at h
        subst h
        simp only [Expression.overflows]
        exact ihtrap hc
    | ok result =>
      obtain ⟨r, c⟩ := result
      obtain ⟨hover, herr, hval⟩ := ihok r c hc
      refine ⟨?_, fun h => ?_⟩
      · intro value context' h
        simp only [Expression.evaluate, hc] at h
        by_cases hce : c.hasError = true
        · rw [if_pos hce] at h
          simp only [Except.ok.injEq, Prod.mk.injEq] at h
          obtain ⟨_, rfl⟩ := h
          refine ⟨hover, herr, fun hno => ?_⟩
          simp only [Expression.dividesByZero] at hno
          rw [hno] at herr
          rw [herr] at hce
          cases hce
        · rw [if_neg hce] at h
          have hce' : c.hasError = false := by simpa using hce
          have hno : e.dividesByZero context = false := by rw [← herr]; exact hce'
          obtain ⟨rfl, rfl⟩ := hval hno
          cases ty <;> simp only [Except.ok.injEq, Prod.mk.injEq] at h <;>
            obtain ⟨rfl, rfl⟩ := h <;>
            exact ⟨hover, by simp only [Expression.dividesByZero]; exact herr,
              fun _ => ⟨by simp only [Expression.denote], rfl⟩⟩
      · simp only [Expression.evaluate, hc] at h
        split at h
        · simp only [reduceCtorEq] at h
        · cases ty <;> simp only [reduceCtorEq] at h
  | BinaryOp l op r ihl ihr =>
    intro context hok
    obtain ⟨ihlok, ihltrap⟩ := ihl context hok
    cases hc1 : l.evaluate context with
    | error fault =>
      refine ⟨?_, fun h => ?_⟩
      · intro value context' h
        simp only [Expression.evaluate, hc1, reduceCtorEq] at h
      · simp only [Expression.evaluate, hc1, Except.error.injEq] at h
        subst h
        simp only [Expression.overflows, ihltrap hc1, Bool.true_or]
    | ok result1 =>
      obtain ⟨lv, c1⟩ := result1
      obtain ⟨hover1, herr1, hval1⟩ := ihlok lv c1 hc1
      by_cases hce1 : c1.hasError = true
      · have hl : l.dividesByZero context = true := by rw [← herr1]; exact hce1
        refine ⟨?_, fun h => ?_⟩
        · intro value context' h
          simp only [Expression.evaluate, hc1, hce1, if_true, Except.ok.injEq,
            Prod.mk.injEq] at h
          obtain ⟨_, rfl⟩ := h
          refine ⟨?_, ?_, fun hno => ?_⟩
          · simp only [Expression.overflows, hover1, hl, Bool.not_true, Bool.false_and,
              Bool.or_false]
          · simp only [Expression.dividesByZero, hl, Bool.true_or, hce1]
          · simp only [Expression.dividesByZero, hl, Bool.true_or, reduceCtorEq] at hno
        · simp only [Expression.evaluate, hc1, hce1, if_true, reduceCtorEq] at h
      · have hce1' : c1.hasError = false := by simpa using hce1
        have hl : l.dividesByZero context = false := by rw [← herr1]; exact hce1'
        obtain ⟨rfl, rfl⟩ := hval1 hl
        obtain ⟨ihrok, ihrtrap⟩ := ihr c1 hok
        cases hc2 : r.evaluate c1 with
        | error fault =>
          refine ⟨?_, fun h => ?_⟩
          · intro value context' h
            simp only [Expression.evaluate, hc1, hce1', Bool.false_eq_true, if_false, hc2,
              reduceCtorEq] at h
          · simp only [Expression.evaluate, hc1, hce1', Bool.false_eq_true, if_false, hc2,
              Except.error.injEq] at h
            subst h
            simp only [Expression.overflows, hover1, hl, ihrtrap hc2, Bool.not_false,
              Bool.true_or, Bool.and_self, Bool.or_true]
        | ok result2 =>
          obtain ⟨rv, c2⟩ := result2
          obtain ⟨hover2, herr2, hval2⟩ := ihrok rv c2 hc2
          by_cases hce2 : c2.hasError = true
          · have hr : r.dividesByZero c1 = true := by rw [← herr2]; exact hce2
            refine ⟨?_, fun h => ?_⟩
            · intro value context' h
              simp only [Expression.evaluate, hc1, hce1', Bool.false_eq_true, if_false, hc2,
                hce2, if_true, Except.ok.injEq, Prod.mk.injEq] at h
              obtain ⟨_, rfl⟩ := h
              refine ⟨?_, ?_, fun hno => ?_⟩
              · simp only [Expression.overflows, hover1, hl, hover2, hr, Bool.not_true,
                  Bool.not_false, Bool.false_and, Bool.or_false, Bool.and_false]
              · simp only [Expression.dividesByZero, hr, Bool.true_or, Bool.or_true, hce2]
              · simp only [Expression.dividesByZero, hr, Bool.true_or, Bool.or_true,
                  reduceCtorEq] at hno
            · simp only [Expression.evaluate, hc1, hce1', Bool.false_eq_true, if_false, hc2,
                hce2, if_true, reduceCtorEq] at h
          · have hce2' : c2.hasError = false := by simpa using hce2
            have hr : r.dividesByZero c1 = false := by rw [← herr2]; exact hce2'
            obtain ⟨rfl, rfl⟩ := hval2 hr
            have hplain : ∀ binaryOpType : BinaryOpType, binaryOpType ≠ .Div →
                (Expression.BinaryOp l binaryOpType r).overflows c2 = false ∧
                (Expression.BinaryOp l binaryOpType r).dividesByZero c2 = false := by
              intro binaryOpType hne
              refine ⟨?_, ?_⟩
              · simp [Expression.overflows, hover1, hl, hover2, hr, hne]
              · simp [Expression.dividesByZero, hl, hr, hne]
            cases op with
            | Add =>
              obtain ⟨hover, hzero⟩ := hplain .Add (by simp only [ne_eq, reduceCtorEq,
                not_false_eq_true])
              refine ⟨?_, fun h => ?_⟩
              · intro value context' h
                simp only [Expression.evaluate, hc1, hce1', Bool.false_eq_true, if_false, hc2,
                  Except.ok.injEq, Prod.mk.injEq] at h
                obtain ⟨rfl, rfl⟩ := h
                exact ⟨hover, by rw [hzero]; exact hok, fun _ => ⟨by
                  simp only [Expression.denote], rfl⟩⟩
              · simp only [Expression.evaluate, hc1, hce1', Bool.false_eq_true, if_false, hc2,
                  reduceCtorEq] at h
            | Sub =>
              obtain ⟨hover, hzero⟩ := hplain .Sub (by simp only [ne_eq, reduceCtorEq,
                not_false_eq_true])
              refine ⟨?_, fun h => ?_⟩
              · intro value context' h
                simp only [Expression.evaluate, hc1, hce1', Bool.false_eq_true, if_false, hc2,
                  Except.ok.injEq, Prod.mk.injEq] at h
                obtain ⟨rfl, rfl⟩ := h
                exact ⟨hover, by rw [hzero]; exact hok, fun _ => ⟨by
                  simp only [Expression.denote], rfl⟩⟩
              · simp only [Expression.evaluate, hc1, hce1', Bool.false_eq_true, if_false, hc2,
                  reduceCtorEq] at h
            | Mul =>
              obtain ⟨hover, hzero⟩ := hplain .Mul (by simp only [ne_eq, reduceCtorEq,
                not_false_eq_true])
              refine ⟨?_, fun h => ?_⟩
              · intro value context' h
                simp only [Expression.evaluate, hc1, hce1', Bool.false_eq_true, if_false, hc2,
                  Except.ok.injEq, Prod.mk.injEq] at h
                obtain ⟨rfl, rfl⟩ := h
                exact ⟨hover, by rw [hzero]; exact hok, fun _ => ⟨by
                  simp only [Expression.denote], rfl⟩⟩
              · simp only [Expression.evaluate, hc1, hce1', Bool.false_eq_true, if_false, hc2,
                  reduceCtorEq] at h
            | Div =>
              by_cases hz : r.denote c2 = 0
              · refine ⟨?_, fun h => ?_⟩
                · intro value context' h
                  simp only [Expression.evaluate, hc1, hce1', Bool.false_eq_true, if_false,
                    hc2, hz, if_true, Except.ok.injEq, Prod.mk.injEq] at h
                  obtain ⟨rfl, rfl⟩ := h
                  refine ⟨?_, ?_, fun hno => ?_⟩
                  · simp [Expression.overflows, hover1, hl, hover2, hr, hz, divisionOverflows]
                  · simp only [Expression.dividesByZero, hl, hr, Bool.or_false, hz,
                      decide_True, Bool.and_self, Bool.false_or]
                    rfl
                  · simp only [Expression.dividesByZero, hl, hr, Bool.or_false, hz,
                      decide_True, Bool.and_self, Bool.false_or, reduceCtorEq] at hno
                · simp only [Expression.evaluate, hc1, hce1', Bool.false_eq_true, if_false,
                    hc2, hz, if_true, reduceCtorEq] at h
              · by_cases hover : divisionOverflows (l.denote c2) (r.denote c2) = true
                · refine ⟨?_, fun _ => ?_⟩
                  · intro value context' h
                    simp only [Expression.evaluate, hc1, hce1', Bool.false_eq_true, if_false,
                      hc2, hz, hover, if_true, reduceCtorEq] at h
                  · simp only [Expression.overflows, hover1, hl, hover2, hr, hover,
                      Bool.not_false, Bool.false_or, Bool.true_and, decide_True,
                      Bool.and_self]
                · have hover' : divisionOverflows (l.denote c2) (r.denote c2) = false := by
                    simpa using hover
                  refine ⟨?_, fun h => ?_⟩
                  · intro value context' h
                    simp only [Expression.evaluate, hc1, hce1', Bool.false_eq_true, if_false,
                      hc2, hz, hover', Except.ok.injEq, Prod.mk.injEq] at h
                    obtain ⟨rfl, rfl⟩ := h
                    refine ⟨?_, ?_, fun _ => ⟨?_, rfl⟩⟩
                    · simp only [Expression.overflows, hover1, hl, hover2, hr, hover',
                        Bool.not_false, Bool.false_or, Bool.true_and, decide_True,
                        Bool.and_false]
                    · simp only [Expression.dividesByZero, hl, hr, Bool.or_false, hz,
                        decide_True, decide_False, Bool.and_false]
                      exact hok
                    · simp only [Expression.denote, hz, if_false]
                  · simp only [Expression.evaluate, hc1, hce1', Bool.false_eq_true, if_false,
                      hc2, hz, hover', reduceCtorEq] at h

/-- Storing a value by a statement does not touch the error flag. -/
theorem Statement.store_hasError (stmt : Statement) (value : Int)
    (context : ExecutionContext) :
    (stmt.store value context).hasError = context.hasError := by
  cases stmt with
  | AssignmentStatement target e =>
    simp only [Statement.store]
    cases target.identifierType <;> rfl
  | ReturnStatement e => rfl

/-- Execution of a statement in a context without error.  When it returns,
its expression did not divide the smallest value by -1, the error flag
afterwards tells whether a division by zero was evaluated, and without one
the statement stored the denotation of its expression.  When it stops in a
division whose quotient is not representable, its expression divides the
smallest value by -1 before a division by zero. -/
theorem Statement.execute_denote (stmt : Statement) (context : ExecutionContext)
    (hok : context.hasError = false) :
    (∀ context' : ExecutionContext, stmt.execute context = .ok context' →
      stmt.getExpression.overflows context = false ∧
      context'.hasError = stmt.getExpression.dividesByZero context ∧
      (stmt.getExpression.dividesByZero context = false →
        context' = stmt.store (stmt.getExpression.denote context) context)) ∧
    (stmt.execute context = .error .divisionOverflow →
      stmt.getExpression.overflows context = true) := by
  cases stmt with
  | AssignmentStatement target e =>
    obtain ⟨ihok, ihtrap⟩ := Expression.evaluate_denote e context hok
    simp only [Statement.getExpression]
    cases hc : e.evaluate context with
    | error fault =>
      refine ⟨?_, fun h => ?_⟩
      · intro context' h
        simp only [Statement.execute, hc, reduceCtorEq] at h
      · simp only [Statement.execute, hc, Except.error.injEq] at h
        subst h
        exact ihtrap hc
    | ok result =>
      obtain ⟨v, c⟩ := result
      obtain ⟨hover, herr, hval⟩ := ihok v c hc
      by_cases hce : c.hasError = true
      · refine ⟨?_, fun h => ?_⟩
        · intro context' h
          simp only [Statement.execute, hc, hce, Bool.not_true, Bool.false_eq_true, if_false,
            Except.ok.injEq] at h
          subst h
          refine ⟨hover, herr, fun hno => ?_⟩
          rw [hno] at herr
          rw [herr] at hce
          cases hce
        · simp only [Statement.execute, hc, hce, Bool.not_true, Bool.false_eq_true, if_false,
            reduceCtorEq] at h
      · have hce' : c.hasError = false := by simpa using hce
        have hno : e.dividesByZero context = false := by rw [← herr]; exact hce'
        obtain ⟨hv, hceq⟩ := hval hno
        subst hceq
        subst hv
        refine ⟨?_, fun h => ?_⟩
        · intro context' h
          simp only [Statement.execute, hc, hce', Bool.not_false, if_true] at h
          simp only [Statement.store]
          cases hty : target.identifierType with
          | Variable =>
            simp only [hty] at h
            split at h
            · simp only [Except.ok.injEq] at h
              subst h
              exact ⟨hover, by rw [hno]; exact hok, fun _ => rfl⟩
            · simp only [reduceCtorEq] at h
          | Parameter =>
            simp only [hty] at h
            split at h
            · simp only [Except.ok.injEq] at h
              subst h
              exact ⟨hover, by rw [hno]; exact hok, fun _ => rfl⟩
            · simp only [reduceCtorEq] at h
          | Constant =>
            simp only [hty, reduceCtorEq] at h
        · simp only [Statement.execute, hc, hce', Bool.not_false, if_true] at h
          cases hty : target.identifierType with
          | Variable =>
            simp only [hty] at h
            split at h <;> simp only [reduceCtorEq, Except.error.injEq] at h
          | Parameter =>
            simp only [hty] at h
            split at h <;> simp only [reduceCtorEq, Except.error.injEq] at h
          | Constant =>
            simp only [hty, reduceCtorEq, Except.error.injEq] at h
  | ReturnStatement e =>
    obtain ⟨ihok, ihtrap⟩ := Expression.evaluate_denote e context hok
    simp only [Statement.getExpression]
    cases hc : e.evaluate context with
    | error fault =>
      refine ⟨?_, fun h => ?_⟩
      · intro context' h
        simp only [Statement.execute, hc, reduceCtorEq] at h
      · simp only [Statement.execute, hc, Except.error.injEq] at h
        subst h
        exact ihtrap hc
    | ok result =>
      obtain ⟨v, c⟩ := result
      obtain ⟨hover, herr, hval⟩ := ihok v c hc
      by_cases hce : c.hasError = true
      · refine ⟨?_, fun h => ?_⟩
        · intro context' h
          simp only [Statement.execute, hc, hce, Bool.not_true, Bool.false_eq_true, if_false,
            Except.ok.injEq] at h
          subst h
          refine ⟨hover, herr, fun hno => ?_⟩
          rw [hno] at herr
          rw [herr] at hce
          cases hce
        · simp only [Statement.execute, hc, hce, Bool.not_true, Bool.false_eq_true, if_false,
            reduceCtorEq] at h
      · have hce' : c.hasError = false := by simpa using hce
        have hno : e.dividesByZero context = false := by rw [← herr]; exact hce'
        obtain ⟨hv, hceq⟩ := hval hno
        subst hceq
        subst hv
        refine ⟨?_, fun h => ?_⟩
        · intro context' h
          simp only [Statement.execute, hc, hce', Bool.not_false, if_true,
            Except.ok.injEq] at h
          subst h
          refine ⟨hover, ?_, fun _ => rfl⟩
          rw [hno]
          exact hok
        · simp only [Statement.execute, hc, hce', Bool.not_false, if_true,
            reduceCtorEq] at h

/-- Execution of a statement list in a context without error.  When it
returns, it did not divide the smallest value by -1, the error flag
afterwards tells whether a division by zero was evaluated before the
execution stopped, and without one the return value left in the context is
the return value of the statement list in the arithmetic of the language.
When it stops in a division whose quotient is not representable, the
statement list divides the smallest value by -1 before it stops. -/
theorem executeStatements_denote (statements : List Statement) :
    ∀ context : ExecutionContext, context.hasError = false →
      (∀ context' : ExecutionContext, executeStatements statements context = .ok context' →
        statementsOverflow statements context = false ∧
        context'.hasError = statementsDivideByZero statements context ∧
        (statementsDivideByZero statements context = false →
          context'.returnValue = statementsReturnValue statements context)) ∧
      (executeStatements statements context = .error .divisionOverflow →
        statementsOverflow statements context = true) := by
  induction statements with
  | nil =>
    intro context hok
    refine ⟨?_, fun h => ?_⟩
    · intro context' h
      simp only [executeStatements, Except.ok.injEq] at h
      subst h
      exact ⟨rfl, hok, fun _ => rfl⟩
    · simp only [executeStatements, reduceCtorEq] at h
  | cons stmt rest ih =>
    intro context hok
    obtain ⟨hstmtOk, hstmtTrap⟩ := Statement.execute_denote stmt context hok
    cases hc : stmt.execute context with
    | error fault =>
      refine ⟨?_, fun h => ?_⟩
      · intro context' h
        simp only [executeStatements, hc, reduceCtorEq] at h
      · simp only [executeStatements, hc, Except.error.injEq] at h
        subst h
        simp only [statementsOverflow, hstmtTrap hc, Bool.true_or]
    | ok c =>
      obtain ⟨hover, herr, hstore⟩ := hstmtOk c hc
      by_cases hce : c.hasError = true
      · have hdiv : stmt.getExpression.dividesByZero context = true := by
          rw [← herr]; exact hce
        refine ⟨?_, fun h => ?_⟩
        · intro context' h
          simp only [executeStatements, hc, hce, if_true, Except.ok.injEq] at h
          subst h
          refine ⟨?_, ?_, fun hno => ?_⟩
          · simp [statementsOverflow, hover, hdiv]
          · simp only [statementsDivideByZero, hdiv, Bool.true_or, hce]
          · simp only [statementsDivideByZero, hdiv, Bool.true_or, reduceCtorEq] at hno
        · simp only [executeStatements, hc, hce, if_true, reduceCtorEq] at h
      · have hce' : c.hasError = false := by simpa using hce
        have hno : stmt.getExpression.dividesByZero context = false := by
          rw [← herr]; exact hce'
        have hc' := hstore hno
        by_cases hr : stmt.isReturnStatement = true
        · refine ⟨?_, fun h => ?_⟩
          · intro context' h
            simp only [executeStatements, hc, hce', Bool.false_eq_true, if_false, hr, if_true,
              Except.ok.injEq] at h
            subst h
            refine ⟨?_, ?_, fun _ => ?_⟩
            · simp [statementsOverflow, hover, hno, hr]
            · simp [statementsDivideByZero, hno, hr, hce']
            · simp only [statementsReturnValue, hr, if_true]
              rw [hc']
              cases stmt with
              | AssignmentStatement target e => cases hr
              | ReturnStatement e => rfl
          · simp only [executeStatements, hc, hce', Bool.false_eq_true, if_false, hr, if_true,
              reduceCtorEq] at h
        · have hr' : stmt.isReturnStatement = false := by simpa using hr
          have hok' : c.hasError = false := hce'
          obtain ⟨ihok, ihtrap⟩ := ih c hok'
          refine ⟨?_, fun h => ?_⟩
          · intro context' h
            simp only [executeStatements, hc, hce', Bool.false_eq_true, if_false, hr'] at h
            obtain ⟨hover', herr', hret'⟩ := ihok context' h
            rw [hc'] at hover' herr' hret'
            refine ⟨?_, ?_, fun hno' => ?_⟩
            · simp [statementsOverflow, hover, hno, hr', hover']
            · simp [statementsDivideByZero, hno, hr', herr']
            · simp only [statementsDivideByZero, hno, hr', Bool.not_false, Bool.true_and,
                Bool.false_or] at hno'
              simp only [statementsReturnValue, hr', Bool.false_eq_true, if_false]
              exact hret' hno'
          · simp only [executeStatements, hc, hce', Bool.false_eq_true, if_false, hr'] at h
            have := ihtrap h
            rw [hc'] at this
            simp [statementsOverflow, hover, hno, hr', this]

end ast

end pljit

namespace pljit

open ast exec optim analysis

/-- The first invocation of a frame whose compilation returns: the result is
`CompileError` when the compilation left that state, and otherwise the
check of the parameters and the execution run on the compiled frame. -/
theorem FunctionFrame.execute_new (code : List Char) (frame : FunctionFrame)
    (parameters : List Int)
    (h : (FunctionFrame.new code).compile = .ok frame) :
    (FunctionFrame.new code).execute parameters =
      if frame.state = .CompileError then
        .ok { result := compileError, frame := frame, compiled := true,
              executionContext := none }
      else frame.run parameters true := by
  have hstate : (FunctionFrame.new code).state = .NotCompiled := rfl
  simp only [FunctionFrame.execute, hstate, reduceCtorEq, if_false, h]

/-- The check of the parameters and the execution on a frame that holds a
symbol table and a function, for an argument vector of matching length. -/
theorem FunctionFrame.run_matching (frame : FunctionFrame) (symbolTable : SymbolTable)
    (function : Function) (parameters : List Int) (compiled : Bool)
    (context : ExecutionContext)
    (hsymbols : frame.symbolTable = some symbolTable)
    (hfunction : frame.function = some function)
    (hparameters : parameters.length = symbolTable.getNumberOfParameters)
    (hexec : function.execute (ExecutionContext.new parameters symbolTable) = .ok context) :
    frame.run parameters compiled =
      .ok { result := if context.hasError then runtimeError
                      else success context.returnValue,
            frame := frame, compiled := compiled, executionContext := some context } := by
  simp only [FunctionFrame.run, hsymbols, hfunction, hparameters, ne_eq, not_true_eq_false,
    if_false, hexec]
  split <;> rfl

/-- The check of the parameters on a frame that holds a symbol table and a
function, for an argument vector of another length: nothing is executed. -/
theorem FunctionFrame.run_mismatch (frame : FunctionFrame) (symbolTable : SymbolTable)
    (function : Function) (parameters : List Int) (compiled : Bool)
    (hsymbols : frame.symbolTable = some symbolTable)
    (hfunction : frame.function = some function)
    (hparameters : parameters.length ≠ symbolTable.getNumberOfParameters) :
    frame.run parameters compiled =
      .ok { result := errorInvalidFunctionCall, frame := frame, compiled := compiled,
            executionContext := none } := by
  simp only [FunctionFrame.run, hsymbols, hfunction, ne_eq, hparameters, not_false_eq_true,
    if_true]

/-- The check of the parameters and the execution on a frame that holds a
symbol table and a function, for an argument vector of matching length,
when the execution of the function stops in a fault: the invocation stops
in this fault. -/
theorem FunctionFrame.run_fault (frame : FunctionFrame) (symbolTable : SymbolTable)
    (function : Function) (parameters : List Int) (compiled : Bool) (fault : Fault)
    (hsymbols : frame.symbolTable = some symbolTable)
    (hfunction : frame.function = some function)
    (hparameters : parameters.length = symbolTable.getNumberOfParameters)
    (hexec : function.execute (ExecutionContext.new parameters symbolTable) = .error fault) :
    frame.run parameters compiled = .error fault := by
  simp only [FunctionFrame.run, hsymbols, hfunction, hparameters, ne_eq, not_true_eq_false,
    if_false, hexec]

/-- Execution of the function of a compiled frame from the initial context
of an argument vector of matching length: the optimised and the unoptimised
AST have the same outcome; both return the same context, or both stop in
the division of the smallest value by -1. -/
theorem compiled_execution (code : List Char) (function optimized : Function)
    (symbolTable : SymbolTable) (parameters : List Int)
    (hanalysis : parseAndAnalyze code = .ok (some (function, symbolTable)))
    (hoptimize : optimize function symbolTable = .ok optimized)
    (hparameters : parameters.length = symbolTable.getNumberOfParameters) :
    (∃ context,
      function.execute (ExecutionContext.new parameters symbolTable) = .ok context ∧
      optimized.execute (ExecutionContext.new parameters symbolTable) = .ok context) ∨
    (function.execute (ExecutionContext.new parameters symbolTable) =
        .error .divisionOverflow ∧
      optimized.execute (ExecutionContext.new parameters symbolTable) =
        .error .divisionOverflow) := by
  obtain ⟨node, manager, analysis, han, rfl⟩ := parseAndAnalyze_ok code function _ hanalysis
  obtain ⟨_, hrange, _, hreturn⟩ :=
    SemanticAnalysis.analyzeFunction_wellFormed node manager function analysis han
  obtain ⟨_, hexec⟩ :=
    optimize_preserves_execution function analysis.symbolTable hrange hreturn
  have hsame := hexec optimized hoptimize
    (ExecutionContext.new parameters analysis.symbolTable) rfl rfl
  rcases executeStatements_total analysis.symbolTable
    function.statements (ExecutionContext.new parameters analysis.symbolTable)
    (ExecutionContext.new_fits _ _ hparameters) hrange with ⟨context, hcontext⟩ | htrap
  · exact Or.inl ⟨context, hcontext, by rw [hsame]; exact hcontext⟩
  · exact Or.inr ⟨htrap, by rw [hsame]; exact htrap⟩

/-- The invocations of a frame that a compilation left in the state
`Compiled`, with an argument vector of matching length: the first invocation
and a later one both run the optimised AST from the initial context. -/
theorem FunctionFrame.execute_compiled (code : List Char) (frame : FunctionFrame)
    (parameters : List Int)
    (hcompile : (FunctionFrame.new code).compile = .ok frame)
    (hstate : frame.state = .Compiled) :
    (FunctionFrame.new code).execute parameters = frame.run parameters true ∧
    frame.execute parameters = frame.run parameters false := by
  have hnotfailed : ¬ frame.state = .CompileError := by
    rw [hstate]
    simp only [reduceCtorEq, not_false_eq_true]
  refine ⟨?_, ?_⟩
  · rw [FunctionFrame.execute_new code frame parameters hcompile, if_neg hnotfailed]
  · simp only [FunctionFrame.execute, hstate, reduceCtorEq, if_false, if_true]

end pljit

namespace pljit

open ast exec optim analysis

/-- C2: the claim fails on the source code
`PARAM a, b; BEGIN RETURN a / b END.` called with the smallest value and -1:
the compilation leaves the state `Compiled`, no `Div` node has a right
operand with the value 0, and the invocation does not return `Success`: the
evaluator tests the divisor for 0 only and divides the smallest value by -1,
a division whose quotient is not representable, and the invocation does not
return.  For every source code whose compilation leaves the state
`Compiled` and every argument vector with one argument per parameter the
rest of the claim holds.  The first invocation and every later invocation
stop in such a division exactly when the execution comes across a `Div`
node whose operands evaluate to the smallest value and to -1 before it
stops.  Otherwise they return, with the same result; the result code is
`RuntimeError` if and only if the execution, before it stops, evaluates a
`Div` node whose right operand has the value 0, and the result is then
`{-1, RuntimeError}`; in every other case the result is `Success` with the
return value of the program in the 64-bit wrapping arithmetic of the
evaluator, in which division is truncated toward zero: 7 and 0 give
`{-1, RuntimeError}`, and -7 and 2 give the value -3. -/
theorem C2_invocation_stops_in_division_overflow :
    (FunctionFrame.new scenarioDivision).compile = .ok scenarioDivisionFrame ∧
    scenarioDivisionFrame.state = .Compiled ∧
    (parseAndAnalyze scenarioDivision).map
        (fun result => result.map (fun (function, symbolTable) =>
          (statementsDivideByZero function.statements
              (ExecutionContext.new [-9223372036854775808, -1] symbolTable),
            statementsOverflow function.statements
              (ExecutionContext.new [-9223372036854775808, -1] symbolTable)))) =
      .ok (some (false, true)) ∧
    ((FunctionFrame.new scenarioDivision).execute [-9223372036854775808, -1]).map
        (·.result) = .error .divisionOverflow ∧
    (scenarioDivisionFrame.execute [-9223372036854775808, -1]).map (·.result) =
      .error .divisionOverflow ∧
    (∀ (code : List Char) (frame : FunctionFrame) (symbolTable : SymbolTable)
        (parameters : List Int),
      (FunctionFrame.new code).compile = .ok frame →
      frame.state = .Compiled →
      frame.symbolTable = some symbolTable →
      parameters.length = symbolTable.getNumberOfParameters →
      ∃ function optimized,
        parseAndAnalyze code = .ok (some (function, symbolTable)) ∧
        frame.function = some optimized ∧
        (statementsOverflow function.statements
            (ExecutionContext.new parameters symbolTable) = true →
          (FunctionFrame.new code).execute parameters = .error .divisionOverflow ∧
          frame.execute parameters = .error .divisionOverflow) ∧
        (statementsOverflow function.statements
            (ExecutionContext.new parameters symbolTable) = false →
          ∃ context result,
            function.execute (ExecutionContext.new parameters symbolTable) = .ok context ∧
            optimized.execute (ExecutionContext.new parameters symbolTable) = .ok context ∧
            ((FunctionFrame.new code).execute parameters).map (·.result) = .ok result ∧
            (frame.execute parameters).map (·.result) = .ok result ∧
            (result.resultCode = .RuntimeError ↔
              statementsDivideByZero function.statements
                (ExecutionContext.new parameters symbolTable) = true) ∧
            (statementsDivideByZero function.statements
                (ExecutionContext.new parameters symbolTable) = true →
              result = { value := -1, resultCode := .RuntimeError }) ∧
            (statementsDivideByZero function.statements
                (ExecutionContext.new parameters symbolTable) = false →
              result =
                { value := statementsReturnValue function.statements
                    (ExecutionContext.new parameters symbolTable),
                  resultCode := .Success }))) ∧
    ((FunctionFrame.new scenarioDivision).execute [7, 0]).map (·.result) =
      .ok { value := -1, resultCode := .RuntimeError } ∧
    ((FunctionFrame.new scenarioDivision).execute [-7, 2]).map (·.result) =
      .ok { value := -3, resultCode := .Success } := by
  refine ⟨by decide!, by decide!, by decide!, by decide!, by decide!, ?_, by decide!,
    by decide!⟩
  intro code frame symbolTable parameters hcompile hstate hsymbols hparameters
  rcases FunctionFrame.compile_new code frame hcompile with hfail | hcompiled
  · rw [hfail.1] at hstate
    cases hstate
  · obtain ⟨_, function, symbolTable', optimized, hanalysis, hoptimize, hfunction, hsymbols'⟩ :=
      hcompiled
    rw [hsymbols] at hsymbols'
    simp only [Option.some.injEq] at hsymbols'
    subst hsymbols'
    obtain ⟨hfirst, hlater⟩ := FunctionFrame.execute_compiled code frame parameters hcompile
      hstate
    have hok : (ExecutionContext.new parameters symbolTable).hasError = false := rfl
    obtain ⟨hreturns, htraps⟩ := executeStatements_denote function.statements
      (ExecutionContext.new parameters symbolTable) hok
    refine ⟨function, optimized, hanalysis, hfunction, ?_, ?_⟩
    · intro hoverflow
      rcases compiled_execution code function optimized symbolTable parameters hanalysis
        hoptimize hparameters with ⟨context, hbefore, _⟩ | ⟨_, hafter⟩
      · have := (hreturns context hbefore).1
        rw [hoverflow] at this
        cases this
      · rw [hfirst, hlater]
        exact ⟨FunctionFrame.run_fault frame symbolTable optimized parameters true _ hsymbols
            hfunction hparameters hafter,
          FunctionFrame.run_fault frame symbolTable optimized parameters false _ hsymbols
            hfunction hparameters hafter⟩
    · intro hoverflow
      rcases compiled_execution code function optimized symbolTable parameters hanalysis
        hoptimize hparameters with ⟨context, hbefore, hafter⟩ | ⟨hbefore, _⟩
      swap
      · have := htraps hbefore
        rw [hoverflow] at this
        cases this
      obtain ⟨_, herr, hret⟩ := hreturns context hbefore
      refine ⟨context, if context.hasError then runtimeError else success context.returnValue,
        hbefore, hafter, ?_, ?_, ?_, ?_, ?_⟩
      · rw [hfirst, FunctionFrame.run_matching frame symbolTable optimized parameters true
          context hsymbols hfunction hparameters hafter]
        rfl
      · rw [hlater, FunctionFrame.run_matching frame symbolTable optimized parameters false
          context hsymbols hfunction hparameters hafter]
        rfl
      · rw [← herr]
        cases hce : context.hasError <;> simp [runtimeError, success]
      · intro hdiv
        rw [← herr] at hdiv
        simp only [hdiv, if_true, runtimeError]
      · intro hdiv
        have hdiv' := hdiv
        rw [← herr] at hdiv'
        simp only [hdiv', Bool.false_eq_true, if_false, success, hret hdiv]

end pljit

namespace pljit

open ast exec optim analysis

/-- C9: let the compilation of a source code return.  If it leaves the state
`Compiled`, the first invocation and every later invocation return the
result code `InvalidFunctionCall` if and only if the number of arguments
differs from the number of parameters registered in the symbol table.  The
result is then `{-1, InvalidFunctionCall}`, no execution context is built,
the frame is unchanged, and the outcome is the same whatever function the
frame holds: nothing is executed.  With one argument per parameter the
function is executed: the two invocations return the same result, with the
code `Success` or `RuntimeError`, or the execution stops in the division of
the smallest value by -1.  If the compilation leaves another state, this
state is `CompileError` and the first invocation and every later invocation
return `{-1, CompileError}` for every argument vector. -/
theorem C9_invalid_function_call_iff_argument_count (code : List Char)
    (frame : FunctionFrame) (parameters : List Int)
    (hcompile : (FunctionFrame.new code).compile = .ok frame) :
    (frame.state = .Compiled →
      ∃ symbolTable,
        frame.symbolTable = some symbolTable ∧
        ((∃ first, (FunctionFrame.new code).execute parameters = .ok first ∧
            first.result.resultCode = .InvalidFunctionCall) ↔
          parameters.length ≠ symbolTable.getNumberOfParameters) ∧
        ((∃ later, frame.execute parameters = .ok later ∧
            later.result.resultCode = .InvalidFunctionCall) ↔
          parameters.length ≠ symbolTable.getNumberOfParameters) ∧
        (parameters.length ≠ symbolTable.getNumberOfParameters →
          (FunctionFrame.new code).execute parameters =
            .ok { result := { value := -1, resultCode := .InvalidFunctionCall },
                  frame := frame, compiled := true, executionContext := none } ∧
          frame.execute parameters =
            .ok { result := { value := -1, resultCode := .InvalidFunctionCall },
                  frame := frame, compiled := false, executionContext := none } ∧
          ∀ function : Function,
            FunctionFrame.execute { frame with function := some function } parameters =
              .ok { result := { value := -1, resultCode := .InvalidFunctionCall },
                    frame := { frame with function := some function },
                    compiled := false, executionContext := none }) ∧
        (parameters.length = symbolTable.getNumberOfParameters →
          (∃ first later,
            (FunctionFrame.new code).execute parameters = .ok first ∧
            frame.execute parameters = .ok later ∧
            first.result = later.result ∧
            (later.result.resultCode = .Success ∨
              later.result.resultCode = .RuntimeError)) ∨
          ((FunctionFrame.new code).execute parameters = .error .divisionOverflow ∧
            frame.execute parameters = .error .divisionOverflow))) ∧
    (frame.state ≠ .Compiled →
      frame.state = .CompileError ∧
      (FunctionFrame.new code).execute parameters =
        .ok { result := { value := -1, resultCode := .CompileError }, frame := frame,
              compiled := true, executionContext := none } ∧
      frame.execute parameters =
        .ok { result := { value := -1, resultCode := .CompileError }, frame := frame,
              compiled := false, executionContext := none }) := by
  rcases FunctionFrame.compile_new code frame hcompile with hfail | hcompiled
  · refine ⟨fun hstate => ?_, fun _ => ⟨hfail.1, ?_, ?_⟩⟩
    · rw [hfail.1] at hstate
      cases hstate
    · rw [FunctionFrame.execute_new code frame parameters hcompile, if_pos hfail.1]
      rfl
    · simp only [FunctionFrame.execute, hfail.1, if_true]
      rfl
  · obtain ⟨hstate, function, symbolTable, optimized, hanalysis, hoptimize, hfunction,
      hsymbols⟩ := hcompiled
    refine ⟨fun _ => ?_, fun hne => absurd hstate hne⟩
    obtain ⟨hfirst, hlater⟩ := FunctionFrame.execute_compiled code frame parameters hcompile
      hstate
    have hmismatch : parameters.length ≠ symbolTable.getNumberOfParameters →
        (FunctionFrame.new code).execute parameters =
          .ok { result := { value := -1, resultCode := .InvalidFunctionCall },
                frame := frame, compiled := true, executionContext := none } ∧
        frame.execute parameters =
          .ok { result := { value := -1, resultCode := .InvalidFunctionCall },
                frame := frame, compiled := false, executionContext := none } ∧
        ∀ function : Function,
          FunctionFrame.execute { frame with function := some function } parameters =
            .ok { result := { value := -1, resultCode := .InvalidFunctionCall },
                  frame := { frame with function := some function },
                  compiled := false, executionContext := none } := by
      intro hparameters
      refine ⟨?_, ?_, fun other => ?_⟩
      · rw [hfirst, FunctionFrame.run_mismatch frame symbolTable optimized parameters true
          hsymbols hfunction hparameters]
        rfl
      · rw [hlater, FunctionFrame.run_mismatch frame symbolTable optimized parameters false
          hsymbols hfunction hparameters]
        rfl
      · have hstate' : ({ frame with function := some other } : FunctionFrame).state =
            .Compiled := hstate
        have hrun := FunctionFrame.run_mismatch { frame with function := some other }
          symbolTable other parameters false hsymbols rfl hparameters
        unfold FunctionFrame.execute
        rw [if_neg (by rw [hstate']; simp only [reduceCtorEq, not_false_eq_true]),
          if_pos hstate', hrun]
        rfl
    have hmatch : parameters.length = symbolTable.getNumberOfParameters →
        (∃ first later,
          (FunctionFrame.new code).execute parameters = .ok first ∧
          frame.execute parameters = .ok later ∧
          first.result = later.result ∧
          (later.result.resultCode = .Success ∨
            later.result.resultCode = .RuntimeError)) ∨
        ((FunctionFrame.new code).execute parameters = .error .divisionOverflow ∧
          frame.execute parameters = .error .divisionOverflow) := by
      intro hparameters
      rcases compiled_execution code function optimized symbolTable parameters hanalysis
        hoptimize hparameters with ⟨context, _, hafter⟩ | ⟨_, hafter⟩
      · left
        rw [hfirst, hlater,
          FunctionFrame.run_matching frame symbolTable optimized parameters true context
            hsymbols hfunction hparameters hafter,
          FunctionFrame.run_matching frame symbolTable optimized parameters false context
            hsymbols hfunction hparameters hafter]
        refine ⟨_, _, rfl, rfl, rfl, ?_⟩
        cases context.hasError <;> simp [runtimeError, success]
      · right
        rw [hfirst, hlater]
        exact ⟨FunctionFrame.run_fault frame symbolTable optimized parameters true _ hsymbols
            hfunction hparameters hafter,
          FunctionFrame.run_fault frame symbolTable optimized parameters false _ hsymbols
            hfunction hparameters hafter⟩
    refine ⟨symbolTable, hsymbols, ?_, ?_, hmismatch, hmatch⟩
    · constructor
      · rintro ⟨first, hreturned, hcode⟩ hparameters
        rcases hmatch hparameters with ⟨first', later', hfirst', hlater', hsame, hcodes⟩ | htrap
        · rw [hfirst'] at hreturned
          simp only [Except.ok.injEq] at hreturned
          subst hreturned
          rw [hsame] at hcode
          rw [hcode] at hcodes
          rcases hcodes with h | h <;> cases h
        · rw [htrap.1] at hreturned
          cases hreturned
      · intro hparameters
        exact ⟨_, (hmismatch hparameters).1, rfl⟩
    · constructor
      · rintro ⟨later, hreturned, hcode⟩ hparameters
        rcases hmatch hparameters with ⟨first', later', hfirst', hlater', hsame, hcodes⟩ | htrap
        · rw [hlater'] at hreturned
          simp only [Except.ok.injEq] at hreturned
          subst hreturned
          rw [hcode] at hcodes
          rcases hcodes with h | h <;> cases h
        · rw [htrap.2] at hreturned
          cases hreturned
      · intro hparameters
        exact ⟨_, (hmismatch hparameters).2.1, rfl⟩

/-- Witness of C9 on `PARAM a, b; BEGIN RETURN a / b END.` called with one
argument. -/
theorem C9_invalid_function_call_iff_argument_count_witness :
    (FunctionFrame.new scenarioDivision).compile = .ok scenarioDivisionFrame ∧
    scenarioDivisionFrame.state = .Compiled ∧
    ((FunctionFrame.new scenarioDivision).execute [1]).map (·.result) =
      .ok { value := -1, resultCode := .InvalidFunctionCall } ∧
    ((FunctionFrame.new scenarioDivision).execute [6, 3]).map (·.result) =
      .ok { value := 2, resultCode := .Success } ∧
    ∃ symbolTable,
      scenarioDivisionFrame.symbolTable = some symbolTable ∧
      ((∃ first, (FunctionFrame.new scenarioDivision).execute [1] = .ok first ∧
          first.result.resultCode = .InvalidFunctionCall) ↔
        [(1 : Int)].length ≠ symbolTable.getNumberOfParameters) ∧
      ((∃ later, scenarioDivisionFrame.execute [1] = .ok later ∧
          later.result.resultCode = .InvalidFunctionCall) ↔
        [(1 : Int)].length ≠ symbolTable.getNumberOfParameters) :=
  ⟨by decide!, by decide!, by decide!, by decide!,
    (fun ⟨symbolTable, hsymbols, hfirst, hlater, _⟩ =>
      (⟨symbolTable, hsymbols, hfirst, hlater⟩ :
        ∃ symbolTable,
          scenarioDivisionFrame.symbolTable = some symbolTable ∧
          ((∃ first, (FunctionFrame.new scenarioDivision).execute [1] = .ok first ∧
              first.result.resultCode = .InvalidFunctionCall) ↔
            [(1 : Int)].length ≠ symbolTable.getNumberOfParameters) ∧
          ((∃ later, scenarioDivisionFrame.execute [1] = .ok later ∧
              later.result.resultCode = .InvalidFunctionCall) ↔
            [(1 : Int)].length ≠ symbolTable.getNumberOfParameters)))
      ((C9_invalid_function_call_iff_argument_count scenarioDivision scenarioDivisionFrame [1]
        (by decide!)).1 (by decide!))⟩

end pljit

namespace pljit

open ast exec optim analysis

/-- An invocation of the frame that a compilation left: it returns, does not
compile and leaves the frame as it is, with the result `{-1, CompileError}`
when the state of the frame is `CompileError`; or the state is `Compiled`
and the execution stops in the division of the smallest value by -1. -/
theorem FunctionFrame.execute_compiled_frame (code : List Char) (frame : FunctionFrame)
    (parameters : List Int)
    (hcompile : (FunctionFrame.new code).compile = .ok frame) :
    (∃ later, frame.execute parameters = .ok later ∧
      later.compiled = false ∧ later.frame = frame ∧
      (frame.state = .CompileError →
        later.result = { value := -1, resultCode := .CompileError })) ∨
    (frame.state = .Compiled ∧ frame.execute parameters = .error .divisionOverflow) := by
  rcases FunctionFrame.compile_new code frame hcompile with hfail | hcompiled
  · left
    refine ⟨{ result := compileError, frame := frame, compiled := false,
              executionContext := none }, ?_, rfl, rfl, fun _ => rfl⟩
    simp only [FunctionFrame.execute, hfail.1, if_true]
  · obtain ⟨hstate, function, symbolTable, optimized, hanalysis, hoptimize, hfunction,
      hsymbols⟩ := hcompiled
    obtain ⟨_, hlater⟩ := FunctionFrame.execute_compiled code frame parameters hcompile hstate
    have hnot : frame.state = .CompileError → False := by
      intro h
      rw [hstate] at h
      cases h
    by_cases hparameters : parameters.length = symbolTable.getNumberOfParameters
    · rcases compiled_execution code function optimized symbolTable parameters hanalysis
        hoptimize hparameters with ⟨context, _, hafter⟩ | ⟨_, hafter⟩
      · left
        rw [FunctionFrame.run_matching frame symbolTable optimized parameters false context
          hsymbols hfunction hparameters hafter] at hlater
        exact ⟨_, hlater, rfl, rfl, fun h => (hnot h).elim⟩
      · right
        rw [FunctionFrame.run_fault frame symbolTable optimized parameters false _ hsymbols
          hfunction hparameters hafter] at hlater
        exact ⟨hstate, hlater⟩
    · left
      rw [FunctionFrame.run_mismatch frame symbolTable optimized parameters false
        hsymbols hfunction hparameters] at hlater
      exact ⟨_, hlater, rfl, rfl, fun h => (hnot h).elim⟩

/-- The first invocation of a frame whose compilation returns: it returns,
has compiled and leaves the frame that the compilation left, with the
result `{-1, CompileError}` when the state of that frame is `CompileError`;
or the state is `Compiled` and the execution stops in the division of the
smallest value by -1. -/
theorem FunctionFrame.execute_fresh_frame (code : List Char) (frame : FunctionFrame)
    (parameters : List Int)
    (hcompile : (FunctionFrame.new code).compile = .ok frame) :
    (∃ first, (FunctionFrame.new code).execute parameters = .ok first ∧
      first.compiled = true ∧ first.frame = frame ∧
      (frame.state = .CompileError →
        first.result = { value := -1, resultCode := .CompileError })) ∨
    (frame.state = .Compiled ∧
      (FunctionFrame.new code).execute parameters = .error .divisionOverflow) := by
  have hfirst := FunctionFrame.execute_new code frame parameters hcompile
  rcases FunctionFrame.compile_new code frame hcompile with hfail | hcompiled
  · left
    rw [if_pos hfail.1] at hfirst
    exact ⟨_, hfirst, rfl, rfl, fun _ => rfl⟩
  · obtain ⟨hstate, function, symbolTable, optimized, hanalysis, hoptimize, hfunction,
      hsymbols⟩ := hcompiled
    have hnot : frame.state = .CompileError → False := by
      intro h
      rw [hstate] at h
      cases h
    rw [if_neg hnot] at hfirst
    by_cases hparameters : parameters.length = symbolTable.getNumberOfParameters
    · rcases compiled_execution code function optimized symbolTable parameters hanalysis
        hoptimize hparameters with ⟨context, _, hafter⟩ | ⟨_, hafter⟩
      · left
        rw [FunctionFrame.run_matching frame symbolTable optimized parameters true context
          hsymbols hfunction hparameters hafter] at hfirst
        exact ⟨_, hfirst, rfl, rfl, fun h => (hnot h).elim⟩
      · right
        rw [FunctionFrame.run_fault frame symbolTable optimized parameters true _ hsymbols
          hfunction hparameters hafter] at hfirst
        exact ⟨hstate, hfirst⟩
    · left
      rw [FunctionFrame.run_mismatch frame symbolTable optimized parameters true
        hsymbols hfunction hparameters] at hfirst
      exact ⟨_, hfirst, rfl, rfl, fun h => (hnot h).elim⟩

/-- Invocations one after another of the frame that a compilation left: all
of them return, none compiles and each leaves the frame as it is; or the
state is `Compiled` and one of the executions stops in the division of the
smallest value by -1. -/
theorem FunctionFrame.executeAll_compiled_frame (code : List Char) (frame : FunctionFrame)
    (hcompile : (FunctionFrame.new code).compile = .ok frame)
    (arguments : List (List Int)) :
    (∃ invocations, frame.executeAll arguments = .ok invocations ∧
      invocations.length = arguments.length ∧
      ∀ later ∈ invocations, later.compiled = false ∧ later.frame = frame ∧
        (frame.state = .CompileError →
          later.result = { value := -1, resultCode := .CompileError })) ∨
    (frame.state = .Compiled ∧ frame.executeAll arguments = .error .divisionOverflow) := by
  induction arguments with
  | nil => exact Or.inl ⟨[], rfl, rfl, fun later h => by cases h⟩
  | cons parameters rest ih =>
    rcases FunctionFrame.execute_compiled_frame code frame parameters hcompile with
      ⟨later, hlater, hc, hf, hr⟩ | ⟨hstate, htrap⟩
    swap
    · right
      refine ⟨hstate, ?_⟩
      simp only [FunctionFrame.executeAll, htrap]
    rcases ih with ⟨invocations, hrest, hlen, hall⟩ | ⟨hstate, htrap⟩
    · left
      refine ⟨later :: invocations, ?_, ?_, ?_⟩
      · simp only [FunctionFrame.executeAll, hlater, hf, hrest]
      · simp only [List.length_cons, hlen]
      · intro x hx
        rcases List.mem_cons.mp hx with rfl | hx
        · exact ⟨hc, hf, hr⟩
        · exact hall x hx
    · right
      refine ⟨hstate, ?_⟩
      simp only [FunctionFrame.executeAll, hlater, hf, htrap]

/-- C10: the claim fails on the source code that consists of one blank.
The compilation of its frame does not return: the constructor of the
parser peeks at the next token although the lexer has none, which violates
the assertion `hasNext()` of `Lexer::next`; so the first invocation does
not return either, for every argument vector and every sequence of
invocations.  Whenever the compilation of a frame does return, the claim
holds: the state it leaves is `Compiled` or `CompileError`, and in every
sequence of invocations taken one after another that return, the first
invocation compiles and leaves that frame, every later invocation returns
without compiling and leaves the frame as it is, and all of them return
`{-1, CompileError}` when the state is `CompileError`.  The invocations of a
sequence all return unless the state is `Compiled` and an execution stops in
the division of the smallest value by -1.  The compilation does not return
on the source code `BEGIN RETURN 9223372036854775808 / -1 END.` either, where
constant propagation stops in this division. -/
theorem C10_compilation_aborts_on_blank_source :
    (FunctionFrame.new [' ']).compile = .error .assertion ∧
    (∀ (parameters : List Int) (rest : List (List Int)),
      (FunctionFrame.new [' ']).execute parameters = .error .assertion ∧
      (FunctionFrame.new [' ']).executeAll (parameters :: rest) = .error .assertion) ∧
    (∀ (code : List Char) (frame : FunctionFrame),
      (FunctionFrame.new code).compile = .ok frame →
      (frame.state = .Compiled ∨ frame.state = .CompileError) ∧
      ∀ (parameters : List Int) (rest : List (List Int)),
        (∃ first invocations,
          (FunctionFrame.new code).executeAll (parameters :: rest) =
            .ok (first :: invocations) ∧
          first.compiled = true ∧ first.frame = frame ∧
          invocations.length = rest.length ∧
          (∀ later ∈ invocations, later.compiled = false ∧ later.frame = frame) ∧
          (frame.state = .CompileError →
            ∀ invocation ∈ first :: invocations,
              invocation.result = { value := -1, resultCode := .CompileError })) ∨
        (frame.state = .Compiled ∧
          (FunctionFrame.new code).executeAll (parameters :: rest) =
            .error .divisionOverflow)) ∧
    (FunctionFrame.new scenarioConstantOverflow).compile = .error .divisionOverflow := by
  have hblank : (FunctionFrame.new [' ']).compile = .error .assertion := by decide!
  have hexecute : ∀ parameters : List Int,
      (FunctionFrame.new [' ']).execute parameters = .error .assertion := by
    intro parameters
    have hstate : (FunctionFrame.new [' ']).state = .NotCompiled := rfl
    simp only [FunctionFrame.execute, hstate, reduceCtorEq, if_false, hblank]
  refine ⟨hblank, fun parameters rest => ⟨hexecute parameters, ?_⟩, ?_, by decide!⟩
  · simp only [FunctionFrame.executeAll, hexecute parameters]
  · intro code frame hcompile
    refine ⟨?_, fun parameters rest => ?_⟩
    · rcases FunctionFrame.compile_new code frame hcompile with hfail | hcompiled
      · exact Or.inr hfail.1
      · exact Or.inl hcompiled.1
    · rcases FunctionFrame.execute_fresh_frame code frame parameters hcompile with
        ⟨first, hfirst, hc, hf, hr⟩ | ⟨hstate, htrap⟩
      swap
      · right
        refine ⟨hstate, ?_⟩
        simp only [FunctionFrame.executeAll, htrap]
      rcases FunctionFrame.executeAll_compiled_frame code frame hcompile rest with
        ⟨invocations, hrest, hlen, hall⟩ | ⟨hstate, htrap⟩
      · left
        refine ⟨first, invocations, ?_, hc, hf, hlen, fun later h => ?_,
          fun hstate x hx => ?_⟩
        · simp only [FunctionFrame.executeAll, hfirst, hf, hrest]
        · exact ⟨(hall later h).1, (hall later h).2.1⟩
        · rcases List.mem_cons.mp hx with rfl | hx
          · exact hr hstate
          · exact (hall x hx).2.2 hstate
      · right
        refine ⟨hstate, ?_⟩
        simp only [FunctionFrame.executeAll, hfirst, hf, htrap]

end pljit

namespace pljit

namespace lexer

open common

/-- The scanning loop of `Lexer::next`: when it finishes, the token type is
the one it started with or `Assignment`, and the end of the token lies
before the position at which the loop stopped. -/
theorem Lexer.scan_finished (isLiteral : Bool) (chars : List Char) :
    ∀ (current : Nat) (lastChar : Char) (tokenType : TokenType) (endRef : Nat)
      (tokenType' : TokenType) (endRef' current' : Nat),
      Lexer.scan isLiteral chars current lastChar tokenType endRef =
        .finished tokenType' endRef' current' →
      endRef < current →
      (tokenType' = tokenType ∨ tokenType' = .Assignment) ∧
      endRef ≤ endRef' ∧ endRef' < current' := by
  induction chars with
  | nil =>
    intro current lastChar tokenType endRef tokenType' endRef' current' h hlt
    simp only [Lexer.scan, ScanResult.finished.injEq] at h
    obtain ⟨rfl, rfl, rfl⟩ := h
    exact ⟨Or.inl rfl, Nat.le_refl _, hlt⟩
  | cons c rest ih =>
    intro current lastChar tokenType endRef tokenType' endRef' current' h hlt
    simp only [Lexer.scan] at h
    split at h
    · simp only [reduceCtorEq] at h
    · split at h
      · split at h
        · simp only [reduceCtorEq] at h
        · simp only [ScanResult.finished.injEq] at h
          obtain ⟨rfl, rfl, rfl⟩ := h
          exact ⟨Or.inr rfl, Nat.le_of_lt hlt, Nat.lt_succ_self _⟩
      · split at h
        · simp only [ScanResult.finished.injEq] at h
          obtain ⟨rfl, rfl, rfl⟩ := h
          exact ⟨Or.inl rfl, Nat.le_refl _, hlt⟩
        · split at h
          · simp only [ScanResult.finished.injEq] at h
            obtain ⟨rfl, rfl, rfl⟩ := h
            exact ⟨Or.inl rfl, Nat.le_refl _, hlt⟩
          · obtain ⟨h1, h2, h3⟩ := ih _ _ _ _ _ _ _ h (Nat.lt_succ_self _)
            exact ⟨h1, Nat.le_trans (Nat.le_of_lt hlt) h2, h3⟩

/-- The scanning loop of `Lexer::next` stops at an illegal character at or
behind the position at which it started. -/
theorem Lexer.scan_illegalCharacter (isLiteral : Bool) (chars : List Char) :
    ∀ (current : Nat) (lastChar : Char) (tokenType : TokenType) (endRef : Nat)
      (current' : Nat),
      Lexer.scan isLiteral chars current lastChar tokenType endRef =
        .illegalCharacter current' →
      current ≤ current' := by
  induction chars with
  | nil =>
    intro current lastChar tokenType endRef current' h
    simp only [Lexer.scan, reduceCtorEq] at h
  | cons c rest ih =>
    intro current lastChar tokenType endRef current' h
    simp only [Lexer.scan] at h
    split at h
    · simp only [ScanResult.illegalCharacter.injEq] at h
      exact Nat.le_of_eq h
    · split at h
      · split at h <;> simp only [reduceCtorEq] at h
      · split at h
        · simp only [reduceCtorEq] at h
        · split at h
          · simp only [reduceCtorEq] at h
          · exact Nat.le_trans (Nat.le_succ _) (ih _ _ _ _ _ h)

/-- The type of a single character token tells its character for the four
operators, and is no error. -/
theorem Lexer.determineSingleCharacterTokenType_operator (c : Char) :
    (Lexer.determineSingleCharacterTokenType c = .OpPlus → c = '+') ∧
    (Lexer.determineSingleCharacterTokenType c = .OpMinus → c = '-') ∧
    (Lexer.determineSingleCharacterTokenType c = .OpMul → c = '*') ∧
    (Lexer.determineSingleCharacterTokenType c = .OpDiv → c = '/') ∧
    Lexer.determineSingleCharacterTokenType c ≠ .LexerError := by
  unfold Lexer.determineSingleCharacterTokenType
  by_cases h1 : c = ','
  · rw [if_pos h1]
    exact ⟨(fun h => by cases h), (fun h => by cases h), (fun h => by cases h),
      (fun h => by cases h), (fun h => by cases h)⟩
  rw [if_neg h1]
  by_cases h2 : c = ';'
  · rw [if_pos h2]
    exact ⟨(fun h => by cases h), (fun h => by cases h), (fun h => by cases h),
      (fun h => by cases h), (fun h => by cases h)⟩
  rw [if_neg h2]
  by_cases h3 : c = '='
  · rw [if_pos h3]
    exact ⟨(fun h => by cases h), (fun h => by cases h), (fun h => by cases h),
      (fun h => by cases h), (fun h => by cases h)⟩
  rw [if_neg h3]
  by_cases h4 : c = '('
  · rw [if_pos h4]
    exact ⟨(fun h => by cases h), (fun h => by cases h), (fun h => by cases h),
      (fun h => by cases h), (fun h => by cases h)⟩
  rw [if_neg h4]
  by_cases h5 : c = ')'
  · rw [if_pos h5]
    exact ⟨(fun h => by cases h), (fun h => by cases h), (fun h => by cases h),
      (fun h => by cases h), (fun h => by cases h)⟩
  rw [if_neg h5]
  by_cases h6 : c = '.'
  · rw [if_pos h6]
    exact ⟨(fun h => by cases h), (fun h => by cases h), (fun h => by cases h),
      (fun h => by cases h), (fun h => by cases h)⟩
  rw [if_neg h6]
  by_cases h7 : c = '+'
  · rw [if_pos h7]
    exact ⟨fun _ => h7, (fun h => by cases h), (fun h => by cases h),
      (fun h => by cases h), (fun h => by cases h)⟩
  rw [if_neg h7]
  by_cases h8 : c = '-'
  · rw [if_pos h8]
    exact ⟨(fun h => by cases h), fun _ => h8, (fun h => by cases h),
      (fun h => by cases h), (fun h => by cases h)⟩
  rw [if_neg h8]
  by_cases h9 : c = '*'
  · rw [if_pos h9]
    exact ⟨(fun h => by cases h), (fun h => by cases h), fun _ => h9,
      (fun h => by cases h), (fun h => by cases h)⟩
  rw [if_neg h9]
  by_cases h10 : c = '/'
  · rw [if_pos h10]
    exact ⟨(fun h => by cases h), (fun h => by cases h), (fun h => by cases h),
      fun _ => h10, (fun h => by cases h)⟩
  rw [if_neg h10]
  exact ⟨(fun h => by cases h), (fun h => by cases h), (fun h => by cases h),
    (fun h => by cases h), (fun h => by cases h)⟩

/-- The type of a token made of letters is a keyword or `Identifier`. -/
theorem Lexer.determineAlphaCharTokenType_type (codeString : List Char)
    (tokenType : TokenType)
    (h : Lexer.determineAlphaCharTokenType codeString = .ok tokenType) :
    tokenType ≠ .LexerError ∧ tokenType ≠ .Unknown ∧ tokenType ≠ .OpPlus ∧
    tokenType ≠ .OpMinus ∧ tokenType ≠ .OpMul ∧ tokenType ≠ .OpDiv := by
  unfold Lexer.determineAlphaCharTokenType at h
  by_cases h0 : codeString.isEmpty = true
  · rw [if_pos h0] at h
    cases h
  rw [if_neg h0] at h
  by_cases h1 : codeString = "PARAM".toList
  · rw [if_pos h1] at h
    cases h
    decide
  rw [if_neg h1] at h
  by_cases h2 : codeString = "VAR".toList
  · rw [if_pos h2] at h
    cases h
    decide
  rw [if_neg h2] at h
  by_cases h3 : codeString = "CONST".toList
  · rw [if_pos h3] at h
    cases h
    decide
  rw [if_neg h3] at h
  by_cases h4 : codeString = "BEGIN".toList
  · rw [if_pos h4] at h
    cases h
    decide
  rw [if_neg h4] at h
  by_cases h5 : codeString = "END".toList
  · rw [if_pos h5] at h
    cases h
    decide
  rw [if_neg h5] at h
  by_cases h6 : codeString = "RETURN".toList
  · rw [if_pos h6] at h
    cases h
    decide
  rw [if_neg h6] at h
  cases h
  decide

end lexer

end pljit

namespace pljit

namespace lexer

open common

/-- The text of the range of length 1 at an index of the source code is the
character at this index. -/
theorem toStringView_ofLocation (sourceCode : List Char) (index : Nat) (c : Char)
    (h : sourceCode[index]? = some c) :
    (SourceRangeReference.ofLocation { ref := index }).toStringView sourceCode = [c] := by
  simp only [SourceRangeReference.toStringView, SourceRangeReference.ofLocation]
  induction sourceCode generalizing index with
  | nil => simp at h
  | cons a rest ih =>
    cases index with
    | zero =>
      simp only [List.getElem?_cons_zero, Option.some.injEq] at h
      subst h
      simp
    | succ n =>
      simp only [List.getElem?_cons_succ] at h
      simpa using ih n h

/-- Trimming whitespace changes only `current`, and only forward. -/
theorem Lexer.trimLeadingWhitespace_spec (lexer : Lexer) :
    lexer.trimLeadingWhitespace.sourceCodeManager = lexer.sourceCodeManager ∧
    lexer.trimLeadingWhitespace.tokenCache = lexer.tokenCache ∧
    lexer.current ≤ lexer.trimLeadingWhitespace.current :=
  ⟨rfl, rfl, Nat.le_add_right _ _⟩

/-- The error paths of `Lexer::next` return an error token and cache it; the
source code is unchanged. -/
theorem Lexer.cacheError_spec (lexer lexer' : Lexer) (ref : SourceRangeReference)
    (message : String) (token : Token)
    (h : lexer.cacheError ref message = .ok (token, lexer')) :
    token.tokenType = .LexerError ∧ token.ref = ref ∧
    lexer'.tokenCache = some token ∧
    lexer'.sourceCodeManager.sourceCode = lexer.sourceCodeManager.sourceCode := by
  simp only [Lexer.cacheError, Token.new, reduceCtorEq, if_false, Except.ok.injEq,
    Prod.mk.injEq] at h
  obtain ⟨rfl, rfl⟩ := h
  exact ⟨rfl, rfl, rfl, rfl⟩

/-- What `Lexer::next` returns from a lexer with a consistent token cache:
the source code is unchanged and the cache stays consistent; the token
starts at or behind the position of the lexer; an error token is cached;
every other token agrees with the source code, ends before the new
`current`, and leaves the cache empty. -/
theorem Lexer.next_spec (lexer lexer' : Lexer) (token : Token)
    (hwf : lexer.WellFormed) (h : lexer.next = .ok (token, lexer')) :
    lexer'.sourceCodeManager.sourceCode = lexer.sourceCodeManager.sourceCode ∧
    lexer'.WellFormed ∧
    lexer.position ≤ token.ref.ref ∧
    (token.tokenType = .LexerError → lexer'.tokenCache = some token) ∧
    (token.tokenType ≠ .LexerError →
      token.WellFormed lexer.sourceCodeManager.sourceCode ∧
      lexer'.tokenCache = none ∧
      token.ref.ref + token.ref.length ≤ lexer'.current) := by
  unfold Lexer.next at h
  cases hcache : lexer.tokenCache with
  | some cached =>
    simp only [hcache] at h
    have hpos : lexer.position = cached.ref.ref := by
      simp only [Lexer.position, hcache]
    by_cases herr : cached.tokenType = .LexerError
    · rw [if_pos herr] at h
      simp only [Except.ok.injEq, Prod.mk.injEq] at h
      obtain ⟨h1, h2⟩ := h
      subst h1
      subst h2
      exact ⟨rfl, hwf, Nat.le_of_eq hpos, fun _ => hcache, fun hne => absurd herr hne⟩
    · rw [if_neg herr] at h
      simp only [Except.ok.injEq, Prod.mk.injEq] at h
      obtain ⟨h1, h2⟩ := h
      subst h1
      subst h2
      have hc := hwf cached (by simp only [hcache, Option.mem_def]) herr
      refine ⟨rfl, ?_, Nat.le_of_eq hpos, fun h => absurd h herr, fun _ => ⟨hc.1, rfl, hc.2⟩⟩
      intro t ht
      simp only [Option.mem_def, reduceCtorEq] at ht
  | none =>
    simp only [hcache] at h
    have hpos : lexer.position = lexer.current := by
      simp only [Lexer.position, hcache]
    split at h
    · cases h
    split at h
    · cases h
    rename_i firstChar hfirst
    split at h
    · cases h
    have herror : ∀ (l0 : Lexer) (ref : SourceRangeReference) (message : String),
        l0.cacheError ref message = .ok (token, lexer') →
        l0.sourceCodeManager.sourceCode = lexer.sourceCodeManager.sourceCode →
        lexer.position ≤ ref.ref →
        lexer'.sourceCodeManager.sourceCode = lexer.sourceCodeManager.sourceCode ∧
        lexer'.WellFormed ∧
        lexer.position ≤ token.ref.ref ∧
        (token.tokenType = .LexerError → lexer'.tokenCache = some token) ∧
        (token.tokenType ≠ .LexerError →
          token.WellFormed lexer.sourceCodeManager.sourceCode ∧
          lexer'.tokenCache = none ∧
          token.ref.ref + token.ref.length ≤ lexer'.current) := by
      intro l0 ref message hl0 hsrc hle
      obtain ⟨hty, href, hc, hs⟩ := Lexer.cacheError_spec l0 lexer' ref message token hl0
      refine ⟨hs.trans hsrc, ?_, ?_, fun _ => hc, fun hne => absurd hty hne⟩
      · intro t ht hne
        rw [hc] at ht
        simp only [Option.mem_def, Option.some.injEq] at ht
        subst ht
        exact absurd hty hne
      · rw [href]
        exact hle
    have htoken : ∀ (tokenType : TokenType) (ref : SourceRangeReference) (current : Nat),
        Token.new tokenType ref = .ok token →
        lexer' = Lexer.trimLeadingWhitespace
          { sourceCodeManager := lexer.sourceCodeManager, current := current,
            tokenCache := none } →
        lexer.current = ref.ref → 0 < ref.length → ref.ref + ref.length ≤ current →
        tokenType ≠ .LexerError →
        (tokenType = .OpPlus → ref.toStringView lexer.sourceCodeManager.sourceCode = ['+']) →
        (tokenType = .OpMinus → ref.toStringView lexer.sourceCodeManager.sourceCode = ['-']) →
        (tokenType = .OpMul → ref.toStringView lexer.sourceCodeManager.sourceCode = ['*']) →
        (tokenType = .OpDiv → ref.toStringView lexer.sourceCodeManager.sourceCode = ['/']) →
        lexer'.sourceCodeManager.sourceCode = lexer.sourceCodeManager.sourceCode ∧
        lexer'.WellFormed ∧
        lexer.position ≤ token.ref.ref ∧
        (token.tokenType = .LexerError → lexer'.tokenCache = some token) ∧
        (token.tokenType ≠ .LexerError →
          token.WellFormed lexer.sourceCodeManager.sourceCode ∧
          lexer'.tokenCache = none ∧
          token.ref.ref + token.ref.length ≤ lexer'.current) := by
      intro tokenType ref current hnew hl hstart hlen hend hne hp hm hmu hd
      simp only [Token.new] at hnew
      split at hnew
      · cases hnew
      simp only [Except.ok.injEq] at hnew
      subst hnew
      subst hl
      refine ⟨rfl, ?_, ?_, ?_, fun _ => ⟨⟨hlen, hp, hm, hmu, hd⟩, rfl, ?_⟩⟩
      · intro t ht
        simp only [Lexer.trimLeadingWhitespace, Option.mem_def, reduceCtorEq] at ht
      · rw [hpos, hstart]
      · intro hty
        exact absurd hty hne
      · exact Nat.le_trans hend (Nat.le_add_right _ _)
    split at h
    · exact herror _ _ _ h rfl (Nat.le_of_eq hpos)
    split at h
    · split at h
      · cases h
      rename_i newToken hnew
      simp only [Except.ok.injEq, Prod.mk.injEq] at h
      obtain ⟨h1, h2⟩ := h
      subst h1
      have hop := Lexer.determineSingleCharacterTokenType_operator firstChar
      have htext := toStringView_ofLocation _ _ _ hfirst
      refine htoken _ _ _ hnew h2.symm rfl Nat.one_pos (Nat.le_refl _) hop.2.2.2.2 ?_ ?_ ?_ ?_
      · intro hty
        rw [htext, hop.1 hty]
      · intro hty
        rw [htext, hop.2.1 hty]
      · intro hty
        rw [htext, hop.2.2.1 hty]
      · intro hty
        rw [htext, hop.2.2.2.1 hty]
    split at h
    · rename_i current' hscan
      have hle := Lexer.scan_illegalCharacter _ _ _ _ _ _ _ hscan
      refine herror _ _ _ h rfl ?_
      rw [hpos]
      exact Nat.le_trans (Nat.le_succ _) hle
    · exact herror _ _ _ h rfl (Nat.le_of_eq hpos)
    · rename_i scanned endRef current' hscan
      obtain ⟨hty, hstart, hend⟩ :=
        Lexer.scan_finished _ _ _ _ _ _ _ _ _ hscan (Nat.lt_succ_self _)
      split at h
      · cases h
      rename_i tokenType htype
      split at h
      · cases h
      rename_i newToken hnew
      simp only [Except.ok.injEq, Prod.mk.injEq] at h
      obtain ⟨h1, h2⟩ := h
      subst h1
      have hkind : tokenType ≠ .LexerError ∧ tokenType ≠ .OpPlus ∧ tokenType ≠ .OpMinus ∧
          tokenType ≠ .OpMul ∧ tokenType ≠ .OpDiv := by
        by_cases hunknown : scanned = .Unknown
        · rw [if_pos hunknown] at htype
          have := Lexer.determineAlphaCharTokenType_type _ _ htype
          exact ⟨this.1, this.2.2.1, this.2.2.2.1, this.2.2.2.2.1, this.2.2.2.2.2⟩
        · rw [if_neg hunknown] at htype
          simp only [Except.ok.injEq] at htype
          subst htype
          rcases hty with hty | hty
          · rw [hty]
            by_cases hlit : isLiteralChar firstChar = true
            · simp only [hlit, if_true, ne_eq, reduceCtorEq, not_false_eq_true, and_self]
            · rw [hty, if_neg hlit] at hunknown
              exact absurd rfl hunknown
          · rw [hty]
            simp only [ne_eq, reduceCtorEq, not_false_eq_true, and_self]
      have hlength : (SourceRangeReference.fromTo { ref := lexer.current }
          { ref := endRef }).length = endRef - lexer.current + 1 := rfl
      refine htoken _ _ _ hnew h2.symm rfl ?_ ?_ hkind.1
        (fun h => absurd h hkind.2.1) (fun h => absurd h hkind.2.2.1)
        (fun h => absurd h hkind.2.2.2.1) (fun h => absurd h hkind.2.2.2.2)
      · rw [hlength]
        exact Nat.succ_pos _
      · rw [hlength]
        show lexer.current + (endRef - lexer.current + 1) ≤ current'
        omega

/-- A token that is no error and that `Lexer::next` returned spans the two
states of the lexer. -/
theorem Lexer.next_spans (lexer lexer' : Lexer) (token : Token)
    (hwf : lexer.WellFormed) (h : lexer.next = .ok (token, lexer'))
    (hne : token.tokenType ≠ .LexerError) :
    lexer.Spans token.ref lexer' ∧
    token.WellFormed lexer.sourceCodeManager.sourceCode := by
  obtain ⟨hsrc, hwf', hpos, _, hok⟩ := Lexer.next_spec lexer lexer' token hwf h
  obtain ⟨htoken, hcache, hend⟩ := hok hne
  have hpos' : lexer'.position = lexer'.current := by
    simp only [Lexer.position, hcache]
  have hle : token.ref.ref ≤ token.ref.ref + token.ref.length := Nat.le_add_right _ _
  refine ⟨⟨⟨hsrc, hwf', ?_⟩, hpos, htoken.1, ?_⟩, htoken⟩
  · rw [hpos']
    exact Nat.le_trans hpos (Nat.le_trans hle hend)
  · rw [hpos']
    exact hend

/-- What `Lexer::peek` returns from a lexer with a consistent token cache:
the token is cached in a later state of the lexer, at whose position it
starts, and agrees with the source code unless it is an error token. -/
theorem Lexer.peek_spec (lexer lexer' : Lexer) (token : Token)
    (hwf : lexer.WellFormed) (h : lexer.peek = .ok (token, lexer')) :
    lexer.Advance lexer' ∧ lexer'.tokenCache = some token ∧
    (token.tokenType ≠ .LexerError →
      token.WellFormed lexer.sourceCodeManager.sourceCode) := by
  unfold Lexer.peek at h
  cases hcache : lexer.tokenCache with
  | some cached =>
    simp only [hcache, Except.ok.injEq, Prod.mk.injEq] at h
    obtain ⟨h1, h2⟩ := h
    subst h1
    subst h2
    exact ⟨⟨rfl, hwf, Nat.le_refl _⟩, hcache,
      fun hne => (hwf cached (by simp only [hcache, Option.mem_def]) hne).1⟩
  | none =>
    simp only [hcache] at h
    split at h
    · cases h
    rename_i next lexer₁ hnext
    simp only [Except.ok.injEq, Prod.mk.injEq] at h
    obtain ⟨h1, h2⟩ := h
    subst h1
    subst h2
    obtain ⟨hsrc, hwf', hpos, _, hok⟩ := Lexer.next_spec lexer lexer₁ next hwf hnext
    refine ⟨⟨hsrc, ?_, ?_⟩, rfl, fun hne => (hok hne).1⟩
    · intro t ht hne
      simp only [Option.mem_def, Option.some.injEq] at ht
      subst ht
      obtain ⟨htoken, _, hend⟩ := hok hne
      refine ⟨?_, hend⟩
      show next.WellFormed lexer₁.sourceCodeManager.sourceCode
      rw [hsrc]
      exact htoken
    · exact hpos

/-- A later state of a later state is a later state. -/
theorem Lexer.Advance.trans {lexer₁ lexer₂ lexer₃ : Lexer}
    (h₁ : lexer₁.Advance lexer₂) (h₂ : lexer₂.Advance lexer₃) : lexer₁.Advance lexer₃ :=
  ⟨h₂.1.trans h₁.1, h₂.2.1, Nat.le_trans h₁.2.2 h₂.2.2⟩

/-- Every state of a lexer with a consistent token cache is a later state of
itself. -/
theorem Lexer.Advance.refl {lexer : Lexer} (h : lexer.WellFormed) : lexer.Advance lexer :=
  ⟨rfl, h, Nat.le_refl _⟩

/-- A range read between two states was also read up to every later state. -/
theorem Lexer.Spans.advance {lexer₁ lexer₂ lexer₃ : Lexer} {ref : SourceRangeReference}
    (h₁ : lexer₁.Spans ref lexer₂) (h₂ : lexer₂.Advance lexer₃) : lexer₁.Spans ref lexer₃ :=
  ⟨h₁.1.trans h₂, h₁.2.1, h₁.2.2.1, Nat.le_trans h₁.2.2.2 h₂.2.2⟩

/-- A range read from a later state on was also read from every earlier
state on. -/
theorem Lexer.Spans.of_advance {lexer₁ lexer₂ lexer₃ : Lexer} {ref : SourceRangeReference}
    (h₁ : lexer₁.Advance lexer₂) (h₂ : lexer₂.Spans ref lexer₃) : lexer₁.Spans ref lexer₃ :=
  ⟨h₁.trans h₂.1, Nat.le_trans h₁.2.2 h₂.2.1, h₂.2.2.1, h₂.2.2.2⟩

/-- Two ranges read one after the other: the first range extends up to the
last character of the second, and the extended range was read between the
first and the last state. -/
theorem Lexer.Spans.extend {lexer₁ lexer₂ lexer₃ : Lexer} {ref₁ ref₂ : SourceRangeReference}
    (h₁ : lexer₁.Spans ref₁ lexer₂) (h₂ : lexer₂.Spans ref₂ lexer₃) :
    ∃ last ref, ref₂.last = .ok last ∧ ref₁.extendUntil last = .ok ref ∧
      lexer₁.Spans ref lexer₃ := by
  obtain ⟨ha₁, hs₁, hl₁, he₁⟩ := h₁
  obtain ⟨ha₂, hs₂, hl₂, he₂⟩ := h₂
  have hle : ref₁.ref ≤ ref₂.ref + (ref₂.length - 1) := by omega
  refine ⟨{ ref := ref₂.ref + (ref₂.length - 1) },
    { ref := ref₁.ref, length := ref₂.ref + (ref₂.length - 1) - ref₁.ref + 1 }, ?_, ?_, ?_⟩
  · simp only [SourceRangeReference.last, hl₂, if_true]
  · simp only [SourceRangeReference.extendUntil, hle, if_true]
  · refine ⟨ha₁.trans ha₂, hs₁, Nat.succ_pos _, ?_⟩
    show ref₁.ref + (ref₂.ref + (ref₂.length - 1) - ref₁.ref + 1) ≤ lexer₃.position
    omega

end lexer

end pljit

namespace pljit

namespace parser

open common lexer parse_tree

/-- The token cache of the lexer of a freshly constructed parser is
consistent. -/
theorem Parser.new_wellFormed (manager : SourceCodeManager) (parser : Parser)
    (h : Parser.new manager = .ok parser) : parser.lexer.WellFormed := by
  unfold Parser.new at h
  split at h
  · cases h
  rename_i token lexer hpeek
  split at h
  · cases h
  simp only [Except.ok.injEq] at h
  subst h
  have hwf : (Lexer.new manager).WellFormed := by
    intro t ht
    simp only [Lexer.new, Lexer.trimLeadingWhitespace, Option.mem_def, reduceCtorEq] at ht
  exact (Lexer.peek_spec (Lexer.new manager) lexer token hwf hpeek).1.2.1

/-- What `peekTokenType` returns from a parser whose lexer has a consistent
token cache: the lexer is in a later state, in which a peeked token is
cached; the token agrees with the source code unless it is an error token. -/
theorem Parser.peekTokenType_spec (parser parser' : Parser) (peeked : Option Token)
    (hwf : parser.lexer.WellFormed)
    (h : parser.peekTokenType = .ok (peeked, parser')) :
    parser.lexer.Advance parser'.lexer ∧
    ∀ token, peeked = some token →
      parser'.lexer.tokenCache = some token ∧
      (token.tokenType ≠ .LexerError →
        token.WellFormed parser.lexer.sourceCodeManager.sourceCode) := by
  unfold Parser.peekTokenType at h
  split at h
  · simp only [Except.ok.injEq, Prod.mk.injEq] at h
    obtain ⟨h1, h2⟩ := h
    subst h1
    subst h2
    exact ⟨Lexer.Advance.refl hwf, fun token ht => by cases ht⟩
  · split at h
    · cases h
    rename_i token lexer' hpeek
    simp only [Except.ok.injEq, Prod.mk.injEq] at h
    obtain ⟨h1, h2⟩ := h
    subst h1
    subst h2
    obtain ⟨hadv, hcache, htoken⟩ := Lexer.peek_spec parser.lexer lexer' token hwf hpeek
    refine ⟨hadv, fun t ht => ?_⟩
    simp only [Option.some.injEq] at ht
    subst ht
    exact ⟨hcache, htoken⟩

/-- A token of the expected type that `parseGenericToken` accepted spans the
two states of the lexer and agrees with the source code. -/
theorem Parser.parseGenericToken_spec (expectedTokenType : TokenType)
    (parser parser' : Parser) (node : GenericToken)
    (hwf : parser.lexer.WellFormed)
    (h : parser.parseGenericToken expectedTokenType = .ok node parser') :
    parser.lexer.Spans node.ref parser'.lexer ∧
    Token.WellFormed parser.lexer.sourceCodeManager.sourceCode
      { tokenType := expectedTokenType, ref := node.ref } := by
  unfold Parser.parseGenericToken at h
  split at h
  · cases h
  split at h
  · cases h
  rename_i token lexer' hnext
  simp only at h
  split at h
  · cases h
  rename_i herr
  split at h
  · cases h
  rename_i hty
  simp only [ne_eq, Decidable.not_not] at hty
  have hne : token.tokenType ≠ .LexerError := by
    intro hcontra
    apply herr
    simp only [Token.hasError, hcontra, decide_True]
  obtain ⟨hspans, htoken⟩ := Lexer.next_spans parser.lexer lexer' token hwf hnext hne
  simp only [ParseResult.ofExcept] at h
  split at h
  · simp only [ParseResult.ok.injEq] at h
    obtain ⟨h1, h2⟩ := h
    subst h1
    subst h2
    refine ⟨hspans, ?_⟩
    rw [← hty]
    exact htoken
  · cases h

/-- An identifier that `parseIdentifier` accepted spans the two states of
the lexer. -/
theorem Parser.parseIdentifier_spec (parser parser' : Parser) (node : Identifier)
    (hwf : parser.lexer.WellFormed)
    (h : parser.parseIdentifier = .ok node parser') :
    parser.lexer.Spans node.ref parser'.lexer := by
  unfold Parser.parseIdentifier at h
  split at h
  · cases h
  split at h
  · cases h
  rename_i token lexer' hnext
  simp only at h
  split at h
  · cases h
  rename_i herr
  split at h
  · cases h
  have hne : token.tokenType ≠ .LexerError := by
    intro hcontra
    apply herr
    simp only [Token.hasError, hcontra, decide_True]
  obtain ⟨hspans, _⟩ := Lexer.next_spans parser.lexer lexer' token hwf hnext hne
  simp only [ParseResult.ofExcept] at h
  split at h
  · simp only [ParseResult.ok.injEq] at h
    obtain ⟨h1, h2⟩ := h
    subst h1
    subst h2
    exact hspans
  · cases h

/-- A literal that `parseLiteral` accepted spans the two states of the
lexer. -/
theorem Parser.parseLiteral_spec (parser parser' : Parser) (node : Literal)
    (hwf : parser.lexer.WellFormed)
    (h : parser.parseLiteral = .ok node parser') :
    parser.lexer.Spans node.ref parser'.lexer := by
  unfold Parser.parseLiteral at h
  split at h
  · cases h
  split at h
  · cases h
  rename_i token lexer' hnext
  simp only at h
  split at h
  · cases h
  rename_i herr
  split at h
  · cases h
  have hne : token.tokenType ≠ .LexerError := by
    intro hcontra
    apply herr
    simp only [Token.hasError, hcontra, decide_True]
  obtain ⟨hspans, _⟩ := Lexer.next_spans parser.lexer lexer' token hwf hnext hne
  simp only [ParseResult.ofExcept] at h
  split at h
  · simp only [ParseResult.ok.injEq] at h
    obtain ⟨h1, h2⟩ := h
    subst h1
    subst h2
    exact hspans
  · cases h

end parser

end pljit

namespace pljit

namespace parser

open common lexer parse_tree

/-- Inversion of a successful `bind`. -/
theorem ParseResult.bind_ok {α β : Type} (result : ParseResult α)
    (next : α → Parser → ParseResult β) (node : β) (parser' : Parser)
    (h : result.bind next = .ok node parser') :
    ∃ first parser₁, result = .ok first parser₁ ∧ next first parser₁ = .ok node parser' := by
  cases result with
  | ok first parser₁ => exact ⟨first, parser₁, rfl, h⟩
  | error parser₁ => cases h
  | fault cause => cases h

/-- Inversion of a successful `ofExcept`. -/
theorem ParseResult.ofExcept_ok {α β : Type} (result : Except Fault α)
    (next : α → ParseResult β) (node : β) (parser' : Parser)
    (h : ParseResult.ofExcept result next = .ok node parser') :
    ∃ value, result = .ok value ∧ next value = .ok node parser' := by
  cases result with
  | ok value => exact ⟨value, rfl, h⟩
  | error cause => cases h

/-- The node built by `AdditiveExpression.newBinary` holds its arguments;
its type is `Add` for the operator text `+` and `Sub` for `-`. -/
theorem AdditiveExpression.newBinary_additive_ok (sourceCode : List Char)
    (m : MultiplicativeExpression) (op : GenericToken) (a : AdditiveExpression)
    (ref : SourceRangeReference) (node : AdditiveExpression)
    (h : AdditiveExpression.newBinary sourceCode m op a ref = .ok node) :
    (op.ref.toStringView sourceCode = ['+'] ∧ node = .binary m op a .Add ref) ∨
    (op.ref.toStringView sourceCode = ['-'] ∧ node = .binary m op a .Sub ref) := by
  unfold AdditiveExpression.newBinary at h
  split at h
  · rename_i hplus
    simp only [Except.ok.injEq] at h
    exact Or.inl ⟨hplus, h.symm⟩
  · split at h
    · rename_i hminus
      simp only [Except.ok.injEq] at h
      exact Or.inr ⟨hminus, h.symm⟩
    · cases h

/-- The node built by `MultiplicativeExpression.newBinary` holds its
arguments; its type is `Mul` for the operator text `*` and `Div` for `/`. -/
theorem MultiplicativeExpression.newBinary_multiplicative_ok (sourceCode : List Char)
    (u : UnaryExpression) (op : GenericToken) (m : MultiplicativeExpression)
    (ref : SourceRangeReference) (node : MultiplicativeExpression)
    (h : MultiplicativeExpression.newBinary sourceCode u op m ref = .ok node) :
    (op.ref.toStringView sourceCode = ['*'] ∧ node = .binary u op m .Mul ref) ∨
    (op.ref.toStringView sourceCode = ['/'] ∧ node = .binary u op m .Div ref) := by
  unfold MultiplicativeExpression.newBinary at h
  split at h
  · rename_i hmul
    simp only [Except.ok.injEq] at h
    exact Or.inl ⟨hmul, h.symm⟩
  · split at h
    · rename_i hdiv
      simp only [Except.ok.injEq] at h
      exact Or.inr ⟨hdiv, h.symm⟩
    · cases h

/-- The node built by `UnaryExpression.newSigned` has the range it was given. -/
theorem UnaryExpression.newSigned_ref (sourceCode : List Char) (sign : GenericToken)
    (primary : PrimaryExpression) (ref : SourceRangeReference) (node : UnaryExpression)
    (h : UnaryExpression.newSigned sourceCode sign primary ref = .ok node) :
    node.getReference = ref := by
  unfold UnaryExpression.newSigned at h
  split at h
  · simp only [Except.ok.injEq] at h
    rw [← h]
    rfl
  · split at h
    · simp only [Except.ok.injEq] at h
      rw [← h]
      rfl
    · cases h

/-- The range that `extendUntil` returns after `last`. -/
theorem extendUntil_last (ref₁ ref₂ ref : SourceRangeReference)
    (last : SourceLocationReference)
    (hlast : ref₂.last = .ok last) (hextend : ref₁.extendUntil last = .ok ref) :
    0 < ref₂.length ∧ ref₁.ref ≤ ref₂.ref + (ref₂.length - 1) ∧
    ref = { ref := ref₁.ref, length := ref₂.ref + (ref₂.length - 1) - ref₁.ref + 1 } := by
  unfold SourceRangeReference.last at hlast
  split at hlast
  · rename_i hlen
    simp only [Except.ok.injEq] at hlast
    subst hlast
    unfold SourceRangeReference.extendUntil at hextend
    split at hextend
    · rename_i hle
      simp only [Except.ok.injEq] at hextend
      exact ⟨hlen, hle, hextend.symm⟩
    · cases hextend
  · cases hlast

/-- Two ranges read one after the other and the extension of the first up to
the last character of the second, as the parser computes it. -/
theorem Lexer.Spans.extended {lexer₁ lexer₂ lexer₃ : Lexer}
    {ref₁ ref₂ ref : SourceRangeReference} {last : SourceLocationReference}
    (h₁ : lexer₁.Spans ref₁ lexer₂) (h₂ : lexer₂.Spans ref₂ lexer₃)
    (hlast : ref₂.last = .ok last) (hextend : ref₁.extendUntil last = .ok ref) :
    lexer₁.Spans ref lexer₃ := by
  obtain ⟨last', ref', hlast', hextend', hspans⟩ := Lexer.Spans.extend h₁ h₂
  rw [hlast] at hlast'
  simp only [Except.ok.injEq] at hlast'
  subst hlast'
  rw [hextend] at hextend'
  simp only [Except.ok.injEq] at hextend'
  subst hextend'
  exact hspans

/-- The nodes that the functions of the parser for expressions return span
the states of the lexer before and after the call. -/
theorem Parser.parseExpression_spans (fuel : Nat) :
    (∀ (parser parser' : Parser) (node : AdditiveExpression),
      parser.lexer.WellFormed →
      Parser.parseAdditiveExpression fuel parser = .ok node parser' →
      parser.lexer.Spans node.getReference parser'.lexer) ∧
    (∀ (parser parser' : Parser) (node : MultiplicativeExpression),
      parser.lexer.WellFormed →
      Parser.parseMultiplicativeExpression fuel parser = .ok node parser' →
      parser.lexer.Spans node.getReference parser'.lexer) ∧
    (∀ (parser parser' : Parser) (node : UnaryExpression),
      parser.lexer.WellFormed →
      Parser.parseUnaryExpression fuel parser = .ok node parser' →
      parser.lexer.Spans node.getReference parser'.lexer) ∧
    (∀ (parser parser' : Parser) (node : PrimaryExpression),
      parser.lexer.WellFormed →
      Parser.parsePrimaryExpression fuel parser = .ok node parser' →
      parser.lexer.Spans node.getReference parser'.lexer) := by
  induction fuel with
  | zero =>
    refine ⟨?_, ?_, ?_, ?_⟩ <;> intro parser parser' node _ h
    · simp only [Parser.parseAdditiveExpression, reduceCtorEq] at h
    · simp only [Parser.parseMultiplicativeExpression, reduceCtorEq] at h
    · simp only [Parser.parseUnaryExpression, reduceCtorEq] at h
    · simp only [Parser.parsePrimaryExpression, reduceCtorEq] at h
  | succ fuel ih =>
    obtain ⟨ihAdd, ihMul, ihUnary, ihPrimary⟩ := ih
    refine ⟨?_, ?_, ?_, ?_⟩
    · intro parser parser' node hwf h
      simp only [Parser.parseAdditiveExpression] at h
      obtain ⟨m, p₁, hm, h⟩ := ParseResult.bind_ok _ _ _ _ h
      have hsm := ihMul parser p₁ m hwf hm
      obtain ⟨⟨peeked, p₂⟩, hpeek, h⟩ := ParseResult.ofExcept_ok _ _ _ _ h
      obtain ⟨hadv, hpeeked⟩ := Parser.peekTokenType_spec p₁ p₂ peeked hsm.1.2.1 hpeek
      simp only at h
      cases peeked with
      | none =>
        simp only [ParseResult.ok.injEq] at h
        obtain ⟨h1, h2⟩ := h
        subst h1
        subst h2
        exact hsm.advance hadv
      | some token =>
        simp only at h
        split at h
        · obtain ⟨op, p₃, hop, h⟩ := ParseResult.bind_ok _ _ _ _ h
          obtain ⟨hsop, _⟩ := Parser.parseGenericToken_spec _ p₂ p₃ op hadv.2.1 hop
          obtain ⟨a, p₄, ha, h⟩ := ParseResult.bind_ok _ _ _ _ h
          have hsa := ihAdd p₃ p₄ a hsop.1.2.1 ha
          obtain ⟨last, hlast, h⟩ := ParseResult.ofExcept_ok _ _ _ _ h
          obtain ⟨ref, hextend, h⟩ := ParseResult.ofExcept_ok _ _ _ _ h
          obtain ⟨built, hbuilt, h⟩ := ParseResult.ofExcept_ok _ _ _ _ h
          simp only [ParseResult.ok.injEq] at h
          obtain ⟨h1, h2⟩ := h
          subst h1
          subst h2
          have href : built.getReference = ref := by
            rcases AdditiveExpression.newBinary_additive_ok _ _ _ _ _ _ hbuilt with ⟨_, hb⟩ | ⟨_, hb⟩ <;>
              (rw [hb]; rfl)
          rw [href]
          exact Lexer.Spans.extended (hsm.advance hadv)
            (Lexer.Spans.of_advance hsop.1 hsa) hlast hextend
        · simp only [ParseResult.ok.injEq] at h
          obtain ⟨h1, h2⟩ := h
          subst h1
          subst h2
          exact hsm.advance hadv
    · intro parser parser' node hwf h
      simp only [Parser.parseMultiplicativeExpression] at h
      obtain ⟨u, p₁, hu, h⟩ := ParseResult.bind_ok _ _ _ _ h
      have hsu := ihUnary parser p₁ u hwf hu
      obtain ⟨⟨peeked, p₂⟩, hpeek, h⟩ := ParseResult.ofExcept_ok _ _ _ _ h
      obtain ⟨hadv, hpeeked⟩ := Parser.peekTokenType_spec p₁ p₂ peeked hsu.1.2.1 hpeek
      simp only at h
      cases peeked with
      | none =>
        simp only [ParseResult.ok.injEq] at h
        obtain ⟨h1, h2⟩ := h
        subst h1
        subst h2
        exact hsu.advance hadv
      | some token =>
        simp only at h
        split at h
        · obtain ⟨op, p₃, hop, h⟩ := ParseResult.bind_ok _ _ _ _ h
          obtain ⟨hsop, _⟩ := Parser.parseGenericToken_spec _ p₂ p₃ op hadv.2.1 hop
          obtain ⟨m, p₄, hm, h⟩ := ParseResult.bind_ok _ _ _ _ h
          have hsm := ihMul p₃ p₄ m hsop.1.2.1 hm
          obtain ⟨last, hlast, h⟩ := ParseResult.ofExcept_ok _ _ _ _ h
          obtain ⟨ref, hextend, h⟩ := ParseResult.ofExcept_ok _ _ _ _ h
          obtain ⟨built, hbuilt, h⟩ := ParseResult.ofExcept_ok _ _ _ _ h
          simp only [ParseResult.ok.injEq] at h
          obtain ⟨h1, h2⟩ := h
          subst h1
          subst h2
          have href : built.getReference = ref := by
            rcases MultiplicativeExpression.newBinary_multiplicative_ok _ _ _ _ _ _ hbuilt with
              ⟨_, hb⟩ | ⟨_, hb⟩ <;> (rw [hb]; rfl)
          rw [href]
          exact Lexer.Spans.extended (hsu.advance hadv)
            (Lexer.Spans.of_advance hsop.1 hsm) hlast hextend
        · simp only [ParseResult.ok.injEq] at h
          obtain ⟨h1, h2⟩ := h
          subst h1
          subst h2
          exact hsu.advance hadv
    · intro parser parser' node hwf h
      simp only [Parser.parseUnaryExpression] at h
      split at h
      · cases h
      obtain ⟨⟨token, lexer'⟩, hpeek, h⟩ := ParseResult.ofExcept_ok _ _ _ _ h
      obtain ⟨hadv, _, _⟩ := Lexer.peek_spec parser.lexer lexer' token hwf hpeek
      simp only at h
      split at h
      · obtain ⟨sign, p₁, hsign, h⟩ := ParseResult.bind_ok _ _ _ _ h
        obtain ⟨hssign, _⟩ := Parser.parseGenericToken_spec _ _ p₁ sign hadv.2.1 hsign
        obtain ⟨primary, p₂, hprimary, h⟩ := ParseResult.bind_ok _ _ _ _ h
        have hsp := ihPrimary p₁ p₂ primary hssign.1.2.1 hprimary
        obtain ⟨last, hlast, h⟩ := ParseResult.ofExcept_ok _ _ _ _ h
        obtain ⟨ref, hextend, h⟩ := ParseResult.ofExcept_ok _ _ _ _ h
        obtain ⟨built, hbuilt, h⟩ := ParseResult.ofExcept_ok _ _ _ _ h
        simp only [ParseResult.ok.injEq] at h
        obtain ⟨h1, h2⟩ := h
        subst h1
        subst h2
        rw [UnaryExpression.newSigned_ref _ _ _ _ _ hbuilt]
        exact Lexer.Spans.of_advance hadv (Lexer.Spans.extended hssign hsp hlast hextend)
      · obtain ⟨primary, p₁, hprimary, h⟩ := ParseResult.bind_ok _ _ _ _ h
        have hsp := ihPrimary _ p₁ primary hadv.2.1 hprimary
        simp only [ParseResult.ok.injEq] at h
        obtain ⟨h1, h2⟩ := h
        subst h1
        subst h2
        exact Lexer.Spans.of_advance hadv hsp
    · intro parser parser' node hwf h
      simp only [Parser.parsePrimaryExpression] at h
      split at h
      · cases h
      obtain ⟨⟨token, lexer'⟩, hpeek, h⟩ := ParseResult.ofExcept_ok _ _ _ _ h
      obtain ⟨hadv, _, _⟩ := Lexer.peek_spec parser.lexer lexer' token hwf hpeek
      simp only at h
      split at h
      · obtain ⟨identifier, p₁, hidentifier, h⟩ := ParseResult.bind_ok _ _ _ _ h
        have hs := Parser.parseIdentifier_spec _ p₁ identifier hadv.2.1 hidentifier
        simp only [ParseResult.ok.injEq] at h
        obtain ⟨h1, h2⟩ := h
        subst h1
        subst h2
        exact Lexer.Spans.of_advance hadv hs
      split at h
      · obtain ⟨literal, p₁, hliteral, h⟩ := ParseResult.bind_ok _ _ _ _ h
        have hs := Parser.parseLiteral_spec _ p₁ literal hadv.2.1 hliteral
        simp only [ParseResult.ok.injEq] at h
        obtain ⟨h1, h2⟩ := h
        subst h1
        subst h2
        exact Lexer.Spans.of_advance hadv hs
      split at h
      · cases h
      obtain ⟨left, p₁, hleft, h⟩ := ParseResult.bind_ok _ _ _ _ h
      obtain ⟨hsleft, _⟩ := Parser.parseGenericToken_spec _ _ p₁ left hadv.2.1 hleft
      obtain ⟨a, p₂, ha, h⟩ := ParseResult.bind_ok _ _ _ _ h
      have hsa := ihAdd p₁ p₂ a hsleft.1.2.1 ha
      split at h
      · cases h
      · cases h
      rename_i right p₃ hright
      obtain ⟨hsright, _⟩ := Parser.parseGenericToken_spec _ p₂ p₃ right hsa.1.2.1 hright
      obtain ⟨last, hlast, h⟩ := ParseResult.ofExcept_ok _ _ _ _ h
      obtain ⟨ref, hextend, h⟩ := ParseResult.ofExcept_ok _ _ _ _ h
      simp only [ParseResult.ok.injEq] at h
      obtain ⟨h1, h2⟩ := h
      subst h1
      subst h2
      exact Lexer.Spans.of_advance hadv
        (Lexer.Spans.extended (hsleft.advance hsa.1) hsright hlast hextend)

end parser

end pljit

namespace pljit

open common lexer parse_tree parser analysis

/-- The node that `AdditiveExpression.newBinary` builds for an operator
token `+` or `-` that agrees with the source code. -/
theorem AdditiveExpression.newBinary_of_additive_token (sourceCode : List Char)
    (tokenType : TokenType) (m : MultiplicativeExpression) (op : GenericToken)
    (a : AdditiveExpression) (ref : SourceRangeReference)
    (hwf : Token.WellFormed sourceCode { tokenType := tokenType, ref := op.ref })
    (hty : tokenType = .OpPlus ∨ tokenType = .OpMinus) :
    AdditiveExpression.newBinary sourceCode m op a ref =
      .ok (.binary m op a (if tokenType = .OpPlus then .Add else .Sub) ref) := by
  unfold AdditiveExpression.newBinary
  rcases hty with hty | hty
  · have htext : op.ref.toStringView sourceCode = ['+'] := hwf.2.1 hty
    rw [if_pos htext, if_pos hty]
  · have htext : op.ref.toStringView sourceCode = ['-'] := hwf.2.2.1 hty
    have hne : ¬ op.ref.toStringView sourceCode = ['+'] := by
      rw [htext]
      decide
    have hty' : ¬ tokenType = .OpPlus := by
      rw [hty]
      decide
    rw [if_neg hne, if_pos htext, if_neg hty']

/-- The node that `MultiplicativeExpression.newBinary` builds for an
operator token `*` or `/` that agrees with the source code. -/
theorem MultiplicativeExpression.newBinary_of_multiplicative_token (sourceCode : List Char)
    (tokenType : TokenType) (u : UnaryExpression) (op : GenericToken)
    (m : MultiplicativeExpression) (ref : SourceRangeReference)
    (hwf : Token.WellFormed sourceCode { tokenType := tokenType, ref := op.ref })
    (hty : tokenType = .OpMul ∨ tokenType = .OpDiv) :
    MultiplicativeExpression.newBinary sourceCode u op m ref =
      .ok (.binary u op m (if tokenType = .OpMul then .Mul else .Div) ref) := by
  unfold MultiplicativeExpression.newBinary
  rcases hty with hty | hty
  · have htext : op.ref.toStringView sourceCode = ['*'] := hwf.2.2.2.1 hty
    rw [if_pos htext, if_pos hty]
  · have htext : op.ref.toStringView sourceCode = ['/'] := hwf.2.2.2.2 hty
    have hne : ¬ op.ref.toStringView sourceCode = ['*'] := by
      rw [htext]
      decide
    have hty' : ¬ tokenType = .OpMul := by
      rw [hty]
      decide
    rw [if_neg hne, if_pos htext, if_neg hty']

/-- The analysis of an additive expression with operator, in terms of the
analysis of its operands. -/
theorem SemanticAnalysis.analyzeAdditiveExpression_binary (tokenType : TokenType)
    (m next : MultiplicativeExpression) (op : GenericToken) (a : AdditiveExpression)
    (rest : List (TokenType × MultiplicativeExpression)) (ref : SourceRangeReference)
    (ih : ∀ analysis, SemanticAnalysis.analyzeAdditiveExpression a analysis =
      SemanticAnalysis.analyzeAdditiveChain next rest analysis)
    (analysis : SemanticAnalysis) :
    SemanticAnalysis.analyzeAdditiveExpression
        (.binary m op a (if tokenType = .OpPlus then .Add else .Sub) ref) analysis =
      SemanticAnalysis.analyzeAdditiveChain m ((tokenType, next) :: rest) analysis := by
  simp only [SemanticAnalysis.analyzeAdditiveExpression,
    SemanticAnalysis.analyzeAdditiveChain, SemanticAnalysis.analyzeAdditiveOperands]
  cases SemanticAnalysis.analyzeMultiplicativeExpression m analysis with
  | error analysis₁ => rfl
  | fault cause => rfl
  | ok e analysis₁ =>
    simp only [AnalysisResult.bind]
    have hty : ¬ (if tokenType = .OpPlus then AdditiveExpressionType.Add
        else AdditiveExpressionType.Sub) = .None := by
      split <;> decide
    rw [if_neg hty, ih analysis₁]
    simp only [SemanticAnalysis.analyzeAdditiveChain]
    cases SemanticAnalysis.analyzeMultiplicativeExpression next analysis₁ with
    | error analysis₂ => rfl
    | fault cause => rfl
    | ok e' analysis₂ =>
      simp only [AnalysisResult.bind]
      cases SemanticAnalysis.analyzeAdditiveOperands rest analysis₂ with
      | error analysis₃ => rfl
      | fault cause => rfl
      | ok operands analysis₃ =>
        simp only [ast.nestRight, additiveOperator]
        by_cases hplus : tokenType = .OpPlus
        · simp only [hplus, if_true]
        · simp only [hplus, if_false, reduceCtorEq]

/-- The analysis of a multiplicative expression with operator, in terms of
the analysis of its operands. -/
theorem SemanticAnalysis.analyzeMultiplicativeExpression_binary (tokenType : TokenType)
    (u next : UnaryExpression) (op : GenericToken) (m : MultiplicativeExpression)
    (rest : List (TokenType × UnaryExpression)) (ref : SourceRangeReference)
    (ih : ∀ analysis, SemanticAnalysis.analyzeMultiplicativeExpression m analysis =
      SemanticAnalysis.analyzeMultiplicativeChain next rest analysis)
    (analysis : SemanticAnalysis) :
    SemanticAnalysis.analyzeMultiplicativeExpression
        (.binary u op m (if tokenType = .OpMul then .Mul else .Div) ref) analysis =
      SemanticAnalysis.analyzeMultiplicativeChain u ((tokenType, next) :: rest) analysis := by
  simp only [SemanticAnalysis.analyzeMultiplicativeExpression,
    SemanticAnalysis.analyzeMultiplicativeChain,
    SemanticAnalysis.analyzeMultiplicativeOperands]
  cases SemanticAnalysis.analyzeUnaryExpression u analysis with
  | error analysis₁ => rfl
  | fault cause => rfl
  | ok e analysis₁ =>
    simp only [AnalysisResult.bind]
    have hty : ¬ (if tokenType = .OpMul then MultiplicativeExpressionType.Mul
        else MultiplicativeExpressionType.Div) = .None := by
      split <;> decide
    rw [if_neg hty, ih analysis₁]
    simp only [SemanticAnalysis.analyzeMultiplicativeChain]
    cases SemanticAnalysis.analyzeUnaryExpression next analysis₁ with
    | error analysis₂ => rfl
    | fault cause => rfl
    | ok e' analysis₂ =>
      simp only [AnalysisResult.bind]
      cases SemanticAnalysis.analyzeMultiplicativeOperands rest analysis₂ with
      | error analysis₃ => rfl
      | fault cause => rfl
      | ok operands analysis₃ =>
        simp only [ast.nestRight, multiplicativeOperator]
        by_cases hmul : tokenType = .OpMul
        · simp only [hmul, if_true]
        · simp only [hmul, if_false, reduceCtorEq]

/-- The analysis of a chain with a single operand is the analysis of the
operand. -/
theorem SemanticAnalysis.analyzeAdditiveChain_single (m : MultiplicativeExpression)
    (analysis : SemanticAnalysis) :
    SemanticAnalysis.analyzeMultiplicativeExpression m analysis =
      SemanticAnalysis.analyzeAdditiveChain m [] analysis := by
  simp only [SemanticAnalysis.analyzeAdditiveChain, SemanticAnalysis.analyzeAdditiveOperands]
  cases SemanticAnalysis.analyzeMultiplicativeExpression m analysis <;> rfl

/-- The analysis of a chain with a single operand is the analysis of the
operand. -/
theorem SemanticAnalysis.analyzeMultiplicativeChain_single (u : UnaryExpression)
    (analysis : SemanticAnalysis) :
    SemanticAnalysis.analyzeUnaryExpression u analysis =
      SemanticAnalysis.analyzeMultiplicativeChain u [] analysis := by
  simp only [SemanticAnalysis.analyzeMultiplicativeChain,
    SemanticAnalysis.analyzeMultiplicativeOperands]
  cases SemanticAnalysis.analyzeUnaryExpression u analysis <;> rfl

/-- A chain of additive operators that can be read from left to right is
parsed by `parseAdditiveExpression` into a node whose analysis nests the
operators to the right. -/
theorem Parser.parseAdditiveExpression_chain (fuel : Nat) :
    ∀ (parser parser' : Parser) (first : MultiplicativeExpression)
      (rest : List (TokenType × MultiplicativeExpression)),
      parser.lexer.WellFormed →
      parser.readAdditiveChain fuel = .ok (first, rest) parser' →
      ∃ node, Parser.parseAdditiveExpression fuel parser = .ok node parser' ∧
        ∀ analysis, SemanticAnalysis.analyzeAdditiveExpression node analysis =
          SemanticAnalysis.analyzeAdditiveChain first rest analysis := by
  induction fuel with
  | zero =>
    intro parser parser' first rest _ h
    simp only [Parser.readAdditiveChain, reduceCtorEq] at h
  | succ fuel ih =>
    intro parser parser' first rest hwf h
    simp only [Parser.readAdditiveChain] at h
    obtain ⟨m, p₁, hm, h⟩ := ParseResult.bind_ok _ _ _ _ h
    have hsm := (Parser.parseExpression_spans fuel).2.1 parser p₁ m hwf hm
    obtain ⟨⟨peeked, p₂⟩, hpeek, h⟩ := ParseResult.ofExcept_ok _ _ _ _ h
    obtain ⟨hadv, _⟩ := Parser.peekTokenType_spec p₁ p₂ peeked hsm.1.2.1 hpeek
    simp only at h
    cases peeked with
    | none =>
      simp only [ParseResult.ok.injEq, Prod.mk.injEq] at h
      obtain ⟨⟨h1, h2⟩, h3⟩ := h
      subst h1
      subst h2
      subst h3
      refine ⟨.single m m.getReference, ?_, fun analysis => ?_⟩
      · simp only [Parser.parseAdditiveExpression, hm, ParseResult.bind, hpeek,
          ParseResult.ofExcept]
      · simp only [SemanticAnalysis.analyzeAdditiveExpression]
        exact SemanticAnalysis.analyzeAdditiveChain_single m analysis
    | some token =>
      simp only at h
      by_cases hty : token.tokenType = .OpPlus ∨ token.tokenType = .OpMinus
      · rw [if_pos hty] at h
        obtain ⟨op, p₃, hop, h⟩ := ParseResult.bind_ok _ _ _ _ h
        obtain ⟨hsop, hwfop⟩ := Parser.parseGenericToken_spec _ p₂ p₃ op hadv.2.1 hop
        obtain ⟨⟨next, rest'⟩, p₄, hchain, h⟩ := ParseResult.bind_ok _ _ _ _ h
        simp only [ParseResult.ok.injEq, Prod.mk.injEq] at h
        obtain ⟨⟨h1, h2⟩, h3⟩ := h
        subst h1
        subst h2
        subst h3
        obtain ⟨a, ha, hanalysis⟩ := ih p₃ p₄ next rest' hsop.1.2.1 hchain
        have hsa := (Parser.parseExpression_spans fuel).1 p₃ p₄ a hsop.1.2.1 ha
        obtain ⟨last, ref, hlast, hextend, _⟩ :=
          Lexer.Spans.extend (hsm.advance hadv) (Lexer.Spans.of_advance hsop.1 hsa)
        have hsource : p₄.lexer.sourceCodeManager.sourceCode =
            p₂.lexer.sourceCodeManager.sourceCode := hsa.1.1.trans hsop.1.1
        have hbuilt := AdditiveExpression.newBinary_of_additive_token
          p₄.lexer.sourceCodeManager.sourceCode token.tokenType m op a ref
          (by rw [hsource]; exact hwfop) hty
        refine ⟨_, ?_, fun analysis =>
          SemanticAnalysis.analyzeAdditiveExpression_binary token.tokenType m next op a
            rest' ref hanalysis analysis⟩
        simp only [Parser.parseAdditiveExpression, hm, ParseResult.bind, hpeek,
          ParseResult.ofExcept, hty, if_true, hop, ha, hlast, hextend, hbuilt]
      · rw [if_neg hty] at h
        simp only [ParseResult.ok.injEq, Prod.mk.injEq] at h
        obtain ⟨⟨h1, h2⟩, h3⟩ := h
        subst h1
        subst h2
        subst h3
        refine ⟨.single m m.getReference, ?_, fun analysis => ?_⟩
        · simp only [Parser.parseAdditiveExpression, hm, ParseResult.bind, hpeek,
            ParseResult.ofExcept, hty, if_false]
        · simp only [SemanticAnalysis.analyzeAdditiveExpression]
          exact SemanticAnalysis.analyzeAdditiveChain_single m analysis

/-- A chain of multiplicative operators that can be read from left to right
is parsed by `parseUnaryExpression` into a node whose analysis
nests the operators to the right. -/
theorem Parser.parseMultiplicativeExpression_chain (fuel : Nat) :
    ∀ (parser parser' : Parser) (first : UnaryExpression)
      (rest : List (TokenType × UnaryExpression)),
      parser.lexer.WellFormed →
      parser.readMultiplicativeChain fuel = .ok (first, rest) parser' →
      ∃ node, Parser.parseMultiplicativeExpression fuel parser = .ok node parser' ∧
        ∀ analysis, SemanticAnalysis.analyzeMultiplicativeExpression node analysis =
          SemanticAnalysis.analyzeMultiplicativeChain first rest analysis := by
  induction fuel with
  | zero =>
    intro parser parser' first rest _ h
    simp only [Parser.readMultiplicativeChain, reduceCtorEq] at h
  | succ fuel ih =>
    intro parser parser' first rest hwf h
    simp only [Parser.readMultiplicativeChain] at h
    obtain ⟨m, p₁, hm, h⟩ := ParseResult.bind_ok _ _ _ _ h
    have hsm := (Parser.parseExpression_spans fuel).2.2.1 parser p₁ m hwf hm
    obtain ⟨⟨peeked, p₂⟩, hpeek, h⟩ := ParseResult.ofExcept_ok _ _ _ _ h
    obtain ⟨hadv, _⟩ := Parser.peekTokenType_spec p₁ p₂ peeked hsm.1.2.1 hpeek
    simp only at h
    cases peeked with
    | none =>
      simp only [ParseResult.ok.injEq, Prod.mk.injEq] at h
      obtain ⟨⟨h1, h2⟩, h3⟩ := h
      subst h1
      subst h2
      subst h3
      refine ⟨.single m m.getReference, ?_, fun analysis => ?_⟩
      · simp only [Parser.parseMultiplicativeExpression, hm, ParseResult.bind, hpeek,
          ParseResult.ofExcept]
      · simp only [SemanticAnalysis.analyzeMultiplicativeExpression]
        exact SemanticAnalysis.analyzeMultiplicativeChain_single m analysis
    | some token =>
      simp only at h
      by_cases hty : token.tokenType = .OpMul ∨ token.tokenType = .OpDiv
      · rw [if_pos hty] at h
        obtain ⟨op, p₃, hop, h⟩ := ParseResult.bind_ok _ _ _ _ h
        obtain ⟨hsop, hwfop⟩ := Parser.parseGenericToken_spec _ p₂ p₃ op hadv.2.1 hop
        obtain ⟨⟨next, rest'⟩, p₄, hchain, h⟩ := ParseResult.bind_ok _ _ _ _ h
        simp only [ParseResult.ok.injEq, Prod.mk.injEq] at h
        obtain ⟨⟨h1, h2⟩, h3⟩ := h
        subst h1
        subst h2
        subst h3
        obtain ⟨a, ha, hanalysis⟩ := ih p₃ p₄ next rest' hsop.1.2.1 hchain
        have hsa := (Parser.parseExpression_spans fuel).2.1 p₃ p₄ a hsop.1.2.1 ha
        obtain ⟨last, ref, hlast, hextend, _⟩ :=
          Lexer.Spans.extend (hsm.advance hadv) (Lexer.Spans.of_advance hsop.1 hsa)
        have hsource : p₄.lexer.sourceCodeManager.sourceCode =
            p₂.lexer.sourceCodeManager.sourceCode := hsa.1.1.trans hsop.1.1
        have hbuilt := MultiplicativeExpression.newBinary_of_multiplicative_token
          p₄.lexer.sourceCodeManager.sourceCode token.tokenType m op a ref
          (by rw [hsource]; exact hwfop) hty
        refine ⟨_, ?_, fun analysis =>
          SemanticAnalysis.analyzeMultiplicativeExpression_binary token.tokenType m next op a
            rest' ref hanalysis analysis⟩
        simp only [Parser.parseMultiplicativeExpression, hm, ParseResult.bind, hpeek,
          ParseResult.ofExcept, hty, if_true, hop, ha, hlast, hextend, hbuilt]
      · rw [if_neg hty] at h
        simp only [ParseResult.ok.injEq, Prod.mk.injEq] at h
        obtain ⟨⟨h1, h2⟩, h3⟩ := h
        subst h1
        subst h2
        subst h3
        refine ⟨.single m m.getReference, ?_, fun analysis => ?_⟩
        · simp only [Parser.parseMultiplicativeExpression, hm, ParseResult.bind, hpeek,
            ParseResult.ofExcept, hty, if_false]
        · simp only [SemanticAnalysis.analyzeMultiplicativeExpression]
          exact SemanticAnalysis.analyzeMultiplicativeChain_single m analysis

end pljit

namespace pljit

open common lexer parse_tree parser analysis ast

/-- C3: let a chain `m1 op1 m2 op2 ... mk` of additive operators be read from
the input of a parser from left to right, the operands by
`parseMultiplicativeExpression` and the operators as the tokens `+` and `-`
between them.  Then `parseAdditiveExpression` returns a node for the whole
chain, and the semantic analysis of this node is the analysis of the
operands from left to right followed by the nesting to the right,
`BinaryOp(op1, m1, BinaryOp(op2, m2, ...))`.  The same holds for a chain
`u1 op1 u2 op2 ... uk` of multiplicative operators with operands read by
`parseUnaryExpression`.  So `1 + 3 - 2 + 42` is analysed into the AST of
`1 + (3 - (2 + 42))` and evaluates to -40. -/
theorem C3_operator_chains_nest_to_the_right (fuel : Nat) (parser parser' : Parser)
    (first : MultiplicativeExpression)
    (rest : List (TokenType × MultiplicativeExpression))
    (fuel₂ : Nat) (parser₂ parser₂' : Parser) (first₂ : UnaryExpression)
    (rest₂ : List (TokenType × UnaryExpression))
    (hparser : parser.lexer.WellFormed)
    (hchain : parser.readAdditiveChain fuel = .ok (first, rest) parser')
    (hparser₂ : parser₂.lexer.WellFormed)
    (hchain₂ : parser₂.readMultiplicativeChain fuel₂ = .ok (first₂, rest₂) parser₂') :
    (∃ node, Parser.parseAdditiveExpression fuel parser = .ok node parser' ∧
      ∀ analysis, SemanticAnalysis.analyzeAdditiveExpression node analysis =
        SemanticAnalysis.analyzeAdditiveChain first rest analysis) ∧
    (∃ node, Parser.parseMultiplicativeExpression fuel₂ parser₂ = .ok node parser₂' ∧
      ∀ analysis, SemanticAnalysis.analyzeMultiplicativeExpression node analysis =
        SemanticAnalysis.analyzeMultiplicativeChain first₂ rest₂ analysis) ∧
    parseAndAnalyze "BEGIN RETURN 1 + 3 - 2 + 42 END.".toList =
      .ok (some
        ({ statements :=
            [.ReturnStatement
              (nestRight (.ConstantLiteral 1)
                [(.Add, .ConstantLiteral 3), (.Sub, .ConstantLiteral 2),
                 (.Add, .ConstantLiteral 42)])] }, {})) ∧
    Except.map Invocation.result
        ((FunctionFrame.new "BEGIN RETURN 1 + 3 - 2 + 42 END.".toList).execute []) =
      .ok { value := -40, resultCode := .Success } :=
  ⟨Parser.parseAdditiveExpression_chain fuel parser parser' first rest hparser hchain,
    Parser.parseMultiplicativeExpression_chain fuel₂ parser₂ parser₂' first₂ rest₂ hparser₂
      hchain₂,
    by decide!, by decide!⟩

/-- Witness of C3 on the chains `1 + 3 - 2 + 42` and `16 / 4 / 2`. -/
theorem C3_operator_chains_nest_to_the_right_witness :
    (∃ node, Parser.parseAdditiveExpression 16 scenarioAdditiveChainStart =
        .ok node scenarioAdditiveChainEnd ∧
      ∀ analysis, SemanticAnalysis.analyzeAdditiveExpression node analysis =
        SemanticAnalysis.analyzeAdditiveChain
          (scenarioLiteralOperand 1 { ref := 0, length := 1 })
          [(.OpPlus, scenarioLiteralOperand 3 { ref := 4, length := 1 }),
           (.OpMinus, scenarioLiteralOperand 2 { ref := 8, length := 1 }),
           (.OpPlus, scenarioLiteralOperand 42 { ref := 12, length := 2 })] analysis) ∧
    (∃ node, Parser.parseMultiplicativeExpression 16 scenarioMultiplicativeChainStart =
        .ok node scenarioMultiplicativeChainEnd ∧
      ∀ analysis, SemanticAnalysis.analyzeMultiplicativeExpression node analysis =
        SemanticAnalysis.analyzeMultiplicativeChain
          (scenarioLiteralUnary 16 { ref := 0, length := 2 })
          [(.OpDiv, scenarioLiteralUnary 4 { ref := 5, length := 1 }),
           (.OpDiv, scenarioLiteralUnary 2 { ref := 9, length := 1 })] analysis) ∧
    parseAndAnalyze "BEGIN RETURN 1 + 3 - 2 + 42 END.".toList =
      .ok (some
        ({ statements :=
            [.ReturnStatement
              (nestRight (.ConstantLiteral 1)
                [(.Add, .ConstantLiteral 3), (.Sub, .ConstantLiteral 2),
                 (.Add, .ConstantLiteral 42)])] }, {})) ∧
    Except.map Invocation.result
        ((FunctionFrame.new "BEGIN RETURN 1 + 3 - 2 + 42 END.".toList).execute []) =
      .ok { value := -40, resultCode := .Success } :=
  C3_operator_chains_nest_to_the_right 16 scenarioAdditiveChainStart scenarioAdditiveChainEnd
    (scenarioLiteralOperand 1 { ref := 0, length := 1 })
    [(.OpPlus, scenarioLiteralOperand 3 { ref := 4, length := 1 }),
     (.OpMinus, scenarioLiteralOperand 2 { ref := 8, length := 1 }),
     (.OpPlus, scenarioLiteralOperand 42 { ref := 12, length := 2 })]
    16 scenarioMultiplicativeChainStart scenarioMultiplicativeChainEnd
    (scenarioLiteralUnary 16 { ref := 0, length := 2 })
    [(.OpDiv, scenarioLiteralUnary 4 { ref := 5, length := 1 }),
     (.OpDiv, scenarioLiteralUnary 2 { ref := 9, length := 1 })]
    (by decide!) (by decide!) (by decide!) (by decide!)

end pljit

namespace pljit

open ast exec optim analysis

/-- The result of the check of the parameters and the execution: a result
code other than `Success` comes with the value -1, and the code `Success`
with the return value of the context that the execution of the function of
the frame returns, without error, from the initial context of the
arguments. -/
theorem FunctionFrame.run_result (frame : FunctionFrame) (parameters : List Int)
    (compiled : Bool) (invocation : Invocation)
    (h : frame.run parameters compiled = .ok invocation) :
    (invocation.result.resultCode ≠ .Success → invocation.result.value = -1) ∧
    (invocation.result.resultCode = .Success →
      ∃ symbolTable function context,
        frame.symbolTable = some symbolTable ∧ frame.function = some function ∧
        function.execute (ExecutionContext.new parameters symbolTable) = .ok context ∧
        context.error = .NoError ∧ invocation.result.value = context.returnValue) := by
  unfold FunctionFrame.run at h
  split at h
  · rename_i symbolTable function hsymbols hfunction
    split at h
    · simp only [Except.ok.injEq] at h
      subst h
      exact ⟨fun _ => rfl, fun hcode => by cases hcode⟩
    · split at h
      · cases h
      · rename_i context hexec
        by_cases herr : context.hasError = true
        · rw [if_pos herr] at h
          simp only [Except.ok.injEq] at h
          subst h
          exact ⟨fun _ => rfl, fun hcode => by cases hcode⟩
        · rw [if_neg herr] at h
          simp only [Except.ok.injEq] at h
          subst h
          refine ⟨fun hcode => absurd rfl hcode,
            fun _ => ⟨symbolTable, function, context, hsymbols, hfunction, hexec, ?_, rfl⟩⟩
          simpa [ExecutionContext.hasError] using herr
  · cases h

/-- The result of an invocation of a frame in any state: a result code other
than `Success` comes with the value -1, and the code `Success` with the
return value of the context that the execution of the function returns,
without error, from the initial context of the arguments; the function is
the one of the frame when its state is `Compiled`, and the one of the frame
that the compilation returns otherwise. -/
theorem FunctionFrame.execute_result (frame : FunctionFrame) (parameters : List Int)
    (invocation : Invocation) (h : frame.execute parameters = .ok invocation) :
    (invocation.result.resultCode ≠ .Success → invocation.result.value = -1) ∧
    (invocation.result.resultCode = .Success →
      ∃ compiledFrame symbolTable function context,
        (frame.state = .Compiled ∧ compiledFrame = frame ∨
          frame.state = .NotCompiled ∧ frame.compile = .ok compiledFrame) ∧
        compiledFrame.symbolTable = some symbolTable ∧
        compiledFrame.function = some function ∧
        function.execute (ExecutionContext.new parameters symbolTable) = .ok context ∧
        context.error = .NoError ∧ invocation.result.value = context.returnValue) := by
  have hfailed : ∀ (f : FunctionFrame) (c : Bool),
      (Except.ok { result := compileError, frame := f, compiled := c,
                   executionContext := none } : Except Fault Invocation) =
        .ok invocation →
      (invocation.result.resultCode ≠ .Success → invocation.result.value = -1) ∧
      (invocation.result.resultCode = .Success →
        ∃ compiledFrame symbolTable function context,
          (frame.state = .Compiled ∧ compiledFrame = frame ∨
            frame.state = .NotCompiled ∧ frame.compile = .ok compiledFrame) ∧
          compiledFrame.symbolTable = some symbolTable ∧
          compiledFrame.function = some function ∧
          function.execute (ExecutionContext.new parameters symbolTable) = .ok context ∧
          context.error = .NoError ∧ invocation.result.value = context.returnValue) := by
    intro f c hinv
    simp only [Except.ok.injEq] at hinv
    subst hinv
    exact ⟨fun _ => rfl, fun hcode => by cases hcode⟩
  unfold FunctionFrame.execute at h
  split at h
  · exact hfailed _ _ h
  · rename_i hnotfailed
    split at h
    · rename_i hstate
      obtain ⟨herrors, hsuccess⟩ := FunctionFrame.run_result _ _ _ _ h
      refine ⟨herrors, fun hcode => ?_⟩
      obtain ⟨symbolTable, function, context, hsymbols, hfunction, hexec, hrest⟩ :=
        hsuccess hcode
      exact ⟨frame, symbolTable, function, context, Or.inl ⟨hstate, rfl⟩, hsymbols,
        hfunction, hexec, hrest⟩
    · rename_i hnotcompiled
      have hstate : frame.state = .NotCompiled := by
        cases hs : frame.state with
        | NotCompiled => rfl
        | Compiled => exact absurd hs hnotcompiled
        | CompileError => exact absurd hs hnotfailed
      split at h
      · cases h
      · rename_i compiledFrame hcompiled
        split at h
        · exact hfailed _ _ h
        · obtain ⟨herrors, hsuccess⟩ := FunctionFrame.run_result _ _ _ _ h
          refine ⟨herrors, fun hcode => ?_⟩
          obtain ⟨symbolTable, function, context, hsymbols, hfunction, hexec, hrest⟩ :=
            hsuccess hcode
          exact ⟨compiledFrame, symbolTable, function, context, Or.inr ⟨hstate, hcompiled⟩,
            hsymbols, hfunction, hexec, hrest⟩

/-- C11: every invocation that returns, of a frame in any state and with
any argument list, has the value -1 when its result code is `CompileError`,
`RuntimeError` or `InvalidFunctionCall`; when its result code is `Success`,
its value is the return value of the context that the execution of the
compiled function returned, without error, from the initial context of the
arguments.  For every source code whose compilation returns, the first
invocation and every later invocation return, or stop in the division of
the smallest value by -1. -/
theorem C11_error_results_have_value_minus_one (code : List Char) (frame : FunctionFrame)
    (parameters : List Int)
    (hcompile : (FunctionFrame.new code).compile = .ok frame) :
    ((∃ first, (FunctionFrame.new code).execute parameters = .ok first) ∨
      (FunctionFrame.new code).execute parameters = .error .divisionOverflow) ∧
    ((∃ later, frame.execute parameters = .ok later) ∨
      frame.execute parameters = .error .divisionOverflow) ∧
    ∀ (anyFrame : FunctionFrame) (anyParameters : List Int) (invocation : Invocation),
      anyFrame.execute anyParameters = .ok invocation →
      (invocation.result.resultCode = .CompileError ∨
        invocation.result.resultCode = .RuntimeError ∨
        invocation.result.resultCode = .InvalidFunctionCall →
        invocation.result.value = -1) ∧
      (invocation.result.resultCode = .Success →
        ∃ compiledFrame symbolTable function context,
          (anyFrame.state = .Compiled ∧ compiledFrame = anyFrame ∨
            anyFrame.state = .NotCompiled ∧ anyFrame.compile = .ok compiledFrame) ∧
          compiledFrame.symbolTable = some symbolTable ∧
          compiledFrame.function = some function ∧
          function.execute (ExecutionContext.new anyParameters symbolTable) = .ok context ∧
          context.error = .NoError ∧ invocation.result.value = context.returnValue) := by
  refine ⟨?_, ?_, ?_⟩
  · rcases FunctionFrame.execute_fresh_frame code frame parameters hcompile with
      ⟨first, hfirst, _⟩ | ⟨_, htrap⟩
    · exact Or.inl ⟨first, hfirst⟩
    · exact Or.inr htrap
  · rcases FunctionFrame.execute_compiled_frame code frame parameters hcompile with
      ⟨later, hlater, _⟩ | ⟨_, htrap⟩
    · exact Or.inl ⟨later, hlater⟩
    · exact Or.inr htrap
  · intro anyFrame anyParameters invocation h
    obtain ⟨herrors, hsuccess⟩ := FunctionFrame.execute_result anyFrame anyParameters
      invocation h
    refine ⟨fun hcode => herrors ?_, hsuccess⟩
    intro hcode'
    rw [hcode'] at hcode
    rcases hcode with hcode | hcode | hcode <;> cases hcode

/-- Witness of C11 on `PARAM a, b; BEGIN RETURN a / b END.`: the arguments 7
and 0 give `{-1, RuntimeError}`, and the arguments 7 and 2 give the return
value 3 of the execution. -/
theorem C11_error_results_have_value_minus_one_witness :
    (FunctionFrame.new scenarioDivision).compile = .ok scenarioDivisionFrame ∧
    ((FunctionFrame.new scenarioDivision).execute [7, 0]).map (·.result) =
      .ok { value := -1, resultCode := .RuntimeError } ∧
    ((FunctionFrame.new scenarioDivision).execute [7, 2]).map (·.result) =
      .ok { value := 3, resultCode := .Success } ∧
    ((∃ first, (FunctionFrame.new scenarioDivision).execute [7, 0] = .ok first) ∨
      (FunctionFrame.new scenarioDivision).execute [7, 0] = .error .divisionOverflow) ∧
    ((∃ later, scenarioDivisionFrame.execute [7, 0] = .ok later) ∨
      scenarioDivisionFrame.execute [7, 0] = .error .divisionOverflow) :=
  ⟨by decide!, by decide!, by decide!,
    (C11_error_results_have_value_minus_one scenarioDivision scenarioDivisionFrame [7, 0]
      (by decide!)).1,
    (C11_error_results_have_value_minus_one scenarioDivision scenarioDivisionFrame [7, 0]
      (by decide!)).2.1⟩

end pljit

namespace pljit

namespace parser

/-- The decimal value of a digit string with one more digit at its end. -/
theorem decimalValue_append (str : List Char) (c : Char) :
    decimalValue (str ++ [c]) = decimalValue str * 10 + digitValue c := by
  simp only [decimalValue, List.foldl_append, List.foldl_cons, List.foldl_nil]

/-- The accumulation with `uint64_t` arithmetic is the decimal value reduced
modulo `2^64`. -/
theorem decimalValueUInt64_eq (str : List Char) :
    decimalValueUInt64 str = decimalValue str % 18446744073709551616 := by
  induction str using List.reverseRecOn with
  | nil => rfl
  | append_singleton str c ih =>
    have h : decimalValueUInt64 (str ++ [c]) =
        (decimalValueUInt64 str * 10 + digitValue c) % 18446744073709551616 := by
      simp only [decimalValueUInt64, List.foldl_append, List.foldl_cons, List.foldl_nil]
    rw [h, ih, decimalValue_append]
    omega

/-- The loop of `parseLiteralToInt64` from the right end of a prefix of the
string: it adds the value of the prefix, weighted with `shift`, to `result`,
in `uint64_t` arithmetic. -/
theorem parseLiteralToInt64_loop (str : List Char) :
    ∀ (offset result shift : Nat), offset ≤ str.length → result < 18446744073709551616 →
      parseLiteralToInt64.loop str offset result shift =
        (result + shift * decimalValue (str.take offset)) % 18446744073709551616 := by
  intro offset
  induction offset with
  | zero =>
    intro result shift _ hresult
    simp only [parseLiteralToInt64.loop, List.take_zero, decimalValue, List.foldl_nil,
      Nat.mul_zero, Nat.add_zero]
    exact (Nat.mod_eq_of_lt hresult).symm
  | succ offset ih =>
    intro result shift hle hresult
    have hlt : offset < str.length := hle
    have htake : str.take (offset + 1) = str.take offset ++ [str.getD offset '0'] := by
      rw [List.take_succ, List.getD_eq_getElem?_getD, List.getElem?_eq_getElem hlt]
      rfl
    simp only [parseLiteralToInt64.loop]
    rw [ih _ _ (Nat.le_of_lt hlt) (Nat.mod_lt _ (by decide)), htake, decimalValue_append]
    have hdigit : (str.getD offset '0').toNat - '0'.toNat = digitValue (str.getD offset '0') :=
      rfl
    rw [hdigit]
    generalize digitValue (str.getD offset '0') = d
    generalize decimalValue (List.take offset str) = v
    have h1 : shift * (v * 10 + d) = shift * 10 * v + d * shift := by ring
    rw [h1]
    have h2 : ((result + d * shift % 18446744073709551616) % 18446744073709551616 +
        shift * 10 % 18446744073709551616 * v) % 18446744073709551616 =
        (result + (shift * 10 * v + d * shift)) % 18446744073709551616 := by
      have e1 : (shift * 10 % 18446744073709551616 * v) % 18446744073709551616 =
          (shift * 10 * v) % 18446744073709551616 := by
        rw [Nat.mul_mod, Nat.mod_mod, ← Nat.mul_mod]
      omega
    exact h2

/-- C19: for every string of decimal digits, `parseLiteralToInt64`, which
accumulates from right to left with a running power of ten in `uint64_t`
arithmetic, returns the decimal value of the string (the accumulation from
left to right in base 10) reduced modulo `2^64` and reinterpreted as a
signed 64-bit integer; the reduction modulo `2^64` is also what the
accumulation from left to right gives in `uint64_t` arithmetic, and the
result is the decimal value itself whenever this value is below `2^63`. -/
theorem C19_literal_value_is_decimal_value_mod_two_pow_64 (str : List Char)
    (hdigits : ∀ c ∈ str, lexer.isLiteralChar c = true) :
    parseLiteralToInt64 str =
      wrapInt64 ((decimalValue str % 18446744073709551616 : Nat) : Int) ∧
    decimalValue str % 18446744073709551616 = decimalValueUInt64 str ∧
    (decimalValue str < 9223372036854775808 →
      parseLiteralToInt64 str = (decimalValue str : Int)) ∧
    (∀ c ∈ str, digitValue c < 10) := by
  have hloop := parseLiteralToInt64_loop str str.length 0 1 (Nat.le_refl _) (by decide)
  simp only [List.take_length, Nat.zero_add, Nat.one_mul] at hloop
  have hvalue : parseLiteralToInt64 str =
      wrapInt64 ((decimalValue str % 18446744073709551616 : Nat) : Int) := by
    simp only [parseLiteralToInt64, hloop]
  refine ⟨hvalue, (decimalValueUInt64_eq str).symm, ?_, ?_⟩
  · intro hsmall
    rw [hvalue]
    have hmod : decimalValue str % 18446744073709551616 = decimalValue str :=
      Nat.mod_eq_of_lt (by omega)
    rw [hmod]
    simp only [wrapInt64]
    omega
  · intro c hc
    have h := hdigits c hc
    simp only [lexer.isLiteralChar, Bool.and_eq_true, decide_eq_true_eq] at h
    have h0 : '0'.toNat ≤ c.toNat := h.1
    have h9 : c.toNat ≤ '9'.toNat := h.2
    have e0 : '0'.toNat = 48 := by decide
    have e9 : '9'.toNat = 57 := by decide
    simp only [digitValue]
    omega

/-- Witness of C19 on the digit string `42`. -/
theorem C19_literal_value_is_decimal_value_mod_two_pow_64_witness :
    parseLiteralToInt64 ['4', '2'] =
      wrapInt64 ((decimalValue ['4', '2'] % 18446744073709551616 : Nat) : Int) ∧
    decimalValue ['4', '2'] % 18446744073709551616 = decimalValueUInt64 ['4', '2'] ∧
    (decimalValue ['4', '2'] < 9223372036854775808 →
      parseLiteralToInt64 ['4', '2'] = (decimalValue ['4', '2'] : Int)) ∧
    (∀ c ∈ ['4', '2'], digitValue c < 10) :=
  C19_literal_value_is_decimal_value_mod_two_pow_64 ['4', '2'] (by decide)

end parser

end pljit

namespace pljit

namespace analysis

open common ast

/-- The two outcomes of `registerSymbol`: the text is registered already,
then the entry found is returned and the table is unchanged; or the text is
new, then it gets the next id of its namespace and is appended to the map
and to the texts of its namespace. -/
theorem SymbolTable.registerSymbol_cases (table table' : SymbolTable)
    (sourceCode : List Char) (symbolType : IdentifierType)
    (declarationRef : SourceRangeReference) (constantValue : Int)
    (result : RegistrationResult)
    (h : table.registerSymbol sourceCode symbolType declarationRef constantValue =
      .ok (result, table')) :
    (findSymbolEntry table.symbolStrToSymbolEntryMapping
        (declarationRef.toStringView sourceCode) = some result.entry ∧
      result.newlyRegistered = false ∧ table' = table) ∨
    (findSymbolEntry table.symbolStrToSymbolEntryMapping
        (declarationRef.toStringView sourceCode) = none ∧
      result.newlyRegistered = true ∧
      result.entry =
        { symbolId := table.nextId symbolType, declarationRef := declarationRef,
          symbolType := symbolType } ∧
      table'.symbolStrToSymbolEntryMapping =
        table.symbolStrToSymbolEntryMapping ++
          [(declarationRef.toStringView sourceCode, result.entry)] ∧
      (∀ other, table'.names other =
        if other = symbolType then
          table.names other ++ [declarationRef.toStringView sourceCode]
        else table.names other) ∧
      (∀ other, table'.nextId other =
        if other = symbolType then table.nextId other + 1 else table.nextId other) ∧
      table'.constantValues =
        (if symbolType = .Constant then table.constantValues ++ [constantValue]
         else table.constantValues) ∧
      (symbolType = .Constant → constantValue ≠ -1)) := by
  simp only [SymbolTable.registerSymbol] at h
  split at h
  · rename_i entry hfind
    simp only [Except.ok.injEq, Prod.mk.injEq] at h
    obtain ⟨h1, h2⟩ := h
    subst h1
    subst h2
    exact Or.inl ⟨hfind, rfl, rfl⟩
  · rename_i hfind
    cases symbolType with
    | Parameter =>
      simp only [Except.ok.injEq, Prod.mk.injEq] at h
      obtain ⟨h1, h2⟩ := h
      subst h1
      subst h2
      refine Or.inr ⟨hfind, rfl, rfl, rfl, ?_, ?_, rfl, fun hc => by cases hc⟩
      · intro other
        cases other <;> rfl
      · intro other
        cases other <;> rfl
    | Variable =>
      simp only [Except.ok.injEq, Prod.mk.injEq] at h
      obtain ⟨h1, h2⟩ := h
      subst h1
      subst h2
      refine Or.inr ⟨hfind, rfl, rfl, rfl, ?_, ?_, rfl, fun hc => by cases hc⟩
      · intro other
        cases other <;> rfl
      · intro other
        cases other <;> rfl
    | Constant =>
      simp only at h
      split at h
      · cases h
      · rename_i hvalue
        simp only [Except.ok.injEq, Prod.mk.injEq] at h
        obtain ⟨h1, h2⟩ := h
        subst h1
        subst h2
        refine Or.inr ⟨hfind, rfl, rfl, rfl, ?_, ?_, rfl, fun _ => hvalue⟩
        · intro other
          cases other <;> rfl
        · intro other
          cases other <;> rfl

/-- The empty symbol table is coherent. -/
theorem SymbolTable.coherent_empty : ({} : SymbolTable).Coherent := by
  refine ⟨?_, rfl, ?_, ?_⟩
  · intro symbolType
    cases symbolType <;> rfl
  · intro symbolStr entry h
    simp [findSymbolEntry] at h
  · intro symbolType symbolId symbolStr h
    cases symbolType <;> simp [SymbolTable.names] at h

/-- A text that is found in a map is found with the same entry after the map
was extended at its end. -/
theorem findSymbolEntry_append_left (map added : List (List Char × SymbolEntry))
    (symbolStr : List Char) (entry : SymbolEntry)
    (h : findSymbolEntry map symbolStr = some entry) :
    findSymbolEntry (map ++ added) symbolStr = some entry := by
  induction map with
  | nil => simp [findSymbolEntry] at h
  | cons head rest ih =>
    obtain ⟨k, e⟩ := head
    simp only [List.cons_append, findSymbolEntry] at h ⊢
    by_cases hk : k = symbolStr
    · rw [if_pos hk] at h ⊢
      exact h
    · rw [if_neg hk] at h ⊢
      exact ih h

/-- Every state of a symbol table is a later state of itself. -/
theorem SymbolTable.extends_refl (table : SymbolTable) : table.Extends table :=
  ⟨⟨[], (List.append_nil _).symm⟩, fun _ => ⟨[], (List.append_nil _).symm⟩⟩

/-- A later state of a later state is a later state. -/
theorem SymbolTable.extends_trans {table₁ table₂ table₃ : SymbolTable}
    (h₁ : table₁.Extends table₂) (h₂ : table₂.Extends table₃) : table₁.Extends table₃ := by
  obtain ⟨⟨a₁, hm₁⟩, hn₁⟩ := h₁
  obtain ⟨⟨a₂, hm₂⟩, hn₂⟩ := h₂
  refine ⟨⟨a₁ ++ a₂, by rw [hm₂, hm₁, List.append_assoc]⟩, fun symbolType => ?_⟩
  obtain ⟨b₁, hb₁⟩ := hn₁ symbolType
  obtain ⟨b₂, hb₂⟩ := hn₂ symbolType
  exact ⟨b₁ ++ b₂, by rw [hb₂, hb₁, List.append_assoc]⟩

/-- What `lookUpSymbol` and `lookUpSymbolName` return stays what they return
in every later state of the symbol table. -/
theorem SymbolTable.extends_lookUp {table table' : SymbolTable} (h : table.Extends table') :
    (∀ symbolStr entry, table.lookUpSymbol symbolStr = some entry →
      table'.lookUpSymbol symbolStr = some entry) ∧
    (∀ symbolType symbolId symbolStr,
      table.lookUpSymbolName symbolType symbolId = some symbolStr →
      table'.lookUpSymbolName symbolType symbolId = some symbolStr) := by
  obtain ⟨⟨added, hmap⟩, hnames⟩ := h
  refine ⟨?_, ?_⟩
  · intro symbolStr entry hlook
    simp only [SymbolTable.lookUpSymbol] at hlook ⊢
    rw [hmap]
    exact findSymbolEntry_append_left _ _ _ _ hlook
  · intro symbolType symbolId symbolStr hlook
    obtain ⟨more, hmore⟩ := hnames symbolType
    have hold : (table.names symbolType)[symbolId]? = some symbolStr := by
      cases symbolType <;> exact hlook
    have hlt : symbolId < (table.names symbolType).length := by
      by_contra hge
      rw [List.getElem?_eq_none (Nat.le_of_not_lt hge)] at hold
      cases hold
    have hnew : (table'.names symbolType)[symbolId]? = some symbolStr := by
      rw [hmore, List.getElem?_append_left hlt]
      exact hold
    cases symbolType <;> exact hnew

/-- Registration leads to a later state of the symbol table and keeps it
coherent. -/
theorem SymbolTable.registerSymbol_coherent (table table' : SymbolTable)
    (sourceCode : List Char) (symbolType : IdentifierType)
    (declarationRef : SourceRangeReference) (constantValue : Int)
    (result : RegistrationResult) (hcoherent : table.Coherent)
    (h : table.registerSymbol sourceCode symbolType declarationRef constantValue =
      .ok (result, table')) :
    table'.Coherent ∧ table.Extends table' := by
  rcases SymbolTable.registerSymbol_cases table table' sourceCode symbolType declarationRef
    constantValue result h with ⟨_, _, heq⟩ | ⟨hnone, _, hentry, hmap, hnames, hnext, hvalues, _⟩
  · rw [heq]
    exact ⟨hcoherent, SymbolTable.extends_refl table⟩
  · obtain ⟨hids, hconst, hfound, hheld⟩ := hcoherent
    refine ⟨⟨?_, ?_, ?_, ?_⟩, ⟨⟨_, hmap⟩, ?_⟩⟩
    · intro other
      rw [hnext other, hnames other, hids other]
      by_cases hother : other = symbolType
      · simp only [hother, if_true, List.length_append, List.length_singleton]
      · simp only [hother, if_false]
    · have hc := hnames .Constant
      simp only [SymbolTable.names] at hc
      rw [hvalues, hc]
      by_cases hty : symbolType = .Constant
      · subst hty
        simp only [if_true, List.length_append, List.length_singleton, hconst]
      · have hty' : ¬ IdentifierType.Constant = symbolType := fun e => hty e.symm
        rw [if_neg hty, if_neg hty']
        exact hconst
    · intro symbolStr entry hfind
      rw [hmap, findSymbolEntry_append] at hfind
      split at hfind
      · rename_i found hold
        simp only [Option.some.injEq] at hfind
        subst hfind
        have hname := hfound symbolStr found hold
        have hlt : found.symbolId < (table.names found.symbolType).length := by
          by_contra hge
          rw [List.getElem?_eq_none (Nat.le_of_not_lt hge)] at hname
          cases hname
        rw [hnames found.symbolType]
        by_cases hother : found.symbolType = symbolType
        · rw [if_pos hother, List.getElem?_append_left hlt]
          exact hname
        · rw [if_neg hother]
          exact hname
      · split at hfind
        · rename_i hkey
          simp only [Option.some.injEq] at hfind
          subst hfind
          rw [hentry]
          simp only
          rw [hnames symbolType, if_pos rfl, hids symbolType,
            List.getElem?_append_right (Nat.le_refl _), Nat.sub_self]
          simp only [List.getElem?_cons_zero, hkey]
        · cases hfind
    · intro other symbolId symbolStr hname
      rw [hnames other] at hname
      by_cases hother : other = symbolType
      · rw [if_pos hother] at hname
        by_cases hlt : symbolId < (table.names other).length
        · rw [List.getElem?_append_left hlt] at hname
          obtain ⟨entry, hfind, hty, hid⟩ := hheld other symbolId symbolStr hname
          refine ⟨entry, ?_, hty, hid⟩
          rw [hmap]
          exact findSymbolEntry_append_left _ _ _ _ hfind
        · have hge : (table.names other).length ≤ symbolId := Nat.le_of_not_lt hlt
          rw [List.getElem?_append_right hge] at hname
          have hzero : symbolId - (table.names other).length = 0 := by
            by_contra hne
            have hpos : 1 ≤ symbolId - (table.names other).length := Nat.one_le_iff_ne_zero.mpr hne
            rw [List.getElem?_eq_none (by simpa using hpos)] at hname
            cases hname
          rw [hzero] at hname
          simp only [List.getElem?_cons_zero, Option.some.injEq] at hname
          subst hname
          refine ⟨result.entry, ?_, ?_, ?_⟩
          · rw [hmap, findSymbolEntry_append, hnone]
            simp only [if_true]
          · rw [hentry, hother]
          · rw [hentry]
            simp only
            rw [hids symbolType, ← hother]
            omega
      · rw [if_neg hother] at hname
        obtain ⟨entry, hfind, hty, hid⟩ := hheld other symbolId symbolStr hname
        refine ⟨entry, ?_, hty, hid⟩
        rw [hmap]
        exact findSymbolEntry_append_left _ _ _ _ hfind
    · intro other
      rw [hnames other]
      by_cases hother : other = symbolType
      · rw [if_pos hother]
        exact ⟨_, rfl⟩
      · rw [if_neg hother]
        exact ⟨[], (List.append_nil _).symm⟩

end analysis

end pljit

namespace pljit

namespace analysis

open common ast

/-- Registrations one after another lead to a later state of the symbol
table and keep it coherent. -/
theorem SymbolTable.registerSymbols_coherent (sourceCode : List Char)
    (registrations : List Registration) :
    ∀ (table table' : SymbolTable), table.Coherent →
      table.registerSymbols sourceCode registrations = .ok table' →
      table'.Coherent ∧ table.Extends table' := by
  induction registrations with
  | nil =>
    intro table table' hcoherent h
    simp only [SymbolTable.registerSymbols, Except.ok.injEq] at h
    subst h
    exact ⟨hcoherent, SymbolTable.extends_refl table⟩
  | cons registration rest ih =>
    intro table table' hcoherent h
    simp only [SymbolTable.registerSymbols] at h
    split at h
    · cases h
    · rename_i result table₁ hfirst
      obtain ⟨hc₁, he₁⟩ := SymbolTable.registerSymbol_coherent table table₁ sourceCode _ _ _
        result hcoherent hfirst
      obtain ⟨hc₂, he₂⟩ := ih table₁ table' hc₁ h
      exact ⟨hc₂, SymbolTable.extends_trans he₁ he₂⟩

/-- C16: let `registerSymbol` on a coherent symbol table (every table built
from the empty one by registrations is coherent) report that the text of a
declaration range was newly registered.  Then the entry it returns has the
namespace of the call and the next id of that namespace, and after any
further registrations `lookUpSymbol` of the text returns this entry and
`lookUpSymbolName` of the namespace and the id returns the text; a later
registration of the same text, in whatever namespace, returns this entry
with `newlyRegistered = false` and leaves the table unchanged. -/
theorem C16_lookup_after_registration (table table' table'' : SymbolTable)
    (sourceCode : List Char) (symbolType : IdentifierType)
    (declarationRef : SourceRangeReference) (constantValue : Int)
    (result : RegistrationResult) (later : List Registration)
    (hcoherent : table.Coherent)
    (hregister : table.registerSymbol sourceCode symbolType declarationRef constantValue =
      .ok (result, table'))
    (hnew : result.newlyRegistered = true)
    (hlater : table'.registerSymbols sourceCode later = .ok table'') :
    result.entry =
      { symbolId := (table.names symbolType).length, declarationRef := declarationRef,
        symbolType := symbolType } ∧
    table''.lookUpSymbol (declarationRef.toStringView sourceCode) = some result.entry ∧
    table''.lookUpSymbolName symbolType result.entry.symbolId =
      some (declarationRef.toStringView sourceCode) ∧
    (∀ (otherType : IdentifierType) (otherRef : SourceRangeReference) (otherValue : Int)
      (again : RegistrationResult) (table₃ : SymbolTable),
      otherRef.toStringView sourceCode = declarationRef.toStringView sourceCode →
      table''.registerSymbol sourceCode otherType otherRef otherValue = .ok (again, table₃) →
      again.entry = result.entry ∧ again.newlyRegistered = false ∧ table₃ = table'') ∧
    table''.Coherent := by
  obtain ⟨hc', _⟩ := SymbolTable.registerSymbol_coherent table table' sourceCode _ _ _
    result hcoherent hregister
  obtain ⟨hc'', hext⟩ := SymbolTable.registerSymbols_coherent sourceCode later table' table''
    hc' hlater
  rcases SymbolTable.registerSymbol_cases table table' sourceCode symbolType declarationRef
    constantValue result hregister with ⟨_, hold, _⟩ | ⟨hnone, _, hentry, hmap, hnames, _, _, _⟩
  · rw [hold] at hnew
    cases hnew
  · have hid : table.nextId symbolType = (table.names symbolType).length :=
      hcoherent.1 symbolType
    have hlook' : table'.lookUpSymbol (declarationRef.toStringView sourceCode) =
        some result.entry := by
      simp only [SymbolTable.lookUpSymbol]
      rw [hmap, findSymbolEntry_append, hnone]
      simp only [if_true]
    have hname' : table'.lookUpSymbolName symbolType result.entry.symbolId =
        some (declarationRef.toStringView sourceCode) := by
      have hget : (table'.names symbolType)[result.entry.symbolId]? =
          some (declarationRef.toStringView sourceCode) := by
        rw [hnames symbolType, if_pos rfl, hentry]
        simp only
        rw [hid, List.getElem?_append_right (Nat.le_refl _), Nat.sub_self]
        rfl
      cases symbolType <;> exact hget
    obtain ⟨hkeep, hkeepName⟩ := SymbolTable.extends_lookUp hext
    have hlook'' := hkeep _ _ hlook'
    refine ⟨by rw [hentry, hid], hlook'', hkeepName _ _ _ hname', ?_, hc''⟩
    intro otherType otherRef otherValue again table₃ htext hagain
    rcases SymbolTable.registerSymbol_cases table'' table₃ sourceCode otherType otherRef
      otherValue again hagain with ⟨hfound, hflag, heq⟩ | ⟨hnone', _⟩
    · rw [htext] at hfound
      simp only [SymbolTable.lookUpSymbol] at hlook''
      rw [hlook''] at hfound
      simp only [Option.some.injEq] at hfound
      exact ⟨hfound.symm, hflag, heq⟩
    · rw [htext] at hnone'
      simp only [SymbolTable.lookUpSymbol] at hlook''
      rw [hlook''] at hnone'
      cases hnone'

/-- Witness of C16: on the source code `a b`, the variable `b` is registered
in the empty table and the parameter `a` after it. -/
theorem C16_lookup_after_registration_witness :
    ({ entry := { symbolId := 0, declarationRef := { ref := 2, length := 1 },
                  symbolType := .Variable },
       newlyRegistered := true } : RegistrationResult).entry =
      { symbolId := (({} : SymbolTable).names .Variable).length,
        declarationRef := { ref := 2, length := 1 }, symbolType := .Variable } ∧
    ({ nextParameterId := 1, nextVariableId := 1,
       symbolStrToSymbolEntryMapping :=
         [(['b'], { symbolId := 0, declarationRef := { ref := 2, length := 1 },
                    symbolType := .Variable }),
          (['a'], { symbolId := 0, declarationRef := { ref := 0, length := 1 },
                    symbolType := .Parameter })],
       parameterIdToStringMapping := [['a']],
       variableIdToStringMapping := [['b']] } : SymbolTable).lookUpSymbol
        (({ ref := 2, length := 1 } : SourceRangeReference).toStringView ['a', ' ', 'b']) =
      some ({ entry := { symbolId := 0, declarationRef := { ref := 2, length := 1 },
                         symbolType := .Variable },
              newlyRegistered := true } : RegistrationResult).entry ∧
    ({ nextParameterId := 1, nextVariableId := 1,
       symbolStrToSymbolEntryMapping :=
         [(['b'], { symbolId := 0, declarationRef := { ref := 2, length := 1 },
                    symbolType := .Variable }),
          (['a'], { symbolId := 0, declarationRef := { ref := 0, length := 1 },
                    symbolType := .Parameter })],
       parameterIdToStringMapping := [['a']],
       variableIdToStringMapping := [['b']] } : SymbolTable).lookUpSymbolName .Variable
        ({ entry := { symbolId := 0, declarationRef := { ref := 2, length := 1 },
                      symbolType := .Variable },
           newlyRegistered := true } : RegistrationResult).entry.symbolId =
      some (({ ref := 2, length := 1 } : SourceRangeReference).toStringView
        ['a', ' ', 'b']) ∧
    (∀ (otherType : IdentifierType) (otherRef : SourceRangeReference) (otherValue : Int)
      (again : RegistrationResult) (table₃ : SymbolTable),
      otherRef.toStringView ['a', ' ', 'b'] =
        ({ ref := 2, length := 1 } : SourceRangeReference).toStringView ['a', ' ', 'b'] →
      ({ nextParameterId := 1, nextVariableId := 1,
         symbolStrToSymbolEntryMapping :=
           [(['b'], { symbolId := 0, declarationRef := { ref := 2, length := 1 },
                      symbolType := .Variable }),
            (['a'], { symbolId := 0, declarationRef := { ref := 0, length := 1 },
                      symbolType := .Parameter })],
         parameterIdToStringMapping := [['a']],
         variableIdToStringMapping := [['b']] } : SymbolTable).registerSymbol
          ['a', ' ', 'b'] otherType otherRef otherValue = .ok (again, table₃) →
      again.entry =
        ({ entry := { symbolId := 0, declarationRef := { ref := 2, length := 1 },
                      symbolType := .Variable },
           newlyRegistered := true } : RegistrationResult).entry ∧
      again.newlyRegistered = false ∧
      table₃ =
        { nextParameterId := 1, nextVariableId := 1,
          symbolStrToSymbolEntryMapping :=
            [(['b'], { symbolId := 0, declarationRef := { ref := 2, length := 1 },
                       symbolType := .Variable }),
             (['a'], { symbolId := 0, declarationRef := { ref := 0, length := 1 },
                       symbolType := .Parameter })],
          parameterIdToStringMapping := [['a']],
          variableIdToStringMapping := [['b']] }) ∧
    ({ nextParameterId := 1, nextVariableId := 1,
       symbolStrToSymbolEntryMapping :=
         [(['b'], { symbolId := 0, declarationRef := { ref := 2, length := 1 },
                    symbolType := .Variable }),
          (['a'], { symbolId := 0, declarationRef := { ref := 0, length := 1 },
                    symbolType := .Parameter })],
       parameterIdToStringMapping := [['a']],
       variableIdToStringMapping := [['b']] } : SymbolTable).Coherent :=
  C16_lookup_after_registration {}
    { nextVariableId := 1,
      symbolStrToSymbolEntryMapping :=
        [(['b'], { symbolId := 0, declarationRef := { ref := 2, length := 1 },
                   symbolType := .Variable })],
      variableIdToStringMapping := [['b']] }
    { nextParameterId := 1, nextVariableId := 1,
      symbolStrToSymbolEntryMapping :=
        [(['b'], { symbolId := 0, declarationRef := { ref := 2, length := 1 },
                   symbolType := .Variable }),
         (['a'], { symbolId := 0, declarationRef := { ref := 0, length := 1 },
                   symbolType := .Parameter })],
      parameterIdToStringMapping := [['a']],
      variableIdToStringMapping := [['b']] }
    ['a', ' ', 'b'] .Variable { ref := 2, length := 1 } (-1)
    { entry := { symbolId := 0, declarationRef := { ref := 2, length := 1 },
                 symbolType := .Variable },
      newlyRegistered := true }
    [{ symbolType := .Parameter, declarationRef := { ref := 0, length := 1 } }]
    SymbolTable.coherent_empty (by decide!) rfl (by decide!)

end analysis

end pljit

namespace pljit

namespace analysis

open common ast parse_tree

/-- A declarator list registered without a duplicate: the texts of its
identifiers were appended, in the order of the source code, to the texts of
the namespace; the other namespaces, the values of the constants and the
source code manager are unchanged and the symbol table stays coherent. -/
theorem SemanticAnalysis.registerDeclaratorList_names (symbolType : IdentifierType)
    (children : List DeclaratorListChild) :
    ∀ (analysis analysis' : SemanticAnalysis),
      analysis.symbolTable.Coherent →
      SemanticAnalysis.registerDeclaratorList symbolType children analysis =
        .ok (true, analysis') →
      analysis'.sourceCodeManager = analysis.sourceCodeManager ∧
      analysis'.symbolTable.Coherent ∧
      (∀ other, analysis'.symbolTable.names other =
        analysis.symbolTable.names other ++
          if other = symbolType then
            (DeclaratorListChild.identifiers children).map
              fun identifier => identifier.ref.toStringView
                analysis.sourceCodeManager.sourceCode
          else []) ∧
      (symbolType ≠ .Constant →
        analysis'.symbolTable.constantValues = analysis.symbolTable.constantValues) := by
  induction children with
  | nil =>
    intro analysis analysis' hcoherent h
    simp only [SemanticAnalysis.registerDeclaratorList, Except.ok.injEq, Prod.mk.injEq,
      true_and] at h
    subst h
    refine ⟨rfl, hcoherent, ?_, fun _ => rfl⟩
    intro other
    simp only [DeclaratorListChild.identifiers, List.map_nil, ite_self, List.append_nil]
  | cons child rest ih =>
    intro analysis analysis' hcoherent h
    cases child with
    | GenericToken token =>
      simp only [SemanticAnalysis.registerDeclaratorList] at h
      split at h
      · exact ih analysis analysis' hcoherent h
      · simp only [reduceCtorEq] at h
    | Identifier identifier =>
      simp only [SemanticAnalysis.registerDeclaratorList] at h
      split at h
      · simp only [reduceCtorEq] at h
      · rename_i result table hreg
        split at h
        · simp only [Except.ok.injEq, Prod.mk.injEq, Bool.false_eq_true, false_and] at h
        · rename_i hflag
          obtain ⟨hc, _⟩ := SymbolTable.registerSymbol_coherent _ _ _ _ _ _ _ hcoherent hreg
          obtain ⟨hmanager, hc', hnames', hvalues'⟩ :=
            ih { analysis with symbolTable := table } analysis' hc h
          rcases SymbolTable.registerSymbol_cases _ _ _ _ _ _ _ hreg with
            ⟨_, hold, _⟩ | ⟨_, _, _, _, hnames, _, hvalues, _⟩
          · rw [hold] at hflag
            simp only [Bool.not_false, not_true_eq_false] at hflag
          · refine ⟨hmanager, hc', ?_, ?_⟩
            · intro other
              rw [hnames' other]
              simp only
              rw [hnames other]
              by_cases hother : other = symbolType
              · rw [if_pos hother, if_pos hother, if_pos hother]
                simp only [DeclaratorListChild.identifiers, List.map_cons,
                  List.append_assoc, List.singleton_append]
              · rw [if_neg hother, if_neg hother, if_neg hother]
            · intro hty
              rw [hvalues' hty]
              simp only
              rw [hvalues, if_neg hty]

/-- The init-declarators registered without a duplicate: the texts of their
identifiers were appended, in the order of the source code, to the texts of
the constants and their values to the values of the constants; the other
namespaces and the source code manager are unchanged and the symbol table
stays coherent. -/
theorem SemanticAnalysis.registerInitDeclarators_names
    (children : List InitDeclaratorListChild) :
    ∀ (analysis analysis' : SemanticAnalysis),
      analysis.symbolTable.Coherent →
      SemanticAnalysis.registerInitDeclarators children analysis = .ok (true, analysis') →
      analysis'.sourceCodeManager = analysis.sourceCodeManager ∧
      analysis'.symbolTable.Coherent ∧
      (∀ other, analysis'.symbolTable.names other =
        analysis.symbolTable.names other ++
          if other = .Constant then
            (InitDeclaratorListChild.initDeclarators children).map
              fun initDeclarator => initDeclarator.identifier.ref.toStringView
                analysis.sourceCodeManager.sourceCode
          else []) ∧
      analysis'.symbolTable.constantValues =
        analysis.symbolTable.constantValues ++
          (InitDeclaratorListChild.initDeclarators children).map
            fun initDeclarator => initDeclarator.literal.value := by
  induction children with
  | nil =>
    intro analysis analysis' hcoherent h
    simp only [SemanticAnalysis.registerInitDeclarators, Except.ok.injEq, Prod.mk.injEq,
      true_and] at h
    subst h
    refine ⟨rfl, hcoherent, ?_, ?_⟩
    · intro other
      simp only [InitDeclaratorListChild.initDeclarators, List.map_nil, ite_self,
        List.append_nil]
    · simp only [InitDeclaratorListChild.initDeclarators, List.map_nil, List.append_nil]
  | cons child rest ih =>
    intro analysis analysis' hcoherent h
    cases child with
    | GenericToken token =>
      simp only [SemanticAnalysis.registerInitDeclarators] at h
      split at h
      · exact ih analysis analysis' hcoherent h
      · simp only [reduceCtorEq] at h
    | InitDeclarator initDeclarator =>
      simp only [SemanticAnalysis.registerInitDeclarators] at h
      split at h
      · simp only [reduceCtorEq] at h
      · rename_i result table hreg
        split at h
        · simp only [Except.ok.injEq, Prod.mk.injEq, Bool.false_eq_true, false_and] at h
        · rename_i hflag
          obtain ⟨hc, _⟩ := SymbolTable.registerSymbol_coherent _ _ _ _ _ _ _ hcoherent hreg
          obtain ⟨hmanager, hc', hnames', hvalues'⟩ :=
            ih { analysis with symbolTable := table } analysis' hc h
          rcases SymbolTable.registerSymbol_cases _ _ _ _ _ _ _ hreg with
            ⟨_, hold, _⟩ | ⟨_, _, _, _, hnames, _, hvalues, _⟩
          · rw [hold] at hflag
            simp only [Bool.not_false, not_true_eq_false] at hflag
          · refine ⟨hmanager, hc', ?_, ?_⟩
            · intro other
              rw [hnames' other]
              simp only
              rw [hnames other]
              by_cases hother : other = .Constant
              · rw [if_pos hother, if_pos hother, if_pos hother]
                simp only [InitDeclaratorListChild.initDeclarators, List.map_cons,
                  List.append_assoc, List.singleton_append]
              · rw [if_neg hother, if_neg hother, if_neg hother]
            · rw [hvalues']
              simp only
              rw [hvalues, if_pos rfl]
              simp only [InitDeclaratorListChild.initDeclarators, List.map_cons,
                List.append_assoc, List.singleton_append]

end analysis

end pljit

namespace pljit

namespace analysis

open common ast

/-- An accepted statement leaves the source code manager and the symbol
table alone. -/
theorem SemanticAnalysis.analyzeStatement_manager (node : parse_tree.Statement)
    (analysis analysis' : SemanticAnalysis) (stmt : Statement)
    (h : SemanticAnalysis.analyzeStatement node analysis = .ok stmt analysis') :
    analysis'.sourceCodeManager = analysis.sourceCodeManager := by
  cases node with
  | ReturnStatement kw a ref =>
    simp only [SemanticAnalysis.analyzeStatement, AnalysisResult.bind] at h
    split at h
    · rename_i e an1 h1
      obtain ⟨rfl, _⟩ := SemanticAnalysis.analyzeAdditiveExpression_ok a _ an1 e h1
      simp only [AnalysisResult.ok.injEq] at h
      obtain ⟨_, rfl⟩ := h
      rfl
    · simp only [reduceCtorEq] at h
    · simp only [reduceCtorEq] at h
  | AssignmentStatement ae ref =>
    simp only [SemanticAnalysis.analyzeStatement, AnalysisResult.bind] at h
    split at h
    · rename_i e an1 h1
      obtain ⟨rfl, _⟩ := SemanticAnalysis.analyzeAdditiveExpression_ok _ analysis an1 e h1
      split at h
      · simp only [reduceCtorEq] at h
      · split at h
        · simp only [reduceCtorEq] at h
        · simp only [AnalysisResult.ok.injEq] at h
          obtain ⟨_, rfl⟩ := h
          split <;> rfl
    · simp only [reduceCtorEq] at h
    · simp only [reduceCtorEq] at h

/-- The AST statement of an accepted statement of the parse tree: a return
statement for a `RETURN` statement; for an assignment, an assignment whose
target is the entry found for the text of the target, which is no
constant. -/
theorem SemanticAnalysis.analysed_cases (table : SymbolTable) (sourceCode : List Char)
    (node : parse_tree.Statement) (stmt : Statement)
    (h : SemanticAnalysis.Analysed table sourceCode node stmt) :
    stmt.isReturnStatement = node.isReturnStatement ∧
    ∀ assignmentExpression ref, node = .AssignmentStatement assignmentExpression ref →
      ∃ entry expression,
        table.lookUpSymbol (assignmentExpression.identifier.ref.toStringView sourceCode) =
          some entry ∧
        entry.symbolType ≠ .Constant ∧
        stmt = .AssignmentStatement
          { identifierType := entry.symbolType, id := entry.symbolId } expression := by
  obtain ⟨analysis, analysis', rfl, rfl, h⟩ := h
  cases node with
  | ReturnStatement kw a ref =>
    simp only [SemanticAnalysis.analyzeStatement, AnalysisResult.bind] at h
    split at h
    · simp only [AnalysisResult.ok.injEq] at h
      obtain ⟨rfl, _⟩ := h
      refine ⟨rfl, ?_⟩
      intro _ _ hnode
      cases hnode
    · simp only [reduceCtorEq] at h
    · simp only [reduceCtorEq] at h
  | AssignmentStatement ae ref =>
    simp only [SemanticAnalysis.analyzeStatement, AnalysisResult.bind] at h
    split at h
    · rename_i e an1 h1
      obtain ⟨rfl, _⟩ := SemanticAnalysis.analyzeAdditiveExpression_ok _ analysis an1 e h1
      split at h
      · simp only [reduceCtorEq] at h
      · rename_i entry hlook
        split at h
        · simp only [reduceCtorEq] at h
        · rename_i hnotconst
          simp only [AnalysisResult.ok.injEq] at h
          obtain ⟨rfl, _⟩ := h
          refine ⟨rfl, ?_⟩
          intro assignmentExpression ref' hnode
          simp only [parse_tree.Statement.AssignmentStatement.injEq] at hnode
          obtain ⟨rfl, _⟩ := hnode
          exact ⟨entry, e, hlook, hnotconst, rfl⟩
    · simp only [reduceCtorEq] at h
    · simp only [reduceCtorEq] at h

/-- The loop of `analyzeStatements` that ends without a rejected statement
has appended one accepted AST statement for each statement of the parse
tree, in their order, and has left the source code manager and the symbol
table alone. -/
theorem SemanticAnalysis.analyzeStatementsLoop_analysed
    (children : List parse_tree.StatementListChild) :
    ∀ (collected statements : List Statement) (analysis analysis' : SemanticAnalysis),
      SemanticAnalysis.analyzeStatementsLoop children collected analysis =
        .ok (some statements, analysis') →
      analysis'.sourceCodeManager = analysis.sourceCodeManager ∧
      analysis'.symbolTable = analysis.symbolTable ∧
      ∃ added, statements = collected ++ added ∧
        List.Forall₂
          (SemanticAnalysis.Analysed analysis.symbolTable
            analysis.sourceCodeManager.sourceCode)
          (parse_tree.StatementListChild.statements children) added := by
  induction children with
  | nil =>
    intro collected statements analysis analysis' h
    simp only [SemanticAnalysis.analyzeStatementsLoop, Except.ok.injEq, Prod.mk.injEq,
      Option.some.injEq] at h
    obtain ⟨rfl, rfl⟩ := h
    exact ⟨rfl, rfl, [], (List.append_nil _).symm, List.Forall₂.nil⟩
  | cons child rest ih =>
    intro collected statements analysis analysis' h
    cases child with
    | GenericToken token =>
      simp only [SemanticAnalysis.analyzeStatementsLoop] at h
      split at h
      · exact ih collected statements analysis analysis' h
      · simp only [reduceCtorEq] at h
    | Statement statement =>
      simp only [SemanticAnalysis.analyzeStatementsLoop] at h
      split at h
      · simp only [reduceCtorEq] at h
      · simp only [Except.ok.injEq, Prod.mk.injEq, reduceCtorEq, false_and] at h
      · rename_i stmt an1 hstmt
        have hmanager := SemanticAnalysis.analyzeStatement_manager _ _ _ _ hstmt
        have htable := (SemanticAnalysis.analyzeStatement_ok _ _ _ _ hstmt).1
        obtain ⟨hm, ht, added, hadded, hall⟩ := ih (collected ++ [stmt]) statements an1
          analysis' h
        refine ⟨by rw [hm, hmanager], by rw [ht, htable], stmt :: added, ?_, ?_⟩
        · rw [hadded, List.append_assoc, List.singleton_append]
        · rw [hmanager, htable] at hall
          exact List.Forall₂.cons ⟨analysis, an1, rfl, rfl, hstmt⟩ hall

/-- What a successful semantic analysis started on a fresh state has done:
the source code manager is unchanged; the symbol table is coherent and holds
in each namespace the declared texts in the order of the source code, and
the values of the constants; the statements of the AST are the accepted
statements of the parse tree, one for one. -/
theorem SemanticAnalysis.analyzeFunction_declared (node : parse_tree.FunctionDefinition)
    (manager : SourceCodeManager) (function : Function) (analysis : SemanticAnalysis)
    (h : SemanticAnalysis.analyzeFunction node { sourceCodeManager := manager } =
      .ok function analysis) :
    analysis.sourceCodeManager = manager ∧
    analysis.symbolTable.Coherent ∧
    (∀ symbolType, analysis.symbolTable.names symbolType =
      node.declaredNames manager.sourceCode symbolType) ∧
    analysis.symbolTable.constantValues = node.constantLiterals ∧
    List.Forall₂ (SemanticAnalysis.Analysed analysis.symbolTable manager.sourceCode)
      node.statements function.statements := by
  simp only [SemanticAnalysis.analyzeFunction] at h
  split at h
  · simp only [reduceCtorEq] at h
  · simp only [reduceCtorEq] at h
  · rename_i an1 hreg1
    have h1 : an1.sourceCodeManager = manager ∧ an1.symbolTable.Coherent ∧
        (∀ other, an1.symbolTable.names other =
          if other = .Parameter then node.parameterNames manager.sourceCode else []) ∧
        an1.symbolTable.constantValues = [] := by
      cases hsection : node.parameterDeclarations with
      | none =>
        simp only [hsection, Except.ok.injEq, Prod.mk.injEq, true_and] at hreg1
        subst hreg1
        refine ⟨rfl, SymbolTable.coherent_empty, ?_, rfl⟩
        intro other
        simp only [parse_tree.FunctionDefinition.parameterNames, hsection, ite_self]
        cases other <;> rfl
      | some declarations =>
        simp only [hsection, SemanticAnalysis.registerParameterDeclarations] at hreg1
        obtain ⟨r1, r2, r3, r4⟩ := SemanticAnalysis.registerDeclaratorList_names _ _ _ an1
          SymbolTable.coherent_empty hreg1
        refine ⟨r1, r2, ?_, r4 (by decide)⟩
        intro other
        rw [r3 other]
        simp only [parse_tree.FunctionDefinition.parameterNames, hsection]
        cases other <;> rfl
    split at h
    · simp only [reduceCtorEq] at h
    · simp only [reduceCtorEq] at h
    · rename_i an2 hreg2
      have h2 : an2.sourceCodeManager = manager ∧ an2.symbolTable.Coherent ∧
          (∀ other, an2.symbolTable.names other =
            if other = .Constant then []
            else node.declaredNames manager.sourceCode other) ∧
          an2.symbolTable.constantValues = [] := by
        cases hsection : node.variableDeclarations with
        | none =>
          simp only [hsection, Except.ok.injEq, Prod.mk.injEq, true_and] at hreg2
          subst hreg2
          refine ⟨h1.1, h1.2.1, ?_, h1.2.2.2⟩
          intro other
          rw [h1.2.2.1 other]
          cases other <;>
            simp [parse_tree.FunctionDefinition.declaredNames,
              parse_tree.FunctionDefinition.variableNames, hsection]
        | some declarations =>
          simp only [hsection, SemanticAnalysis.registerVariableDeclarations] at hreg2
          obtain ⟨r1, r2, r3, r4⟩ := SemanticAnalysis.registerDeclaratorList_names _ _ _ an2
            h1.2.1 hreg2
          refine ⟨by rw [r1, h1.1], r2, ?_, by rw [r4 (by decide), h1.2.2.2]⟩
          intro other
          rw [r3 other, h1.2.2.1 other, h1.1]
          cases other <;>
            simp [parse_tree.FunctionDefinition.declaredNames,
              parse_tree.FunctionDefinition.variableNames, hsection]
      split at h
      · simp only [reduceCtorEq] at h
      · simp only [reduceCtorEq] at h
      · rename_i an3 hreg3
        have h3 : an3.sourceCodeManager = manager ∧ an3.symbolTable.Coherent ∧
            (∀ other, an3.symbolTable.names other =
              node.declaredNames manager.sourceCode other) ∧
            an3.symbolTable.constantValues = node.constantLiterals := by
          cases hsection : node.constantDeclarations with
          | none =>
            simp only [hsection, Except.ok.injEq, Prod.mk.injEq, true_and] at hreg3
            subst hreg3
            refine ⟨h2.1, h2.2.1, ?_, ?_⟩
            · intro other
              rw [h2.2.2.1 other]
              cases other <;>
                simp [parse_tree.FunctionDefinition.declaredNames,
                  parse_tree.FunctionDefinition.constantNames, hsection]
            · rw [h2.2.2.2]
              simp only [parse_tree.FunctionDefinition.constantLiterals, hsection]
          | some declarations =>
            simp only [hsection, SemanticAnalysis.registerConstantDeclarations] at hreg3
            obtain ⟨r1, r2, r3, r4⟩ := SemanticAnalysis.registerInitDeclarators_names _ _ an3
              h2.2.1 hreg3
            refine ⟨by rw [r1, h2.1], r2, ?_, ?_⟩
            · intro other
              rw [r3 other, h2.2.2.1 other, h2.1]
              cases other <;>
                simp [parse_tree.FunctionDefinition.declaredNames,
                  parse_tree.FunctionDefinition.constantNames, hsection]
            · rw [r4, h2.2.2.2]
              simp only [parse_tree.FunctionDefinition.constantLiterals, hsection,
                List.nil_append]
        split at h
        · simp only [reduceCtorEq] at h
        · rename_i statements an4 hstmts
          split at h
          · simp only [reduceCtorEq] at h
          · split at h
            · simp only [reduceCtorEq] at h
            · rename_i hnotempty hret
              simp only [AnalysisResult.ok.injEq] at h
              obtain ⟨rfl, rfl⟩ := h
              simp only [SemanticAnalysis.analyzeStatements] at hstmts
              split at hstmts
              · simp only [reduceCtorEq] at hstmts
              · simp only [Except.ok.injEq, Prod.mk.injEq] at hstmts
                obtain ⟨rfl, rfl⟩ := hstmts
                simp at hnotempty
              · rename_i collected an5 hloop
                split at hstmts
                · simp only [Except.ok.injEq, Prod.mk.injEq] at hstmts
                  obtain ⟨rfl, rfl⟩ := hstmts
                  obtain ⟨hm, ht, added, hadded, hall⟩ :=
                    SemanticAnalysis.analyzeStatementsLoop_analysed _ [] collected an3 an5
                      hloop
                  rw [List.nil_append] at hadded
                  subst hadded
                  rw [h3.1] at hall hm
                  refine ⟨hm, by rw [ht]; exact h3.2.1, ?_, by rw [ht]; exact h3.2.2.2, ?_⟩
                  · intro symbolType
                    rw [ht]
                    exact h3.2.2.1 symbolType
                  · rw [ht]
                    exact hall
                · simp only [reduceCtorEq] at hstmts

end analysis

end pljit

namespace pljit

namespace lexer

open common

/-- Ranges read one after the other end in a later state of the lexer. -/
theorem Lexer.SpansList.toAdvance {start lexer : Lexer} :
    ∀ {refs : List SourceRangeReference}, start.SpansList refs lexer → start.Advance lexer
  | [], h => h
  | _ :: _, ⟨_, hfirst, hrest⟩ => hfirst.1.trans (Lexer.SpansList.toAdvance hrest)

/-- Ranges read one after the other were also read up to every later state. -/
theorem Lexer.SpansList.later {start lexer lexer' : Lexer} :
    ∀ {refs : List SourceRangeReference}, start.SpansList refs lexer →
      lexer.Advance lexer' → start.SpansList refs lexer'
  | [], h, hadv => Lexer.Advance.trans h hadv
  | _ :: _, ⟨mid, hfirst, hrest⟩, hadv => ⟨mid, hfirst, Lexer.SpansList.later hrest hadv⟩

/-- Ranges read one after the other, followed by ranges read after them. -/
theorem Lexer.SpansList.append {start lexer lexer' : Lexer} :
    ∀ {refs more : List SourceRangeReference}, start.SpansList refs lexer →
      lexer.SpansList more lexer' → start.SpansList (refs ++ more) lexer'
  | [], [], h, hmore => Lexer.Advance.trans h hmore
  | [], _ :: _, h, ⟨mid, hfirst, hrest⟩ => ⟨mid, Lexer.Spans.of_advance h hfirst, hrest⟩
  | _ :: _, _, ⟨mid, hfirst, hrest⟩, hmore =>
    ⟨mid, hfirst, Lexer.SpansList.append hrest hmore⟩

/-- A single range read between two states. -/
theorem Lexer.Spans.toList {start lexer : Lexer} {ref : SourceRangeReference}
    (h : start.Spans ref lexer) : start.SpansList [ref] lexer :=
  ⟨lexer, h, Lexer.Advance.refl h.1.2.1⟩

/-- The ranges read one after the other lie in their order: the first range
extends up to the last character of the last range, as the parser computes
it, and the extended range was read between the first and the last state. -/
theorem Lexer.SpansList.range {lexer : Lexer} :
    ∀ {rest : List SourceRangeReference} {start : Lexer} {front back : SourceRangeReference},
      start.SpansList (front :: rest) lexer → (front :: rest).getLast? = some back →
      0 < back.length ∧ front.ref ≤ back.ref + (back.length - 1) ∧
      start.Spans front lexer ∧
      start.Spans
        { ref := front.ref, length := back.ref + (back.length - 1) - front.ref + 1 } lexer
  | [], start, front, back, ⟨mid, hfirst, hrest⟩, hback => by
    simp only [List.getLast?_singleton, Option.some.injEq] at hback
    subst hback
    have hspans := hfirst.advance hrest
    obtain ⟨hadv, hs, hl, he⟩ := hspans
    refine ⟨hl, by omega, ⟨hadv, hs, hl, he⟩, hadv, hs, Nat.succ_pos _, ?_⟩
    show front.ref + (front.ref + (front.length - 1) - front.ref + 1) ≤ lexer.position
    omega
  | second :: rest, start, front, back, ⟨mid, hfirst, hrest⟩, hback => by
    rw [List.getLast?_cons_cons] at hback
    obtain ⟨hl, hle, _, hadv', hs', _, he'⟩ := Lexer.SpansList.range hrest hback
    obtain ⟨hadv, hs, hlf, he⟩ := hfirst
    have hs'' : mid.position ≤ second.ref := hs'
    have he'' : second.ref + (back.ref + (back.length - 1) - second.ref + 1) ≤
        lexer.position := he'
    clear hs' he'
    refine ⟨hl, by omega, ⟨hadv.trans hadv', hs, hlf, ?_⟩, hadv.trans hadv', hs,
      Nat.succ_pos _, ?_⟩
    · have := hadv'.2.2
      omega
    · show front.ref + (back.ref + (back.length - 1) - front.ref + 1) ≤ lexer.position
      omega

end lexer

end pljit

namespace pljit

namespace parser

open common lexer parse_tree

/-- The range of a list node: the children were read one after the other,
so the range of the first child extends up to the last character of the
last child, and both the range of the first child and the extended range
were read between the first and the last state. -/
theorem listRange_spans {α : Type} (getReference : α → SourceRangeReference)
    (children : List α) (start lexer : Lexer) (front back : α)
    (hspans : start.SpansList (children.map getReference) lexer)
    (hfront : children.head? = some front) (hback : children.getLast? = some back) :
    start.Spans (getReference front) lexer ∧
    ∃ last ref, (getReference back).last = .ok last ∧
      (getReference front).extendUntil last = .ok ref ∧ start.Spans ref lexer := by
  cases children with
  | nil => simp at hfront
  | cons first rest =>
    simp only [List.head?_cons, Option.some.injEq] at hfront
    subst hfront
    have hlast : ((first :: rest).map getReference).getLast? = some (getReference back) := by
      rw [List.getLast?_map, hback]
      rfl
    rw [List.map_cons] at hspans hlast
    obtain ⟨hl, hle, hfirst, hall⟩ := Lexer.SpansList.range hspans hlast
    refine ⟨hfirst, { ref := (getReference back).ref + ((getReference back).length - 1) },
      _, ?_, ?_, hall⟩
    · simp only [SourceRangeReference.last, hl, if_true]
    · simp only [SourceRangeReference.extendUntil, hle, if_true]

/-- The loop of `parseDeclaratorList` appends children that were read one
after the other behind the children read so far. -/
theorem Parser.parseDeclaratorListLoop_spans (fuel : Nat) :
    ∀ (children children' : List DeclaratorListChild) (parser parser' : Parser)
      (start : Lexer),
      start.SpansList (children.map DeclaratorListChild.getReference) parser.lexer →
      Parser.parseDeclaratorListLoop fuel children parser = .ok children' parser' →
      start.SpansList (children'.map DeclaratorListChild.getReference) parser'.lexer ∧
      ∃ added, children' = children ++ added := by
  induction fuel with
  | zero =>
    intro children children' parser parser' start _ h
    simp only [Parser.parseDeclaratorListLoop, reduceCtorEq] at h
  | succ fuel ih =>
    intro children children' parser parser' start hspans h
    simp only [Parser.parseDeclaratorListLoop] at h
    obtain ⟨⟨peeked, p₁⟩, hpeek, h⟩ := ParseResult.ofExcept_ok _ _ _ _ h
    obtain ⟨hadv, _⟩ := Parser.peekTokenType_spec parser p₁ peeked hspans.toAdvance.2.1 hpeek
    simp only at h
    split at h
    · obtain ⟨comma, p₂, hcomma, h⟩ := ParseResult.bind_ok _ _ _ _ h
      obtain ⟨hscomma, _⟩ := Parser.parseGenericToken_spec _ p₁ p₂ comma hadv.2.1 hcomma
      obtain ⟨identifier, p₃, hidentifier, h⟩ := ParseResult.bind_ok _ _ _ _ h
      have hsid := Parser.parseIdentifier_spec p₂ p₃ identifier hscomma.1.2.1 hidentifier
      have hnew : start.SpansList
          ((children ++ [DeclaratorListChild.GenericToken comma,
            DeclaratorListChild.Identifier identifier]).map
            DeclaratorListChild.getReference) p₃.lexer := by
        rw [List.map_append]
        exact Lexer.SpansList.append (hspans.later hadv)
          ⟨p₂.lexer, hscomma, p₃.lexer, hsid, Lexer.Advance.refl hsid.1.2.1⟩
      obtain ⟨hres, added, hadded⟩ := ih _ children' p₃ parser' start hnew h
      exact ⟨hres, _, by rw [hadded, List.append_assoc]⟩
    · simp only [ParseResult.ok.injEq] at h
      obtain ⟨h1, h2⟩ := h
      subst h1
      subst h2
      exact ⟨hspans.later hadv, [], (List.append_nil _).symm⟩

/-- A declarator list that `parseDeclaratorList` returned spans the states
of the lexer before and after the call. -/
theorem Parser.parseDeclaratorList_spans (fuel : Nat) (parser parser' : Parser)
    (node : DeclaratorList) (hwf : parser.lexer.WellFormed)
    (h : parser.parseDeclaratorList fuel = .ok node parser') :
    parser.lexer.Spans node.ref parser'.lexer := by
  simp only [Parser.parseDeclaratorList] at h
  obtain ⟨first, p₁, hfirst, h⟩ := ParseResult.bind_ok _ _ _ _ h
  have hsfirst := Parser.parseIdentifier_spec parser p₁ first hwf hfirst
  obtain ⟨children, p₂, hloop, h⟩ := ParseResult.bind_ok _ _ _ _ h
  obtain ⟨hspans, _⟩ := Parser.parseDeclaratorListLoop_spans fuel
    [DeclaratorListChild.Identifier first] children p₁ p₂ parser.lexer hsfirst.toList hloop
  split at h
  · rename_i front back hfront hback
    obtain ⟨hsf, last, ref, hlast, hextend, hsall⟩ :=
      listRange_spans DeclaratorListChild.getReference children _ _ front back hspans
        hfront hback
    split at h
    · rw [hlast] at h
      simp only [ParseResult.ofExcept] at h
      rw [hextend] at h
      simp only [ParseResult.ok.injEq] at h
      obtain ⟨h1, h2⟩ := h
      subst h1
      subst h2
      exact hsall
    · simp only [ParseResult.ok.injEq] at h
      obtain ⟨h1, h2⟩ := h
      subst h1
      subst h2
      exact hsf
  · cases h

/-- An init-declarator that `parseInitDeclarator` returned spans the states
of the lexer before and after the call. -/
theorem Parser.parseInitDeclarator_spans (parser parser' : Parser)
    (node : InitDeclarator) (hwf : parser.lexer.WellFormed)
    (h : parser.parseInitDeclarator = .ok node parser') :
    parser.lexer.Spans node.ref parser'.lexer := by
  simp only [Parser.parseInitDeclarator] at h
  obtain ⟨identifier, p₁, hidentifier, h⟩ := ParseResult.bind_ok _ _ _ _ h
  have hsid := Parser.parseIdentifier_spec parser p₁ identifier hwf hidentifier
  obtain ⟨init, p₂, hinit, h⟩ := ParseResult.bind_ok _ _ _ _ h
  obtain ⟨hsinit, _⟩ := Parser.parseGenericToken_spec _ p₁ p₂ init hsid.1.2.1 hinit
  obtain ⟨literal, p₃, hliteral, h⟩ := ParseResult.bind_ok _ _ _ _ h
  have hslit := Parser.parseLiteral_spec p₂ p₃ literal hsinit.1.2.1 hliteral
  obtain ⟨last, hlast, h⟩ := ParseResult.ofExcept_ok _ _ _ _ h
  obtain ⟨ref, hextend, h⟩ := ParseResult.ofExcept_ok _ _ _ _ h
  simp only [ParseResult.ok.injEq] at h
  obtain ⟨h1, h2⟩ := h
  subst h1
  subst h2
  exact Lexer.Spans.extended (hsid.advance hsinit.1) hslit hlast hextend

/-- The loop of `parseInitDeclaratorList` appends children that were read
one after the other behind the children read so far. -/
theorem Parser.parseInitDeclaratorListLoop_spans (fuel : Nat) :
    ∀ (children children' : List InitDeclaratorListChild) (parser parser' : Parser)
      (start : Lexer),
      start.SpansList (children.map InitDeclaratorListChild.getReference) parser.lexer →
      Parser.parseInitDeclaratorListLoop fuel children parser = .ok children' parser' →
      start.SpansList (children'.map InitDeclaratorListChild.getReference) parser'.lexer ∧
      ∃ added, children' = children ++ added := by
  induction fuel with
  | zero =>
    intro children children' parser parser' start _ h
    simp only [Parser.parseInitDeclaratorListLoop, reduceCtorEq] at h
  | succ fuel ih =>
    intro children children' parser parser' start hspans h
    simp only [Parser.parseInitDeclaratorListLoop] at h
    obtain ⟨⟨peeked, p₁⟩, hpeek, h⟩ := ParseResult.ofExcept_ok _ _ _ _ h
    obtain ⟨hadv, _⟩ := Parser.peekTokenType_spec parser p₁ peeked hspans.toAdvance.2.1 hpeek
    simp only at h
    split at h
    · obtain ⟨comma, p₂, hcomma, h⟩ := ParseResult.bind_ok _ _ _ _ h
      obtain ⟨hscomma, _⟩ := Parser.parseGenericToken_spec _ p₁ p₂ comma hadv.2.1 hcomma
      obtain ⟨initDeclarator, p₃, hdeclarator, h⟩ := ParseResult.bind_ok _ _ _ _ h
      have hsid := Parser.parseInitDeclarator_spans p₂ p₃ initDeclarator hscomma.1.2.1
        hdeclarator
      have hnew : start.SpansList
          ((children ++ [InitDeclaratorListChild.GenericToken comma,
            InitDeclaratorListChild.InitDeclarator initDeclarator]).map
            InitDeclaratorListChild.getReference) p₃.lexer := by
        rw [List.map_append]
        exact Lexer.SpansList.append (hspans.later hadv)
          ⟨p₂.lexer, hscomma, p₃.lexer, hsid, Lexer.Advance.refl hsid.1.2.1⟩
      obtain ⟨hres, added, hadded⟩ := ih _ children' p₃ parser' start hnew h
      exact ⟨hres, _, by rw [hadded, List.append_assoc]⟩
    · simp only [ParseResult.ok.injEq] at h
      obtain ⟨h1, h2⟩ := h
      subst h1
      subst h2
      exact ⟨hspans.later hadv, [], (List.append_nil _).symm⟩

/-- An init-declarator list that `parseInitDeclaratorList` returned spans
the states of the lexer before and after the call. -/
theorem Parser.parseInitDeclaratorList_spans (fuel : Nat) (parser parser' : Parser)
    (node : InitDeclaratorList) (hwf : parser.lexer.WellFormed)
    (h : parser.parseInitDeclaratorList fuel = .ok node parser') :
    parser.lexer.Spans node.ref parser'.lexer := by
  simp only [Parser.parseInitDeclaratorList] at h
  obtain ⟨first, p₁, hfirst, h⟩ := ParseResult.bind_ok _ _ _ _ h
  have hsfirst := Parser.parseInitDeclarator_spans parser p₁ first hwf hfirst
  obtain ⟨children, p₂, hloop, h⟩ := ParseResult.bind_ok _ _ _ _ h
  obtain ⟨hspans, _⟩ := Parser.parseInitDeclaratorListLoop_spans fuel
    [InitDeclaratorListChild.InitDeclarator first] children p₁ p₂ parser.lexer
    hsfirst.toList hloop
  split at h
  · rename_i front back hfront hback
    obtain ⟨hsf, last, ref, hlast, hextend, hsall⟩ :=
      listRange_spans InitDeclaratorListChild.getReference children _ _ front back hspans
        hfront hback
    split at h
    · rw [hlast] at h
      simp only [ParseResult.ofExcept] at h
      rw [hextend] at h
      simp only [ParseResult.ok.injEq] at h
      obtain ⟨h1, h2⟩ := h
      subst h1
      subst h2
      exact hsall
    · simp only [ParseResult.ok.injEq] at h
      obtain ⟨h1, h2⟩ := h
      subst h1
      subst h2
      exact hsf
  · cases h

/-- The parameter declarations that `parseParameterDeclarations` returned
span the states of the lexer before and after the call. -/
theorem Parser.parseParameterDeclarations_spans (fuel : Nat) (parser parser' : Parser)
    (node : ParameterDeclarations) (hwf : parser.lexer.WellFormed)
    (h : parser.parseParameterDeclarations fuel = .ok node parser') :
    parser.lexer.Spans node.ref parser'.lexer := by
  simp only [Parser.parseParameterDeclarations] at h
  obtain ⟨keyword, p₁, hkeyword, h⟩ := ParseResult.bind_ok _ _ _ _ h
  obtain ⟨hskeyword, _⟩ := Parser.parseGenericToken_spec _ parser p₁ keyword hwf hkeyword
  obtain ⟨list, p₂, hlist, h⟩ := ParseResult.bind_ok _ _ _ _ h
  have hslist := Parser.parseDeclaratorList_spans fuel p₁ p₂ list hskeyword.1.2.1 hlist
  obtain ⟨semiColon, p₃, hsemi, h⟩ := ParseResult.bind_ok _ _ _ _ h
  obtain ⟨hssemi, _⟩ := Parser.parseGenericToken_spec _ p₂ p₃ semiColon hslist.1.2.1 hsemi
  obtain ⟨last, hlast, h⟩ := ParseResult.ofExcept_ok _ _ _ _ h
  obtain ⟨ref, hextend, h⟩ := ParseResult.ofExcept_ok _ _ _ _ h
  simp only [ParseResult.ok.injEq] at h
  obtain ⟨h1, h2⟩ := h
  subst h1
  subst h2
  exact Lexer.Spans.extended (hskeyword.advance hslist.1) hssemi hlast hextend

/-- The variable declarations that `parseVariableDeclarations` returned span
the states of the lexer before and after the call. -/
theorem Parser.parseVariableDeclarations_spans (fuel : Nat) (parser parser' : Parser)
    (node : VariableDeclarations) (hwf : parser.lexer.WellFormed)
    (h : parser.parseVariableDeclarations fuel = .ok node parser') :
    parser.lexer.Spans node.ref parser'.lexer := by
  simp only [Parser.parseVariableDeclarations] at h
  obtain ⟨keyword, p₁, hkeyword, h⟩ := ParseResult.bind_ok _ _ _ _ h
  obtain ⟨hskeyword, _⟩ := Parser.parseGenericToken_spec _ parser p₁ keyword hwf hkeyword
  obtain ⟨list, p₂, hlist, h⟩ := ParseResult.bind_ok _ _ _ _ h
  have hslist := Parser.parseDeclaratorList_spans fuel p₁ p₂ list hskeyword.1.2.1 hlist
  obtain ⟨semiColon, p₃, hsemi, h⟩ := ParseResult.bind_ok _ _ _ _ h
  obtain ⟨hssemi, _⟩ := Parser.parseGenericToken_spec _ p₂ p₃ semiColon hslist.1.2.1 hsemi
  obtain ⟨last, hlast, h⟩ := ParseResult.ofExcept_ok _ _ _ _ h
  obtain ⟨ref, hextend, h⟩ := ParseResult.ofExcept_ok _ _ _ _ h
  simp only [ParseResult.ok.injEq] at h
  obtain ⟨h1, h2⟩ := h
  subst h1
  subst h2
  exact Lexer.Spans.extended (hskeyword.advance hslist.1) hssemi hlast hextend

/-- The constant declarations that `parseConstantDeclarations` returned span
the states of the lexer before and after the call. -/
theorem Parser.parseConstantDeclarations_spans (fuel : Nat) (parser parser' : Parser)
    (node : ConstantDeclarations) (hwf : parser.lexer.WellFormed)
    (h : parser.parseConstantDeclarations fuel = .ok node parser') :
    parser.lexer.Spans node.ref parser'.lexer := by
  simp only [Parser.parseConstantDeclarations] at h
  obtain ⟨keyword, p₁, hkeyword, h⟩ := ParseResult.bind_ok _ _ _ _ h
  obtain ⟨hskeyword, _⟩ := Parser.parseGenericToken_spec _ parser p₁ keyword hwf hkeyword
  obtain ⟨list, p₂, hlist, h⟩ := ParseResult.bind_ok _ _ _ _ h
  have hslist := Parser.parseInitDeclaratorList_spans fuel p₁ p₂ list hskeyword.1.2.1 hlist
  obtain ⟨semiColon, p₃, hsemi, h⟩ := ParseResult.bind_ok _ _ _ _ h
  obtain ⟨hssemi, _⟩ := Parser.parseGenericToken_spec _ p₂ p₃ semiColon hslist.1.2.1 hsemi
  obtain ⟨last, hlast, h⟩ := ParseResult.ofExcept_ok _ _ _ _ h
  obtain ⟨ref, hextend, h⟩ := ParseResult.ofExcept_ok _ _ _ _ h
  simp only [ParseResult.ok.injEq] at h
  obtain ⟨h1, h2⟩ := h
  subst h1
  subst h2
  exact Lexer.Spans.extended (hskeyword.advance hslist.1) hssemi hlast hextend

/-- An assignment expression that `parseAssignmentExpression` returned spans
the states of the lexer before and after the call. -/
theorem Parser.parseAssignmentExpression_spans (fuel : Nat) (parser parser' : Parser)
    (node : AssignmentExpression) (hwf : parser.lexer.WellFormed)
    (h : parser.parseAssignmentExpression fuel = .ok node parser') :
    parser.lexer.Spans node.ref parser'.lexer := by
  simp only [Parser.parseAssignmentExpression] at h
  obtain ⟨identifier, p₁, hidentifier, h⟩ := ParseResult.bind_ok _ _ _ _ h
  have hsid := Parser.parseIdentifier_spec parser p₁ identifier hwf hidentifier
  obtain ⟨assignment, p₂, hassign, h⟩ := ParseResult.bind_ok _ _ _ _ h
  obtain ⟨hsassign, _⟩ := Parser.parseGenericToken_spec _ p₁ p₂ assignment hsid.1.2.1 hassign
  obtain ⟨a, p₃, ha, h⟩ := ParseResult.bind_ok _ _ _ _ h
  have hsa := (Parser.parseExpression_spans fuel).1 p₂ p₃ a hsassign.1.2.1 ha
  obtain ⟨last, hlast, h⟩ := ParseResult.ofExcept_ok _ _ _ _ h
  obtain ⟨ref, hextend, h⟩ := ParseResult.ofExcept_ok _ _ _ _ h
  simp only [ParseResult.ok.injEq] at h
  obtain ⟨h1, h2⟩ := h
  subst h1
  subst h2
  exact Lexer.Spans.extended (hsid.advance hsassign.1) hsa hlast hextend

/-- A statement that `parseStatement` returned spans the states of the lexer
before and after the call. -/
theorem Parser.parseStatement_spans (fuel : Nat) (parser parser' : Parser)
    (node : Statement) (hwf : parser.lexer.WellFormed)
    (h : parser.parseStatement fuel = .ok node parser') :
    parser.lexer.Spans node.getReference parser'.lexer := by
  simp only [Parser.parseStatement] at h
  split at h
  · cases h
  obtain ⟨⟨token, lexer'⟩, hpeek, h⟩ := ParseResult.ofExcept_ok _ _ _ _ h
  obtain ⟨hadv, _, _⟩ := Lexer.peek_spec parser.lexer lexer' token hwf hpeek
  simp only at h
  split at h
  · obtain ⟨keyword, p₁, hkeyword, h⟩ := ParseResult.bind_ok _ _ _ _ h
    obtain ⟨hskeyword, _⟩ := Parser.parseGenericToken_spec _ _ p₁ keyword hadv.2.1 hkeyword
    obtain ⟨a, p₂, ha, h⟩ := ParseResult.bind_ok _ _ _ _ h
    have hsa := (Parser.parseExpression_spans fuel).1 p₁ p₂ a hskeyword.1.2.1 ha
    obtain ⟨last, hlast, h⟩ := ParseResult.ofExcept_ok _ _ _ _ h
    obtain ⟨ref, hextend, h⟩ := ParseResult.ofExcept_ok _ _ _ _ h
    simp only [ParseResult.ok.injEq] at h
    obtain ⟨h1, h2⟩ := h
    subst h1
    subst h2
    exact Lexer.Spans.of_advance hadv (Lexer.Spans.extended hskeyword hsa hlast hextend)
  split at h
  · cases h
  obtain ⟨assignment, p₁, hassign, h⟩ := ParseResult.bind_ok _ _ _ _ h
  have hs := Parser.parseAssignmentExpression_spans fuel _ p₁ assignment hadv.2.1 hassign
  simp only [ParseResult.ok.injEq] at h
  obtain ⟨h1, h2⟩ := h
  subst h1
  subst h2
  exact Lexer.Spans.of_advance hadv hs

/-- The loop of `parseStatementList` appends children that were read one
after the other behind the children read so far. -/
theorem Parser.parseStatementListLoop_spans (fuel : Nat) :
    ∀ (children children' : List StatementListChild) (parser parser' : Parser)
      (start : Lexer),
      start.SpansList (children.map StatementListChild.getReference) parser.lexer →
      Parser.parseStatementListLoop fuel children parser = .ok children' parser' →
      start.SpansList (children'.map StatementListChild.getReference) parser'.lexer ∧
      ∃ added, children' = children ++ added := by
  induction fuel with
  | zero =>
    intro children children' parser parser' start _ h
    simp only [Parser.parseStatementListLoop, reduceCtorEq] at h
  | succ fuel ih =>
    intro children children' parser parser' start hspans h
    simp only [Parser.parseStatementListLoop] at h
    obtain ⟨⟨peeked, p₁⟩, hpeek, h⟩ := ParseResult.ofExcept_ok _ _ _ _ h
    obtain ⟨hadv, _⟩ := Parser.peekTokenType_spec parser p₁ peeked hspans.toAdvance.2.1 hpeek
    simp only at h
    split at h
    · obtain ⟨semiColon, p₂, hsemi, h⟩ := ParseResult.bind_ok _ _ _ _ h
      obtain ⟨hssemi, _⟩ := Parser.parseGenericToken_spec _ p₁ p₂ semiColon hadv.2.1 hsemi
      obtain ⟨statement, p₃, hstatement, h⟩ := ParseResult.bind_ok _ _ _ _ h
      have hss := Parser.parseStatement_spans fuel p₂ p₃ statement hssemi.1.2.1 hstatement
      have hnew : start.SpansList
          ((children ++ [StatementListChild.GenericToken semiColon,
            StatementListChild.Statement statement]).map
            StatementListChild.getReference) p₃.lexer := by
        rw [List.map_append]
        exact Lexer.SpansList.append (hspans.later hadv)
          ⟨p₂.lexer, hssemi, p₃.lexer, hss, Lexer.Advance.refl hss.1.2.1⟩
      obtain ⟨hres, added, hadded⟩ := ih _ children' p₃ parser' start hnew h
      exact ⟨hres, _, by rw [hadded, List.append_assoc]⟩
    · simp only [ParseResult.ok.injEq] at h
      obtain ⟨h1, h2⟩ := h
      subst h1
      subst h2
      exact ⟨hspans.later hadv, [], (List.append_nil _).symm⟩

/-- A statement list that `parseStatementList` returned spans the states of
the lexer before and after the call. -/
theorem Parser.parseStatementList_spans (fuel : Nat) (parser parser' : Parser)
    (node : StatementList) (hwf : parser.lexer.WellFormed)
    (h : parser.parseStatementList fuel = .ok node parser') :
    parser.lexer.Spans node.ref parser'.lexer := by
  simp only [Parser.parseStatementList] at h
  obtain ⟨first, p₁, hfirst, h⟩ := ParseResult.bind_ok _ _ _ _ h
  have hsfirst := Parser.parseStatement_spans fuel parser p₁ first hwf hfirst
  obtain ⟨children, p₂, hloop, h⟩ := ParseResult.bind_ok _ _ _ _ h
  obtain ⟨hspans, _⟩ := Parser.parseStatementListLoop_spans fuel
    [StatementListChild.Statement first] children p₁ p₂ parser.lexer hsfirst.toList hloop
  split at h
  · rename_i front back hfront hback
    obtain ⟨hsf, last, ref, hlast, hextend, hsall⟩ :=
      listRange_spans StatementListChild.getReference children _ _ front back hspans
        hfront hback
    split at h
    · rw [hlast] at h
      simp only [ParseResult.ofExcept] at h
      rw [hextend] at h
      simp only [ParseResult.ok.injEq] at h
      obtain ⟨h1, h2⟩ := h
      subst h1
      subst h2
      exact hsall
    · simp only [ParseResult.ok.injEq] at h
      obtain ⟨h1, h2⟩ := h
      subst h1
      subst h2
      exact hsf
  · cases h

/-- A compound statement that `parseCompoundStatement` returned spans the
states of the lexer before and after the call. -/
theorem Parser.parseCompoundStatement_spans (fuel : Nat) (parser parser' : Parser)
    (node : CompoundStatement) (hwf : parser.lexer.WellFormed)
    (h : parser.parseCompoundStatement fuel = .ok node parser') :
    parser.lexer.Spans node.ref parser'.lexer := by
  simp only [Parser.parseCompoundStatement] at h
  obtain ⟨keyword, p₁, hkeyword, h⟩ := ParseResult.bind_ok _ _ _ _ h
  obtain ⟨hskeyword, _⟩ := Parser.parseGenericToken_spec _ parser p₁ keyword hwf hkeyword
  obtain ⟨list, p₂, hlist, h⟩ := ParseResult.bind_ok _ _ _ _ h
  have hslist := Parser.parseStatementList_spans fuel p₁ p₂ list hskeyword.1.2.1 hlist
  split at h
  · cases h
  · cases h
  rename_i endKeyword p₃ hend
  obtain ⟨hsend, _⟩ := Parser.parseGenericToken_spec _ p₂ p₃ endKeyword hslist.1.2.1 hend
  obtain ⟨last, hlast, h⟩ := ParseResult.ofExcept_ok _ _ _ _ h
  obtain ⟨ref, hextend, h⟩ := ParseResult.ofExcept_ok _ _ _ _ h
  simp only [ParseResult.ok.injEq] at h
  obtain ⟨h1, h2⟩ := h
  subst h1
  subst h2
  exact Lexer.Spans.extended (hskeyword.advance hslist.1) hsend hlast hextend

/-- An optional declaration section that was parsed leads to a later state
of the lexer, and a section that is present spans the two states. -/
theorem Parser.parseOptionalSection_spans {α : Type} (keyword : TokenType)
    (parseSection : Parser → ParseResult α) (getReference : α → SourceRangeReference)
    (message : String) (parser parser' : Parser) (result : Option α)
    (hsection : ∀ (p p' : Parser) (node : α), p.lexer.WellFormed →
      parseSection p = .ok node p' → p.lexer.Spans (getReference node) p'.lexer)
    (hwf : parser.lexer.WellFormed)
    (h : Parser.parseOptionalSection keyword parseSection getReference message parser =
      .ok result parser') :
    parser.lexer.Advance parser'.lexer ∧
    ∀ node, result = some node → parser.lexer.Spans (getReference node) parser'.lexer := by
  simp only [Parser.parseOptionalSection] at h
  obtain ⟨⟨peeked, p₁⟩, hpeek, h⟩ := ParseResult.ofExcept_ok _ _ _ _ h
  obtain ⟨hadv, _⟩ := Parser.peekTokenType_spec parser p₁ peeked hwf hpeek
  simp only at h
  split at h
  · obtain ⟨declarations, p₂, hdeclarations, h⟩ := ParseResult.bind_ok _ _ _ _ h
    have hs := hsection p₁ p₂ declarations hadv.2.1 hdeclarations
    split at h
    · simp only [ParseResult.ofExcept] at h
      split at h <;> cases h
    · simp only [ParseResult.ok.injEq] at h
      obtain ⟨h1, h2⟩ := h
      subst h1
      subst h2
      refine ⟨hadv.trans hs.1, ?_⟩
      intro node hnode
      simp only [Option.some.injEq] at hnode
      subst hnode
      exact Lexer.Spans.of_advance hadv hs
  · simp only [ParseResult.ok.injEq] at h
    obtain ⟨h1, h2⟩ := h
    subst h1
    subst h2
    exact ⟨hadv, fun node hnode => by cases hnode⟩

/-- The function definition that `parseFunctionDefinition` returned spans
the states of the lexer before and after the call; in particular the source
code is the same in both states. -/
theorem Parser.parseFunctionDefinition_spans (fuel : Nat) (parser parser' : Parser)
    (node : FunctionDefinition) (hwf : parser.lexer.WellFormed)
    (h : parser.parseFunctionDefinition fuel = .ok node parser') :
    parser.lexer.Spans node.ref parser'.lexer := by
  simp only [Parser.parseFunctionDefinition] at h
  obtain ⟨parameterSection, p₁, hparams, h⟩ := ParseResult.bind_ok _ _ _ _ h
  obtain ⟨hadv₁, hs₁⟩ := Parser.parseOptionalSection_spans _ _ _ _ parser p₁ parameterSection
    (Parser.parseParameterDeclarations_spans fuel) hwf hparams
  obtain ⟨variableSection, p₂, hvars, h⟩ := ParseResult.bind_ok _ _ _ _ h
  obtain ⟨hadv₂, hs₂⟩ := Parser.parseOptionalSection_spans _ _ _ _ p₁ p₂ variableSection
    (Parser.parseVariableDeclarations_spans fuel) hadv₁.2.1 hvars
  obtain ⟨constantSection, p₃, hconsts, h⟩ := ParseResult.bind_ok _ _ _ _ h
  obtain ⟨hadv₃, hs₃⟩ := Parser.parseOptionalSection_spans _ _ _ _ p₂ p₃ constantSection
    (Parser.parseConstantDeclarations_spans fuel) hadv₂.2.1 hconsts
  obtain ⟨compound, p₄, hcompound, h⟩ := ParseResult.bind_ok _ _ _ _ h
  have hs₄ := Parser.parseCompoundStatement_spans fuel p₃ p₄ compound hadv₃.2.1 hcompound
  obtain ⟨terminator, p₅, hterminator, h⟩ := ParseResult.bind_ok _ _ _ _ h
  obtain ⟨hs₅, _⟩ := Parser.parseGenericToken_spec _ p₄ p₅ terminator hs₄.1.2.1 hterminator
  split at h
  · simp only [ParseResult.ofExcept] at h
    split at h <;> cases h
  obtain ⟨last, hlast, h⟩ := ParseResult.ofExcept_ok _ _ _ _ h
  obtain ⟨ref, hextend, h⟩ := ParseResult.ofExcept_ok _ _ _ _ h
  simp only [ParseResult.ok.injEq] at h
  obtain ⟨h1, h2⟩ := h
  subst h1
  subst h2
  have hstart : parser.lexer.Spans
      (getStartingRangeReferenceForFunctionDef parameterSection variableSection constantSection compound)
      p₄.lexer := by
    have h34 : p₃.lexer.Advance p₄.lexer := hs₄.1
    cases parameterSection with
    | some node =>
      exact (hs₁ node rfl).advance (hadv₂.trans (hadv₃.trans h34))
    | none =>
      cases variableSection with
      | some node =>
        exact Lexer.Spans.of_advance hadv₁ ((hs₂ node rfl).advance (hadv₃.trans h34))
      | none =>
        cases constantSection with
        | some node =>
          exact Lexer.Spans.of_advance (hadv₁.trans hadv₂) ((hs₃ node rfl).advance h34)
        | none =>
          exact Lexer.Spans.of_advance (hadv₁.trans (hadv₂.trans hadv₃)) hs₄
  exact Lexer.Spans.extended hstart hs₅ hlast hextend

end parser

end pljit

namespace pljit

namespace lexer

open common

/-- The only character with the token type `ProgramTerminator` is the full
stop. -/
theorem Lexer.determineSingleCharacterTokenType_programTerminator (c : Char)
    (h : Lexer.determineSingleCharacterTokenType c = .ProgramTerminator) : c = '.' := by
  unfold Lexer.determineSingleCharacterTokenType at h
  by_cases h1 : c = ','
  · rw [if_pos h1] at h
    cases h
  rw [if_neg h1] at h
  by_cases h2 : c = ';'
  · rw [if_pos h2] at h
    cases h
  rw [if_neg h2] at h
  by_cases h3 : c = '='
  · rw [if_pos h3] at h
    cases h
  rw [if_neg h3] at h
  by_cases h4 : c = '('
  · rw [if_pos h4] at h
    cases h
  rw [if_neg h4] at h
  by_cases h5 : c = ')'
  · rw [if_pos h5] at h
    cases h
  rw [if_neg h5] at h
  by_cases h6 : c = '.'
  · exact h6
  rw [if_neg h6] at h
  by_cases h7 : c = '+'
  · rw [if_pos h7] at h
    cases h
  rw [if_neg h7] at h
  by_cases h8 : c = '-'
  · rw [if_pos h8] at h
    cases h
  rw [if_neg h8] at h
  by_cases h9 : c = '*'
  · rw [if_pos h9] at h
    cases h
  rw [if_neg h9] at h
  by_cases h10 : c = '/'
  · rw [if_pos h10] at h
    cases h
  rw [if_neg h10] at h
  cases h

/-- A token made of letters is no program terminator. -/
theorem Lexer.determineAlphaCharTokenType_ne_programTerminator (codeString : List Char)
    (tokenType : TokenType)
    (h : Lexer.determineAlphaCharTokenType codeString = .ok tokenType) :
    tokenType ≠ .ProgramTerminator := by
  unfold Lexer.determineAlphaCharTokenType at h
  by_cases h0 : codeString.isEmpty = true
  · rw [if_pos h0] at h
    cases h
  rw [if_neg h0] at h
  by_cases h1 : codeString = "PARAM".toList
  · rw [if_pos h1] at h
    cases h
    decide
  rw [if_neg h1] at h
  by_cases h2 : codeString = "VAR".toList
  · rw [if_pos h2] at h
    cases h
    decide
  rw [if_neg h2] at h
  by_cases h3 : codeString = "CONST".toList
  · rw [if_pos h3] at h
    cases h
    decide
  rw [if_neg h3] at h
  by_cases h4 : codeString = "BEGIN".toList
  · rw [if_pos h4] at h
    cases h
    decide
  rw [if_neg h4] at h
  by_cases h5 : codeString = "END".toList
  · rw [if_pos h5] at h
    cases h
    decide
  rw [if_neg h5] at h
  by_cases h6 : codeString = "RETURN".toList
  · rw [if_pos h6] at h
    cases h
    decide
  rw [if_neg h6] at h
  cases h
  decide

/-- A token that is no error and that `Lexer::next` scanned with an empty
token cache starts at `current`, which holds a character that is no
whitespace; a program terminator is the single character `.` at `current`,
and the lexer has moved behind it and the whitespace that follows. -/
theorem Lexer.next_exact (lexer lexer' : Lexer) (token : Token)
    (hcache : lexer.tokenCache = none) (h : lexer.next = .ok (token, lexer'))
    (hne : token.tokenType ≠ .LexerError) :
    token.ref.ref = lexer.current ∧
    (∃ c, lexer.sourceCodeManager.sourceCode[lexer.current]? = some c ∧
      isWhitespace c = false) ∧
    (token.tokenType = .ProgramTerminator →
      lexer.sourceCodeManager.sourceCode[lexer.current]? = some '.' ∧
      token.ref.length = 1 ∧
      lexer' = Lexer.trimLeadingWhitespace { lexer with current := lexer.current + 1 }) := by
  unfold Lexer.next at h
  simp only [hcache] at h
  split at h
  · cases h
  split at h
  · cases h
  rename_i firstChar hfirst
  split at h
  · cases h
  rename_i hspace
  have hchar : ∃ c, lexer.sourceCodeManager.sourceCode[lexer.current]? = some c ∧
      isWhitespace c = false :=
    ⟨firstChar, hfirst, by simpa using hspace⟩
  have herror : ∀ (l0 : Lexer) (ref : SourceRangeReference) (message : String),
      l0.cacheError ref message = .ok (token, lexer') → False := by
    intro l0 ref message hl0
    exact hne (Lexer.cacheError_spec l0 lexer' ref message token hl0).1
  split at h
  · exact (herror _ _ _ h).elim
  split at h
  · split at h
    · cases h
    rename_i newToken hnew
    simp only [Except.ok.injEq, Prod.mk.injEq] at h
    obtain ⟨h1, h2⟩ := h
    subst h1
    simp only [Token.new] at hnew
    split at hnew
    · cases hnew
    simp only [Except.ok.injEq] at hnew
    subst hnew
    refine ⟨rfl, hchar, ?_⟩
    intro hty
    have hdot := Lexer.determineSingleCharacterTokenType_programTerminator firstChar hty
    rw [hdot] at hfirst
    refine ⟨hfirst, rfl, ?_⟩
    rw [← h2, hcache]
  split at h
  · exact (herror _ _ _ h).elim
  · exact (herror _ _ _ h).elim
  · rename_i scanned endRef current' hscan
    obtain ⟨hty, _, _⟩ :=
      Lexer.scan_finished _ _ _ _ _ _ _ _ _ hscan (Nat.lt_succ_self _)
    split at h
    · cases h
    rename_i tokenType htype
    split at h
    · cases h
    rename_i newToken hnew
    simp only [Except.ok.injEq, Prod.mk.injEq] at h
    obtain ⟨h1, h2⟩ := h
    subst h1
    simp only [Token.new] at hnew
    split at hnew
    · cases hnew
    simp only [Except.ok.injEq] at hnew
    subst hnew
    refine ⟨rfl, hchar, ?_⟩
    intro hterminator
    exfalso
    simp only at hterminator
    by_cases hunknown : scanned = .Unknown
    · rw [if_pos hunknown] at htype
      exact Lexer.determineAlphaCharTokenType_ne_programTerminator _ _ htype hterminator
    · rw [if_neg hunknown] at htype
      simp only [Except.ok.injEq] at htype
      subst htype
      rcases hty with hty | hty
      · rw [hty] at hterminator
        by_cases hlit : isLiteralChar firstChar = true
        · simp only [hlit, if_true, reduceCtorEq] at hterminator
        · simp only [hlit, Bool.false_eq_true, if_false, reduceCtorEq] at hterminator
      · rw [hty] at hterminator
        cases hterminator

/-- A lexer without a cached token whose `current` is the end of the source
code after it was moved behind whitespace: all characters from the start of
the whitespace on are whitespace. -/
theorem leadingWhitespace_end (sourceCode : List Char) (start : Nat)
    (h : start + leadingWhitespace (sourceCode.drop start) = sourceCode.length) :
    ∀ index, start ≤ index → index < sourceCode.length →
      ∃ c, sourceCode[index]? = some c ∧ isWhitespace c = true := by
  induction sourceCode generalizing start with
  | nil =>
    intro index _ hlt
    simp at hlt
  | cons head rest ih =>
    intro index hle hlt
    cases start with
    | zero =>
      simp only [List.drop_zero, leadingWhitespace, Nat.zero_add] at h
      split at h
      · rename_i hhead
        simp only [List.length_cons, Nat.add_right_cancel_iff] at h
        cases index with
        | zero => exact ⟨head, List.getElem?_cons_zero, hhead⟩
        | succ index =>
          simp only [List.getElem?_cons_succ]
          refine ih 0 ?_ index (Nat.zero_le _) ?_
          · simpa using h
          · simpa using hlt
      · simp at h
    | succ start =>
      simp only [List.drop_succ_cons, List.length_cons] at h
      cases index with
      | zero => omega
      | succ index =>
        simp only [List.getElem?_cons_succ]
        refine ih start ?_ index (by omega) ?_
        · omega
        · simpa using hlt

/-- The characters before the first character that is no whitespace are
whitespace, and the number of leading whitespace characters is at most the
length. -/
theorem leadingWhitespace_spec (sourceCode : List Char) :
    leadingWhitespace sourceCode ≤ sourceCode.length ∧
    ∀ index, index < leadingWhitespace sourceCode →
      ∃ c, sourceCode[index]? = some c ∧ isWhitespace c = true := by
  induction sourceCode with
  | nil => exact ⟨Nat.le_refl _, fun index h => by simp [leadingWhitespace] at h⟩
  | cons head rest ih =>
    simp only [leadingWhitespace]
    split
    · rename_i hhead
      refine ⟨by simpa using ih.1, ?_⟩
      intro index hlt
      cases index with
      | zero => exact ⟨head, List.getElem?_cons_zero, hhead⟩
      | succ index =>
        simp only [List.getElem?_cons_succ]
        exact ih.2 index (by omega)
    · exact ⟨Nat.zero_le _, fun index h => by omega⟩

end lexer

end pljit

namespace pljit

namespace parser

open common lexer parse_tree

/-- The constructor of `Parser` leaves the first token in the cache of the
lexer; unless it is an error token it starts behind the leading whitespace
of the source code, at a character that is no whitespace. -/
theorem Parser.new_cache (manager : SourceCodeManager) (parser : Parser)
    (h : Parser.new manager = .ok parser) :
    parser.lexer.sourceCodeManager.sourceCode = manager.sourceCode ∧
    parser.lexer.WellFormed ∧
    ∃ token, parser.lexer.tokenCache = some token ∧
      (token.tokenType ≠ .LexerError →
        token.ref.ref = leadingWhitespace manager.sourceCode ∧
        ∃ c, manager.sourceCode[token.ref.ref]? = some c ∧ isWhitespace c = false) := by
  have hwf := Parser.new_wellFormed manager parser h
  unfold Parser.new at h
  split at h
  · cases h
  rename_i token lexer hpeek
  split at h
  · cases h
  simp only [Except.ok.injEq] at h
  subst h
  have hwf₀ : (Lexer.new manager).WellFormed := by
    intro t ht
    simp only [Lexer.new, Lexer.trimLeadingWhitespace, Option.mem_def, reduceCtorEq] at ht
  obtain ⟨hadv, hcache, _⟩ := Lexer.peek_spec (Lexer.new manager) lexer token hwf₀ hpeek
  refine ⟨hadv.1, hwf, token, hcache, ?_⟩
  intro hne
  unfold Lexer.peek at hpeek
  have hnone : (Lexer.new manager).tokenCache = none := rfl
  simp only [hnone] at hpeek
  split at hpeek
  · cases hpeek
  rename_i next lexer₁ hnext
  simp only [Except.ok.injEq, Prod.mk.injEq] at hpeek
  obtain ⟨h1, _⟩ := hpeek
  subst h1
  obtain ⟨hstart, hchar, _⟩ := Lexer.next_exact (Lexer.new manager) lexer₁ next hnone hnext hne
  have hcurrent : (Lexer.new manager).current = leadingWhitespace manager.sourceCode := by
    simp only [Lexer.new, Lexer.trimLeadingWhitespace, List.drop_zero, Nat.zero_add]
  rw [hcurrent] at hstart hchar
  rw [hstart]
  exact ⟨rfl, hchar⟩

/-- The function `peekTokenType` returns the cached token of the lexer and
leaves the parser alone. -/
theorem Parser.peekTokenType_cached (parser : Parser) (token : Token)
    (hcache : parser.lexer.tokenCache = some token) :
    parser.peekTokenType = .ok (some token, parser) := by
  unfold Parser.peekTokenType
  have hnext : parser.lexer.hasNext = true := by
    simp only [Lexer.hasNext, hcache, Option.isSome_some, Bool.or_true]
  simp only [hnext, Bool.not_true, Bool.false_eq_true, if_false, Lexer.peek, hcache]

/-- A token that `parseGenericToken` accepted: the cache of the lexer is
empty afterwards, and the token is the one that was cached before, if there
was one. -/
theorem Parser.parseGenericToken_cached (expectedTokenType : TokenType)
    (parser parser' : Parser) (node : GenericToken)
    (h : parser.parseGenericToken expectedTokenType = .ok node parser') :
    parser'.lexer.tokenCache = none ∧
    ∀ token, parser.lexer.tokenCache = some token →
      node.ref = token.ref ∧ token.tokenType ≠ .LexerError := by
  unfold Parser.parseGenericToken at h
  split at h
  · cases h
  split at h
  · cases h
  rename_i token lexer' hnext
  simp only at h
  split at h
  · cases h
  rename_i herr
  split at h
  · cases h
  simp only [ParseResult.ofExcept] at h
  split at h
  · simp only [ParseResult.ok.injEq] at h
    obtain ⟨h1, h2⟩ := h
    subst h1
    subst h2
    have hne : token.tokenType ≠ .LexerError := by
      intro hcontra
      apply herr
      simp only [Token.hasError, hcontra, decide_True]
    unfold Lexer.next at hnext
    cases hcache : parser.lexer.tokenCache with
    | some cached =>
      simp only [hcache] at hnext
      by_cases hc : cached.tokenType = .LexerError
      · rw [if_pos hc] at hnext
        simp only [Except.ok.injEq, Prod.mk.injEq] at hnext
        obtain ⟨h1, _⟩ := hnext
        subst h1
        exact absurd hc hne
      · rw [if_neg hc] at hnext
        simp only [Except.ok.injEq, Prod.mk.injEq] at hnext
        obtain ⟨h1, h2⟩ := hnext
        subst h1
        subst h2
        refine ⟨rfl, ?_⟩
        intro t ht
        simp only [Option.some.injEq] at ht
        subst ht
        exact ⟨rfl, hc⟩
    | none =>
      refine ⟨?_, fun t ht => by cases ht⟩
      have hwf : parser.lexer.WellFormed := by
        intro t ht
        rw [hcache] at ht
        cases ht
      have hnext' : parser.lexer.next = .ok (token, lexer') := by
        unfold Lexer.next
        exact hnext
      exact ((Lexer.next_spec parser.lexer lexer' token hwf hnext').2.2.2.2 hne).2.1
  · cases h

/-- The program terminator that `parseGenericToken` accepted from a lexer
with an empty cache is the character `.` at `current`, and the lexer has
moved behind it and the whitespace that follows. -/
theorem Parser.parseGenericToken_programTerminator (parser parser' : Parser)
    (node : GenericToken) (hcache : parser.lexer.tokenCache = none)
    (h : parser.parseGenericToken .ProgramTerminator = .ok node parser') :
    node.ref = { ref := parser.lexer.current, length := 1 } ∧
    parser.lexer.sourceCodeManager.sourceCode[parser.lexer.current]? = some '.' ∧
    parser'.lexer =
      Lexer.trimLeadingWhitespace { parser.lexer with current := parser.lexer.current + 1 } := by
  unfold Parser.parseGenericToken at h
  split at h
  · cases h
  split at h
  · cases h
  rename_i token lexer' hnext
  simp only at h
  split at h
  · cases h
  rename_i herr
  split at h
  · cases h
  rename_i hty
  simp only [ne_eq, Decidable.not_not] at hty
  simp only [ParseResult.ofExcept] at h
  split at h
  · simp only [ParseResult.ok.injEq] at h
    obtain ⟨h1, h2⟩ := h
    subst h1
    subst h2
    have hne : token.tokenType ≠ .LexerError := by
      rw [hty]
      decide
    obtain ⟨hstart, _, hdot⟩ := Lexer.next_exact parser.lexer lexer' token hcache hnext hne
    obtain ⟨hchar, hlength, hlexer⟩ := hdot hty
    refine ⟨?_, hchar, hlexer⟩
    show token.ref = _
    cases hr : token.ref with
    | mk ref length =>
      rw [hr] at hstart hlength
      simp only at hstart hlength
      rw [hstart, hlength]
  · cases h

/-- The range that `extendUntil` returns starts where the extended range
starts. -/
theorem extendUntil_ref (range ref : SourceRangeReference) (last : SourceLocationReference)
    (h : range.extendUntil last = .ok ref) :
    ref.ref = range.ref ∧ range.ref ≤ last.ref ∧ ref.length = last.ref - range.ref + 1 := by
  unfold SourceRangeReference.extendUntil at h
  split at h
  · rename_i hle
    simp only [Except.ok.injEq] at h
    subst h
    exact ⟨rfl, hle, rfl⟩
  · cases h

/-- The parameter declarations that were parsed start with the token that
was cached before the call. -/
theorem Parser.parseParameterDeclarations_start (fuel : Nat) (parser parser' : Parser)
    (node : ParameterDeclarations) (token : Token)
    (hcache : parser.lexer.tokenCache = some token)
    (h : parser.parseParameterDeclarations fuel = .ok node parser') :
    node.ref.ref = token.ref.ref ∧ token.tokenType ≠ .LexerError := by
  simp only [Parser.parseParameterDeclarations] at h
  obtain ⟨keyword, p₁, hkeyword, h⟩ := ParseResult.bind_ok _ _ _ _ h
  have hk := (Parser.parseGenericToken_cached _ parser p₁ keyword hkeyword).2 token hcache
  obtain ⟨list, p₂, _, h⟩ := ParseResult.bind_ok _ _ _ _ h
  obtain ⟨semiColon, p₃, _, h⟩ := ParseResult.bind_ok _ _ _ _ h
  obtain ⟨last, _, h⟩ := ParseResult.ofExcept_ok _ _ _ _ h
  obtain ⟨ref, hextend, h⟩ := ParseResult.ofExcept_ok _ _ _ _ h
  simp only [ParseResult.ok.injEq] at h
  obtain ⟨h1, _⟩ := h
  subst h1
  exact ⟨by rw [(extendUntil_ref _ _ _ hextend).1, hk.1], hk.2⟩

/-- The variable declarations that were parsed start with the token that was
cached before the call. -/
theorem Parser.parseVariableDeclarations_start (fuel : Nat) (parser parser' : Parser)
    (node : VariableDeclarations) (token : Token)
    (hcache : parser.lexer.tokenCache = some token)
    (h : parser.parseVariableDeclarations fuel = .ok node parser') :
    node.ref.ref = token.ref.ref ∧ token.tokenType ≠ .LexerError := by
  simp only [Parser.parseVariableDeclarations] at h
  obtain ⟨keyword, p₁, hkeyword, h⟩ := ParseResult.bind_ok _ _ _ _ h
  have hk := (Parser.parseGenericToken_cached _ parser p₁ keyword hkeyword).2 token hcache
  obtain ⟨list, p₂, _, h⟩ := ParseResult.bind_ok _ _ _ _ h
  obtain ⟨semiColon, p₃, _, h⟩ := ParseResult.bind_ok _ _ _ _ h
  obtain ⟨last, _, h⟩ := ParseResult.ofExcept_ok _ _ _ _ h
  obtain ⟨ref, hextend, h⟩ := ParseResult.ofExcept_ok _ _ _ _ h
  simp only [ParseResult.ok.injEq] at h
  obtain ⟨h1, _⟩ := h
  subst h1
  exact ⟨by rw [(extendUntil_ref _ _ _ hextend).1, hk.1], hk.2⟩

/-- The constant declarations that were parsed start with the token that was
cached before the call. -/
theorem Parser.parseConstantDeclarations_start (fuel : Nat) (parser parser' : Parser)
    (node : ConstantDeclarations) (token : Token)
    (hcache : parser.lexer.tokenCache = some token)
    (h : parser.parseConstantDeclarations fuel = .ok node parser') :
    node.ref.ref = token.ref.ref ∧ token.tokenType ≠ .LexerError := by
  simp only [Parser.parseConstantDeclarations] at h
  obtain ⟨keyword, p₁, hkeyword, h⟩ := ParseResult.bind_ok _ _ _ _ h
  have hk := (Parser.parseGenericToken_cached _ parser p₁ keyword hkeyword).2 token hcache
  obtain ⟨list, p₂, _, h⟩ := ParseResult.bind_ok _ _ _ _ h
  obtain ⟨semiColon, p₃, _, h⟩ := ParseResult.bind_ok _ _ _ _ h
  obtain ⟨last, _, h⟩ := ParseResult.ofExcept_ok _ _ _ _ h
  obtain ⟨ref, hextend, h⟩ := ParseResult.ofExcept_ok _ _ _ _ h
  simp only [ParseResult.ok.injEq] at h
  obtain ⟨h1, _⟩ := h
  subst h1
  exact ⟨by rw [(extendUntil_ref _ _ _ hextend).1, hk.1], hk.2⟩

/-- The compound statement that was parsed leaves the cache of the lexer
empty, and starts with the token that was cached before the call, if there
was one. -/
theorem Parser.parseCompoundStatement_start (fuel : Nat) (parser parser' : Parser)
    (node : CompoundStatement)
    (h : parser.parseCompoundStatement fuel = .ok node parser') :
    parser'.lexer.tokenCache = none ∧
    ∀ token, parser.lexer.tokenCache = some token →
      node.ref.ref = token.ref.ref ∧ token.tokenType ≠ .LexerError := by
  simp only [Parser.parseCompoundStatement] at h
  obtain ⟨keyword, p₁, hkeyword, h⟩ := ParseResult.bind_ok _ _ _ _ h
  have hk := (Parser.parseGenericToken_cached _ parser p₁ keyword hkeyword).2
  obtain ⟨list, p₂, _, h⟩ := ParseResult.bind_ok _ _ _ _ h
  split at h
  · cases h
  · cases h
  rename_i endKeyword p₃ hend
  have hnone := (Parser.parseGenericToken_cached _ p₂ p₃ endKeyword hend).1
  obtain ⟨last, _, h⟩ := ParseResult.ofExcept_ok _ _ _ _ h
  obtain ⟨ref, hextend, h⟩ := ParseResult.ofExcept_ok _ _ _ _ h
  simp only [ParseResult.ok.injEq] at h
  obtain ⟨h1, h2⟩ := h
  subst h1
  subst h2
  refine ⟨hnone, ?_⟩
  intro token hcache
  exact ⟨by rw [(extendUntil_ref _ _ _ hextend).1, (hk token hcache).1], (hk token hcache).2⟩

/-- An optional declaration section that was parsed with a cached token: a
section that is present starts with this token, and without a section the
parser is unchanged. -/
theorem Parser.parseOptionalSection_start {α : Type} (keyword : TokenType)
    (parseSection : Parser → ParseResult α) (getReference : α → SourceRangeReference)
    (message : String) (parser parser' : Parser) (result : Option α) (token : Token)
    (hsection : ∀ (p' : Parser) (node : α),
      parseSection parser = .ok node p' →
        (getReference node).ref = token.ref.ref ∧ token.tokenType ≠ .LexerError)
    (hcache : parser.lexer.tokenCache = some token)
    (h : Parser.parseOptionalSection keyword parseSection getReference message parser =
      .ok result parser') :
    (∀ node, result = some node →
      (getReference node).ref = token.ref.ref ∧ token.tokenType ≠ .LexerError) ∧
    (result = none → parser' = parser) := by
  simp only [Parser.parseOptionalSection] at h
  rw [Parser.peekTokenType_cached parser token hcache] at h
  simp only [ParseResult.ofExcept] at h
  split at h
  · obtain ⟨declarations, p₂, hdeclarations, h⟩ := ParseResult.bind_ok _ _ _ _ h
    split at h
    · split at h <;> cases h
    · simp only [ParseResult.ok.injEq] at h
      obtain ⟨h1, h2⟩ := h
      subst h1
      subst h2
      refine ⟨?_, fun hnone => by cases hnone⟩
      intro node hnode
      simp only [Option.some.injEq] at hnode
      subst hnode
      exact hsection _ _ hdeclarations
  · simp only [ParseResult.ok.injEq] at h
    obtain ⟨h1, h2⟩ := h
    subst h1
    subst h2
    exact ⟨(fun node hnode => by cases hnode), fun _ => rfl⟩

/-- C20: let the parser be constructed on a source code and let
`parseFunctionDefinition` return a node (the parser accepts the program).
Then the range of the node starts behind the leading whitespace of the
source code, that is at the first character that is no whitespace, and its
last character is the program terminator `.`, behind which the source code
holds whitespace only. -/
theorem C20_function_definition_spans_the_program (code : List Char) (fuel : Nat)
    (parser parser' : Parser) (node : FunctionDefinition)
    (hnew : Parser.new { sourceCode := code } = .ok parser)
    (hparse : parser.parseFunctionDefinition fuel = .ok node parser') :
    node.ref.ref = leadingWhitespace code ∧
    (∀ index, index < node.ref.ref →
      ∃ c, code[index]? = some c ∧ isWhitespace c = true) ∧
    (∃ c, code[node.ref.ref]? = some c ∧ isWhitespace c = false) ∧
    0 < node.ref.length ∧
    code[node.ref.ref + node.ref.length - 1]? = some '.' ∧
    node.programTerminator.ref = { ref := node.ref.ref + node.ref.length - 1, length := 1 } ∧
    (∀ index, node.ref.ref + node.ref.length ≤ index → index < code.length →
      ∃ c, code[index]? = some c ∧ isWhitespace c = true) := by
  obtain ⟨hsource, hwf, token, hcache, htoken⟩ := Parser.new_cache _ parser hnew
  simp only at hsource htoken
  simp only [Parser.parseFunctionDefinition] at hparse
  obtain ⟨parameterSection, p₁, hparams, h⟩ := ParseResult.bind_ok _ _ _ _ hparse
  obtain ⟨hadv₁, _⟩ := Parser.parseOptionalSection_spans _ _ _ _ parser p₁ parameterSection
    (Parser.parseParameterDeclarations_spans fuel) hwf hparams
  obtain ⟨hstart₁, hsame₁⟩ := Parser.parseOptionalSection_start _ _ _ _ parser p₁
    parameterSection token
    (fun p' node hnode => Parser.parseParameterDeclarations_start fuel parser p' node token
      hcache hnode) hcache hparams
  obtain ⟨variableSection, p₂, hvars, h⟩ := ParseResult.bind_ok _ _ _ _ h
  obtain ⟨hadv₂, _⟩ := Parser.parseOptionalSection_spans _ _ _ _ p₁ p₂ variableSection
    (Parser.parseVariableDeclarations_spans fuel) hadv₁.2.1 hvars
  obtain ⟨constantSection, p₃, hconsts, h⟩ := ParseResult.bind_ok _ _ _ _ h
  obtain ⟨hadv₃, _⟩ := Parser.parseOptionalSection_spans _ _ _ _ p₂ p₃ constantSection
    (Parser.parseConstantDeclarations_spans fuel) hadv₂.2.1 hconsts
  obtain ⟨compound, p₄, hcompound, h⟩ := ParseResult.bind_ok _ _ _ _ h
  have hs₄ := Parser.parseCompoundStatement_spans fuel p₃ p₄ compound hadv₃.2.1 hcompound
  obtain ⟨hnone₄, hstart₄⟩ := Parser.parseCompoundStatement_start fuel p₃ p₄ compound hcompound
  obtain ⟨terminator, p₅, hterminator, h⟩ := ParseResult.bind_ok _ _ _ _ h
  obtain ⟨href₅, hchar₅, hlexer₅⟩ :=
    Parser.parseGenericToken_programTerminator p₄ p₅ terminator hnone₄ hterminator
  have hsource₄ : p₄.lexer.sourceCodeManager.sourceCode = code := by
    rw [hs₄.1.1, hadv₃.1, hadv₂.1, hadv₁.1, hsource]
  rw [hsource₄] at hchar₅
  split at h
  · simp only [ParseResult.ofExcept] at h
    split at h <;> cases h
  rename_i hnext
  obtain ⟨last, hlast, h⟩ := ParseResult.ofExcept_ok _ _ _ _ h
  obtain ⟨ref, hextend, h⟩ := ParseResult.ofExcept_ok _ _ _ _ h
  simp only [ParseResult.ok.injEq] at h
  obtain ⟨h1, h2⟩ := h
  subst h1
  subst h2
  have hstart : (getStartingRangeReferenceForFunctionDef parameterSection variableSection
      constantSection compound).ref = token.ref.ref ∧ token.tokenType ≠ .LexerError := by
    cases parameterSection with
    | some section₁ => exact hstart₁ section₁ rfl
    | none =>
      have hp₁ := hsame₁ rfl
      subst hp₁
      obtain ⟨hstart₂, hsame₂⟩ := Parser.parseOptionalSection_start _ _ _ _ p₁ p₂
        variableSection token
        (fun p' node hnode => Parser.parseVariableDeclarations_start fuel p₁ p' node token
          hcache hnode) hcache hvars
      cases variableSection with
      | some section₂ => exact hstart₂ section₂ rfl
      | none =>
        have hp₂ := hsame₂ rfl
        subst hp₂
        obtain ⟨hstart₃, hsame₃⟩ := Parser.parseOptionalSection_start _ _ _ _ p₂ p₃
          constantSection token
          (fun p' node hnode => Parser.parseConstantDeclarations_start fuel p₂ p' node token
            hcache hnode) hcache hconsts
        cases constantSection with
        | some section₃ => exact hstart₃ section₃ rfl
        | none =>
          have hp₃ := hsame₃ rfl
          subst hp₃
          exact hstart₄ token hcache
  obtain ⟨hfirst, hchar⟩ := htoken hstart.2
  obtain ⟨hrefref, hle, hlength⟩ := extendUntil_ref _ _ _ hextend
  have hlast' : last.ref = p₄.lexer.current := by
    rw [href₅] at hlast
    simp only [SourceRangeReference.last, Nat.lt_one_iff, if_true, Except.ok.injEq] at hlast
    rw [← hlast]
    rfl
  have hbegin : ref.ref = leadingWhitespace code := by
    rw [hrefref, hstart.1, hfirst]
  have hend : ref.ref + ref.length - 1 = p₄.lexer.current := by
    rw [hrefref, hlength, hlast']
    rw [hlast'] at hle
    omega
  have hcurrent : p₄.lexer.current + 1 + leadingWhitespace (code.drop (p₄.lexer.current + 1)) =
      code.length := by
    have hc₅ : p₅.lexer.current =
        p₄.lexer.current + 1 + leadingWhitespace (code.drop (p₄.lexer.current + 1)) := by
      rw [hlexer₅]
      simp only [Lexer.trimLeadingWhitespace, hsource₄]
    have hs₅ : p₅.lexer.sourceCodeManager.sourceCode = code := by
      rw [hlexer₅]
      exact hsource₄
    have hn : p₅.lexer.hasNext = false := by simpa using hnext
    simp only [Lexer.hasNext, Bool.or_eq_false_iff, bne_eq_false_iff_eq] at hn
    rw [← hc₅, hn.1, hs₅]
  refine ⟨hbegin, ?_, ?_, ?_, ?_, ?_, ?_⟩
  · intro index hindex
    rw [hbegin] at hindex
    exact (leadingWhitespace_spec code).2 index hindex
  · rw [hbegin, ← hfirst]
    exact hchar
  · rw [hlength]
    exact Nat.succ_pos _
  · rw [hend]
    exact hchar₅
  · show terminator.ref = _
    rw [hend, href₅]
  · intro index hindex hlt
    have hlen : 0 < ref.length := by
      rw [hlength]
      exact Nat.succ_pos _
    have hindex' : ref.ref + ref.length ≤ index := hindex
    exact leadingWhitespace_end code (p₄.lexer.current + 1) hcurrent index (by omega) hlt

/-- Witness of C20 on the source code of the test `TestParser.SimpleTest`
with whitespace in front of it and behind it. -/
theorem C20_function_definition_spans_the_program_witness :
    scenarioSimpleTree.ref.ref = leadingWhitespace scenarioSimple ∧
    (∀ index, index < scenarioSimpleTree.ref.ref →
      ∃ c, scenarioSimple[index]? = some c ∧ isWhitespace c = true) ∧
    (∃ c, scenarioSimple[scenarioSimpleTree.ref.ref]? = some c ∧ isWhitespace c = false) ∧
    0 < scenarioSimpleTree.ref.length ∧
    scenarioSimple[scenarioSimpleTree.ref.ref + scenarioSimpleTree.ref.length - 1]? =
      some '.' ∧
    scenarioSimpleTree.programTerminator.ref =
      { ref := scenarioSimpleTree.ref.ref + scenarioSimpleTree.ref.length - 1,
        length := 1 } ∧
    (∀ index, scenarioSimpleTree.ref.ref + scenarioSimpleTree.ref.length ≤ index →
      index < scenarioSimple.length →
      ∃ c, scenarioSimple[index]? = some c ∧ isWhitespace c = true) :=
  C20_function_definition_spans_the_program scenarioSimple 16 scenarioSimpleStart
    scenarioSimpleEnd scenarioSimpleTree (by decide!) (by decide!)

end parser

end pljit

namespace pljit

namespace analysis

open common ast

/-- The texts held by a coherent symbol table are pairwise distinct, within
a namespace and across the namespaces. -/
theorem SymbolTable.Coherent.nodup {table : SymbolTable} (h : table.Coherent) :
    (table.names .Parameter ++ table.names .Variable ++ table.names .Constant).Nodup := by
  obtain ⟨_, _, _, hheld⟩ := h
  have hinj : ∀ (ty₁ ty₂ : IdentifierType) (i₁ i₂ : Nat) (name : List Char),
      (table.names ty₁)[i₁]? = some name → (table.names ty₂)[i₂]? = some name →
      ty₁ = ty₂ ∧ i₁ = i₂ := by
    intro ty₁ ty₂ i₁ i₂ name h₁ h₂
    obtain ⟨e₁, hf₁, ht₁, hi₁⟩ := hheld ty₁ i₁ name h₁
    obtain ⟨e₂, hf₂, ht₂, hi₂⟩ := hheld ty₂ i₂ name h₂
    rw [hf₁] at hf₂
    simp only [Option.some.injEq] at hf₂
    subst hf₂
    exact ⟨ht₁.symm.trans ht₂, hi₁.symm.trans hi₂⟩
  have hnodup : ∀ ty, (table.names ty).Nodup := by
    intro ty
    rw [List.nodup_iff_getElem?_ne_getElem?]
    intro i j hij hj heq
    have hi : i < (table.names ty).length := Nat.lt_trans hij hj
    have h₁ : (table.names ty)[i]? = some ((table.names ty)[i]) := List.getElem?_eq_getElem hi
    have h₂ : (table.names ty)[j]? = some ((table.names ty)[i]) := by rw [← heq, h₁]
    have := (hinj ty ty i j _ h₁ h₂).2
    omega
  have hdisjoint : ∀ ty₁ ty₂, ty₁ ≠ ty₂ → ∀ name, name ∈ table.names ty₁ →
      name ∈ table.names ty₂ → False := by
    intro ty₁ ty₂ hne name h₁ h₂
    obtain ⟨i₁, hi₁⟩ := List.mem_iff_getElem?.mp h₁
    obtain ⟨i₂, hi₂⟩ := List.mem_iff_getElem?.mp h₂
    exact hne (hinj ty₁ ty₂ i₁ i₂ name hi₁ hi₂).1
  rw [List.nodup_append]
  refine ⟨?_, hnodup _, ?_⟩
  · rw [List.nodup_append]
    refine ⟨hnodup _, hnodup _, ?_⟩
    intro name h₁ h₂
    exact hdisjoint .Parameter .Variable (by decide) name h₁ h₂
  · intro name h₁ h₂
    rcases List.mem_append.mp h₁ with h₁ | h₁
    · exact hdisjoint .Parameter .Constant (by decide) name h₁ h₂
    · exact hdisjoint .Variable .Constant (by decide) name h₁ h₂

/-- The number of symbols of a namespace of a coherent symbol table is the
number of texts that the namespace holds. -/
theorem SymbolTable.Coherent.size_eq {table : SymbolTable} (h : table.Coherent)
    (symbolType : IdentifierType) :
    table.size symbolType = (table.names symbolType).length := by
  cases symbolType
  · rfl
  · rfl
  · exact h.2.1

/-- The identifiers that an expression with ids in range reads have ids
below the size of their namespace. -/
theorem Expression.idsInRange_reads (table : SymbolTable) (expression : Expression)
    (h : expression.idsInRange table = true) :
    ∀ identifierType id, (identifierType, id) ∈ expression.reads →
      id < table.size identifierType := by
  induction expression with
  | ConstantLiteral value =>
    intro identifierType id hmem
    simp [Expression.reads] at hmem
  | Identifier ty n =>
    intro identifierType id hmem
    simp only [Expression.reads, List.mem_singleton, Prod.mk.injEq] at hmem
    obtain ⟨rfl, rfl⟩ := hmem
    simpa [Expression.idsInRange] using h
  | UnaryOp op e ih =>
    intro identifierType id hmem
    exact ih (by simpa [Expression.idsInRange] using h) identifierType id
      (by simpa [Expression.reads] using hmem)
  | BinaryOp lhs op rhs ihl ihr =>
    intro identifierType id hmem
    simp only [Expression.idsInRange, Bool.and_eq_true] at h
    simp only [Expression.reads, List.mem_append] at hmem
    rcases hmem with hmem | hmem
    · exact ihl h.1 identifierType id hmem
    · exact ihr h.2 identifierType id hmem

/-- The texts of the targets of the assignment statements of a statement
list are the texts of the identifiers of its assignment statements. -/
theorem mem_assignmentTargets (sourceCode : List Char) (target : List Char) :
    ∀ (statements : List parse_tree.Statement),
      target ∈ parse_tree.assignmentTargets sourceCode statements →
      ∃ assignmentExpression ref,
        parse_tree.Statement.AssignmentStatement assignmentExpression ref ∈ statements ∧
        assignmentExpression.identifier.ref.toStringView sourceCode = target
  | [], h => by simp [parse_tree.assignmentTargets] at h
  | .AssignmentStatement assignmentExpression ref :: rest, h => by
    simp only [parse_tree.assignmentTargets, List.mem_cons] at h
    rcases h with h | h
    · exact ⟨assignmentExpression, ref, List.mem_cons_self _ _, h.symm⟩
    · obtain ⟨a, r, hmem, htext⟩ := mem_assignmentTargets sourceCode target rest h
      exact ⟨a, r, List.mem_cons_of_mem _ hmem, htext⟩
  | .ReturnStatement _ _ _ :: rest, h => by
    simp only [parse_tree.assignmentTargets] at h
    obtain ⟨a, r, hmem, htext⟩ := mem_assignmentTargets sourceCode target rest h
    exact ⟨a, r, List.mem_cons_of_mem _ hmem, htext⟩

/-- Every element of the first of two lists related element by element has a
related element in the second list. -/
theorem forall₂_mem_left {α β : Type} {R : α → β → Prop} :
    ∀ {l₁ : List α} {l₂ : List β}, List.Forall₂ R l₁ l₂ → ∀ a ∈ l₁, ∃ b ∈ l₂, R a b
  | _, _, .nil, a, h => by cases h
  | _, _, .cons hhead htail, a, h => by
    rcases List.mem_cons.mp h with rfl | h
    · exact ⟨_, List.mem_cons_self _ _, hhead⟩
    · obtain ⟨b, hb, hr⟩ := forall₂_mem_left htail a h
      exact ⟨b, List.mem_cons_of_mem _ hb, hr⟩

/-- Every element of the second of two lists related element by element has
a related element in the first list. -/
theorem forall₂_mem_right {α β : Type} {R : α → β → Prop} :
    ∀ {l₁ : List α} {l₂ : List β}, List.Forall₂ R l₁ l₂ → ∀ b ∈ l₂, ∃ a ∈ l₁, R a b
  | _, _, .nil, b, h => by cases h
  | _, _, .cons hhead htail, b, h => by
    rcases List.mem_cons.mp h with rfl | h
    · exact ⟨_, List.mem_cons_self _ _, hhead⟩
    · obtain ⟨a, ha, hr⟩ := forall₂_mem_right htail b h
      exact ⟨a, List.mem_cons_of_mem _ ha, hr⟩

/-- Dead code elimination fails its assertion on a function without a
return statement. -/
theorem DeadCodeElimination.visit_without_return (function : Function)
    (h : ∀ stmt ∈ function.statements, stmt.isReturnStatement = false) :
    optim.DeadCodeElimination.visit function = .error .assertion := by
  have hid : ∀ statements : List Statement,
      (∀ stmt ∈ statements, stmt.isReturnStatement = false) →
      optim.DeadCodeElimination.firstReturnStatementId statements = statements.length := by
    intro statements
    induction statements with
    | nil => intro _; rfl
    | cons stmt rest ih =>
      intro hall
      simp only [optim.DeadCodeElimination.firstReturnStatementId,
        hall stmt (List.mem_cons_self _ _), Bool.false_eq_true, if_false, List.length_cons,
        ih (fun s hs => hall s (List.mem_cons_of_mem _ hs))]
  simp only [optim.DeadCodeElimination.visit, hid _ h, Nat.lt_irrefl, if_false]

end analysis

open common lexer parse_tree parser analysis ast exec optim

/-- C12: let the semantic analysis, started on a fresh state, return an AST
for a parse tree.  Then no assignment statement of the parse tree has a
target whose text is declared in the `CONST` section, and every assignment
statement of the AST targets a parameter or a variable.  For `analyzeStatement`
in any state of the analysis: an assignment to a text that `lookUpSymbol`
finds as a constant is never accepted, whatever its expression.  The
program of the test `AssigningValueToConstant` is rejected with the error
at the target and the note at the declaration. -/
theorem C12_assignment_to_constant_is_rejected (node : FunctionDefinition)
    (manager : SourceCodeManager) (function : Function) (analysis : SemanticAnalysis)
    (hanalyze : SemanticAnalysis.analyzeFunction node { sourceCodeManager := manager } =
      .ok function analysis) :
    (∀ target ∈ assignmentTargets manager.sourceCode node.statements,
      target ∉ node.constantNames manager.sourceCode) ∧
    (∀ target expression,
      ast.Statement.AssignmentStatement target expression ∈ function.statements →
      target.identifierType = .Parameter ∨ target.identifierType = .Variable) ∧
    (∀ (state state' : SemanticAnalysis) (assignmentExpression : AssignmentExpression)
      (ref : SourceRangeReference) (entry : SymbolEntry) (stmt : ast.Statement),
      state.symbolTable.lookUpSymbol (state.text assignmentExpression.identifier.ref) =
        some entry →
      entry.symbolType = .Constant →
      SemanticAnalysis.analyzeStatement (.AssignmentStatement assignmentExpression ref)
        state ≠ .ok stmt state') ∧
    (FunctionFrame.new scenarioAssignmentToConstant).compile =
      .ok { sourceCodeManager :=
              { sourceCode := scenarioAssignmentToConstant
                printed :=
                  [{ ref := { ref := 22, length := 1 },
                     message := "error: trying to assign to an identifier declared 'CONST'" },
                   { ref := { ref := 6, length := 1 },
                     message := "note: declared as 'CONST' here" }] }
            state := .CompileError } := by
  obtain ⟨_, hcoherent, hnames, _, hall⟩ :=
    SemanticAnalysis.analyzeFunction_declared node manager function analysis hanalyze
  obtain ⟨_, hrange, _, _⟩ :=
    SemanticAnalysis.analyzeFunction_wellFormed node manager function analysis hanalyze
  refine ⟨?_, ?_, ?_, by decide!⟩
  · intro target htarget hconstant
    obtain ⟨assignmentExpression, ref, hmem, htext⟩ :=
      mem_assignmentTargets manager.sourceCode target node.statements htarget
    obtain ⟨stmt, _, hanalysed⟩ := forall₂_mem_left hall _ hmem
    obtain ⟨entry, expression, hlook, hne, _⟩ :=
      (SemanticAnalysis.analysed_cases _ _ _ _ hanalysed).2 assignmentExpression ref rfl
    rw [htext] at hlook
    have hheld : target ∈ analysis.symbolTable.names .Constant := by
      rw [hnames .Constant]
      exact hconstant
    obtain ⟨index, hindex⟩ := List.mem_iff_getElem?.mp hheld
    obtain ⟨found, hfound, htype, _⟩ := hcoherent.2.2.2 .Constant index target hindex
    simp only [SymbolTable.lookUpSymbol] at hlook
    rw [hfound] at hlook
    simp only [Option.some.injEq] at hlook
    subst hlook
    exact hne htype
  · intro target expression hmem
    have := hrange _ hmem
    simp only [ast.Statement.idsInRange, Bool.and_eq_true, decide_eq_true_eq] at this
    cases htype : target.identifierType with
    | Parameter => exact Or.inl rfl
    | Variable => exact Or.inr rfl
    | Constant => exact absurd htype this.1.1
  · intro state state' assignmentExpression ref entry stmt hlook hconstant h
    obtain ⟨found, _, hfound, hne, _⟩ :=
      (SemanticAnalysis.analysed_cases state.symbolTable
        state.sourceCodeManager.sourceCode _ stmt ⟨state, state', rfl, rfl, h⟩).2
        assignmentExpression ref rfl
    simp only [SemanticAnalysis.text] at hlook
    rw [hlook] at hfound
    simp only [Option.some.injEq] at hfound
    subst hfound
    exact hne hconstant

/-- Witness of C12 on a program with an assignment to a variable. -/
theorem C12_assignment_to_constant_is_rejected_witness :
    (∀ target ∈ assignmentTargets
        ({ sourceCode := scenarioDeclarations } : SourceCodeManager).sourceCode
        scenarioDeclarationsTree.statements,
      target ∉ scenarioDeclarationsTree.constantNames
        ({ sourceCode := scenarioDeclarations } : SourceCodeManager).sourceCode) ∧
    (∀ target expression,
      ast.Statement.AssignmentStatement target expression ∈
        scenarioDeclarationsFunction.statements →
      target.identifierType = .Parameter ∨ target.identifierType = .Variable) ∧
    (∀ (state state' : SemanticAnalysis) (assignmentExpression : AssignmentExpression)
      (ref : SourceRangeReference) (entry : SymbolEntry) (stmt : ast.Statement),
      state.symbolTable.lookUpSymbol (state.text assignmentExpression.identifier.ref) =
        some entry →
      entry.symbolType = .Constant →
      SemanticAnalysis.analyzeStatement (.AssignmentStatement assignmentExpression ref)
        state ≠ .ok stmt state') ∧
    (FunctionFrame.new scenarioAssignmentToConstant).compile =
      .ok { sourceCodeManager :=
              { sourceCode := scenarioAssignmentToConstant
                printed :=
                  [{ ref := { ref := 22, length := 1 },
                     message := "error: trying to assign to an identifier declared 'CONST'" },
                   { ref := { ref := 6, length := 1 },
                     message := "note: declared as 'CONST' here" }] }
            state := .CompileError } :=
  C12_assignment_to_constant_is_rejected scenarioDeclarationsTree
    { sourceCode := scenarioDeclarations } scenarioDeclarationsFunction
    scenarioDeclarationsAnalysis (by decide!)

/-- C13: let the semantic analysis, started on a fresh state, return an AST
for a parse tree.  Then the texts declared in the `PARAM`, `VAR` and `CONST`
sections are pairwise distinct, within each section and across the
sections, and they are the texts that the symbol table holds.  The
programs of the tests `IdentifierDeclaredTwice1` to `IdentifierDeclaredTwice4`
are rejected with the error at the second declaration and the note at the
first. -/
theorem C13_declared_names_are_pairwise_distinct (node : FunctionDefinition)
    (manager : SourceCodeManager) (function : Function) (analysis : SemanticAnalysis)
    (hanalyze : SemanticAnalysis.analyzeFunction node { sourceCodeManager := manager } =
      .ok function analysis) :
    (node.parameterNames manager.sourceCode ++ node.variableNames manager.sourceCode ++
      node.constantNames manager.sourceCode).Nodup ∧
    (∀ symbolType, analysis.symbolTable.names symbolType =
      node.declaredNames manager.sourceCode symbolType) ∧
    Except.map (fun frame => (frame.state, frame.sourceCodeManager.printed))
        (FunctionFrame.new scenarioDeclaredTwice1).compile =
      .ok (.CompileError,
        [{ ref := { ref := 12, length := 1 },
           message := "error: duplicate declaration of identifier" },
         { ref := { ref := 6, length := 1 }, message := "note: already declared here" }]) ∧
    Except.map (fun frame => (frame.state, frame.sourceCodeManager.printed))
        (FunctionFrame.new scenarioDeclaredTwice2).compile =
      .ok (.CompileError,
        [{ ref := { ref := 39, length := 1 },
           message := "error: duplicate declaration of identifier" },
         { ref := { ref := 6, length := 1 }, message := "note: already declared here" }]) ∧
    Except.map (fun frame => (frame.state, frame.sourceCodeManager.printed))
        (FunctionFrame.new scenarioDeclaredTwice3).compile =
      .ok (.CompileError,
        [{ ref := { ref := 39, length := 1 },
           message := "error: duplicate declaration of identifier" },
         { ref := { ref := 31, length := 1 }, message := "note: already declared here" }]) ∧
    Except.map (fun frame => (frame.state, frame.sourceCodeManager.printed))
        (FunctionFrame.new scenarioDeclaredTwice4).compile =
      .ok (.CompileError,
        [{ ref := { ref := 19, length := 1 },
           message := "error: duplicate declaration of identifier" },
         { ref := { ref := 6, length := 1 }, message := "note: already declared here" }]) := by
  obtain ⟨_, hcoherent, hnames, _, _⟩ :=
    SemanticAnalysis.analyzeFunction_declared node manager function analysis hanalyze
  refine ⟨?_, hnames, by decide!, by decide!, by decide!, by decide!⟩
  have := hcoherent.nodup
  rw [hnames, hnames, hnames] at this
  exact this

/-- Witness of C13 on a program with four declarations. -/
theorem C13_declared_names_are_pairwise_distinct_witness :
    (scenarioDeclarationsTree.parameterNames
        ({ sourceCode := scenarioDeclarations } : SourceCodeManager).sourceCode ++
      scenarioDeclarationsTree.variableNames
        ({ sourceCode := scenarioDeclarations } : SourceCodeManager).sourceCode ++
      scenarioDeclarationsTree.constantNames
        ({ sourceCode := scenarioDeclarations } : SourceCodeManager).sourceCode).Nodup ∧
    (∀ symbolType, scenarioDeclarationsAnalysis.symbolTable.names symbolType =
      scenarioDeclarationsTree.declaredNames
        ({ sourceCode := scenarioDeclarations } : SourceCodeManager).sourceCode symbolType) ∧
    Except.map (fun frame => (frame.state, frame.sourceCodeManager.printed))
        (FunctionFrame.new scenarioDeclaredTwice1).compile =
      .ok (.CompileError,
        [{ ref := { ref := 12, length := 1 },
           message := "error: duplicate declaration of identifier" },
         { ref := { ref := 6, length := 1 }, message := "note: already declared here" }]) ∧
    Except.map (fun frame => (frame.state, frame.sourceCodeManager.printed))
        (FunctionFrame.new scenarioDeclaredTwice2).compile =
      .ok (.CompileError,
        [{ ref := { ref := 39, length := 1 },
           message := "error: duplicate declaration of identifier" },
         { ref := { ref := 6, length := 1 }, message := "note: already declared here" }]) ∧
    Except.map (fun frame => (frame.state, frame.sourceCodeManager.printed))
        (FunctionFrame.new scenarioDeclaredTwice3).compile =
      .ok (.CompileError,
        [{ ref := { ref := 39, length := 1 },
           message := "error: duplicate declaration of identifier" },
         { ref := { ref := 31, length := 1 }, message := "note: already declared here" }]) ∧
    Except.map (fun frame => (frame.state, frame.sourceCodeManager.printed))
        (FunctionFrame.new scenarioDeclaredTwice4).compile =
      .ok (.CompileError,
        [{ ref := { ref := 19, length := 1 },
           message := "error: duplicate declaration of identifier" },
         { ref := { ref := 6, length := 1 }, message := "note: already declared here" }]) :=
  C13_declared_names_are_pairwise_distinct scenarioDeclarationsTree
    { sourceCode := scenarioDeclarations } scenarioDeclarationsFunction
    scenarioDeclarationsAnalysis (by decide!)

/-- C14: let the semantic analysis, started on a fresh state, return an AST
for a parse tree.  Then the statement list of the parse tree contains a
`RETURN` statement and the AST contains a return statement, so that dead
code elimination, which asserts that it finds one, succeeds on the AST; on
a function without a return statement this assertion fails.  The program of
the test `MissingReturnStatement` is rejected with the error at the keyword
`END`. -/
theorem C14_analysis_requires_a_return_statement (node : FunctionDefinition)
    (manager : SourceCodeManager) (function : Function) (analysis : SemanticAnalysis)
    (hanalyze : SemanticAnalysis.analyzeFunction node { sourceCodeManager := manager } =
      .ok function analysis) :
    (∃ statement ∈ node.statements, statement.isReturnStatement = true) ∧
    (∃ stmt ∈ function.statements, stmt.isReturnStatement = true) ∧
    (∃ optimized, DeadCodeElimination.visit function = .ok optimized) ∧
    (∀ other : Function, (∀ stmt ∈ other.statements, stmt.isReturnStatement = false) →
      DeadCodeElimination.visit other = .error .assertion) ∧
    (FunctionFrame.new scenarioMissingReturn).compile =
      .ok { sourceCodeManager :=
              { sourceCode := scenarioMissingReturn
                printed :=
                  [{ ref := { ref := 36, length := 3 },
                     message := "error: function does not contain a return-statement" }] }
            state := .CompileError } := by
  obtain ⟨_, _, _, _, hall⟩ :=
    SemanticAnalysis.analyzeFunction_declared node manager function analysis hanalyze
  obtain ⟨_, _, _, hreturn⟩ :=
    SemanticAnalysis.analyzeFunction_wellFormed node manager function analysis hanalyze
  refine ⟨?_, hreturn, ?_, DeadCodeElimination.visit_without_return, by decide!⟩
  · obtain ⟨stmt, hmem, hret⟩ := hreturn
    obtain ⟨statement, hstatement, hanalysed⟩ := forall₂_mem_right hall stmt hmem
    refine ⟨statement, hstatement, ?_⟩
    rw [← (SemanticAnalysis.analysed_cases _ _ _ _ hanalysed).1]
    exact hret
  · obtain ⟨kept, e, _, hvisit, _, _⟩ := DeadCodeElimination.visit_split function hreturn
    exact ⟨_, hvisit⟩

/-- Witness of C14 on a program with a return statement. -/
theorem C14_analysis_requires_a_return_statement_witness :
    (∃ statement ∈ scenarioDeclarationsTree.statements,
      statement.isReturnStatement = true) ∧
    (∃ stmt ∈ scenarioDeclarationsFunction.statements, stmt.isReturnStatement = true) ∧
    (∃ optimized, DeadCodeElimination.visit scenarioDeclarationsFunction = .ok optimized) ∧
    (∀ other : Function, (∀ stmt ∈ other.statements, stmt.isReturnStatement = false) →
      DeadCodeElimination.visit other = .error .assertion) ∧
    (FunctionFrame.new scenarioMissingReturn).compile =
      .ok { sourceCodeManager :=
              { sourceCode := scenarioMissingReturn
                printed :=
                  [{ ref := { ref := 36, length := 3 },
                     message := "error: function does not contain a return-statement" }] }
            state := .CompileError } :=
  C14_analysis_requires_a_return_statement scenarioDeclarationsTree
    { sourceCode := scenarioDeclarations } scenarioDeclarationsFunction
    scenarioDeclarationsAnalysis (by decide!)

/-- C15: let the semantic analysis, started on a fresh state, return an AST
for a parse tree.  Then in every statement of the AST each identifier that
the expression reads, and the target of an assignment, has an id below the
number of symbols registered in its namespace of the symbol table returned
with the AST; this number is the number of texts declared in the section of
the namespace, the id counter of the namespace and, for the constants, the
number of stored values. -/
theorem C15_identifier_ids_are_in_range (node : FunctionDefinition)
    (manager : SourceCodeManager) (function : Function) (analysis : SemanticAnalysis)
    (hanalyze : SemanticAnalysis.analyzeFunction node { sourceCodeManager := manager } =
      .ok function analysis) :
    (∀ stmt ∈ function.statements,
      (∀ identifierType id, (identifierType, id) ∈ stmt.getExpression.reads →
        id < (analysis.symbolTable.names identifierType).length) ∧
      (∀ target expression, stmt = ast.Statement.AssignmentStatement target expression →
        target.id < (analysis.symbolTable.names target.identifierType).length)) ∧
    (∀ symbolType,
      (analysis.symbolTable.names symbolType).length =
        (node.declaredNames manager.sourceCode symbolType).length ∧
      analysis.symbolTable.nextId symbolType = (analysis.symbolTable.names symbolType).length ∧
      analysis.symbolTable.size symbolType =
        (analysis.symbolTable.names symbolType).length) := by
  obtain ⟨_, hcoherent, hnames, _, _⟩ :=
    SemanticAnalysis.analyzeFunction_declared node manager function analysis hanalyze
  obtain ⟨_, hrange, _, _⟩ :=
    SemanticAnalysis.analyzeFunction_wellFormed node manager function analysis hanalyze
  refine ⟨?_, fun symbolType =>
    ⟨by rw [hnames], hcoherent.1 symbolType, hcoherent.size_eq symbolType⟩⟩
  intro stmt hmem
  have hstmt := hrange stmt hmem
  cases stmt with
  | AssignmentStatement target expression =>
    simp only [ast.Statement.idsInRange, Bool.and_eq_true, decide_eq_true_eq] at hstmt
    refine ⟨?_, ?_⟩
    · intro identifierType id hread
      rw [← hcoherent.size_eq]
      exact Expression.idsInRange_reads _ _ hstmt.2 identifierType id hread
    · intro target' expression' heq
      simp only [ast.Statement.AssignmentStatement.injEq] at heq
      obtain ⟨rfl, _⟩ := heq
      rw [← hcoherent.size_eq]
      exact hstmt.1.2
  | ReturnStatement expression =>
    simp only [ast.Statement.idsInRange] at hstmt
    refine ⟨?_, ?_⟩
    · intro identifierType id hread
      rw [← hcoherent.size_eq]
      exact Expression.idsInRange_reads _ _ hstmt identifierType id hread
    · intro target' expression' heq
      cases heq

/-- Witness of C15 on a program with identifiers of the three namespaces. -/
theorem C15_identifier_ids_are_in_range_witness :
    (∀ stmt ∈ scenarioDeclarationsFunction.statements,
      (∀ identifierType id, (identifierType, id) ∈ stmt.getExpression.reads →
        id < (scenarioDeclarationsAnalysis.symbolTable.names identifierType).length) ∧
      (∀ target expression, stmt = ast.Statement.AssignmentStatement target expression →
        target.id <
          (scenarioDeclarationsAnalysis.symbolTable.names target.identifierType).length)) ∧
    (∀ symbolType,
      (scenarioDeclarationsAnalysis.symbolTable.names symbolType).length =
        (scenarioDeclarationsTree.declaredNames
          ({ sourceCode := scenarioDeclarations } : SourceCodeManager).sourceCode
          symbolType).length ∧
      scenarioDeclarationsAnalysis.symbolTable.nextId symbolType =
        (scenarioDeclarationsAnalysis.symbolTable.names symbolType).length ∧
      scenarioDeclarationsAnalysis.symbolTable.size symbolType =
        (scenarioDeclarationsAnalysis.symbolTable.names symbolType).length) :=
  C15_identifier_ids_are_in_range scenarioDeclarationsTree
    { sourceCode := scenarioDeclarations } scenarioDeclarationsFunction
    scenarioDeclarationsAnalysis (by decide!)

end pljit

namespace pljit

open common lexer parse_tree parser analysis ast exec optim

/-- C17: a symbol that `registerSymbol` newly registers in a coherent symbol
table gets as id the number of symbols registered in its namespace before,
so the ids of a namespace are 0, 1, 2, ... in the order of registration.
Let the semantic analysis, started on a fresh state, return an AST for a
parse tree.  Then the text declared at position `k` of a section is found
with the id `k` of the namespace of the section, the number of parameters
is the number of texts declared in the `PARAM` section, and in the
execution context of an invocation the parameter declared at position `i`
has the `i`-th argument as value while the variables are zero, one for
each text declared in the `VAR` section.  For the program of the test
`ComplexTest` the symbol table is `scenarioComplexTable`, which holds `a, b`,
`x, y` and `D, F, G` with the values 42, 39, 1024. -/
theorem C17_ids_follow_declaration_order (node : FunctionDefinition)
    (manager : SourceCodeManager) (function : Function) (analysis : SemanticAnalysis)
    (hanalyze : SemanticAnalysis.analyzeFunction node { sourceCodeManager := manager } =
      .ok function analysis) :
    (∀ symbolType k name,
      (node.declaredNames manager.sourceCode symbolType)[k]? = some name →
      ∃ entry, analysis.symbolTable.lookUpSymbol name = some entry ∧
        entry.symbolType = symbolType ∧ entry.symbolId = k ∧
        analysis.symbolTable.lookUpSymbolName symbolType k = some name) ∧
    analysis.symbolTable.getNumberOfParameters =
      (node.parameterNames manager.sourceCode).length ∧
    analysis.symbolTable.getNumberOfVariables =
      (node.variableNames manager.sourceCode).length ∧
    analysis.symbolTable.constantValues = node.constantLiterals ∧
    (∀ parameters : List Int,
      (ExecutionContext.new parameters analysis.symbolTable).parameterValues = parameters ∧
      (ExecutionContext.new parameters analysis.symbolTable).variableValues =
        List.replicate (node.variableNames manager.sourceCode).length 0 ∧
      ∀ i name value, (node.parameterNames manager.sourceCode)[i]? = some name →
        parameters[i]? = some value →
        (Expression.Identifier .Parameter i).evaluate
            (ExecutionContext.new parameters analysis.symbolTable) =
          .ok (value, ExecutionContext.new parameters analysis.symbolTable)) ∧
    (∀ (table table' : SymbolTable) (sourceCode : List Char) (symbolType : IdentifierType)
      (declarationRef : SourceRangeReference) (constantValue : Int)
      (result : RegistrationResult),
      table.Coherent →
      table.registerSymbol sourceCode symbolType declarationRef constantValue =
        .ok (result, table') →
      result.newlyRegistered = true →
      result.entry.symbolId = (table.names symbolType).length ∧
      (table'.names symbolType).length = (table.names symbolType).length + 1) ∧
    Except.map (Option.map Prod.snd) (parseAndAnalyze scenarioComplex) =
      .ok (some scenarioComplexTable) := by
  obtain ⟨_, hcoherent, hnames, hvalues, _⟩ :=
    SemanticAnalysis.analyzeFunction_declared node manager function analysis hanalyze
  have hparameters : analysis.symbolTable.parameterIdToStringMapping =
      node.parameterNames manager.sourceCode := hnames .Parameter
  have hvariables : analysis.symbolTable.variableIdToStringMapping =
      node.variableNames manager.sourceCode := hnames .Variable
  refine ⟨?_, ?_, ?_, hvalues, ?_, ?_, by decide!⟩
  · intro symbolType k name hname
    rw [← hnames symbolType] at hname
    obtain ⟨entry, hfound, htype, hid⟩ := hcoherent.2.2.2 symbolType k name hname
    refine ⟨entry, hfound, htype, hid, ?_⟩
    cases symbolType <;> exact hname
  · simp only [SymbolTable.getNumberOfParameters, hparameters]
  · simp only [SymbolTable.getNumberOfVariables, hvariables]
  · intro parameters
    refine ⟨rfl, ?_, ?_⟩
    · simp only [ExecutionContext.new, SymbolTable.getNumberOfVariables, hvariables]
    · intro i name value _ hvalue
      simp only [Expression.evaluate, ExecutionContext.new, hvalue]
  · intro table table' sourceCode symbolType declarationRef constantValue result hc hregister
      hnew
    rcases SymbolTable.registerSymbol_cases table table' sourceCode symbolType declarationRef
      constantValue result hregister with ⟨_, hold, _⟩ | ⟨_, _, hentry, _, hnames', _, _, _⟩
    · rw [hold] at hnew
      cases hnew
    · refine ⟨by rw [hentry, hc.1 symbolType], ?_⟩
      rw [hnames' symbolType, if_pos rfl, List.length_append, List.length_singleton]

/-- Witness of C17 on a program with two parameters, a variable and a
constant. -/
theorem C17_ids_follow_declaration_order_witness :
    (∀ symbolType k name,
      (scenarioDeclarationsTree.declaredNames
        ({ sourceCode := scenarioDeclarations } : SourceCodeManager).sourceCode
        symbolType)[k]? = some name →
      ∃ entry, scenarioDeclarationsAnalysis.symbolTable.lookUpSymbol name = some entry ∧
        entry.symbolType = symbolType ∧ entry.symbolId = k ∧
        scenarioDeclarationsAnalysis.symbolTable.lookUpSymbolName symbolType k =
          some name) ∧
    scenarioDeclarationsAnalysis.symbolTable.getNumberOfParameters =
      (scenarioDeclarationsTree.parameterNames
        ({ sourceCode := scenarioDeclarations } : SourceCodeManager).sourceCode).length ∧
    scenarioDeclarationsAnalysis.symbolTable.getNumberOfVariables =
      (scenarioDeclarationsTree.variableNames
        ({ sourceCode := scenarioDeclarations } : SourceCodeManager).sourceCode).length ∧
    scenarioDeclarationsAnalysis.symbolTable.constantValues =
      scenarioDeclarationsTree.constantLiterals ∧
    (∀ parameters : List Int,
      (ExecutionContext.new parameters
        scenarioDeclarationsAnalysis.symbolTable).parameterValues = parameters ∧
      (ExecutionContext.new parameters
          scenarioDeclarationsAnalysis.symbolTable).variableValues =
        List.replicate
          (scenarioDeclarationsTree.variableNames
            ({ sourceCode := scenarioDeclarations } : SourceCodeManager).sourceCode).length
          0 ∧
      ∀ i name value,
        (scenarioDeclarationsTree.parameterNames
          ({ sourceCode := scenarioDeclarations } : SourceCodeManager).sourceCode)[i]? =
          some name →
        parameters[i]? = some value →
        (Expression.Identifier .Parameter i).evaluate
            (ExecutionContext.new parameters scenarioDeclarationsAnalysis.symbolTable) =
          .ok (value,
            ExecutionContext.new parameters scenarioDeclarationsAnalysis.symbolTable)) ∧
    (∀ (table table' : SymbolTable) (sourceCode : List Char) (symbolType : IdentifierType)
      (declarationRef : SourceRangeReference) (constantValue : Int)
      (result : RegistrationResult),
      table.Coherent →
      table.registerSymbol sourceCode symbolType declarationRef constantValue =
        .ok (result, table') →
      result.newlyRegistered = true →
      result.entry.symbolId = (table.names symbolType).length ∧
      (table'.names symbolType).length = (table.names symbolType).length + 1) ∧
    Except.map (Option.map Prod.snd) (parseAndAnalyze scenarioComplex) =
      .ok (some scenarioComplexTable) :=
  C17_ids_follow_declaration_order scenarioDeclarationsTree
    { sourceCode := scenarioDeclarations } scenarioDeclarationsFunction
    scenarioDeclarationsAnalysis (by decide!)

end pljit

namespace pljit

namespace lexer

open common

/-- The input of a lexer that reads the empty sequence is used up, and the
input of a lexer that reads a sequence with a first type is not. -/
theorem Lexer.Reads.hasNext {lexer : Lexer} {types : List TokenType}
    (h : lexer.Reads types) : lexer.hasNext = !types.isEmpty := by
  obtain ⟨_, fuel, tokens, htokens, htypes⟩ := h
  cases fuel with
  | zero => simp only [Lexer.tokens, reduceCtorEq] at htokens
  | succ fuel =>
    simp only [Lexer.tokens] at htokens
    by_cases hnext : lexer.hasNext = true
    · simp only [hnext, Bool.not_true, Bool.false_eq_true, if_false] at htokens
      split at htokens
      · cases htokens
      · rename_i token lexer' _
        split at htokens
        · cases htokens
        · cases hrest : Lexer.tokens fuel lexer' with
          | none => simp only [hrest, Option.map_none', reduceCtorEq] at htokens
          | some rest =>
            simp only [hrest, Option.map_some', Option.some.injEq] at htokens
            subst htokens
            subst htypes
            simp only [hnext, List.map_cons, List.isEmpty_cons, Bool.not_false]
    · have hnext' : lexer.hasNext = false := by simpa using hnext
      simp only [hnext', Bool.not_false, if_true, Option.some.injEq] at htokens
      subst htokens
      subst htypes
      simp only [hnext', List.map_nil, List.isEmpty_nil, Bool.not_true]

/-- A lexer that reads a sequence with a first type hands out a token of
this type with `next` and reads the rest of the sequence afterwards. -/
theorem Lexer.Reads.next {lexer : Lexer} {tokenType : TokenType} {rest : List TokenType}
    (h : lexer.Reads (tokenType :: rest)) :
    ∃ token lexer', lexer.next = .ok (token, lexer') ∧ token.tokenType = tokenType ∧
      token.tokenType ≠ .LexerError ∧ lexer'.Reads rest := by
  obtain ⟨hwf, fuel, tokens, htokens, htypes⟩ := h
  cases fuel with
  | zero => simp only [Lexer.tokens, reduceCtorEq] at htokens
  | succ fuel =>
    simp only [Lexer.tokens] at htokens
    split at htokens
    · simp only [Option.some.injEq] at htokens
      subst htokens
      simp at htypes
    · split at htokens
      · cases htokens
      · rename_i token lexer' hnext
        split at htokens
        · cases htokens
        · rename_i herr
          cases hrest : Lexer.tokens fuel lexer' with
          | none => simp only [hrest, Option.map_none', reduceCtorEq] at htokens
          | some more =>
            simp only [hrest, Option.map_some', Option.some.injEq] at htokens
            subst htokens
            simp only [List.map_cons, List.cons.injEq] at htypes
            have hne : token.tokenType ≠ .LexerError := by
              intro hcontra
              apply herr
              simp only [Token.hasError, hcontra, decide_True]
            exact ⟨token, lexer', hnext, htypes.1, hne,
              (Lexer.next_spec lexer lexer' token hwf hnext).2.1, fuel, more, hrest,
              htypes.2⟩

/-- A lexer that reads a sequence with a first type shows a token of this
type with `peek` and still reads the whole sequence afterwards. -/
theorem Lexer.Reads.peek {lexer : Lexer} {tokenType : TokenType} {rest : List TokenType}
    (h : lexer.Reads (tokenType :: rest)) :
    ∃ token lexer', lexer.peek = .ok (token, lexer') ∧ token.tokenType = tokenType ∧
      lexer'.tokenCache = some token ∧ lexer'.Reads (tokenType :: rest) := by
  obtain ⟨token, lexer₁, hnext, htype, hne, hrest⟩ := h.next
  have hwf := h.1
  cases hcache : lexer.tokenCache with
  | some cached =>
    have hsame : cached = token := by
      unfold Lexer.next at hnext
      simp only [hcache] at hnext
      by_cases hc : cached.tokenType = .LexerError
      · rw [if_pos hc] at hnext
        simp only [Except.ok.injEq, Prod.mk.injEq] at hnext
        exact hnext.1
      · rw [if_neg hc] at hnext
        simp only [Except.ok.injEq, Prod.mk.injEq] at hnext
        exact hnext.1
    subst hsame
    refine ⟨cached, lexer, ?_, htype, hcache, h⟩
    simp only [Lexer.peek, hcache]
  | none =>
    obtain ⟨_, hwf₁, _, _, hok⟩ := Lexer.next_spec lexer lexer₁ token hwf hnext
    obtain ⟨_, hnone, _⟩ := hok hne
    have hpeek : lexer.peek = .ok (token, { lexer₁ with tokenCache := some token }) := by
      simp only [Lexer.peek, hcache, hnext]
    obtain ⟨hadv, _, _⟩ := Lexer.peek_spec lexer _ token hwf hpeek
    refine ⟨token, _, hpeek, htype, rfl, hadv.2.1, ?_⟩
    obtain ⟨_, fuel, more, hmore, htypes⟩ := hrest
    refine ⟨fuel + 1, token :: more, ?_, by simp only [List.map_cons, htype, htypes]⟩
    have hback : ({ lexer₁ with tokenCache := none } : Lexer) = lexer₁ := by
      cases lexer₁ with
      | mk manager current cache =>
        simp only at hnone
        subst hnone
        rfl
    have herr : token.hasError = false := by
      simp only [Token.hasError, decide_eq_false_iff_not]
      exact hne
    simp only [Lexer.tokens, Lexer.hasNext, Option.isSome_some, Bool.or_true, Bool.not_true,
      Bool.false_eq_true, if_false, Lexer.next, hne, herr, hback, hmore, Option.map_some']

/-- A lexer that reads a sequence with a first type has input left. -/
theorem Lexer.Reads.hasNext_cons {lexer : Lexer} {tokenType : TokenType}
    {rest : List TokenType} (h : lexer.Reads (tokenType :: rest)) :
    lexer.hasNext = true := by
  rw [h.hasNext]
  rfl

end lexer

namespace parser

open common lexer parse_tree

/-- The function `peekTokenType` on a parser that reads a sequence returns
a token of the first type of the sequence, or nothing for the empty
sequence, and the parser still reads the sequence. -/
theorem Parser.peekTokenType_reads (parser : Parser) (types : List TokenType)
    (h : parser.lexer.Reads types) :
    ∃ peeked parser', parser.peekTokenType = .ok (peeked, parser') ∧
      peeked.map (·.tokenType) = types.head? ∧ parser'.lexer.Reads types := by
  cases types with
  | nil =>
    refine ⟨none, parser, ?_, rfl, h⟩
    simp only [Parser.peekTokenType, h.hasNext, List.isEmpty_nil, Bool.not_true,
      Bool.not_false, if_true]
  | cons tokenType rest =>
    obtain ⟨token, lexer', hpeek, htype, _, hreads⟩ := h.peek
    refine ⟨some token, { parser with lexer := lexer' }, ?_, ?_, hreads⟩
    · simp only [Parser.peekTokenType, h.hasNext, List.isEmpty_cons, Bool.not_false,
        Bool.not_true, Bool.false_eq_true, if_false, hpeek]
    · simp only [Option.map_some', htype, List.head?_cons]

/-- The function `parseGenericToken` accepts a token exactly when the parser
reads a sequence that starts with the expected type, and the parser reads
the rest of the sequence afterwards. -/
theorem Parser.parseGenericToken_reads (expectedTokenType : TokenType) (parser : Parser)
    (types : List TokenType) (h : parser.lexer.Reads types) :
    (∀ node parser', parser.parseGenericToken expectedTokenType = .ok node parser' →
      ∃ rest, types = expectedTokenType :: rest ∧ parser'.lexer.Reads rest) ∧
    (∀ rest, types = expectedTokenType :: rest →
      ∃ node parser', parser.parseGenericToken expectedTokenType = .ok node parser' ∧
        parser'.lexer.Reads rest) := by
  cases types with
  | nil =>
    refine ⟨?_, fun rest hrest => by cases hrest⟩
    intro node parser' hparse
    simp only [Parser.parseGenericToken, h.hasNext, List.isEmpty_nil, Bool.not_true,
      Bool.not_false, if_true, reduceCtorEq] at hparse
  | cons tokenType rest =>
    obtain ⟨token, lexer', hnext, htype, hne, hreads⟩ := h.next
    have herr : token.hasError = false := by
      simp only [Token.hasError, decide_eq_false_iff_not]
      exact hne
    obtain ⟨hspans, _⟩ := Lexer.next_spans parser.lexer lexer' token h.1 hnext hne
    have hlast : token.ref.last = .ok { ref := token.ref.ref + (token.ref.length - 1) } := by
      simp only [SourceRangeReference.last, hspans.2.2.1, if_true]
    by_cases hexpected : tokenType = expectedTokenType
    · subst hexpected
      have hparse : parser.parseGenericToken tokenType =
          .ok { ref := token.ref }
            { lexer := lexer',
              refToLastChar := { ref := token.ref.ref + (token.ref.length - 1) } } := by
        simp only [Parser.parseGenericToken, h.hasNext, List.isEmpty_cons, Bool.not_false,
          Bool.not_true, Bool.false_eq_true, if_false, hnext, herr, htype, ne_eq,
          not_true_eq_false, hlast, ParseResult.ofExcept]
      refine ⟨?_, ?_⟩
      · intro node parser' hok
        rw [hparse] at hok
        simp only [ParseResult.ok.injEq] at hok
        obtain ⟨_, rfl⟩ := hok
        exact ⟨rest, rfl, hreads⟩
      · intro rest' hrest
        simp only [List.cons.injEq, true_and] at hrest
        subst hrest
        exact ⟨_, _, hparse, hreads⟩
    · refine ⟨?_, ?_⟩
      · intro node parser' hok
        have hne' : token.tokenType ≠ expectedTokenType := by
          rw [htype]
          exact hexpected
        simp only [Parser.parseGenericToken, h.hasNext, List.isEmpty_cons, Bool.not_false,
          Bool.not_true, Bool.false_eq_true, if_false, hnext, herr, ne_eq, hne',
          not_false_eq_true, if_true, reduceCtorEq] at hok
      · intro rest' hrest
        simp only [List.cons.injEq] at hrest
        exact absurd hrest.1 hexpected

/-- The function `parseIdentifier` accepts a token exactly when the parser
reads a sequence that starts with `Identifier`, and the parser reads the
rest of the sequence afterwards. -/
theorem Parser.parseIdentifier_reads (parser : Parser) (types : List TokenType)
    (h : parser.lexer.Reads types) :
    (∀ node parser', parser.parseIdentifier = .ok node parser' →
      ∃ rest, types = .Identifier :: rest ∧ parser'.lexer.Reads rest) ∧
    (∀ rest, types = .Identifier :: rest →
      ∃ node parser', parser.parseIdentifier = .ok node parser' ∧
        parser'.lexer.Reads rest) := by
  cases types with
  | nil =>
    refine ⟨?_, fun rest hrest => by cases hrest⟩
    intro node parser' hparse
    simp only [Parser.parseIdentifier, h.hasNext, List.isEmpty_nil, Bool.not_true,
      Bool.not_false, if_true, reduceCtorEq] at hparse
  | cons tokenType rest =>
    obtain ⟨token, lexer', hnext, htype, hne, hreads⟩ := h.next
    have herr : token.hasError = false := by
      simp only [Token.hasError, decide_eq_false_iff_not]
      exact hne
    obtain ⟨hspans, _⟩ := Lexer.next_spans parser.lexer lexer' token h.1 hnext hne
    have hlast : token.ref.last = .ok { ref := token.ref.ref + (token.ref.length - 1) } := by
      simp only [SourceRangeReference.last, hspans.2.2.1, if_true]
    by_cases hexpected : tokenType = .Identifier
    · subst hexpected
      have hparse : parser.parseIdentifier =
          .ok { ref := token.ref }
            { lexer := lexer',
              refToLastChar := { ref := token.ref.ref + (token.ref.length - 1) } } := by
        simp only [Parser.parseIdentifier, h.hasNext, List.isEmpty_cons, Bool.not_false,
          Bool.not_true, Bool.false_eq_true, if_false, hnext, herr, htype, ne_eq,
          not_true_eq_false, hlast, ParseResult.ofExcept]
      refine ⟨?_, ?_⟩
      · intro node parser' hok
        rw [hparse] at hok
        simp only [ParseResult.ok.injEq] at hok
        obtain ⟨_, rfl⟩ := hok
        exact ⟨rest, rfl, hreads⟩
      · intro rest' hrest
        simp only [List.cons.injEq, true_and] at hrest
        subst hrest
        exact ⟨_, _, hparse, hreads⟩
    · refine ⟨?_, ?_⟩
      · intro node parser' hok
        have hne' : token.tokenType ≠ .Identifier := by
          rw [htype]
          exact hexpected
        simp only [Parser.parseIdentifier, h.hasNext, List.isEmpty_cons, Bool.not_false,
          Bool.not_true, Bool.false_eq_true, if_false, hnext, herr, ne_eq, hne',
          not_false_eq_true, if_true, reduceCtorEq] at hok
      · intro rest' hrest
        simp only [List.cons.injEq] at hrest
        exact absurd hrest.1 hexpected

/-- The function `parseLiteral` accepts a token exactly when the parser
reads a sequence that starts with `Literal`, and the parser reads the rest
of the sequence afterwards. -/
theorem Parser.parseLiteral_reads (parser : Parser) (types : List TokenType)
    (h : parser.lexer.Reads types) :
    (∀ node parser', parser.parseLiteral = .ok node parser' →
      ∃ rest, types = .Literal :: rest ∧ parser'.lexer.Reads rest) ∧
    (∀ rest, types = .Literal :: rest →
      ∃ node parser', parser.parseLiteral = .ok node parser' ∧
        parser'.lexer.Reads rest) := by
  cases types with
  | nil =>
    refine ⟨?_, fun rest hrest => by cases hrest⟩
    intro node parser' hparse
    simp only [Parser.parseLiteral, h.hasNext, List.isEmpty_nil, Bool.not_true,
      Bool.not_false, if_true, reduceCtorEq] at hparse
  | cons tokenType rest =>
    obtain ⟨token, lexer', hnext, htype, hne, hreads⟩ := h.next
    have herr : token.hasError = false := by
      simp only [Token.hasError, decide_eq_false_iff_not]
      exact hne
    obtain ⟨hspans, _⟩ := Lexer.next_spans parser.lexer lexer' token h.1 hnext hne
    have hlast : token.ref.last = .ok { ref := token.ref.ref + (token.ref.length - 1) } := by
      simp only [SourceRangeReference.last, hspans.2.2.1, if_true]
    by_cases hexpected : tokenType = .Literal
    · subst hexpected
      have hparse : parser.parseLiteral =
          .ok { value := parseLiteralToInt64
                  (token.ref.toStringView lexer'.sourceCodeManager.sourceCode)
                ref := token.ref }
            { lexer := lexer',
              refToLastChar := { ref := token.ref.ref + (token.ref.length - 1) } } := by
        simp only [Parser.parseLiteral, h.hasNext, List.isEmpty_cons, Bool.not_false,
          Bool.not_true, Bool.false_eq_true, if_false, hnext, herr, htype, ne_eq,
          not_true_eq_false, hlast, ParseResult.ofExcept]
      refine ⟨?_, ?_⟩
      · intro node parser' hok
        rw [hparse] at hok
        simp only [ParseResult.ok.injEq] at hok
        obtain ⟨_, rfl⟩ := hok
        exact ⟨rest, rfl, hreads⟩
      · intro rest' hrest
        simp only [List.cons.injEq, true_and] at hrest
        subst hrest
        exact ⟨_, _, hparse, hreads⟩
    · refine ⟨?_, ?_⟩
      · intro node parser' hok
        have hne' : token.tokenType ≠ .Literal := by
          rw [htype]
          exact hexpected
        simp only [Parser.parseLiteral, h.hasNext, List.isEmpty_cons, Bool.not_false,
          Bool.not_true, Bool.false_eq_true, if_false, hnext, herr, ne_eq, hne',
          not_false_eq_true, if_true, reduceCtorEq] at hok
      · intro rest' hrest
        simp only [List.cons.injEq] at hrest
        exact absurd hrest.1 hexpected

end parser

end pljit

namespace pljit

namespace parser

open common lexer parse_tree

/-- What `peekTokenType` returned on a parser that reads a sequence. -/
theorem Parser.peekTokenType_reads_eq (parser parser' : Parser) (peeked : Option Token)
    (types : List TokenType) (h : parser.lexer.Reads types)
    (hpeek : parser.peekTokenType = .ok (peeked, parser')) :
    peeked.map (·.tokenType) = types.head? ∧ parser'.lexer.Reads types := by
  obtain ⟨peeked₀, parser₀, hpeek₀, htype, hreads⟩ := Parser.peekTokenType_reads parser types h
  rw [hpeek₀] at hpeek
  simp only [Except.ok.injEq, Prod.mk.injEq] at hpeek
  obtain ⟨rfl, rfl⟩ := hpeek
  exact ⟨htype, hreads⟩

/-- What `peek` returned on a lexer that reads a sequence and has input
left. -/
theorem Lexer.Reads.peek_eq {lexer lexer' : Lexer} {token : Token} {types : List TokenType}
    (h : lexer.Reads types) (hnext : ¬ (!lexer.hasNext) = true)
    (hpeek : lexer.peek = .ok (token, lexer')) :
    ∃ rest, types = token.tokenType :: rest ∧ lexer'.Reads types := by
  cases types with
  | nil =>
    rw [h.hasNext] at hnext
    simp at hnext
  | cons tokenType rest =>
    obtain ⟨token₀, lexer₀, hpeek₀, htype, _, hreads⟩ := h.peek
    rw [hpeek₀] at hpeek
    simp only [Except.ok.injEq, Prod.mk.injEq] at hpeek
    obtain ⟨rfl, rfl⟩ := hpeek
    exact ⟨rest, by rw [htype], hreads⟩

/-- Soundness of the functions of the parser for expressions: the tokens
that a successful call has consumed from a sequence without errors are
derivable from the nonterminal of the function, and the parser reads the
rest of the sequence afterwards. -/
theorem Parser.parseExpression_sound (fuel : Nat) :
    (∀ (parser parser' : Parser) (node : AdditiveExpression) (types : List TokenType),
      parser.lexer.Reads types →
      Parser.parseAdditiveExpression fuel parser = .ok node parser' →
      ∃ consumed rest, types = consumed ++ rest ∧
        Derives .additiveExpression consumed ∧ parser'.lexer.Reads rest) ∧
    (∀ (parser parser' : Parser) (node : MultiplicativeExpression) (types : List TokenType),
      parser.lexer.Reads types →
      Parser.parseMultiplicativeExpression fuel parser = .ok node parser' →
      ∃ consumed rest, types = consumed ++ rest ∧
        Derives .multiplicativeExpression consumed ∧ parser'.lexer.Reads rest) ∧
    (∀ (parser parser' : Parser) (node : UnaryExpression) (types : List TokenType),
      parser.lexer.Reads types →
      Parser.parseUnaryExpression fuel parser = .ok node parser' →
      ∃ consumed rest, types = consumed ++ rest ∧
        Derives .unaryExpression consumed ∧ parser'.lexer.Reads rest) ∧
    (∀ (parser parser' : Parser) (node : PrimaryExpression) (types : List TokenType),
      parser.lexer.Reads types →
      Parser.parsePrimaryExpression fuel parser = .ok node parser' →
      ∃ consumed rest, types = consumed ++ rest ∧
        Derives .primaryExpression consumed ∧ parser'.lexer.Reads rest) := by
  induction fuel with
  | zero =>
    refine ⟨?_, ?_, ?_, ?_⟩ <;> intro parser parser' node types _ h
    · simp only [Parser.parseAdditiveExpression, reduceCtorEq] at h
    · simp only [Parser.parseMultiplicativeExpression, reduceCtorEq] at h
    · simp only [Parser.parseUnaryExpression, reduceCtorEq] at h
    · simp only [Parser.parsePrimaryExpression, reduceCtorEq] at h
  | succ fuel ih =>
    obtain ⟨ihAdd, ihMul, ihUnary, ihPrimary⟩ := ih
    refine ⟨?_, ?_, ?_, ?_⟩
    · intro parser parser' node types hreads h
      simp only [Parser.parseAdditiveExpression] at h
      obtain ⟨m, p₁, hm, h⟩ := ParseResult.bind_ok _ _ _ _ h
      obtain ⟨cm, r₁, rfl, hdm, hr₁⟩ := ihMul parser p₁ m types hreads hm
      obtain ⟨⟨peeked, p₂⟩, hpeek, h⟩ := ParseResult.ofExcept_ok _ _ _ _ h
      obtain ⟨hhead, hr₂⟩ := Parser.peekTokenType_reads_eq p₁ p₂ peeked r₁ hr₁ hpeek
      simp only at h
      cases peeked with
      | none =>
        simp only [ParseResult.ok.injEq] at h
        obtain ⟨_, rfl⟩ := h
        exact ⟨cm, r₁, rfl, Derives.additiveSingle hdm, hr₂⟩
      | some token =>
        simp only at h
        split at h
        · rename_i hop
          obtain ⟨op, p₃, hparse, h⟩ := ParseResult.bind_ok _ _ _ _ h
          obtain ⟨r₂, rfl, hr₃⟩ :=
            (Parser.parseGenericToken_reads token.tokenType p₂ r₁ hr₂).1 op p₃ hparse
          obtain ⟨a, p₄, ha, h⟩ := ParseResult.bind_ok _ _ _ _ h
          obtain ⟨ca, r₃, rfl, hda, hr₄⟩ := ihAdd p₃ p₄ a r₂ hr₃ ha
          obtain ⟨last, _, h⟩ := ParseResult.ofExcept_ok _ _ _ _ h
          obtain ⟨ref, _, h⟩ := ParseResult.ofExcept_ok _ _ _ _ h
          obtain ⟨built, _, h⟩ := ParseResult.ofExcept_ok _ _ _ _ h
          simp only [ParseResult.ok.injEq] at h
          obtain ⟨_, rfl⟩ := h
          refine ⟨cm ++ token.tokenType :: ca, r₃, by simp, ?_, hr₄⟩
          rcases hop with hop | hop
          · rw [hop]
            exact Derives.additivePlus hdm hda
          · rw [hop]
            exact Derives.additiveMinus hdm hda
        · simp only [ParseResult.ok.injEq] at h
          obtain ⟨_, rfl⟩ := h
          exact ⟨cm, r₁, rfl, Derives.additiveSingle hdm, hr₂⟩
    · intro parser parser' node types hreads h
      simp only [Parser.parseMultiplicativeExpression] at h
      obtain ⟨u, p₁, hu, h⟩ := ParseResult.bind_ok _ _ _ _ h
      obtain ⟨cu, r₁, rfl, hdu, hr₁⟩ := ihUnary parser p₁ u types hreads hu
      obtain ⟨⟨peeked, p₂⟩, hpeek, h⟩ := ParseResult.ofExcept_ok _ _ _ _ h
      obtain ⟨hhead, hr₂⟩ := Parser.peekTokenType_reads_eq p₁ p₂ peeked r₁ hr₁ hpeek
      simp only at h
      cases peeked with
      | none =>
        simp only [ParseResult.ok.injEq] at h
        obtain ⟨_, rfl⟩ := h
        exact ⟨cu, r₁, rfl, Derives.multiplicativeSingle hdu, hr₂⟩
      | some token =>
        simp only at h
        split at h
        · rename_i hop
          obtain ⟨op, p₃, hparse, h⟩ := ParseResult.bind_ok _ _ _ _ h
          obtain ⟨r₂, rfl, hr₃⟩ :=
            (Parser.parseGenericToken_reads token.tokenType p₂ r₁ hr₂).1 op p₃ hparse
          obtain ⟨m, p₄, hm, h⟩ := ParseResult.bind_ok _ _ _ _ h
          obtain ⟨cm, r₃, rfl, hdm, hr₄⟩ := ihMul p₃ p₄ m r₂ hr₃ hm
          obtain ⟨last, _, h⟩ := ParseResult.ofExcept_ok _ _ _ _ h
          obtain ⟨ref, _, h⟩ := ParseResult.ofExcept_ok _ _ _ _ h
          obtain ⟨built, _, h⟩ := ParseResult.ofExcept_ok _ _ _ _ h
          simp only [ParseResult.ok.injEq] at h
          obtain ⟨_, rfl⟩ := h
          refine ⟨cu ++ token.tokenType :: cm, r₃, by simp, ?_, hr₄⟩
          rcases hop with hop | hop
          · rw [hop]
            exact Derives.multiplicativeMul hdu hdm
          · rw [hop]
            exact Derives.multiplicativeDiv hdu hdm
        · simp only [ParseResult.ok.injEq] at h
          obtain ⟨_, rfl⟩ := h
          exact ⟨cu, r₁, rfl, Derives.multiplicativeSingle hdu, hr₂⟩
    · intro parser parser' node types hreads h
      simp only [Parser.parseUnaryExpression] at h
      split at h
      · cases h
      rename_i hnext
      obtain ⟨⟨token, lexer'⟩, hpeek, h⟩ := ParseResult.ofExcept_ok _ _ _ _ h
      obtain ⟨r₀, rfl, hr₀⟩ := Lexer.Reads.peek_eq hreads hnext hpeek
      simp only at h
      split at h
      · rename_i hop
        obtain ⟨sign, p₁, hsign, h⟩ := ParseResult.bind_ok _ _ _ _ h
        obtain ⟨r₁, hr, hr₁⟩ :=
          (Parser.parseGenericToken_reads token.tokenType _ _ hr₀).1 sign p₁ hsign
        simp only [List.cons.injEq, true_and] at hr
        subst hr
        obtain ⟨primary, p₂, hprimary, h⟩ := ParseResult.bind_ok _ _ _ _ h
        obtain ⟨cp, r₂, rfl, hdp, hr₂⟩ := ihPrimary p₁ p₂ primary r₀ hr₁ hprimary
        obtain ⟨last, _, h⟩ := ParseResult.ofExcept_ok _ _ _ _ h
        obtain ⟨ref, _, h⟩ := ParseResult.ofExcept_ok _ _ _ _ h
        obtain ⟨built, _, h⟩ := ParseResult.ofExcept_ok _ _ _ _ h
        simp only [ParseResult.ok.injEq] at h
        obtain ⟨_, rfl⟩ := h
        refine ⟨token.tokenType :: cp, r₂, rfl, ?_, hr₂⟩
        rcases hop with hop | hop
        · rw [hop]
          exact Derives.unaryPlus hdp
        · rw [hop]
          exact Derives.unaryMinus hdp
      · obtain ⟨primary, p₁, hprimary, h⟩ := ParseResult.bind_ok _ _ _ _ h
        obtain ⟨cp, r₁, hsplit, hdp, hr₁⟩ := ihPrimary _ p₁ primary _ hr₀ hprimary
        simp only [ParseResult.ok.injEq] at h
        obtain ⟨_, rfl⟩ := h
        exact ⟨cp, r₁, hsplit, Derives.unaryUnsigned hdp, hr₁⟩
    · intro parser parser' node types hreads h
      simp only [Parser.parsePrimaryExpression] at h
      split at h
      · cases h
      rename_i hnext
      obtain ⟨⟨token, lexer'⟩, hpeek, h⟩ := ParseResult.ofExcept_ok _ _ _ _ h
      obtain ⟨r₀, rfl, hr₀⟩ := Lexer.Reads.peek_eq hreads hnext hpeek
      simp only at h
      split at h
      · obtain ⟨identifier, p₁, hidentifier, h⟩ := ParseResult.bind_ok _ _ _ _ h
        obtain ⟨r₁, hr, hr₁⟩ := (Parser.parseIdentifier_reads _ _ hr₀).1 identifier p₁ hidentifier
        simp only [ParseResult.ok.injEq] at h
        obtain ⟨_, rfl⟩ := h
        exact ⟨[.Identifier], r₁, hr, Derives.primaryIdentifier, hr₁⟩
      split at h
      · obtain ⟨literal, p₁, hliteral, h⟩ := ParseResult.bind_ok _ _ _ _ h
        obtain ⟨r₁, hr, hr₁⟩ := (Parser.parseLiteral_reads _ _ hr₀).1 literal p₁ hliteral
        simp only [ParseResult.ok.injEq] at h
        obtain ⟨_, rfl⟩ := h
        exact ⟨[.Literal], r₁, hr, Derives.primaryLiteral, hr₁⟩
      split at h
      · cases h
      obtain ⟨left, p₁, hleft, h⟩ := ParseResult.bind_ok _ _ _ _ h
      obtain ⟨r₁, hr, hr₁⟩ := (Parser.parseGenericToken_reads _ _ _ hr₀).1 left p₁ hleft
      obtain ⟨a, p₂, ha, h⟩ := ParseResult.bind_ok _ _ _ _ h
      obtain ⟨ca, r₂, rfl, hda, hr₂⟩ := ihAdd p₁ p₂ a r₁ hr₁ ha
      split at h
      · cases h
      · cases h
      rename_i right p₃ hright
      obtain ⟨r₃, rfl, hr₃⟩ := (Parser.parseGenericToken_reads _ _ _ hr₂).1 right p₃ hright
      obtain ⟨last, _, h⟩ := ParseResult.ofExcept_ok _ _ _ _ h
      obtain ⟨ref, _, h⟩ := ParseResult.ofExcept_ok _ _ _ _ h
      simp only [ParseResult.ok.injEq] at h
      obtain ⟨_, rfl⟩ := h
      refine ⟨.LeftParenthesis :: ca ++ [.RightParenthesis], r₃, ?_,
        Derives.primaryParenthesized hda, hr₃⟩
      rw [hr]
      simp

end parser

end pljit

namespace pljit

namespace parser

open common lexer parse_tree

/-- Soundness of `parseAssignmentExpression`. -/
theorem Parser.parseAssignmentExpression_sound (fuel : Nat) (parser parser' : Parser)
    (node : AssignmentExpression) (types : List TokenType)
    (hreads : parser.lexer.Reads types)
    (h : parser.parseAssignmentExpression fuel = .ok node parser') :
    ∃ consumed rest, types = consumed ++ rest ∧
      Derives .assignmentExpression consumed ∧ parser'.lexer.Reads rest := by
  simp only [Parser.parseAssignmentExpression] at h
  obtain ⟨identifier, p₁, hidentifier, h⟩ := ParseResult.bind_ok _ _ _ _ h
  obtain ⟨r₁, rfl, hr₁⟩ := (Parser.parseIdentifier_reads _ _ hreads).1 identifier p₁ hidentifier
  obtain ⟨assignment, p₂, hassign, h⟩ := ParseResult.bind_ok _ _ _ _ h
  obtain ⟨r₂, rfl, hr₂⟩ := (Parser.parseGenericToken_reads _ _ _ hr₁).1 assignment p₂ hassign
  obtain ⟨a, p₃, ha, h⟩ := ParseResult.bind_ok _ _ _ _ h
  obtain ⟨ca, r₃, rfl, hda, hr₃⟩ := (Parser.parseExpression_sound fuel).1 p₂ p₃ a r₂ hr₂ ha
  obtain ⟨last, _, h⟩ := ParseResult.ofExcept_ok _ _ _ _ h
  obtain ⟨ref, _, h⟩ := ParseResult.ofExcept_ok _ _ _ _ h
  simp only [ParseResult.ok.injEq] at h
  obtain ⟨_, rfl⟩ := h
  exact ⟨.Identifier :: .Assignment :: ca, r₃, rfl, Derives.assignmentExpression hda, hr₃⟩

/-- Soundness of `parseStatement`. -/
theorem Parser.parseStatement_sound (fuel : Nat) (parser parser' : Parser)
    (node : Statement) (types : List TokenType) (hreads : parser.lexer.Reads types)
    (h : parser.parseStatement fuel = .ok node parser') :
    ∃ consumed rest, types = consumed ++ rest ∧
      Derives .statement consumed ∧ parser'.lexer.Reads rest := by
  simp only [Parser.parseStatement] at h
  split at h
  · cases h
  rename_i hnext
  obtain ⟨⟨token, lexer'⟩, hpeek, h⟩ := ParseResult.ofExcept_ok _ _ _ _ h
  obtain ⟨r₀, rfl, hr₀⟩ := Lexer.Reads.peek_eq hreads hnext hpeek
  simp only at h
  split at h
  · obtain ⟨keyword, p₁, hkeyword, h⟩ := ParseResult.bind_ok _ _ _ _ h
    obtain ⟨r₁, hr, hr₁⟩ := (Parser.parseGenericToken_reads _ _ _ hr₀).1 keyword p₁ hkeyword
    obtain ⟨a, p₂, ha, h⟩ := ParseResult.bind_ok _ _ _ _ h
    obtain ⟨ca, r₂, rfl, hda, hr₂⟩ := (Parser.parseExpression_sound fuel).1 p₁ p₂ a r₁ hr₁ ha
    obtain ⟨last, _, h⟩ := ParseResult.ofExcept_ok _ _ _ _ h
    obtain ⟨ref, _, h⟩ := ParseResult.ofExcept_ok _ _ _ _ h
    simp only [ParseResult.ok.injEq] at h
    obtain ⟨_, rfl⟩ := h
    exact ⟨.Return :: ca, r₂, hr, Derives.statementReturn hda, hr₂⟩
  split at h
  · cases h
  obtain ⟨assignment, p₁, hassign, h⟩ := ParseResult.bind_ok _ _ _ _ h
  obtain ⟨consumed, r₁, hsplit, hd, hr₁⟩ :=
    Parser.parseAssignmentExpression_sound fuel _ p₁ assignment _ hr₀ hassign
  simp only [ParseResult.ok.injEq] at h
  obtain ⟨_, rfl⟩ := h
  exact ⟨consumed, r₁, hsplit, Derives.statementAssignment hd, hr₁⟩

/-- Soundness of the loop of `parseStatementList`: what it has consumed is
empty or a semicolon followed by a statement list. -/
theorem Parser.parseStatementListLoop_sound (fuel : Nat) :
    ∀ (children children' : List StatementListChild) (parser parser' : Parser)
      (types : List TokenType),
      parser.lexer.Reads types →
      Parser.parseStatementListLoop fuel children parser = .ok children' parser' →
      ∃ consumed rest, types = consumed ++ rest ∧ parser'.lexer.Reads rest ∧
        (consumed = [] ∨
          ∃ list, consumed = .SemiColon :: list ∧ Derives .statementList list) := by
  induction fuel with
  | zero =>
    intro children children' parser parser' types _ h
    simp only [Parser.parseStatementListLoop, reduceCtorEq] at h
  | succ fuel ih =>
    intro children children' parser parser' types hreads h
    simp only [Parser.parseStatementListLoop] at h
    obtain ⟨⟨peeked, p₁⟩, hpeek, h⟩ := ParseResult.ofExcept_ok _ _ _ _ h
    obtain ⟨_, hr₁⟩ := Parser.peekTokenType_reads_eq parser p₁ peeked types hreads hpeek
    simp only at h
    split at h
    · obtain ⟨semiColon, p₂, hsemi, h⟩ := ParseResult.bind_ok _ _ _ _ h
      obtain ⟨r₂, rfl, hr₂⟩ := (Parser.parseGenericToken_reads _ _ _ hr₁).1 semiColon p₂ hsemi
      obtain ⟨statement, p₃, hstatement, h⟩ := ParseResult.bind_ok _ _ _ _ h
      obtain ⟨cs, r₃, rfl, hds, hr₃⟩ :=
        Parser.parseStatement_sound fuel p₂ p₃ statement r₂ hr₂ hstatement
      obtain ⟨tail, r₄, rfl, hr₄, htail⟩ := ih _ children' p₃ parser' r₃ hr₃ h
      refine ⟨.SemiColon :: (cs ++ tail), r₄, by simp, hr₄, Or.inr ⟨cs ++ tail, rfl, ?_⟩⟩
      rcases htail with rfl | ⟨list, rfl, hlist⟩
      · rw [List.append_nil]
        exact Derives.statementListSingle hds
      · exact Derives.statementListMore hds hlist
    · simp only [ParseResult.ok.injEq] at h
      obtain ⟨_, rfl⟩ := h
      exact ⟨[], types, rfl, hr₁, Or.inl rfl⟩

/-- Soundness of `parseStatementList`. -/
theorem Parser.parseStatementList_sound (fuel : Nat) (parser parser' : Parser)
    (node : StatementList) (types : List TokenType) (hreads : parser.lexer.Reads types)
    (h : parser.parseStatementList fuel = .ok node parser') :
    ∃ consumed rest, types = consumed ++ rest ∧
      Derives .statementList consumed ∧ parser'.lexer.Reads rest := by
  simp only [Parser.parseStatementList] at h
  obtain ⟨first, p₁, hfirst, h⟩ := ParseResult.bind_ok _ _ _ _ h
  obtain ⟨cs, r₁, rfl, hds, hr₁⟩ := Parser.parseStatement_sound fuel parser p₁ first types
    hreads hfirst
  obtain ⟨children, p₂, hloop, h⟩ := ParseResult.bind_ok _ _ _ _ h
  obtain ⟨tail, r₂, rfl, hr₂, htail⟩ :=
    Parser.parseStatementListLoop_sound fuel _ children p₁ p₂ r₁ hr₁ hloop
  have hparser : parser' = p₂ := by
    split at h
    · split at h
      · obtain ⟨last, _, h⟩ := ParseResult.ofExcept_ok _ _ _ _ h
        obtain ⟨ref, _, h⟩ := ParseResult.ofExcept_ok _ _ _ _ h
        simp only [ParseResult.ok.injEq] at h
        exact h.2.symm
      · simp only [ParseResult.ok.injEq] at h
        exact h.2.symm
    · cases h
  subst hparser
  refine ⟨cs ++ tail, r₂, by simp, ?_, hr₂⟩
  rcases htail with rfl | ⟨list, rfl, hlist⟩
  · rw [List.append_nil]
    exact Derives.statementListSingle hds
  · exact Derives.statementListMore hds hlist

/-- Soundness of `parseCompoundStatement`. -/
theorem Parser.parseCompoundStatement_sound (fuel : Nat) (parser parser' : Parser)
    (node : CompoundStatement) (types : List TokenType) (hreads : parser.lexer.Reads types)
    (h : parser.parseCompoundStatement fuel = .ok node parser') :
    ∃ consumed rest, types = consumed ++ rest ∧
      Derives .compoundStatement consumed ∧ parser'.lexer.Reads rest := by
  simp only [Parser.parseCompoundStatement] at h
  obtain ⟨keyword, p₁, hkeyword, h⟩ := ParseResult.bind_ok _ _ _ _ h
  obtain ⟨r₁, rfl, hr₁⟩ := (Parser.parseGenericToken_reads _ _ _ hreads).1 keyword p₁ hkeyword
  obtain ⟨list, p₂, hlist, h⟩ := ParseResult.bind_ok _ _ _ _ h
  obtain ⟨cl, r₂, rfl, hdl, hr₂⟩ := Parser.parseStatementList_sound fuel p₁ p₂ list r₁ hr₁ hlist
  split at h
  · cases h
  · cases h
  rename_i endKeyword p₃ hend
  obtain ⟨r₃, rfl, hr₃⟩ := (Parser.parseGenericToken_reads _ _ _ hr₂).1 endKeyword p₃ hend
  obtain ⟨last, _, h⟩ := ParseResult.ofExcept_ok _ _ _ _ h
  obtain ⟨ref, _, h⟩ := ParseResult.ofExcept_ok _ _ _ _ h
  simp only [ParseResult.ok.injEq] at h
  obtain ⟨_, rfl⟩ := h
  exact ⟨.Begin :: cl ++ [.End], r₃, by simp, Derives.compoundStatement hdl, hr₃⟩

/-- Soundness of the loop of `parseDeclaratorList`: what it has consumed is
empty or a comma followed by a declarator list. -/
theorem Parser.parseDeclaratorListLoop_sound (fuel : Nat) :
    ∀ (children children' : List DeclaratorListChild) (parser parser' : Parser)
      (types : List TokenType),
      parser.lexer.Reads types →
      Parser.parseDeclaratorListLoop fuel children parser = .ok children' parser' →
      ∃ consumed rest, types = consumed ++ rest ∧ parser'.lexer.Reads rest ∧
        (consumed = [] ∨
          ∃ list, consumed = .Comma :: list ∧ Derives .declaratorList list) := by
  induction fuel with
  | zero =>
    intro children children' parser parser' types _ h
    simp only [Parser.parseDeclaratorListLoop, reduceCtorEq] at h
  | succ fuel ih =>
    intro children children' parser parser' types hreads h
    simp only [Parser.parseDeclaratorListLoop] at h
    obtain ⟨⟨peeked, p₁⟩, hpeek, h⟩ := ParseResult.ofExcept_ok _ _ _ _ h
    obtain ⟨_, hr₁⟩ := Parser.peekTokenType_reads_eq parser p₁ peeked types hreads hpeek
    simp only at h
    split at h
    · obtain ⟨comma, p₂, hcomma, h⟩ := ParseResult.bind_ok _ _ _ _ h
      obtain ⟨r₂, rfl, hr₂⟩ := (Parser.parseGenericToken_reads _ _ _ hr₁).1 comma p₂ hcomma
      obtain ⟨identifier, p₃, hidentifier, h⟩ := ParseResult.bind_ok _ _ _ _ h
      obtain ⟨r₃, rfl, hr₃⟩ := (Parser.parseIdentifier_reads _ _ hr₂).1 identifier p₃ hidentifier
      obtain ⟨tail, r₄, rfl, hr₄, htail⟩ := ih _ children' p₃ parser' r₃ hr₃ h
      refine ⟨.Comma :: .Identifier :: tail, r₄, by simp, hr₄,
        Or.inr ⟨.Identifier :: tail, rfl, ?_⟩⟩
      rcases htail with rfl | ⟨list, rfl, hlist⟩
      · exact Derives.declaratorListSingle
      · exact Derives.declaratorListMore hlist
    · simp only [ParseResult.ok.injEq] at h
      obtain ⟨_, rfl⟩ := h
      exact ⟨[], types, rfl, hr₁, Or.inl rfl⟩

/-- Soundness of `parseDeclaratorList`. -/
theorem Parser.parseDeclaratorList_sound (fuel : Nat) (parser parser' : Parser)
    (node : DeclaratorList) (types : List TokenType) (hreads : parser.lexer.Reads types)
    (h : parser.parseDeclaratorList fuel = .ok node parser') :
    ∃ consumed rest, types = consumed ++ rest ∧
      Derives .declaratorList consumed ∧ parser'.lexer.Reads rest := by
  simp only [Parser.parseDeclaratorList] at h
  obtain ⟨first, p₁, hfirst, h⟩ := ParseResult.bind_ok _ _ _ _ h
  obtain ⟨r₁, rfl, hr₁⟩ := (Parser.parseIdentifier_reads _ _ hreads).1 first p₁ hfirst
  obtain ⟨children, p₂, hloop, h⟩ := ParseResult.bind_ok _ _ _ _ h
  obtain ⟨tail, r₂, rfl, hr₂, htail⟩ :=
    Parser.parseDeclaratorListLoop_sound fuel _ children p₁ p₂ r₁ hr₁ hloop
  have hparser : parser' = p₂ := by
    split at h
    · split at h
      · obtain ⟨last, _, h⟩ := ParseResult.ofExcept_ok _ _ _ _ h
        obtain ⟨ref, _, h⟩ := ParseResult.ofExcept_ok _ _ _ _ h
        simp only [ParseResult.ok.injEq] at h
        exact h.2.symm
      · simp only [ParseResult.ok.injEq] at h
        exact h.2.symm
    · cases h
  subst hparser
  refine ⟨.Identifier :: tail, r₂, rfl, ?_, hr₂⟩
  rcases htail with rfl | ⟨list, rfl, hlist⟩
  · exact Derives.declaratorListSingle
  · exact Derives.declaratorListMore hlist

/-- Soundness of `parseInitDeclarator`. -/
theorem Parser.parseInitDeclarator_sound (parser parser' : Parser)
    (node : InitDeclarator) (types : List TokenType) (hreads : parser.lexer.Reads types)
    (h : parser.parseInitDeclarator = .ok node parser') :
    ∃ consumed rest, types = consumed ++ rest ∧
      Derives .initDeclarator consumed ∧ parser'.lexer.Reads rest := by
  simp only [Parser.parseInitDeclarator] at h
  obtain ⟨identifier, p₁, hidentifier, h⟩ := ParseResult.bind_ok _ _ _ _ h
  obtain ⟨r₁, rfl, hr₁⟩ := (Parser.parseIdentifier_reads _ _ hreads).1 identifier p₁ hidentifier
  obtain ⟨init, p₂, hinit, h⟩ := ParseResult.bind_ok _ _ _ _ h
  obtain ⟨r₂, rfl, hr₂⟩ := (Parser.parseGenericToken_reads _ _ _ hr₁).1 init p₂ hinit
  obtain ⟨literal, p₃, hliteral, h⟩ := ParseResult.bind_ok _ _ _ _ h
  obtain ⟨r₃, rfl, hr₃⟩ := (Parser.parseLiteral_reads _ _ hr₂).1 literal p₃ hliteral
  obtain ⟨last, _, h⟩ := ParseResult.ofExcept_ok _ _ _ _ h
  obtain ⟨ref, _, h⟩ := ParseResult.ofExcept_ok _ _ _ _ h
  simp only [ParseResult.ok.injEq] at h
  obtain ⟨_, rfl⟩ := h
  exact ⟨[.Identifier, .Init, .Literal], r₃, rfl, Derives.initDeclarator, hr₃⟩

/-- Soundness of the loop of `parseInitDeclaratorList`: what it has consumed
is empty or a comma followed by an init-declarator list. -/
theorem Parser.parseInitDeclaratorListLoop_sound (fuel : Nat) :
    ∀ (children children' : List InitDeclaratorListChild) (parser parser' : Parser)
      (types : List TokenType),
      parser.lexer.Reads types →
      Parser.parseInitDeclaratorListLoop fuel children parser = .ok children' parser' →
      ∃ consumed rest, types = consumed ++ rest ∧ parser'.lexer.Reads rest ∧
        (consumed = [] ∨
          ∃ list, consumed = .Comma :: list ∧ Derives .initDeclaratorList list) := by
  induction fuel with
  | zero =>
    intro children children' parser parser' types _ h
    simp only [Parser.parseInitDeclaratorListLoop, reduceCtorEq] at h
  | succ fuel ih =>
    intro children children' parser parser' types hreads h
    simp only [Parser.parseInitDeclaratorListLoop] at h
    obtain ⟨⟨peeked, p₁⟩, hpeek, h⟩ := ParseResult.ofExcept_ok _ _ _ _ h
    obtain ⟨_, hr₁⟩ := Parser.peekTokenType_reads_eq parser p₁ peeked types hreads hpeek
    simp only at h
    split at h
    · obtain ⟨comma, p₂, hcomma, h⟩ := ParseResult.bind_ok _ _ _ _ h
      obtain ⟨r₂, rfl, hr₂⟩ := (Parser.parseGenericToken_reads _ _ _ hr₁).1 comma p₂ hcomma
      obtain ⟨declarator, p₃, hdeclarator, h⟩ := ParseResult.bind_ok _ _ _ _ h
      obtain ⟨cd, r₃, rfl, hdd, hr₃⟩ :=
        Parser.parseInitDeclarator_sound p₂ p₃ declarator r₂ hr₂ hdeclarator
      obtain ⟨tail, r₄, rfl, hr₄, htail⟩ := ih _ children' p₃ parser' r₃ hr₃ h
      refine ⟨.Comma :: (cd ++ tail), r₄, by simp, hr₄, Or.inr ⟨cd ++ tail, rfl, ?_⟩⟩
      rcases htail with rfl | ⟨list, rfl, hlist⟩
      · rw [List.append_nil]
        exact Derives.initDeclaratorListSingle hdd
      · exact Derives.initDeclaratorListMore hdd hlist
    · simp only [ParseResult.ok.injEq] at h
      obtain ⟨_, rfl⟩ := h
      exact ⟨[], types, rfl, hr₁, Or.inl rfl⟩

/-- Soundness of `parseInitDeclaratorList`. -/
theorem Parser.parseInitDeclaratorList_sound (fuel : Nat) (parser parser' : Parser)
    (node : InitDeclaratorList) (types : List TokenType)
    (hreads : parser.lexer.Reads types)
    (h : parser.parseInitDeclaratorList fuel = .ok node parser') :
    ∃ consumed rest, types = consumed ++ rest ∧
      Derives .initDeclaratorList consumed ∧ parser'.lexer.Reads rest := by
  simp only [Parser.parseInitDeclaratorList] at h
  obtain ⟨first, p₁, hfirst, h⟩ := ParseResult.bind_ok _ _ _ _ h
  obtain ⟨cd, r₁, rfl, hdd, hr₁⟩ := Parser.parseInitDeclarator_sound parser p₁ first types
    hreads hfirst
  obtain ⟨children, p₂, hloop, h⟩ := ParseResult.bind_ok _ _ _ _ h
  obtain ⟨tail, r₂, rfl, hr₂, htail⟩ :=
    Parser.parseInitDeclaratorListLoop_sound fuel _ children p₁ p₂ r₁ hr₁ hloop
  have hparser : parser' = p₂ := by
    split at h
    · split at h
      · obtain ⟨last, _, h⟩ := ParseResult.ofExcept_ok _ _ _ _ h
        obtain ⟨ref, _, h⟩ := ParseResult.ofExcept_ok _ _ _ _ h
        simp only [ParseResult.ok.injEq] at h
        exact h.2.symm
      · simp only [ParseResult.ok.injEq] at h
        exact h.2.symm
    · cases h
  subst hparser
  refine ⟨cd ++ tail, r₂, by simp, ?_, hr₂⟩
  rcases htail with rfl | ⟨list, rfl, hlist⟩
  · rw [List.append_nil]
    exact Derives.initDeclaratorListSingle hdd
  · exact Derives.initDeclaratorListMore hdd hlist

/-- Soundness of `parseParameterDeclarations`. -/
theorem Parser.parseParameterDeclarations_sound (fuel : Nat) (parser parser' : Parser)
    (node : ParameterDeclarations) (types : List TokenType)
    (hreads : parser.lexer.Reads types)
    (h : parser.parseParameterDeclarations fuel = .ok node parser') :
    ∃ consumed rest, types = consumed ++ rest ∧
      Derives .parameterDeclarations consumed ∧ parser'.lexer.Reads rest := by
  simp only [Parser.parseParameterDeclarations] at h
  obtain ⟨keyword, p₁, hkeyword, h⟩ := ParseResult.bind_ok _ _ _ _ h
  obtain ⟨r₁, rfl, hr₁⟩ := (Parser.parseGenericToken_reads _ _ _ hreads).1 keyword p₁ hkeyword
  obtain ⟨list, p₂, hlist, h⟩ := ParseResult.bind_ok _ _ _ _ h
  obtain ⟨cl, r₂, rfl, hdl, hr₂⟩ := Parser.parseDeclaratorList_sound fuel p₁ p₂ list r₁ hr₁ hlist
  obtain ⟨semiColon, p₃, hsemi, h⟩ := ParseResult.bind_ok _ _ _ _ h
  obtain ⟨r₃, rfl, hr₃⟩ := (Parser.parseGenericToken_reads _ _ _ hr₂).1 semiColon p₃ hsemi
  obtain ⟨last, _, h⟩ := ParseResult.ofExcept_ok _ _ _ _ h
  obtain ⟨ref, _, h⟩ := ParseResult.ofExcept_ok _ _ _ _ h
  simp only [ParseResult.ok.injEq] at h
  obtain ⟨_, rfl⟩ := h
  exact ⟨.Param :: cl ++ [.SemiColon], r₃, by simp, Derives.parameterDeclarations hdl, hr₃⟩

/-- Soundness of `parseVariableDeclarations`. -/
theorem Parser.parseVariableDeclarations_sound (fuel : Nat) (parser parser' : Parser)
    (node : VariableDeclarations) (types : List TokenType)
    (hreads : parser.lexer.Reads types)
    (h : parser.parseVariableDeclarations fuel = .ok node parser') :
    ∃ consumed rest, types = consumed ++ rest ∧
      Derives .variableDeclarations consumed ∧ parser'.lexer.Reads rest := by
  simp only [Parser.parseVariableDeclarations] at h
  obtain ⟨keyword, p₁, hkeyword, h⟩ := ParseResult.bind_ok _ _ _ _ h
  obtain ⟨r₁, rfl, hr₁⟩ := (Parser.parseGenericToken_reads _ _ _ hreads).1 keyword p₁ hkeyword
  obtain ⟨list, p₂, hlist, h⟩ := ParseResult.bind_ok _ _ _ _ h
  obtain ⟨cl, r₂, rfl, hdl, hr₂⟩ := Parser.parseDeclaratorList_sound fuel p₁ p₂ list r₁ hr₁ hlist
  obtain ⟨semiColon, p₃, hsemi, h⟩ := ParseResult.bind_ok _ _ _ _ h
  obtain ⟨r₃, rfl, hr₃⟩ := (Parser.parseGenericToken_reads _ _ _ hr₂).1 semiColon p₃ hsemi
  obtain ⟨last, _, h⟩ := ParseResult.ofExcept_ok _ _ _ _ h
  obtain ⟨ref, _, h⟩ := ParseResult.ofExcept_ok _ _ _ _ h
  simp only [ParseResult.ok.injEq] at h
  obtain ⟨_, rfl⟩ := h
  exact ⟨.Var :: cl ++ [.SemiColon], r₃, by simp, Derives.variableDeclarations hdl, hr₃⟩

/-- Soundness of `parseConstantDeclarations`. -/
theorem Parser.parseConstantDeclarations_sound (fuel : Nat) (parser parser' : Parser)
    (node : ConstantDeclarations) (types : List TokenType)
    (hreads : parser.lexer.Reads types)
    (h : parser.parseConstantDeclarations fuel = .ok node parser') :
    ∃ consumed rest, types = consumed ++ rest ∧
      Derives .constantDeclarations consumed ∧ parser'.lexer.Reads rest := by
  simp only [Parser.parseConstantDeclarations] at h
  obtain ⟨keyword, p₁, hkeyword, h⟩ := ParseResult.bind_ok _ _ _ _ h
  obtain ⟨r₁, rfl, hr₁⟩ := (Parser.parseGenericToken_reads _ _ _ hreads).1 keyword p₁ hkeyword
  obtain ⟨list, p₂, hlist, h⟩ := ParseResult.bind_ok _ _ _ _ h
  obtain ⟨cl, r₂, rfl, hdl, hr₂⟩ :=
    Parser.parseInitDeclaratorList_sound fuel p₁ p₂ list r₁ hr₁ hlist
  obtain ⟨semiColon, p₃, hsemi, h⟩ := ParseResult.bind_ok _ _ _ _ h
  obtain ⟨r₃, rfl, hr₃⟩ := (Parser.parseGenericToken_reads _ _ _ hr₂).1 semiColon p₃ hsemi
  obtain ⟨last, _, h⟩ := ParseResult.ofExcept_ok _ _ _ _ h
  obtain ⟨ref, _, h⟩ := ParseResult.ofExcept_ok _ _ _ _ h
  simp only [ParseResult.ok.injEq] at h
  obtain ⟨_, rfl⟩ := h
  exact ⟨.Const :: cl ++ [.SemiColon], r₃, by simp, Derives.constantDeclarations hdl, hr₃⟩

/-- Soundness of an optional declaration section: what was consumed is empty
or derivable from the nonterminal of the section. -/
theorem Parser.parseOptionalSection_sound {α : Type} (keyword : TokenType)
    (parseSection : Parser → ParseResult α) (getReference : α → SourceRangeReference)
    (message : String) (nonterminal : Nonterminal) (parser parser' : Parser)
    (result : Option α) (types : List TokenType)
    (hsection : ∀ (p p' : Parser) (node : α) (types : List TokenType),
      p.lexer.Reads types → parseSection p = .ok node p' →
      ∃ consumed rest, types = consumed ++ rest ∧
        Derives nonterminal consumed ∧ p'.lexer.Reads rest)
    (hreads : parser.lexer.Reads types)
    (h : Parser.parseOptionalSection keyword parseSection getReference message parser =
      .ok result parser') :
    ∃ consumed rest, types = consumed ++ rest ∧
      DerivesOptional nonterminal consumed ∧ parser'.lexer.Reads rest := by
  simp only [Parser.parseOptionalSection] at h
  obtain ⟨⟨peeked, p₁⟩, hpeek, h⟩ := ParseResult.ofExcept_ok _ _ _ _ h
  obtain ⟨_, hr₁⟩ := Parser.peekTokenType_reads_eq parser p₁ peeked types hreads hpeek
  simp only at h
  split at h
  · obtain ⟨declarations, p₂, hdeclarations, h⟩ := ParseResult.bind_ok _ _ _ _ h
    obtain ⟨consumed, rest, hsplit, hd, hr₂⟩ := hsection p₁ p₂ declarations types hr₁
      hdeclarations
    split at h
    · simp only [ParseResult.ofExcept] at h
      split at h <;> cases h
    · simp only [ParseResult.ok.injEq] at h
      obtain ⟨_, rfl⟩ := h
      exact ⟨consumed, rest, hsplit, Or.inr hd, hr₂⟩
  · simp only [ParseResult.ok.injEq] at h
    obtain ⟨_, rfl⟩ := h
    exact ⟨[], types, rfl, Or.inl rfl, hr₁⟩

/-- Soundness of `parseFunctionDefinition`: the token sequence of a source
code without lexer errors that the parser accepts is derivable from
`function-definition`. -/
theorem Parser.parseFunctionDefinition_sound (fuel : Nat) (parser parser' : Parser)
    (node : FunctionDefinition) (types : List TokenType)
    (hreads : parser.lexer.Reads types)
    (h : parser.parseFunctionDefinition fuel = .ok node parser') :
    DerivesFunctionDefinition types := by
  simp only [Parser.parseFunctionDefinition] at h
  obtain ⟨parameterSection, p₁, hparams, h⟩ := ParseResult.bind_ok _ _ _ _ h
  obtain ⟨c₁, r₁, rfl, hd₁, hr₁⟩ := Parser.parseOptionalSection_sound _ _ _ _
    .parameterDeclarations parser p₁ parameterSection types
    (Parser.parseParameterDeclarations_sound fuel) hreads hparams
  obtain ⟨variableSection, p₂, hvars, h⟩ := ParseResult.bind_ok _ _ _ _ h
  obtain ⟨c₂, r₂, rfl, hd₂, hr₂⟩ := Parser.parseOptionalSection_sound _ _ _ _
    .variableDeclarations p₁ p₂ variableSection r₁
    (Parser.parseVariableDeclarations_sound fuel) hr₁ hvars
  obtain ⟨constantSection, p₃, hconsts, h⟩ := ParseResult.bind_ok _ _ _ _ h
  obtain ⟨c₃, r₃, rfl, hd₃, hr₃⟩ := Parser.parseOptionalSection_sound _ _ _ _
    .constantDeclarations p₂ p₃ constantSection r₂
    (Parser.parseConstantDeclarations_sound fuel) hr₂ hconsts
  obtain ⟨compound, p₄, hcompound, h⟩ := ParseResult.bind_ok _ _ _ _ h
  obtain ⟨c₄, r₄, rfl, hd₄, hr₄⟩ :=
    Parser.parseCompoundStatement_sound fuel p₃ p₄ compound r₃ hr₃ hcompound
  obtain ⟨terminator, p₅, hterminator, h⟩ := ParseResult.bind_ok _ _ _ _ h
  obtain ⟨r₅, rfl, hr₅⟩ := (Parser.parseGenericToken_reads _ _ _ hr₄).1 terminator p₅
    hterminator
  split at h
  · simp only [ParseResult.ofExcept] at h
    split at h <;> cases h
  rename_i hnext
  have hempty : r₅ = [] := by
    rw [hr₅.hasNext] at hnext
    cases r₅ with
    | nil => rfl
    | cons head tail => simp at hnext
  subst hempty
  exact ⟨c₁, c₂, c₃, c₄, hd₁, hd₂, hd₃, hd₄, by simp⟩

end parser

end pljit

namespace pljit

namespace parser

open common lexer parse_tree

/-- Every sequence derived from a nonterminal holds a token. -/
theorem Derives.length_pos {nonterminal : Nonterminal} {types : List TokenType}
    (h : Derives nonterminal types) : 0 < types.length := by
  induction h with
  | parameterDeclarations _ _ => simp
  | variableDeclarations _ _ => simp
  | constantDeclarations _ _ => simp
  | declaratorListSingle => simp
  | declaratorListMore _ _ => simp
  | initDeclaratorListSingle _ ih => exact ih
  | initDeclaratorListMore _ _ _ _ => simp
  | initDeclarator => simp
  | compoundStatement _ _ => simp
  | statementListSingle _ ih => exact ih
  | statementListMore _ _ _ _ => simp
  | statementAssignment _ ih => exact ih
  | statementReturn _ _ => simp
  | assignmentExpression _ _ => simp
  | additiveSingle _ ih => exact ih
  | additivePlus _ _ _ _ => simp
  | additiveMinus _ _ _ _ => simp
  | multiplicativeSingle _ ih => exact ih
  | multiplicativeMul _ _ _ _ => simp
  | multiplicativeDiv _ _ _ _ => simp
  | unaryUnsigned _ ih => exact ih
  | unaryPlus _ _ => simp
  | unaryMinus _ _ => simp
  | primaryIdentifier => simp
  | primaryLiteral => simp
  | primaryParenthesized _ _ => simp

/-- A primary expression starts with an identifier, a literal or a left
parenthesis. -/
theorem Derives.primary_head {types : List TokenType}
    (h : Derives .primaryExpression types) :
    ∃ head tail, types = head :: tail ∧
      (head = .Identifier ∨ head = .Literal ∨ head = .LeftParenthesis) := by
  cases h with
  | primaryIdentifier => exact ⟨_, _, rfl, Or.inl rfl⟩
  | primaryLiteral => exact ⟨_, _, rfl, Or.inr (Or.inl rfl)⟩
  | primaryParenthesized _ => exact ⟨_, _, rfl, Or.inr (Or.inr rfl)⟩

/-- The node that `UnaryExpression.newSigned` builds for a sign token `+` or
`-` that agrees with the source code. -/
theorem UnaryExpression.newSigned_of_sign_token (sourceCode : List Char)
    (tokenType : TokenType) (sign : GenericToken) (primary : PrimaryExpression)
    (ref : SourceRangeReference)
    (hwf : Token.WellFormed sourceCode { tokenType := tokenType, ref := sign.ref })
    (hty : tokenType = .OpPlus ∨ tokenType = .OpMinus) :
    ∃ node, UnaryExpression.newSigned sourceCode sign primary ref = .ok node := by
  unfold UnaryExpression.newSigned
  rcases hty with hty | hty
  · have htext : sign.ref.toStringView sourceCode = ['+'] := hwf.2.1 hty
    rw [if_pos htext]
    exact ⟨_, rfl⟩
  · have htext : sign.ref.toStringView sourceCode = ['-'] := hwf.2.2.1 hty
    have hne : ¬ sign.ref.toStringView sourceCode = ['+'] := by
      rw [htext]
      decide
    rw [if_neg hne, if_pos htext]
    exact ⟨_, rfl⟩

/-- Completeness of the functions of the parser for expressions: when the
parser reads a sequence that starts with a derivation of the nonterminal of
the function, and no operator token follows that would continue the
expression, the call succeeds with enough recursion budget, and the parser
reads the rest of the sequence afterwards. -/
theorem Parser.parseExpression_complete (fuel : Nat) :
    (∀ (parser : Parser) (consumed rest : List TokenType),
      Derives .additiveExpression consumed →
      parser.lexer.Reads (consumed ++ rest) →
      (∀ tokenType, rest.head? = some tokenType →
        tokenType ≠ .OpPlus ∧ tokenType ≠ .OpMinus ∧
        tokenType ≠ .OpMul ∧ tokenType ≠ .OpDiv) →
      4 * consumed.length ≤ fuel →
      ∃ node parser', Parser.parseAdditiveExpression fuel parser = .ok node parser' ∧
        parser'.lexer.Reads rest) ∧
    (∀ (parser : Parser) (consumed rest : List TokenType),
      Derives .multiplicativeExpression consumed →
      parser.lexer.Reads (consumed ++ rest) →
      (∀ tokenType, rest.head? = some tokenType →
        tokenType ≠ .OpMul ∧ tokenType ≠ .OpDiv) →
      4 * consumed.length ≤ fuel + 1 →
      ∃ node parser', Parser.parseMultiplicativeExpression fuel parser = .ok node parser' ∧
        parser'.lexer.Reads rest) ∧
    (∀ (parser : Parser) (consumed rest : List TokenType),
      Derives .unaryExpression consumed →
      parser.lexer.Reads (consumed ++ rest) →
      4 * consumed.length ≤ fuel + 2 →
      ∃ node parser', Parser.parseUnaryExpression fuel parser = .ok node parser' ∧
        parser'.lexer.Reads rest) ∧
    (∀ (parser : Parser) (consumed rest : List TokenType),
      Derives .primaryExpression consumed →
      parser.lexer.Reads (consumed ++ rest) →
      4 * consumed.length ≤ fuel + 3 →
      ∃ node parser', Parser.parsePrimaryExpression fuel parser = .ok node parser' ∧
        parser'.lexer.Reads rest) := by
  induction fuel with
  | zero =>
    refine ⟨?_, ?_, ?_, ?_⟩ <;> intro parser consumed rest hderives
    · intro _ _ hfuel
      have := hderives.length_pos
      omega
    · intro _ _ hfuel
      have := hderives.length_pos
      omega
    · intro _ hfuel
      have := hderives.length_pos
      omega
    · intro _ hfuel
      have := hderives.length_pos
      omega
  | succ fuel ih =>
    obtain ⟨ihAdd, ihMul, ihUnary, ihPrimary⟩ := ih
    have hbinaryAdd : ∀ (parser : Parser) (first more rest : List TokenType)
        (operator : TokenType),
        operator = .OpPlus ∨ operator = .OpMinus →
        Derives .multiplicativeExpression first → Derives .additiveExpression more →
        parser.lexer.Reads ((first ++ operator :: more) ++ rest) →
        (∀ tokenType, rest.head? = some tokenType →
          tokenType ≠ .OpPlus ∧ tokenType ≠ .OpMinus ∧
          tokenType ≠ .OpMul ∧ tokenType ≠ .OpDiv) →
        4 * (first ++ operator :: more).length ≤ fuel + 1 →
        ∃ node parser', Parser.parseAdditiveExpression (fuel + 1) parser = .ok node parser' ∧
          parser'.lexer.Reads rest := by
      intro parser first more rest operator hoperator hdm hda hreads hla hfuel
      simp only [List.length_append, List.length_cons] at hfuel
      have hreads' : parser.lexer.Reads (first ++ (operator :: (more ++ rest))) := by
        simpa using hreads
      obtain ⟨m, p₁, hm, hr₁⟩ := ihMul parser first _ hdm hreads'
        (by
          intro tokenType hhead
          simp only [List.head?_cons, Option.some.injEq] at hhead
          subst hhead
          rcases hoperator with rfl | rfl <;> exact ⟨by decide, by decide⟩)
        (by omega)
      obtain ⟨peeked, p₂, hpeek, hhead, hr₂⟩ := Parser.peekTokenType_reads p₁ _ hr₁
      cases peeked with
      | none => simp at hhead
      | some token =>
        have htype : token.tokenType = operator := by simpa using hhead
        obtain ⟨op, p₃, hop, hr₃⟩ :=
          (Parser.parseGenericToken_reads operator p₂ _ hr₂).2 _ rfl
        obtain ⟨a, p₄, ha, hr₄⟩ := ihAdd p₃ more rest hda hr₃ hla (by omega)
        have hsm := (Parser.parseExpression_spans fuel).2.1 parser p₁ m hreads.1 hm
        have hadv := (Parser.peekTokenType_spec p₁ p₂ (some token) hr₁.1 hpeek).1
        obtain ⟨hsop, hwfop⟩ := Parser.parseGenericToken_spec operator p₂ p₃ op hr₂.1 hop
        have hsa := (Parser.parseExpression_spans fuel).1 p₃ p₄ a hr₃.1 ha
        obtain ⟨last, ref, hlast, hextend, _⟩ :=
          Lexer.Spans.extend (hsm.advance hadv) (Lexer.Spans.of_advance hsop.1 hsa)
        have hsource : p₄.lexer.sourceCodeManager.sourceCode =
            p₂.lexer.sourceCodeManager.sourceCode := hsa.1.1.trans hsop.1.1
        have hbuilt := AdditiveExpression.newBinary_of_additive_token
          p₄.lexer.sourceCodeManager.sourceCode operator m op a ref
          (by rw [hsource]; exact hwfop) hoperator
        simp only [Parser.parseAdditiveExpression, hm, ParseResult.bind, hpeek,
          ParseResult.ofExcept, htype, hoperator, if_true, hop, ha, hlast, hextend, hbuilt]
        exact ⟨_, _, rfl, hr₄⟩
    have hbinaryMul : ∀ (parser : Parser) (first more rest : List TokenType)
        (operator : TokenType),
        operator = .OpMul ∨ operator = .OpDiv →
        Derives .unaryExpression first → Derives .multiplicativeExpression more →
        parser.lexer.Reads ((first ++ operator :: more) ++ rest) →
        (∀ tokenType, rest.head? = some tokenType →
          tokenType ≠ .OpMul ∧ tokenType ≠ .OpDiv) →
        4 * (first ++ operator :: more).length ≤ fuel + 1 + 1 →
        ∃ node parser',
          Parser.parseMultiplicativeExpression (fuel + 1) parser = .ok node parser' ∧
          parser'.lexer.Reads rest := by
      intro parser first more rest operator hoperator hdu hdm hreads hla hfuel
      simp only [List.length_append, List.length_cons] at hfuel
      have hreads' : parser.lexer.Reads (first ++ (operator :: (more ++ rest))) := by
        simpa using hreads
      have hpos := hdu.length_pos
      obtain ⟨u, p₁, hu, hr₁⟩ := ihUnary parser first _ hdu hreads' (by omega)
      obtain ⟨peeked, p₂, hpeek, hhead, hr₂⟩ := Parser.peekTokenType_reads p₁ _ hr₁
      cases peeked with
      | none => simp at hhead
      | some token =>
        have htype : token.tokenType = operator := by simpa using hhead
        obtain ⟨op, p₃, hop, hr₃⟩ :=
          (Parser.parseGenericToken_reads operator p₂ _ hr₂).2 _ rfl
        obtain ⟨m, p₄, hm, hr₄⟩ := ihMul p₃ more rest hdm hr₃ hla (by omega)
        have hsu := (Parser.parseExpression_spans fuel).2.2.1 parser p₁ u hreads.1 hu
        have hadv := (Parser.peekTokenType_spec p₁ p₂ (some token) hr₁.1 hpeek).1
        obtain ⟨hsop, hwfop⟩ := Parser.parseGenericToken_spec operator p₂ p₃ op hr₂.1 hop
        have hsm := (Parser.parseExpression_spans fuel).2.1 p₃ p₄ m hr₃.1 hm
        obtain ⟨last, ref, hlast, hextend, _⟩ :=
          Lexer.Spans.extend (hsu.advance hadv) (Lexer.Spans.of_advance hsop.1 hsm)
        have hsource : p₄.lexer.sourceCodeManager.sourceCode =
            p₂.lexer.sourceCodeManager.sourceCode := hsm.1.1.trans hsop.1.1
        have hbuilt := MultiplicativeExpression.newBinary_of_multiplicative_token
          p₄.lexer.sourceCodeManager.sourceCode operator u op m ref
          (by rw [hsource]; exact hwfop) hoperator
        simp only [Parser.parseMultiplicativeExpression, hu, ParseResult.bind, hpeek,
          ParseResult.ofExcept, htype, hoperator, if_true, hop, hm, hlast, hextend, hbuilt]
        exact ⟨_, _, rfl, hr₄⟩
    have hsigned : ∀ (parser : Parser) (primary rest : List TokenType) (operator : TokenType),
        operator = .OpPlus ∨ operator = .OpMinus →
        Derives .primaryExpression primary →
        parser.lexer.Reads ((operator :: primary) ++ rest) →
        4 * (operator :: primary).length ≤ fuel + 1 + 2 →
        ∃ node parser', Parser.parseUnaryExpression (fuel + 1) parser = .ok node parser' ∧
          parser'.lexer.Reads rest := by
      intro parser primary rest operator hoperator hdp hreads hfuel
      simp only [List.length_cons] at hfuel
      have hreads' : parser.lexer.Reads (operator :: (primary ++ rest)) := hreads
      have hnext := hreads'.hasNext_cons
      obtain ⟨token, lexer', hpeek, htype, _, hr₀⟩ := hreads'.peek
      obtain ⟨hadv, _, _⟩ := Lexer.peek_spec parser.lexer lexer' token hreads.1 hpeek
      obtain ⟨sign, p₁, hsign, hr₁⟩ :=
        (Parser.parseGenericToken_reads operator { parser with lexer := lexer' } _ hr₀).2 _ rfl
      obtain ⟨node, p₂, hnode, hr₂⟩ := ihPrimary p₁ primary rest hdp hr₁ (by omega)
      obtain ⟨hssign, hwfsign⟩ :=
        Parser.parseGenericToken_spec operator { parser with lexer := lexer' } p₁ sign hr₀.1
          hsign
      have hsp := (Parser.parseExpression_spans fuel).2.2.2 p₁ p₂ node hr₁.1 hnode
      obtain ⟨last, ref, hlast, hextend, _⟩ := Lexer.Spans.extend hssign hsp
      have hsource : p₂.lexer.sourceCodeManager.sourceCode =
          lexer'.sourceCodeManager.sourceCode := hsp.1.1.trans hssign.1.1
      obtain ⟨built, hbuilt⟩ := UnaryExpression.newSigned_of_sign_token
        p₂.lexer.sourceCodeManager.sourceCode operator sign node ref
        (by rw [hsource]; exact hwfsign) hoperator
      refine ⟨built, p₂, ?_, hr₂⟩
      simp only [Parser.parseUnaryExpression, hnext, Bool.not_true, Bool.false_eq_true,
        if_false, hpeek, ParseResult.ofExcept, htype, hoperator, if_true, hsign,
        ParseResult.bind, hnode, hlast, hextend, hbuilt]
    refine ⟨?_, ?_, ?_, ?_⟩
    · intro parser consumed rest hderives hreads hla hfuel
      cases hderives with
      | additiveSingle hdm =>
        obtain ⟨m, p₁, hm, hr₁⟩ := ihMul parser consumed rest hdm hreads
          (fun tokenType hhead => ⟨(hla tokenType hhead).2.2.1, (hla tokenType hhead).2.2.2⟩)
          (by omega)
        obtain ⟨peeked, p₂, hpeek, hhead, hr₂⟩ := Parser.peekTokenType_reads p₁ rest hr₁
        cases peeked with
        | none =>
          simp only [Parser.parseAdditiveExpression, hm, ParseResult.bind, hpeek,
            ParseResult.ofExcept]
          exact ⟨_, _, rfl, hr₂⟩
        | some token =>
          have hnot := hla token.tokenType hhead.symm
          simp only [Parser.parseAdditiveExpression, hm, ParseResult.bind, hpeek,
            ParseResult.ofExcept, hnot.1, hnot.2.1, or_self, if_false]
          exact ⟨_, _, rfl, hr₂⟩
      | additivePlus hdm hda =>
        exact hbinaryAdd parser _ _ rest .OpPlus (Or.inl rfl) hdm hda hreads hla hfuel
      | additiveMinus hdm hda =>
        exact hbinaryAdd parser _ _ rest .OpMinus (Or.inr rfl) hdm hda hreads hla hfuel
    · intro parser consumed rest hderives hreads hla hfuel
      cases hderives with
      | multiplicativeSingle hdu =>
        obtain ⟨u, p₁, hu, hr₁⟩ := ihUnary parser consumed rest hdu hreads (by omega)
        obtain ⟨peeked, p₂, hpeek, hhead, hr₂⟩ := Parser.peekTokenType_reads p₁ rest hr₁
        cases peeked with
        | none =>
          simp only [Parser.parseMultiplicativeExpression, hu, ParseResult.bind, hpeek,
            ParseResult.ofExcept]
          exact ⟨_, _, rfl, hr₂⟩
        | some token =>
          have hnot := hla token.tokenType hhead.symm
          simp only [Parser.parseMultiplicativeExpression, hu, ParseResult.bind, hpeek,
            ParseResult.ofExcept, hnot.1, hnot.2, or_self, if_false]
          exact ⟨_, _, rfl, hr₂⟩
      | multiplicativeMul hdu hdm =>
        exact hbinaryMul parser _ _ rest .OpMul (Or.inl rfl) hdu hdm hreads hla hfuel
      | multiplicativeDiv hdu hdm =>
        exact hbinaryMul parser _ _ rest .OpDiv (Or.inr rfl) hdu hdm hreads hla hfuel
    · intro parser consumed rest hderives hreads hfuel
      cases hderives with
      | unaryUnsigned hdp =>
        obtain ⟨head, tail, rfl, hhead⟩ := hdp.primary_head
        have hreads' : parser.lexer.Reads (head :: (tail ++ rest)) := hreads
        have hnext := hreads'.hasNext_cons
        obtain ⟨token, lexer', hpeek, htype, _, hr₀⟩ := hreads'.peek
        obtain ⟨node, p₁, hnode, hr₁⟩ :=
          ihPrimary { parser with lexer := lexer' } (head :: tail) rest hdp hr₀ (by omega)
        have hnot : ¬ (head = .OpPlus ∨ head = .OpMinus) := by
          rcases hhead with rfl | rfl | rfl <;> decide
        simp only [Parser.parseUnaryExpression, hnext, Bool.not_true, Bool.false_eq_true,
          if_false, hpeek, ParseResult.ofExcept, htype, hnot, hnode, ParseResult.bind]
        exact ⟨_, _, rfl, hr₁⟩
      | unaryPlus hdp =>
        exact hsigned parser _ rest .OpPlus (Or.inl rfl) hdp hreads hfuel
      | unaryMinus hdp =>
        exact hsigned parser _ rest .OpMinus (Or.inr rfl) hdp hreads hfuel
    · intro parser consumed rest hderives hreads hfuel
      cases hderives with
      | primaryIdentifier =>
        have hreads' : parser.lexer.Reads (.Identifier :: rest) := hreads
        have hnext := hreads'.hasNext_cons
        obtain ⟨token, lexer', hpeek, htype, _, hr₀⟩ := hreads'.peek
        obtain ⟨identifier, p₁, hidentifier, hr₁⟩ :=
          (Parser.parseIdentifier_reads { parser with lexer := lexer' } _ hr₀).2 _ rfl
        simp only [Parser.parsePrimaryExpression, hnext, Bool.not_true, Bool.false_eq_true,
          if_false, hpeek, ParseResult.ofExcept, htype, if_true, hidentifier,
          ParseResult.bind]
        exact ⟨_, _, rfl, hr₁⟩
      | primaryLiteral =>
        have hreads' : parser.lexer.Reads (.Literal :: rest) := hreads
        have hnext := hreads'.hasNext_cons
        obtain ⟨token, lexer', hpeek, htype, _, hr₀⟩ := hreads'.peek
        obtain ⟨literal, p₁, hliteral, hr₁⟩ :=
          (Parser.parseLiteral_reads { parser with lexer := lexer' } _ hr₀).2 _ rfl
        simp only [Parser.parsePrimaryExpression, hnext, Bool.not_true, Bool.false_eq_true,
          if_false, hpeek, ParseResult.ofExcept, htype, reduceCtorEq, if_true, hliteral,
          ParseResult.bind]
        exact ⟨_, _, rfl, hr₁⟩
      | primaryParenthesized hda =>
        rename_i expression
        simp only [List.length_cons, List.length_append, List.length_singleton] at hfuel
        have hreads' : parser.lexer.Reads
            (.LeftParenthesis :: (expression ++ (.RightParenthesis :: rest))) := by
          simpa using hreads
        have hnext := hreads'.hasNext_cons
        obtain ⟨token, lexer', hpeek, htype, _, hr₀⟩ := hreads'.peek
        obtain ⟨left, p₁, hleft, hr₁⟩ :=
          (Parser.parseGenericToken_reads .LeftParenthesis { parser with lexer := lexer' } _
            hr₀).2 _ rfl
        obtain ⟨a, p₂, ha, hr₂⟩ := ihAdd p₁ expression (.RightParenthesis :: rest) hda hr₁
          (by
            intro tokenType hhead
            simp only [List.head?_cons, Option.some.injEq] at hhead
            subst hhead
            exact ⟨by decide, by decide, by decide, by decide⟩)
          (by omega)
        obtain ⟨right, p₃, hright, hr₃⟩ :=
          (Parser.parseGenericToken_reads .RightParenthesis p₂ _ hr₂).2 _ rfl
        obtain ⟨hsleft, _⟩ :=
          Parser.parseGenericToken_spec .LeftParenthesis { parser with lexer := lexer' } p₁
            left hr₀.1 hleft
        have hsa := (Parser.parseExpression_spans fuel).1 p₁ p₂ a hr₁.1 ha
        obtain ⟨hsright, _⟩ :=
          Parser.parseGenericToken_spec .RightParenthesis p₂ p₃ right hr₂.1 hright
        obtain ⟨last, ref, hlast, hextend, _⟩ :=
          Lexer.Spans.extend (hsleft.advance hsa.1) hsright
        simp only [Parser.parsePrimaryExpression, hnext, Bool.not_true, Bool.false_eq_true,
          if_false, hpeek, ParseResult.ofExcept, htype, reduceCtorEq, ne_eq,
          not_true_eq_false, hleft, ParseResult.bind, ha, hright, hlast, hextend]
        exact ⟨_, _, rfl, hr₃⟩

end parser

end pljit

namespace pljit

namespace parser

open common lexer parse_tree

/-- Completeness of `parseAssignmentExpression`. -/
theorem Parser.parseAssignmentExpression_complete (fuel : Nat) (parser : Parser)
    (consumed rest : List TokenType)
    (hderives : Derives .assignmentExpression consumed)
    (hreads : parser.lexer.Reads (consumed ++ rest))
    (hla : ∀ tokenType, rest.head? = some tokenType →
      tokenType ≠ .OpPlus ∧ tokenType ≠ .OpMinus ∧ tokenType ≠ .OpMul ∧ tokenType ≠ .OpDiv)
    (hfuel : 4 * consumed.length ≤ fuel + 8) :
    ∃ node parser', parser.parseAssignmentExpression fuel = .ok node parser' ∧
      parser'.lexer.Reads rest := by
  cases hderives with
  | assignmentExpression hda =>
    rename_i expression
    simp only [List.length_cons] at hfuel
    have hreads' : parser.lexer.Reads (.Identifier :: .Assignment :: (expression ++ rest)) :=
      hreads
    obtain ⟨identifier, p₁, hidentifier, hr₁⟩ :=
      (Parser.parseIdentifier_reads parser _ hreads').2 _ rfl
    obtain ⟨assignment, p₂, hassign, hr₂⟩ :=
      (Parser.parseGenericToken_reads .Assignment p₁ _ hr₁).2 _ rfl
    obtain ⟨a, p₃, ha, hr₃⟩ :=
      (Parser.parseExpression_complete fuel).1 p₂ expression rest hda hr₂ hla (by omega)
    have hsid := Parser.parseIdentifier_spec parser p₁ identifier hreads.1 hidentifier
    obtain ⟨hsassign, _⟩ := Parser.parseGenericToken_spec _ p₁ p₂ assignment hr₁.1 hassign
    have hsa := (Parser.parseExpression_spans fuel).1 p₂ p₃ a hr₂.1 ha
    obtain ⟨last, ref, hlast, hextend, _⟩ := Lexer.Spans.extend (hsid.advance hsassign.1) hsa
    simp only [Parser.parseAssignmentExpression, hidentifier, ParseResult.bind, hassign, ha,
      ParseResult.ofExcept, hlast, hextend]
    exact ⟨_, _, rfl, hr₃⟩

/-- An assignment expression starts with an identifier. -/
theorem Derives.assignment_head {types : List TokenType}
    (h : Derives .assignmentExpression types) :
    ∃ tail, types = .Identifier :: tail := by
  cases h with
  | assignmentExpression _ => exact ⟨_, rfl⟩

/-- Completeness of `parseStatement`. -/
theorem Parser.parseStatement_complete (fuel : Nat) (parser : Parser)
    (consumed rest : List TokenType)
    (hderives : Derives .statement consumed)
    (hreads : parser.lexer.Reads (consumed ++ rest))
    (hla : ∀ tokenType, rest.head? = some tokenType →
      tokenType ≠ .OpPlus ∧ tokenType ≠ .OpMinus ∧ tokenType ≠ .OpMul ∧ tokenType ≠ .OpDiv)
    (hfuel : 4 * consumed.length ≤ fuel + 4) :
    ∃ node parser', parser.parseStatement fuel = .ok node parser' ∧
      parser'.lexer.Reads rest := by
  cases hderives with
  | statementAssignment hda =>
    obtain ⟨tail, rfl⟩ := hda.assignment_head
    have hreads' : parser.lexer.Reads (.Identifier :: (tail ++ rest)) := hreads
    have hnext := hreads'.hasNext_cons
    obtain ⟨token, lexer', hpeek, htype, _, hr₀⟩ := hreads'.peek
    obtain ⟨assignment, p₁, hassign, hr₁⟩ :=
      Parser.parseAssignmentExpression_complete fuel { parser with lexer := lexer' }
        (.Identifier :: tail) rest hda hr₀ hla (by omega)
    simp only [Parser.parseStatement, hnext, Bool.not_true, Bool.false_eq_true, if_false,
      hpeek, ParseResult.ofExcept, htype, reduceCtorEq, ne_eq, not_true_eq_false, hassign,
      ParseResult.bind]
    exact ⟨_, _, rfl, hr₁⟩
  | statementReturn hda =>
    rename_i expression
    simp only [List.length_cons] at hfuel
    have hreads' : parser.lexer.Reads (.Return :: (expression ++ rest)) := hreads
    have hnext := hreads'.hasNext_cons
    obtain ⟨token, lexer', hpeek, htype, _, hr₀⟩ := hreads'.peek
    obtain ⟨keyword, p₁, hkeyword, hr₁⟩ :=
      (Parser.parseGenericToken_reads .Return { parser with lexer := lexer' } _ hr₀).2 _ rfl
    obtain ⟨a, p₂, ha, hr₂⟩ :=
      (Parser.parseExpression_complete fuel).1 p₁ expression rest hda hr₁ hla (by omega)
    obtain ⟨hskeyword, _⟩ :=
      Parser.parseGenericToken_spec .Return { parser with lexer := lexer' } p₁ keyword hr₀.1
        hkeyword
    have hsa := (Parser.parseExpression_spans fuel).1 p₁ p₂ a hr₁.1 ha
    obtain ⟨last, ref, hlast, hextend, _⟩ := Lexer.Spans.extend hskeyword hsa
    simp only [Parser.parseStatement, hnext, Bool.not_true, Bool.false_eq_true, if_false,
      hpeek, ParseResult.ofExcept, htype, if_true, hkeyword, ParseResult.bind, ha, hlast,
      hextend]
    exact ⟨_, _, rfl, hr₂⟩

/-- Completeness of the loop of `parseStatementList` on the empty sequence
or a semicolon followed by a statement list. -/
theorem Parser.parseStatementListLoop_complete (fuel : Nat) :
    ∀ (children : List StatementListChild) (parser : Parser)
      (consumed rest : List TokenType),
      (consumed = [] ∨
        ∃ list, consumed = .SemiColon :: list ∧ Derives .statementList list) →
      parser.lexer.Reads (consumed ++ rest) →
      (∀ tokenType, rest.head? = some tokenType →
        tokenType ≠ .OpPlus ∧ tokenType ≠ .OpMinus ∧ tokenType ≠ .OpMul ∧
        tokenType ≠ .OpDiv ∧ tokenType ≠ .SemiColon) →
      4 * consumed.length + 1 ≤ fuel →
      ∃ children' parser',
        Parser.parseStatementListLoop fuel children parser = .ok children' parser' ∧
        parser'.lexer.Reads rest := by
  induction fuel with
  | zero =>
    intro children parser consumed rest _ _ _ hfuel
    omega
  | succ fuel ih =>
    intro children parser consumed rest hderives hreads hla hfuel
    have hstep : ∀ (first tail : List TokenType),
        Derives .statement first →
        (tail = [] ∨ ∃ list, tail = .SemiColon :: list ∧ Derives .statementList list) →
        consumed = .SemiColon :: (first ++ tail) →
        ∃ children' parser',
          Parser.parseStatementListLoop (fuel + 1) children parser = .ok children' parser' ∧
          parser'.lexer.Reads rest := by
      intro first tail hfirst htail hconsumed
      subst hconsumed
      simp only [List.length_cons, List.length_append] at hfuel
      have hreads' : parser.lexer.Reads (.SemiColon :: (first ++ (tail ++ rest))) := by
        simpa using hreads
      obtain ⟨peeked, p₁, hpeek, hhead, hr₁⟩ := Parser.peekTokenType_reads parser _ hreads'
      obtain ⟨semiColon, p₂, hsemi, hr₂⟩ :=
        (Parser.parseGenericToken_reads .SemiColon p₁ _ hr₁).2 _ rfl
      obtain ⟨statement, p₃, hstatement, hr₃⟩ :=
        Parser.parseStatement_complete fuel p₂ first (tail ++ rest) hfirst hr₂
          (by
            intro tokenType hhead'
            rcases htail with rfl | ⟨list, rfl, _⟩
            · have := hla tokenType (by simpa using hhead')
              exact ⟨this.1, this.2.1, this.2.2.1, this.2.2.2.1⟩
            · simp only [List.cons_append, List.head?_cons, Option.some.injEq] at hhead'
              subst hhead'
              exact ⟨by decide, by decide, by decide, by decide⟩)
          (by omega)
      obtain ⟨children', p₄, hloop, hr₄⟩ :=
        ih (children ++ [.GenericToken semiColon, .Statement statement]) p₃ tail rest htail
          hr₃ hla (by omega)
      simp only [List.head?_cons] at hhead
      simp only [Parser.parseStatementListLoop, hpeek, ParseResult.ofExcept, hhead, if_true,
        hsemi, ParseResult.bind, hstatement, hloop]
      exact ⟨_, _, rfl, hr₄⟩
    rcases hderives with rfl | ⟨list, rfl, hlist⟩
    · obtain ⟨peeked, p₁, hpeek, hhead, hr₁⟩ := Parser.peekTokenType_reads parser _ hreads
      have hnot : ¬ peeked.map (·.tokenType) = some .SemiColon := by
        intro hcontra
        rw [hhead] at hcontra
        exact (hla _ hcontra).2.2.2.2 rfl
      simp only [Parser.parseStatementListLoop, hpeek, ParseResult.ofExcept, hnot, if_false]
      exact ⟨_, _, rfl, hr₁⟩
    · cases hlist with
      | statementListSingle hfirst =>
        exact hstep list [] hfirst (Or.inl rfl) (by rw [List.append_nil])
      | statementListMore hfirst hmore =>
        exact hstep _ _ hfirst (Or.inr ⟨_, rfl, hmore⟩) rfl

/-- The children that the loop of a list function of the parser returns
have a first and a last child, and the range of the first child extends up
to the last character of the last child. -/
theorem listRange_ok {α : Type} (getReference : α → SourceRangeReference)
    (children : List α) (start lexer : Lexer) (first : α)
    (hspans : start.SpansList (children.map getReference) lexer)
    (hfirst : ∃ added, children = first :: added) :
    ∃ front back last ref, children.head? = some front ∧ children.getLast? = some back ∧
      (getReference back).last = .ok last ∧ (getReference front).extendUntil last = .ok ref := by
  obtain ⟨added, rfl⟩ := hfirst
  have hne : first :: added ≠ [] := List.cons_ne_nil _ _
  have hback : (first :: added).getLast? = some ((first :: added).getLast hne) :=
    List.getLast?_eq_getLast _ hne
  obtain ⟨_, last, ref, hlast, hextend, _⟩ :=
    listRange_spans getReference (first :: added) start lexer first _ hspans rfl hback
  exact ⟨first, _, last, ref, rfl, hback, hlast, hextend⟩

/-- Completeness of `parseStatementList`. -/
theorem Parser.parseStatementList_complete (fuel : Nat) (parser : Parser)
    (consumed rest : List TokenType)
    (hderives : Derives .statementList consumed)
    (hreads : parser.lexer.Reads (consumed ++ rest))
    (hla : ∀ tokenType, rest.head? = some tokenType →
      tokenType ≠ .OpPlus ∧ tokenType ≠ .OpMinus ∧ tokenType ≠ .OpMul ∧
      tokenType ≠ .OpDiv ∧ tokenType ≠ .SemiColon)
    (hfuel : 4 * consumed.length + 1 ≤ fuel) :
    ∃ node parser', parser.parseStatementList fuel = .ok node parser' ∧
      parser'.lexer.Reads rest := by
  have hstep : ∀ (first tail : List TokenType),
      Derives .statement first →
      (tail = [] ∨ ∃ list, tail = .SemiColon :: list ∧ Derives .statementList list) →
      consumed = first ++ tail →
      ∃ node parser', parser.parseStatementList fuel = .ok node parser' ∧
        parser'.lexer.Reads rest := by
    intro first tail hfirst htail hconsumed
    subst hconsumed
    simp only [List.length_append] at hfuel
    have hreads' : parser.lexer.Reads (first ++ (tail ++ rest)) := by simpa using hreads
    obtain ⟨statement, p₁, hstatement, hr₁⟩ :=
      Parser.parseStatement_complete fuel parser first (tail ++ rest) hfirst hreads'
        (by
          intro tokenType hhead'
          rcases htail with rfl | ⟨list, rfl, _⟩
          · have := hla tokenType (by simpa using hhead')
            exact ⟨this.1, this.2.1, this.2.2.1, this.2.2.2.1⟩
          · simp only [List.cons_append, List.head?_cons, Option.some.injEq] at hhead'
            subst hhead'
            exact ⟨by decide, by decide, by decide, by decide⟩)
        (by omega)
    obtain ⟨children, p₂, hloop, hr₂⟩ :=
      Parser.parseStatementListLoop_complete fuel [.Statement statement] p₁ tail rest htail
        hr₁ hla (by omega)
    have hsfirst := Parser.parseStatement_spans fuel parser p₁ statement hreads.1 hstatement
    obtain ⟨hspans, added, hadded⟩ := Parser.parseStatementListLoop_spans fuel
      [StatementListChild.Statement statement] children p₁ p₂ parser.lexer hsfirst.toList
      hloop
    obtain ⟨front, back, last, ref, hfront, hback, hlast, hextend⟩ :=
      listRange_ok StatementListChild.getReference children parser.lexer p₂.lexer
        (.Statement statement) hspans ⟨added, hadded⟩
    by_cases hlength : children.length ≠ 1
    · simp only [Parser.parseStatementList, hstatement, ParseResult.bind, hloop, hfront,
        hback, if_pos hlength, hlast, ParseResult.ofExcept, hextend]
      exact ⟨_, _, rfl, hr₂⟩
    · simp only [Parser.parseStatementList, hstatement, ParseResult.bind, hloop, hfront,
        hback, if_neg hlength]
      exact ⟨_, _, rfl, hr₂⟩
  cases hderives with
  | statementListSingle hfirst =>
    exact hstep consumed [] hfirst (Or.inl rfl) (by rw [List.append_nil])
  | statementListMore hfirst hmore =>
    exact hstep _ _ hfirst (Or.inr ⟨_, rfl, hmore⟩) rfl

/-- Completeness of `parseCompoundStatement`. -/
theorem Parser.parseCompoundStatement_complete (fuel : Nat) (parser : Parser)
    (consumed rest : List TokenType)
    (hderives : Derives .compoundStatement consumed)
    (hreads : parser.lexer.Reads (consumed ++ rest))
    (hfuel : 4 * consumed.length ≤ fuel + 7) :
    ∃ node parser', parser.parseCompoundStatement fuel = .ok node parser' ∧
      parser'.lexer.Reads rest := by
  cases hderives with
  | compoundStatement hlist =>
    rename_i list
    simp only [List.length_cons, List.length_append, List.length_singleton] at hfuel
    have hreads' : parser.lexer.Reads (.Begin :: (list ++ (.End :: rest))) := by
      simpa using hreads
    obtain ⟨keyword, p₁, hkeyword, hr₁⟩ :=
      (Parser.parseGenericToken_reads .Begin parser _ hreads').2 _ rfl
    obtain ⟨statements, p₂, hstatements, hr₂⟩ :=
      Parser.parseStatementList_complete fuel p₁ list (.End :: rest) hlist hr₁
        (by
          intro tokenType hhead
          simp only [List.head?_cons, Option.some.injEq] at hhead
          subst hhead
          exact ⟨by decide, by decide, by decide, by decide, by decide⟩)
        (by omega)
    obtain ⟨endKeyword, p₃, hend, hr₃⟩ :=
      (Parser.parseGenericToken_reads .End p₂ _ hr₂).2 _ rfl
    obtain ⟨hskeyword, _⟩ := Parser.parseGenericToken_spec _ parser p₁ keyword hreads.1
      hkeyword
    have hslist := Parser.parseStatementList_spans fuel p₁ p₂ statements hr₁.1 hstatements
    obtain ⟨hsend, _⟩ := Parser.parseGenericToken_spec _ p₂ p₃ endKeyword hr₂.1 hend
    obtain ⟨last, ref, hlast, hextend, _⟩ :=
      Lexer.Spans.extend (hskeyword.advance hslist.1) hsend
    simp only [Parser.parseCompoundStatement, hkeyword, ParseResult.bind, hstatements, hend,
      ParseResult.ofExcept, hlast, hextend]
    exact ⟨_, _, rfl, hr₃⟩

end parser

end pljit

namespace pljit

namespace parser

open common lexer parse_tree

/-- Completeness of the loop of `parseDeclaratorList` on the empty sequence
or a comma followed by a declarator list. -/
theorem Parser.parseDeclaratorListLoop_complete (fuel : Nat) :
    ∀ (children : List DeclaratorListChild) (parser : Parser)
      (consumed rest : List TokenType),
      (consumed = [] ∨
        ∃ list, consumed = .Comma :: list ∧ Derives .declaratorList list) →
      parser.lexer.Reads (consumed ++ rest) →
      rest.head? ≠ some .Comma →
      4 * consumed.length + 1 ≤ fuel →
      ∃ children' parser',
        Parser.parseDeclaratorListLoop fuel children parser = .ok children' parser' ∧
        parser'.lexer.Reads rest := by
  induction fuel with
  | zero =>
    intro children parser consumed rest _ _ _ hfuel
    omega
  | succ fuel ih =>
    intro children parser consumed rest hderives hreads hla hfuel
    have hstep : ∀ (tail : List TokenType),
        (tail = [] ∨ ∃ list, tail = .Comma :: list ∧ Derives .declaratorList list) →
        consumed = .Comma :: .Identifier :: tail →
        ∃ children' parser',
          Parser.parseDeclaratorListLoop (fuel + 1) children parser = .ok children' parser' ∧
          parser'.lexer.Reads rest := by
      intro tail htail hconsumed
      subst hconsumed
      simp only [List.length_cons] at hfuel
      have hreads' : parser.lexer.Reads (.Comma :: .Identifier :: (tail ++ rest)) := hreads
      obtain ⟨peeked, p₁, hpeek, hhead, hr₁⟩ := Parser.peekTokenType_reads parser _ hreads'
      obtain ⟨comma, p₂, hcomma, hr₂⟩ :=
        (Parser.parseGenericToken_reads .Comma p₁ _ hr₁).2 _ rfl
      obtain ⟨identifier, p₃, hidentifier, hr₃⟩ :=
        (Parser.parseIdentifier_reads p₂ _ hr₂).2 _ rfl
      obtain ⟨children', p₄, hloop, hr₄⟩ :=
        ih (children ++ [.GenericToken comma, .Identifier identifier]) p₃ tail rest htail
          hr₃ hla (by omega)
      simp only [List.head?_cons] at hhead
      simp only [Parser.parseDeclaratorListLoop, hpeek, ParseResult.ofExcept, hhead, if_true,
        hcomma, ParseResult.bind, hidentifier, hloop]
      exact ⟨_, _, rfl, hr₄⟩
    rcases hderives with rfl | ⟨list, rfl, hlist⟩
    · obtain ⟨peeked, p₁, hpeek, hhead, hr₁⟩ := Parser.peekTokenType_reads parser _ hreads
      have hnot : ¬ peeked.map (·.tokenType) = some .Comma := by
        intro hcontra
        rw [hhead] at hcontra
        exact hla hcontra
      simp only [Parser.parseDeclaratorListLoop, hpeek, ParseResult.ofExcept, hnot, if_false]
      exact ⟨_, _, rfl, hr₁⟩
    · cases hlist with
      | declaratorListSingle => exact hstep [] (Or.inl rfl) rfl
      | declaratorListMore hmore => exact hstep _ (Or.inr ⟨_, rfl, hmore⟩) rfl

/-- Completeness of `parseDeclaratorList`. -/
theorem Parser.parseDeclaratorList_complete (fuel : Nat) (parser : Parser)
    (consumed rest : List TokenType)
    (hderives : Derives .declaratorList consumed)
    (hreads : parser.lexer.Reads (consumed ++ rest))
    (hla : rest.head? ≠ some .Comma)
    (hfuel : 4 * consumed.length + 1 ≤ fuel) :
    ∃ node parser', parser.parseDeclaratorList fuel = .ok node parser' ∧
      parser'.lexer.Reads rest := by
  have hstep : ∀ (tail : List TokenType),
      (tail = [] ∨ ∃ list, tail = .Comma :: list ∧ Derives .declaratorList list) →
      consumed = .Identifier :: tail →
      ∃ node parser', parser.parseDeclaratorList fuel = .ok node parser' ∧
        parser'.lexer.Reads rest := by
    intro tail htail hconsumed
    subst hconsumed
    simp only [List.length_cons] at hfuel
    have hreads' : parser.lexer.Reads (.Identifier :: (tail ++ rest)) := hreads
    obtain ⟨identifier, p₁, hidentifier, hr₁⟩ :=
      (Parser.parseIdentifier_reads parser _ hreads').2 _ rfl
    obtain ⟨children, p₂, hloop, hr₂⟩ :=
      Parser.parseDeclaratorListLoop_complete fuel [.Identifier identifier] p₁ tail rest
        htail hr₁ hla (by omega)
    have hsfirst := Parser.parseIdentifier_spec parser p₁ identifier hreads.1 hidentifier
    obtain ⟨hspans, added, hadded⟩ := Parser.parseDeclaratorListLoop_spans fuel
      [DeclaratorListChild.Identifier identifier] children p₁ p₂ parser.lexer
      hsfirst.toList hloop
    obtain ⟨front, back, last, ref, hfront, hback, hlast, hextend⟩ :=
      listRange_ok DeclaratorListChild.getReference children parser.lexer p₂.lexer
        (.Identifier identifier) hspans ⟨added, hadded⟩
    by_cases hlength : children.length ≠ 1
    · simp only [Parser.parseDeclaratorList, hidentifier, ParseResult.bind, hloop, hfront,
        hback, if_pos hlength, hlast, ParseResult.ofExcept, hextend]
      exact ⟨_, _, rfl, hr₂⟩
    · simp only [Parser.parseDeclaratorList, hidentifier, ParseResult.bind, hloop, hfront,
        hback, if_neg hlength]
      exact ⟨_, _, rfl, hr₂⟩
  cases hderives with
  | declaratorListSingle => exact hstep [] (Or.inl rfl) rfl
  | declaratorListMore hmore => exact hstep _ (Or.inr ⟨_, rfl, hmore⟩) rfl

/-- Completeness of `parseInitDeclarator`. -/
theorem Parser.parseInitDeclarator_complete (parser : Parser)
    (consumed rest : List TokenType)
    (hderives : Derives .initDeclarator consumed)
    (hreads : parser.lexer.Reads (consumed ++ rest)) :
    ∃ node parser', parser.parseInitDeclarator = .ok node parser' ∧
      parser'.lexer.Reads rest := by
  cases hderives with
  | initDeclarator =>
    have hreads' : parser.lexer.Reads (.Identifier :: .Init :: .Literal :: rest) := hreads
    obtain ⟨identifier, p₁, hidentifier, hr₁⟩ :=
      (Parser.parseIdentifier_reads parser _ hreads').2 _ rfl
    obtain ⟨init, p₂, hinit, hr₂⟩ := (Parser.parseGenericToken_reads .Init p₁ _ hr₁).2 _ rfl
    obtain ⟨literal, p₃, hliteral, hr₃⟩ := (Parser.parseLiteral_reads p₂ _ hr₂).2 _ rfl
    have hsid := Parser.parseIdentifier_spec parser p₁ identifier hreads.1 hidentifier
    obtain ⟨hsinit, _⟩ := Parser.parseGenericToken_spec _ p₁ p₂ init hr₁.1 hinit
    have hslit := Parser.parseLiteral_spec p₂ p₃ literal hr₂.1 hliteral
    obtain ⟨last, ref, hlast, hextend, _⟩ := Lexer.Spans.extend (hsid.advance hsinit.1) hslit
    simp only [Parser.parseInitDeclarator, hidentifier, ParseResult.bind, hinit, hliteral,
      ParseResult.ofExcept, hlast, hextend]
    exact ⟨_, _, rfl, hr₃⟩

/-- Completeness of the loop of `parseInitDeclaratorList` on the empty
sequence or a comma followed by an init-declarator list. -/
theorem Parser.parseInitDeclaratorListLoop_complete (fuel : Nat) :
    ∀ (children : List InitDeclaratorListChild) (parser : Parser)
      (consumed rest : List TokenType),
      (consumed = [] ∨
        ∃ list, consumed = .Comma :: list ∧ Derives .initDeclaratorList list) →
      parser.lexer.Reads (consumed ++ rest) →
      rest.head? ≠ some .Comma →
      4 * consumed.length + 1 ≤ fuel →
      ∃ children' parser',
        Parser.parseInitDeclaratorListLoop fuel children parser = .ok children' parser' ∧
        parser'.lexer.Reads rest := by
  induction fuel with
  | zero =>
    intro children parser consumed rest _ _ _ hfuel
    omega
  | succ fuel ih =>
    intro children parser consumed rest hderives hreads hla hfuel
    have hstep : ∀ (first tail : List TokenType),
        Derives .initDeclarator first →
        (tail = [] ∨ ∃ list, tail = .Comma :: list ∧ Derives .initDeclaratorList list) →
        consumed = .Comma :: (first ++ tail) →
        ∃ children' parser',
          Parser.parseInitDeclaratorListLoop (fuel + 1) children parser =
            .ok children' parser' ∧
          parser'.lexer.Reads rest := by
      intro first tail hfirst htail hconsumed
      subst hconsumed
      simp only [List.length_cons, List.length_append] at hfuel
      have hreads' : parser.lexer.Reads (.Comma :: (first ++ (tail ++ rest))) := by
        simpa using hreads
      obtain ⟨peeked, p₁, hpeek, hhead, hr₁⟩ := Parser.peekTokenType_reads parser _ hreads'
      obtain ⟨comma, p₂, hcomma, hr₂⟩ :=
        (Parser.parseGenericToken_reads .Comma p₁ _ hr₁).2 _ rfl
      obtain ⟨declarator, p₃, hdeclarator, hr₃⟩ :=
        Parser.parseInitDeclarator_complete p₂ first (tail ++ rest) hfirst hr₂
      obtain ⟨children', p₄, hloop, hr₄⟩ :=
        ih (children ++ [.GenericToken comma, .InitDeclarator declarator]) p₃ tail rest
          htail hr₃ hla (by omega)
      simp only [List.head?_cons] at hhead
      simp only [Parser.parseInitDeclaratorListLoop, hpeek, ParseResult.ofExcept, hhead,
        if_true, hcomma, ParseResult.bind, hdeclarator, hloop]
      exact ⟨_, _, rfl, hr₄⟩
    rcases hderives with rfl | ⟨list, rfl, hlist⟩
    · obtain ⟨peeked, p₁, hpeek, hhead, hr₁⟩ := Parser.peekTokenType_reads parser _ hreads
      have hnot : ¬ peeked.map (·.tokenType) = some .Comma := by
        intro hcontra
        rw [hhead] at hcontra
        exact hla hcontra
      simp only [Parser.parseInitDeclaratorListLoop, hpeek, ParseResult.ofExcept, hnot,
        if_false]
      exact ⟨_, _, rfl, hr₁⟩
    · cases hlist with
      | initDeclaratorListSingle hfirst =>
        exact hstep list [] hfirst (Or.inl rfl) (by rw [List.append_nil])
      | initDeclaratorListMore hfirst hmore =>
        exact hstep _ _ hfirst (Or.inr ⟨_, rfl, hmore⟩) rfl

/-- Completeness of `parseInitDeclaratorList`. -/
theorem Parser.parseInitDeclaratorList_complete (fuel : Nat) (parser : Parser)
    (consumed rest : List TokenType)
    (hderives : Derives .initDeclaratorList consumed)
    (hreads : parser.lexer.Reads (consumed ++ rest))
    (hla : rest.head? ≠ some .Comma)
    (hfuel : 4 * consumed.length + 1 ≤ fuel) :
    ∃ node parser', parser.parseInitDeclaratorList fuel = .ok node parser' ∧
      parser'.lexer.Reads rest := by
  have hstep : ∀ (first tail : List TokenType),
      Derives .initDeclarator first →
      (tail = [] ∨ ∃ list, tail = .Comma :: list ∧ Derives .initDeclaratorList list) →
      consumed = first ++ tail →
      ∃ node parser', parser.parseInitDeclaratorList fuel = .ok node parser' ∧
        parser'.lexer.Reads rest := by
    intro first tail hfirst htail hconsumed
    subst hconsumed
    simp only [List.length_append] at hfuel
    have hreads' : parser.lexer.Reads (first ++ (tail ++ rest)) := by simpa using hreads
    obtain ⟨declarator, p₁, hdeclarator, hr₁⟩ :=
      Parser.parseInitDeclarator_complete parser first (tail ++ rest) hfirst hreads'
    obtain ⟨children, p₂, hloop, hr₂⟩ :=
      Parser.parseInitDeclaratorListLoop_complete fuel [.InitDeclarator declarator] p₁ tail
        rest htail hr₁ hla (by omega)
    have hsfirst := Parser.parseInitDeclarator_spans parser p₁ declarator hreads.1
      hdeclarator
    obtain ⟨hspans, added, hadded⟩ := Parser.parseInitDeclaratorListLoop_spans fuel
      [InitDeclaratorListChild.InitDeclarator declarator] children p₁ p₂ parser.lexer
      hsfirst.toList hloop
    obtain ⟨front, back, last, ref, hfront, hback, hlast, hextend⟩ :=
      listRange_ok InitDeclaratorListChild.getReference children parser.lexer p₂.lexer
        (.InitDeclarator declarator) hspans ⟨added, hadded⟩
    by_cases hlength : children.length ≠ 1
    · simp only [Parser.parseInitDeclaratorList, hdeclarator, ParseResult.bind, hloop,
        hfront, hback, if_pos hlength, hlast, ParseResult.ofExcept, hextend]
      exact ⟨_, _, rfl, hr₂⟩
    · simp only [Parser.parseInitDeclaratorList, hdeclarator, ParseResult.bind, hloop,
        hfront, hback, if_neg hlength]
      exact ⟨_, _, rfl, hr₂⟩
  cases hderives with
  | initDeclaratorListSingle hfirst =>
    exact hstep consumed [] hfirst (Or.inl rfl) (by rw [List.append_nil])
  | initDeclaratorListMore hfirst hmore =>
    exact hstep _ _ hfirst (Or.inr ⟨_, rfl, hmore⟩) rfl

/-- Completeness of `parseParameterDeclarations`. -/
theorem Parser.parseParameterDeclarations_complete (fuel : Nat) (parser : Parser)
    (consumed rest : List TokenType)
    (hderives : Derives .parameterDeclarations consumed)
    (hreads : parser.lexer.Reads (consumed ++ rest))
    (hfuel : 4 * consumed.length ≤ fuel + 7) :
    ∃ node parser', parser.parseParameterDeclarations fuel = .ok node parser' ∧
      parser'.lexer.Reads rest := by
  cases hderives with
  | parameterDeclarations hlist =>
    rename_i list
    simp only [List.length_cons, List.length_append, List.length_singleton] at hfuel
    have hreads' : parser.lexer.Reads (.Param :: (list ++ (.SemiColon :: rest))) := by
      simpa using hreads
    obtain ⟨keyword, p₁, hkeyword, hr₁⟩ :=
      (Parser.parseGenericToken_reads .Param parser _ hreads').2 _ rfl
    obtain ⟨declarators, p₂, hdeclarators, hr₂⟩ :=
      Parser.parseDeclaratorList_complete fuel p₁ list (.SemiColon :: rest) hlist hr₁
        (by simp) (by omega)
    obtain ⟨semiColon, p₃, hsemi, hr₃⟩ :=
      (Parser.parseGenericToken_reads .SemiColon p₂ _ hr₂).2 _ rfl
    obtain ⟨hskeyword, _⟩ := Parser.parseGenericToken_spec _ parser p₁ keyword hreads.1
      hkeyword
    have hslist := Parser.parseDeclaratorList_spans fuel p₁ p₂ declarators hr₁.1 hdeclarators
    obtain ⟨hssemi, _⟩ := Parser.parseGenericToken_spec _ p₂ p₃ semiColon hr₂.1 hsemi
    obtain ⟨last, ref, hlast, hextend, _⟩ :=
      Lexer.Spans.extend (hskeyword.advance hslist.1) hssemi
    simp only [Parser.parseParameterDeclarations, hkeyword, ParseResult.bind, hdeclarators,
      hsemi, ParseResult.ofExcept, hlast, hextend]
    exact ⟨_, _, rfl, hr₃⟩

/-- Completeness of `parseVariableDeclarations`. -/
theorem Parser.parseVariableDeclarations_complete (fuel : Nat) (parser : Parser)
    (consumed rest : List TokenType)
    (hderives : Derives .variableDeclarations consumed)
    (hreads : parser.lexer.Reads (consumed ++ rest))
    (hfuel : 4 * consumed.length ≤ fuel + 7) :
    ∃ node parser', parser.parseVariableDeclarations fuel = .ok node parser' ∧
      parser'.lexer.Reads rest := by
  cases hderives with
  | variableDeclarations hlist =>
    rename_i list
    simp only [List.length_cons, List.length_append, List.length_singleton] at hfuel
    have hreads' : parser.lexer.Reads (.Var :: (list ++ (.SemiColon :: rest))) := by
      simpa using hreads
    obtain ⟨keyword, p₁, hkeyword, hr₁⟩ :=
      (Parser.parseGenericToken_reads .Var parser _ hreads').2 _ rfl
    obtain ⟨declarators, p₂, hdeclarators, hr₂⟩ :=
      Parser.parseDeclaratorList_complete fuel p₁ list (.SemiColon :: rest) hlist hr₁
        (by simp) (by omega)
    obtain ⟨semiColon, p₃, hsemi, hr₃⟩ :=
      (Parser.parseGenericToken_reads .SemiColon p₂ _ hr₂).2 _ rfl
    obtain ⟨hskeyword, _⟩ := Parser.parseGenericToken_spec _ parser p₁ keyword hreads.1
      hkeyword
    have hslist := Parser.parseDeclaratorList_spans fuel p₁ p₂ declarators hr₁.1 hdeclarators
    obtain ⟨hssemi, _⟩ := Parser.parseGenericToken_spec _ p₂ p₃ semiColon hr₂.1 hsemi
    obtain ⟨last, ref, hlast, hextend, _⟩ :=
      Lexer.Spans.extend (hskeyword.advance hslist.1) hssemi
    simp only [Parser.parseVariableDeclarations, hkeyword, ParseResult.bind, hdeclarators,
      hsemi, ParseResult.ofExcept, hlast, hextend]
    exact ⟨_, _, rfl, hr₃⟩

/-- Completeness of `parseConstantDeclarations`. -/
theorem Parser.parseConstantDeclarations_complete (fuel : Nat) (parser : Parser)
    (consumed rest : List TokenType)
    (hderives : Derives .constantDeclarations consumed)
    (hreads : parser.lexer.Reads (consumed ++ rest))
    (hfuel : 4 * consumed.length ≤ fuel + 7) :
    ∃ node parser', parser.parseConstantDeclarations fuel = .ok node parser' ∧
      parser'.lexer.Reads rest := by
  cases hderives with
  | constantDeclarations hlist =>
    rename_i list
    simp only [List.length_cons, List.length_append, List.length_singleton] at hfuel
    have hreads' : parser.lexer.Reads (.Const :: (list ++ (.SemiColon :: rest))) := by
      simpa using hreads
    obtain ⟨keyword, p₁, hkeyword, hr₁⟩ :=
      (Parser.parseGenericToken_reads .Const parser _ hreads').2 _ rfl
    obtain ⟨declarators, p₂, hdeclarators, hr₂⟩ :=
      Parser.parseInitDeclaratorList_complete fuel p₁ list (.SemiColon :: rest) hlist hr₁
        (by simp) (by omega)
    obtain ⟨semiColon, p₃, hsemi, hr₃⟩ :=
      (Parser.parseGenericToken_reads .SemiColon p₂ _ hr₂).2 _ rfl
    obtain ⟨hskeyword, _⟩ := Parser.parseGenericToken_spec _ parser p₁ keyword hreads.1
      hkeyword
    have hslist := Parser.parseInitDeclaratorList_spans fuel p₁ p₂ declarators hr₁.1
      hdeclarators
    obtain ⟨hssemi, _⟩ := Parser.parseGenericToken_spec _ p₂ p₃ semiColon hr₂.1 hsemi
    obtain ⟨last, ref, hlast, hextend, _⟩ :=
      Lexer.Spans.extend (hskeyword.advance hslist.1) hssemi
    simp only [Parser.parseConstantDeclarations, hkeyword, ParseResult.bind, hdeclarators,
      hsemi, ParseResult.ofExcept, hlast, hextend]
    exact ⟨_, _, rfl, hr₃⟩

/-- The first token of a declaration section and of a compound statement is
its keyword. -/
theorem Derives.keyword_head {types : List TokenType} :
    (Derives .parameterDeclarations types → types.head? = some .Param) ∧
    (Derives .variableDeclarations types → types.head? = some .Var) ∧
    (Derives .constantDeclarations types → types.head? = some .Const) ∧
    (Derives .compoundStatement types → types.head? = some .Begin) := by
  refine ⟨?_, ?_, ?_, ?_⟩ <;> intro h <;> cases h <;> rfl

/-- Completeness of an optional declaration section: a section that is
present is parsed when tokens follow it, and no section is parsed when the
sequence does not start with the keyword of the section. -/
theorem Parser.parseOptionalSection_complete {α : Type} (keyword : TokenType)
    (parseSection : Parser → ParseResult α) (getReference : α → SourceRangeReference)
    (message : String) (nonterminal : Nonterminal) (parser : Parser)
    (consumed rest : List TokenType)
    (hsection : ∀ (p : Parser), p.lexer.Reads (consumed ++ rest) →
      Derives nonterminal consumed →
      ∃ node p', parseSection p = .ok node p' ∧ p'.lexer.Reads rest)
    (hkeyword : Derives nonterminal consumed → consumed.head? = some keyword)
    (hderives : DerivesOptional nonterminal consumed)
    (hreads : parser.lexer.Reads (consumed ++ rest))
    (hrest : ∃ head tail, rest = head :: tail ∧ head ≠ keyword) :
    ∃ result parser',
      Parser.parseOptionalSection keyword parseSection getReference message parser =
        .ok result parser' ∧
      parser'.lexer.Reads rest := by
  obtain ⟨head, tail, rfl, hhead⟩ := hrest
  obtain ⟨peeked, p₁, hpeek, hpeeked, hr₁⟩ := Parser.peekTokenType_reads parser _ hreads
  rcases hderives with rfl | hderives
  · have hnot : ¬ peeked.map (·.tokenType) = some keyword := by
      rw [hpeeked]
      simp only [List.nil_append, List.head?_cons, Option.some.injEq]
      exact hhead
    simp only [Parser.parseOptionalSection, hpeek, ParseResult.ofExcept, hnot, if_false]
    exact ⟨_, _, rfl, hr₁⟩
  · have hfirst : peeked.map (·.tokenType) = some keyword := by
      rw [hpeeked]
      have := hkeyword hderives
      cases consumed with
      | nil => simp at this
      | cons first more =>
        simp only [List.head?_cons] at this
        simp only [List.cons_append, List.head?_cons, this]
    obtain ⟨node, p₂, hnode, hr₂⟩ := hsection p₁ hr₁ hderives
    have hnext := hr₂.hasNext_cons
    simp only [Parser.parseOptionalSection, hpeek, ParseResult.ofExcept, hfirst, if_true,
      hnode, ParseResult.bind, hnext, Bool.not_true, Bool.false_eq_true, if_false]
    exact ⟨_, _, rfl, hr₂⟩

end parser

end pljit

namespace pljit

namespace lexer

open common

/-- The scanning loop of `Lexer::next` stops within the characters it was
given. -/
theorem Lexer.scan_finished_bound (isLiteral : Bool) (chars : List Char) :
    ∀ (current : Nat) (lastChar : Char) (tokenType : TokenType) (endRef : Nat)
      (tokenType' : TokenType) (endRef' current' : Nat),
      Lexer.scan isLiteral chars current lastChar tokenType endRef =
        .finished tokenType' endRef' current' →
      current' ≤ current + chars.length := by
  induction chars with
  | nil =>
    intro current lastChar tokenType endRef tokenType' endRef' current' h
    simp only [Lexer.scan, ScanResult.finished.injEq] at h
    obtain ⟨_, _, rfl⟩ := h
    exact Nat.le_add_right _ _
  | cons c rest ih =>
    intro current lastChar tokenType endRef tokenType' endRef' current' h
    simp only [Lexer.scan] at h
    simp only [List.length_cons]
    split at h
    · simp only [reduceCtorEq] at h
    · split at h
      · split at h
        · simp only [reduceCtorEq] at h
        · simp only [ScanResult.finished.injEq] at h
          obtain ⟨_, _, rfl⟩ := h
          omega
      · split at h
        · simp only [ScanResult.finished.injEq] at h
          obtain ⟨_, _, rfl⟩ := h
          omega
        · split at h
          · simp only [ScanResult.finished.injEq] at h
            obtain ⟨_, _, rfl⟩ := h
            omega
          · have := ih _ _ _ _ _ _ _ h
            omega

/-- The character behind the leading whitespace is no whitespace. -/
theorem leadingWhitespace_stop (sourceCode : List Char) (c : Char)
    (h : sourceCode[leadingWhitespace sourceCode]? = some c) : isWhitespace c = false := by
  induction sourceCode with
  | nil => simp at h
  | cons head rest ih =>
    simp only [leadingWhitespace] at h
    split at h
    · simp only [List.getElem?_cons_succ] at h
      exact ih h
    · rename_i hhead
      simp only [List.getElem?_cons_zero, Option.some.injEq] at h
      subst h
      simpa using hhead

/-- A lexer that was moved behind whitespace from a position within the
source code stands within the source code, at a character that is no
whitespace or at the end. -/
theorem Lexer.trimLeadingWhitespace_trimmed (lexer : Lexer)
    (h : lexer.current ≤ lexer.sourceCodeManager.sourceCode.length) :
    lexer.trimLeadingWhitespace.current ≤ lexer.sourceCodeManager.sourceCode.length ∧
    ∀ c, lexer.sourceCodeManager.sourceCode[lexer.trimLeadingWhitespace.current]? = some c →
      isWhitespace c = false := by
  simp only [Lexer.trimLeadingWhitespace]
  have hspec := (leadingWhitespace_spec
    (lexer.sourceCodeManager.sourceCode.drop lexer.current)).1
  simp only [List.length_drop] at hspec
  refine ⟨by omega, ?_⟩
  intro c hc
  apply leadingWhitespace_stop (lexer.sourceCodeManager.sourceCode.drop lexer.current) c
  rw [List.getElem?_drop]
  exact hc

/-- The text of a token made of letters is accepted by
`determineAlphaCharTokenType` unless it is empty. -/
theorem Lexer.determineAlphaCharTokenType_ok (codeString : List Char)
    (h : codeString ≠ []) :
    ∃ tokenType, Lexer.determineAlphaCharTokenType codeString = .ok tokenType := by
  unfold Lexer.determineAlphaCharTokenType
  have hempty : codeString.isEmpty = false := by
    cases codeString with
    | nil => exact absurd rfl h
    | cons _ _ => rfl
  simp only [hempty, Bool.false_eq_true, if_false]
  split
  · exact ⟨_, rfl⟩
  split
  · exact ⟨_, rfl⟩
  split
  · exact ⟨_, rfl⟩
  split
  · exact ⟨_, rfl⟩
  split
  · exact ⟨_, rfl⟩
  split
  · exact ⟨_, rfl⟩
  exact ⟨_, rfl⟩

/-- The function `next` returns a token from every lexer without a cached
token that stands within the source code at a character that is no
whitespace: none of its assertions fails.  Behind a token that is no error
the lexer again stands within the source code, at a character that is no
whitespace or at the end. -/
theorem Lexer.next_total (lexer : Lexer) (hcache : lexer.tokenCache = none)
    (hnext : lexer.hasNext = true)
    (hcurrent : lexer.current ≤ lexer.sourceCodeManager.sourceCode.length)
    (htrimmed : ∀ c, lexer.sourceCodeManager.sourceCode[lexer.current]? = some c →
      isWhitespace c = false) :
    ∃ token lexer', lexer.next = .ok (token, lexer') ∧
      (token.tokenType ≠ .LexerError →
        lexer'.current ≤ lexer'.sourceCodeManager.sourceCode.length ∧
        ∀ c, lexer'.sourceCodeManager.sourceCode[lexer'.current]? = some c →
          isWhitespace c = false) := by
  have hlt : lexer.current < lexer.sourceCodeManager.sourceCode.length := by
    simp only [Lexer.hasNext, hcache, Option.isSome_none, Bool.or_false, bne_iff_ne, ne_eq]
      at hnext
    omega
  have hfirst : lexer.sourceCodeManager.sourceCode[lexer.current]? =
      some (lexer.sourceCodeManager.sourceCode[lexer.current]) :=
    List.getElem?_eq_getElem hlt
  have hspace := htrimmed _ hfirst
  have herror : ∀ (l0 : Lexer) (ref : SourceRangeReference) (message : String),
      ∃ token lexer', l0.cacheError ref message = .ok (token, lexer') ∧
        (token.tokenType ≠ .LexerError →
          lexer'.current ≤ lexer'.sourceCodeManager.sourceCode.length ∧
          ∀ c, lexer'.sourceCodeManager.sourceCode[lexer'.current]? = some c →
            isWhitespace c = false) := by
    intro l0 ref message
    refine ⟨_, _, rfl, ?_⟩
    intro hne
    exact absurd rfl hne
  have hdone : ∀ (tokenType : TokenType) (ref : SourceRangeReference) (current : Nat),
      tokenType ≠ .Unknown → current ≤ lexer.sourceCodeManager.sourceCode.length →
      ∃ token lexer',
        (match Token.new tokenType ref with
          | .error fault => Except.error fault
          | .ok token =>
            Except.ok (token,
              Lexer.trimLeadingWhitespace
                { sourceCodeManager := lexer.sourceCodeManager, current := current,
                  tokenCache := lexer.tokenCache })) = .ok (token, lexer') ∧
        (token.tokenType ≠ .LexerError →
          lexer'.current ≤ lexer'.sourceCodeManager.sourceCode.length ∧
          ∀ c, lexer'.sourceCodeManager.sourceCode[lexer'.current]? = some c →
            isWhitespace c = false) := by
    intro tokenType ref current hknown hle
    simp only [Token.new, hknown, if_false]
    exact ⟨_, _, rfl, fun _ =>
      Lexer.trimLeadingWhitespace_trimmed
        { sourceCodeManager := lexer.sourceCodeManager, current := current,
          tokenCache := lexer.tokenCache } hle⟩
  unfold Lexer.next
  simp only [hcache, hnext, Bool.not_true, Bool.false_eq_true, if_false, hfirst, hspace]
  split
  · exact herror _ _ _
  split
  · rename_i hknown
    have := hdone _ (SourceRangeReference.ofLocation { ref := lexer.current })
      (lexer.current + 1) hknown (by omega)
    rw [hcache] at this
    exact this
  split
  · exact herror _ _ _
  · exact herror _ _ _
  · rename_i scanned endRef current' hscan
    have hbound := Lexer.scan_finished_bound _ _ _ _ _ _ _ _ _ hscan
    simp only [List.length_drop] at hbound
    obtain ⟨_, hstart, _⟩ :=
      Lexer.scan_finished _ _ _ _ _ _ _ _ _ hscan (Nat.lt_succ_self _)
    have htext : (SourceRangeReference.fromTo { ref := lexer.current }
        { ref := endRef }).toStringView lexer.sourceCodeManager.sourceCode ≠ [] := by
      simp only [SourceRangeReference.toStringView, SourceRangeReference.fromTo, ne_eq,
        List.take_eq_nil_iff, List.drop_eq_nil_iff, not_or, Nat.add_one_ne_zero,
        not_false_eq_true, true_and]
      omega
    by_cases hunknown : scanned = .Unknown
    · obtain ⟨tokenType, htype⟩ := Lexer.determineAlphaCharTokenType_ok _ htext
      have hknown := (Lexer.determineAlphaCharTokenType_type _ _ htype).2.1
      have := hdone tokenType
        (SourceRangeReference.fromTo { ref := lexer.current } { ref := endRef }) current'
        hknown (by omega)
      rw [hcache] at this
      simp only [hunknown, if_true, htype]
      exact this
    · have := hdone scanned
        (SourceRangeReference.fromTo { ref := lexer.current } { ref := endRef }) current'
        hunknown (by omega)
      rw [hcache] at this
      simp only [hunknown, if_false]
      exact this

/-- Every source code lexes without error or holds an error token: `next`,
called from a lexer without a cached token until `hasNext` is false, never
fails an assertion, and a recursion budget above the number of characters
left suffices. -/
theorem Lexer.tokens_total (fuel : Nat) :
    ∀ (lexer : Lexer), lexer.tokenCache = none →
      lexer.current ≤ lexer.sourceCodeManager.sourceCode.length →
      (∀ c, lexer.sourceCodeManager.sourceCode[lexer.current]? = some c →
        isWhitespace c = false) →
      lexer.sourceCodeManager.sourceCode.length - lexer.current + 1 ≤ fuel →
      (∃ tokens, Lexer.tokens fuel lexer = some tokens) ∨
        Lexer.meetsError fuel lexer = true := by
  induction fuel with
  | zero =>
    intro lexer _ _ _ hfuel
    omega
  | succ fuel ih =>
    intro lexer hcache hcurrent htrimmed hfuel
    by_cases hnext : lexer.hasNext = true
    · obtain ⟨token, lexer', hstep, hafter⟩ :=
        Lexer.next_total lexer hcache hnext hcurrent htrimmed
      by_cases herr : token.hasError = true
      · right
        simp only [Lexer.meetsError, hnext, Bool.not_true, Bool.false_eq_true, if_false,
          hstep, herr, Bool.true_or]
      · have hne : token.tokenType ≠ .LexerError := by
          intro hcontra
          apply herr
          simp only [Token.hasError, hcontra, decide_True]
        have hwf : lexer.WellFormed := by
          intro t ht
          rw [hcache] at ht
          cases ht
        obtain ⟨hsource, _, _, _, hok⟩ := Lexer.next_spec lexer lexer' token hwf hstep
        obtain ⟨htoken, hnone, hend⟩ := hok hne
        obtain ⟨hstart, _, _⟩ := Lexer.next_exact lexer lexer' token hcache hstep hne
        obtain ⟨hcurrent', htrimmed'⟩ := hafter hne
        have hpos : 0 < token.ref.length := htoken.1
        have hstart' : token.ref.ref = lexer.current := hstart
        have hend' : token.ref.ref + token.ref.length ≤ lexer'.current := hend
        have herr' : token.hasError = false := by simpa using herr
        rw [hsource] at hcurrent'
        have hfuel' : lexer'.sourceCodeManager.sourceCode.length - lexer'.current + 1 ≤
            fuel := by
          rw [hsource]
          omega
        rw [← hsource] at hcurrent'
        rcases ih lexer' hnone hcurrent' htrimmed' hfuel' with
          ⟨tokens, htokens⟩ | hmeets
        · left
          refine ⟨token :: tokens, ?_⟩
          simp only [Lexer.tokens, hnext, Bool.not_true, Bool.false_eq_true, if_false, hstep,
            herr', htokens, Option.map_some']
        · right
          simp only [Lexer.meetsError, hnext, Bool.not_true, Bool.false_eq_true, if_false,
            hstep, hmeets, Bool.or_true]
    · left
      have hnext' : lexer.hasNext = false := by simpa using hnext
      exact ⟨[], by simp only [Lexer.tokens, hnext', Bool.not_false, if_true]⟩

/-- The lexer constructed on a source code hands out the tokens of the
source code without error or hands out an error token: it never fails an
assertion, and a recursion budget above the number of characters suffices. -/
theorem Lexer.new_lexes (code : List Char) :
    (∃ tokens, Lexer.tokens (code.length + 1) (Lexer.new { sourceCode := code }) =
        some tokens) ∨
      Lexer.meetsError (code.length + 1) (Lexer.new { sourceCode := code }) = true := by
  have htrimmed := Lexer.trimLeadingWhitespace_trimmed
    { sourceCodeManager := { sourceCode := code }, current := 0 } (Nat.zero_le _)
  have hsource : (Lexer.new { sourceCode := code }).sourceCodeManager.sourceCode = code := rfl
  apply Lexer.tokens_total (code.length + 1) (Lexer.new { sourceCode := code }) rfl
    htrimmed.1 htrimmed.2
  rw [hsource]
  omega

end lexer

end pljit

namespace pljit

namespace lexer

open common

/-- The tokens of the rest of the input of a lexer without a cached token
lie behind `current`, one character each at least: their number is at most
the number of characters left. -/
theorem Lexer.tokens_length (fuel : Nat) :
    ∀ (lexer : Lexer) (tokens : List Token),
      lexer.tokenCache = none → Lexer.tokens fuel lexer = some tokens →
      lexer.current + tokens.length ≤ lexer.sourceCodeManager.sourceCode.length := by
  induction fuel with
  | zero =>
    intro lexer tokens _ h
    simp only [Lexer.tokens, reduceCtorEq] at h
  | succ fuel ih =>
    intro lexer tokens hcache h
    simp only [Lexer.tokens] at h
    split at h
    · rename_i hnext
      simp only [Option.some.injEq] at h
      subst h
      simp only [Lexer.hasNext, hcache, Option.isSome_none, Bool.or_false, Bool.not_eq_true',
        bne_eq_false_iff_eq] at hnext
      simp only [List.length_nil, Nat.add_zero, hnext, Nat.le_refl]
    · split at h
      · cases h
      · rename_i token lexer' hnext
        split at h
        · cases h
        · rename_i herr
          cases hrest : Lexer.tokens fuel lexer' with
          | none => simp only [hrest, Option.map_none', reduceCtorEq] at h
          | some more =>
            simp only [hrest, Option.map_some', Option.some.injEq] at h
            subst h
            have hne : token.tokenType ≠ .LexerError := by
              intro hcontra
              apply herr
              simp only [Token.hasError, hcontra, decide_True]
            have hwf : lexer.WellFormed := by
              intro t ht
              rw [hcache] at ht
              cases ht
            obtain ⟨hsource, _, _, _, hok⟩ := Lexer.next_spec lexer lexer' token hwf hnext
            obtain ⟨htoken, hnone, hend⟩ := hok hne
            obtain ⟨hstart, _, _⟩ := Lexer.next_exact lexer lexer' token hcache hnext hne
            have := ih lexer' more hnone hrest
            rw [hsource] at this
            have hpos := htoken.1
            simp only [List.length_cons]
            omega

end lexer

namespace parser

open common lexer parse_tree

/-- The constructor of `Parser` on a source code that lexes without error:
it succeeds exactly when there is a token, and the parser reads the token
sequence of the source code. -/
theorem Parser.new_reads (manager : SourceCodeManager) (types : List TokenType)
    (hreads : (Lexer.new manager).Reads types) :
    (∀ parser, Parser.new manager = .ok parser →
      types ≠ [] ∧ parser.lexer.Reads types) ∧
    (types ≠ [] → ∃ parser, Parser.new manager = .ok parser ∧ parser.lexer.Reads types) := by
  cases types with
  | nil =>
    refine ⟨?_, fun h => absurd rfl h⟩
    intro parser hnew
    have hnext : (Lexer.new manager).hasNext = false := by
      rw [hreads.hasNext]
      rfl
    have hcache : (Lexer.new manager).tokenCache = none := rfl
    simp only [Parser.new, Lexer.peek, hcache, Lexer.next, hnext, Bool.not_false, if_true,
      reduceCtorEq] at hnew
  | cons tokenType rest =>
    obtain ⟨token, lexer', hpeek, htype, hcache, hr⟩ := hreads.peek
    obtain ⟨_, _, _, hne, _⟩ := hreads.next
    have hne' : token.tokenType ≠ .LexerError := by
      obtain ⟨token₀, lexer₀, hnext₀, htype₀, hne₀, _⟩ := hreads.next
      rw [htype, ← htype₀]
      exact hne₀
    have hwf := (hr.1 token (by rw [hcache]; rfl) hne').1
    have hfirst : token.ref.first = .ok { ref := token.ref.ref } := by
      simp only [SourceRangeReference.first, hwf.1, if_true]
    have hnew : Parser.new manager =
        .ok { lexer := lexer', refToLastChar := { ref := token.ref.ref } } := by
      simp only [Parser.new, hpeek, hfirst]
    refine ⟨?_, fun _ => ⟨_, hnew, hr⟩⟩
    intro parser hparser
    rw [hnew] at hparser
    simp only [Except.ok.injEq] at hparser
    subst hparser
    exact ⟨List.cons_ne_nil _ _, hr⟩

/-- Completeness of `parseFunctionDefinition`: the parser accepts a source
code without lexer errors whose token sequence is derivable from
`function-definition`, with enough recursion budget. -/
theorem Parser.parseFunctionDefinition_complete (fuel : Nat) (parser : Parser)
    (types : List TokenType)
    (hderives : DerivesFunctionDefinition types)
    (hreads : parser.lexer.Reads types)
    (hfuel : 4 * types.length ≤ fuel) :
    ∃ node parser', parser.parseFunctionDefinition fuel = .ok node parser' := by
  obtain ⟨c₁, c₂, c₃, c₄, hd₁, hd₂, hd₃, hd₄, rfl⟩ := hderives
  simp only [List.length_append, List.length_singleton] at hfuel
  have hrest₄ : ∃ tail, c₄ ++ [TokenType.ProgramTerminator] = .Begin :: tail := by
    have := Derives.keyword_head.2.2.2 hd₄
    cases c₄ with
    | nil => simp at this
    | cons head tail =>
      simp only [List.head?_cons, Option.some.injEq] at this
      subst this
      exact ⟨_, rfl⟩
  have hrest₃ : ∃ head tail, c₃ ++ (c₄ ++ [TokenType.ProgramTerminator]) = head :: tail ∧
      (head = .Const ∨ head = .Begin) := by
    rcases hd₃ with rfl | hd₃
    · obtain ⟨tail, htail⟩ := hrest₄
      exact ⟨_, tail, by simpa using htail, Or.inr rfl⟩
    · have := Derives.keyword_head.2.2.1 hd₃
      cases c₃ with
      | nil => simp at this
      | cons head tail =>
        simp only [List.head?_cons, Option.some.injEq] at this
        subst this
        exact ⟨_, _, rfl, Or.inl rfl⟩
  have hrest₂ : ∃ head tail,
      c₂ ++ (c₃ ++ (c₄ ++ [TokenType.ProgramTerminator])) = head :: tail ∧
      (head = .Var ∨ head = .Const ∨ head = .Begin) := by
    rcases hd₂ with rfl | hd₂
    · obtain ⟨head, tail, htail, hhead⟩ := hrest₃
      exact ⟨head, tail, by simpa using htail, Or.inr hhead⟩
    · have := Derives.keyword_head.2.1 hd₂
      cases c₂ with
      | nil => simp at this
      | cons head tail =>
        simp only [List.head?_cons, Option.some.injEq] at this
        subst this
        exact ⟨_, _, rfl, Or.inl rfl⟩
  have hreads₁ : parser.lexer.Reads
      (c₁ ++ (c₂ ++ (c₃ ++ (c₄ ++ [TokenType.ProgramTerminator])))) := by
    simpa using hreads
  obtain ⟨parameterSection, p₁, hparams, hr₁⟩ :=
    Parser.parseOptionalSection_complete .Param (Parser.parseParameterDeclarations fuel)
      (·.ref) "error: expected afterwards either 'VAR', 'CONST', or 'BEGIN'"
      .parameterDeclarations parser c₁ _
      (fun p hp hd => Parser.parseParameterDeclarations_complete fuel p c₁ _ hd hp (by omega))
      Derives.keyword_head.1 hd₁ hreads₁
      (by
        obtain ⟨head, tail, htail, hhead⟩ := hrest₂
        refine ⟨head, tail, htail, ?_⟩
        rcases hhead with rfl | rfl | rfl <;> decide)
  obtain ⟨variableSection, p₂, hvars, hr₂⟩ :=
    Parser.parseOptionalSection_complete .Var (Parser.parseVariableDeclarations fuel)
      (·.ref) "error: expected afterwards either 'CONST' or 'BEGIN'"
      .variableDeclarations p₁ c₂ _
      (fun p hp hd => Parser.parseVariableDeclarations_complete fuel p c₂ _ hd hp (by omega))
      Derives.keyword_head.2.1 hd₂ hr₁
      (by
        obtain ⟨head, tail, htail, hhead⟩ := hrest₃
        refine ⟨head, tail, htail, ?_⟩
        rcases hhead with rfl | rfl <;> decide)
  obtain ⟨constantSection, p₃, hconsts, hr₃⟩ :=
    Parser.parseOptionalSection_complete .Const (Parser.parseConstantDeclarations fuel)
      (·.ref) "error: expected afterwards 'BEGIN'"
      .constantDeclarations p₂ c₃ _
      (fun p hp hd => Parser.parseConstantDeclarations_complete fuel p c₃ _ hd hp (by omega))
      Derives.keyword_head.2.2.1 hd₃ hr₂
      (by
        obtain ⟨tail, htail⟩ := hrest₄
        exact ⟨_, tail, htail, by decide⟩)
  obtain ⟨compound, p₄, hcompound, hr₄⟩ :=
    Parser.parseCompoundStatement_complete fuel p₃ c₄ [.ProgramTerminator] hd₄ hr₃
      (by omega)
  obtain ⟨terminator, p₅, hterminator, hr₅⟩ :=
    (Parser.parseGenericToken_reads .ProgramTerminator p₄ _ hr₄).2 _ rfl
  have hnext : p₅.lexer.hasNext = false := by
    rw [hr₅.hasNext]
    rfl
  obtain ⟨hadv₁, hs₁⟩ := Parser.parseOptionalSection_spans _ _ _ _ parser p₁ parameterSection
    (Parser.parseParameterDeclarations_spans fuel) hreads.1 hparams
  obtain ⟨hadv₂, hs₂⟩ := Parser.parseOptionalSection_spans _ _ _ _ p₁ p₂ variableSection
    (Parser.parseVariableDeclarations_spans fuel) hr₁.1 hvars
  obtain ⟨hadv₃, hs₃⟩ := Parser.parseOptionalSection_spans _ _ _ _ p₂ p₃ constantSection
    (Parser.parseConstantDeclarations_spans fuel) hr₂.1 hconsts
  have hs₄ := Parser.parseCompoundStatement_spans fuel p₃ p₄ compound hr₃.1 hcompound
  obtain ⟨hs₅, _⟩ := Parser.parseGenericToken_spec _ p₄ p₅ terminator hr₄.1 hterminator
  have hstart : parser.lexer.Spans
      (getStartingRangeReferenceForFunctionDef parameterSection variableSection
        constantSection compound) p₄.lexer := by
    have h34 : p₃.lexer.Advance p₄.lexer := hs₄.1
    cases parameterSection with
    | some node =>
      exact (hs₁ node rfl).advance (hadv₂.trans (hadv₃.trans h34))
    | none =>
      cases variableSection with
      | some node =>
        exact Lexer.Spans.of_advance hadv₁ ((hs₂ node rfl).advance (hadv₃.trans h34))
      | none =>
        cases constantSection with
        | some node =>
          exact Lexer.Spans.of_advance (hadv₁.trans hadv₂) ((hs₃ node rfl).advance h34)
        | none =>
          exact Lexer.Spans.of_advance (hadv₁.trans (hadv₂.trans hadv₃)) hs₄
  obtain ⟨last, ref, hlast, hextend, _⟩ := Lexer.Spans.extend hstart hs₅
  simp only [Parser.parseFunctionDefinition, hparams, ParseResult.bind, hvars, hconsts,
    hcompound, hterminator, hnext, Bool.false_eq_true, if_false, ParseResult.ofExcept, hlast,
    hextend]
  exact ⟨_, _, rfl⟩

end parser

open common lexer parse_tree parser

/-- C18: let a source code lex without error, that is let `next` hand out
the tokens of the source code one after the other until `hasNext` is false
with no error token among them.  Then the parser constructed on the source
code returns a tree from `parseFunctionDefinition`, with the recursion
budget of the compilation or any larger one, if and only if the sequence of
the types of the tokens is derivable from `function-definition` in the
grammar: optional `PARAM`, `VAR` and `CONST` sections in this order, a
compound statement and the terminator `.` as the last token.  The number
of tokens is at most the number of characters.  Every source code lexes
without error or holds an error token, since `next` fails no assertion on
the way.  The program of the test `TokensAfterProgramTerminator` is rejected
with the error at the token behind the terminator. -/
theorem C18_parser_accepts_exactly_the_grammar (code : List Char) (lexerFuel : Nat)
    (tokens : List Token) (fuel : Nat)
    (hlex : Lexer.tokens lexerFuel (Lexer.new { sourceCode := code }) = some tokens)
    (hfuel : parserFuel code ≤ fuel) :
    ((∃ parser node parser', Parser.new { sourceCode := code } = .ok parser ∧
        parser.parseFunctionDefinition fuel = .ok node parser') ↔
      DerivesFunctionDefinition (tokens.map (·.tokenType))) ∧
    tokens.length ≤ code.length ∧
    (∀ source : List Char,
      (∃ lexed, Lexer.tokens (source.length + 1) (Lexer.new { sourceCode := source }) =
          some lexed) ∨
        Lexer.meetsError (source.length + 1) (Lexer.new { sourceCode := source }) = true) ∧
    (FunctionFrame.new scenarioTokensAfterTerminator).compile =
      .ok { sourceCodeManager :=
              { sourceCode := scenarioTokensAfterTerminator
                printed :=
                  [{ ref := { ref := 20, length := 4 },
                     message := "error: expected no tokens after the program terminator" }] }
            state := .CompileError } := by
  have hwf : (Lexer.new { sourceCode := code }).WellFormed := by
    intro t ht
    simp only [Lexer.new, Lexer.trimLeadingWhitespace, Option.mem_def, reduceCtorEq] at ht
  have hreads : (Lexer.new { sourceCode := code }).Reads (tokens.map (·.tokenType)) :=
    ⟨hwf, lexerFuel, tokens, hlex, rfl⟩
  have hlength : tokens.length ≤ code.length := by
    have := Lexer.tokens_length lexerFuel _ tokens rfl hlex
    have hsource : (Lexer.new { sourceCode := code }).sourceCodeManager.sourceCode = code :=
      rfl
    rw [hsource] at this
    omega
  obtain ⟨hsound, hcomplete⟩ := Parser.new_reads { sourceCode := code } _ hreads
  refine ⟨⟨?_, ?_⟩, hlength, Lexer.new_lexes, by decide!⟩
  · rintro ⟨parser, node, parser', hnew, hparse⟩
    exact Parser.parseFunctionDefinition_sound fuel parser parser' node _ (hsound parser hnew).2
      hparse
  · intro hderives
    have hne : tokens.map (·.tokenType) ≠ [] := by
      obtain ⟨c₁, c₂, c₃, c₄, _, _, _, _, heq⟩ := hderives
      rw [heq]
      simp
    obtain ⟨parser, hnew, hr⟩ := hcomplete hne
    obtain ⟨node, parser', hparse⟩ :=
      Parser.parseFunctionDefinition_complete fuel parser _ hderives hr
        (by
          simp only [List.length_map]
          simp only [parserFuel] at hfuel
          omega)
    exact ⟨parser, node, parser', hnew, hparse⟩

/-- Witness of C18 on the source code of the test `TestParser.SimpleTest`
with whitespace in front of it and behind it. -/
theorem C18_parser_accepts_exactly_the_grammar_witness :
    ((∃ parser node parser', Parser.new { sourceCode := scenarioSimple } = .ok parser ∧
        parser.parseFunctionDefinition (parserFuel scenarioSimple) = .ok node parser') ↔
      DerivesFunctionDefinition (scenarioSimpleTokens.map (·.tokenType))) ∧
    scenarioSimpleTokens.length ≤ scenarioSimple.length ∧
    (∀ source : List Char,
      (∃ lexed, Lexer.tokens (source.length + 1) (Lexer.new { sourceCode := source }) =
          some lexed) ∨
        Lexer.meetsError (source.length + 1) (Lexer.new { sourceCode := source }) = true) ∧
    (FunctionFrame.new scenarioTokensAfterTerminator).compile =
      .ok { sourceCodeManager :=
              { sourceCode := scenarioTokensAfterTerminator
                printed :=
                  [{ ref := { ref := 20, length := 4 },
                     message := "error: expected no tokens after the program terminator" }] }
            state := .CompileError } :=
  C18_parser_accepts_exactly_the_grammar scenarioSimple 8 scenarioSimpleTokens
    (parserFuel scenarioSimple) (by decide!) (Nat.le_refl _)

end pljit

namespace pljit

namespace lexer

open common

/-- A character of the interval from `(` to `;` is one of the twenty
characters of this interval. -/
theorem char_between_paren_semicolon (c : Char) (hlow : '(' ≤ c) (hhigh : c ≤ ';') :
    c = '(' ∨ c = ')' ∨ c = '*' ∨ c = '+' ∨ c = ',' ∨ c = '-' ∨ c = '.' ∨ c = '/' ∨
    c = '0' ∨ c = '1' ∨ c = '2' ∨ c = '3' ∨ c = '4' ∨ c = '5' ∨ c = '6' ∨ c = '7' ∨
    c = '8' ∨ c = '9' ∨ c = ':' ∨ c = ';' := by
  have h1 : 40 ≤ c.toNat := hlow
  have h2 : c.toNat ≤ 59 := hhigh
  have hc : c = Char.ofNat c.toNat := (Char.ofNat_toNat c).symm
  rw [hc]
  generalize c.toNat = n at h1 h2
  interval_cases n <;> decide

/-- The code of a digit lies between the codes of `0` and `9`. -/
theorem isLiteralChar_toNat (c : Char) :
    isLiteralChar c = true ↔ 48 ≤ c.toNat ∧ c.toNat ≤ 57 := by
  simp only [isLiteralChar, Bool.and_eq_true, decide_eq_true_eq]
  exact Iff.rfl

/-- The code of a letter lies between the codes of `A` and `Z` or between
the codes of `a` and `z`. -/
theorem isAlphaChar_toNat (c : Char) :
    isAlphaChar c = true ↔
      (65 ≤ c.toNat ∧ c.toNat ≤ 90) ∨ (97 ≤ c.toNat ∧ c.toNat ≤ 122) := by
  simp only [isAlphaChar, Bool.or_eq_true, Bool.and_eq_true, decide_eq_true_eq]
  exact Iff.rfl

/-- A digit is a legal character, it is no letter, no colon and no
whitespace, and it is no token of a single character. -/
theorem isLiteralChar_facts (c : Char) (h : isLiteralChar c = true) :
    isLegalChar c = true ∧ isAlphaChar c = false ∧ c ≠ ':' ∧ isWhitespace c = false ∧
    Lexer.determineSingleCharacterTokenType c = .Unknown := by
  have hcode := (isLiteralChar_toNat c).1 h
  have hc : c = Char.ofNat c.toNat := (Char.ofNat_toNat c).symm
  rw [hc]
  obtain ⟨h1, h2⟩ := hcode
  generalize c.toNat = n at h1 h2
  interval_cases n <;> decide

/-- A letter is a legal character, it is no digit, no colon and no
whitespace, and it is no token of a single character. -/
theorem isAlphaChar_facts (c : Char) (h : isAlphaChar c = true) :
    isLegalChar c = true ∧ isLiteralChar c = false ∧ c ≠ ':' ∧ isWhitespace c = false ∧
    Lexer.determineSingleCharacterTokenType c = .Unknown := by
  have hcode := (isAlphaChar_toNat c).1 h
  have hc : c = Char.ofNat c.toNat := (Char.ofNat_toNat c).symm
  rw [hc]
  rcases hcode with ⟨h1, h2⟩ | ⟨h1, h2⟩
  · generalize c.toNat = n at h1 h2
    interval_cases n <;> decide
  · generalize c.toNat = n at h1 h2
    interval_cases n <;> decide

/-- The first character of a token of several characters: a legal
character that is no whitespace and no token of a single character is a
digit, a colon or a letter. -/
theorem isLegalChar_cases (c : Char) (hlegal : isLegalChar c = true)
    (hsingle : Lexer.determineSingleCharacterTokenType c = .Unknown)
    (hspace : isWhitespace c = false) :
    isLiteralChar c = true ∨ c = ':' ∨ isAlphaChar c = true := by
  simp only [isLegalChar, Bool.or_eq_true, Bool.and_eq_true, decide_eq_true_eq] at hlegal
  rcases hlegal with ((⟨hlow, hhigh⟩ | hinit) | halpha) | hws
  · have hcases := char_between_paren_semicolon c hlow hhigh
    rcases hcases with h | h | h | h | h | h | h | h | h | h | h | h | h | h | h | h | h | h |
      h | h <;> subst h <;> first
      | exact absurd hsingle (by decide)
      | exact Or.inl (by decide)
      | exact Or.inr (Or.inl rfl)
  · subst hinit
    exact absurd hsingle (by decide)
  · exact Or.inr (Or.inr halpha)
  · rw [hspace] at hws
    exact absurd hws (by decide)

/-- The scanning loop of `Lexer::next` behind a colon: it looks at one
character only. -/
theorem Lexer.scan_colon (isLiteral : Bool) (chars : List Char) (current : Nat)
    (tokenType : TokenType) (endRef : Nat) :
    Lexer.scan isLiteral chars current ':' tokenType endRef =
      match chars with
      | [] => .finished tokenType endRef current
      | c :: _ =>
        if !isLegalChar c then .illegalCharacter current
        else if c ≠ '=' then .unknownToken current
        else .finished .Assignment current (current + 1) := by
  cases chars with
  | nil => rfl
  | cons c rest => simp only [Lexer.scan, if_true]

/-- The scanning loop of `Lexer::next` behind a letter or a digit, when it
finishes: it has read the longest run of letters (of digits, for a literal)
at the head of the characters, the character behind the run is a legal one,
and the type of the token is the one the loop started with. -/
theorem Lexer.scan_run (isLiteral : Bool) (chars : List Char) :
    ∀ (current : Nat) (lastChar : Char) (tokenType : TokenType) (endRef : Nat)
      (tokenType' : TokenType) (endRef' current' : Nat),
      lastChar ≠ ':' → endRef + 1 = current →
      Lexer.scan isLiteral chars current lastChar tokenType endRef =
        .finished tokenType' endRef' current' →
      ∃ n, n ≤ chars.length ∧
        (∀ c ∈ chars.take n,
          (if isLiteral then isLiteralChar c else isAlphaChar c) = true) ∧
        (∀ c, chars[n]? = some c →
          (if isLiteral then isLiteralChar c else isAlphaChar c) = false ∧
          isLegalChar c = true) ∧
        tokenType' = tokenType ∧ current' = current + n ∧ endRef' + 1 = current' := by
  induction chars with
  | nil =>
    intro current lastChar tokenType endRef tokenType' endRef' current' _ hend h
    simp only [Lexer.scan, ScanResult.finished.injEq] at h
    obtain ⟨rfl, rfl, rfl⟩ := h
    exact ⟨0, Nat.le_refl _, by simp, by simp, rfl, rfl, hend⟩
  | cons c rest ih =>
    intro current lastChar tokenType endRef tokenType' endRef' current' hlast hend h
    simp only [Lexer.scan, hlast, if_false] at h
    by_cases hlegal : isLegalChar c = true
    · simp only [hlegal, Bool.not_true, Bool.false_eq_true, if_false] at h
      by_cases hrun : (if isLiteral then isLiteralChar c else isAlphaChar c) = true
      · have hcolon : c ≠ ':' := by
          cases isLiteral with
          | true => exact (isLiteralChar_facts c (by simpa using hrun)).2.2.1
          | false => exact (isAlphaChar_facts c (by simpa using hrun)).2.2.1
        have hstep : Lexer.scan isLiteral rest (current + 1) c tokenType current =
            .finished tokenType' endRef' current' := by
          cases isLiteral with
          | true =>
            have hdigit : isLiteralChar c = true := by simpa using hrun
            simpa [hdigit] using h
          | false =>
            have hletter : isAlphaChar c = true := by simpa using hrun
            simpa [hletter] using h
        obtain ⟨n, hn, hall, hstop, htype, hcurrent, hendRef⟩ :=
          ih (current + 1) c tokenType current tokenType' endRef' current' hcolon rfl hstep
        refine ⟨n + 1, by simpa using hn, ?_, ?_, htype, by omega, hendRef⟩
        · intro d hd
          simp only [List.take_succ_cons, List.mem_cons] at hd
          rcases hd with rfl | hd
          · exact hrun
          · exact hall d hd
        · intro d hd
          simp only [List.getElem?_cons_succ] at hd
          exact hstop d hd
      · have hrun' : (if isLiteral then isLiteralChar c else isAlphaChar c) = false := by
          simpa using hrun
        have hdone : ScanResult.finished tokenType endRef current =
            .finished tokenType' endRef' current' := by
          cases isLiteral with
          | true =>
            have hdigit : isLiteralChar c = false := by simpa using hrun'
            simpa [hdigit] using h
          | false =>
            have hletter : isAlphaChar c = false := by simpa using hrun'
            simpa [hletter] using h
        simp only [ScanResult.finished.injEq] at hdone
        obtain ⟨rfl, rfl, rfl⟩ := hdone
        refine ⟨0, Nat.zero_le _, by simp, ?_, rfl, rfl, hend⟩
        intro d hd
        simp only [List.getElem?_cons_zero, Option.some.injEq] at hd
        subst hd
        exact ⟨hrun', hlegal⟩
    · have hillegal : isLegalChar c = false := by simpa using hlegal
      simp only [hillegal, Bool.not_false, if_true, reduceCtorEq] at h

end lexer

end pljit

namespace pljit

namespace lexer

open common

/-- The characters of a list from an index on start with the character at
this index. -/
theorem drop_eq_cons_of_getElem (l : List Char) (index : Nat) (c : Char)
    (h : l[index]? = some c) : l.drop index = c :: l.drop (index + 1) := by
  induction l generalizing index with
  | nil => simp at h
  | cons a rest ih =>
    cases index with
    | zero =>
      simp only [List.getElem?_cons_zero, Option.some.injEq] at h
      subst h
      rfl
    | succ n =>
      simp only [List.getElem?_cons_succ] at h
      simpa using ih n h

/-- The token that `Lexer::next` scans with an empty token cache, when it is
no error.  It starts at `current` with a legal character that is no
whitespace, it lies within the source code, and the lexer has moved behind
it and the whitespace that follows.  It is a token of a single character;
or a literal, the longest run of digits; or the assignment `:=`; or the
longest run of letters, a keyword or an identifier by its text; or a colon
that is the last character of the source code, returned as an identifier. -/
theorem Lexer.next_fresh (lexer lexer' : Lexer) (token : Token)
    (hcache : lexer.tokenCache = none) (h : lexer.next = .ok (token, lexer'))
    (hne : token.tokenType ≠ .LexerError) :
    ∃ first n, lexer.sourceCodeManager.sourceCode[lexer.current]? = some first ∧
      isWhitespace first = false ∧ isLegalChar first = true ∧
      token.ref = { ref := lexer.current, length := n + 1 } ∧
      lexer.current + n + 1 ≤ lexer.sourceCodeManager.sourceCode.length ∧
      lexer' = Lexer.trimLeadingWhitespace { lexer with current := lexer.current + n + 1 } ∧
      ((Lexer.determineSingleCharacterTokenType first ≠ .Unknown ∧
          token.tokenType = Lexer.determineSingleCharacterTokenType first ∧ n = 0) ∨
        (isLiteralChar first = true ∧ token.tokenType = .Literal ∧
          (∀ c ∈ (lexer.sourceCodeManager.sourceCode.drop (lexer.current + 1)).take n,
            isLiteralChar c = true) ∧
          (∀ c, lexer.sourceCodeManager.sourceCode[lexer.current + n + 1]? = some c →
            isLiteralChar c = false ∧ isLegalChar c = true)) ∨
        (first = ':' ∧
          lexer.sourceCodeManager.sourceCode[lexer.current + 1]? = some '=' ∧
          token.tokenType = .Assignment ∧ n = 1) ∨
        (isAlphaChar first = true ∧
          (∀ c ∈ (lexer.sourceCodeManager.sourceCode.drop (lexer.current + 1)).take n,
            isAlphaChar c = true) ∧
          (∀ c, lexer.sourceCodeManager.sourceCode[lexer.current + n + 1]? = some c →
            isAlphaChar c = false ∧ isLegalChar c = true) ∧
          Lexer.determineAlphaCharTokenType
            ((lexer.sourceCodeManager.sourceCode.drop lexer.current).take (n + 1)) =
              .ok token.tokenType) ∨
        (first = ':' ∧ lexer.sourceCodeManager.sourceCode[lexer.current + 1]? = none ∧
          token.tokenType = .Identifier ∧ n = 0)) := by
  unfold Lexer.next at h
  simp only [hcache] at h
  split at h
  · cases h
  split at h
  · cases h
  rename_i firstChar hfirst
  split at h
  · cases h
  rename_i hspace
  have hspace' : isWhitespace firstChar = false := by simpa using hspace
  have hlt : lexer.current < lexer.sourceCodeManager.sourceCode.length := by
    by_contra hge
    rw [List.getElem?_eq_none (Nat.le_of_not_lt hge)] at hfirst
    cases hfirst
  have herror : ∀ (l0 : Lexer) (ref : SourceRangeReference) (message : String),
      l0.cacheError ref message = .ok (token, lexer') → False := by
    intro l0 ref message hl0
    exact hne (Lexer.cacheError_spec l0 lexer' ref message token hl0).1
  split at h
  · exact (herror _ _ _ h).elim
  rename_i hlegal
  have hlegal' : isLegalChar firstChar = true := by simpa using hlegal
  split at h
  · rename_i hsingle
    split at h
    · cases h
    rename_i newToken hnew
    simp only [Except.ok.injEq, Prod.mk.injEq] at h
    obtain ⟨h1, h2⟩ := h
    subst h1
    simp only [Token.new] at hnew
    split at hnew
    · cases hnew
    simp only [Except.ok.injEq] at hnew
    subst hnew
    refine ⟨firstChar, 0, hfirst, hspace', hlegal', rfl, hlt, ?_, Or.inl ⟨hsingle, rfl, rfl⟩⟩
    rw [← h2, hcache]
  rename_i hsingle
  have hsingle' : Lexer.determineSingleCharacterTokenType firstChar = .Unknown := by
    simpa using hsingle
  split at h
  · exact (herror _ _ _ h).elim
  · exact (herror _ _ _ h).elim
  · rename_i scanned endRef current' hscan
    split at h
    · cases h
    rename_i tokenType htype
    split at h
    · cases h
    rename_i newToken hnew
    simp only [Except.ok.injEq, Prod.mk.injEq] at h
    obtain ⟨h1, h2⟩ := h
    subst h1
    simp only [Token.new] at hnew
    split at hnew
    · cases hnew
    simp only [Except.ok.injEq] at hnew
    subst hnew
    try simp only at hscan
    try simp only at htype
    have hdrop := drop_eq_cons_of_getElem _ _ _ hfirst
    have hlength : (lexer.sourceCodeManager.sourceCode.drop (lexer.current + 1)).length =
        lexer.sourceCodeManager.sourceCode.length - (lexer.current + 1) := List.length_drop _ _
    rcases isLegalChar_cases firstChar hlegal' hsingle' hspace' with hdigit | hcolon | hletter
    · -- a literal
      have hfacts := isLiteralChar_facts firstChar hdigit
      simp only [hdigit, if_true] at hscan
      obtain ⟨n, hn, hall, hstop, hty, hcurrent, hendRef⟩ :=
        Lexer.scan_run true _ _ _ _ _ _ _ _ hfacts.2.2.1 rfl hscan
      subst hty
      simp only [reduceCtorEq, if_false, Except.ok.injEq] at htype
      subst htype
      have hend : endRef = lexer.current + n := by omega
      subst hend
      refine ⟨firstChar, n, hfirst, hspace', hlegal', ?_, by omega, ?_, Or.inr (Or.inl
        ⟨hdigit, rfl, ?_, ?_⟩)⟩
      · simp only [SourceRangeReference.fromTo]
        congr 1
        omega
      · rw [← h2, hcache, hcurrent]
        simp only [Lexer.trimLeadingWhitespace, Nat.add_assoc, Nat.add_comm n 1]
      · intro c hc
        simpa using hall c hc
      · intro c hc
        have := hstop c (by
          rw [List.getElem?_drop]
          rw [← hc]
          congr 1
          omega)
        simpa using this
    · -- a colon
      subst hcolon
      rw [Lexer.scan_colon] at hscan
      cases hchars : lexer.sourceCodeManager.sourceCode.drop (lexer.current + 1) with
      | nil =>
        rw [hchars] at hscan
        simp only [ScanResult.finished.injEq] at hscan
        obtain ⟨hty, hendRef, hcurrent⟩ := hscan
        subst hendRef
        have hnone : lexer.sourceCodeManager.sourceCode[lexer.current + 1]? = none := by
          apply List.getElem?_eq_none
          rw [hchars] at hlength
          simp only [List.length_nil] at hlength
          omega
        have hnolit : isLiteralChar ':' = false := by decide
        rw [hnolit] at hty
        simp only [Bool.false_eq_true, if_false] at hty
        subst hty
        have htext : (SourceRangeReference.fromTo { ref := lexer.current }
            { ref := lexer.current }).toStringView lexer.sourceCodeManager.sourceCode =
            [':'] := by
          simp only [SourceRangeReference.toStringView, SourceRangeReference.fromTo,
            Nat.sub_self, Nat.zero_add, hdrop, hchars, List.take_succ_cons, List.take_nil]
        simp only [if_true, htext] at htype
        have hident : Lexer.determineAlphaCharTokenType [':'] = .ok .Identifier := by decide
        rw [hident] at htype
        simp only [Except.ok.injEq] at htype
        subst htype
        refine ⟨':', 0, hfirst, hspace', hlegal', ?_, hlt, ?_, Or.inr (Or.inr (Or.inr (Or.inr
          ⟨rfl, hnone, rfl, rfl⟩)))⟩
        · simp only [SourceRangeReference.fromTo, Nat.sub_self, Nat.zero_add]
        · rw [← h2, hcache, ← hcurrent]
      | cons c rest =>
        rw [hchars] at hscan
        simp only at hscan
        split at hscan
        · cases hscan
        split at hscan
        · cases hscan
        rename_i hinit
        have hinit' : c = '=' := by simpa using hinit
        subst hinit'
        simp only [ScanResult.finished.injEq] at hscan
        obtain ⟨hty, hendRef, hcurrent⟩ := hscan
        subst hty
        subst hendRef
        simp only [reduceCtorEq, if_false, Except.ok.injEq] at htype
        subst htype
        have hsome : lexer.sourceCodeManager.sourceCode[lexer.current + 1]? = some '=' := by
          have hzero : (lexer.sourceCodeManager.sourceCode.drop (lexer.current + 1))[0]? =
              lexer.sourceCodeManager.sourceCode[lexer.current + 1 + 0]? :=
            List.getElem?_drop _ _ _
          rw [hchars] at hzero
          simpa using hzero.symm
        have hlen2 : lexer.current + 1 < lexer.sourceCodeManager.sourceCode.length := by
          by_contra hge
          rw [List.getElem?_eq_none (Nat.le_of_not_lt hge)] at hsome
          cases hsome
        refine ⟨':', 1, hfirst, hspace', hlegal', ?_, by omega, ?_, Or.inr (Or.inr (Or.inl
          ⟨rfl, hsome, rfl, rfl⟩))⟩
        · simp only [SourceRangeReference.fromTo]
          congr 1
          omega
        · rw [← h2, hcache, ← hcurrent]
    · -- a run of letters
      have hfacts := isAlphaChar_facts firstChar hletter
      simp only [hfacts.2.1, Bool.false_eq_true, if_false] at hscan
      obtain ⟨n, hn, hall, hstop, hty, hcurrent, hendRef⟩ :=
        Lexer.scan_run false _ _ _ _ _ _ _ _ hfacts.2.2.1 rfl hscan
      subst hty
      have hend : endRef = lexer.current + n := by omega
      subst hend
      have hrange : SourceRangeReference.fromTo { ref := lexer.current }
          { ref := lexer.current + n } = { ref := lexer.current, length := n + 1 } := by
        simp only [SourceRangeReference.fromTo]
        congr 1
        omega
      simp only [if_true, hrange] at htype
      refine ⟨firstChar, n, hfirst, hspace', hlegal', hrange, by omega, ?_, Or.inr (Or.inr
        (Or.inr (Or.inl ⟨hletter, ?_, ?_, htype⟩)))⟩
      · rw [← h2, hcache, hcurrent]
        simp only [Lexer.trimLeadingWhitespace, Nat.add_assoc, Nat.add_comm n 1]
      · intro c hc
        simpa using hall c hc
      · intro c hc
        have := hstop c (by
          rw [List.getElem?_drop]
          rw [← hc]
          congr 1
          omega)
        simpa using this

end lexer

end pljit

namespace pljit

namespace lexer

open common

/-- With a cached token `next()` returns the cached token: an error token
stays in the cache, every other token leaves it. -/
theorem Lexer.next_of_cached (lexer : Lexer) (token : Token)
    (hcache : lexer.tokenCache = some token) :
    lexer.next =
      if token.tokenType = .LexerError then .ok (token, lexer)
      else .ok (token, { lexer with tokenCache := none }) := by
  simp only [Lexer.next, hcache]

/-- With a cached token `peek()` returns the cached token and changes
nothing. -/
theorem Lexer.peek_of_cached (lexer : Lexer) (token : Token)
    (hcache : lexer.tokenCache = some token) : lexer.peek = .ok (token, lexer) := by
  simp only [Lexer.peek, hcache]

/-- With an empty cache `peek()` calls `next()` and caches the token. -/
theorem Lexer.peek_of_empty (lexer : Lexer) (hcache : lexer.tokenCache = none) :
    (∀ fault, lexer.next = .error fault → lexer.peek = .error fault) ∧
    (∀ token lexer', lexer.next = .ok (token, lexer') →
      lexer.peek = .ok (token, { lexer' with tokenCache := some token })) := by
  constructor
  · intro fault h
    simp only [Lexer.peek, hcache, h]
  · intro token lexer' h
    simp only [Lexer.peek, hcache, h]

/-- The cache after `next()`, in every state of the lexer: an error token
that was returned is cached, and after every other token the cache is
empty. -/
theorem Lexer.next_cache (lexer lexer' : Lexer) (token : Token)
    (h : lexer.next = .ok (token, lexer')) :
    (token.tokenType = .LexerError → lexer'.tokenCache = some token) ∧
    (token.tokenType ≠ .LexerError → lexer'.tokenCache = none) := by
  cases hcache : lexer.tokenCache with
  | some cached =>
    rw [Lexer.next_of_cached lexer cached hcache] at h
    by_cases herr : cached.tokenType = .LexerError
    · rw [if_pos herr] at h
      simp only [Except.ok.injEq, Prod.mk.injEq] at h
      obtain ⟨rfl, rfl⟩ := h
      exact ⟨fun _ => hcache, fun hne => absurd herr hne⟩
    · rw [if_neg herr] at h
      simp only [Except.ok.injEq, Prod.mk.injEq] at h
      obtain ⟨rfl, rfl⟩ := h
      exact ⟨fun he => absurd he herr, fun _ => rfl⟩
  | none =>
    have hwf : lexer.WellFormed := by
      intro t ht
      rw [hcache] at ht
      cases ht
    obtain ⟨_, _, _, herr, hok⟩ := Lexer.next_spec lexer lexer' token hwf h
    exact ⟨herr, fun hne => (hok hne).2.1⟩

/-- The cache after `peek()` holds the token that was returned. -/
theorem Lexer.peek_cache (lexer lexer' : Lexer) (token : Token)
    (h : lexer.peek = .ok (token, lexer')) : lexer'.tokenCache = some token := by
  cases hcache : lexer.tokenCache with
  | some cached =>
    rw [Lexer.peek_of_cached lexer cached hcache] at h
    simp only [Except.ok.injEq, Prod.mk.injEq] at h
    obtain ⟨rfl, rfl⟩ := h
    exact hcache
  | none =>
    cases hstep : lexer.next with
    | error fault =>
      rw [(Lexer.peek_of_empty lexer hcache).1 fault hstep] at h
      cases h
    | ok result =>
      obtain ⟨token', lexer''⟩ := result
      rw [(Lexer.peek_of_empty lexer hcache).2 token' lexer'' hstep] at h
      simp only [Except.ok.injEq, Prod.mk.injEq] at h
      obtain ⟨rfl, rfl⟩ := h
      rfl

/-- With a cached error token every call of `peek()` and of `next()`
returns the error token and changes nothing, and `hasNext()` is true. -/
theorem Lexer.call_of_cached_error (lexer : Lexer) (token : Token)
    (hcache : lexer.tokenCache = some token) (herr : token.tokenType = .LexerError)
    (call : Lexer.Call) :
    Lexer.call call lexer = .ok (token, lexer) ∧ lexer.hasNext = true := by
  refine ⟨?_, by simp only [Lexer.hasNext, hcache, Option.isSome_some, Bool.or_true]⟩
  cases call with
  | peek => exact Lexer.peek_of_cached lexer token hcache
  | next =>
    simp only [Lexer.call]
    rw [Lexer.next_of_cached lexer token hcache, if_pos herr]

/-- With a cached error token every sequence of calls of `peek()` and
`next()` returns the error token at each call and changes nothing. -/
theorem Lexer.calls_of_cached_error (lexer : Lexer) (token : Token)
    (hcache : lexer.tokenCache = some token) (herr : token.tokenType = .LexerError)
    (calls : List Lexer.Call) :
    Lexer.calls calls lexer = .ok (List.replicate calls.length token, lexer) := by
  induction calls with
  | nil => rfl
  | cons call rest ih =>
    simp only [Lexer.calls, (Lexer.call_of_cached_error lexer token hcache herr call).1, ih,
      List.length_cons, List.replicate_succ]

/-- A call of `peek()` or `next()` that returns an error token leaves the
error token in the cache. -/
theorem Lexer.call_error_cached (call : Lexer.Call) (lexer lexer' : Lexer) (token : Token)
    (h : Lexer.call call lexer = .ok (token, lexer'))
    (herr : token.tokenType = .LexerError) : lexer'.tokenCache = some token := by
  cases call with
  | peek => exact Lexer.peek_cache lexer lexer' token h
  | next => exact (Lexer.next_cache lexer lexer' token h).1 herr

/-- The function `next` returns a token in every settled state of the lexer
in which `hasNext()` is true, and the state after the call is settled
again. -/
theorem Lexer.next_settled (lexer : Lexer) (hsettled : lexer.Settled)
    (hnext : lexer.hasNext = true) :
    ∃ token lexer', lexer.next = .ok (token, lexer') ∧ lexer'.Settled := by
  cases hcache : lexer.tokenCache with
  | some cached =>
    rw [Lexer.next_of_cached lexer cached hcache]
    by_cases herr : cached.tokenType = .LexerError
    · rw [if_pos herr]
      exact ⟨_, _, rfl, hsettled⟩
    · rw [if_neg herr]
      refine ⟨_, _, rfl, Or.inr ?_⟩
      rcases hsettled with ⟨token, htoken, hterr⟩ | hrests
      · rw [hcache] at htoken
        simp only [Option.some.injEq] at htoken
        subst htoken
        exact absurd hterr herr
      · exact hrests
  | none =>
    rcases hsettled with ⟨token, htoken, _⟩ | hrests
    · rw [hcache] at htoken
      cases htoken
    · obtain ⟨token, lexer', hstep, hafter⟩ :=
        Lexer.next_total lexer hcache hnext hrests.1 hrests.2
      refine ⟨token, lexer', hstep, ?_⟩
      by_cases herr : token.tokenType = .LexerError
      · exact Or.inl ⟨token, (Lexer.next_cache lexer lexer' token hstep).1 herr, herr⟩
      · exact Or.inr (hafter herr)

/-- A call of `next()` that returns leads from a settled state of the lexer
to a settled state. -/
theorem Lexer.next_preserves_settled (lexer lexer' : Lexer) (token : Token)
    (hsettled : lexer.Settled) (h : lexer.next = .ok (token, lexer')) : lexer'.Settled := by
  by_cases hnext : lexer.hasNext = true
  · obtain ⟨token', lexer'', hstep, hafter⟩ := Lexer.next_settled lexer hsettled hnext
    rw [hstep] at h
    simp only [Except.ok.injEq, Prod.mk.injEq] at h
    obtain ⟨_, rfl⟩ := h
    exact hafter
  · exfalso
    have hnext' : lexer.hasNext = false := by simpa using hnext
    have hnone : lexer.tokenCache = none := by
      cases hcache : lexer.tokenCache with
      | none => rfl
      | some cached =>
        simp only [Lexer.hasNext, hcache, Option.isSome_some, Bool.or_true,
          Bool.true_eq_false] at hnext'
    simp only [Lexer.next, hnone, hnext', Bool.not_false, if_true, reduceCtorEq] at h

/-- A call of `peek()` or `next()` that returns leads from a settled state
of the lexer to a settled state. -/
theorem Lexer.call_preserves_settled (call : Lexer.Call) (lexer lexer' : Lexer)
    (token : Token) (hsettled : lexer.Settled)
    (h : Lexer.call call lexer = .ok (token, lexer')) : lexer'.Settled := by
  cases call with
  | next => exact Lexer.next_preserves_settled lexer lexer' token hsettled h
  | peek =>
    simp only [Lexer.call] at h
    cases hcache : lexer.tokenCache with
    | some cached =>
      rw [Lexer.peek_of_cached lexer cached hcache] at h
      simp only [Except.ok.injEq, Prod.mk.injEq] at h
      obtain ⟨_, rfl⟩ := h
      exact hsettled
    | none =>
      cases hstep : lexer.next with
      | error fault =>
        rw [(Lexer.peek_of_empty lexer hcache).1 fault hstep] at h
        cases h
      | ok result =>
        obtain ⟨token', lexer''⟩ := result
        rw [(Lexer.peek_of_empty lexer hcache).2 token' lexer'' hstep] at h
        simp only [Except.ok.injEq, Prod.mk.injEq] at h
        obtain ⟨rfl, rfl⟩ := h
        have hafter := Lexer.next_preserves_settled lexer lexer'' token' hsettled hstep
        by_cases herr : token'.tokenType = .LexerError
        · exact Or.inl ⟨token', rfl, herr⟩
        · rcases hafter with ⟨cached, hcached, _⟩ | hrests
          · rw [(Lexer.next_cache lexer lexer'' token' hstep).2 herr] at hcached
            cases hcached
          · exact Or.inr hrests

/-- Calls of `peek()` and `next()` that return lead from a settled state of
the lexer to a settled state. -/
theorem Lexer.calls_preserve_settled (calls : List Lexer.Call) :
    ∀ (lexer lexer' : Lexer) (tokens : List Token), lexer.Settled →
      Lexer.calls calls lexer = .ok (tokens, lexer') → lexer'.Settled := by
  induction calls with
  | nil =>
    intro lexer lexer' tokens hsettled h
    simp only [Lexer.calls, Except.ok.injEq, Prod.mk.injEq] at h
    obtain ⟨_, rfl⟩ := h
    exact hsettled
  | cons call rest ih =>
    intro lexer lexer' tokens hsettled h
    simp only [Lexer.calls] at h
    split at h
    · cases h
    · rename_i token mid hcall
      split at h
      · cases h
      · rename_i tokens' last hrest
        simp only [Except.ok.injEq, Prod.mk.injEq] at h
        obtain ⟨_, rfl⟩ := h
        exact ih mid last tokens'
          (Lexer.call_preserves_settled call lexer mid token hsettled hcall) hrest

/-- The state of the lexer after its construction is settled. -/
theorem Lexer.new_settled (manager : SourceCodeManager) : (Lexer.new manager).Settled :=
  Or.inr (Lexer.trimLeadingWhitespace_trimmed
    { sourceCodeManager := manager, current := 0 } (Nat.zero_le _))

/-- Every state of the lexer that is reachable from its construction is
settled. -/
theorem Lexer.Reachable.settled {manager : SourceCodeManager} {lexer : Lexer}
    (h : Lexer.Reachable manager lexer) : lexer.Settled := by
  obtain ⟨calls, tokens, hcalls⟩ := h
  exact Lexer.calls_preserve_settled calls _ _ tokens (Lexer.new_settled manager) hcalls

end lexer

end pljit

namespace pljit

open common lexer

/-- C23: once a call of `peek()` or `next()` has returned an error token,
every sequence of later calls of `peek()` and `next()` returns this error
token at each call and leaves the lexer as it is, with the error token in
the cache and `hasNext()` true; this holds from every state of the lexer.
In the test `IllegalMulticharacterOperator` the calls `peek()` and `next()`
both return the error token and the diagnostic is printed once. -/
theorem C23_error_token_is_sticky (call : Lexer.Call) (lexer lexer' : Lexer) (token : Token)
    (later : List Lexer.Call)
    (hcall : Lexer.call call lexer = .ok (token, lexer'))
    (herror : token.tokenType = .LexerError) :
    Lexer.calls later lexer' = .ok (List.replicate later.length token, lexer') ∧
    lexer'.hasNext = true ∧
    lexer'.tokenCache = some token ∧
    Lexer.calls [.peek, .next] (Lexer.new { sourceCode := scenarioIllegalOperator }) =
      .ok ([scenarioIllegalOperatorToken, scenarioIllegalOperatorToken],
        scenarioIllegalOperatorLexer) := by
  have hcache := Lexer.call_error_cached call lexer lexer' token hcall herror
  exact ⟨Lexer.calls_of_cached_error lexer' token hcache herror later,
    (Lexer.call_of_cached_error lexer' token hcache herror .peek).2, hcache, by decide!⟩

/-- Witness of C23: the first call of `peek()` on the source code `?`
returns the error token, and so do the four calls after it. -/
theorem C23_error_token_is_sticky_witness :
    Lexer.calls [.next, .peek, .peek, .next]
        { sourceCodeManager :=
            { sourceCode := scenarioIllegalCharacter
              printed :=
                [{ ref := { ref := 0, length := 1 }, message := "error: illegal character" }] }
          current := 0
          tokenCache := some scenarioIllegalCharacterToken } =
      .ok (List.replicate [Lexer.Call.next, .peek, .peek, .next].length
          scenarioIllegalCharacterToken,
        { sourceCodeManager :=
            { sourceCode := scenarioIllegalCharacter
              printed :=
                [{ ref := { ref := 0, length := 1 }, message := "error: illegal character" }] }
          current := 0
          tokenCache := some scenarioIllegalCharacterToken }) ∧
    Lexer.hasNext
        { sourceCodeManager :=
            { sourceCode := scenarioIllegalCharacter
              printed :=
                [{ ref := { ref := 0, length := 1 }, message := "error: illegal character" }] }
          current := 0
          tokenCache := some scenarioIllegalCharacterToken } = true ∧
    Lexer.tokenCache
        { sourceCodeManager :=
            { sourceCode := scenarioIllegalCharacter
              printed :=
                [{ ref := { ref := 0, length := 1 }, message := "error: illegal character" }] }
          current := 0
          tokenCache := some scenarioIllegalCharacterToken } =
      some scenarioIllegalCharacterToken ∧
    Lexer.calls [.peek, .next] (Lexer.new { sourceCode := scenarioIllegalOperator }) =
      .ok ([scenarioIllegalOperatorToken, scenarioIllegalOperatorToken],
        scenarioIllegalOperatorLexer) :=
  C23_error_token_is_sticky .peek (Lexer.new { sourceCode := scenarioIllegalCharacter }) _
    scenarioIllegalCharacterToken [.next, .peek, .peek, .next] (by decide!) (by decide!)

/-- C24: in every state of the lexer that is reachable from its construction
and in which `hasNext()` is true, `peek()` returns a token, a second
`peek()` returns the same token and changes nothing, `next()` after
`peek()` returns the same token and leads to the state to which `next()`
alone leads, and after a token that is no error the cache is empty.  In the
test `Peek` each token is returned by two calls of `peek()` and by the call
of `next()` after them. -/
theorem C24_peek_is_idempotent (manager : SourceCodeManager) (lexer : Lexer)
    (hreach : Lexer.Reachable manager lexer) (hnext : lexer.hasNext = true) :
    (∃ token peeked after,
      lexer.peek = .ok (token, peeked) ∧ peeked.peek = .ok (token, peeked) ∧
      lexer.next = .ok (token, after) ∧ peeked.next = .ok (token, after) ∧
      (token.tokenType ≠ .LexerError → after.tokenCache = none)) ∧
    Lexer.calls [.peek, .peek, .next, .peek, .peek, .next]
        (Lexer.new { sourceCode := scenarioPeek }) =
      .ok ([scenarioPeekIdentifier, scenarioPeekIdentifier, scenarioPeekIdentifier,
          scenarioPeekLiteral, scenarioPeekLiteral, scenarioPeekLiteral],
        { sourceCodeManager := { sourceCode := scenarioPeek }, current := 3 }) := by
  refine ⟨?_, by decide!⟩
  obtain ⟨token, after, hstep, _⟩ := Lexer.next_settled lexer hreach.settled hnext
  have hcleared := (Lexer.next_cache lexer after token hstep).2
  cases hcache : lexer.tokenCache with
  | some cached =>
    have hpeek := Lexer.peek_of_cached lexer cached hcache
    have hsame : cached = token := by
      rw [Lexer.next_of_cached lexer cached hcache] at hstep
      by_cases herr : cached.tokenType = .LexerError
      · rw [if_pos herr] at hstep
        simp only [Except.ok.injEq, Prod.mk.injEq] at hstep
        exact hstep.1
      · rw [if_neg herr] at hstep
        simp only [Except.ok.injEq, Prod.mk.injEq] at hstep
        exact hstep.1
    subst hsame
    exact ⟨cached, lexer, after, hpeek, hpeek, hstep, hstep, hcleared⟩
  | none =>
    have hpeek := (Lexer.peek_of_empty lexer hcache).2 token after hstep
    refine ⟨token, { after with tokenCache := some token }, after, hpeek,
      Lexer.peek_of_cached _ token rfl, hstep, ?_, hcleared⟩
    rw [Lexer.next_of_cached _ token rfl]
    by_cases herr : token.tokenType = .LexerError
    · rw [if_pos herr]
      have hcached := (Lexer.next_cache lexer after token hstep).1 herr
      rw [← hcached]
    · rw [if_neg herr]
      have hempty := hcleared herr
      simp only
      rw [← hempty]

/-- Witness of C24: the lexer of the test `Peek` after its construction. -/
theorem C24_peek_is_idempotent_witness :
    (∃ token peeked after,
      (Lexer.new { sourceCode := scenarioPeek }).peek = .ok (token, peeked) ∧
      peeked.peek = .ok (token, peeked) ∧
      (Lexer.new { sourceCode := scenarioPeek }).next = .ok (token, after) ∧
      peeked.next = .ok (token, after) ∧
      (token.tokenType ≠ .LexerError → after.tokenCache = none)) ∧
    Lexer.calls [.peek, .peek, .next, .peek, .peek, .next]
        (Lexer.new { sourceCode := scenarioPeek }) =
      .ok ([scenarioPeekIdentifier, scenarioPeekIdentifier, scenarioPeekIdentifier,
          scenarioPeekLiteral, scenarioPeekLiteral, scenarioPeekLiteral],
        { sourceCodeManager := { sourceCode := scenarioPeek }, current := 3 }) :=
  C24_peek_is_idempotent { sourceCode := scenarioPeek }
    (Lexer.new { sourceCode := scenarioPeek }) ⟨[], [], rfl⟩ (by decide!)

/-- C25: in every state of the lexer that is reachable from its construction
by calls of `peek()` and `next()`, `hasNext()` is true if and only if the
token cache holds a token or a character that is no whitespace stands at or
behind the scan position; and while no error token is cached the scan
position rests on a character that is no whitespace or on the end of the
source code.  The lexer of the test `PackedParamsWithWeirdWhiteSpacing`
hands out its seven tokens and `hasNext()` is false behind the trailing
whitespace. -/
theorem C25_hasNext_iff_input_left (manager : SourceCodeManager) (lexer : Lexer)
    (hreach : Lexer.Reachable manager lexer) :
    (lexer.hasNext = true ↔
      (lexer.tokenCache.isSome = true ∨
        ∃ index c, lexer.current ≤ index ∧
          lexer.sourceCodeManager.sourceCode[index]? = some c ∧ isWhitespace c = false)) ∧
    ((∀ token, lexer.tokenCache = some token → token.tokenType ≠ .LexerError) →
      lexer.Rests) ∧
    Lexer.calls (List.replicate 7 .next) (Lexer.new { sourceCode := scenarioWhiteSpacing }) =
      .ok (scenarioWhiteSpacingTokens,
        { sourceCodeManager := { sourceCode := scenarioWhiteSpacing }, current := 23 }) ∧
    Lexer.hasNext
      { sourceCodeManager := { sourceCode := scenarioWhiteSpacing }, current := 23 } = false := by
  have hsettled := hreach.settled
  have hrests : (∀ token, lexer.tokenCache = some token → token.tokenType ≠ .LexerError) →
      lexer.Rests := by
    intro hnoerror
    rcases hsettled with ⟨token, htoken, herr⟩ | hrests
    · exact absurd herr (hnoerror token htoken)
    · exact hrests
  refine ⟨⟨?_, ?_⟩, hrests, by decide!, by decide!⟩
  · intro hnext
    cases hcache : lexer.tokenCache with
    | some cached => exact Or.inl rfl
    | none =>
      right
      have hr := hrests (fun token htoken => by rw [hcache] at htoken; cases htoken)
      have hne : lexer.current ≠ lexer.sourceCodeManager.sourceCode.length := by
        simpa [Lexer.hasNext, hcache] using hnext
      have hlt : lexer.current < lexer.sourceCodeManager.sourceCode.length :=
        Nat.lt_of_le_of_ne hr.1 hne
      exact ⟨lexer.current, _, Nat.le_refl _, List.getElem?_eq_getElem hlt,
        hr.2 _ (List.getElem?_eq_getElem hlt)⟩
  · intro h
    rcases h with hsome | ⟨index, c, hle, hc, _⟩
    · simp only [Lexer.hasNext, hsome, Bool.or_true]
    · have hlt : index < lexer.sourceCodeManager.sourceCode.length := by
        by_contra hge
        rw [List.getElem?_eq_none (Nat.le_of_not_lt hge)] at hc
        cases hc
      have hne : lexer.current ≠ lexer.sourceCodeManager.sourceCode.length := by omega
      simp [Lexer.hasNext, hne]

/-- Witness of C25: the lexer of the test `Peek` after `peek()`, `next()`
and a second `peek()`. -/
theorem C25_hasNext_iff_input_left_witness :
    (Lexer.hasNext
        { sourceCodeManager := { sourceCode := scenarioPeek }, current := 3,
          tokenCache := some scenarioPeekLiteral } = true ↔
      (Option.isSome (some scenarioPeekLiteral) = true ∨
        ∃ index c, 3 ≤ index ∧ scenarioPeek[index]? = some c ∧ isWhitespace c = false)) ∧
    ((∀ token, some scenarioPeekLiteral = some token → token.tokenType ≠ .LexerError) →
      Lexer.Rests
        { sourceCodeManager := { sourceCode := scenarioPeek }, current := 3,
          tokenCache := some scenarioPeekLiteral }) ∧
    Lexer.calls (List.replicate 7 .next) (Lexer.new { sourceCode := scenarioWhiteSpacing }) =
      .ok (scenarioWhiteSpacingTokens,
        { sourceCodeManager := { sourceCode := scenarioWhiteSpacing }, current := 23 }) ∧
    Lexer.hasNext
      { sourceCodeManager := { sourceCode := scenarioWhiteSpacing }, current := 23 } = false :=
  C25_hasNext_iff_input_left { sourceCode := scenarioPeek }
    { sourceCodeManager := { sourceCode := scenarioPeek }, current := 3,
      tokenCache := some scenarioPeekLiteral }
    ⟨[.peek, .next, .peek],
      [scenarioPeekIdentifier, scenarioPeekIdentifier, scenarioPeekLiteral], by decide!⟩

end pljit

namespace pljit

namespace lexer

open common

/-- Induction over the tokens that `next()` hands out until `hasNext()` is
false: a property of the lexer and its token sequence holds when it holds at
the end of the input and is carried over every token that is no error. -/
theorem Lexer.tokens_induction {P : Lexer → List Token → Prop}
    (hnil : ∀ lexer : Lexer, lexer.tokenCache = none → lexer.hasNext = false → P lexer [])
    (hcons : ∀ (lexer lexer' : Lexer) (token : Token) (rest : List Token),
      lexer.tokenCache = none → lexer.hasNext = true → lexer.next = .ok (token, lexer') →
      token.tokenType ≠ .LexerError → lexer'.tokenCache = none → P lexer' rest →
      P lexer (token :: rest))
    (fuel : Nat) :
    ∀ (lexer : Lexer) (tokens : List Token),
      lexer.tokenCache = none → Lexer.tokens fuel lexer = some tokens → P lexer tokens := by
  induction fuel with
  | zero =>
    intro lexer tokens _ h
    simp only [Lexer.tokens, reduceCtorEq] at h
  | succ fuel ih =>
    intro lexer tokens hcache h
    simp only [Lexer.tokens] at h
    split at h
    · rename_i hnext
      simp only [Option.some.injEq] at h
      subst h
      exact hnil lexer hcache (by simpa using hnext)
    · rename_i hnext
      split at h
      · cases h
      · rename_i token lexer' hstep
        split at h
        · cases h
        · rename_i herr
          cases hrest : Lexer.tokens fuel lexer' with
          | none => simp only [hrest, Option.map_none', reduceCtorEq] at h
          | some more =>
            simp only [hrest, Option.map_some', Option.some.injEq] at h
            subst h
            have hne : token.tokenType ≠ .LexerError := by
              intro hcontra
              apply herr
              simp only [Token.hasError, hcontra, decide_True]
            have hnone := (Lexer.next_cache lexer lexer' token hstep).2 hne
            exact hcons lexer lexer' token more hcache (by simpa using hnext) hstep hne hnone
              (ih lexer' more hnone hrest)

/-- The leading whitespace characters of a character list are whitespace. -/
theorem take_leadingWhitespace (l : List Char) :
    ∀ c ∈ l.take (leadingWhitespace l), isWhitespace c = true := by
  induction l with
  | nil => simp [leadingWhitespace]
  | cons head rest ih =>
    intro c hc
    simp only [leadingWhitespace] at hc
    split at hc
    · rename_i hhead
      simp only [List.take_succ_cons, List.mem_cons] at hc
      rcases hc with rfl | hc
      · exact hhead
      · exact ih c hc
    · simp at hc

/-- A character list from an index on: a number of characters, the
whitespace behind them, and the rest. -/
theorem drop_eq_text_gap_rest (l : List Char) (start length : Nat) :
    l.drop start =
      (l.drop start).take length ++
        ((l.drop (start + length)).take (leadingWhitespace (l.drop (start + length))) ++
          l.drop (start + length + leadingWhitespace (l.drop (start + length)))) := by
  have h1 : l.drop start = (l.drop start).take length ++ (l.drop start).drop length :=
    (List.take_append_drop _ _).symm
  have h2 : (l.drop start).drop length = l.drop (start + length) := by
    rw [List.drop_drop, Nat.add_comm]
  have h3 : l.drop (start + length) =
      (l.drop (start + length)).take (leadingWhitespace (l.drop (start + length))) ++
        (l.drop (start + length)).drop (leadingWhitespace (l.drop (start + length))) :=
    (List.take_append_drop _ _).symm
  have h4 : (l.drop (start + length)).drop (leadingWhitespace (l.drop (start + length))) =
      l.drop (start + length + leadingWhitespace (l.drop (start + length))) := by
    rw [List.drop_drop, Nat.add_comm]
  rw [h2] at h1
  rw [h4] at h3
  calc l.drop start = (l.drop start).take length ++ l.drop (start + length) := h1
    _ = _ := by rw [← h3]

/-- The tokens that `next()` hands out from a lexer without a cached token
until `hasNext()` is false, none of them an error: they lie at or behind
the scan position and within the source code, each ends before the next
starts, and the characters from the scan position on are the texts of the
tokens in turn with strings of whitespace. -/
theorem Lexer.tokens_tile (fuel : Nat) (lexer : Lexer) (tokens : List Token)
    (hcache : lexer.tokenCache = none) (h : Lexer.tokens fuel lexer = some tokens) :
    (∀ token ∈ tokens, lexer.current ≤ token.ref.ref ∧ 0 < token.ref.length ∧
      token.ref.ref + token.ref.length ≤ lexer.sourceCodeManager.sourceCode.length) ∧
    tokens.Pairwise Token.Before ∧
    ∃ gaps : List (List Char), gaps.length = tokens.length ∧
      (∀ gap ∈ gaps, ∀ c ∈ gap, isWhitespace c = true) ∧
      ∀ gap, weave (gap :: gaps)
          (tokens.map (Token.text lexer.sourceCodeManager.sourceCode)) =
        gap ++ lexer.sourceCodeManager.sourceCode.drop lexer.current := by
  refine Lexer.tokens_induction
    (P := fun lexer tokens =>
      (∀ token ∈ tokens, lexer.current ≤ token.ref.ref ∧ 0 < token.ref.length ∧
        token.ref.ref + token.ref.length ≤ lexer.sourceCodeManager.sourceCode.length) ∧
      tokens.Pairwise Token.Before ∧
      ∃ gaps : List (List Char), gaps.length = tokens.length ∧
        (∀ gap ∈ gaps, ∀ c ∈ gap, isWhitespace c = true) ∧
        ∀ gap, weave (gap :: gaps)
            (tokens.map (Token.text lexer.sourceCodeManager.sourceCode)) =
          gap ++ lexer.sourceCodeManager.sourceCode.drop lexer.current)
    ?_ ?_ fuel lexer tokens hcache h
  · intro lexer hcache hnext
    refine ⟨by simp, List.Pairwise.nil, [], rfl, by simp, ?_⟩
    intro gap
    have heq : lexer.current = lexer.sourceCodeManager.sourceCode.length := by
      simpa [Lexer.hasNext, hcache] using hnext
    simp only [List.map_nil, weave, heq, List.drop_length, List.append_nil]
  · intro lexer lexer' token rest hcache _ hstep hne _ ih
    obtain ⟨first, n, _, _, _, href, hbound, hafter, _⟩ :=
      Lexer.next_fresh lexer lexer' token hcache hstep hne
    obtain ⟨hrest, hpairwise, gaps, hlength, hspace, hweave⟩ := ih
    have hsource : lexer'.sourceCodeManager.sourceCode =
        lexer.sourceCodeManager.sourceCode := by
      rw [hafter]
      rfl
    have hcurrent : lexer'.current = lexer.current + (n + 1) +
        leadingWhitespace (lexer.sourceCodeManager.sourceCode.drop (lexer.current + (n + 1))) := by
      rw [hafter]
      simp only [Lexer.trimLeadingWhitespace, Nat.add_assoc]
    rw [hsource] at hrest hweave
    refine ⟨?_, ?_, ?_⟩
    · intro t ht
      simp only [List.mem_cons] at ht
      rcases ht with rfl | ht
      · rw [href]
        exact ⟨Nat.le_refl _, Nat.succ_pos _, by simpa [Nat.add_assoc] using hbound⟩
      · obtain ⟨h1, h2, h3⟩ := hrest t ht
        exact ⟨by omega, h2, h3⟩
    · refine List.Pairwise.cons ?_ hpairwise
      intro t ht
      obtain ⟨h1, _, _⟩ := hrest t ht
      simp only [Token.Before, href]
      omega
    · refine ⟨(lexer.sourceCodeManager.sourceCode.drop (lexer.current + (n + 1))).take
          (leadingWhitespace
            (lexer.sourceCodeManager.sourceCode.drop (lexer.current + (n + 1)))) :: gaps,
        by simp [hlength], ?_, ?_⟩
      · intro gap hgap
        simp only [List.mem_cons] at hgap
        rcases hgap with rfl | hgap
        · exact take_leadingWhitespace _
        · exact hspace gap hgap
      · intro gap
        simp only [List.map_cons, weave, hweave, Token.text, SourceRangeReference.toStringView,
          href, hcurrent]
        rw [List.append_assoc, ← drop_eq_text_gap_rest]

end lexer

end pljit

namespace pljit

open common lexer

/-- C21, as amended: on a source code that lexes without error, that is when
`next()` called while `hasNext()` is true hands out no error token, each
token ends before the next one starts, every token is a range of the source
code that is not empty, and the source code is made up of the texts of the
tokens in their order with strings of whitespace in front of the first
token, between the tokens and behind the last token.  The source code of
the test `PackedParamsWithWeirdWhiteSpacing` lexes to its seven tokens. -/
theorem C21_tokens_and_whitespace_make_up_the_source (code : List Char) (fuel : Nat)
    (tokens : List Token)
    (hlex : Lexer.tokens fuel (Lexer.new { sourceCode := code }) = some tokens) :
    tokens.Pairwise Token.Before ∧
    (∀ token ∈ tokens, 0 < token.ref.length ∧ token.ref.ref + token.ref.length ≤ code.length) ∧
    (∃ gaps : List (List Char), gaps.length = tokens.length + 1 ∧
      (∀ gap ∈ gaps, ∀ c ∈ gap, isWhitespace c = true) ∧
      weave gaps (tokens.map (Token.text code)) = code) ∧
    Lexer.tokens 8 (Lexer.new { sourceCode := scenarioWhiteSpacing }) =
      some scenarioWhiteSpacingTokens := by
  obtain ⟨hwithin, hpairwise, gaps, hlength, hspace, hweave⟩ :=
    Lexer.tokens_tile fuel (Lexer.new { sourceCode := code }) tokens rfl hlex
  refine ⟨hpairwise, fun token htoken => (hwithin token htoken).2, ?_, by decide!⟩
  refine ⟨code.take (leadingWhitespace code) :: gaps, by simp [hlength], ?_, ?_⟩
  · intro gap hgap
    simp only [List.mem_cons] at hgap
    rcases hgap with rfl | hgap
    · exact take_leadingWhitespace code
    · exact hspace gap hgap
  · have hsource : (Lexer.new { sourceCode := code }).sourceCodeManager.sourceCode = code := rfl
    have hcurrent : (Lexer.new { sourceCode := code }).current = leadingWhitespace code := by
      simp only [Lexer.new, Lexer.trimLeadingWhitespace, List.drop_zero, Nat.zero_add]
    rw [hsource] at hweave
    rw [hweave, hcurrent]
    exact List.take_append_drop _ _

/-- Witness of C21 on the source code of the test `Peek`. -/
theorem C21_tokens_and_whitespace_make_up_the_source_witness :
    [scenarioPeekIdentifier, scenarioPeekLiteral].Pairwise Token.Before ∧
    (∀ token ∈ [scenarioPeekIdentifier, scenarioPeekLiteral],
      0 < token.ref.length ∧ token.ref.ref + token.ref.length ≤ scenarioPeek.length) ∧
    (∃ gaps : List (List Char),
      gaps.length = [scenarioPeekIdentifier, scenarioPeekLiteral].length + 1 ∧
      (∀ gap ∈ gaps, ∀ c ∈ gap, isWhitespace c = true) ∧
      weave gaps ([scenarioPeekIdentifier, scenarioPeekLiteral].map (Token.text scenarioPeek)) =
        scenarioPeek) ∧
    Lexer.tokens 8 (Lexer.new { sourceCode := scenarioWhiteSpacing }) =
      some scenarioWhiteSpacingTokens :=
  C21_tokens_and_whitespace_make_up_the_source scenarioPeek 3
    [scenarioPeekIdentifier, scenarioPeekLiteral] (by decide!)

/-- Counterexample to C21 as stated, for any input: on the source code `?`
every call of `next()` returns the error token of the illegal character and
`hasNext()` stays true, so the tokens of two calls have the same range; no
token that is no error is handed out, and strings of whitespace alone do not
make up the source code. -/
theorem C21_tokens_of_an_illegal_character_repeat :
    Lexer.calls [.next, .next] (Lexer.new { sourceCode := scenarioIllegalCharacter }) =
      .ok ([scenarioIllegalCharacterToken, scenarioIllegalCharacterToken],
        { sourceCodeManager :=
            { sourceCode := scenarioIllegalCharacter
              printed :=
                [{ ref := { ref := 0, length := 1 }, message := "error: illegal character" }] }
          current := 0
          tokenCache := some scenarioIllegalCharacterToken }) ∧
    Lexer.hasNext
      { sourceCodeManager :=
          { sourceCode := scenarioIllegalCharacter
            printed :=
              [{ ref := { ref := 0, length := 1 }, message := "error: illegal character" }] }
        current := 0
        tokenCache := some scenarioIllegalCharacterToken } = true ∧
    ¬ [scenarioIllegalCharacterToken, scenarioIllegalCharacterToken].Pairwise Token.Before ∧
    ¬ ∃ gaps : List (List Char), (∀ gap ∈ gaps, ∀ c ∈ gap, isWhitespace c = true) ∧
      weave gaps [] = scenarioIllegalCharacter := by
  refine ⟨by decide!, by decide!, by decide, ?_⟩
  rintro ⟨gaps, hspace, hweave⟩
  cases gaps with
  | nil => exact absurd hweave (by decide)
  | cons gap rest =>
    simp only [weave] at hweave
    have hmem : '?' ∈ gap := by
      rw [hweave]
      decide
    exact absurd (hspace gap (List.mem_cons_self _ _) '?' hmem) (by decide)

end pljit

namespace pljit

open common lexer

/-- C22, as amended: when `next()` scans a token that starts with `:` and a
character follows the colon, it returns the assignment token over `:=` if
this character is `=`; an error token over the colon and the character,
with the diagnostic of an unknown multi-character token, if it is another
legal character; and an error token over the character alone, with the
diagnostic of an illegal character, if it is no legal character.  In the
test `IllegalMulticharacterOperator` the error token spans `:+`. -/
theorem C22_colon_starts_assignment_or_error (lexer : Lexer) (second : Char)
    (hcache : lexer.tokenCache = none)
    (hfirst : lexer.sourceCodeManager.sourceCode[lexer.current]? = some ':')
    (hsecond : lexer.sourceCodeManager.sourceCode[lexer.current + 1]? = some second) :
    (second = '=' →
      lexer.next =
        .ok ({ tokenType := .Assignment, ref := { ref := lexer.current, length := 2 } },
          Lexer.trimLeadingWhitespace { lexer with current := lexer.current + 2 })) ∧
    (second ≠ '=' → isLegalChar second = true →
      lexer.next =
        .ok ({ tokenType := .LexerError, ref := { ref := lexer.current, length := 2 } },
          { sourceCodeManager :=
              lexer.sourceCodeManager.printContext { ref := lexer.current, length := 2 }
                "error: unknown multi-character token"
            current := lexer.current + 1
            tokenCache :=
              some { tokenType := .LexerError,
                     ref := { ref := lexer.current, length := 2 } } })) ∧
    (isLegalChar second = false →
      lexer.next =
        .ok ({ tokenType := .LexerError, ref := { ref := lexer.current + 1, length := 1 } },
          { sourceCodeManager :=
              lexer.sourceCodeManager.printContext { ref := lexer.current + 1, length := 1 }
                "error: illegal character"
            current := lexer.current + 1
            tokenCache :=
              some { tokenType := .LexerError,
                     ref := { ref := lexer.current + 1, length := 1 } } })) ∧
    (Lexer.new { sourceCode := scenarioIllegalOperator }).next =
      .ok (scenarioIllegalOperatorToken, scenarioIllegalOperatorLexer) := by
  have hlt : lexer.current < lexer.sourceCodeManager.sourceCode.length := by
    by_contra hge
    rw [List.getElem?_eq_none (Nat.le_of_not_lt hge)] at hfirst
    cases hfirst
  have hnext : lexer.hasNext = true := by
    have hne : lexer.current ≠ lexer.sourceCodeManager.sourceCode.length := by omega
    simp [Lexer.hasNext, hne]
  have hdrop := drop_eq_cons_of_getElem _ _ _ hsecond
  have hspace : isWhitespace ':' = false := by decide
  have hlegal : isLegalChar ':' = true := by decide
  have hsingle : Lexer.determineSingleCharacterTokenType ':' = .Unknown := by decide
  have hliteral : isLiteralChar ':' = false := by decide
  have hrange : SourceRangeReference.fromTo { ref := lexer.current }
      { ref := lexer.current + 1 } = { ref := lexer.current, length := 2 } := by
    simp only [SourceRangeReference.fromTo]
    congr 1
    omega
  refine ⟨?_, ?_, ?_, by decide!⟩
  · intro hinit
    subst hinit
    have hinit : isLegalChar '=' = true := by decide
    simp only [Lexer.next, hcache, hnext, hfirst, hspace, hlegal, hsingle, hliteral,
      Lexer.scan_colon, hdrop, hinit, Bool.not_true, Bool.false_eq_true, if_false, ne_eq,
      not_true_eq_false, reduceCtorEq, hrange, Token.new, Bool.not_false, if_true]
  · intro hne hlegal'
    simp only [Lexer.next, hcache, hnext, hfirst, hspace, hlegal, hsingle, hliteral,
      Lexer.scan_colon, hdrop, hlegal', Bool.not_true, Bool.false_eq_true, if_false, ne_eq,
      hne, not_false_eq_true, not_true_eq_false, reduceCtorEq, hrange, Token.new,
      Bool.not_false, if_true, Lexer.cacheError]
  · intro hillegal
    simp only [Lexer.next, hcache, hnext, hfirst, hspace, hlegal, hsingle, hliteral,
      Lexer.scan_colon, hdrop, hillegal, Bool.not_true, Bool.false_eq_true, if_false, ne_eq,
      not_false_eq_true, not_true_eq_false, reduceCtorEq, Token.new,
      Bool.not_false, if_true, Lexer.cacheError, SourceRangeReference.ofLocation]

/-- Witness of C22: the lexer on the source code `x:=1` after the
identifier. -/
theorem C22_colon_starts_assignment_or_error_witness :
    ('=' = '=' →
      Lexer.next { sourceCodeManager := { sourceCode := "x:=1".toList }, current := 1 } =
        .ok ({ tokenType := .Assignment, ref := { ref := 1, length := 2 } },
          Lexer.trimLeadingWhitespace
            { sourceCodeManager := { sourceCode := "x:=1".toList }, current := 1 + 2 })) ∧
    ('=' ≠ '=' → isLegalChar '=' = true →
      Lexer.next { sourceCodeManager := { sourceCode := "x:=1".toList }, current := 1 } =
        .ok ({ tokenType := .LexerError, ref := { ref := 1, length := 2 } },
          { sourceCodeManager :=
              SourceCodeManager.printContext { sourceCode := "x:=1".toList }
                { ref := 1, length := 2 } "error: unknown multi-character token"
            current := 1 + 1
            tokenCache :=
              some { tokenType := .LexerError, ref := { ref := 1, length := 2 } } })) ∧
    (isLegalChar '=' = false →
      Lexer.next { sourceCodeManager := { sourceCode := "x:=1".toList }, current := 1 } =
        .ok ({ tokenType := .LexerError, ref := { ref := 1 + 1, length := 1 } },
          { sourceCodeManager :=
              SourceCodeManager.printContext { sourceCode := "x:=1".toList }
                { ref := 1 + 1, length := 1 } "error: illegal character"
            current := 1 + 1
            tokenCache :=
              some { tokenType := .LexerError, ref := { ref := 1 + 1, length := 1 } } })) ∧
    (Lexer.new { sourceCode := scenarioIllegalOperator }).next =
      .ok (scenarioIllegalOperatorToken, scenarioIllegalOperatorLexer) :=
  C22_colon_starts_assignment_or_error
    { sourceCodeManager := { sourceCode := "x:=1".toList }, current := 1 } '='
    rfl (by decide) (by decide)

/-- Counterexample to C22 as stated: behind a colon an illegal character
gives the error token of an illegal character, over this character alone
and not over the colon; and a colon that is the last character of the
source code is returned as an identifier, with no diagnostic. -/
theorem C22_colon_without_unknown_token_error :
    (Lexer.new { sourceCode := scenarioColonIllegal }).next =
      .ok ({ tokenType := .LexerError, ref := { ref := 1, length := 1 } },
        { sourceCodeManager :=
            { sourceCode := scenarioColonIllegal
              printed :=
                [{ ref := { ref := 1, length := 1 }, message := "error: illegal character" }] }
          current := 1
          tokenCache := some { tokenType := .LexerError, ref := { ref := 1, length := 1 } } }) ∧
    Lexer.calls [.next, .next] (Lexer.new { sourceCode := scenarioColonLast }) =
      .ok ([{ tokenType := .Identifier, ref := { ref := 0, length := 1 } },
          { tokenType := .Identifier, ref := { ref := 1, length := 1 } }],
        { sourceCodeManager := { sourceCode := scenarioColonLast }, current := 2 }) := by
  exact ⟨by decide!, by decide!⟩

end pljit

namespace pljit

namespace lexer

open common

/-- A whitespace character is no letter and no digit. -/
theorem isWhitespace_facts (c : Char) (h : isWhitespace c = true) :
    isAlphaChar c = false ∧ isLiteralChar c = false := by
  constructor
  · by_contra hletter
    have hfacts := isAlphaChar_facts c (by simpa using hletter)
    rw [hfacts.2.2.2.1] at h
    cases h
  · by_contra hdigit
    have hfacts := isLiteralChar_facts c (by simpa using hdigit)
    rw [hfacts.2.2.2.1] at h
    cases h

/-- The position behind the leading whitespace of the characters from an
index on, when there is such whitespace, lies behind a whitespace
character. -/
theorem separates_behind_whitespace (sourceCode : List Char) (start : Nat)
    (hpos : 0 < leadingWhitespace (sourceCode.drop start)) :
    Separates sourceCode (start + leadingWhitespace (sourceCode.drop start)) := by
  intro c d _ hc _
  obtain ⟨c', hc', hspace⟩ := (leadingWhitespace_spec (sourceCode.drop start)).2
    (leadingWhitespace (sourceCode.drop start) - 1) (by omega)
  rw [List.getElem?_drop] at hc'
  have hindex : start + (leadingWhitespace (sourceCode.drop start) - 1) =
      start + leadingWhitespace (sourceCode.drop start) - 1 := by omega
  rw [hindex, hc] at hc'
  simp only [Option.some.injEq] at hc'
  subst hc'
  have hfacts := isWhitespace_facts c hspace
  refine ⟨fun h => ?_, fun h => ?_⟩
  · rw [hfacts.1] at h
    cases h
  · rw [hfacts.2] at h
    cases h

/-- The last character of a run: when the first character of the characters
from an index on and the `n` characters behind it pass a test, the character
`n` places behind the index passes it. -/
theorem run_last (p : Char → Bool) (sourceCode : List Char) (start n : Nat) (first c : Char)
    (hfirst : sourceCode[start]? = some first) (hp : p first = true)
    (hall : ∀ x ∈ (sourceCode.drop (start + 1)).take n, p x = true)
    (hc : sourceCode[start + n]? = some c) : p c = true := by
  cases n with
  | zero =>
    rw [Nat.add_zero, hfirst] at hc
    simp only [Option.some.injEq] at hc
    subst hc
    exact hp
  | succ m =>
    apply hall
    have hget : ((sourceCode.drop (start + 1)).take (m + 1))[m]? = some c := by
      rw [List.getElem?_take_of_lt (Nat.lt_succ_self m), List.getElem?_drop, ← hc]
      congr 1
      omega
    exact List.getElem?_mem hget

/-- The scan position behind a token that `Lexer::next` scanned with an
empty token cache lies neither within a run of letters nor within a run of
digits. -/
theorem Lexer.next_separates (lexer lexer' : Lexer) (token : Token)
    (hcache : lexer.tokenCache = none) (h : lexer.next = .ok (token, lexer'))
    (hne : token.tokenType ≠ .LexerError) :
    Separates lexer.sourceCodeManager.sourceCode lexer'.current := by
  obtain ⟨first, n, hfirst, _, _, _, hbound, hafter, hkind⟩ :=
    Lexer.next_fresh lexer lexer' token hcache h hne
  have hcurrent : lexer'.current = lexer.current + n + 1 +
      leadingWhitespace (lexer.sourceCodeManager.sourceCode.drop (lexer.current + n + 1)) := by
    rw [hafter]
    rfl
  rw [hcurrent]
  by_cases hgap : 0 < leadingWhitespace
      (lexer.sourceCodeManager.sourceCode.drop (lexer.current + n + 1))
  · exact separates_behind_whitespace _ _ hgap
  · have hzero : leadingWhitespace
        (lexer.sourceCodeManager.sourceCode.drop (lexer.current + n + 1)) = 0 := by omega
    rw [hzero, Nat.add_zero]
    intro c d _ hc hd
    have hc' : lexer.sourceCodeManager.sourceCode[lexer.current + n]? = some c := by
      rw [← hc]
      congr 1
    rcases hkind with ⟨hsingle, _, hn⟩ | ⟨hdigit, _, hall, hstop⟩ |
      ⟨hcolon, hinit, _, hn⟩ | ⟨hletter, hall, hstop, _⟩ | ⟨hcolon, _, _, hn⟩
    · subst hn
      rw [Nat.add_zero, hfirst] at hc'
      simp only [Option.some.injEq] at hc'
      subst hc'
      refine ⟨fun hl => ?_, fun hl => ?_⟩
      · exact absurd (isAlphaChar_facts first hl).2.2.2.2 hsingle
      · exact absurd (isLiteralChar_facts first hl).2.2.2.2 hsingle
    · have hlast := run_last isLiteralChar _ _ n first c hfirst hdigit hall hc'
      refine ⟨fun hl => ?_, fun _ => (hstop d hd).1⟩
      rw [(isLiteralChar_facts c hlast).2.1] at hl
      cases hl
    · subst hn
      rw [hinit] at hc'
      simp only [Option.some.injEq] at hc'
      subst hc'
      exact ⟨fun hl => absurd hl (by decide), fun hl => absurd hl (by decide)⟩
    · have hlast := run_last isAlphaChar _ _ n first c hfirst hletter hall hc'
      refine ⟨fun _ => (hstop d hd).1, fun hl => ?_⟩
      rw [(isAlphaChar_facts c hlast).2.1] at hl
      cases hl
    · subst hn
      subst hcolon
      rw [Nat.add_zero, hfirst] at hc'
      simp only [Option.some.injEq] at hc'
      subst hc'
      exact ⟨fun hl => absurd hl (by decide), fun hl => absurd hl (by decide)⟩

/-- The tokens that `next()` hands out from a lexer without a cached token
until `hasNext()` is false, none of them an error, when the scan position
lies neither within a run of letters nor within a run of digits: no token
starts within such a run. -/
theorem Lexer.tokens_separated (fuel : Nat) (lexer : Lexer) (tokens : List Token)
    (hcache : lexer.tokenCache = none) (h : Lexer.tokens fuel lexer = some tokens) :
    Separates lexer.sourceCodeManager.sourceCode lexer.current →
    ∀ token ∈ tokens, Separates lexer.sourceCodeManager.sourceCode token.ref.ref := by
  refine Lexer.tokens_induction
    (P := fun lexer tokens =>
      Separates lexer.sourceCodeManager.sourceCode lexer.current →
      ∀ token ∈ tokens, Separates lexer.sourceCodeManager.sourceCode token.ref.ref)
    ?_ ?_ fuel lexer tokens hcache h
  · intro lexer _ _ _ token htoken
    cases htoken
  · intro lexer lexer' token rest hcache _ hstep hne _ ih hseparates t ht
    obtain ⟨first, n, _, _, _, href, _, hafter, _⟩ :=
      Lexer.next_fresh lexer lexer' token hcache hstep hne
    have hsource : lexer'.sourceCodeManager.sourceCode =
        lexer.sourceCodeManager.sourceCode := by
      rw [hafter]
      rfl
    simp only [List.mem_cons] at ht
    rcases ht with rfl | ht
    · rw [href]
      exact hseparates
    · have hnext := Lexer.next_separates lexer lexer' token hcache hstep hne
      rw [← hsource] at hnext ⊢
      exact ih hnext t ht

/-- The scan position of the lexer after its construction lies neither
within a run of letters nor within a run of digits. -/
theorem Lexer.new_separates (code : List Char) :
    Separates code (Lexer.new { sourceCode := code }).current := by
  have hcurrent : (Lexer.new { sourceCode := code }).current =
      0 + leadingWhitespace (code.drop 0) := rfl
  rw [hcurrent]
  by_cases hgap : 0 < leadingWhitespace (code.drop 0)
  · exact separates_behind_whitespace code 0 hgap
  · intro c d hpos _ _
    omega

/-- The first character of a token whose text is not empty stands at the
start of the token and belongs to the text. -/
theorem Token.first_of_text (sourceCode : List Char) (token : Token)
    (h : token.text sourceCode ≠ []) :
    ∃ d, sourceCode[token.ref.ref]? = some d ∧ d ∈ token.text sourceCode := by
  cases htext : token.text sourceCode with
  | nil => exact absurd htext h
  | cons d rest =>
    refine ⟨d, ?_, List.mem_cons_self _ _⟩
    have hzero : (token.text sourceCode)[0]? = some d := by
      rw [htext]
      exact List.getElem?_cons_zero
    simp only [Token.text, SourceRangeReference.toStringView] at hzero
    have hpos : 0 < token.ref.length := by
      by_contra hle
      have hlen : token.ref.length = 0 := by omega
      rw [hlen, List.take_zero] at hzero
      cases hzero
    rw [List.getElem?_take_of_lt hpos, List.getElem?_drop, Nat.add_zero] at hzero
    exact hzero

/-- A token that does not start within a run of letters or of digits and
whose text is a run of letters is not preceded by a letter; one whose text
is a run of digits is not preceded by a digit. -/
theorem Token.preceding_of_separates (sourceCode : List Char) (token : Token)
    (hseparates : Separates sourceCode token.ref.ref)
    (hne : token.text sourceCode ≠ []) :
    ((∀ c ∈ token.text sourceCode, isAlphaChar c = true) →
      ∀ c, token.preceding sourceCode = some c → isAlphaChar c = false) ∧
    ((∀ c ∈ token.text sourceCode, isLiteralChar c = true) →
      ∀ c, token.preceding sourceCode = some c → isLiteralChar c = false) := by
  obtain ⟨d, hd, hmem⟩ := Token.first_of_text sourceCode token hne
  have hbefore : ∀ c, token.preceding sourceCode = some c →
      0 < token.ref.ref ∧ sourceCode[token.ref.ref - 1]? = some c := by
    intro c hc
    simp only [Token.preceding] at hc
    split at hc
    · cases hc
    · exact ⟨by omega, hc⟩
  constructor
  · intro hall c hc
    obtain ⟨hpos, hget⟩ := hbefore c hc
    by_contra hletter
    have := (hseparates c d hpos hget hd).1 (by simpa using hletter)
    rw [hall d hmem] at this
    cases this
  · intro hall c hc
    obtain ⟨hpos, hget⟩ := hbefore c hc
    by_contra hdigit
    have := (hseparates c d hpos hget hd).2 (by simpa using hdigit)
    rw [hall d hmem] at this
    cases this

end lexer

end pljit

namespace pljit

namespace lexer

open common

/-- The type that `determineAlphaCharTokenType` returns for a text: the
text is not empty, the type is the type of a keyword or `Identifier`, and it
is the type of a keyword exactly when the text is this keyword. -/
theorem Lexer.determineAlphaCharTokenType_exact (codeString : List Char)
    (tokenType : TokenType)
    (h : Lexer.determineAlphaCharTokenType codeString = .ok tokenType) :
    codeString ≠ [] ∧ tokenType.isWord = true ∧
    (tokenType = .Param ↔ codeString = "PARAM".toList) ∧
    (tokenType = .Var ↔ codeString = "VAR".toList) ∧
    (tokenType = .Const ↔ codeString = "CONST".toList) ∧
    (tokenType = .Begin ↔ codeString = "BEGIN".toList) ∧
    (tokenType = .End ↔ codeString = "END".toList) ∧
    (tokenType = .Return ↔ codeString = "RETURN".toList) := by
  unfold Lexer.determineAlphaCharTokenType at h
  by_cases h0 : codeString.isEmpty = true
  · rw [if_pos h0] at h
    cases h
  rw [if_neg h0] at h
  have hne : codeString ≠ [] := by
    intro hnil
    apply h0
    rw [hnil]
    rfl
  refine ⟨hne, ?_⟩
  by_cases h1 : codeString = "PARAM".toList
  · rw [if_pos h1] at h
    cases h
    subst h1
    decide
  rw [if_neg h1] at h
  by_cases h2 : codeString = "VAR".toList
  · rw [if_pos h2] at h
    cases h
    subst h2
    decide
  rw [if_neg h2] at h
  by_cases h3 : codeString = "CONST".toList
  · rw [if_pos h3] at h
    cases h
    subst h3
    decide
  rw [if_neg h3] at h
  by_cases h4 : codeString = "BEGIN".toList
  · rw [if_pos h4] at h
    cases h
    subst h4
    decide
  rw [if_neg h4] at h
  by_cases h5 : codeString = "END".toList
  · rw [if_pos h5] at h
    cases h
    subst h5
    decide
  rw [if_neg h5] at h
  by_cases h6 : codeString = "RETURN".toList
  · rw [if_pos h6] at h
    cases h
    subst h6
    decide
  rw [if_neg h6] at h
  cases h
  have hfalse : ∀ keyword : List Char, ∀ other : TokenType, other ≠ .Identifier →
      codeString ≠ keyword → (TokenType.Identifier = other ↔ codeString = keyword) := by
    intro keyword other hother hkeyword
    exact ⟨fun heq => absurd heq.symm hother, fun heq => absurd heq hkeyword⟩
  exact ⟨rfl, hfalse _ _ (by decide) h1, hfalse _ _ (by decide) h2, hfalse _ _ (by decide) h3,
    hfalse _ _ (by decide) h4, hfalse _ _ (by decide) h5, hfalse _ _ (by decide) h6⟩

/-- The type of a token of a single character is no literal and no type of
a keyword or an identifier. -/
theorem Lexer.determineSingleCharacterTokenType_kind (c : Char) :
    Lexer.determineSingleCharacterTokenType c ≠ .Literal ∧
    (Lexer.determineSingleCharacterTokenType c).isWord = false := by
  unfold Lexer.determineSingleCharacterTokenType
  by_cases h1 : c = ','
  · rw [if_pos h1]; decide
  rw [if_neg h1]
  by_cases h2 : c = ';'
  · rw [if_pos h2]; decide
  rw [if_neg h2]
  by_cases h3 : c = '='
  · rw [if_pos h3]; decide
  rw [if_neg h3]
  by_cases h4 : c = '('
  · rw [if_pos h4]; decide
  rw [if_neg h4]
  by_cases h5 : c = ')'
  · rw [if_pos h5]; decide
  rw [if_neg h5]
  by_cases h6 : c = '.'
  · rw [if_pos h6]; decide
  rw [if_neg h6]
  by_cases h7 : c = '+'
  · rw [if_pos h7]; decide
  rw [if_neg h7]
  by_cases h8 : c = '-'
  · rw [if_pos h8]; decide
  rw [if_neg h8]
  by_cases h9 : c = '*'
  · rw [if_pos h9]; decide
  rw [if_neg h9]
  by_cases h10 : c = '/'
  · rw [if_pos h10]; decide
  rw [if_neg h10]
  decide

/-- The literals, keywords and identifiers among the tokens that `next()`
hands out from a lexer without a cached token until `hasNext()` is false,
none of them an error.  A literal is a run of digits that is not empty and
that no digit follows.  A keyword or an identifier is a run of letters that
is not empty and that no letter follows, with the type that
`determineAlphaCharTokenType` gives to its text; or it is a colon that is
the last character of the source code, with the type `Identifier`. -/
theorem Lexer.tokens_runs (fuel : Nat) (lexer : Lexer) (tokens : List Token)
    (hcache : lexer.tokenCache = none) (h : Lexer.tokens fuel lexer = some tokens) :
    ∀ token ∈ tokens,
      (token.tokenType = .Literal →
        token.text lexer.sourceCodeManager.sourceCode ≠ [] ∧
        (∀ c ∈ token.text lexer.sourceCodeManager.sourceCode, isLiteralChar c = true) ∧
        ∀ c, token.following lexer.sourceCodeManager.sourceCode = some c →
          isLiteralChar c = false) ∧
      (token.tokenType.isWord = true →
        (token.text lexer.sourceCodeManager.sourceCode ≠ [] ∧
          (∀ c ∈ token.text lexer.sourceCodeManager.sourceCode, isAlphaChar c = true) ∧
          (∀ c, token.following lexer.sourceCodeManager.sourceCode = some c →
            isAlphaChar c = false) ∧
          Lexer.determineAlphaCharTokenType
            (token.text lexer.sourceCodeManager.sourceCode) = .ok token.tokenType) ∨
        (token.text lexer.sourceCodeManager.sourceCode = [':'] ∧
          token.following lexer.sourceCodeManager.sourceCode = none ∧
          token.tokenType = .Identifier)) := by
  refine Lexer.tokens_induction
    (P := fun lexer tokens => ∀ token ∈ tokens,
      (token.tokenType = .Literal →
        token.text lexer.sourceCodeManager.sourceCode ≠ [] ∧
        (∀ c ∈ token.text lexer.sourceCodeManager.sourceCode, isLiteralChar c = true) ∧
        ∀ c, token.following lexer.sourceCodeManager.sourceCode = some c →
          isLiteralChar c = false) ∧
      (token.tokenType.isWord = true →
        (token.text lexer.sourceCodeManager.sourceCode ≠ [] ∧
          (∀ c ∈ token.text lexer.sourceCodeManager.sourceCode, isAlphaChar c = true) ∧
          (∀ c, token.following lexer.sourceCodeManager.sourceCode = some c →
            isAlphaChar c = false) ∧
          Lexer.determineAlphaCharTokenType
            (token.text lexer.sourceCodeManager.sourceCode) = .ok token.tokenType) ∨
        (token.text lexer.sourceCodeManager.sourceCode = [':'] ∧
          token.following lexer.sourceCodeManager.sourceCode = none ∧
          token.tokenType = .Identifier)))
    ?_ ?_ fuel lexer tokens hcache h
  · intro lexer _ _ token htoken
    cases htoken
  · intro lexer lexer' token rest hcache _ hstep hne _ ih t ht
    obtain ⟨first, n, hfirst, _, _, href, hbound, hafter, hkind⟩ :=
      Lexer.next_fresh lexer lexer' token hcache hstep hne
    have hsource : lexer'.sourceCodeManager.sourceCode =
        lexer.sourceCodeManager.sourceCode := by
      rw [hafter]
      rfl
    simp only [List.mem_cons] at ht
    rcases ht with rfl | ht
    swap
    · rw [← hsource]
      exact ih t ht
    have hdrop := drop_eq_cons_of_getElem _ _ _ hfirst
    have htext : t.text lexer.sourceCodeManager.sourceCode =
        first :: (lexer.sourceCodeManager.sourceCode.drop (lexer.current + 1)).take n := by
      simp only [Token.text, SourceRangeReference.toStringView, href, hdrop,
        List.take_succ_cons]
    have hfollowing : t.following lexer.sourceCodeManager.sourceCode =
        lexer.sourceCodeManager.sourceCode[lexer.current + n + 1]? := by
      simp only [Token.following, href, Nat.add_assoc]
    rcases hkind with ⟨hsingle, htype, _⟩ | ⟨hdigit, htype, hall, hstop⟩ |
      ⟨_, _, htype, _⟩ | ⟨hletter, hall, hstop, htype⟩ | ⟨hcolon, hnone, htype, hn⟩
    · have hkind := Lexer.determineSingleCharacterTokenType_kind first
      rw [← htype] at hkind
      refine ⟨fun hlit => absurd hlit hkind.1, ?_⟩
      intro hword
      rw [hkind.2] at hword
      cases hword
    · have hnoword : t.tokenType.isWord = false := by
        rw [htype]
        rfl
      refine ⟨fun _ => ⟨by rw [htext]; exact List.cons_ne_nil _ _, ?_, ?_⟩, ?_⟩
      · intro c hc
        rw [htext] at hc
        simp only [List.mem_cons] at hc
        rcases hc with rfl | hc
        · exact hdigit
        · exact hall c hc
      · intro c hc
        rw [hfollowing] at hc
        exact (hstop c hc).1
      · intro hword
        rw [hnoword] at hword
        cases hword
    · have hnoliteral : t.tokenType ≠ .Literal := by
        rw [htype]
        decide
      have hnoword : t.tokenType.isWord = false := by
        rw [htype]
        rfl
      refine ⟨fun hlit => absurd hlit hnoliteral, ?_⟩
      intro hword
      rw [hnoword] at hword
      cases hword
    · have hexact := Lexer.determineAlphaCharTokenType_exact _ _ htype
      have htext' : (lexer.sourceCodeManager.sourceCode.drop lexer.current).take (n + 1) =
          t.text lexer.sourceCodeManager.sourceCode := by
        simp only [Token.text, SourceRangeReference.toStringView, href]
      rw [htext'] at htype
      have hnoliteral : t.tokenType ≠ .Literal := by
        intro hlit
        rw [hlit] at hexact
        exact absurd hexact.2.1 (by decide)
      refine ⟨fun hlit => absurd hlit hnoliteral,
        fun _ => Or.inl ⟨by rw [htext]; exact List.cons_ne_nil _ _, ?_, ?_, htype⟩⟩
      · intro c hc
        rw [htext] at hc
        simp only [List.mem_cons] at hc
        rcases hc with rfl | hc
        · exact hletter
        · exact hall c hc
      · intro c hc
        rw [hfollowing] at hc
        exact (hstop c hc).1
    · subst hn
      subst hcolon
      have hnoliteral : t.tokenType ≠ .Literal := by
        rw [htype]
        decide
      refine ⟨fun hlit => absurd hlit hnoliteral,
        fun _ => Or.inr ⟨by rw [htext]; rfl, by rw [hfollowing]; exact hnone, htype⟩⟩

end lexer

open common lexer

/-- C26: the literals, keywords and identifiers of a source code that lexes
without error.  A literal is a run of digits that is not empty and that no
digit precedes or follows.  A keyword or an identifier is a run of letters
that is not empty and that no letter precedes or follows, and its type is
the type of a keyword exactly when its text is this keyword; the single
exception, where the code departs from the claim, is a colon that is the
last character of the source code, which `next()` returns as an identifier.
The source code `abc1234RETURN5678` lexes to an identifier, a literal, the
keyword and a literal; `PARAMa` lexes to one identifier; and `x:` lexes to
the identifier `x` and an identifier whose text is the colon, which is no
letter. -/
theorem C26_letter_and_digit_runs (code : List Char) (fuel : Nat) (tokens : List Token)
    (token : Token)
    (hlex : Lexer.tokens fuel (Lexer.new { sourceCode := code }) = some tokens)
    (hmem : token ∈ tokens) :
    (token.tokenType = .Literal →
      token.text code ≠ [] ∧ (∀ c ∈ token.text code, isLiteralChar c = true) ∧
      (∀ c, token.preceding code = some c → isLiteralChar c = false) ∧
      ∀ c, token.following code = some c → isLiteralChar c = false) ∧
    (token.tokenType.isWord = true →
      (token.text code ≠ [] ∧ (∀ c ∈ token.text code, isAlphaChar c = true) ∧
        (∀ c, token.preceding code = some c → isAlphaChar c = false) ∧
        (∀ c, token.following code = some c → isAlphaChar c = false) ∧
        (token.tokenType = .Param ↔ token.text code = "PARAM".toList) ∧
        (token.tokenType = .Var ↔ token.text code = "VAR".toList) ∧
        (token.tokenType = .Const ↔ token.text code = "CONST".toList) ∧
        (token.tokenType = .Begin ↔ token.text code = "BEGIN".toList) ∧
        (token.tokenType = .End ↔ token.text code = "END".toList) ∧
        (token.tokenType = .Return ↔ token.text code = "RETURN".toList)) ∨
      (token.text code = [':'] ∧ token.following code = none ∧
        token.tokenType = .Identifier)) ∧
    Lexer.tokens 5 (Lexer.new { sourceCode := scenarioMix }) = some scenarioMixTokens ∧
    Lexer.tokens 2 (Lexer.new { sourceCode := scenarioParamLetter }) =
      some [{ tokenType := .Identifier, ref := { ref := 0, length := 6 } }] ∧
    Lexer.tokens 3 (Lexer.new { sourceCode := scenarioColonLast }) =
      some [{ tokenType := .Identifier, ref := { ref := 0, length := 1 } },
        { tokenType := .Identifier, ref := { ref := 1, length := 1 } }] ∧
    Token.text scenarioColonLast { tokenType := .Identifier, ref := { ref := 1, length := 1 } } =
      [':'] ∧
    isAlphaChar ':' = false := by
  obtain ⟨hliteral, hword⟩ :=
    Lexer.tokens_runs fuel (Lexer.new { sourceCode := code }) tokens rfl hlex token hmem
  have hseparates := Lexer.tokens_separated fuel (Lexer.new { sourceCode := code }) tokens rfl
    hlex (Lexer.new_separates code) token hmem
  have hsource : (Lexer.new { sourceCode := code }).sourceCodeManager.sourceCode = code := rfl
  rw [hsource] at hliteral hword hseparates
  refine ⟨?_, ?_, by decide!, by decide!, by decide!, by decide!, by decide⟩
  · intro hl
    obtain ⟨hne, hall, hstop⟩ := hliteral hl
    exact ⟨hne, hall, (Token.preceding_of_separates code token hseparates hne).2 hall, hstop⟩
  · intro hw
    rcases hword hw with ⟨hne, hall, hstop, htype⟩ | hcolon
    · exact Or.inl ⟨hne, hall,
        (Token.preceding_of_separates code token hseparates hne).1 hall, hstop,
        (Lexer.determineAlphaCharTokenType_exact _ _ htype).2.2⟩
    · exact Or.inr hcolon

/-- Witness of C26: the keyword of the source code `abc1234RETURN5678`. -/
theorem C26_letter_and_digit_runs_witness :
    ((TokenType.Return = .Literal →
      Token.text scenarioMix { tokenType := .Return, ref := { ref := 7, length := 6 } } ≠ [] ∧
      (∀ c ∈ Token.text scenarioMix { tokenType := .Return, ref := { ref := 7, length := 6 } },
        isLiteralChar c = true) ∧
      (∀ c, Token.preceding scenarioMix
          { tokenType := .Return, ref := { ref := 7, length := 6 } } = some c →
        isLiteralChar c = false) ∧
      ∀ c, Token.following scenarioMix
          { tokenType := .Return, ref := { ref := 7, length := 6 } } = some c →
        isLiteralChar c = false) ∧
    (TokenType.isWord .Return = true →
      (Token.text scenarioMix { tokenType := .Return, ref := { ref := 7, length := 6 } } ≠ [] ∧
        (∀ c ∈ Token.text scenarioMix
            { tokenType := .Return, ref := { ref := 7, length := 6 } },
          isAlphaChar c = true) ∧
        (∀ c, Token.preceding scenarioMix
            { tokenType := .Return, ref := { ref := 7, length := 6 } } = some c →
          isAlphaChar c = false) ∧
        (∀ c, Token.following scenarioMix
            { tokenType := .Return, ref := { ref := 7, length := 6 } } = some c →
          isAlphaChar c = false) ∧
        (TokenType.Return = .Param ↔
          Token.text scenarioMix { tokenType := .Return, ref := { ref := 7, length := 6 } } =
            "PARAM".toList) ∧
        (TokenType.Return = .Var ↔
          Token.text scenarioMix { tokenType := .Return, ref := { ref := 7, length := 6 } } =
            "VAR".toList) ∧
        (TokenType.Return = .Const ↔
          Token.text scenarioMix { tokenType := .Return, ref := { ref := 7, length := 6 } } =
            "CONST".toList) ∧
        (TokenType.Return = .Begin ↔
          Token.text scenarioMix { tokenType := .Return, ref := { ref := 7, length := 6 } } =
            "BEGIN".toList) ∧
        (TokenType.Return = .End ↔
          Token.text scenarioMix { tokenType := .Return, ref := { ref := 7, length := 6 } } =
            "END".toList) ∧
        (TokenType.Return = .Return ↔
          Token.text scenarioMix { tokenType := .Return, ref := { ref := 7, length := 6 } } =
            "RETURN".toList)) ∨
      (Token.text scenarioMix { tokenType := .Return, ref := { ref := 7, length := 6 } } =
          [':'] ∧
        Token.following scenarioMix
          { tokenType := .Return, ref := { ref := 7, length := 6 } } = none ∧
        TokenType.Return = .Identifier)) ∧
    Lexer.tokens 5 (Lexer.new { sourceCode := scenarioMix }) = some scenarioMixTokens ∧
    Lexer.tokens 2 (Lexer.new { sourceCode := scenarioParamLetter }) =
      some [{ tokenType := .Identifier, ref := { ref := 0, length := 6 } }] ∧
    Lexer.tokens 3 (Lexer.new { sourceCode := scenarioColonLast }) =
      some [{ tokenType := .Identifier, ref := { ref := 0, length := 1 } },
        { tokenType := .Identifier, ref := { ref := 1, length := 1 } }] ∧
    Token.text scenarioColonLast { tokenType := .Identifier, ref := { ref := 1, length := 1 } } =
      [':'] ∧
    isAlphaChar ':' = false) :=
  C26_letter_and_digit_runs scenarioMix 5 scenarioMixTokens
    { tokenType := .Return, ref := { ref := 7, length := 6 } } (by decide!) (by decide)

end pljit

namespace pljit

open common lexer

/-- C27: what the compilation prints on sources with an illegal character.
Where the parser takes the token with `parseGenericToken`, `parseIdentifier`
or `parseLiteral`, as in the three tests `LexerErrorHandling`, the only
diagnostic is the one of the lexer.  Where the parser looks at the type of
the peeked token itself, it prints an error of its own behind the one of the
lexer, at the range of the error token: `expected primary-expression` in
`parsePrimaryExpression`, `expected statement` in `parseStatement`, and
`expected no tokens after the program terminator` in
`parseFunctionDefinition`. -/
theorem C27_parser_errors_after_a_lexer_error :
    (FunctionFrame.new scenarioLexerErrorInExpression).compile =
      .ok (failedFrame scenarioLexerErrorInExpression
        [{ ref := { ref := 13, length := 1 }, message := "error: illegal character" },
         { ref := { ref := 13, length := 1 },
           message := "error: expected primary-expression" }]) ∧
    (FunctionFrame.new scenarioLexerErrorInStatement).compile =
      .ok (failedFrame scenarioLexerErrorInStatement
        [{ ref := { ref := 6, length := 1 }, message := "error: illegal character" },
         { ref := { ref := 6, length := 1 }, message := "error: expected statement" }]) ∧
    (FunctionFrame.new scenarioLexerErrorAfterTerminator).compile =
      .ok (failedFrame scenarioLexerErrorAfterTerminator
        [{ ref := { ref := 20, length := 1 }, message := "error: illegal character" },
         { ref := { ref := 20, length := 1 },
           message := "error: expected no tokens after the program terminator" }]) ∧
    (FunctionFrame.new scenarioLexerErrorHandling).compile =
      .ok (failedFrame scenarioLexerErrorHandling
        [{ ref := { ref := 8, length := 1 }, message := "error: illegal character" }]) ∧
    (FunctionFrame.new scenarioLexerErrorHandling2).compile =
      .ok (failedFrame scenarioLexerErrorHandling2
        [{ ref := { ref := 7, length := 1 }, message := "error: illegal character" }]) ∧
    (FunctionFrame.new scenarioLexerErrorHandling3).compile =
      .ok (failedFrame scenarioLexerErrorHandling3
        [{ ref := { ref := 10, length := 1 }, message := "error: illegal character" }]) := by
  exact ⟨by decide!, by decide!, by decide!, by decide!, by decide!, by decide!⟩

end pljit

namespace pljit

namespace common

/-- The longest prefix of a list whose elements pass a test is not longer
than the list. -/
theorem length_takeWhile_le_length (p : Char → Bool) (l : List Char) :
    (l.takeWhile p).length ≤ l.length := by
  induction l with
  | nil => simp
  | cons head rest ih =>
    simp only [List.takeWhile_cons]
    split
    · simpa using ih
    · simp

/-- The characters of a line before an index are not more than the
characters before the index. -/
theorem specLineBefore_length_le (sourceCode : List Char) (index : Nat) :
    (specLineBefore sourceCode index).length ≤ index := by
  simp only [specLineBefore, List.length_reverse]
  have h1 := length_takeWhile_le_length (fun c => decide (c ≠ '\n'))
    (sourceCode.take index).reverse
  have h2 : (sourceCode.take index).reverse.length ≤ index := by
    simp only [List.length_reverse, List.length_take]
    exact Nat.min_le_left _ _
  exact Nat.le_trans h1 h2

/-- The characters of a line before an index, one character further: behind
a newline character the line is empty, every other character is added to
it. -/
theorem specLineBefore_succ (sourceCode : List Char) (index : Nat) (c : Char)
    (h : sourceCode[index]? = some c) :
    specLineBefore sourceCode (index + 1) =
      if c = '\n' then [] else specLineBefore sourceCode index ++ [c] := by
  simp only [specLineBefore, List.take_succ, h, Option.toList_some, List.reverse_append,
    List.reverse_cons, List.reverse_nil, List.nil_append, List.singleton_append,
    List.takeWhile_cons]
  by_cases hc : c = '\n'
  · simp [hc]
  · simp [hc]

/-- The number of the line of an index, one character further: behind a
newline character it is one more. -/
theorem specLineNumber_succ (sourceCode : List Char) (index : Nat) (c : Char)
    (h : sourceCode[index]? = some c) :
    specLineNumber sourceCode (index + 1) =
      if c = '\n' then specLineNumber sourceCode index + 1
      else specLineNumber sourceCode index := by
  simp only [specLineNumber, List.take_succ, h, Option.toList_some, List.count_append,
    List.count_singleton]
  by_cases hc : c = '\n'
  · simp [hc]
    omega
  · simp [hc]

/-- The first loop of `resolveLocation` counts the lines and finds the start
of the line: started at an index with the number of its line and the start
of its line, it ends with the number and the start of the line of the index
at which it stops. -/
theorem lineStartLoop_spec (manager : SourceCodeManager) (steps : Nat) :
    ∀ index, index + steps ≤ manager.sourceCode.length →
      SourceCodeManager.resolveLocation.lineStartLoop manager steps index
          (specLineNumber manager.sourceCode index)
          (index - (specLineBefore manager.sourceCode index).length) =
        .ok (specLineNumber manager.sourceCode (index + steps),
          index + steps - (specLineBefore manager.sourceCode (index + steps)).length) := by
  induction steps with
  | zero =>
    intro index _
    rfl
  | succ steps ih =>
    intro index hle
    have hlt : index < manager.sourceCode.length := by omega
    have hchar : manager.sourceCode[index]? = some manager.sourceCode[index] :=
      List.getElem?_eq_getElem hlt
    have hdata : manager.data[index]? = some manager.sourceCode[index] := by
      simp only [SourceCodeManager.data]
      rw [List.getElem?_append_left hlt]
      exact hchar
    have hnumber := specLineNumber_succ manager.sourceCode index _ hchar
    have hbefore := specLineBefore_succ manager.sourceCode index _ hchar
    have hlength := specLineBefore_length_le manager.sourceCode index
    have hnext := ih (index + 1) (by omega)
    have hindex : index + 1 + steps = index + (steps + 1) := by omega
    rw [hindex] at hnext
    simp only [SourceCodeManager.resolveLocation.lineStartLoop, hdata]
    by_cases hc : manager.sourceCode[index] = '\n'
    · rw [if_pos hc] at hnumber hbefore
      rw [if_pos hc]
      rw [hnumber, hbefore] at hnext
      simp only [List.length_nil, Nat.sub_zero] at hnext
      exact hnext
    · rw [if_neg hc] at hnumber hbefore
      rw [if_neg hc]
      rw [hnumber, hbefore] at hnext
      simp only [List.length_append, List.length_singleton] at hnext
      have hstart : index + 1 - ((specLineBefore manager.sourceCode index).length + 1) =
          index - (specLineBefore manager.sourceCode index).length := by omega
      rw [hstart] at hnext
      exact hnext

/-- The second loop of `resolveLocation` adds the number of characters up to
the next newline character to the length of the line. -/
theorem lineLengthLoop_spec (chars : List Char) :
    ∀ lineLength, SourceCodeManager.resolveLocation.lineLengthLoop chars lineLength =
      lineLength + (chars.takeWhile (fun c => c ≠ '\n')).length := by
  induction chars with
  | nil =>
    intro lineLength
    rfl
  | cons c rest ih =>
    intro lineLength
    simp only [SourceCodeManager.resolveLocation.lineLengthLoop, List.takeWhile_cons]
    by_cases hc : c = '\n'
    · simp [hc]
    · simp only [ne_eq, hc, not_false_eq_true, if_true, decide_True, List.length_cons, ih]
      omega

/-- The characters before an index of the source code end with the
characters of the line before the index, and the characters of the source
code from the start of the line on are the characters of the line before the
index and the characters from the index on. -/
theorem drop_lineStart (sourceCode : List Char) (index : Nat)
    (hle : index ≤ sourceCode.length) :
    sourceCode.drop (index - (specLineBefore sourceCode index).length) =
      specLineBefore sourceCode index ++ sourceCode.drop index := by
  have hsplit : sourceCode.take index =
      ((sourceCode.take index).reverse.dropWhile (fun c => c ≠ '\n')).reverse ++
        specLineBefore sourceCode index := by
    have h := List.takeWhile_append_dropWhile (fun c => decide (c ≠ '\n'))
      (sourceCode.take index).reverse
    have h' := congrArg List.reverse h
    simp only [List.reverse_append, List.reverse_reverse] at h'
    rw [specLineBefore]
    exact h'.symm
  have hlen : (sourceCode.take index).length = index := by
    simp only [List.length_take]
    exact Nat.min_eq_left hle
  have hprefix : (((sourceCode.take index).reverse.dropWhile
      (fun c => c ≠ '\n')).reverse).length =
      index - (specLineBefore sourceCode index).length := by
    have h := congrArg List.length hsplit
    rw [hlen, List.length_append] at h
    omega
  have hwhole : sourceCode =
      ((sourceCode.take index).reverse.dropWhile (fun c => c ≠ '\n')).reverse ++
        (specLineBefore sourceCode index ++ sourceCode.drop index) := by
    rw [← List.append_assoc, ← hsplit]
    exact (List.take_append_drop _ _).symm
  have hdrop : List.drop (index - (specLineBefore sourceCode index).length)
      (((sourceCode.take index).reverse.dropWhile (fun c => c ≠ '\n')).reverse ++
        (specLineBefore sourceCode index ++ sourceCode.drop index)) =
      specLineBefore sourceCode index ++ sourceCode.drop index :=
    List.drop_left' hprefix
  rw [← hwhole] at hdrop
  exact hdrop

/-- The location that `resolveLocation` computes for an index within the
source code: the line number and the column of the specification, the start
of the line, and as length of the line the characters before the index, the
character at the index and the characters behind it up to the next newline
character. -/
theorem resolveLocation_spec (manager : SourceCodeManager) (index : Nat)
    (hlt : index < manager.sourceCode.length) :
    manager.resolveLocation { ref := index } =
      .ok { lineNumber := specLineNumber manager.sourceCode index
            lineOffset := specColumn manager.sourceCode index
            indexLineStart := index - (specLineBefore manager.sourceCode index).length
            lineLength := (specLineBefore manager.sourceCode index).length + 1 +
              ((manager.sourceCode.drop (index + 1)).takeWhile (fun c => c ≠ '\n')).length } := by
  have hloop := lineStartLoop_spec manager index 0 (by omega)
  have hzero : specLineNumber manager.sourceCode 0 = 1 := by
    simp [specLineNumber]
  have hzero' : 0 - (specLineBefore manager.sourceCode 0).length = 0 := Nat.zero_sub _
  rw [hzero, hzero', Nat.zero_add] at hloop
  have hlength := specLineBefore_length_le manager.sourceCode index
  simp only [SourceCodeManager.resolveLocation, hloop, lineLengthLoop_spec, specColumn]
  congr 2 <;> omega

/-- The conversion to `int` keeps a value below `2 ^ 31`, and `std::setw`
with this value pads a text of one character with one character less than
the value. -/
theorem setw_castToInt (value : Nat) (fill c : Char) (h : value < 2147483648) :
    setw (castToInt value) fill [c] = List.replicate (value - 1) fill ++ [c] := by
  have hcast : castToInt value = (value : Int) := by
    simp only [castToInt]
    omega
  simp only [setw, hcast, Int.toNat_ofNat, List.length_singleton]

end common

end pljit

namespace pljit

namespace common

/-- The line that `printContext` prints for an index within the source code
at which no newline character stands: the line of the index. -/
theorem contextLine_spec (manager : SourceCodeManager) (index : Nat)
    (hlt : index < manager.sourceCode.length)
    (hchar : manager.sourceCode[index]? ≠ some '\n') :
    index - (specLineBefore manager.sourceCode index).length +
        ((specLineBefore manager.sourceCode index).length + 1 +
          ((manager.sourceCode.drop (index + 1)).takeWhile (fun c => c ≠ '\n')).length) ≤
      manager.data.length ∧
    (manager.data.drop (index - (specLineBefore manager.sourceCode index).length)).take
        ((specLineBefore manager.sourceCode index).length + 1 +
          ((manager.sourceCode.drop (index + 1)).takeWhile (fun c => c ≠ '\n')).length) =
      specLine manager.sourceCode index := by
  have hbefore := specLineBefore_length_le manager.sourceCode index
  have hrest := length_takeWhile_le_length (fun c => decide (c ≠ '\n'))
    (manager.sourceCode.drop (index + 1))
  simp only [List.length_drop] at hrest
  have hget : manager.sourceCode[index]? = some manager.sourceCode[index] :=
    List.getElem?_eq_getElem hlt
  have hne : manager.sourceCode[index] ≠ '\n' := by
    intro hc
    apply hchar
    rw [hget, hc]
  have hcons := lexer.drop_eq_cons_of_getElem _ _ _ hget
  have hfrom : specLineFrom manager.sourceCode index =
      manager.sourceCode[index] ::
        (manager.sourceCode.drop (index + 1)).takeWhile (fun c => c ≠ '\n') := by
    simp only [specLineFrom, hcons, List.takeWhile_cons, ne_eq, hne, not_false_eq_true,
      decide_True, if_true]
  have hstart := drop_lineStart manager.sourceCode index (Nat.le_of_lt hlt)
  have hsplit : manager.sourceCode.drop (index + 1) =
      (manager.sourceCode.drop (index + 1)).takeWhile (fun c => c ≠ '\n') ++
        (manager.sourceCode.drop (index + 1)).dropWhile (fun c => c ≠ '\n') :=
    (List.takeWhile_append_dropWhile _ _).symm
  refine ⟨?_, ?_⟩
  · simp only [SourceCodeManager.data, List.length_append, List.length_singleton]
    omega
  · have hdata : manager.data.drop (index - (specLineBefore manager.sourceCode index).length) =
        specLine manager.sourceCode index ++
          ((manager.sourceCode.drop (index + 1)).dropWhile (fun c => c ≠ '\n') ++
            [Char.ofNat 0]) := by
      simp only [SourceCodeManager.data]
      rw [List.drop_append_of_le_length (by omega), hstart, hcons, specLine, hfrom]
      conv_lhs => rw [hsplit]
      simp only [List.append_assoc, List.cons_append]
    rw [hdata]
    apply List.take_left'
    simp only [specLine, hfrom, List.length_append, List.length_cons]
    omega

end common

open common lexer

/-- C28: the characters that `printContext` writes for a range and a
message.  For a range within a source code of less than `2 ^ 31` characters
that is not empty and does not start at a newline character, they are the
diagnostic of the specification: the line `L:C: message` with the line
number `L`, 1 plus the number of newline characters before the range, and
the column `C` of the start of the range in its line, counted from 1; the
full text of this line; and `C - 1` spaces, `^` and one `~` for every
further character of the range.  The diagnostic of the test
`IllegalCharacter3` is the expected one, also as the console output of the
lexer on the source code of the test.  For a range that starts at a newline
character, where the code departs from the claim, the line that is printed
goes on to the end of the following line. -/
theorem C28_context_of_a_range (manager : SourceCodeManager) (ref : SourceRangeReference)
    (message : String)
    (hlength : 0 < ref.length)
    (hinside : ref.ref + ref.length ≤ manager.sourceCode.length)
    (hchar : manager.sourceCode[ref.ref]? ≠ some '\n')
    (hsize : manager.sourceCode.length < 2147483648) :
    manager.contextOutput ref message = .ok (specContext manager.sourceCode ref message) ∧
    SourceCodeManager.contextOutput { sourceCode := scenarioIllegalCharacter3 }
        { ref := 10, length := 1 } "error: illegal character" =
      .ok "4:8: error: illegal character\n       _abcd\n       ^\n".toList ∧
    Except.bind (Lexer.new { sourceCode := scenarioIllegalCharacter3 }).peek
        (fun result => result.2.sourceCodeManager.output) =
      .ok "4:8: error: illegal character\n       _abcd\n       ^\n".toList ∧
    SourceCodeManager.contextOutput { sourceCode := scenarioTwoLines }
        { ref := 2, length := 1 } "error: expected ';'" =
      .ok "1:3: error: expected ';'\nab\ncd\n  ^\n".toList ∧
    specContext scenarioTwoLines { ref := 2, length := 1 } "error: expected ';'" =
      "1:3: error: expected ';'\nab\n  ^\n".toList := by
  refine ⟨?_, by decide!, by decide!, by decide!, by decide!⟩
  have hlt : ref.ref < manager.sourceCode.length := by omega
  obtain ⟨hguard, hline⟩ := contextLine_spec manager ref.ref hlt hchar
  have hbefore := specLineBefore_length_le manager.sourceCode ref.ref
  have hcolumn : specColumn manager.sourceCode ref.ref < 2147483648 := by
    simp only [specColumn]
    omega
  simp only [SourceCodeManager.contextOutput, SourceRangeReference.first, hlength, if_true,
    resolveLocation_spec manager ref.ref hlt, hguard, hline,
    setw_castToInt _ _ _ hcolumn, setw_castToInt ref.length _ _ (by omega), specContext,
    List.append_assoc]

/-- Witness of C28: the range of the token `cd` in the source code of two
lines. -/
theorem C28_context_of_a_range_witness :
    SourceCodeManager.contextOutput { sourceCode := scenarioTwoLines }
        { ref := 3, length := 2 } "error: expected ';'" =
      .ok (specContext scenarioTwoLines { ref := 3, length := 2 } "error: expected ';'") ∧
    SourceCodeManager.contextOutput { sourceCode := scenarioIllegalCharacter3 }
        { ref := 10, length := 1 } "error: illegal character" =
      .ok "4:8: error: illegal character\n       _abcd\n       ^\n".toList ∧
    Except.bind (Lexer.new { sourceCode := scenarioIllegalCharacter3 }).peek
        (fun result => result.2.sourceCodeManager.output) =
      .ok "4:8: error: illegal character\n       _abcd\n       ^\n".toList ∧
    SourceCodeManager.contextOutput { sourceCode := scenarioTwoLines }
        { ref := 2, length := 1 } "error: expected ';'" =
      .ok "1:3: error: expected ';'\nab\ncd\n  ^\n".toList ∧
    specContext scenarioTwoLines { ref := 2, length := 1 } "error: expected ';'" =
      "1:3: error: expected ';'\nab\n  ^\n".toList :=
  C28_context_of_a_range { sourceCode := scenarioTwoLines } { ref := 3, length := 2 }
    "error: expected ';'" (by decide) (by decide) (by decide) (by decide)

end pljit

namespace pljit

namespace optim

open ast exec analysis

/-- A binary operation is a compile-time constant exactly when both operands
are and it is no division by the constant value 0. -/
theorem specFolds_binary (symbolTable : SymbolTable)
    (variableTable : List (IdentifierKey × VariableAssignment))
    (lhs rhs : Expression) (op : BinaryOpType) :
    specFolds symbolTable variableTable (.BinaryOp lhs op rhs) =
      (specFolds symbolTable variableTable lhs && specFolds symbolTable variableTable rhs &&
        !(decide (op = .Div) &&
          decide (specConstantValue symbolTable variableTable rhs = 0))) := by
  simp only [specFolds, specAllConstant, specDividesByZero]
  cases specAllConstant variableTable lhs <;> cases specAllConstant variableTable rhs <;>
    cases specDividesByZero symbolTable variableTable lhs <;>
    cases specDividesByZero symbolTable variableTable rhs <;>
    cases (decide (op = .Div) &&
      decide (specConstantValue symbolTable variableTable rhs = 0)) <;> rfl

/-- A unary operation is a compile-time constant exactly when its operand
is. -/
theorem specFolds_unary (symbolTable : SymbolTable)
    (variableTable : List (IdentifierKey × VariableAssignment))
    (expression : Expression) (op : UnaryOpType) :
    specFolds symbolTable variableTable (.UnaryOp op expression) =
      specFolds symbolTable variableTable expression := by
  simp only [specFolds, specAllConstant, specDividesByZero]

/-- What constant propagation does with an expression that it enters with
an empty `constantResultFromLastCall` and whose ids are in range.  When the
expression has a division of the smallest value by -1 among its constant
subexpressions, the visit stops in this division.  Otherwise it returns, it
leaves the variable table and the symbol table alone, it reports a constant
exactly when the expression is a compile-time constant in the words of the
claim, the reported constant is the constant value of the expression, an
expression that is a compile-time constant is not rewritten, and only a
literal is returned as a literal. -/
theorem ConstantPropagation.visitExpression_folds (e : Expression) :
    ∀ pass : ConstantPropagation, pass.constantResultFromLastCall = none →
      e.idsInRange pass.symbolTable = true →
      (specTraps pass.symbolTable pass.variableTable e = true →
        ConstantPropagation.visitExpression e pass = .error .divisionOverflow) ∧
      (specTraps pass.symbolTable pass.variableTable e = false →
        ∃ e' pass', ConstantPropagation.visitExpression e pass = .ok (e', pass') ∧
          pass'.variableTable = pass.variableTable ∧ pass'.symbolTable = pass.symbolTable ∧
          pass'.constantResultFromLastCall =
            (if specFolds pass.symbolTable pass.variableTable e = true then
              some (specConstantValue pass.symbolTable pass.variableTable e)
            else none) ∧
          (specFolds pass.symbolTable pass.variableTable e = true → e' = e) ∧
          (∀ v, e' = .ConstantLiteral v → e = .ConstantLiteral v)) := by
  induction e with
  | ConstantLiteral value =>
    intro pass _ _
    refine ⟨fun h => (by cases h), fun _ => ?_⟩
    exact ⟨_, _, rfl, rfl, rfl, rfl, fun _ => rfl, fun _ h => h⟩
  | Identifier ty id =>
    intro pass hentry hrange
    refine ⟨fun h => (by cases h), fun _ => ?_⟩
    simp only [Expression.idsInRange, decide_eq_true_eq] at hrange
    simp only [ConstantPropagation.visitExpression_identifier]
    by_cases hty : ty = .Constant
    · subst hty
      have hlt : id < pass.symbolTable.constantValues.length := hrange
      simp only [if_true, SymbolTable.getConstantValue, List.getElem?_eq_getElem hlt]
      refine ⟨_, _, rfl, rfl, rfl, ?_, fun _ => rfl, fun _ h => h⟩
      simp only [specFolds, specAllConstant, specDividesByZero, specConstantValue, if_true,
        Bool.not_false, Bool.and_self, List.getD_eq_getElem?_getD,
        List.getElem?_eq_getElem hlt, Option.getD_some]
    · simp only [hty, if_false, constructKey]
      cases hfind : variableTableFind pass.variableTable (id, ty) with
      | none =>
        refine ⟨_, _, rfl, rfl, rfl, ?_, fun _ => rfl, fun _ h => h⟩
        simp only [hentry, specFolds, specAllConstant, hty, if_false, hfind, Bool.false_and,
          Bool.false_eq_true]
      | some assignment =>
        by_cases hconst : assignment.hasConstantAssignment = true
        · simp only [hconst, if_true]
          refine ⟨_, _, rfl, rfl, rfl, ?_, fun _ => rfl, fun _ h => h⟩
          simp only [specFolds, specAllConstant, hty, if_false, hfind, hconst,
            specDividesByZero, Bool.not_false, Bool.and_self, if_true, specConstantValue]
        · simp only [hconst, Bool.false_eq_true, if_false]
          refine ⟨_, _, rfl, rfl, rfl, ?_, fun _ => rfl, fun _ h => h⟩
          have hconst' : assignment.hasConstantAssignment = false := by simpa using hconst
          simp only [hentry, specFolds, specAllConstant, hty, if_false, hfind, hconst',
            Bool.false_and, Bool.false_eq_true]
  | UnaryOp op e ih =>
    intro pass hentry hrange
    simp only [Expression.idsInRange] at hrange
    obtain ⟨ihtrap, ihok⟩ := ih pass hentry hrange
    refine ⟨fun htraps => ?_, fun htraps => ?_⟩
    · simp only [specTraps] at htraps
      simp only [ConstantPropagation.visitExpression_unaryOp, ihtrap htraps]
    simp only [specTraps] at htraps
    obtain ⟨e1, p1, hvisit, hvt, hst, hresult, hsame, _⟩ := ihok htraps
    simp only [ConstantPropagation.visitExpression_unaryOp, hvisit, specFolds_unary]
    by_cases hfolds : specFolds pass.symbolTable pass.variableTable e = true
    · rw [if_pos hfolds] at hresult
      simp only [hresult, hfolds, if_true]
      have he1 := hsame hfolds
      subst he1
      cases op with
      | MinusSign =>
        simp only [if_true]
        exact ⟨_, _, rfl, hvt, hst, by simp only [specConstantValue], fun _ => rfl,
          fun _ h => by cases h⟩
      | PlusSign =>
        simp only [reduceCtorEq, if_false]
        exact ⟨_, _, rfl, hvt, hst, by simp only [hresult, specConstantValue], fun _ => rfl,
          fun _ h => by cases h⟩
    · rw [if_neg hfolds] at hresult
      simp only [hresult, hfolds, Bool.false_eq_true, if_false]
      exact ⟨_, _, rfl, hvt, hst, hresult, fun h => absurd h (by simp),
        fun _ h => by cases h⟩
  | BinaryOp lhs op rhs ihl ihr =>
    intro pass hentry hrange
    simp only [Expression.idsInRange, Bool.and_eq_true] at hrange
    obtain ⟨ihltrap, ihlok⟩ := ihl pass hentry hrange.1
    by_cases htl : specTraps pass.symbolTable pass.variableTable lhs = true
    · refine ⟨fun _ => ?_, fun htraps => ?_⟩
      · simp only [ConstantPropagation.visitExpression_binaryOp, ihltrap htl]
      · simp only [specTraps, htl, Bool.true_or, reduceCtorEq] at htraps
    have htl' : specTraps pass.symbolTable pass.variableTable lhs = false := by
      simpa using htl
    obtain ⟨l1, p1, hvisit1, hvt1, hst1, hresult1, hsame1, _⟩ := ihlok htl'
    have hrange2 : rhs.idsInRange
        ({ p1 with constantResultFromLastCall := none } : ConstantPropagation).symbolTable =
          true := by
      show rhs.idsInRange p1.symbolTable = true
      rw [hst1]
      exact hrange.2
    obtain ⟨ihrtrap, ihrok⟩ := ihr { p1 with constantResultFromLastCall := none } rfl hrange2
    have htraps2 : specTraps
        ({ p1 with constantResultFromLastCall := none } : ConstantPropagation).symbolTable
        ({ p1 with constantResultFromLastCall := none } : ConstantPropagation).variableTable
        rhs = specTraps pass.symbolTable pass.variableTable rhs := by
      show specTraps p1.symbolTable p1.variableTable rhs = _
      rw [hst1, hvt1]
    by_cases htr : specTraps pass.symbolTable pass.variableTable rhs = true
    · refine ⟨fun _ => ?_, fun htraps => ?_⟩
      · simp only [ConstantPropagation.visitExpression_binaryOp, hvisit1,
          ihrtrap (by rw [htraps2]; exact htr)]
      · simp only [specTraps, htr, Bool.true_or, Bool.or_true, reduceCtorEq] at htraps
    have htr' : specTraps pass.symbolTable pass.variableTable rhs = false := by
      simpa using htr
    obtain ⟨r1, p2, hvisit2, hvt2, hst2, hresult2, hsame2, _⟩ :=
      ihrok (by rw [htraps2]; exact htr')
    have hvt2' : p2.variableTable = pass.variableTable := by
      rw [hvt2]
      exact hvt1
    have hst2' : p2.symbolTable = pass.symbolTable := by
      rw [hst2]
      exact hst1
    have hresult2' : p2.constantResultFromLastCall =
        (if specFolds pass.symbolTable pass.variableTable rhs = true then
          some (specConstantValue pass.symbolTable pass.variableTable rhs)
        else none) := by
      rw [hresult2]
      show (if specFolds p1.symbolTable p1.variableTable rhs = true then
          some (specConstantValue p1.symbolTable p1.variableTable rhs) else none) = _
      rw [hst1, hvt1]
    have hsame2' : specFolds pass.symbolTable pass.variableTable rhs = true → r1 = rhs := by
      intro h
      apply hsame2
      show specFolds p1.symbolTable p1.variableTable rhs = true
      rw [hst1, hvt1]
      exact h
    have htraps : specTraps pass.symbolTable pass.variableTable (.BinaryOp lhs op rhs) =
        (decide (op = .Div) && specFolds pass.symbolTable pass.variableTable lhs &&
          specFolds pass.symbolTable pass.variableTable rhs &&
          divisionOverflows (specConstantValue pass.symbolTable pass.variableTable lhs)
            (specConstantValue pass.symbolTable pass.variableTable rhs)) := by
      simp only [specTraps, htl', htr', Bool.false_or]
    rw [htraps]
    by_cases hfl : specFolds pass.symbolTable pass.variableTable lhs = true
    · rw [if_pos hfl] at hresult1
      have hl := hsame1 hfl
      subst hl
      by_cases hfr : specFolds pass.symbolTable pass.variableTable rhs = true
      · rw [if_pos hfr] at hresult2'
        have hr := hsame2' hfr
        subst hr
        cases op with
        | Add =>
          refine ⟨fun h => by simp at h, fun _ => ?_⟩
          simp only [ConstantPropagation.visitExpression_binaryOp, hvisit1, hvisit2,
            specFolds_binary, hresult1, hresult2', hfl, hfr, Bool.and_self, Bool.true_and]
          exact ⟨_, _, rfl, hvt2', hst2', by simp [specConstantValue], fun _ => rfl,
            fun _ h => by cases h⟩
        | Sub =>
          refine ⟨fun h => by simp at h, fun _ => ?_⟩
          simp only [ConstantPropagation.visitExpression_binaryOp, hvisit1, hvisit2,
            specFolds_binary, hresult1, hresult2', hfl, hfr, Bool.and_self, Bool.true_and]
          exact ⟨_, _, rfl, hvt2', hst2', by simp [specConstantValue], fun _ => rfl,
            fun _ h => by cases h⟩
        | Mul =>
          refine ⟨fun h => by simp at h, fun _ => ?_⟩
          simp only [ConstantPropagation.visitExpression_binaryOp, hvisit1, hvisit2,
            specFolds_binary, hresult1, hresult2', hfl, hfr, Bool.and_self, Bool.true_and]
          exact ⟨_, _, rfl, hvt2', hst2', by simp [specConstantValue], fun _ => rfl,
            fun _ h => by cases h⟩
        | Div =>
          by_cases hzero : specConstantValue pass.symbolTable pass.variableTable r1 = 0
          · refine ⟨fun h => (by simp [hzero, divisionOverflows] at h), fun _ => ?_⟩
            simp only [ConstantPropagation.visitExpression_binaryOp, hvisit1, hvisit2,
              specFolds_binary, hresult1, hresult2', hfl, hfr, Bool.and_self, Bool.true_and,
              hzero, if_true]
            exact ⟨_, _, rfl, hvt2', hst2', by simp, fun h => absurd h (by simp),
              fun _ h => by cases h⟩
          · by_cases hover : divisionOverflows
                (specConstantValue pass.symbolTable pass.variableTable l1)
                (specConstantValue pass.symbolTable pass.variableTable r1) = true
            · refine ⟨fun _ => ?_, fun h => by simp [hfl, hfr, hover] at h⟩
              simp only [ConstantPropagation.visitExpression_binaryOp, hvisit1, hvisit2,
                hresult1, hresult2', hzero, hover, if_false, if_true]
            · refine ⟨fun h => (by simp [hfl, hfr, hover] at h), fun _ => ?_⟩
              simp only [ConstantPropagation.visitExpression_binaryOp, hvisit1, hvisit2,
                specFolds_binary, hresult1, hresult2', hfl, hfr, Bool.and_self,
                Bool.true_and, hzero, hover, if_false]
              exact ⟨_, _, rfl, hvt2', hst2', by simp [specConstantValue, hzero],
                fun _ => rfl, fun _ h => by cases h⟩
      · rw [if_neg hfr] at hresult2'
        refine ⟨fun h => (by simp [hfr] at h), fun _ => ?_⟩
        simp only [ConstantPropagation.visitExpression_binaryOp, hvisit1, hvisit2,
          specFolds_binary, hresult1, hresult2', hfl, hfr, Bool.and_false, Bool.false_and,
          Bool.false_eq_true, if_false]
        exact ⟨_, _, rfl, hvt2', hst2', rfl, fun h => absurd h (by simp),
          fun _ h => by cases h⟩
    · rw [if_neg hfl] at hresult1
      by_cases hfr : specFolds pass.symbolTable pass.variableTable rhs = true
      · rw [if_pos hfr] at hresult2'
        refine ⟨fun h => (by simp [hfl] at h), fun _ => ?_⟩
        simp only [ConstantPropagation.visitExpression_binaryOp, hvisit1, hvisit2,
          specFolds_binary, hresult1, hresult2', hfl, Bool.false_and, Bool.false_eq_true,
          if_false]
        exact ⟨_, _, rfl, hvt2', hst2', rfl, fun h => absurd h (by simp),
          fun _ h => by cases h⟩
      · rw [if_neg hfr] at hresult2'
        refine ⟨fun h => (by simp [hfl] at h), fun _ => ?_⟩
        simp only [ConstantPropagation.visitExpression_binaryOp, hvisit1, hvisit2,
          specFolds_binary, hresult1, hresult2', hfl, Bool.false_and, Bool.false_eq_true,
          if_false]
        exact ⟨_, _, rfl, hvt2', hst2', rfl, fun h => absurd h (by simp),
          fun _ h => by cases h⟩

end optim

end pljit

namespace pljit

namespace optim

open ast exec analysis

/-- Constant propagation does not rewrite a binary operation whose operands
both are compile-time constants and that has no division of the smallest
value by -1, whether it reports a constant for the operation or, for a
division by 0, does not. -/
theorem ConstantPropagation.visitExpression_constant_operands (lhs rhs : Expression)
    (op : BinaryOpType) (pass : ConstantPropagation)
    (hentry : pass.constantResultFromLastCall = none)
    (hrange : (Expression.BinaryOp lhs op rhs).idsInRange pass.symbolTable = true)
    (htraps : specTraps pass.symbolTable pass.variableTable (.BinaryOp lhs op rhs) = false)
    (hl : specFolds pass.symbolTable pass.variableTable lhs = true)
    (hr : specFolds pass.symbolTable pass.variableTable rhs = true) :
    ∃ pass', ConstantPropagation.visitExpression (.BinaryOp lhs op rhs) pass =
      .ok (.BinaryOp lhs op rhs, pass') := by
  obtain ⟨e', pass', hvisit, _, _, hresult, hsame, _⟩ :=
    (ConstantPropagation.visitExpression_folds (.BinaryOp lhs op rhs) pass hentry hrange).2
      htraps
  by_cases hfolds : specFolds pass.symbolTable pass.variableTable (.BinaryOp lhs op rhs) = true
  · rw [hsame hfolds] at hvisit
    exact ⟨pass', hvisit⟩
  · -- a division by the constant value 0: the operands are visited and kept
    simp only [Expression.idsInRange, Bool.and_eq_true] at hrange
    simp only [specTraps, Bool.or_eq_false_iff] at htraps
    obtain ⟨l1, p1, hvisit1, hvt1, hst1, hresult1, hsame1, _⟩ :=
      (ConstantPropagation.visitExpression_folds lhs pass hentry hrange.1).2 htraps.1.1
    have hrange2 : rhs.idsInRange
        ({ p1 with constantResultFromLastCall := none } : ConstantPropagation).symbolTable =
          true := by
      show rhs.idsInRange p1.symbolTable = true
      rw [hst1]
      exact hrange.2
    have htraps2 : specTraps
        ({ p1 with constantResultFromLastCall := none } : ConstantPropagation).symbolTable
        ({ p1 with constantResultFromLastCall := none } : ConstantPropagation).variableTable
        rhs = false := by
      show specTraps p1.symbolTable p1.variableTable rhs = false
      rw [hst1, hvt1]
      exact htraps.1.2
    obtain ⟨r1, p2, hvisit2, _, _, hresult2, hsame2, _⟩ :=
      (ConstantPropagation.visitExpression_folds rhs
        { p1 with constantResultFromLastCall := none } rfl hrange2).2 htraps2
    have hr' : specFolds
        ({ p1 with constantResultFromLastCall := none } : ConstantPropagation).symbolTable
        ({ p1 with constantResultFromLastCall := none } : ConstantPropagation).variableTable
        rhs = true := by
      show specFolds p1.symbolTable p1.variableTable rhs = true
      rw [hst1, hvt1]
      exact hr
    have h1 := hsame1 hl
    have h2 := hsame2 hr'
    subst h1
    subst h2
    have hvisit' := hvisit
    simp only [ConstantPropagation.visitExpression_binaryOp, hvisit1, hvisit2] at hvisit'
    rw [if_pos hl] at hresult1
    rw [if_pos hr'] at hresult2
    simp only [hresult1, hresult2] at hvisit'
    rw [hvisit]
    cases op with
    | Add =>
      simp only [Except.ok.injEq, Prod.mk.injEq] at hvisit'
      rw [← hvisit'.1]
      exact ⟨_, rfl⟩
    | Sub =>
      simp only [Except.ok.injEq, Prod.mk.injEq] at hvisit'
      rw [← hvisit'.1]
      exact ⟨_, rfl⟩
    | Mul =>
      simp only [Except.ok.injEq, Prod.mk.injEq] at hvisit'
      rw [← hvisit'.1]
      exact ⟨_, rfl⟩
    | Div =>
      simp only at hvisit'
      split at hvisit'
      · simp only [Except.ok.injEq, Prod.mk.injEq] at hvisit'
        rw [← hvisit'.1]
        exact ⟨_, rfl⟩
      · split at hvisit'
        · cases hvisit'
        · simp only [Except.ok.injEq, Prod.mk.injEq] at hvisit'
          rw [← hvisit'.1]
          exact ⟨_, rfl⟩

end optim

open ast exec analysis optim

/-- C30: the claim fails on the source code
`BEGIN RETURN 9223372036854775808 / -1 END.`: every identifier of the
expression is constant (it has none) and no `Div` node has a divisor with
the constant value 0, but constant propagation does not replace the
expression by a literal: it divides the smallest value by -1, a division
that only a zero divisor is tested for and whose quotient is not
representable, and the pass and with it the compilation do not return.  The
same holds with literals below `2^63`
(`RETURN (-9223372036854775807 - 1) / -1`).  For every statement whose ids
are in range, entered with an empty `constantResultFromLastCall` as in the
loop over the statements of a function, the pass stops in this way exactly
when the expression has such a division among its constant subexpressions,
and the rest of the claim holds otherwise.  The pass returns a statement;
its expression is the single literal of the constant value of the original
expression when every identifier of the original expression is a constant
of the program or recorded as constant in the variable table and no `Div`
node has a divisor with the constant value 0; otherwise it is no literal.
The constant value is the value that the evaluator returns for the original
expression, without error, in every context that agrees with the variable
table.  A binary operation with two constant operands that is a division by
0 stays as it is, with its operands.  The statements of the test
`SimpleTest` become `x := -40` and `RETURN -28`, and the statement of the
test `DivisionByZero` stays `RETURN 1 / 0`. -/
theorem C30_constant_folding_stops_in_division_overflow :
    astAfterConstantPropagation scenarioConstantOverflow = .error .divisionOverflow ∧
    (FunctionFrame.new scenarioConstantOverflow).compile = .error .divisionOverflow ∧
    (parseAndAnalyze scenarioConstantOverflow).map
        (fun result => result.map (fun (function, symbolTable) =>
          function.statements.map (fun stmt =>
            (specFolds symbolTable [] stmt.getExpression,
              specTraps symbolTable [] stmt.getExpression)))) =
      .ok (some [(true, true)]) ∧
    astAfterConstantPropagation scenarioConstantOverflowSmall = .error .divisionOverflow ∧
    (∀ (stmt : Statement) (pass : ConstantPropagation),
      pass.constantResultFromLastCall = none →
      stmt.idsInRange pass.symbolTable = true →
      (specTraps pass.symbolTable pass.variableTable stmt.getExpression = true →
        ConstantPropagation.visitStatement stmt pass = .error .divisionOverflow) ∧
      (specTraps pass.symbolTable pass.variableTable stmt.getExpression = false →
        (∃ stmt' pass', ConstantPropagation.visitStatement stmt pass = .ok (stmt', pass') ∧
          pass'.constantResultFromLastCall = none ∧
          (specFolds pass.symbolTable pass.variableTable stmt.getExpression = true →
            stmt'.getExpression =
              .ConstantLiteral
                (specConstantValue pass.symbolTable pass.variableTable
                  stmt.getExpression)) ∧
          (specFolds pass.symbolTable pass.variableTable stmt.getExpression = false →
            ∀ v, stmt'.getExpression ≠ .ConstantLiteral v) ∧
          (∀ lhs rhs, stmt.getExpression = .BinaryOp lhs .Div rhs →
            specFolds pass.symbolTable pass.variableTable lhs = true →
            specFolds pass.symbolTable pass.variableTable rhs = true →
            specConstantValue pass.symbolTable pass.variableTable rhs = 0 →
            stmt'.getExpression = .BinaryOp lhs .Div rhs)) ∧
        (specFolds pass.symbolTable pass.variableTable stmt.getExpression = true →
          ∀ context : ExecutionContext, context.symbolTable = pass.symbolTable →
            Consistent pass.variableTable context → context.hasError = false →
            stmt.getExpression.evaluate context =
              .ok (specConstantValue pass.symbolTable pass.variableTable stmt.getExpression,
                context)))) ∧
    astAfterConstantPropagation scenarioFolding =
      .ok (some
        { statements :=
            [.AssignmentStatement { identifierType := .Variable, id := 0 }
              (.ConstantLiteral (-40)),
             .ReturnStatement (.ConstantLiteral (-28))] }) ∧
    astAfterConstantPropagation scenarioConstantDivisionByZero =
      .ok (some
        { statements :=
            [.ReturnStatement
              (.BinaryOp (.ConstantLiteral 1) .Div (.ConstantLiteral 0))] }) := by
  refine ⟨by decide!, by decide!, by decide!, by decide!, ?_, by decide!, by decide!⟩
  intro stmt pass hentry hrange
  have hexpression : stmt.getExpression.idsInRange pass.symbolTable = true := by
    cases stmt with
    | AssignmentStatement target e =>
      simp only [Statement.idsInRange, Bool.and_eq_true] at hrange
      exact hrange.2
    | ReturnStatement e => exact hrange
  obtain ⟨hstops, hreturns⟩ :=
    ConstantPropagation.visitExpression_folds stmt.getExpression pass hentry hexpression
  refine ⟨fun htraps => ?_, fun htraps => ?_⟩
  · have hvisit := hstops htraps
    cases stmt with
    | ReturnStatement e =>
      simp only [Statement.getExpression] at hvisit
      simp only [ConstantPropagation.visitStatement_return, hvisit]
    | AssignmentStatement target e =>
      simp only [Statement.getExpression] at hvisit
      simp only [Statement.idsInRange, Bool.and_eq_true, decide_eq_true_eq] at hrange
      simp only [ConstantPropagation.visitStatement_assignment, constructKey, hrange.1.1,
        if_false, hvisit]
  obtain ⟨e1, p1, hvisit, _, _, hresult, _, hliteral⟩ := hreturns htraps
  have hdivision : ∀ lhs rhs, stmt.getExpression = .BinaryOp lhs .Div rhs →
      specFolds pass.symbolTable pass.variableTable lhs = true →
      specFolds pass.symbolTable pass.variableTable rhs = true →
      specConstantValue pass.symbolTable pass.variableTable rhs = 0 →
      e1 = .BinaryOp lhs .Div rhs ∧
        specFolds pass.symbolTable pass.variableTable stmt.getExpression = false := by
    intro lhs rhs heq hl hr hzero
    rw [heq] at hexpression hvisit htraps
    obtain ⟨p, hp⟩ := ConstantPropagation.visitExpression_constant_operands lhs rhs .Div pass
      hentry hexpression htraps hl hr
    rw [hp] at hvisit
    simp only [Except.ok.injEq, Prod.mk.injEq] at hvisit
    refine ⟨hvisit.1.symm, ?_⟩
    rw [heq, specFolds_binary, hl, hr, hzero]
    rfl
  have hnoliteral : specFolds pass.symbolTable pass.variableTable stmt.getExpression = false →
      ∀ v, e1 ≠ .ConstantLiteral v := by
    intro hfolds v hv
    have horiginal := hliteral v hv
    rw [horiginal] at hfolds
    have htrue : specFolds pass.symbolTable pass.variableTable (.ConstantLiteral v) = true :=
      rfl
    rw [htrue] at hfolds
    cases hfolds
  refine ⟨?_, ?_⟩
  · cases stmt with
    | ReturnStatement e =>
      simp only [Statement.getExpression] at hvisit hresult hnoliteral hdivision ⊢
      simp only [ConstantPropagation.visitStatement_return, hvisit]
      by_cases hfolds : specFolds pass.symbolTable pass.variableTable e = true
      · rw [if_pos hfolds] at hresult
        simp only [hresult]
        refine ⟨_, _, rfl, rfl, fun _ => rfl, fun h => ?_, ?_⟩
        · rw [hfolds] at h
          cases h
        · intro lhs rhs heq hl hr hzero
          have := (hdivision lhs rhs heq hl hr hzero).2
          rw [hfolds] at this
          cases this
      · rw [if_neg hfolds] at hresult
        have hfolds' : specFolds pass.symbolTable pass.variableTable e = false := by
          simpa using hfolds
        simp only [hresult]
        refine ⟨_, _, rfl, hresult, fun h => absurd h hfolds, fun _ => ?_, ?_⟩
        · exact hnoliteral hfolds'
        · intro lhs rhs heq hl hr hzero
          exact (hdivision lhs rhs heq hl hr hzero).1
    | AssignmentStatement target e =>
      simp only [Statement.getExpression] at hvisit hresult hnoliteral hdivision ⊢
      simp only [Statement.idsInRange, Bool.and_eq_true, decide_eq_true_eq] at hrange
      simp only [ConstantPropagation.visitStatement_assignment, constructKey, hrange.1.1,
        if_false, hvisit]
      by_cases hfolds : specFolds pass.symbolTable pass.variableTable e = true
      · rw [if_pos hfolds] at hresult
        simp only [hresult]
        refine ⟨_, _, rfl, rfl, fun _ => rfl, fun h => ?_, ?_⟩
        · rw [hfolds] at h
          cases h
        · intro lhs rhs heq hl hr hzero
          have := (hdivision lhs rhs heq hl hr hzero).2
          rw [hfolds] at this
          cases this
      · rw [if_neg hfolds] at hresult
        have hfolds' : specFolds pass.symbolTable pass.variableTable e = false := by
          simpa using hfolds
        simp only [hresult]
        refine ⟨_, _, rfl, rfl, fun h => absurd h hfolds, fun _ => ?_, ?_⟩
        · exact hnoliteral hfolds'
        · intro lhs rhs heq hl hr hzero
          exact (hdivision lhs rhs heq hl hr hzero).1
  · intro hfolds context hst hconsistent hok
    rw [if_pos hfolds] at hresult
    exact ((ConstantPropagation.visitExpression_sound stmt.getExpression pass e1 p1 hentry
      hvisit).2.2 context hst hconsistent hok).2 _ hresult

end pljit

namespace pljit

namespace optim

open ast exec analysis

/-- The state of the pass behind the reset that follows the visit of an
operand is the state on entry again, when the entry was made with an empty
`constantResultFromLastCall` and the visit kept the two tables. -/
theorem ConstantPropagation.reset_eq (pass after : ConstantPropagation)
    (hentry : pass.constantResultFromLastCall = none)
    (hvt : after.variableTable = pass.variableTable)
    (hst : after.symbolTable = pass.symbolTable) :
    ({ after with constantResultFromLastCall := none } : ConstantPropagation) = pass := by
  cases pass with
  | mk symbolTable result variableTable =>
    cases after with
    | mk symbolTable' result' variableTable' =>
      simp only at hentry hvt hst
      subst hentry
      subst hvt
      subst hst
      rfl

/-- What constant propagation does with a binary operation that it enters
with an empty `constantResultFromLastCall`, whose ids are in range and that
has no division of the smallest value by -1 among its constant
subexpressions: both operands are visited from the state on entry, the
operation is returned with the state on entry, and an operand that alone is
a compile-time constant is replaced by the literal of its value, the other
operand being the one that its own visit returned. -/
theorem ConstantPropagation.visitExpression_materializes (lhs rhs : Expression)
    (op : BinaryOpType) (pass : ConstantPropagation)
    (hentry : pass.constantResultFromLastCall = none)
    (hrange : (Expression.BinaryOp lhs op rhs).idsInRange pass.symbolTable = true)
    (htraps : specTraps pass.symbolTable pass.variableTable (.BinaryOp lhs op rhs) = false) :
    ∃ lhs' rhs' passLeft passRight,
      ConstantPropagation.visitExpression lhs pass = .ok (lhs', passLeft) ∧
      ConstantPropagation.visitExpression rhs pass = .ok (rhs', passRight) ∧
      (specFolds pass.symbolTable pass.variableTable lhs = true →
        specFolds pass.symbolTable pass.variableTable rhs = false →
        ConstantPropagation.visitExpression (.BinaryOp lhs op rhs) pass =
          .ok (.BinaryOp
            (.ConstantLiteral (specConstantValue pass.symbolTable pass.variableTable lhs))
            op rhs', pass)) ∧
      (specFolds pass.symbolTable pass.variableTable lhs = false →
        specFolds pass.symbolTable pass.variableTable rhs = true →
        ConstantPropagation.visitExpression (.BinaryOp lhs op rhs) pass =
          .ok (.BinaryOp lhs' op
            (.ConstantLiteral (specConstantValue pass.symbolTable pass.variableTable rhs)),
            pass)) := by
  simp only [Expression.idsInRange, Bool.and_eq_true] at hrange
  simp only [specTraps, Bool.or_eq_false_iff] at htraps
  obtain ⟨l1, p1, hvisit1, hvt1, hst1, hresult1, _, _⟩ :=
    (ConstantPropagation.visitExpression_folds lhs pass hentry hrange.1).2 htraps.1.1
  obtain ⟨r1, p2, hvisit2, hvt2, hst2, hresult2, _, _⟩ :=
    (ConstantPropagation.visitExpression_folds rhs pass hentry hrange.2).2 htraps.1.2
  have hreset1 : ({ p1 with constantResultFromLastCall := none } : ConstantPropagation) =
      pass := ConstantPropagation.reset_eq pass p1 hentry hvt1 hst1
  have hreset2 : ({ p2 with constantResultFromLastCall := none } : ConstantPropagation) =
      pass := ConstantPropagation.reset_eq pass p2 hentry hvt2 hst2
  refine ⟨l1, r1, p1, p2, hvisit1, hvisit2, ?_, ?_⟩
  · intro hl hr
    rw [if_pos hl] at hresult1
    rw [hr] at hresult2
    simp only [Bool.false_eq_true, if_false] at hresult2
    simp only [ConstantPropagation.visitExpression_binaryOp, hvisit1, hreset1, hvisit2,
      hresult1, hresult2, hreset2]
  · intro hl hr
    rw [hl] at hresult1
    simp only [Bool.false_eq_true, if_false] at hresult1
    rw [if_pos hr] at hresult2
    simp only [ConstantPropagation.visitExpression_binaryOp, hvisit1, hreset1, hvisit2,
      hresult1, hresult2, hreset2]

end optim

open ast exec analysis optim

/-- C31: the claim fails on the source code
`PARAM a; BEGIN RETURN a + 9223372036854775808 / -1 END.`: the right operand
of the sum is a compile-time constant and the left operand is not, but
constant propagation does not replace the right operand by a literal: the
visit of the right operand divides the smallest value by -1, a division that
only a zero divisor is tested for and whose quotient is not representable,
and the pass and with it the compilation do not return.  For every binary
operation whose ids are in range, entered with an empty
`constantResultFromLastCall`, the visit stops in this way exactly when the
operation has such a division among its constant subexpressions, and the
claim holds otherwise.  When the left operand is a compile-time constant
(every identifier a constant of the program or recorded as constant, no
division by the constant value 0) and the right operand is not, the visit
returns the operation with the literal of the value of the left operand,
the same operator and the right operand as the visit of the right operand
returned it, and the state on entry, in which no constant is reported;
likewise with the sides exchanged.  An assignment of such an operation keeps
the rewritten operation as its expression, and the variable table records
its target as not constant afterwards.  With `CONST A = 10, B = 5` and the
parameter `a` the statement `x := B*a+A-2+B` becomes `x := 5*a + 3`, the
variable table records `x` as not constant, and the program of the test
`MixtureOfConstVariablesAndConstantLiterals` becomes the program that the
test expects. -/
theorem C31_materialization_stops_in_division_overflow :
    astAfterConstantPropagation scenarioOverflowBesideParameter =
      .error .divisionOverflow ∧
    (FunctionFrame.new scenarioOverflowBesideParameter).compile =
      .error .divisionOverflow ∧
    (parseAndAnalyze scenarioOverflowBesideParameter).map
        (fun result => result.map (fun (function, symbolTable) =>
          function.statements.map (fun stmt =>
            match stmt.getExpression with
            | .BinaryOp lhs _ rhs =>
              [specFolds symbolTable [] lhs, specFolds symbolTable [] rhs,
                specTraps symbolTable [] rhs]
            | _ => []))) =
      .ok (some [[false, true, true]]) ∧
    (∀ (lhs rhs : Expression) (op : BinaryOpType) (pass : ConstantPropagation),
      pass.constantResultFromLastCall = none →
      (Expression.BinaryOp lhs op rhs).idsInRange pass.symbolTable = true →
      (specTraps pass.symbolTable pass.variableTable (.BinaryOp lhs op rhs) = true →
        ConstantPropagation.visitExpression (.BinaryOp lhs op rhs) pass =
          .error .divisionOverflow) ∧
      (specTraps pass.symbolTable pass.variableTable (.BinaryOp lhs op rhs) = false →
        (∃ lhs' rhs' passLeft passRight,
          ConstantPropagation.visitExpression lhs pass = .ok (lhs', passLeft) ∧
          ConstantPropagation.visitExpression rhs pass = .ok (rhs', passRight) ∧
          (specFolds pass.symbolTable pass.variableTable lhs = true →
            specFolds pass.symbolTable pass.variableTable rhs = false →
            ConstantPropagation.visitExpression (.BinaryOp lhs op rhs) pass =
              .ok (.BinaryOp
                (.ConstantLiteral
                  (specConstantValue pass.symbolTable pass.variableTable lhs))
                op rhs', pass)) ∧
          (specFolds pass.symbolTable pass.variableTable lhs = false →
            specFolds pass.symbolTable pass.variableTable rhs = true →
            ConstantPropagation.visitExpression (.BinaryOp lhs op rhs) pass =
              .ok (.BinaryOp lhs' op
                (.ConstantLiteral
                  (specConstantValue pass.symbolTable pass.variableTable rhs)),
                pass))) ∧
        (∀ target : Identifier, target.identifierType ≠ .Constant →
          specFolds pass.symbolTable pass.variableTable lhs ≠
            specFolds pass.symbolTable pass.variableTable rhs →
          ∃ expression pass' assignment,
            ConstantPropagation.visitExpression (.BinaryOp lhs op rhs) pass =
              .ok (expression, pass) ∧
            ConstantPropagation.visitStatement
                (.AssignmentStatement target (.BinaryOp lhs op rhs)) pass =
              .ok (.AssignmentStatement target expression, pass') ∧
            pass'.constantResultFromLastCall = none ∧
            variableTableFind pass'.variableTable (target.id, target.identifierType) =
              some assignment ∧
            assignment.hasConstantAssignment = false))) ∧
    astAfterConstantPropagation scenarioMaterialize =
      .ok (some
        { statements :=
            [.AssignmentStatement { identifierType := .Variable, id := 0 }
              (.BinaryOp
                (.BinaryOp (.ConstantLiteral 5) .Mul (.Identifier .Parameter 0))
                .Add (.ConstantLiteral 3)),
             .ReturnStatement (.Identifier .Variable 0)] }) ∧
    variableTableAfterConstantPropagation scenarioMaterialize =
      .ok (some [((0, .Variable), { value := 0, hasConstantAssignment := false })]) ∧
    astAfterConstantPropagation scenarioMixture =
      .ok (some
        { statements :=
            [.AssignmentStatement { identifierType := .Variable, id := 0 }
              (.ConstantLiteral 15),
             .AssignmentStatement { identifierType := .Variable, id := 1 }
              (.ConstantLiteral 20),
             .AssignmentStatement { identifierType := .Variable, id := 0 }
              (.BinaryOp
                (.BinaryOp (.ConstantLiteral 5) .Mul (.Identifier .Parameter 0))
                .Add (.ConstantLiteral 3)),
             .AssignmentStatement { identifierType := .Variable, id := 1 }
              (.ConstantLiteral 10),
             .ReturnStatement (.ConstantLiteral 25)] }) := by
  refine ⟨by decide!, by decide!, by decide!, ?_, by decide!, by decide!, by decide!⟩
  intro lhs rhs op pass hentry hrange
  refine ⟨(ConstantPropagation.visitExpression_folds (.BinaryOp lhs op rhs) pass hentry
    hrange).1, fun htraps => ?_⟩
  obtain ⟨l1, r1, p1, p2, hvisit1, hvisit2, hleft, hright⟩ :=
    ConstantPropagation.visitExpression_materializes lhs rhs op pass hentry hrange htraps
  refine ⟨⟨l1, r1, p1, p2, hvisit1, hvisit2, hleft, hright⟩, ?_⟩
  intro target htarget hdiffer
  have hvisit : ∃ expression,
      ConstantPropagation.visitExpression (.BinaryOp lhs op rhs) pass =
        .ok (expression, pass) := by
    cases hl : specFolds pass.symbolTable pass.variableTable lhs with
    | true =>
      cases hr : specFolds pass.symbolTable pass.variableTable rhs with
      | true =>
        rw [hl, hr] at hdiffer
        exact absurd rfl hdiffer
      | false => exact ⟨_, hleft hl hr⟩
    | false =>
      cases hr : specFolds pass.symbolTable pass.variableTable rhs with
      | true => exact ⟨_, hright hl hr⟩
      | false =>
        rw [hl, hr] at hdiffer
        exact absurd rfl hdiffer
  obtain ⟨expression, hexpression⟩ := hvisit
  have hstatement : ConstantPropagation.visitStatement
      (.AssignmentStatement target (.BinaryOp lhs op rhs)) pass =
      .ok (.AssignmentStatement target expression,
        { pass with
          variableTable := variableTableEmplaceAndSet pass.variableTable
            (target.id, target.identifierType)
            (fun assignment => { assignment with hasConstantAssignment := false }) }) := by
    simp only [ConstantPropagation.visitStatement_assignment, constructKey, htarget, if_false,
      hexpression, hentry]
  have hfind : variableTableFind (variableTableEmplaceAndSet pass.variableTable
      (target.id, target.identifierType)
      (fun assignment => { assignment with hasConstantAssignment := false }))
      (target.id, target.identifierType) =
      some { (variableTableFind pass.variableTable
        (target.id, target.identifierType)).getD {} with hasConstantAssignment := false } := by
    rw [variableTableFind_emplaceAndSet]
    simp only [if_true]
  exact ⟨expression, _, _, hexpression, hstatement, hentry, hfind, rfl⟩

end pljit

namespace pljit

namespace optim

open ast exec analysis

/-- The visits of the nodes of an expression are all entered with an empty
`constantResultFromLastCall` when the visit of the expression is: the log
of the visit holds empty values only. -/
theorem ConstantPropagation.visitExpressionTraced_entries (e : Expression) :
    ∀ pass : ConstantPropagation, pass.constantResultFromLastCall = none →
      ∀ entry ∈ (ConstantPropagation.visitExpressionTraced e pass).1, entry = none := by
  induction e with
  | ConstantLiteral value =>
    intro pass hentry entry hmem
    simp only [ConstantPropagation.visitExpressionTraced, List.mem_singleton] at hmem
    rw [hmem, hentry]
  | Identifier ty id =>
    intro pass hentry entry hmem
    simp only [ConstantPropagation.visitExpressionTraced, List.mem_singleton] at hmem
    rw [hmem, hentry]
  | UnaryOp op e ih =>
    intro pass hentry entry hmem
    have ih' := ih pass hentry
    simp only [ConstantPropagation.visitExpressionTraced] at hmem
    rcases hvisit : ConstantPropagation.visitExpressionTraced e pass with
      ⟨entries, fault | ⟨e', pass'⟩⟩
    all_goals
      rw [hvisit] at hmem ih'
      simp only [List.mem_cons] at hmem
      rcases hmem with rfl | hmem
      · exact hentry
      · exact ih' entry hmem
  | BinaryOp lhs op rhs ihl ihr =>
    intro pass hentry entry hmem
    have ihl' := ihl pass hentry
    simp only [ConstantPropagation.visitExpressionTraced] at hmem
    rcases hvisit : ConstantPropagation.visitExpressionTraced lhs pass with
      ⟨entriesLeft, fault | ⟨lhs', pass'⟩⟩
    · rw [hvisit] at hmem ihl'
      simp only [List.mem_cons] at hmem
      rcases hmem with rfl | hmem
      · exact hentry
      · exact ihl' entry hmem
    · rw [hvisit] at hmem ihl'
      simp only at hmem
      have ihr' := ihr { pass' with constantResultFromLastCall := none } rfl
      rcases hvisit' : ConstantPropagation.visitExpressionTraced rhs
          { pass' with constantResultFromLastCall := none } with
        ⟨entriesRight, fault | ⟨rhs', pass''⟩⟩
      all_goals
        rw [hvisit'] at hmem ihr'
        simp only [List.mem_cons, List.mem_append] at hmem
        rcases hmem with rfl | hmem | hmem
        · exact hentry
        · exact ihl' entry hmem
        · exact ihr' entry hmem

/-- The visit of the expression of a statement is entered with an empty
`constantResultFromLastCall` when the visit of the statement is: the log of
the visit of the statement holds empty values only. -/
theorem ConstantPropagation.visitStatementTraced_entries (stmt : Statement)
    (pass : ConstantPropagation) (hentry : pass.constantResultFromLastCall = none) :
    ∀ entry ∈ (ConstantPropagation.visitStatementTraced stmt pass).1, entry = none := by
  intro entry hmem
  cases stmt with
  | AssignmentStatement target e =>
    have hlog := ConstantPropagation.visitExpressionTraced_entries e pass hentry
    simp only [ConstantPropagation.visitStatementTraced] at hmem
    cases hkey : constructKey target.identifierType target.id with
    | error fault =>
      rw [hkey] at hmem
      cases hmem
    | ok key =>
      rw [hkey] at hmem
      simp only at hmem
      rcases hvisit : ConstantPropagation.visitExpressionTraced e pass with
        ⟨entries, fault | ⟨e', pass'⟩⟩
      all_goals
        rw [hvisit] at hmem hlog
        exact hlog entry hmem
  | ReturnStatement e =>
    have hlog := ConstantPropagation.visitExpressionTraced_entries e pass hentry
    simp only [ConstantPropagation.visitStatementTraced] at hmem
    rcases hvisit : ConstantPropagation.visitExpressionTraced e pass with
      ⟨entries, fault | ⟨e', pass'⟩⟩
    all_goals
      rw [hvisit] at hmem hlog
      exact hlog entry hmem

/-- The visit of a statement leaves `constantResultFromLastCall` empty. -/
theorem ConstantPropagation.visitStatement_resets (stmt stmt' : Statement)
    (pass pass' : ConstantPropagation)
    (h : ConstantPropagation.visitStatement stmt pass = .ok (stmt', pass')) :
    pass'.constantResultFromLastCall = none := by
  cases stmt with
  | AssignmentStatement target e =>
    simp only [ConstantPropagation.visitStatement_assignment,
      ConstantPropagation.visitStatement_return] at h
    split at h
    · cases h
    · split at h
      · cases h
      · rename_i e1 p1 _
        cases hresult : p1.constantResultFromLastCall with
        | none =>
          simp only [hresult, Except.ok.injEq, Prod.mk.injEq] at h
          rw [← h.2]
        | some value =>
          simp only [hresult, Except.ok.injEq, Prod.mk.injEq] at h
          rw [← h.2]
  | ReturnStatement e =>
    simp only [ConstantPropagation.visitStatement_assignment,
      ConstantPropagation.visitStatement_return] at h
    split at h
    · cases h
    · rename_i e1 p1 _
      cases hresult : p1.constantResultFromLastCall with
      | none =>
        simp only [hresult, Except.ok.injEq, Prod.mk.injEq] at h
        rw [← h.2]
        exact hresult
      | some value =>
        simp only [hresult, Except.ok.injEq, Prod.mk.injEq] at h
        rw [← h.2]

/-- The visits of the expression nodes of a statement list are all entered
with an empty `constantResultFromLastCall` when the loop over the statements
is: the log of the loop holds empty values only. -/
theorem ConstantPropagation.visitStatementsTraced_entries (statements : List Statement) :
    ∀ pass : ConstantPropagation, pass.constantResultFromLastCall = none →
      ∀ entry ∈ (ConstantPropagation.visitStatementsTraced statements pass).1,
        entry = none := by
  induction statements with
  | nil =>
    intro pass _ entry hmem
    simp only [ConstantPropagation.visitStatementsTraced, List.not_mem_nil] at hmem
  | cons stmt rest ih =>
    intro pass hentry entry hmem
    have hlog := ConstantPropagation.visitStatementTraced_entries stmt pass hentry
    have hresets := ConstantPropagation.visitStatement_resets stmt
    simp only [ConstantPropagation.visitStatement] at hresets
    simp only [ConstantPropagation.visitStatementsTraced] at hmem
    rcases hvisit : ConstantPropagation.visitStatementTraced stmt pass with
      ⟨entries, fault | ⟨stmt', pass'⟩⟩
    · rw [hvisit] at hmem hlog
      exact hlog entry hmem
    · rw [hvisit] at hmem hlog
      simp only at hmem
      have hnext := ih pass' (hresets stmt' pass pass' (by rw [hvisit]))
      rcases hvisit' : ConstantPropagation.visitStatementsTraced rest pass' with
        ⟨entriesRest, fault | ⟨rest', pass''⟩⟩
      all_goals
        rw [hvisit'] at hmem hnext
        simp only [List.mem_append] at hmem
        rcases hmem with hmem | hmem
        · exact hlog entry hmem
        · exact hnext entry hmem

/-- The visits of the expression nodes of a function are all entered with
an empty `constantResultFromLastCall` when the pass is: the log of the pass
holds empty values only. -/
theorem ConstantPropagation.visitTraced_entries (node : Function)
    (pass : ConstantPropagation) (hentry : pass.constantResultFromLastCall = none) :
    ∀ entry ∈ (ConstantPropagation.visitTraced node pass).1, entry = none := by
  intro entry hmem
  have hlog := ConstantPropagation.visitStatementsTraced_entries node.statements pass hentry
  simp only [ConstantPropagation.visitTraced] at hmem
  rcases hvisit : ConstantPropagation.visitStatementsTraced node.statements pass with
    ⟨entries, fault | ⟨statements', pass'⟩⟩
  all_goals
    rw [hvisit] at hmem hlog
    exact hlog entry hmem

end optim

open ast exec analysis optim

/-- C40: during constant propagation on a function, started like `optimize`
starts it with a new pass, and more generally from every state of the pass
with an empty `constantResultFromLastCall`, the visit of every expression
node is entered with an empty `constantResultFromLastCall`: the log of
these values that the pass writes on entry to each visit holds empty values
only, also when the pass stops in a fault, and the pass without the log is
the pass.  The visit of a parameter or variable entered in this way returns
the node as it is and reports the constant `v` if and only if the variable
table holds a record for the identifier that is marked constant and has the
value `v`; it reports no constant otherwise.  (Entered with a value, the
visit of an identifier without a constant record would hand this value on:
the state is returned as it is.)  The program of the test
`AlternatingVariableAndConstantAssignment` has 15 expression nodes and
becomes the program that the test expects. -/
theorem C40_expression_visits_start_empty :
    (∀ (function : Function) (symbolTable : SymbolTable),
      (ConstantPropagation.visitTraced function { symbolTable := symbolTable }).2 =
        ConstantPropagation.visit function { symbolTable := symbolTable } ∧
      ∀ entry ∈ (ConstantPropagation.visitTraced function
          { symbolTable := symbolTable }).1,
        entry = none) ∧
    (∀ (statements : List Statement) (pass : ConstantPropagation),
      pass.constantResultFromLastCall = none →
      ∀ entry ∈ (ConstantPropagation.visitStatementsTraced statements pass).1,
        entry = none) ∧
    (∀ (pass : ConstantPropagation) (identifierType : IdentifierType) (id : Nat),
      pass.constantResultFromLastCall = none → identifierType ≠ .Constant →
      ∃ pass', ConstantPropagation.visitExpression (.Identifier identifierType id) pass =
          .ok (.Identifier identifierType id, pass') ∧
        (∀ v, pass'.constantResultFromLastCall = some v ↔
          ∃ assignment,
            variableTableFind pass.variableTable (id, identifierType) = some assignment ∧
            assignment.hasConstantAssignment = true ∧ assignment.value = v) ∧
        (pass'.constantResultFromLastCall = none ↔
          ∀ assignment,
            variableTableFind pass.variableTable (id, identifierType) = some assignment →
            assignment.hasConstantAssignment = false)) ∧
    (∀ (pass : ConstantPropagation) (identifierType : IdentifierType) (id : Nat),
      identifierType ≠ .Constant →
      (∀ assignment,
        variableTableFind pass.variableTable (id, identifierType) = some assignment →
        assignment.hasConstantAssignment = false) →
      ConstantPropagation.visitExpression (.Identifier identifierType id) pass =
        .ok (.Identifier identifierType id, pass)) ∧
    ((parseAndAnalyze scenarioAlternating).map
        (fun result => result.map (fun (function, symbolTable) =>
          (ConstantPropagation.visitTraced function { symbolTable := symbolTable }).1)) =
      .ok (some (List.replicate 15 none))) ∧
    astAfterConstantPropagation scenarioAlternating =
      .ok (some
        { statements :=
            [.AssignmentStatement { identifierType := .Variable, id := 0 }
              (.ConstantLiteral 1),
             .AssignmentStatement { identifierType := .Variable, id := 1 }
              (.ConstantLiteral 2),
             .AssignmentStatement { identifierType := .Variable, id := 0 }
              (.BinaryOp (.Identifier .Parameter 0) .Add (.Identifier .Parameter 1)),
             .AssignmentStatement { identifierType := .Variable, id := 1 }
              (.BinaryOp (.Identifier .Variable 0) .Add
                (.BinaryOp (.Identifier .Parameter 0) .Add (.Identifier .Parameter 1))),
             .AssignmentStatement { identifierType := .Variable, id := 0 }
              (.ConstantLiteral 3),
             .AssignmentStatement { identifierType := .Variable, id := 1 }
              (.ConstantLiteral 4),
             .ReturnStatement (.ConstantLiteral 7)] }) := by
  refine ⟨fun function symbolTable =>
      ⟨rfl, ConstantPropagation.visitTraced_entries function _ rfl⟩,
    fun statements pass hentry =>
      ConstantPropagation.visitStatementsTraced_entries statements pass hentry,
    ?_, ?_, by decide!, by decide!⟩
  · intro pass identifierType id hentry hty
    simp only [ConstantPropagation.visitExpression_literal, ConstantPropagation.visitExpression_identifier,
      ConstantPropagation.visitExpression_unaryOp, ConstantPropagation.visitExpression_binaryOp, hty, if_false, constructKey]
    cases hfind : variableTableFind pass.variableTable (id, identifierType) with
    | none =>
      refine ⟨pass, rfl, fun v => ⟨fun h => ?_, fun h => ?_⟩, ⟨fun _ => ?_, fun _ => hentry⟩⟩
      · rw [hentry] at h
        cases h
      · obtain ⟨assignment, h, _⟩ := h
        cases h
      · intro assignment h
        cases h
    | some assignment =>
      by_cases hconst : assignment.hasConstantAssignment = true
      · simp only [hconst, if_true]
        refine ⟨_, rfl, fun v => ⟨fun h => ?_, fun h => ?_⟩, ⟨fun h => ?_, fun h => ?_⟩⟩
        · simp only [Option.some.injEq] at h
          exact ⟨assignment, rfl, hconst, h⟩
        · obtain ⟨assignment', h, _, hvalue⟩ := h
          simp only [Option.some.injEq] at h
          subst h
          simp only [hvalue]
        · simp only [reduceCtorEq] at h
        · have := h assignment rfl
          rw [hconst] at this
          cases this
      · have hconst' : assignment.hasConstantAssignment = false := by simpa using hconst
        simp only [hconst', Bool.false_eq_true, if_false]
        refine ⟨pass, rfl, fun v => ⟨fun h => ?_, fun h => ?_⟩, ⟨fun _ => ?_, fun _ => hentry⟩⟩
        · rw [hentry] at h
          cases h
        · obtain ⟨assignment', h, htrue, _⟩ := h
          simp only [Option.some.injEq] at h
          subst h
          rw [hconst'] at htrue
          cases htrue
        · intro assignment' h
          simp only [Option.some.injEq] at h
          subst h
          exact hconst'
  · intro pass identifierType id hty hnone
    simp only [ConstantPropagation.visitExpression_literal, ConstantPropagation.visitExpression_identifier,
      ConstantPropagation.visitExpression_unaryOp, ConstantPropagation.visitExpression_binaryOp, hty, if_false, constructKey]
    cases hfind : variableTableFind pass.variableTable (id, identifierType) with
    | none => rfl
    | some assignment =>
      simp only [hnone assignment hfind, Bool.false_eq_true, if_false]

end pljit

namespace pljit

namespace optim

open ast exec analysis

/-- The visit of a statement returns a statement of the same kind, an
assignment with the same target. -/
theorem ConstantPropagation.visitStatement_kind (stmt stmt' : Statement)
    (pass pass' : ConstantPropagation)
    (h : ConstantPropagation.visitStatement stmt pass = .ok (stmt', pass')) :
    stmt'.isReturnStatement = stmt.isReturnStatement ∧
    (∀ target e, stmt = .AssignmentStatement target e →
      ∃ e', stmt' = .AssignmentStatement target e') ∧
    (∀ e, stmt = .ReturnStatement e → ∃ e', stmt' = .ReturnStatement e') := by
  cases stmt with
  | AssignmentStatement target e =>
    simp only [ConstantPropagation.visitStatement_assignment,
      ConstantPropagation.visitStatement_return] at h
    split at h
    · cases h
    · split at h
      · cases h
      · split at h
        · simp only [Except.ok.injEq, Prod.mk.injEq] at h
          rw [← h.1]
          refine ⟨rfl, fun target' e' heq => ?_, (fun e' heq => by cases heq)⟩
          simp only [Statement.AssignmentStatement.injEq] at heq
          rw [← heq.1]
          exact ⟨_, rfl⟩
        · simp only [Except.ok.injEq, Prod.mk.injEq] at h
          rw [← h.1]
          refine ⟨rfl, fun target' e' heq => ?_, (fun e' heq => by cases heq)⟩
          simp only [Statement.AssignmentStatement.injEq] at heq
          rw [← heq.1]
          exact ⟨_, rfl⟩
  | ReturnStatement e =>
    simp only [ConstantPropagation.visitStatement_assignment,
      ConstantPropagation.visitStatement_return] at h
    split at h
    · cases h
    · split at h
      · simp only [Except.ok.injEq, Prod.mk.injEq] at h
        rw [← h.1]
        exact ⟨rfl, (fun target' e' heq => by cases heq), fun e' _ => ⟨_, rfl⟩⟩
      · simp only [Except.ok.injEq, Prod.mk.injEq] at h
        rw [← h.1]
        exact ⟨rfl, (fun target' e' heq => by cases heq), fun e' _ => ⟨_, rfl⟩⟩

/-- The loop over the statements returns one statement per statement, each of
the kind of the original one and with its target. -/
theorem ConstantPropagation.visitStatements_kinds (statements : List Statement) :
    ∀ (pass pass' : ConstantPropagation) (statements' : List Statement),
      ConstantPropagation.visitStatements statements pass = .ok (statements', pass') →
      List.Forall₂
        (fun stmt stmt' =>
          stmt'.isReturnStatement = stmt.isReturnStatement ∧
          (∀ target e, stmt = .AssignmentStatement target e →
            ∃ e', stmt' = .AssignmentStatement target e') ∧
          (∀ e, stmt = .ReturnStatement e → ∃ e', stmt' = .ReturnStatement e'))
        statements statements' := by
  induction statements with
  | nil =>
    intro pass pass' statements' h
    simp only [ConstantPropagation.visitStatements_nil,
      ConstantPropagation.visitStatements_cons, Except.ok.injEq, Prod.mk.injEq] at h
    rw [← h.1]
    exact List.Forall₂.nil
  | cons stmt rest ih =>
    intro pass pass' statements' h
    simp only [ConstantPropagation.visitStatements_nil,
      ConstantPropagation.visitStatements_cons] at h
    split at h
    · cases h
    · rename_i stmt1 p1 hstmt
      split at h
      · cases h
      · rename_i rest1 p2 hrest
        simp only [Except.ok.injEq, Prod.mk.injEq] at h
        rw [← h.1]
        exact List.Forall₂.cons
          (ConstantPropagation.visitStatement_kind stmt stmt1 pass p1 hstmt)
          (ih p1 p2 rest1 hrest)

/-- The loop over a statement list that is split in two: the first part is
rewritten as it is without the second part behind it, and the second part is
rewritten from the state that the first part leaves. -/
theorem ConstantPropagation.visitStatements_append (first second : List Statement) :
    ∀ (pass pass' : ConstantPropagation) (statements' : List Statement),
      ConstantPropagation.visitStatements (first ++ second) pass = .ok (statements', pass') →
      ∃ first' second' mid,
        ConstantPropagation.visitStatements first pass = .ok (first', mid) ∧
        ConstantPropagation.visitStatements second mid = .ok (second', pass') ∧
        statements' = first' ++ second' := by
  induction first with
  | nil =>
    intro pass pass' statements' h
    exact ⟨[], statements', pass, rfl, h, rfl⟩
  | cons stmt rest ih =>
    intro pass pass' statements' h
    simp only [List.cons_append, ConstantPropagation.visitStatements_nil,
      ConstantPropagation.visitStatements_cons] at h
    split at h
    · cases h
    · rename_i stmt1 p1 hstmt
      split at h
      · cases h
      · rename_i rest1 p2 hrest
        simp only [Except.ok.injEq, Prod.mk.injEq] at h
        obtain ⟨first', second', mid, hfirst, hsecond, heq⟩ := ih p1 p2 rest1 hrest
        refine ⟨stmt1 :: first', second', mid, ?_, ?_, ?_⟩
        · simp only [ConstantPropagation.visitStatements_nil,
      ConstantPropagation.visitStatements_cons, hstmt, hfirst]
        · rw [← h.2]
          exact hsecond
        · rw [← h.1, heq]
          rfl

/-- The index that the search loop of the dead code elimination finds
depends on the kinds of the statements only. -/
theorem DeadCodeElimination.firstReturnStatementId_kinds (statements : List Statement) :
    ∀ statements' : List Statement,
      List.Forall₂ (fun stmt stmt' => stmt'.isReturnStatement = stmt.isReturnStatement)
        statements statements' →
      DeadCodeElimination.firstReturnStatementId statements' =
        DeadCodeElimination.firstReturnStatementId statements := by
  induction statements with
  | nil =>
    intro statements' h
    cases h
    rfl
  | cons stmt rest ih =>
    intro statements' h
    cases h with
    | cons hhead htail =>
      simp only [DeadCodeElimination.firstReturnStatementId, hhead, ih _ htail]

end optim

end pljit

namespace pljit

open ast exec analysis optim

/-- C38: constant propagation on a function returns a function with as many
statements, and the statement at each index is of the kind of the original
statement at this index, a return statement for a return statement and an
assignment to the same target for an assignment: only the expressions can
differ.  On every function whose ids are in range, as the functions are
that the semantic analysis builds, the pass returns or stops in the division
of the smallest value by -1; it fails no assertion and reads outside no
vector. -/
theorem C38_constant_propagation_keeps_statement_shape (function function' : Function)
    (pass pass' : ConstantPropagation)
    (hvisit : ConstantPropagation.visit function pass = .ok (function', pass')) :
    function'.statements.length = function.statements.length ∧
    (∀ (i : Nat) (stmt : Statement), function.statements[i]? = some stmt →
      ∃ stmt', function'.statements[i]? = some stmt' ∧
        stmt'.isReturnStatement = stmt.isReturnStatement ∧
        (∀ target e, stmt = .AssignmentStatement target e →
          ∃ e', stmt' = .AssignmentStatement target e') ∧
        (∀ e, stmt = .ReturnStatement e → ∃ e', stmt' = .ReturnStatement e')) ∧
    (∀ (node : Function) (symbolTable : SymbolTable),
      (∀ stmt ∈ node.statements, stmt.idsInRange symbolTable = true) →
      (∃ node' state,
        ConstantPropagation.visit node { symbolTable := symbolTable } = .ok (node', state)) ∨
      ConstantPropagation.visit node { symbolTable := symbolTable } =
        .error .divisionOverflow) := by
  simp only [ConstantPropagation.visit_function] at hvisit
  split at hvisit
  · cases hvisit
  rename_i statements' p hstatements
  simp only [Except.ok.injEq, Prod.mk.injEq] at hvisit
  rw [← hvisit.1]
  have hkinds := ConstantPropagation.visitStatements_kinds function.statements pass p
    statements' hstatements
  have hlength := hkinds.length_eq
  refine ⟨hlength.symm, ?_, ?_⟩
  · intro i stmt hstmt
    obtain ⟨hlt, hget⟩ := List.getElem?_eq_some.mp hstmt
    have hlt' : i < statements'.length := by
      rw [← hlength]
      exact hlt
    have hrel := hkinds.get hlt hlt'
    rw [List.get_eq_getElem, List.get_eq_getElem, hget] at hrel
    exact ⟨statements'[i], List.getElem?_eq_getElem hlt', hrel⟩
  · intro node symbolTable hrange
    rcases ConstantPropagation.visitStatements_total node.statements
      { symbolTable := symbolTable } hrange with ⟨statements₁, p₁, h₁⟩ | h₁
    · left
      simp only [ConstantPropagation.visit_function, h₁]
      exact ⟨_, _, rfl⟩
    · right
      simp only [ConstantPropagation.visit_function, h₁]

/-- Witness of C38 on the scenario with dead code and constant folding. -/
theorem C38_constant_propagation_keeps_statement_shape_witness :
    scenarioDeadCodePropagated.statements.length = scenarioDeadCodeFunction.statements.length ∧
    (∀ (i : Nat) (stmt : Statement), scenarioDeadCodeFunction.statements[i]? = some stmt →
      ∃ stmt', scenarioDeadCodePropagated.statements[i]? = some stmt' ∧
        stmt'.isReturnStatement = stmt.isReturnStatement ∧
        (∀ target e, stmt = .AssignmentStatement target e →
          ∃ e', stmt' = .AssignmentStatement target e') ∧
        (∀ e, stmt = .ReturnStatement e → ∃ e', stmt' = .ReturnStatement e')) ∧
    (∀ (node : Function) (symbolTable : SymbolTable),
      (∀ stmt ∈ node.statements, stmt.idsInRange symbolTable = true) →
      (∃ node' state,
        ConstantPropagation.visit node { symbolTable := symbolTable } = .ok (node', state)) ∨
      ConstantPropagation.visit node { symbolTable := symbolTable } =
        .error .divisionOverflow) :=
  C38_constant_propagation_keeps_statement_shape scenarioDeadCodeFunction
    scenarioDeadCodePropagated { symbolTable := scenarioDeadCodeTable } scenarioDeadCodePass
    (by decide!)

/-- C37: the claim fails on the source code
`BEGIN RETURN 1; RETURN 9223372036854775808 / -1 END.`: dead code elimination
followed by constant propagation, the order of `optimize`, returns the
function with the one statement `RETURN 1`, whereas constant propagation
applied first visits the dead statement as well and divides the smallest
value by -1, a division that only a zero divisor is tested for; it does not
return, and no AST is left to compare.  On every function whose ids are in
range and that contains a return statement, as the functions are that the
semantic analysis builds, dead code elimination returns, and constant
propagation, from any state of the pass for the symbol table, returns or
stops in such a division, on the function and on what dead code elimination
keeps of it; when constant propagation returns on the whole function, the
two orders return the same function.  On the scenario with dead code and
constant folding both orders return the same function. -/
theorem C37_passes_differ_in_dead_division_overflow :
    (parseAndAnalyze scenarioOverflowInDeadCode).map
        (fun result => result.map (fun (function, symbolTable) =>
          ((DeadCodeElimination.visit function).bind (fun kept =>
              (ConstantPropagation.visit kept { symbolTable := symbolTable }).map
                (fun visited => visited.1)),
            (ConstantPropagation.visit function { symbolTable := symbolTable }).bind
              (fun visited => DeadCodeElimination.visit visited.1)))) =
      .ok (some (.ok { statements := [.ReturnStatement (.ConstantLiteral 1)] },
        .error .divisionOverflow)) ∧
    (∀ (function : Function) (pass : ConstantPropagation),
      (∀ stmt ∈ function.statements, stmt.idsInRange pass.symbolTable = true) →
      (∃ stmt ∈ function.statements, stmt.isReturnStatement = true) →
      ∃ kept, DeadCodeElimination.visit function = .ok kept ∧
        ((∃ result passKept, ConstantPropagation.visit kept pass = .ok (result, passKept)) ∨
          ConstantPropagation.visit kept pass = .error .divisionOverflow) ∧
        ((∃ propagated passAll,
            ConstantPropagation.visit function pass = .ok (propagated, passAll)) ∨
          ConstantPropagation.visit function pass = .error .divisionOverflow) ∧
        ∀ propagated passAll,
          ConstantPropagation.visit function pass = .ok (propagated, passAll) →
          ∃ result passKept,
            ConstantPropagation.visit kept pass = .ok (result, passKept) ∧
            DeadCodeElimination.visit propagated = .ok result) ∧
    (DeadCodeElimination.visit scenarioDeadCodeFunction).bind (fun kept =>
        (ConstantPropagation.visit kept { symbolTable := scenarioDeadCodeTable }).map
          (fun visited => visited.1)) =
      .ok { statements := scenarioDeadCodePropagated.statements.take 2 } ∧
    (ConstantPropagation.visit scenarioDeadCodeFunction
        { symbolTable := scenarioDeadCodeTable }).bind
          (fun visited => DeadCodeElimination.visit visited.1) =
      .ok { statements := scenarioDeadCodePropagated.statements.take 2 } := by
  refine ⟨by decide!, ?_, by decide!, by decide!⟩
  intro function pass hrange hreturn
  obtain ⟨kept, e, removed, hsplit, hnone, hid⟩ :=
    DeadCodeElimination.firstReturnStatementId_split function.statements hreturn
  have hsplit' : function.statements =
      (kept ++ [Statement.ReturnStatement e]) ++ removed := by
    rw [hsplit]
    simp only [List.append_assoc, List.singleton_append]
  have hlt : kept.length < function.statements.length := by
    rw [hsplit]
    simp only [List.length_append, List.length_cons]
    omega
  have hdce : DeadCodeElimination.visit function =
      .ok { statements := kept ++ [Statement.ReturnStatement e] } := by
    simp only [DeadCodeElimination.visit, hid, hlt, if_true]
    rw [hsplit', List.take_left' (by simp)]
  have hrange' : ∀ stmt ∈ kept ++ [Statement.ReturnStatement e],
      stmt.idsInRange pass.symbolTable = true := by
    intro s hs
    apply hrange
    rw [hsplit']
    exact List.mem_append_left _ hs
  refine ⟨{ statements := kept ++ [Statement.ReturnStatement e] }, hdce, ?_, ?_, ?_⟩
  · rcases ConstantPropagation.visitStatements_total (kept ++ [Statement.ReturnStatement e])
      pass hrange' with ⟨statements', pass', hcp⟩ | hcp
    · left
      simp only [ConstantPropagation.visit_function, hcp]
      exact ⟨_, _, rfl⟩
    · right
      simp only [ConstantPropagation.visit_function, hcp]
  · rcases ConstantPropagation.visitStatements_total function.statements pass hrange with
      ⟨statements', pass', hcp⟩ | hcp
    · left
      simp only [ConstantPropagation.visit_function, hcp]
      exact ⟨_, _, rfl⟩
    · right
      simp only [ConstantPropagation.visit_function, hcp]
  · intro propagated passAll hvisit
    simp only [ConstantPropagation.visit_function] at hvisit
    split at hvisit
    · cases hvisit
    rename_i all' passAll' hall
    simp only [Except.ok.injEq, Prod.mk.injEq] at hvisit
    obtain ⟨rfl, rfl⟩ := hvisit
    have hall' := hall
    rw [hsplit'] at hall'
    obtain ⟨first', second', mid, hfirst, hsecond, heq⟩ :=
      ConstantPropagation.visitStatements_append _ _ pass passAll' all' hall'
    have hkinds := ConstantPropagation.visitStatements_kinds function.statements pass
      passAll' all' hall
    have hkinds' : List.Forall₂
        (fun stmt stmt' => stmt'.isReturnStatement = stmt.isReturnStatement)
        function.statements all' := List.Forall₂.imp (fun _ _ h => h.1) hkinds
    have hid' := DeadCodeElimination.firstReturnStatementId_kinds function.statements all'
      hkinds'
    have hlength := hkinds.length_eq
    have hfirstLength : first'.length = kept.length + 1 := by
      have := (ConstantPropagation.visitStatements_kinds _ pass mid first' hfirst).length_eq
      rw [← this]
      simp only [List.length_append, List.length_singleton]
    have hdce' : DeadCodeElimination.visit { statements := all' } =
        .ok { statements := first' } := by
      have hlt' : kept.length < all'.length := by
        rw [← hlength]
        exact hlt
      simp only [DeadCodeElimination.visit, hid', hid, hlt', if_true]
      rw [heq, List.take_left' hfirstLength]
    refine ⟨{ statements := first' }, mid, ?_, hdce'⟩
    simp only [ConstantPropagation.visit_function, hfirst]

end pljit

namespace pljit

namespace optim

open ast exec analysis

/-- Constant propagation keeps the ids of an expression in range: the nodes
it puts in are literals. -/
theorem ConstantPropagation.visitExpression_idsInRange (table : SymbolTable)
    (e : Expression) :
    ∀ (pass pass' : ConstantPropagation) (e' : Expression),
      ConstantPropagation.visitExpression e pass = .ok (e', pass') →
      e.idsInRange table = true → e'.idsInRange table = true := by
  induction e with
  | ConstantLiteral value =>
    intro pass pass' e' h hrange
    simp only [ConstantPropagation.visitExpression_literal, ConstantPropagation.visitExpression_identifier,
      ConstantPropagation.visitExpression_unaryOp, ConstantPropagation.visitExpression_binaryOp, Except.ok.injEq, Prod.mk.injEq] at h
    rw [← h.1]
    rfl
  | Identifier ty id =>
    intro pass pass' e' h hrange
    have heq : e' = .Identifier ty id := by
      simp only [ConstantPropagation.visitExpression_literal, ConstantPropagation.visitExpression_identifier,
      ConstantPropagation.visitExpression_unaryOp, ConstantPropagation.visitExpression_binaryOp] at h
      split at h
      · split at h
        · simp only [Except.ok.injEq, Prod.mk.injEq] at h
          exact h.1.symm
        · cases h
      · split at h
        · cases h
        · split at h
          · split at h
            · simp only [Except.ok.injEq, Prod.mk.injEq] at h
              exact h.1.symm
            · simp only [Except.ok.injEq, Prod.mk.injEq] at h
              exact h.1.symm
          · simp only [Except.ok.injEq, Prod.mk.injEq] at h
            exact h.1.symm
    rw [heq]
    exact hrange
  | UnaryOp op e ih =>
    intro pass pass' e' h hrange
    simp only [Expression.idsInRange] at hrange
    simp only [ConstantPropagation.visitExpression_literal, ConstantPropagation.visitExpression_identifier,
      ConstantPropagation.visitExpression_unaryOp, ConstantPropagation.visitExpression_binaryOp] at h
    split at h
    · cases h
    · rename_i e1 p1 hvisit
      have he1 := ih pass p1 e1 hvisit hrange
      have heq : e' = .UnaryOp op e1 := by
        split at h
        · split at h
          · simp only [Except.ok.injEq, Prod.mk.injEq] at h
            exact h.1.symm
          · simp only [Except.ok.injEq, Prod.mk.injEq] at h
            exact h.1.symm
        · simp only [Except.ok.injEq, Prod.mk.injEq] at h
          exact h.1.symm
      rw [heq]
      exact he1
  | BinaryOp lhs op rhs ihl ihr =>
    intro pass pass' e' h hrange
    simp only [Expression.idsInRange, Bool.and_eq_true] at hrange
    simp only [ConstantPropagation.visitExpression_literal, ConstantPropagation.visitExpression_identifier,
      ConstantPropagation.visitExpression_unaryOp, ConstantPropagation.visitExpression_binaryOp] at h
    split at h
    · cases h
    · rename_i l1 p1 hvisit1
      split at h
      · cases h
      · rename_i r1 p2 hvisit2
        have hl1 := ihl pass p1 l1 hvisit1 hrange.1
        have hr1 := ihr _ p2 r1 hvisit2 hrange.2
        have hboth : (Expression.BinaryOp l1 op r1).idsInRange table = true := by
          simp only [Expression.idsInRange, hl1, hr1, Bool.and_self]
        split at h
        · rename_i lv rv _ _
          cases op with
          | Add =>
            simp only [Except.ok.injEq, Prod.mk.injEq] at h
            rw [← h.1]
            exact hboth
          | Sub =>
            simp only [Except.ok.injEq, Prod.mk.injEq] at h
            rw [← h.1]
            exact hboth
          | Mul =>
            simp only [Except.ok.injEq, Prod.mk.injEq] at h
            rw [← h.1]
            exact hboth
          | Div =>
            simp only at h
            split at h
            · simp only [Except.ok.injEq, Prod.mk.injEq] at h
              rw [← h.1]
              exact hboth
            · split at h
              · cases h
              · simp only [Except.ok.injEq, Prod.mk.injEq] at h
                rw [← h.1]
                exact hboth
        · simp only [Except.ok.injEq, Prod.mk.injEq] at h
          rw [← h.1]
          simp only [Expression.idsInRange, hr1, Bool.and_self]
        · simp only [Except.ok.injEq, Prod.mk.injEq] at h
          rw [← h.1]
          simp only [Expression.idsInRange, hl1, Bool.and_self]
        · simp only [Except.ok.injEq, Prod.mk.injEq] at h
          rw [← h.1]
          exact hboth

/-- Constant propagation keeps the ids of a statement in range. -/
theorem ConstantPropagation.visitStatement_idsInRange (table : SymbolTable)
    (stmt stmt' : Statement) (pass pass' : ConstantPropagation)
    (h : ConstantPropagation.visitStatement stmt pass = .ok (stmt', pass'))
    (hrange : stmt.idsInRange table = true) : stmt'.idsInRange table = true := by
  cases stmt with
  | AssignmentStatement target e =>
    simp only [Statement.idsInRange, Bool.and_eq_true] at hrange
    simp only [ConstantPropagation.visitStatement_assignment,
      ConstantPropagation.visitStatement_return] at h
    split at h
    · cases h
    · split at h
      · cases h
      · rename_i e1 p1 hvisit
        have he1 := ConstantPropagation.visitExpression_idsInRange table e pass p1 e1 hvisit
          hrange.2
        split at h
        · simp only [Except.ok.injEq, Prod.mk.injEq] at h
          rw [← h.1]
          simp only [Statement.idsInRange, hrange.1.1, hrange.1.2, Expression.idsInRange,
            Bool.and_self]
        · simp only [Except.ok.injEq, Prod.mk.injEq] at h
          rw [← h.1]
          simp only [Statement.idsInRange, hrange.1.1, hrange.1.2, he1, Bool.and_self]
  | ReturnStatement e =>
    simp only [Statement.idsInRange] at hrange
    simp only [ConstantPropagation.visitStatement_assignment,
      ConstantPropagation.visitStatement_return] at h
    split at h
    · cases h
    · rename_i e1 p1 hvisit
      have he1 := ConstantPropagation.visitExpression_idsInRange table e pass p1 e1 hvisit
        hrange
      split at h
      · simp only [Except.ok.injEq, Prod.mk.injEq] at h
        rw [← h.1]
        rfl
      · simp only [Except.ok.injEq, Prod.mk.injEq] at h
        rw [← h.1]
        exact he1

/-- Constant propagation keeps the ids of a statement list in range. -/
theorem ConstantPropagation.visitStatements_idsInRange (table : SymbolTable)
    (statements : List Statement) :
    ∀ (pass pass' : ConstantPropagation) (statements' : List Statement),
      ConstantPropagation.visitStatements statements pass = .ok (statements', pass') →
      (∀ stmt ∈ statements, stmt.idsInRange table = true) →
      ∀ stmt ∈ statements', stmt.idsInRange table = true := by
  induction statements with
  | nil =>
    intro pass pass' statements' h _ stmt hmem
    simp only [ConstantPropagation.visitStatements_nil,
      ConstantPropagation.visitStatements_cons, Except.ok.injEq, Prod.mk.injEq] at h
    rw [← h.1] at hmem
    cases hmem
  | cons first rest ih =>
    intro pass pass' statements' h hrange stmt hmem
    simp only [ConstantPropagation.visitStatements_nil,
      ConstantPropagation.visitStatements_cons] at h
    split at h
    · cases h
    · rename_i first1 p1 hfirst
      split at h
      · cases h
      · rename_i rest1 p2 hrest
        simp only [Except.ok.injEq, Prod.mk.injEq] at h
        rw [← h.1] at hmem
        rcases List.mem_cons.mp hmem with rfl | hmem'
        · exact ConstantPropagation.visitStatement_idsInRange table first _ pass p1 hfirst
            (hrange first (List.mem_cons_self _ _))
        · exact ih p1 p2 rest1 hrest (fun s hs => hrange s (List.mem_cons_of_mem _ hs))
            stmt hmem'

end optim

open ast exec analysis optim

/-- The optimisation passes keep the ids of a function in range. -/
theorem optimize_idsInRange (function optimized : Function) (symbolTable : SymbolTable)
    (h : optimize function symbolTable = .ok optimized)
    (hrange : ∀ stmt ∈ function.statements, stmt.idsInRange symbolTable = true) :
    ∀ stmt ∈ optimized.statements, stmt.idsInRange symbolTable = true := by
  simp only [optimize] at h
  split at h
  · cases h
  rename_i kept hdce
  split at h
  · cases h
  rename_i propagated p hcp
  simp only [Except.ok.injEq] at h
  subst h
  have hkept : ∀ stmt ∈ kept.statements, stmt.idsInRange symbolTable = true := by
    simp only [DeadCodeElimination.visit] at hdce
    split at hdce
    · simp only [Except.ok.injEq] at hdce
      rw [← hdce]
      intro stmt hmem
      exact hrange stmt (List.mem_of_mem_take hmem)
    · cases hdce
  simp only [ConstantPropagation.visit_function] at hcp
  split at hcp
  · cases hcp
  rename_i statements' p' hstatements
  simp only [Except.ok.injEq, Prod.mk.injEq] at hcp
  rw [← hcp.1]
  exact ConstantPropagation.visitStatements_idsInRange symbolTable kept.statements _ p'
    statements' hstatements hkept

/-- C35: for every source code that parses and analyses successfully and
every argument vector with one argument per parameter.  In the unoptimised
AST, and in the optimised AST when the optimisation returns one, every id
that an expression reads and every assignment target is below the size of
its namespace in the symbol table, for a constant below the number of stored
constant values; the initial execution context has one parameter value per
parameter and one variable value per variable, and from every context of
these sizes each statement of either AST executes without a read or write
outside a vector and without a failed assertion: it returns and leaves a
context of these sizes, or it stops in the division of the smallest value by
-1, the only other outcome; so do the optimisation itself and both
executions of the function from the initial context. -/
theorem C35_evaluation_stays_within_bounds (code : List Char) (function : Function)
    (symbolTable : SymbolTable) (parameters : List Int)
    (hcompile : parseAndAnalyze code = .ok (some (function, symbolTable)))
    (hparameters : parameters.length = symbolTable.getNumberOfParameters) :
    ((∃ optimized, optimize function symbolTable = .ok optimized) ∨
      optimize function symbolTable = .error .divisionOverflow) ∧
    (ExecutionContext.new parameters symbolTable).Fits symbolTable ∧
    ((∃ context, function.execute (ExecutionContext.new parameters symbolTable) =
        .ok context) ∨
      function.execute (ExecutionContext.new parameters symbolTable) =
        .error .divisionOverflow) ∧
    (∀ stmt ∈ function.statements,
      stmt.idsInRange symbolTable = true ∧
      (∀ id, (IdentifierType.Constant, id) ∈ stmt.getExpression.reads →
        id < symbolTable.constantValues.length) ∧
      ∀ context : ExecutionContext, context.Fits symbolTable →
        (∃ context', stmt.execute context = .ok context' ∧ context'.Fits symbolTable) ∨
          stmt.execute context = .error .divisionOverflow) ∧
    ∀ optimized, optimize function symbolTable = .ok optimized →
      ((∃ context, optimized.execute (ExecutionContext.new parameters symbolTable) =
          .ok context) ∨
        optimized.execute (ExecutionContext.new parameters symbolTable) =
          .error .divisionOverflow) ∧
      ∀ stmt ∈ optimized.statements,
        stmt.idsInRange symbolTable = true ∧
        (∀ id, (IdentifierType.Constant, id) ∈ stmt.getExpression.reads →
          id < symbolTable.constantValues.length) ∧
        ∀ context : ExecutionContext, context.Fits symbolTable →
          (∃ context', stmt.execute context = .ok context' ∧ context'.Fits symbolTable) ∨
            stmt.execute context = .error .divisionOverflow := by
  obtain ⟨node, manager, analysis, han, rfl⟩ := parseAndAnalyze_ok code function _ hcompile
  obtain ⟨_, hrange, _, hreturn⟩ :=
    SemanticAnalysis.analyzeFunction_wellFormed node manager function analysis han
  obtain ⟨htotal, _⟩ :=
    optimize_preserves_execution function analysis.symbolTable hrange hreturn
  have hfits := ExecutionContext.new_fits analysis.symbolTable parameters hparameters
  have hstatement : ∀ stmt : Statement, stmt.idsInRange analysis.symbolTable = true →
      stmt.idsInRange analysis.symbolTable = true ∧
      (∀ id, (IdentifierType.Constant, id) ∈ stmt.getExpression.reads →
        id < analysis.symbolTable.constantValues.length) ∧
      ∀ context : ExecutionContext, context.Fits analysis.symbolTable →
        (∃ context', stmt.execute context = .ok context' ∧
          context'.Fits analysis.symbolTable) ∨
          stmt.execute context = .error .divisionOverflow := by
    intro stmt hstmt
    refine ⟨hstmt, ?_, fun context hcontext =>
      Statement.execute_total analysis.symbolTable stmt context hcontext hstmt⟩
    intro id hread
    have hexpression : stmt.getExpression.idsInRange analysis.symbolTable = true := by
      cases stmt with
      | AssignmentStatement target e =>
        simp only [Statement.idsInRange, Bool.and_eq_true] at hstmt
        exact hstmt.2
      | ReturnStatement e => exact hstmt
    exact Expression.idsInRange_reads _ _ hexpression .Constant id hread
  refine ⟨htotal, hfits,
    executeStatements_total analysis.symbolTable function.statements _ hfits hrange,
    fun stmt hmem => hstatement stmt (hrange stmt hmem), ?_⟩
  intro optimized hopt
  have hrange' := optimize_idsInRange function optimized analysis.symbolTable hopt hrange
  exact ⟨executeStatements_total analysis.symbolTable optimized.statements _ hfits hrange',
    fun stmt hmem => hstatement stmt (hrange' stmt hmem)⟩

/-- Witness of C35 on the scenario with dead code and constant folding. -/
theorem C35_evaluation_stays_within_bounds_witness :
    ((∃ optimized, optimize scenarioDeadCodeFunction scenarioDeadCodeTable = .ok optimized) ∨
      optimize scenarioDeadCodeFunction scenarioDeadCodeTable = .error .divisionOverflow) ∧
    (ExecutionContext.new [] scenarioDeadCodeTable).Fits scenarioDeadCodeTable ∧
    ((∃ context, scenarioDeadCodeFunction.execute
        (ExecutionContext.new [] scenarioDeadCodeTable) = .ok context) ∨
      scenarioDeadCodeFunction.execute (ExecutionContext.new [] scenarioDeadCodeTable) =
        .error .divisionOverflow) ∧
    (∀ stmt ∈ scenarioDeadCodeFunction.statements,
      stmt.idsInRange scenarioDeadCodeTable = true ∧
      (∀ id, (IdentifierType.Constant, id) ∈ stmt.getExpression.reads →
        id < scenarioDeadCodeTable.constantValues.length) ∧
      ∀ context : ExecutionContext, context.Fits scenarioDeadCodeTable →
        (∃ context', stmt.execute context = .ok context' ∧
          context'.Fits scenarioDeadCodeTable) ∨
          stmt.execute context = .error .divisionOverflow) ∧
    ∀ optimized, optimize scenarioDeadCodeFunction scenarioDeadCodeTable = .ok optimized →
      ((∃ context, optimized.execute (ExecutionContext.new [] scenarioDeadCodeTable) =
          .ok context) ∨
        optimized.execute (ExecutionContext.new [] scenarioDeadCodeTable) =
          .error .divisionOverflow) ∧
      ∀ stmt ∈ optimized.statements,
        stmt.idsInRange scenarioDeadCodeTable = true ∧
        (∀ id, (IdentifierType.Constant, id) ∈ stmt.getExpression.reads →
          id < scenarioDeadCodeTable.constantValues.length) ∧
        ∀ context : ExecutionContext, context.Fits scenarioDeadCodeTable →
          (∃ context', stmt.execute context = .ok context' ∧
            context'.Fits scenarioDeadCodeTable) ∨
            stmt.execute context = .error .divisionOverflow :=
  C35_evaluation_stays_within_bounds scenarioDeadCode scenarioDeadCodeFunction
    scenarioDeadCodeTable [] (by decide!) (by decide!)

end pljit

namespace pljit

namespace lexer

open common

/-- A string of whitespace characters is its own leading whitespace. -/
theorem leadingWhitespace_all (sourceCode : List Char)
    (h : ∀ c ∈ sourceCode, isWhitespace c = true) :
    leadingWhitespace sourceCode = sourceCode.length := by
  induction sourceCode with
  | nil => rfl
  | cons head rest ih =>
    simp only [leadingWhitespace, h head (List.mem_cons_self _ _), if_true, List.length_cons,
      ih (fun c hc => h c (List.mem_cons_of_mem _ hc))]

/-- The lexer constructed on a source code of whitespace characters has no
token, and `peek()` and `next()` fail the assertion `hasNext()`. -/
theorem Lexer.new_blank (sourceCode : List Char)
    (h : ∀ c ∈ sourceCode, isWhitespace c = true) :
    (Lexer.new { sourceCode := sourceCode }).hasNext = false ∧
    (Lexer.new { sourceCode := sourceCode }).next = .error .assertion ∧
    (Lexer.new { sourceCode := sourceCode }).peek = .error .assertion := by
  have hcurrent : (Lexer.new { sourceCode := sourceCode }).current = sourceCode.length := by
    simp only [Lexer.new, Lexer.trimLeadingWhitespace, List.drop_zero, Nat.zero_add,
      leadingWhitespace_all sourceCode h]
  have hcache : (Lexer.new { sourceCode := sourceCode }).tokenCache = none := rfl
  have hsource : (Lexer.new { sourceCode := sourceCode }).sourceCodeManager.sourceCode =
      sourceCode := rfl
  have hnext : (Lexer.new { sourceCode := sourceCode }).hasNext = false := by
    simp only [Lexer.hasNext, hcurrent, hcache, hsource, bne_self_eq_false,
      Option.isSome_none, Bool.or_self]
  have hfail : (Lexer.new { sourceCode := sourceCode }).next = .error .assertion := by
    simp only [Lexer.next, hcache, hnext, Bool.not_false, if_true]
  refine ⟨hnext, hfail, ?_⟩
  simp only [Lexer.peek, hcache, hfail]

end lexer

open common lexer parser analysis

/-- C34: the claim fails on the source code
`CONST A = 18446744073709551615; BEGIN RETURN A END.`: the literal is
converted with `uint64_t` arithmetic and cast to `int64_t`, which gives the
constant value -1, and the semantic analysis passes it to `registerSymbol`,
whose assertion `constantValue != -1` fails; the compilation does not
return.  The literal `9223372036854775808` gives the negative constant value
`-2^63`, which is registered and returned by the program.  A literal text
whose decimal value is below `2^63`, as `9223372036854775807`, gives this
value, which is not negative, and `registerSymbol` returns for it. -/
theorem C34_constant_value_minus_one_fails_assertion :
    parseLiteralToInt64 "18446744073709551615".toList = -1 ∧
    parseAndAnalyze scenarioConstantAllOnes = .error .assertion ∧
    (FunctionFrame.new scenarioConstantAllOnes).compile = .error .assertion ∧
    parseLiteralToInt64 "9223372036854775808".toList = -9223372036854775808 ∧
    (parseAndAnalyze scenarioConstantNegative).map
        (fun result => result.map (fun (_, symbolTable) => symbolTable.constantValues)) =
      .ok (some [-9223372036854775808]) ∧
    (invokeFresh (String.mk scenarioConstantNegative) []).map (·.result) =
      .ok { value := -9223372036854775808, resultCode := .Success } ∧
    (invokeFresh (String.mk scenarioConstantLargest) []).map (·.result) =
      .ok { value := 9223372036854775807, resultCode := .Success } ∧
    (∀ str : List Char, decimalValue str < 9223372036854775808 →
      parseLiteralToInt64 str = (decimalValue str : Int) ∧
      0 ≤ parseLiteralToInt64 str ∧
      ∀ (table : SymbolTable) (sourceCode : List Char) (ref : SourceRangeReference),
        ∃ result, table.registerSymbol sourceCode .Constant ref (parseLiteralToInt64 str) =
          .ok result) := by
  refine ⟨by decide!, by decide!, by decide!, by decide!, by decide!, by decide!, by decide!,
    ?_⟩
  intro str hsmall
  have hloop := parseLiteralToInt64_loop str str.length 0 1 (Nat.le_refl _) (by decide)
  simp only [List.take_length, Nat.zero_add, Nat.one_mul] at hloop
  have hmod : decimalValue str % 18446744073709551616 = decimalValue str :=
    Nat.mod_eq_of_lt (by omega)
  have hvalue : parseLiteralToInt64 str = (decimalValue str : Int) := by
    simp only [parseLiteralToInt64, hloop, hmod, wrapInt64]
    omega
  refine ⟨hvalue, by rw [hvalue]; exact Int.ofNat_nonneg _, ?_⟩
  intro table sourceCode ref
  have hne : parseLiteralToInt64 str ≠ -1 := by
    rw [hvalue]
    omega
  simp only [SymbolTable.registerSymbol]
  split
  · exact ⟨_, rfl⟩
  · simp only [hne, if_false]
    exact ⟨_, rfl⟩

/-- C36: the claim fails on every source code that is not empty and
consists of whitespace only, as the source code of a blank, a line feed, a
tabulator and a blank: the constructor of the lexer skips the whitespace, so
that `hasNext()` is false; the constructor of the parser calls `peek()`,
which calls `next()`, whose assertion `hasNext()` fails; the compilation
does not return. -/
theorem C36_parser_construction_on_blank_source :
    scenarioBlank ≠ [] ∧
    (∀ c ∈ scenarioBlank, isWhitespace c = true) ∧
    (Lexer.new { sourceCode := scenarioBlank }).hasNext = false ∧
    (Lexer.new { sourceCode := scenarioBlank }).peek = .error .assertion ∧
    Parser.new { sourceCode := scenarioBlank } = .error .assertion ∧
    (FunctionFrame.new scenarioBlank).compile = .error .assertion ∧
    (∀ code : List Char, code ≠ [] → (∀ c ∈ code, isWhitespace c = true) →
      (Lexer.new { sourceCode := code }).hasNext = false ∧
      (Lexer.new { sourceCode := code }).peek = .error .assertion ∧
      Parser.new { sourceCode := code } = .error .assertion ∧
      (FunctionFrame.new code).compile = .error .assertion) := by
  refine ⟨by decide, by decide, by decide!, by decide!, by decide!, by decide!, ?_⟩
  intro code hne hblank
  obtain ⟨hnext, _, hpeek⟩ := Lexer.new_blank code hblank
  have hnew : Parser.new { sourceCode := code } = .error .assertion := by
    simp only [Parser.new, hpeek]
  refine ⟨hnext, hpeek, hnew, ?_⟩
  have hempty : code.isEmpty = false := by
    cases code with
    | nil => exact absurd rfl hne
    | cons head rest => rfl
  simp only [FunctionFrame.compile, FunctionFrame.new, hempty, Bool.false_eq_true, if_false,
    hnew]

end pljit

namespace pljit

namespace lexer

open common

/-- The function `next` returns only when `hasNext()` is true. -/
theorem Lexer.next_hasNext (lexer lexer' : Lexer) (token : Token)
    (h : lexer.next = .ok (token, lexer')) : lexer.hasNext = true := by
  cases hcache : lexer.tokenCache with
  | some cached =>
    simp only [Lexer.hasNext, hcache, Option.isSome_some, Bool.or_true]
  | none =>
    by_cases hnext : lexer.hasNext = true
    · exact hnext
    · have hnext' : lexer.hasNext = false := by simpa using hnext
      simp only [Lexer.next, hcache, hnext', Bool.not_false, if_true, reduceCtorEq] at h

/-- A lexer hands out no token between a state and itself. -/
theorem Lexer.Hands.same (lexer : Lexer) : lexer.Hands [] lexer :=
  fun fuel _ h => ⟨fuel, h⟩

/-- Tokens handed out one after the other. -/
theorem Lexer.Hands.chain {lexer₁ lexer₂ lexer₃ : Lexer} {first second : List Token}
    (h₁ : lexer₁.Hands first lexer₂) (h₂ : lexer₂.Hands second lexer₃) :
    lexer₁.Hands (first ++ second) lexer₃ := by
  intro fuel rest h
  obtain ⟨fuel₂, h₂'⟩ := h₂ fuel rest h
  obtain ⟨fuel₁, h₁'⟩ := h₁ fuel₂ _ h₂'
  exact ⟨fuel₁, by rw [List.append_assoc]; exact h₁'⟩

/-- A token that is no error token and that `next` returned was handed out
between the two states. -/
theorem Lexer.next_hands (lexer lexer' : Lexer) (token : Token)
    (h : lexer.next = .ok (token, lexer')) (hne : token.tokenType ≠ .LexerError) :
    lexer.Hands [token] lexer' := by
  intro fuel rest hrest
  have hnext := Lexer.next_hasNext lexer lexer' token h
  have herr : token.hasError = false := by
    simp only [Token.hasError, decide_eq_false_iff_not]
    exact hne
  refine ⟨fuel + 1, ?_⟩
  simp only [Lexer.tokens, hnext, Bool.not_true, Bool.false_eq_true, if_false, h, herr, hrest,
    Option.map_some', List.singleton_append]

/-- The function `peek` hands out no token. -/
theorem Lexer.peek_hands (lexer lexer' : Lexer) (token : Token)
    (h : lexer.peek = .ok (token, lexer')) : lexer.Hands [] lexer' := by
  cases hcache : lexer.tokenCache with
  | some cached =>
    rw [Lexer.peek_of_cached lexer cached hcache] at h
    simp only [Except.ok.injEq, Prod.mk.injEq] at h
    rw [← h.2]
    exact Lexer.Hands.same lexer
  | none =>
    cases hstep : lexer.next with
    | error fault =>
      rw [(Lexer.peek_of_empty lexer hcache).1 fault hstep] at h
      cases h
    | ok result =>
      obtain ⟨token', lexer''⟩ := result
      rw [(Lexer.peek_of_empty lexer hcache).2 token' lexer'' hstep] at h
      simp only [Except.ok.injEq, Prod.mk.injEq] at h
      obtain ⟨rfl, rfl⟩ := h
      intro fuel rest hrest
      cases fuel with
      | zero => simp only [Lexer.tokens, reduceCtorEq] at hrest
      | succ fuel =>
        by_cases herr : token'.tokenType = .LexerError
        · exfalso
          have hhas : token'.hasError = true := by
            simp only [Token.hasError, herr, decide_True]
          simp only [Lexer.tokens, Lexer.hasNext, Option.isSome_some, Bool.or_true,
            Bool.not_true, Bool.false_eq_true, if_false, Lexer.next, herr, if_true, hhas,
            reduceCtorEq] at hrest
        · have hhas : token'.hasError = false := by
            simp only [Token.hasError, decide_eq_false_iff_not]
            exact herr
          have hnone := (Lexer.next_cache lexer lexer'' token' hstep).2 herr
          have hback : ({ lexer'' with tokenCache := none } : Lexer) = lexer'' := by
            cases lexer'' with
            | mk manager current cache =>
              simp only at hnone
              subst hnone
              rfl
          simp only [Lexer.tokens, Lexer.hasNext, Option.isSome_some, Bool.or_true,
            Bool.not_true, Bool.false_eq_true, if_false, Lexer.next, herr, hhas, hback]
            at hrest
          have hnext := Lexer.next_hasNext lexer lexer'' token' hstep
          refine ⟨fuel + 1, ?_⟩
          simp only [Lexer.tokens, hnext, Bool.not_true, Bool.false_eq_true, if_false, hstep,
            hhas, List.nil_append]
          exact hrest

/-- A later state of a lexer is not farther from the end of the source
code. -/
theorem Lexer.Advance.left_le {lexer lexer' : Lexer} (h : lexer.Advance lexer') :
    lexer'.left ≤ lexer.left := by
  obtain ⟨hsource, _, hposition⟩ := h
  simp only [Lexer.left, hsource]
  omega

/-- A token that is no error token and that `next` returned from a settled
state brings the lexer nearer to the end of the source code: it holds one
character at least. -/
theorem Lexer.next_left (lexer lexer' : Lexer) (token : Token) (hwf : lexer.WellFormed)
    (hsettled : lexer.Settled) (h : lexer.next = .ok (token, lexer'))
    (hne : token.tokenType ≠ .LexerError) :
    lexer'.left < lexer.left ∧ lexer.position < lexer'.position ∧
    lexer'.position ≤ lexer'.sourceCodeManager.sourceCode.length := by
  obtain ⟨⟨⟨hsource, _, _⟩, hstart, hlength, hend⟩, _⟩ :=
    Lexer.next_spans lexer lexer' token hwf h hne
  have hcache := (Lexer.next_cache lexer lexer' token h).2 hne
  have hsettled' := Lexer.next_preserves_settled lexer lexer' token hsettled h
  have hrests : lexer'.Rests := by
    rcases hsettled' with ⟨cached, hcached, _⟩ | hrests
    · rw [hcache] at hcached
      cases hcached
    · exact hrests
  have hposition : lexer'.position = lexer'.current := by
    simp only [Lexer.position, hcache]
  have hcurrent := hrests.1
  rw [hsource] at hcurrent
  simp only [Lexer.left, hsource]
  rw [hposition] at hend ⊢
  refine ⟨by omega, by omega, hcurrent⟩

/-- The token list of the rest of the input of a lexer does not depend on
the recursion budget. -/
theorem Lexer.tokens_unique (fuel : Nat) :
    ∀ (fuel' : Nat) (lexer : Lexer) (tokens tokens' : List Token),
      Lexer.tokens fuel lexer = some tokens → Lexer.tokens fuel' lexer = some tokens' →
      tokens = tokens' := by
  induction fuel with
  | zero =>
    intro fuel' lexer tokens tokens' h _
    simp only [Lexer.tokens, reduceCtorEq] at h
  | succ fuel ih =>
    intro fuel' lexer tokens tokens' h h'
    cases fuel' with
    | zero => simp only [Lexer.tokens, reduceCtorEq] at h'
    | succ fuel' =>
      simp only [Lexer.tokens] at h h'
      by_cases hnext : lexer.hasNext = true
      · simp only [hnext, Bool.not_true, Bool.false_eq_true, if_false] at h h'
        cases hstep : lexer.next with
        | error fault => simp only [hstep, reduceCtorEq] at h
        | ok result =>
          obtain ⟨token, lexer'⟩ := result
          simp only [hstep] at h h'
          split at h
          · cases h
          · rename_i herr
            simp only [herr] at h'
            cases hrest : Lexer.tokens fuel lexer' with
            | none => simp only [hrest, Option.map_none', reduceCtorEq] at h
            | some rest =>
              cases hrest' : Lexer.tokens fuel' lexer' with
              | none =>
                simp only [hrest', Option.map_none', Bool.false_eq_true, if_false,
                  reduceCtorEq] at h'
              | some rest' =>
                simp only [hrest, Option.map_some', Option.some.injEq] at h
                simp only [hrest', Option.map_some', Bool.false_eq_true, if_false,
                  Option.some.injEq] at h'
                rw [← h, ← h', ih fuel' lexer' rest rest' hrest hrest']
      · have hnext' : lexer.hasNext = false := by simpa using hnext
        simp only [hnext', Bool.not_false, if_true, Option.some.injEq] at h h'
        rw [← h, ← h']

/-- A token list of the rest of the input of a lexer is found with every
recursion budget above its length. -/
theorem Lexer.tokens_fuel (fuel : Nat) :
    ∀ (lexer : Lexer) (tokens : List Token), Lexer.tokens fuel lexer = some tokens →
      ∀ fuel', tokens.length < fuel' → Lexer.tokens fuel' lexer = some tokens := by
  induction fuel with
  | zero =>
    intro lexer tokens h
    simp only [Lexer.tokens, reduceCtorEq] at h
  | succ fuel ih =>
    intro lexer tokens h fuel' hfuel
    cases fuel' with
    | zero => omega
    | succ fuel' =>
      simp only [Lexer.tokens] at h ⊢
      by_cases hnext : lexer.hasNext = true
      · simp only [hnext, Bool.not_true, Bool.false_eq_true, if_false] at h ⊢
        cases hstep : lexer.next with
        | error fault => simp only [hstep, reduceCtorEq] at h
        | ok result =>
          obtain ⟨token, lexer'⟩ := result
          simp only [hstep] at h ⊢
          split at h
          · cases h
          · rename_i herr
            simp only [herr, Bool.false_eq_true, if_false]
            cases hrest : Lexer.tokens fuel lexer' with
            | none => simp only [hrest, Option.map_none', reduceCtorEq] at h
            | some rest =>
              simp only [hrest, Option.map_some', Option.some.injEq] at h
              subst h
              simp only [List.length_cons] at hfuel
              rw [ih lexer' rest hrest fuel' (by omega)]
              rfl
      · have hnext' : lexer.hasNext = false := by simpa using hnext
        simp only [hnext', Bool.not_false, if_true, Option.some.injEq] at h ⊢
        exact h

/-- The function `peek` returns a token in every settled state of a lexer
with a consistent token cache in which `hasNext()` is true; the state after
the call is a later state that is settled again, with the token in the
cache, and no token was handed out. -/
theorem Lexer.peek_settled (lexer : Lexer) (hwf : lexer.WellFormed)
    (hsettled : lexer.Settled) (hnext : lexer.hasNext = true) :
    ∃ token lexer', lexer.peek = .ok (token, lexer') ∧ lexer.Advance lexer' ∧
      lexer'.Settled ∧ lexer.Hands [] lexer' ∧ lexer'.tokenCache = some token ∧
      lexer'.hasNext = true := by
  have hpeek : ∃ token lexer', lexer.peek = .ok (token, lexer') := by
    cases hcache : lexer.tokenCache with
    | some cached => exact ⟨cached, lexer, Lexer.peek_of_cached lexer cached hcache⟩
    | none =>
      obtain ⟨token, lexer', hstep, _⟩ := Lexer.next_settled lexer hsettled hnext
      exact ⟨token, _, (Lexer.peek_of_empty lexer hcache).2 token lexer' hstep⟩
  obtain ⟨token, lexer', hpeek⟩ := hpeek
  obtain ⟨hadvance, hcache, _⟩ := Lexer.peek_spec lexer lexer' token hwf hpeek
  refine ⟨token, lexer', hpeek, hadvance,
    Lexer.call_preserves_settled .peek lexer lexer' token hsettled hpeek,
    Lexer.peek_hands lexer lexer' token hpeek, hcache, ?_⟩
  simp only [Lexer.hasNext, hcache, Option.isSome_some, Bool.or_true]

end lexer

end pljit

namespace pljit

namespace common

/-- A range covers a sequence of ranges exactly when the sequence has a
first and a last range, the range is not empty, starts with the first and
ends with the last. -/
theorem SourceRangeReference.covers_iff (ref : SourceRangeReference)
    (leaves : List SourceRangeReference) :
    ref.covers leaves = true ↔
      ∃ first last, leaves.head? = some first ∧ leaves.getLast? = some last ∧
        0 < ref.length ∧ ref.ref = first.ref ∧
        ref.ref + ref.length = last.ref + last.length := by
  unfold SourceRangeReference.covers
  constructor
  · intro h
    split at h
    · rename_i first last hfirst hlast
      simp only [Bool.and_eq_true, decide_eq_true_eq] at h
      exact ⟨first, last, hfirst, hlast, h.1.1, h.1.2, h.2⟩
    · cases h
  · rintro ⟨first, last, hfirst, hlast, h1, h2, h3⟩
    simp only [hfirst, hlast, Bool.and_eq_true, decide_eq_true_eq]
    exact ⟨⟨h1, h2⟩, h3⟩

/-- A range that is not empty covers itself. -/
theorem SourceRangeReference.covers_self (ref : SourceRangeReference) (h : 0 < ref.length) :
    ref.covers [ref] = true :=
  (SourceRangeReference.covers_iff ref [ref]).mpr ⟨ref, ref, rfl, rfl, h, rfl, rfl⟩

/-- A range contains another one exactly when it starts at or before it and
ends at or behind it. -/
theorem SourceRangeReference.contains_iff (outer inner : SourceRangeReference) :
    outer.contains inner = true ↔
      outer.ref ≤ inner.ref ∧ inner.ref + inner.length ≤ outer.ref + outer.length := by
  simp only [SourceRangeReference.contains, Bool.and_eq_true, decide_eq_true_eq]

/-- Every range contains itself. -/
theorem SourceRangeReference.contains_self (ref : SourceRangeReference) :
    ref.contains ref = true :=
  (SourceRangeReference.contains_iff ref ref).mpr ⟨Nat.le_refl _, Nat.le_refl _⟩

/-- The range from the start of a first range to the end of a last range
covers the leaves of the two ranges with further leaves between them. -/
theorem SourceRangeReference.covers_hull (first last : SourceRangeReference)
    (leaves₁ leaves₂ leaves₃ : List SourceRangeReference)
    (h₁ : first.covers leaves₁ = true) (h₃ : last.covers leaves₃ = true)
    (hle : first.ref ≤ last.ref + (last.length - 1)) :
    ({ ref := first.ref, length := last.ref + (last.length - 1) - first.ref + 1 } :
      SourceRangeReference).covers (leaves₁ ++ leaves₂ ++ leaves₃) = true := by
  obtain ⟨f₁, l₁, hf₁, _, _, hstart, _⟩ := (SourceRangeReference.covers_iff _ _).mp h₁
  obtain ⟨f₃, l₃, _, hl₃, hlen₃, _, hend⟩ := (SourceRangeReference.covers_iff _ _).mp h₃
  have hne₁ : leaves₁ ≠ [] := by
    intro hnil
    rw [hnil] at hf₁
    cases hf₁
  have hne₃ : leaves₃ ≠ [] := by
    intro hnil
    rw [hnil] at hl₃
    cases hl₃
  refine (SourceRangeReference.covers_iff _ _).mpr ⟨f₁, l₃, ?_, ?_, Nat.succ_pos _, hstart, ?_⟩
  · rw [List.append_assoc, List.head?_append_of_ne_nil _ hne₁, hf₁]
  · rw [List.getLast?_append_of_ne_nil _ hne₃, hl₃]
  · show first.ref + (last.ref + (last.length - 1) - first.ref + 1) = l₃.ref + l₃.length
    omega

end common

namespace parser

open common lexer parse_tree

/-- A property that holds for the outcome of a parsing function: the
function returned a node for which the property holds, or it reported a
parse error. -/
theorem ParseResult.Holds.cases {α : Type} {post : α → Parser → Prop}
    {result : ParseResult α} (h : result.Holds post) :
    (∃ node parser, result = .ok node parser ∧ post node parser) ∨
      ∃ parser, result = .error parser := by
  cases result with
  | ok node parser => exact Or.inl ⟨node, parser, rfl, h⟩
  | error parser => exact Or.inr ⟨parser, rfl⟩
  | fault cause => exact absurd h id

/-- A property that follows from one that holds for the outcome of a parsing
function holds for the outcome too. -/
theorem ParseResult.Holds.imp {α : Type} {post post' : α → Parser → Prop}
    {result : ParseResult α} (h : result.Holds post)
    (himp : ∀ node parser, post node parser → post' node parser) : result.Holds post' := by
  cases result with
  | ok node parser => exact himp node parser h
  | error parser => exact trivial
  | fault cause => exact absurd h id

/-- No step of the lexer, from a state with a consistent token cache that is
settled. -/
theorem Parser.Passes.stay (parser : Parser) (hwf : parser.lexer.WellFormed)
    (hsettled : parser.lexer.Settled) : parser.Passes [] parser :=
  ⟨Lexer.Advance.refl hwf, hsettled, [], rfl, Lexer.Hands.same _⟩

/-- Steps of the lexer one after the other. -/
theorem Parser.Passes.andThen {a b c : Parser} {leaves₁ leaves₂ : List SourceRangeReference}
    (h₁ : a.Passes leaves₁ b) (h₂ : b.Passes leaves₂ c) : a.Passes (leaves₁ ++ leaves₂) c := by
  obtain ⟨tokens₁, hmap₁, hands₁⟩ := h₁.hands
  obtain ⟨tokens₂, hmap₂, hands₂⟩ := h₂.hands
  exact ⟨h₁.advance.trans h₂.advance, h₂.settled, tokens₁ ++ tokens₂,
    by rw [List.map_append, hmap₁, hmap₂], hands₁.chain hands₂⟩

/-- A parsed node with the steps of the lexer that it took. -/
theorem Parser.Parsed.toPasses {a b : Parser} {ref : SourceRangeReference}
    {leaves : List SourceRangeReference} (h : a.Parsed ref leaves b) : a.Passes leaves b :=
  ⟨h.spans.1, h.settled, h.hands⟩

/-- A node parsed between two states was also parsed up to a later state
that was reached without handing out a token. -/
theorem Parser.Parsed.thenPasses {a b c : Parser} {ref : SourceRangeReference}
    {leaves : List SourceRangeReference} (h₁ : a.Parsed ref leaves b)
    (h₂ : b.Passes [] c) : a.Parsed ref leaves c := by
  have hpasses := h₁.toPasses.andThen h₂
  rw [List.append_nil] at hpasses
  exact ⟨h₁.spans.advance h₂.advance, h₂.settled, hpasses.hands, h₁.covers,
    Nat.lt_of_le_of_lt h₂.advance.left_le h₁.left⟩

/-- A node parsed from a state on was also parsed from an earlier state on
from which that state was reached without handing out a token. -/
theorem Parser.Parsed.earlier {a b c : Parser} {ref : SourceRangeReference}
    {leaves : List SourceRangeReference} (h₁ : a.Passes [] b)
    (h₂ : b.Parsed ref leaves c) : a.Parsed ref leaves c := by
  have hpasses := h₁.andThen h₂.toPasses
  rw [List.nil_append] at hpasses
  exact ⟨Lexer.Spans.of_advance h₁.advance h₂.spans, h₂.settled, hpasses.hands, h₂.covers,
    Nat.lt_of_lt_of_le h₂.left h₁.advance.left_le⟩

/-- The state behind a parsed node has a consistent token cache. -/
theorem Parser.Parsed.wellFormed {a b : Parser} {ref : SourceRangeReference}
    {leaves : List SourceRangeReference} (h : a.Parsed ref leaves b) : b.lexer.WellFormed :=
  h.spans.1.2.1

/-- The range of a parsed node is not empty. -/
theorem Parser.Parsed.ref_length_pos {a b : Parser} {ref : SourceRangeReference}
    {leaves : List SourceRangeReference} (h : a.Parsed ref leaves b) : 0 < ref.length :=
  h.spans.2.2.1

/-- Two nodes parsed one after the other, with steps of the lexer between
them: the range of the first node extends up to the last character of the
second, as the parser computes it; a node with the extended range and the
leaves of the two nodes and of the steps between them was parsed between the
first and the last state; and the extended range contains the ranges of the
two nodes and every range read on the steps between them. -/
theorem Parser.Parsed.hull {a b c d : Parser} {ref₁ ref₃ : SourceRangeReference}
    {leaves₁ leaves₂ leaves₃ : List SourceRangeReference}
    (h₁ : a.Parsed ref₁ leaves₁ b) (h₂ : b.Passes leaves₂ c) (h₃ : c.Parsed ref₃ leaves₃ d) :
    ∃ last ref, ref₃.last = .ok last ∧ ref₁.extendUntil last = .ok ref ∧
      a.Parsed ref (leaves₁ ++ leaves₂ ++ leaves₃) d ∧
      ref.contains ref₁ = true ∧ ref.contains ref₃ = true ∧
      (∀ ref₂, b.lexer.Spans ref₂ c.lexer → ref.contains ref₂ = true) ∧
      ref.ref = ref₁.ref := by
  have hs₁ := h₁.spans.advance h₂.advance
  have hs₃ := h₃.spans
  obtain ⟨last, ref, hlast, hextend, hspans⟩ := Lexer.Spans.extend hs₁ hs₃
  obtain ⟨hlen₃, hle, href⟩ := extendUntil_last ref₁ ref₃ ref last hlast hextend
  have hpasses := (h₁.toPasses.andThen h₂).andThen h₃.toPasses
  refine ⟨last, ref, hlast, hextend,
    ⟨hspans, h₃.settled, hpasses.hands, ?_, ?_⟩, ?_, ?_, ?_, ?_⟩
  · rw [href]
    exact SourceRangeReference.covers_hull ref₁ ref₃ leaves₁ leaves₂ leaves₃ h₁.covers
      h₃.covers hle
  · exact Nat.lt_of_lt_of_le h₃.left
      (Nat.le_trans h₂.advance.left_le (Nat.le_of_lt h₁.left))
  · rw [href]
    refine (SourceRangeReference.contains_iff _ _).mpr ⟨Nat.le_refl _, ?_⟩
    have he₁ := hs₁.2.2.2
    have hb₃ := hs₃.2.1
    show ref₁.ref + ref₁.length ≤ ref₁.ref + (ref₃.ref + (ref₃.length - 1) - ref₁.ref + 1)
    omega
  · rw [href]
    refine (SourceRangeReference.contains_iff _ _).mpr ⟨?_, ?_⟩
    · have he₁ := hs₁.2.2.2
      have hl₁ := hs₁.2.2.1
      have hb₃ := hs₃.2.1
      show ref₁.ref ≤ ref₃.ref
      omega
    · show ref₃.ref + ref₃.length ≤
        ref₁.ref + (ref₃.ref + (ref₃.length - 1) - ref₁.ref + 1)
      omega
  · intro ref₂ hs₂
    rw [href]
    have he₁ := h₁.spans.2.2.2
    have hl₁ := h₁.spans.2.2.1
    have hb₂ := hs₂.2.1
    have he₂ := hs₂.2.2.2
    have hb₃ := hs₃.2.1
    refine (SourceRangeReference.contains_iff _ _).mpr ⟨?_, ?_⟩
    · show ref₁.ref ≤ ref₂.ref
      omega
    · show ref₂.ref + ref₂.length ≤
        ref₁.ref + (ref₃.ref + (ref₃.length - 1) - ref₁.ref + 1)
      omega
  · rw [href]

/-- The function `peekTokenType` returns from every settled state of the
lexer with a consistent token cache, without handing out a token: with no
token exactly when `hasNext()` is false, and with a token that stays in the
cache otherwise. -/
theorem Parser.peekTokenType_passes (parser : Parser) (hwf : parser.lexer.WellFormed)
    (hsettled : parser.lexer.Settled) :
    ∃ peeked parser', parser.peekTokenType = .ok (peeked, parser') ∧
      parser.Passes [] parser' ∧ parser'.refToLastChar = parser.refToLastChar ∧
      (peeked = none → parser.lexer.hasNext = false ∧ parser' = parser) ∧
      (∀ token, peeked = some token →
        parser'.lexer.tokenCache = some token ∧ parser'.lexer.hasNext = true ∧
        (token.tokenType ≠ .LexerError →
          token.WellFormed parser.lexer.sourceCodeManager.sourceCode)) := by
  by_cases hnext : parser.lexer.hasNext = true
  · obtain ⟨token, lexer', hpeek, hadvance, hsettled', hhands, hcache, hnext'⟩ :=
      Lexer.peek_settled parser.lexer hwf hsettled hnext
    have hresult : parser.peekTokenType = .ok (some token, { parser with lexer := lexer' }) := by
      simp only [Parser.peekTokenType, hnext, Bool.not_true, Bool.false_eq_true, if_false,
        hpeek]
    refine ⟨some token, _, hresult, ⟨hadvance, hsettled', [], rfl, hhands⟩, rfl,
      (fun h => by cases h), ?_⟩
    intro token' htoken
    simp only [Option.some.injEq] at htoken
    subst htoken
    exact ⟨hcache, hnext', (Lexer.peek_spec parser.lexer lexer' token hwf hpeek).2.2⟩
  · have hnext' : parser.lexer.hasNext = false := by simpa using hnext
    refine ⟨none, parser, ?_, Parser.Passes.stay parser hwf hsettled, rfl,
      fun _ => ⟨hnext', rfl⟩, (fun token h => by cases h)⟩
    simp only [Parser.peekTokenType, hnext', Bool.not_false, if_true]

/-- The function `parseGenericToken` does not fault in a settled state of
the lexer with a consistent token cache; a node that it returns is the leaf
of a token of the expected type that the lexer handed out, and the token
agrees with the source code. -/
theorem Parser.parseGenericToken_parsed (expectedTokenType : TokenType) (parser : Parser)
    (hwf : parser.lexer.WellFormed) (hsettled : parser.lexer.Settled) :
    (parser.parseGenericToken expectedTokenType).Holds (fun node parser' =>
      parser.Parsed node.ref [node.ref] parser' ∧ node.ranged = true ∧
      parser'.lexer.tokenCache = none ∧
      Token.WellFormed parser.lexer.sourceCodeManager.sourceCode
        { tokenType := expectedTokenType, ref := node.ref }) := by
  by_cases hnext : parser.lexer.hasNext = true
  · obtain ⟨token, lexer', hstep, hsettled'⟩ := Lexer.next_settled parser.lexer hsettled hnext
    by_cases herr : token.tokenType = .LexerError
    · have hhas : token.hasError = true := by
        simp only [Token.hasError, herr, decide_True]
      simp only [Parser.parseGenericToken, hnext, Bool.not_true, Bool.false_eq_true, if_false,
        hstep, hhas, if_true]
      exact trivial
    · have hhas : token.hasError = false := by
        simp only [Token.hasError, decide_eq_false_iff_not]
        exact herr
      by_cases hty : token.tokenType = expectedTokenType
      · obtain ⟨hspans, htoken⟩ := Lexer.next_spans parser.lexer lexer' token hwf hstep herr
        have hlast : token.ref.last =
            .ok { ref := token.ref.ref + (token.ref.length - 1) } := by
          simp only [SourceRangeReference.last, hspans.2.2.1, if_true]
        simp only [Parser.parseGenericToken, hnext, Bool.not_true, Bool.false_eq_true,
          if_false, hstep, hhas, hty, ne_eq, not_true_eq_false, hlast, ParseResult.ofExcept]
        refine ⟨⟨hspans, hsettled', ⟨[token], rfl,
          Lexer.next_hands parser.lexer lexer' token hstep herr⟩,
          SourceRangeReference.covers_self _ hspans.2.2.1,
          (Lexer.next_left parser.lexer lexer' token hwf hsettled hstep herr).1⟩, ?_,
          (Lexer.next_cache parser.lexer lexer' token hstep).2 herr, ?_⟩
        · simp only [GenericToken.ranged, hspans.2.2.1, decide_True]
        · rw [← hty]
          exact htoken
      · simp only [Parser.parseGenericToken, hnext, Bool.not_true, Bool.false_eq_true,
          if_false, hstep, hhas, ne_eq, hty, not_false_eq_true, if_true]
        exact trivial
  · have hnext' : parser.lexer.hasNext = false := by simpa using hnext
    simp only [Parser.parseGenericToken, hnext', Bool.not_false, if_true]
    exact trivial

/-- The function `parseIdentifier` does not fault in a settled state of the
lexer with a consistent token cache; a node that it returns is the leaf of a
token that the lexer handed out. -/
theorem Parser.parseIdentifier_parsed (parser : Parser)
    (hwf : parser.lexer.WellFormed) (hsettled : parser.lexer.Settled) :
    parser.parseIdentifier.Holds (fun node parser' =>
      parser.Parsed node.ref [node.ref] parser' ∧ node.ranged = true) := by
  by_cases hnext : parser.lexer.hasNext = true
  · obtain ⟨token, lexer', hstep, hsettled'⟩ := Lexer.next_settled parser.lexer hsettled hnext
    by_cases herr : token.tokenType = .LexerError
    · have hhas : token.hasError = true := by
        simp only [Token.hasError, herr, decide_True]
      simp only [Parser.parseIdentifier, hnext, Bool.not_true, Bool.false_eq_true, if_false,
        hstep, hhas, if_true]
      exact trivial
    · have hhas : token.hasError = false := by
        simp only [Token.hasError, decide_eq_false_iff_not]
        exact herr
      by_cases hty : token.tokenType = .Identifier
      · obtain ⟨hspans, htoken⟩ := Lexer.next_spans parser.lexer lexer' token hwf hstep herr
        have hlast : token.ref.last =
            .ok { ref := token.ref.ref + (token.ref.length - 1) } := by
          simp only [SourceRangeReference.last, hspans.2.2.1, if_true]
        simp only [Parser.parseIdentifier, hnext, Bool.not_true, Bool.false_eq_true,
          if_false, hstep, hhas, hty, ne_eq, not_true_eq_false, hlast, ParseResult.ofExcept]
        refine ⟨⟨hspans, hsettled', ⟨[token], rfl,
          Lexer.next_hands parser.lexer lexer' token hstep herr⟩,
          SourceRangeReference.covers_self _ hspans.2.2.1,
          (Lexer.next_left parser.lexer lexer' token hwf hsettled hstep herr).1⟩, ?_⟩
        simp only [Identifier.ranged, hspans.2.2.1, decide_True]
      · simp only [Parser.parseIdentifier, hnext, Bool.not_true, Bool.false_eq_true,
          if_false, hstep, hhas, ne_eq, hty, not_false_eq_true, if_true]
        exact trivial
  · have hnext' : parser.lexer.hasNext = false := by simpa using hnext
    simp only [Parser.parseIdentifier, hnext', Bool.not_false, if_true]
    exact trivial

/-- The function `parseLiteral` does not fault in a settled state of the
lexer with a consistent token cache; a node that it returns is the leaf of a
token that the lexer handed out. -/
theorem Parser.parseLiteral_parsed (parser : Parser)
    (hwf : parser.lexer.WellFormed) (hsettled : parser.lexer.Settled) :
    parser.parseLiteral.Holds (fun node parser' =>
      parser.Parsed node.ref [node.ref] parser' ∧ node.ranged = true) := by
  by_cases hnext : parser.lexer.hasNext = true
  · obtain ⟨token, lexer', hstep, hsettled'⟩ := Lexer.next_settled parser.lexer hsettled hnext
    by_cases herr : token.tokenType = .LexerError
    · have hhas : token.hasError = true := by
        simp only [Token.hasError, herr, decide_True]
      simp only [Parser.parseLiteral, hnext, Bool.not_true, Bool.false_eq_true, if_false,
        hstep, hhas, if_true]
      exact trivial
    · have hhas : token.hasError = false := by
        simp only [Token.hasError, decide_eq_false_iff_not]
        exact herr
      by_cases hty : token.tokenType = .Literal
      · obtain ⟨hspans, htoken⟩ := Lexer.next_spans parser.lexer lexer' token hwf hstep herr
        have hlast : token.ref.last =
            .ok { ref := token.ref.ref + (token.ref.length - 1) } := by
          simp only [SourceRangeReference.last, hspans.2.2.1, if_true]
        simp only [Parser.parseLiteral, hnext, Bool.not_true, Bool.false_eq_true,
          if_false, hstep, hhas, hty, ne_eq, not_true_eq_false, hlast, ParseResult.ofExcept]
        refine ⟨⟨hspans, hsettled', ⟨[token], rfl,
          Lexer.next_hands parser.lexer lexer' token hstep herr⟩,
          SourceRangeReference.covers_self _ hspans.2.2.1,
          (Lexer.next_left parser.lexer lexer' token hwf hsettled hstep herr).1⟩, ?_⟩
        simp only [Literal.ranged, hspans.2.2.1, decide_True]
      · simp only [Parser.parseLiteral, hnext, Bool.not_true, Bool.false_eq_true,
          if_false, hstep, hhas, ne_eq, hty, not_false_eq_true, if_true]
        exact trivial
  · have hnext' : parser.lexer.hasNext = false := by simpa using hnext
    simp only [Parser.parseLiteral, hnext', Bool.not_false, if_true]
    exact trivial

end parser

end pljit

namespace pljit

namespace parser

open common lexer parse_tree

/-- The node that `UnaryExpression.newSigned` builds for a sign token `+` or
`-` that agrees with the source code. -/
theorem UnaryExpression.newSigned_of_sign (sourceCode : List Char)
    (tokenType : TokenType) (sign : GenericToken) (primary : PrimaryExpression)
    (ref : SourceRangeReference)
    (hwf : Token.WellFormed sourceCode { tokenType := tokenType, ref := sign.ref })
    (hty : tokenType = .OpPlus ∨ tokenType = .OpMinus) :
    UnaryExpression.newSigned sourceCode sign primary ref =
      .ok (.signed sign primary (if tokenType = .OpPlus then .PlusSign else .MinusSign)
        ref) := by
  unfold UnaryExpression.newSigned
  rcases hty with hty | hty
  · have htext : sign.ref.toStringView sourceCode = ['+'] := hwf.2.1 hty
    rw [if_pos htext, if_pos hty]
  · have htext : sign.ref.toStringView sourceCode = ['-'] := hwf.2.2.1 hty
    have hne : ¬ sign.ref.toStringView sourceCode = ['+'] := by
      rw [htext]
      decide
    have hty' : ¬ tokenType = .OpPlus := by
      rw [hty]
      decide
    rw [if_neg hne, if_pos htext, if_neg hty']

/-- The functions of the parser for expressions do not fault in a settled
state of the lexer with a consistent token cache, with a recursion budget of
four calls per character left and one call per function on the way down to
`parsePrimaryExpression`.  A node that they return was parsed between the
two states: its leaves are the ranges of the tokens that the lexer handed
out, and the ranges of the node and of all nodes below it pass the test
`ranged`. -/
theorem Parser.parseExpression_parsed (fuel : Nat) :
    (∀ parser : Parser, parser.lexer.WellFormed → parser.lexer.Settled →
      4 * parser.lexer.left + 4 ≤ fuel →
      (Parser.parseAdditiveExpression fuel parser).Holds (fun node parser' =>
        parser.Parsed node.getReference node.leaves parser' ∧ node.ranged = true)) ∧
    (∀ parser : Parser, parser.lexer.WellFormed → parser.lexer.Settled →
      4 * parser.lexer.left + 3 ≤ fuel →
      (Parser.parseMultiplicativeExpression fuel parser).Holds (fun node parser' =>
        parser.Parsed node.getReference node.leaves parser' ∧ node.ranged = true)) ∧
    (∀ parser : Parser, parser.lexer.WellFormed → parser.lexer.Settled →
      4 * parser.lexer.left + 2 ≤ fuel →
      (Parser.parseUnaryExpression fuel parser).Holds (fun node parser' =>
        parser.Parsed node.getReference node.leaves parser' ∧ node.ranged = true)) ∧
    (∀ parser : Parser, parser.lexer.WellFormed → parser.lexer.Settled →
      4 * parser.lexer.left + 1 ≤ fuel →
      (Parser.parsePrimaryExpression fuel parser).Holds (fun node parser' =>
        parser.Parsed node.getReference node.leaves parser' ∧ node.ranged = true)) := by
  induction fuel with
  | zero =>
    refine ⟨?_, ?_, ?_, ?_⟩ <;> intro parser _ _ hfuel <;> omega
  | succ fuel ih =>
    obtain ⟨ihAdd, ihMul, ihUnary, ihPrimary⟩ := ih
    refine ⟨?_, ?_, ?_, ?_⟩
    · intro parser hwf hsettled hfuel
      rcases (ihMul parser hwf hsettled (by omega)).cases with
        ⟨m, p₁, hm, hpm, hrm⟩ | ⟨p₁, hm⟩
      swap
      · simp only [Parser.parseAdditiveExpression, hm, ParseResult.bind]
        exact trivial
      obtain ⟨peeked, p₂, hpeek, hpass, _, _, hsome⟩ :=
        Parser.peekTokenType_passes p₁ hpm.wellFormed hpm.settled
      have hsingle : parser.Parsed
          (AdditiveExpression.single m m.getReference).getReference
          (AdditiveExpression.single m m.getReference).leaves p₂ ∧
          (AdditiveExpression.single m m.getReference).ranged = true := by
        refine ⟨hpm.thenPasses hpass, ?_⟩
        simp only [AdditiveExpression.ranged, hpm.covers,
          SourceRangeReference.contains_self, hrm, Bool.and_self]
      cases peeked with
      | none =>
        simp only [Parser.parseAdditiveExpression, hm, ParseResult.bind, hpeek,
          ParseResult.ofExcept]
        exact hsingle
      | some token =>
        by_cases hop : token.tokenType = .OpPlus ∨ token.tokenType = .OpMinus
        · rcases (Parser.parseGenericToken_parsed token.tokenType p₂ hpass.advance.2.1
            hpass.settled).cases with ⟨op, p₃, hopok, hpop, hrop, _, htext⟩ | ⟨p₃, hopok⟩
          swap
          · simp only [Parser.parseAdditiveExpression, hm, ParseResult.bind, hpeek,
              ParseResult.ofExcept, hop, if_true, hopok]
            exact trivial
          have hleft₁ := hpm.left
          have hleft₂ := hpass.advance.left_le
          have hleft₃ := hpop.left
          rcases (ihAdd p₃ hpop.wellFormed hpop.settled (by omega)).cases with
            ⟨a, p₄, ha, hpa, hra⟩ | ⟨p₄, ha⟩
          swap
          · simp only [Parser.parseAdditiveExpression, hm, ParseResult.bind, hpeek,
              ParseResult.ofExcept, hop, if_true, hopok, ha]
            exact trivial
          obtain ⟨last, ref, hlast, hextend, hparsed, hc₁, hc₃, hc₂, _⟩ :=
            Parser.Parsed.hull hpm (hpass.andThen hpop.toPasses) hpa
          have hsource : p₄.lexer.sourceCodeManager.sourceCode =
              p₂.lexer.sourceCodeManager.sourceCode := hpa.spans.1.1.trans hpop.spans.1.1
          have hbuilt := AdditiveExpression.newBinary_of_additive_token
            p₄.lexer.sourceCodeManager.sourceCode token.tokenType m op a ref
            (by rw [hsource]; exact htext) hop
          simp only [Parser.parseAdditiveExpression, hm, ParseResult.bind, hpeek,
            ParseResult.ofExcept, hop, if_true, hopok, ha, hlast, hextend, hbuilt]
          have hleaves : m.leaves ++ ([] ++ [op.ref]) ++ a.leaves =
              m.leaves ++ op.ref :: a.leaves := by
            simp only [List.nil_append, List.append_assoc, List.singleton_append]
          rw [hleaves] at hparsed
          refine ⟨hparsed, ?_⟩
          simp only [AdditiveExpression.ranged, hparsed.covers, hc₁, hc₃,
            hc₂ op.ref (Lexer.Spans.of_advance hpass.advance hpop.spans), hrm, hrop, hra,
            Bool.and_self]
        · simp only [Parser.parseAdditiveExpression, hm, ParseResult.bind, hpeek,
            ParseResult.ofExcept, hop, if_false]
          exact hsingle
    · intro parser hwf hsettled hfuel
      rcases (ihUnary parser hwf hsettled (by omega)).cases with
        ⟨u, p₁, hu, hpu, hru⟩ | ⟨p₁, hu⟩
      swap
      · simp only [Parser.parseMultiplicativeExpression, hu, ParseResult.bind]
        exact trivial
      obtain ⟨peeked, p₂, hpeek, hpass, _, _, hsome⟩ :=
        Parser.peekTokenType_passes p₁ hpu.wellFormed hpu.settled
      have hsingle : parser.Parsed
          (MultiplicativeExpression.single u u.getReference).getReference
          (MultiplicativeExpression.single u u.getReference).leaves p₂ ∧
          (MultiplicativeExpression.single u u.getReference).ranged = true := by
        refine ⟨hpu.thenPasses hpass, ?_⟩
        simp only [MultiplicativeExpression.ranged, hpu.covers,
          SourceRangeReference.contains_self, hru, Bool.and_self]
      cases peeked with
      | none =>
        simp only [Parser.parseMultiplicativeExpression, hu, ParseResult.bind, hpeek,
          ParseResult.ofExcept]
        exact hsingle
      | some token =>
        by_cases hop : token.tokenType = .OpMul ∨ token.tokenType = .OpDiv
        · rcases (Parser.parseGenericToken_parsed token.tokenType p₂ hpass.advance.2.1
            hpass.settled).cases with ⟨op, p₃, hopok, hpop, hrop, _, htext⟩ | ⟨p₃, hopok⟩
          swap
          · simp only [Parser.parseMultiplicativeExpression, hu, ParseResult.bind, hpeek,
              ParseResult.ofExcept, hop, if_true, hopok]
            exact trivial
          have hleft₁ := hpu.left
          have hleft₂ := hpass.advance.left_le
          have hleft₃ := hpop.left
          rcases (ihMul p₃ hpop.wellFormed hpop.settled (by omega)).cases with
            ⟨m, p₄, hm, hpm, hrm⟩ | ⟨p₄, hm⟩
          swap
          · simp only [Parser.parseMultiplicativeExpression, hu, ParseResult.bind, hpeek,
              ParseResult.ofExcept, hop, if_true, hopok, hm]
            exact trivial
          obtain ⟨last, ref, hlast, hextend, hparsed, hc₁, hc₃, hc₂, _⟩ :=
            Parser.Parsed.hull hpu (hpass.andThen hpop.toPasses) hpm
          have hsource : p₄.lexer.sourceCodeManager.sourceCode =
              p₂.lexer.sourceCodeManager.sourceCode := hpm.spans.1.1.trans hpop.spans.1.1
          have hbuilt := MultiplicativeExpression.newBinary_of_multiplicative_token
            p₄.lexer.sourceCodeManager.sourceCode token.tokenType u op m ref
            (by rw [hsource]; exact htext) hop
          simp only [Parser.parseMultiplicativeExpression, hu, ParseResult.bind, hpeek,
            ParseResult.ofExcept, hop, if_true, hopok, hm, hlast, hextend, hbuilt]
          have hleaves : u.leaves ++ ([] ++ [op.ref]) ++ m.leaves =
              u.leaves ++ op.ref :: m.leaves := by
            simp only [List.nil_append, List.append_assoc, List.singleton_append]
          rw [hleaves] at hparsed
          refine ⟨hparsed, ?_⟩
          simp only [MultiplicativeExpression.ranged, hparsed.covers, hc₁, hc₃,
            hc₂ op.ref (Lexer.Spans.of_advance hpass.advance hpop.spans), hru, hrop, hrm,
            Bool.and_self]
        · simp only [Parser.parseMultiplicativeExpression, hu, ParseResult.bind, hpeek,
            ParseResult.ofExcept, hop, if_false]
          exact hsingle
    · intro parser hwf hsettled hfuel
      by_cases hnext : parser.lexer.hasNext = true
      swap
      · have hnext' : parser.lexer.hasNext = false := by simpa using hnext
        simp only [Parser.parseUnaryExpression, hnext', Bool.not_false, if_true]
        exact trivial
      obtain ⟨token, lexer', hpeek, hadvance, hsettled', hhands, _, _⟩ :=
        Lexer.peek_settled parser.lexer hwf hsettled hnext
      have hpass : parser.Passes [] { parser with lexer := lexer' } :=
        ⟨hadvance, hsettled', [], rfl, hhands⟩
      have hleft₀ := hadvance.left_le
      by_cases hsign : token.tokenType = .OpPlus ∨ token.tokenType = .OpMinus
      · rcases (Parser.parseGenericToken_parsed token.tokenType
          { parser with lexer := lexer' } hadvance.2.1 hsettled').cases with
          ⟨sign, p₁, hsignok, hps, hrs, _, htext⟩ | ⟨p₁, hsignok⟩
        swap
        · simp only [Parser.parseUnaryExpression, hnext, Bool.not_true, Bool.false_eq_true,
            if_false, hpeek, ParseResult.ofExcept, hsign, if_true, hsignok, ParseResult.bind]
          exact trivial
        have hleft₁ := hps.left
        have hleft₁' : p₁.lexer.left < lexer'.left := hleft₁
        rcases (ihPrimary p₁ hps.wellFormed hps.settled (by omega)).cases with
          ⟨primary, p₂, hprimary, hpp, hrp⟩ | ⟨p₂, hprimary⟩
        swap
        · simp only [Parser.parseUnaryExpression, hnext, Bool.not_true, Bool.false_eq_true,
            if_false, hpeek, ParseResult.ofExcept, hsign, if_true, hsignok, ParseResult.bind,
            hprimary]
          exact trivial
        obtain ⟨last, ref, hlast, hextend, hparsed, hc₁, hc₃, _, _⟩ :=
          Parser.Parsed.hull hps (Parser.Passes.stay p₁ hps.wellFormed hps.settled) hpp
        have hsource : p₂.lexer.sourceCodeManager.sourceCode =
            lexer'.sourceCodeManager.sourceCode := hpp.spans.1.1.trans hps.spans.1.1
        have hbuilt := UnaryExpression.newSigned_of_sign
          p₂.lexer.sourceCodeManager.sourceCode token.tokenType sign primary ref
          (by rw [hsource]; exact htext) hsign
        simp only [Parser.parseUnaryExpression, hnext, Bool.not_true, Bool.false_eq_true,
          if_false, hpeek, ParseResult.ofExcept, hsign, if_true, hsignok, ParseResult.bind,
          hprimary, hlast, hextend, hbuilt]
        have hleaves : [sign.ref] ++ [] ++ primary.leaves = sign.ref :: primary.leaves := by
          simp only [List.append_nil, List.singleton_append]
        rw [hleaves] at hparsed
        have hparsed' := Parser.Parsed.earlier hpass hparsed
        refine ⟨hparsed', ?_⟩
        simp only [UnaryExpression.ranged, hparsed.covers, hc₁, hc₃, hrs, hrp, Bool.and_self]
      · have hleft₀' : lexer'.left ≤ parser.lexer.left := hleft₀
        rcases (ihPrimary { parser with lexer := lexer' } hadvance.2.1 hsettled'
          (by
            show 4 * lexer'.left + 1 ≤ fuel
            omega)).cases with
          ⟨primary, p₁, hprimary, hpp, hrp⟩ | ⟨p₁, hprimary⟩
        swap
        · simp only [Parser.parseUnaryExpression, hnext, Bool.not_true, Bool.false_eq_true,
            if_false, hpeek, ParseResult.ofExcept, hsign, if_false, hprimary,
            ParseResult.bind]
          exact trivial
        simp only [Parser.parseUnaryExpression, hnext, Bool.not_true, Bool.false_eq_true,
          if_false, hpeek, ParseResult.ofExcept, hsign, if_false, hprimary, ParseResult.bind]
        refine ⟨Parser.Parsed.earlier hpass hpp, ?_⟩
        simp only [UnaryExpression.ranged, hpp.covers, SourceRangeReference.contains_self,
          hrp, Bool.and_self]
    · intro parser hwf hsettled hfuel
      by_cases hnext : parser.lexer.hasNext = true
      swap
      · have hnext' : parser.lexer.hasNext = false := by simpa using hnext
        simp only [Parser.parsePrimaryExpression, hnext', Bool.not_false, if_true]
        exact trivial
      obtain ⟨token, lexer', hpeek, hadvance, hsettled', hhands, _, _⟩ :=
        Lexer.peek_settled parser.lexer hwf hsettled hnext
      have hpass : parser.Passes [] { parser with lexer := lexer' } :=
        ⟨hadvance, hsettled', [], rfl, hhands⟩
      have hleft₀ : lexer'.left ≤ parser.lexer.left := hadvance.left_le
      by_cases hidentifier : token.tokenType = .Identifier
      · rcases (Parser.parseIdentifier_parsed { parser with lexer := lexer' } hadvance.2.1
          hsettled').cases with ⟨identifier, p₁, hok, hpi, hri⟩ | ⟨p₁, hok⟩
        swap
        · simp only [Parser.parsePrimaryExpression, hnext, Bool.not_true, Bool.false_eq_true,
            if_false, hpeek, ParseResult.ofExcept, hidentifier, if_true, hok,
            ParseResult.bind]
          exact trivial
        simp only [Parser.parsePrimaryExpression, hnext, Bool.not_true, Bool.false_eq_true,
          if_false, hpeek, ParseResult.ofExcept, hidentifier, if_true, hok, ParseResult.bind]
        refine ⟨Parser.Parsed.earlier hpass hpi, ?_⟩
        simp only [PrimaryExpression.ranged, hpi.covers, SourceRangeReference.contains_self,
          hri, Bool.and_self]
      by_cases hliteral : token.tokenType = .Literal
      · rcases (Parser.parseLiteral_parsed { parser with lexer := lexer' } hadvance.2.1
          hsettled').cases with ⟨literal, p₁, hok, hpl, hrl⟩ | ⟨p₁, hok⟩
        swap
        · simp only [Parser.parsePrimaryExpression, hnext, Bool.not_true, Bool.false_eq_true,
            if_false, hpeek, ParseResult.ofExcept, hidentifier, hliteral, if_true, if_false,
            hok, ParseResult.bind]
          exact trivial
        simp only [Parser.parsePrimaryExpression, hnext, Bool.not_true, Bool.false_eq_true,
          if_false, hpeek, ParseResult.ofExcept, hidentifier, hliteral, if_true, if_false,
          hok, ParseResult.bind]
        refine ⟨Parser.Parsed.earlier hpass hpl, ?_⟩
        simp only [PrimaryExpression.ranged, hpl.covers, SourceRangeReference.contains_self,
          hrl, Bool.and_self]
      by_cases hparenthesis : token.tokenType = .LeftParenthesis
      swap
      · simp only [Parser.parsePrimaryExpression, hnext, Bool.not_true, Bool.false_eq_true,
          if_false, hpeek, ParseResult.ofExcept, hidentifier, hliteral, ne_eq, hparenthesis,
          not_false_eq_true, if_true]
        exact trivial
      rcases (Parser.parseGenericToken_parsed .LeftParenthesis { parser with lexer := lexer' }
        hadvance.2.1 hsettled').cases with ⟨left, p₁, hleft, hpl, hrl, _, _⟩ | ⟨p₁, hleft⟩
      swap
      · simp only [Parser.parsePrimaryExpression, hnext, Bool.not_true, Bool.false_eq_true,
          if_false, hpeek, ParseResult.ofExcept, hidentifier, hliteral, ne_eq, hparenthesis,
          not_true_eq_false, hleft, ParseResult.bind]
        exact trivial
      have hleft₁ : p₁.lexer.left < lexer'.left := hpl.left
      rcases (ihAdd p₁ hpl.wellFormed hpl.settled (by omega)).cases with
        ⟨a, p₂, ha, hpa, hra⟩ | ⟨p₂, ha⟩
      swap
      · simp only [Parser.parsePrimaryExpression, hnext, Bool.not_true, Bool.false_eq_true,
          if_false, hpeek, ParseResult.ofExcept, hidentifier, hliteral, ne_eq, hparenthesis,
          not_true_eq_false, hleft, ParseResult.bind, ha]
        exact trivial
      rcases (Parser.parseGenericToken_parsed .RightParenthesis p₂ hpa.wellFormed
        hpa.settled).cases with ⟨right, p₃, hright, hpr, hrr, _, _⟩ | ⟨p₃, hright⟩
      swap
      · simp only [Parser.parsePrimaryExpression, hnext, Bool.not_true, Bool.false_eq_true,
          if_false, hpeek, ParseResult.ofExcept, hidentifier, hliteral, ne_eq, hparenthesis,
          not_true_eq_false, hleft, ParseResult.bind, ha, hright]
        exact trivial
      obtain ⟨last, ref, hlast, hextend, hparsed, hc₁, hc₃, hc₂, _⟩ :=
        Parser.Parsed.hull hpl hpa.toPasses hpr
      simp only [Parser.parsePrimaryExpression, hnext, Bool.not_true, Bool.false_eq_true,
        if_false, hpeek, ParseResult.ofExcept, hidentifier, hliteral, ne_eq, hparenthesis,
        not_true_eq_false, hleft, ParseResult.bind, ha, hright, hlast, hextend]
      have hleaves : [left.ref] ++ a.leaves ++ [right.ref] =
          left.ref :: (a.leaves ++ [right.ref]) := by
        simp only [List.singleton_append, List.cons_append, List.nil_append]
      rw [hleaves] at hparsed
      refine ⟨Parser.Parsed.earlier hpass hparsed, ?_⟩
      simp only [PrimaryExpression.ranged, hparsed.covers, hc₁, hc₃, hc₂ _ hpa.spans, hrl,
        hra, hrr, Bool.and_self]

end parser

end pljit

namespace pljit

namespace lexer

open common

/-- Ranges read one after the other lie between the first and the last of
them. -/
theorem Lexer.SpansList.within {lexer : Lexer} :
    ∀ {rest : List SourceRangeReference} {start : Lexer} {front back : SourceRangeReference},
      start.SpansList (front :: rest) lexer → (front :: rest).getLast? = some back →
      ∀ ref ∈ front :: rest,
        front.ref ≤ ref.ref ∧ ref.ref + ref.length ≤ back.ref + back.length
  | [], start, front, back, _, hback => by
    simp only [List.getLast?_singleton, Option.some.injEq] at hback
    subst hback
    intro ref hmem
    simp only [List.mem_singleton] at hmem
    subst hmem
    exact ⟨Nat.le_refl _, Nat.le_refl _⟩
  | second :: rest, start, front, back, ⟨mid, hfirst, hrest⟩, hback => by
    rw [List.getLast?_cons_cons] at hback
    have ih := Lexer.SpansList.within hrest hback
    obtain ⟨midNext, hsecond, _⟩ := hrest
    have hend := hfirst.2.2.2
    have hstart : mid.position ≤ second.ref := hsecond.2.1
    have hsecond' := ih second (List.mem_cons_self _ _)
    intro ref hmem
    rcases List.mem_cons.mp hmem with rfl | hmem'
    · refine ⟨Nat.le_refl _, ?_⟩
      have := hsecond'.2
      omega
    · have := ih ref hmem'
      refine ⟨?_, this.2⟩
      omega

end lexer

namespace parser

open common lexer parse_tree

/-- A parsed node is a list of one parsed child. -/
theorem Parser.ParsedList.single {α : Type} (getReference : α → SourceRangeReference)
    (leaves : α → List SourceRangeReference) (ranged : α → Bool) {start parser : Parser}
    (child : α) (h : start.Parsed (getReference child) (leaves child) parser)
    (hranged : ranged child = true) :
    Parser.ParsedList getReference leaves ranged start [child] parser := by
  refine ⟨by simp, ?_, h.settled, ?_, ?_, h.left⟩
  · exact h.spans.toList
  · obtain ⟨tokens, hmap, hhands⟩ := h.hands
    exact ⟨tokens, by simp only [hmap, List.flatMap_cons, List.flatMap_nil, List.append_nil],
      hhands⟩
  · intro c hc
    simp only [List.mem_singleton] at hc
    subst hc
    exact ⟨h.covers, hranged⟩

/-- Parsed children are also parsed up to a later state that was reached
without handing out a token. -/
theorem Parser.ParsedList.listThenPasses {α : Type} {getReference : α → SourceRangeReference}
    {leaves : α → List SourceRangeReference} {ranged : α → Bool} {start parser parser' : Parser}
    {children : List α}
    (h : Parser.ParsedList getReference leaves ranged start children parser)
    (hpass : parser.Passes [] parser') :
    Parser.ParsedList getReference leaves ranged start children parser' := by
  obtain ⟨tokens, hmap, hhands⟩ := h.hands
  obtain ⟨tokens', hmap', hhands'⟩ := hpass.hands
  have hnil : tokens' = [] := by
    cases tokens' with
    | nil => rfl
    | cons head tail => simp at hmap'
  subst hnil
  have hall := hhands.chain hhands'
  rw [List.append_nil] at hall
  exact ⟨h.nonempty, h.spans.later hpass.advance, hpass.settled, ⟨tokens, hmap, hall⟩,
    h.children, Nat.lt_of_le_of_lt hpass.advance.left_le h.left⟩

/-- A separator and an item parsed behind parsed children are two more
parsed children. -/
theorem Parser.ParsedList.appendPair {α : Type} {getReference : α → SourceRangeReference}
    {leaves : α → List SourceRangeReference} {ranged : α → Bool}
    {start parser p₁ p₂ : Parser} {children : List α} (separator item : α)
    (h : Parser.ParsedList getReference leaves ranged start children parser)
    (hseparator : parser.Parsed (getReference separator) (leaves separator) p₁)
    (hrangedSeparator : ranged separator = true)
    (hitem : p₁.Parsed (getReference item) (leaves item) p₂)
    (hrangedItem : ranged item = true) :
    Parser.ParsedList getReference leaves ranged start (children ++ [separator, item]) p₂ := by
  obtain ⟨tokens, hmap, hhands⟩ := h.hands
  obtain ⟨tokens₁, hmap₁, hhands₁⟩ := hseparator.hands
  obtain ⟨tokens₂, hmap₂, hhands₂⟩ := hitem.hands
  refine ⟨by simp, ?_, hitem.settled, ⟨tokens ++ (tokens₁ ++ tokens₂), ?_, ?_⟩, ?_, ?_⟩
  · rw [List.map_append]
    exact Lexer.SpansList.append h.spans
      ⟨p₁.lexer, hseparator.spans, p₂.lexer, hitem.spans,
        Lexer.Advance.refl hitem.wellFormed⟩
  · simp only [List.map_append, hmap, hmap₁, hmap₂, List.flatMap_append, List.flatMap_cons,
      List.flatMap_nil, List.append_nil]
  · exact hhands.chain (hhands₁.chain hhands₂)
  · intro child hmem
    rcases List.mem_append.mp hmem with hmem | hmem
    · exact h.children child hmem
    · simp only [List.mem_cons, List.mem_singleton, List.not_mem_nil, or_false] at hmem
      rcases hmem with rfl | rfl
      · exact ⟨hseparator.covers, hrangedSeparator⟩
      · exact ⟨hitem.covers, hrangedItem⟩
  · exact Nat.lt_trans hitem.left (Nat.lt_trans hseparator.left h.left)

/-- The range of a list node: the range of the first child extends up to
the last character of the last child, as the parser computes it; a node with
the extended range and the leaves of the children was parsed between the
two states, and so was a node with the range of the first child when it is
the only one; the range contains the range of every child. -/
theorem Parser.ParsedList.listHull {α : Type} {getReference : α → SourceRangeReference}
    {leaves : α → List SourceRangeReference} {ranged : α → Bool}
    {start parser : Parser} {children : List α} {front back : α}
    (h : Parser.ParsedList getReference leaves ranged start children parser)
    (hfront : children.head? = some front) (hback : children.getLast? = some back) :
    ∃ last ref, (getReference back).last = .ok last ∧
      (getReference front).extendUntil last = .ok ref ∧
      start.Parsed ref (children.flatMap leaves) parser ∧
      (∀ child ∈ children, ref.contains (getReference child) = true) ∧
      (children.length = 1 → ref = getReference front) := by
  cases children with
  | nil => simp at hfront
  | cons leading rest =>
    simp only [List.head?_cons, Option.some.injEq] at hfront
    subst hfront
    have hlast : ((leading :: rest).map getReference).getLast? = some (getReference back) := by
      rw [List.getLast?_map, hback]
      rfl
    have hspans := h.spans
    rw [List.map_cons] at hspans hlast
    obtain ⟨hl, hle, _, hall⟩ := Lexer.SpansList.range hspans hlast
    have hwithin := Lexer.SpansList.within hspans hlast
    have hbackMem : back ∈ leading :: rest := List.mem_of_mem_getLast? hback
    have hcoverHead := (h.children leading (List.mem_cons_self _ _)).1
    have hcoverBack := (h.children back hbackMem).1
    obtain ⟨init, hinit⟩ : ∃ init, leading :: rest = init ++ [back] := by
      obtain ⟨init, hinit⟩ := List.getLast?_eq_some_iff.mp hback
      exact ⟨init, hinit⟩
    have hcovers : (SourceRangeReference.mk (getReference leading).ref
        ((getReference back).ref + ((getReference back).length - 1) -
          (getReference leading).ref + 1)).covers
        ((leading :: rest).flatMap leaves) = true := by
      obtain ⟨f₁, _, hf₁, _, _, hstart, _⟩ :=
        (SourceRangeReference.covers_iff _ _).mp hcoverHead
      obtain ⟨_, l₃, _, hl₃, _, _, hend⟩ := (SourceRangeReference.covers_iff _ _).mp hcoverBack
      have hne₁ : leaves leading ≠ [] := by
        intro hnil
        rw [hnil] at hf₁
        cases hf₁
      have hne₃ : leaves back ≠ [] := by
        intro hnil
        rw [hnil] at hl₃
        cases hl₃
      refine (SourceRangeReference.covers_iff _ _).mpr
        ⟨f₁, l₃, ?_, ?_, Nat.succ_pos _, hstart, ?_⟩
      · rw [List.flatMap_cons, List.head?_append_of_ne_nil _ hne₁, hf₁]
      · rw [hinit, List.flatMap_append, List.flatMap_cons, List.flatMap_nil, List.append_nil,
          List.getLast?_append_of_ne_nil _ hne₃, hl₃]
      · show (getReference leading).ref + ((getReference back).ref +
          ((getReference back).length - 1) - (getReference leading).ref + 1) = l₃.ref + l₃.length
        omega
    refine ⟨{ ref := (getReference back).ref + ((getReference back).length - 1) },
      SourceRangeReference.mk (getReference leading).ref
        ((getReference back).ref + ((getReference back).length - 1) -
          (getReference leading).ref + 1), ?_, ?_,
      ⟨hall, h.settled, h.hands, hcovers, h.left⟩, ?_, ?_⟩
    · simp only [SourceRangeReference.last, hl, if_true]
    · simp only [SourceRangeReference.extendUntil, hle, if_true]
    · intro child hmem
      have := hwithin (getReference child) (List.mem_map_of_mem getReference hmem)
      have h1 := this.1
      have h2 := this.2
      refine (SourceRangeReference.contains_iff _ _).mpr ⟨h1, ?_⟩
      show (getReference child).ref + (getReference child).length ≤
        (getReference leading).ref + ((getReference back).ref +
          ((getReference back).length - 1) - (getReference leading).ref + 1)
      omega
    · intro hlength
      have hrest : rest = [] := by
        cases rest with
        | nil => rfl
        | cons second more => simp at hlength
      subst hrest
      simp only [List.getLast?_singleton, Option.some.injEq] at hback
      subst hback
      cases hhead : getReference leading with
      | mk start length =>
        rw [hhead] at hl
        simp only at hl
        simp only [SourceRangeReference.mk.injEq, true_and]
        omega

end parser

end pljit

namespace pljit

namespace parser

open common lexer parse_tree

/-- The function `parseAssignmentExpression` does not fault in a settled
state of the lexer with a consistent token cache and with a recursion budget
of four calls per character left; a node that it returns was parsed between
the two states, and its ranges pass the test. -/
theorem Parser.parseAssignmentExpression_parsed (fuel : Nat) (parser : Parser)
    (hwf : parser.lexer.WellFormed) (hsettled : parser.lexer.Settled)
    (hfuel : 4 * parser.lexer.left + 4 ≤ fuel) :
    (parser.parseAssignmentExpression fuel).Holds (fun node parser' =>
      parser.Parsed node.ref node.leaves parser' ∧ node.ranged = true) := by
  rcases (Parser.parseIdentifier_parsed parser hwf hsettled).cases with
    ⟨identifier, p₁, hidentifier, hpi, hri⟩ | ⟨p₁, hidentifier⟩
  swap
  · simp only [Parser.parseAssignmentExpression, hidentifier, ParseResult.bind]
    exact trivial
  rcases (Parser.parseGenericToken_parsed .Assignment p₁ hpi.wellFormed hpi.settled).cases with
    ⟨assignment, p₂, hassignment, hpt, hrt, _, _⟩ | ⟨p₂, hassignment⟩
  swap
  · simp only [Parser.parseAssignmentExpression, hidentifier, ParseResult.bind, hassignment]
    exact trivial
  have hleft₁ := hpi.left
  have hleft₂ := hpt.left
  rcases ((Parser.parseExpression_parsed fuel).1 p₂ hpt.wellFormed hpt.settled
    (by omega)).cases with ⟨a, p₃, ha, hpa, hra⟩ | ⟨p₃, ha⟩
  swap
  · simp only [Parser.parseAssignmentExpression, hidentifier, ParseResult.bind, hassignment,
      ha]
    exact trivial
  obtain ⟨last, ref, hlast, hextend, hparsed, hc₁, hc₃, hc₂, _⟩ :=
    Parser.Parsed.hull hpi hpt.toPasses hpa
  simp only [Parser.parseAssignmentExpression, hidentifier, ParseResult.bind, hassignment, ha,
    hlast, ParseResult.ofExcept, hextend]
  have hleaves : [identifier.ref] ++ [assignment.ref] ++ a.leaves =
      identifier.ref :: assignment.ref :: a.leaves := by
    simp only [List.singleton_append, List.cons_append, List.nil_append]
  rw [hleaves] at hparsed
  refine ⟨hparsed, ?_⟩
  simp only [AssignmentExpression.ranged, AssignmentExpression.leaves, hparsed.covers, hc₁,
    hc₃, hc₂ _ hpt.spans, hri, hrt, hra, Bool.and_self]

/-- The function `parseStatement` does not fault in a settled state of the
lexer with a consistent token cache and with a recursion budget of four
calls per character left; a node that it returns was parsed between the two
states, and its ranges pass the test. -/
theorem Parser.parseStatement_parsed (fuel : Nat) (parser : Parser)
    (hwf : parser.lexer.WellFormed) (hsettled : parser.lexer.Settled)
    (hfuel : 4 * parser.lexer.left + 4 ≤ fuel) :
    (parser.parseStatement fuel).Holds (fun node parser' =>
      parser.Parsed node.getReference node.leaves parser' ∧ node.ranged = true) := by
  by_cases hnext : parser.lexer.hasNext = true
  swap
  · have hnext' : parser.lexer.hasNext = false := by simpa using hnext
    simp only [Parser.parseStatement, hnext', Bool.not_false, if_true]
    exact trivial
  obtain ⟨token, lexer', hpeek, hadvance, hsettled', hhands, _, _⟩ :=
    Lexer.peek_settled parser.lexer hwf hsettled hnext
  have hpass : parser.Passes [] { parser with lexer := lexer' } :=
    ⟨hadvance, hsettled', [], rfl, hhands⟩
  have hleft₀ : lexer'.left ≤ parser.lexer.left := hadvance.left_le
  by_cases hreturn : token.tokenType = .Return
  · rcases (Parser.parseGenericToken_parsed .Return { parser with lexer := lexer' }
      hadvance.2.1 hsettled').cases with ⟨keyword, p₁, hkeyword, hpk, hrk, _, _⟩ | ⟨p₁, hkeyword⟩
    swap
    · simp only [Parser.parseStatement, hnext, Bool.not_true, Bool.false_eq_true, if_false,
        hpeek, ParseResult.ofExcept, hreturn, if_true, hkeyword, ParseResult.bind]
      exact trivial
    have hleft₁ : p₁.lexer.left < lexer'.left := hpk.left
    rcases ((Parser.parseExpression_parsed fuel).1 p₁ hpk.wellFormed hpk.settled
      (by omega)).cases with ⟨a, p₂, ha, hpa, hra⟩ | ⟨p₂, ha⟩
    swap
    · simp only [Parser.parseStatement, hnext, Bool.not_true, Bool.false_eq_true, if_false,
        hpeek, ParseResult.ofExcept, hreturn, if_true, hkeyword, ParseResult.bind, ha]
      exact trivial
    obtain ⟨last, ref, hlast, hextend, hparsed, hc₁, hc₃, _, _⟩ :=
      Parser.Parsed.hull hpk (Parser.Passes.stay p₁ hpk.wellFormed hpk.settled) hpa
    simp only [Parser.parseStatement, hnext, Bool.not_true, Bool.false_eq_true, if_false,
      hpeek, ParseResult.ofExcept, hreturn, if_true, hkeyword, ParseResult.bind, ha, hlast,
      hextend]
    have hleaves : [keyword.ref] ++ [] ++ a.leaves = keyword.ref :: a.leaves := by
      simp only [List.append_nil, List.singleton_append]
    rw [hleaves] at hparsed
    refine ⟨Parser.Parsed.earlier hpass hparsed, ?_⟩
    simp only [Statement.ranged, hparsed.covers, hc₁, hc₃, hrk, hra, Bool.and_self]
  by_cases hidentifier : token.tokenType = .Identifier
  swap
  · simp only [Parser.parseStatement, hnext, Bool.not_true, Bool.false_eq_true, if_false,
      hpeek, ParseResult.ofExcept, hreturn, ne_eq, hidentifier, not_false_eq_true, if_true]
    exact trivial
  rcases (Parser.parseAssignmentExpression_parsed fuel { parser with lexer := lexer' }
    hadvance.2.1 hsettled' (by
      show 4 * lexer'.left + 4 ≤ fuel
      omega)).cases with ⟨assignment, p₁, hassignment, hpa, hra⟩ | ⟨p₁, hassignment⟩
  swap
  · simp only [Parser.parseStatement, hnext, Bool.not_true, Bool.false_eq_true, if_false,
      hpeek, ParseResult.ofExcept, hreturn, ne_eq, hidentifier, not_true_eq_false,
      hassignment, ParseResult.bind]
    exact trivial
  simp only [Parser.parseStatement, hnext, Bool.not_true, Bool.false_eq_true, if_false,
    hpeek, ParseResult.ofExcept, hreturn, ne_eq, hidentifier, not_true_eq_false,
    hassignment, ParseResult.bind]
  refine ⟨Parser.Parsed.earlier hpass hpa, ?_⟩
  simp only [Statement.ranged, hpa.covers, SourceRangeReference.contains_self, hra,
    Bool.and_self]

/-- The loop of `parseStatementList` does not fault behind parsed children,
with a recursion budget of four calls per character left; the children that
it returns were parsed one after the other. -/
theorem Parser.parseStatementListLoop_parsed (fuel : Nat) :
    ∀ (children : List StatementListChild) (start parser : Parser),
      Parser.ParsedList StatementListChild.getReference StatementListChild.leaves
        StatementListChild.ranged start children parser →
      4 * parser.lexer.left + 1 ≤ fuel →
      (Parser.parseStatementListLoop fuel children parser).Holds (fun children' parser' =>
        Parser.ParsedList StatementListChild.getReference StatementListChild.leaves
          StatementListChild.ranged start children' parser') := by
  induction fuel with
  | zero =>
    intro children start parser _ hfuel
    omega
  | succ fuel ih =>
    intro children start parser hlist hfuel
    have hwf : parser.lexer.WellFormed := hlist.spans.toAdvance.2.1
    obtain ⟨peeked, p₁, hpeek, hpass, _, _, _⟩ :=
      Parser.peekTokenType_passes parser hwf hlist.settled
    have hleft₁ := hpass.advance.left_le
    by_cases hsemi : peeked.map (·.tokenType) = some .SemiColon
    · rcases (Parser.parseGenericToken_parsed .SemiColon p₁ hpass.advance.2.1
        hpass.settled).cases with ⟨semiColon, p₂, hsemiColon, hps, hrs, _, _⟩ | ⟨p₂, hsemiColon⟩
      swap
      · simp only [Parser.parseStatementListLoop, hpeek, ParseResult.ofExcept, hsemi, if_true,
          hsemiColon, ParseResult.bind]
        exact trivial
      have hleft₂ := hps.left
      rcases (Parser.parseStatement_parsed fuel p₂ hps.wellFormed hps.settled
        (by omega)).cases with ⟨statement, p₃, hstatement, hpst, hrst⟩ | ⟨p₃, hstatement⟩
      swap
      · simp only [Parser.parseStatementListLoop, hpeek, ParseResult.ofExcept, hsemi, if_true,
          hsemiColon, ParseResult.bind, hstatement]
        exact trivial
      have hleft₃ := hpst.left
      have hnew := Parser.ParsedList.appendPair (StatementListChild.GenericToken semiColon)
        (StatementListChild.Statement statement) (hlist.listThenPasses hpass) hps hrs hpst hrst
      have hrec := ih _ start p₃ hnew (by omega)
      simp only [Parser.parseStatementListLoop, hpeek, ParseResult.ofExcept, hsemi, if_true,
        hsemiColon, ParseResult.bind, hstatement]
      exact hrec
    · simp only [Parser.parseStatementListLoop, hpeek, ParseResult.ofExcept, hsemi, if_false]
      exact hlist.listThenPasses hpass

/-- The function `parseStatementList` does not fault in a settled state of
the lexer with a consistent token cache and with a recursion budget of four
calls per character left; a node that it returns was parsed between the two
states, and its ranges pass the test. -/
theorem Parser.parseStatementList_parsed (fuel : Nat) (parser : Parser)
    (hwf : parser.lexer.WellFormed) (hsettled : parser.lexer.Settled)
    (hfuel : 4 * parser.lexer.left + 4 ≤ fuel) :
    (parser.parseStatementList fuel).Holds (fun node parser' =>
      parser.Parsed node.ref node.leaves parser' ∧ node.ranged = true) := by
  rcases (Parser.parseStatement_parsed fuel parser hwf hsettled hfuel).cases with
    ⟨statement, p₁, hstatement, hpst, hrst⟩ | ⟨p₁, hstatement⟩
  swap
  · simp only [Parser.parseStatementList, hstatement, ParseResult.bind]
    exact trivial
  have hleft₁ := hpst.left
  have hsingle := Parser.ParsedList.single StatementListChild.getReference
    StatementListChild.leaves StatementListChild.ranged (StatementListChild.Statement statement)
    hpst hrst
  rcases (Parser.parseStatementListLoop_parsed fuel _ parser p₁ hsingle (by omega)).cases with
    ⟨children, p₂, hloop, hlist⟩ | ⟨p₂, hloop⟩
  swap
  · simp only [Parser.parseStatementList, hstatement, ParseResult.bind, hloop]
    exact trivial
  obtain ⟨front, hfront⟩ : ∃ front, children.head? = some front := by
    cases hchildren : children with
    | nil => exact absurd hchildren hlist.nonempty
    | cons front rest => exact ⟨front, rfl⟩
  obtain ⟨back, hback⟩ : ∃ back, children.getLast? = some back := by
    cases hlast : children.getLast? with
    | none => exact absurd (List.getLast?_eq_none_iff.mp hlast) hlist.nonempty
    | some back => exact ⟨back, rfl⟩
  obtain ⟨last, ref, hlast, hextend, hparsed, hcontains, hone⟩ := hlist.listHull hfront hback
  have hranged : ∀ range : SourceRangeReference, range = ref →
      StatementList.ranged { children := children, ref := range } = true := by
    intro range hrange
    subst hrange
    simp only [StatementList.ranged, StatementList.leaves, hparsed.covers, Bool.true_and,
      List.all_eq_true, Bool.and_eq_true]
    intro child hmem
    exact ⟨hcontains child hmem, (hlist.children child hmem).2⟩
  simp only [Parser.parseStatementList, hstatement, ParseResult.bind, hloop, hfront, hback]
  by_cases hlength : children.length = 1
  · simp only [hlength, ne_eq, not_true_eq_false, if_false]
    have href := hone hlength
    refine ⟨?_, hranged _ href.symm⟩
    show parser.Parsed front.getReference (children.flatMap StatementListChild.leaves) p₂
    rw [← href]
    exact hparsed
  · simp only [ne_eq, hlength, not_false_eq_true, if_true, hlast, ParseResult.ofExcept,
      hextend]
    exact ⟨hparsed, hranged _ rfl⟩

/-- The function `parseCompoundStatement` does not fault in a settled state
of the lexer with a consistent token cache and with a recursion budget of
four calls per character left; a node that it returns was parsed between the
two states, and its ranges pass the test. -/
theorem Parser.parseCompoundStatement_parsed (fuel : Nat) (parser : Parser)
    (hwf : parser.lexer.WellFormed) (hsettled : parser.lexer.Settled)
    (hfuel : 4 * parser.lexer.left + 4 ≤ fuel) :
    (parser.parseCompoundStatement fuel).Holds (fun node parser' =>
      parser.Parsed node.ref node.leaves parser' ∧ node.ranged = true) := by
  rcases (Parser.parseGenericToken_parsed .Begin parser hwf hsettled).cases with
    ⟨beginKeyword, p₁, hbegin, hpb, hrb, _, _⟩ | ⟨p₁, hbegin⟩
  swap
  · simp only [Parser.parseCompoundStatement, hbegin, ParseResult.bind]
    exact trivial
  have hleft₁ := hpb.left
  rcases (Parser.parseStatementList_parsed fuel p₁ hpb.wellFormed hpb.settled
    (by omega)).cases with ⟨statementList, p₂, hlist, hpl, hrl⟩ | ⟨p₂, hlist⟩
  swap
  · simp only [Parser.parseCompoundStatement, hbegin, ParseResult.bind, hlist]
    exact trivial
  rcases (Parser.parseGenericToken_parsed .End p₂ hpl.wellFormed hpl.settled).cases with
    ⟨endKeyword, p₃, hend, hpe, hre, _, _⟩ | ⟨p₃, hend⟩
  swap
  · simp only [Parser.parseCompoundStatement, hbegin, ParseResult.bind, hlist, hend]
    exact trivial
  obtain ⟨last, ref, hlast, hextend, hparsed, hc₁, hc₃, hc₂, _⟩ :=
    Parser.Parsed.hull hpb hpl.toPasses hpe
  simp only [Parser.parseCompoundStatement, hbegin, ParseResult.bind, hlist, hend, hlast,
    ParseResult.ofExcept, hextend]
  have hleaves : [beginKeyword.ref] ++ statementList.leaves ++ [endKeyword.ref] =
      beginKeyword.ref :: (statementList.leaves ++ [endKeyword.ref]) := by
    simp only [List.singleton_append, List.cons_append, List.nil_append]
  rw [hleaves] at hparsed
  refine ⟨hparsed, ?_⟩
  simp only [CompoundStatement.ranged, CompoundStatement.leaves, hparsed.covers, hc₁, hc₃,
    hc₂ _ hpl.spans, hrb, hrl, hre, Bool.and_self]

end parser

end pljit

namespace pljit

namespace parser

open common lexer parse_tree

/-- The loop of `parseDeclaratorList` does not fault behind parsed children,
with a recursion budget of one call per character left at least; the
children that it returns were parsed one after the other. -/
theorem Parser.parseDeclaratorListLoop_parsed (fuel : Nat) :
    ∀ (children : List DeclaratorListChild) (start parser : Parser),
      Parser.ParsedList DeclaratorListChild.getReference DeclaratorListChild.leaves
        DeclaratorListChild.ranged start children parser →
      4 * parser.lexer.left + 1 ≤ fuel →
      (Parser.parseDeclaratorListLoop fuel children parser).Holds (fun children' parser' =>
        Parser.ParsedList DeclaratorListChild.getReference DeclaratorListChild.leaves
          DeclaratorListChild.ranged start children' parser') := by
  induction fuel with
  | zero =>
    intro children start parser _ hfuel
    omega
  | succ fuel ih =>
    intro children start parser hlist hfuel
    have hwf : parser.lexer.WellFormed := hlist.spans.toAdvance.2.1
    obtain ⟨peeked, p₁, hpeek, hpass, _, _, _⟩ :=
      Parser.peekTokenType_passes parser hwf hlist.settled
    have hleft₁ := hpass.advance.left_le
    by_cases hcomma : peeked.map (·.tokenType) = some .Comma
    · rcases (Parser.parseGenericToken_parsed .Comma p₁ hpass.advance.2.1
        hpass.settled).cases with ⟨comma, p₂, hcommaOk, hpc, hrc, _, _⟩ | ⟨p₂, hcommaOk⟩
      swap
      · simp only [Parser.parseDeclaratorListLoop, hpeek, ParseResult.ofExcept, hcomma, if_true,
          hcommaOk, ParseResult.bind]
        exact trivial
      have hleft₂ := hpc.left
      rcases (Parser.parseIdentifier_parsed p₂ hpc.wellFormed hpc.settled).cases with
        ⟨identifier, p₃, hidentifier, hpi, hri⟩ | ⟨p₃, hidentifier⟩
      swap
      · simp only [Parser.parseDeclaratorListLoop, hpeek, ParseResult.ofExcept, hcomma, if_true,
          hcommaOk, ParseResult.bind, hidentifier]
        exact trivial
      have hleft₃ := hpi.left
      have hnew := Parser.ParsedList.appendPair (DeclaratorListChild.GenericToken comma)
        (DeclaratorListChild.Identifier identifier) (hlist.listThenPasses hpass) hpc hrc hpi hri
      have hrec := ih _ start p₃ hnew (by omega)
      simp only [Parser.parseDeclaratorListLoop, hpeek, ParseResult.ofExcept, hcomma, if_true,
        hcommaOk, ParseResult.bind, hidentifier]
      exact hrec
    · simp only [Parser.parseDeclaratorListLoop, hpeek, ParseResult.ofExcept, hcomma, if_false]
      exact hlist.listThenPasses hpass

/-- The function `parseDeclaratorList` does not fault in a settled state of
the lexer with a consistent token cache and with a recursion budget of one
call per character left at least; a node that it returns was parsed between
the two states, and its ranges pass the test. -/
theorem Parser.parseDeclaratorList_parsed (fuel : Nat) (parser : Parser)
    (hwf : parser.lexer.WellFormed) (hsettled : parser.lexer.Settled)
    (hfuel : 4 * parser.lexer.left + 1 ≤ fuel) :
    (parser.parseDeclaratorList fuel).Holds (fun node parser' =>
      parser.Parsed node.ref node.leaves parser' ∧ node.ranged = true) := by
  rcases (Parser.parseIdentifier_parsed parser hwf hsettled).cases with
    ⟨identifier, p₁, hidentifier, hpi, hri⟩ | ⟨p₁, hidentifier⟩
  swap
  · simp only [Parser.parseDeclaratorList, hidentifier, ParseResult.bind]
    exact trivial
  have hleft₁ := hpi.left
  have hsingle := Parser.ParsedList.single DeclaratorListChild.getReference
    DeclaratorListChild.leaves DeclaratorListChild.ranged
    (DeclaratorListChild.Identifier identifier) hpi hri
  rcases (Parser.parseDeclaratorListLoop_parsed fuel _ parser p₁ hsingle (by omega)).cases with
    ⟨children, p₂, hloop, hlist⟩ | ⟨p₂, hloop⟩
  swap
  · simp only [Parser.parseDeclaratorList, hidentifier, ParseResult.bind, hloop]
    exact trivial
  obtain ⟨front, hfront⟩ : ∃ front, children.head? = some front := by
    cases hchildren : children with
    | nil => exact absurd hchildren hlist.nonempty
    | cons front rest => exact ⟨front, rfl⟩
  obtain ⟨back, hback⟩ : ∃ back, children.getLast? = some back := by
    cases hlast : children.getLast? with
    | none => exact absurd (List.getLast?_eq_none_iff.mp hlast) hlist.nonempty
    | some back => exact ⟨back, rfl⟩
  obtain ⟨last, ref, hlast, hextend, hparsed, hcontains, hone⟩ := hlist.listHull hfront hback
  have hranged : ∀ range : SourceRangeReference, range = ref →
      DeclaratorList.ranged { children := children, ref := range } = true := by
    intro range hrange
    subst hrange
    simp only [DeclaratorList.ranged, DeclaratorList.leaves, hparsed.covers, Bool.true_and,
      List.all_eq_true, Bool.and_eq_true]
    intro child hmem
    exact ⟨hcontains child hmem, (hlist.children child hmem).2⟩
  simp only [Parser.parseDeclaratorList, hidentifier, ParseResult.bind, hloop, hfront, hback]
  by_cases hlength : children.length = 1
  · simp only [hlength, ne_eq, not_true_eq_false, if_false]
    have href := hone hlength
    refine ⟨?_, hranged _ href.symm⟩
    show parser.Parsed front.getReference (children.flatMap DeclaratorListChild.leaves) p₂
    rw [← href]
    exact hparsed
  · simp only [ne_eq, hlength, not_false_eq_true, if_true, hlast, ParseResult.ofExcept,
      hextend]
    exact ⟨hparsed, hranged _ rfl⟩

/-- The function `parseInitDeclarator` does not fault in a settled state of
the lexer with a consistent token cache; a node that it returns was parsed
between the two states, and its ranges pass the test. -/
theorem Parser.parseInitDeclarator_parsed (parser : Parser)
    (hwf : parser.lexer.WellFormed) (hsettled : parser.lexer.Settled) :
    parser.parseInitDeclarator.Holds (fun node parser' =>
      parser.Parsed node.ref node.leaves parser' ∧ node.ranged = true) := by
  rcases (Parser.parseIdentifier_parsed parser hwf hsettled).cases with
    ⟨identifier, p₁, hidentifier, hpi, hri⟩ | ⟨p₁, hidentifier⟩
  swap
  · simp only [Parser.parseInitDeclarator, hidentifier, ParseResult.bind]
    exact trivial
  rcases (Parser.parseGenericToken_parsed .Init p₁ hpi.wellFormed hpi.settled).cases with
    ⟨init, p₂, hinit, hpt, hrt, _, _⟩ | ⟨p₂, hinit⟩
  swap
  · simp only [Parser.parseInitDeclarator, hidentifier, ParseResult.bind, hinit]
    exact trivial
  rcases (Parser.parseLiteral_parsed p₂ hpt.wellFormed hpt.settled).cases with
    ⟨literal, p₃, hliteral, hpl, hrl⟩ | ⟨p₃, hliteral⟩
  swap
  · simp only [Parser.parseInitDeclarator, hidentifier, ParseResult.bind, hinit, hliteral]
    exact trivial
  obtain ⟨last, ref, hlast, hextend, hparsed, hc₁, hc₃, hc₂, _⟩ :=
    Parser.Parsed.hull hpi hpt.toPasses hpl
  simp only [Parser.parseInitDeclarator, hidentifier, ParseResult.bind, hinit, hliteral, hlast,
    ParseResult.ofExcept, hextend]
  have hleaves : [identifier.ref] ++ [init.ref] ++ [literal.ref] =
      [identifier.ref, init.ref, literal.ref] := rfl
  rw [hleaves] at hparsed
  refine ⟨hparsed, ?_⟩
  simp only [InitDeclarator.ranged, InitDeclarator.leaves, hparsed.covers, hc₁, hc₃,
    hc₂ _ hpt.spans, hri, hrt, hrl, Bool.and_self]

/-- The loop of `parseInitDeclaratorList` does not fault behind parsed
children, with a recursion budget of one call per character left at least;
the children that it returns were parsed one after the other. -/
theorem Parser.parseInitDeclaratorListLoop_parsed (fuel : Nat) :
    ∀ (children : List InitDeclaratorListChild) (start parser : Parser),
      Parser.ParsedList InitDeclaratorListChild.getReference InitDeclaratorListChild.leaves
        InitDeclaratorListChild.ranged start children parser →
      4 * parser.lexer.left + 1 ≤ fuel →
      (Parser.parseInitDeclaratorListLoop fuel children parser).Holds
        (fun children' parser' =>
          Parser.ParsedList InitDeclaratorListChild.getReference
            InitDeclaratorListChild.leaves InitDeclaratorListChild.ranged start children'
            parser') := by
  induction fuel with
  | zero =>
    intro children start parser _ hfuel
    omega
  | succ fuel ih =>
    intro children start parser hlist hfuel
    have hwf : parser.lexer.WellFormed := hlist.spans.toAdvance.2.1
    obtain ⟨peeked, p₁, hpeek, hpass, _, _, _⟩ :=
      Parser.peekTokenType_passes parser hwf hlist.settled
    have hleft₁ := hpass.advance.left_le
    by_cases hcomma : peeked.map (·.tokenType) = some .Comma
    · rcases (Parser.parseGenericToken_parsed .Comma p₁ hpass.advance.2.1
        hpass.settled).cases with ⟨comma, p₂, hcommaOk, hpc, hrc, _, _⟩ | ⟨p₂, hcommaOk⟩
      swap
      · simp only [Parser.parseInitDeclaratorListLoop, hpeek, ParseResult.ofExcept, hcomma,
          if_true, hcommaOk, ParseResult.bind]
        exact trivial
      have hleft₂ := hpc.left
      rcases (Parser.parseInitDeclarator_parsed p₂ hpc.wellFormed hpc.settled).cases with
        ⟨declarator, p₃, hdeclarator, hpd, hrd⟩ | ⟨p₃, hdeclarator⟩
      swap
      · simp only [Parser.parseInitDeclaratorListLoop, hpeek, ParseResult.ofExcept, hcomma,
          if_true, hcommaOk, ParseResult.bind, hdeclarator]
        exact trivial
      have hleft₃ := hpd.left
      have hnew := Parser.ParsedList.appendPair (InitDeclaratorListChild.GenericToken comma)
        (InitDeclaratorListChild.InitDeclarator declarator) (hlist.listThenPasses hpass) hpc hrc hpd hrd
      have hrec := ih _ start p₃ hnew (by omega)
      simp only [Parser.parseInitDeclaratorListLoop, hpeek, ParseResult.ofExcept, hcomma,
        if_true, hcommaOk, ParseResult.bind, hdeclarator]
      exact hrec
    · simp only [Parser.parseInitDeclaratorListLoop, hpeek, ParseResult.ofExcept, hcomma,
        if_false]
      exact hlist.listThenPasses hpass

/-- The function `parseInitDeclaratorList` does not fault in a settled state
of the lexer with a consistent token cache and with a recursion budget of
one call per character left at least; a node that it returns was parsed
between the two states, and its ranges pass the test. -/
theorem Parser.parseInitDeclaratorList_parsed (fuel : Nat) (parser : Parser)
    (hwf : parser.lexer.WellFormed) (hsettled : parser.lexer.Settled)
    (hfuel : 4 * parser.lexer.left + 1 ≤ fuel) :
    (parser.parseInitDeclaratorList fuel).Holds (fun node parser' =>
      parser.Parsed node.ref node.leaves parser' ∧ node.ranged = true) := by
  rcases (Parser.parseInitDeclarator_parsed parser hwf hsettled).cases with
    ⟨declarator, p₁, hdeclarator, hpd, hrd⟩ | ⟨p₁, hdeclarator⟩
  swap
  · simp only [Parser.parseInitDeclaratorList, hdeclarator, ParseResult.bind]
    exact trivial
  have hleft₁ := hpd.left
  have hsingle := Parser.ParsedList.single InitDeclaratorListChild.getReference
    InitDeclaratorListChild.leaves InitDeclaratorListChild.ranged
    (InitDeclaratorListChild.InitDeclarator declarator) hpd hrd
  rcases (Parser.parseInitDeclaratorListLoop_parsed fuel _ parser p₁ hsingle
    (by omega)).cases with ⟨children, p₂, hloop, hlist⟩ | ⟨p₂, hloop⟩
  swap
  · simp only [Parser.parseInitDeclaratorList, hdeclarator, ParseResult.bind, hloop]
    exact trivial
  obtain ⟨front, hfront⟩ : ∃ front, children.head? = some front := by
    cases hchildren : children with
    | nil => exact absurd hchildren hlist.nonempty
    | cons front rest => exact ⟨front, rfl⟩
  obtain ⟨back, hback⟩ : ∃ back, children.getLast? = some back := by
    cases hlast : children.getLast? with
    | none => exact absurd (List.getLast?_eq_none_iff.mp hlast) hlist.nonempty
    | some back => exact ⟨back, rfl⟩
  obtain ⟨last, ref, hlast, hextend, hparsed, hcontains, hone⟩ := hlist.listHull hfront hback
  have hranged : ∀ range : SourceRangeReference, range = ref →
      InitDeclaratorList.ranged { children := children, ref := range } = true := by
    intro range hrange
    subst hrange
    simp only [InitDeclaratorList.ranged, InitDeclaratorList.leaves, hparsed.covers,
      Bool.true_and, List.all_eq_true, Bool.and_eq_true]
    intro child hmem
    exact ⟨hcontains child hmem, (hlist.children child hmem).2⟩
  simp only [Parser.parseInitDeclaratorList, hdeclarator, ParseResult.bind, hloop, hfront,
    hback]
  by_cases hlength : children.length = 1
  · simp only [hlength, ne_eq, not_true_eq_false, if_false]
    have href := hone hlength
    refine ⟨?_, hranged _ href.symm⟩
    show parser.Parsed front.getReference (children.flatMap InitDeclaratorListChild.leaves) p₂
    rw [← href]
    exact hparsed
  · simp only [ne_eq, hlength, not_false_eq_true, if_true, hlast, ParseResult.ofExcept,
      hextend]
    exact ⟨hparsed, hranged _ rfl⟩

/-- The function `parseParameterDeclarations` does not fault in a settled
state of the lexer with a consistent token cache and with a recursion budget
of one call per character left at least; a node that it returns was parsed
between the two states, and its ranges pass the test. -/
theorem Parser.parseParameterDeclarations_parsed (fuel : Nat) (parser : Parser)
    (hwf : parser.lexer.WellFormed) (hsettled : parser.lexer.Settled)
    (hfuel : 4 * parser.lexer.left + 1 ≤ fuel) :
    (parser.parseParameterDeclarations fuel).Holds (fun node parser' =>
      parser.Parsed node.ref node.leaves parser' ∧ node.ranged = true) := by
  rcases (Parser.parseGenericToken_parsed .Param parser hwf hsettled).cases with
    ⟨keyword, p₁, hkeyword, hpk, hrk, _, _⟩ | ⟨p₁, hkeyword⟩
  swap
  · simp only [Parser.parseParameterDeclarations, hkeyword, ParseResult.bind]
    exact trivial
  have hleft₁ := hpk.left
  rcases (Parser.parseDeclaratorList_parsed fuel p₁ hpk.wellFormed hpk.settled
    (by omega)).cases with ⟨list, p₂, hlist, hpl, hrl⟩ | ⟨p₂, hlist⟩
  swap
  · simp only [Parser.parseParameterDeclarations, hkeyword, ParseResult.bind, hlist]
    exact trivial
  rcases (Parser.parseGenericToken_parsed .SemiColon p₂ hpl.wellFormed hpl.settled).cases with
    ⟨semiColon, p₃, hsemiColon, hps, hrs, _, _⟩ | ⟨p₃, hsemiColon⟩
  swap
  · simp only [Parser.parseParameterDeclarations, hkeyword, ParseResult.bind, hlist,
      hsemiColon]
    exact trivial
  obtain ⟨last, ref, hlast, hextend, hparsed, hc₁, hc₃, hc₂, _⟩ :=
    Parser.Parsed.hull hpk hpl.toPasses hps
  simp only [Parser.parseParameterDeclarations, hkeyword, ParseResult.bind, hlist, hsemiColon,
    hlast, ParseResult.ofExcept, hextend]
  have hleaves : [keyword.ref] ++ list.leaves ++ [semiColon.ref] =
      keyword.ref :: (list.leaves ++ [semiColon.ref]) := by
    simp only [List.singleton_append, List.cons_append, List.nil_append]
  rw [hleaves] at hparsed
  refine ⟨hparsed, ?_⟩
  simp only [ParameterDeclarations.ranged, ParameterDeclarations.leaves, hparsed.covers, hc₁,
    hc₃, hc₂ _ hpl.spans, hrk, hrl, hrs, Bool.and_self]

/-- The function `parseVariableDeclarations` does not fault in a settled
state of the lexer with a consistent token cache and with a recursion budget
of one call per character left at least; a node that it returns was parsed
between the two states, and its ranges pass the test. -/
theorem Parser.parseVariableDeclarations_parsed (fuel : Nat) (parser : Parser)
    (hwf : parser.lexer.WellFormed) (hsettled : parser.lexer.Settled)
    (hfuel : 4 * parser.lexer.left + 1 ≤ fuel) :
    (parser.parseVariableDeclarations fuel).Holds (fun node parser' =>
      parser.Parsed node.ref node.leaves parser' ∧ node.ranged = true) := by
  rcases (Parser.parseGenericToken_parsed .Var parser hwf hsettled).cases with
    ⟨keyword, p₁, hkeyword, hpk, hrk, _, _⟩ | ⟨p₁, hkeyword⟩
  swap
  · simp only [Parser.parseVariableDeclarations, hkeyword, ParseResult.bind]
    exact trivial
  have hleft₁ := hpk.left
  rcases (Parser.parseDeclaratorList_parsed fuel p₁ hpk.wellFormed hpk.settled
    (by omega)).cases with ⟨list, p₂, hlist, hpl, hrl⟩ | ⟨p₂, hlist⟩
  swap
  · simp only [Parser.parseVariableDeclarations, hkeyword, ParseResult.bind, hlist]
    exact trivial
  rcases (Parser.parseGenericToken_parsed .SemiColon p₂ hpl.wellFormed hpl.settled).cases with
    ⟨semiColon, p₃, hsemiColon, hps, hrs, _, _⟩ | ⟨p₃, hsemiColon⟩
  swap
  · simp only [Parser.parseVariableDeclarations, hkeyword, ParseResult.bind, hlist,
      hsemiColon]
    exact trivial
  obtain ⟨last, ref, hlast, hextend, hparsed, hc₁, hc₃, hc₂, _⟩ :=
    Parser.Parsed.hull hpk hpl.toPasses hps
  simp only [Parser.parseVariableDeclarations, hkeyword, ParseResult.bind, hlist, hsemiColon,
    hlast, ParseResult.ofExcept, hextend]
  have hleaves : [keyword.ref] ++ list.leaves ++ [semiColon.ref] =
      keyword.ref :: (list.leaves ++ [semiColon.ref]) := by
    simp only [List.singleton_append, List.cons_append, List.nil_append]
  rw [hleaves] at hparsed
  refine ⟨hparsed, ?_⟩
  simp only [VariableDeclarations.ranged, VariableDeclarations.leaves, hparsed.covers, hc₁,
    hc₃, hc₂ _ hpl.spans, hrk, hrl, hrs, Bool.and_self]

/-- The function `parseConstantDeclarations` does not fault in a settled
state of the lexer with a consistent token cache and with a recursion budget
of one call per character left at least; a node that it returns was parsed
between the two states, and its ranges pass the test. -/
theorem Parser.parseConstantDeclarations_parsed (fuel : Nat) (parser : Parser)
    (hwf : parser.lexer.WellFormed) (hsettled : parser.lexer.Settled)
    (hfuel : 4 * parser.lexer.left + 1 ≤ fuel) :
    (parser.parseConstantDeclarations fuel).Holds (fun node parser' =>
      parser.Parsed node.ref node.leaves parser' ∧ node.ranged = true) := by
  rcases (Parser.parseGenericToken_parsed .Const parser hwf hsettled).cases with
    ⟨keyword, p₁, hkeyword, hpk, hrk, _, _⟩ | ⟨p₁, hkeyword⟩
  swap
  · simp only [Parser.parseConstantDeclarations, hkeyword, ParseResult.bind]
    exact trivial
  have hleft₁ := hpk.left
  rcases (Parser.parseInitDeclaratorList_parsed fuel p₁ hpk.wellFormed hpk.settled
    (by omega)).cases with ⟨list, p₂, hlist, hpl, hrl⟩ | ⟨p₂, hlist⟩
  swap
  · simp only [Parser.parseConstantDeclarations, hkeyword, ParseResult.bind, hlist]
    exact trivial
  rcases (Parser.parseGenericToken_parsed .SemiColon p₂ hpl.wellFormed hpl.settled).cases with
    ⟨semiColon, p₃, hsemiColon, hps, hrs, _, _⟩ | ⟨p₃, hsemiColon⟩
  swap
  · simp only [Parser.parseConstantDeclarations, hkeyword, ParseResult.bind, hlist,
      hsemiColon]
    exact trivial
  obtain ⟨last, ref, hlast, hextend, hparsed, hc₁, hc₃, hc₂, _⟩ :=
    Parser.Parsed.hull hpk hpl.toPasses hps
  simp only [Parser.parseConstantDeclarations, hkeyword, ParseResult.bind, hlist, hsemiColon,
    hlast, ParseResult.ofExcept, hextend]
  have hleaves : [keyword.ref] ++ list.leaves ++ [semiColon.ref] =
      keyword.ref :: (list.leaves ++ [semiColon.ref]) := by
    simp only [List.singleton_append, List.cons_append, List.nil_append]
  rw [hleaves] at hparsed
  refine ⟨hparsed, ?_⟩
  simp only [ConstantDeclarations.ranged, ConstantDeclarations.leaves, hparsed.covers, hc₁,
    hc₃, hc₂ _ hpl.spans, hrk, hrl, hrs, Bool.and_self]

/-- An optional declaration section: `parseOptionalSection` does not fault
in a settled state of the lexer with a consistent token cache when the
function of the section does not; a section that it returns was parsed
between the two states, and without a section no token was handed out. -/
theorem Parser.parseOptionalSection_parsed {α : Type} (keyword : TokenType)
    (parseSection : Parser → ParseResult α) (getReference : α → SourceRangeReference)
    (leaves : α → List SourceRangeReference) (ranged : α → Bool) (message : String)
    (parser : Parser) (hwf : parser.lexer.WellFormed) (hsettled : parser.lexer.Settled)
    (hsection : ∀ p : Parser, p.lexer.WellFormed → p.lexer.Settled →
      p.lexer.left ≤ parser.lexer.left →
      (parseSection p).Holds (fun node p' =>
        p.Parsed (getReference node) (leaves node) p' ∧ ranged node = true)) :
    (Parser.parseOptionalSection keyword parseSection getReference message parser).Holds
      (fun node parser' =>
        parser.Passes (optionalLeaves leaves node) parser' ∧
        (∀ child, node = some child →
          parser.Parsed (getReference child) (leaves child) parser' ∧ ranged child = true)) := by
  obtain ⟨peeked, p₁, hpeek, hpass, _, _, _⟩ := Parser.peekTokenType_passes parser hwf hsettled
  by_cases hkeyword : peeked.map (·.tokenType) = some keyword
  · rcases (hsection p₁ hpass.advance.2.1 hpass.settled hpass.advance.left_le).cases with
      ⟨node, p₂, hnode, hpn, hrn⟩ | ⟨p₂, hnode⟩
    swap
    · simp only [Parser.parseOptionalSection, hpeek, ParseResult.ofExcept, hkeyword, if_true,
        hnode, ParseResult.bind]
      exact trivial
    by_cases hnext : p₂.lexer.hasNext = true
    · simp only [Parser.parseOptionalSection, hpeek, ParseResult.ofExcept, hkeyword, if_true,
        hnode, ParseResult.bind, hnext, Bool.not_true, Bool.false_eq_true, if_false]
      have hparsed := Parser.Parsed.earlier hpass hpn
      refine ⟨hparsed.toPasses, ?_⟩
      intro child hchild
      simp only [Option.some.injEq] at hchild
      subst hchild
      exact ⟨hparsed, hrn⟩
    · have hnext' : p₂.lexer.hasNext = false := by simpa using hnext
      have hlast : (getReference node).last =
          .ok { ref := (getReference node).ref + ((getReference node).length - 1) } := by
        simp only [SourceRangeReference.last, hpn.ref_length_pos, if_true]
      simp only [Parser.parseOptionalSection, hpeek, ParseResult.ofExcept, hkeyword, if_true,
        hnode, ParseResult.bind, hnext', Bool.not_false, hlast]
      exact trivial
  · simp only [Parser.parseOptionalSection, hpeek, ParseResult.ofExcept, hkeyword, if_false]
    exact ⟨hpass, fun child hchild => by cases hchild⟩

end parser

end pljit

namespace pljit

namespace parser

open common lexer parse_tree

/-- The test of the ranges of a function definition from its parts: the
range covers the leaves, contains the range of every child, and the
children pass the test. -/
theorem FunctionDefinition.ranged_of (node : FunctionDefinition)
    (hcovers : node.ref.covers node.leaves = true)
    (hparameters : ∀ child, node.parameterDeclarations = some child →
      node.ref.contains child.ref = true ∧ child.ranged = true)
    (hvariables : ∀ child, node.variableDeclarations = some child →
      node.ref.contains child.ref = true ∧ child.ranged = true)
    (hconstants : ∀ child, node.constantDeclarations = some child →
      node.ref.contains child.ref = true ∧ child.ranged = true)
    (hcompound : node.ref.contains node.compoundStatement.ref = true ∧
      node.compoundStatement.ranged = true)
    (hterminator : node.ref.contains node.programTerminator.ref = true ∧
      node.programTerminator.ranged = true) :
    node.ranged = true := by
  have hp : optionalAll (fun child : ParameterDeclarations =>
      node.ref.contains child.ref && child.ranged) node.parameterDeclarations = true := by
    cases h : node.parameterDeclarations with
    | none => rfl
    | some child =>
      simp only [optionalAll, (hparameters child h).1, (hparameters child h).2, Bool.and_self]
  have hv : optionalAll (fun child : VariableDeclarations =>
      node.ref.contains child.ref && child.ranged) node.variableDeclarations = true := by
    cases h : node.variableDeclarations with
    | none => rfl
    | some child =>
      simp only [optionalAll, (hvariables child h).1, (hvariables child h).2, Bool.and_self]
  have hc : optionalAll (fun child : ConstantDeclarations =>
      node.ref.contains child.ref && child.ranged) node.constantDeclarations = true := by
    cases h : node.constantDeclarations with
    | none => rfl
    | some child =>
      simp only [optionalAll, (hconstants child h).1, (hconstants child h).2, Bool.and_self]
  simp only [FunctionDefinition.ranged, hcovers, hp, hv, hc, hcompound.1, hcompound.2,
    hterminator.1, hterminator.2, Bool.and_self]

/-- The first node of a function definition: the node whose range
`getStartingRangeReferenceForFunctionDef` returns was parsed behind steps
that hand out no token, the leaves of the sections and of the compound
statement are its leaves and those of the steps behind it, and a range that
contains its range and every range read behind it contains the ranges of
the sections and of the compound statement. -/
theorem getStartingRangeReferenceForFunctionDef_parsed
    {parser p₁ p₂ p₃ p₄ : Parser} (hwf : parser.lexer.WellFormed)
    (hsettled : parser.lexer.Settled)
    (parameterDeclarations : Option ParameterDeclarations)
    (variableDeclarations : Option VariableDeclarations)
    (constantDeclarations : Option ConstantDeclarations)
    (compoundStatement : CompoundStatement)
    (hpassP : parser.Passes (optionalLeaves ParameterDeclarations.leaves parameterDeclarations)
      p₁)
    (hparsedP : ∀ child, parameterDeclarations = some child →
      parser.Parsed child.ref child.leaves p₁)
    (hpassV : p₁.Passes (optionalLeaves VariableDeclarations.leaves variableDeclarations) p₂)
    (hparsedV : ∀ child, variableDeclarations = some child →
      p₁.Parsed child.ref child.leaves p₂)
    (hpassC : p₂.Passes (optionalLeaves ConstantDeclarations.leaves constantDeclarations) p₃)
    (hparsedC : ∀ child, constantDeclarations = some child →
      p₂.Parsed child.ref child.leaves p₃)
    (hcompound : p₃.Parsed compoundStatement.ref compoundStatement.leaves p₄) :
    ∃ (a b : Parser) (leaves₁ leaves₂ : List SourceRangeReference),
      parser.Passes [] a ∧
      a.Parsed (getStartingRangeReferenceForFunctionDef parameterDeclarations
        variableDeclarations constantDeclarations compoundStatement) leaves₁ b ∧
      b.Passes leaves₂ p₄ ∧
      leaves₁ ++ leaves₂ =
        optionalLeaves ParameterDeclarations.leaves parameterDeclarations ++
          optionalLeaves VariableDeclarations.leaves variableDeclarations ++
          optionalLeaves ConstantDeclarations.leaves constantDeclarations ++
          compoundStatement.leaves ∧
      ∀ ref : SourceRangeReference,
        ref.contains (getStartingRangeReferenceForFunctionDef parameterDeclarations
          variableDeclarations constantDeclarations compoundStatement) = true →
        (∀ range, b.lexer.Spans range p₄.lexer → ref.contains range = true) →
        (∀ child, parameterDeclarations = some child → ref.contains child.ref = true) ∧
        (∀ child, variableDeclarations = some child → ref.contains child.ref = true) ∧
        (∀ child, constantDeclarations = some child → ref.contains child.ref = true) ∧
        ref.contains compoundStatement.ref = true := by
  have hadvP := hpassP.advance
  have hadvV := hpassV.advance
  have hadvC := hpassC.advance
  have hadvS : p₃.lexer.Advance p₄.lexer := hcompound.spans.1
  cases parameterDeclarations with
  | some parameters =>
    refine ⟨parser, p₁, parameters.leaves,
      optionalLeaves VariableDeclarations.leaves variableDeclarations ++
        (optionalLeaves ConstantDeclarations.leaves constantDeclarations ++
          compoundStatement.leaves),
      Parser.Passes.stay parser hwf hsettled, hparsedP parameters rfl,
      hpassV.andThen (hpassC.andThen hcompound.toPasses), ?_, ?_⟩
    · simp only [optionalLeaves, List.append_assoc]
    · intro ref hstart hbehind
      refine ⟨?_, ?_, ?_, ?_⟩
      · intro child hchild
        simp only [Option.some.injEq] at hchild
        subst hchild
        exact hstart
      · intro child hchild
        exact hbehind _ ((hparsedV child hchild).spans.advance (hadvC.trans hadvS))
      · intro child hchild
        exact hbehind _ (Lexer.Spans.of_advance hadvV
          ((hparsedC child hchild).spans.advance hadvS))
      · exact hbehind _ (Lexer.Spans.of_advance (hadvV.trans hadvC) hcompound.spans)
  | none =>
    have hpassP' : parser.Passes [] p₁ := hpassP
    cases variableDeclarations with
    | some locals =>
      refine ⟨p₁, p₂, locals.leaves,
        optionalLeaves ConstantDeclarations.leaves constantDeclarations ++
          compoundStatement.leaves,
        hpassP', hparsedV locals rfl, hpassC.andThen hcompound.toPasses, ?_, ?_⟩
      · simp only [optionalLeaves, List.append_assoc, List.nil_append]
      · intro ref hstart hbehind
        refine ⟨?_, ?_, ?_, ?_⟩
        · intro child hchild
          cases hchild
        · intro child hchild
          simp only [Option.some.injEq] at hchild
          subst hchild
          exact hstart
        · intro child hchild
          exact hbehind _ ((hparsedC child hchild).spans.advance hadvS)
        · exact hbehind _ (Lexer.Spans.of_advance hadvC hcompound.spans)
    | none =>
      have hpassV' : p₁.Passes [] p₂ := hpassV
      have hpassPV : parser.Passes [] p₂ := hpassP'.andThen hpassV'
      cases constantDeclarations with
      | some constants =>
        refine ⟨p₂, p₃, constants.leaves, compoundStatement.leaves,
          hpassPV, hparsedC constants rfl, hcompound.toPasses, ?_, ?_⟩
        · simp only [optionalLeaves, List.append_assoc, List.nil_append]
        · intro ref hstart hbehind
          refine ⟨?_, ?_, ?_, ?_⟩
          · intro child hchild
            cases hchild
          · intro child hchild
            cases hchild
          · intro child hchild
            simp only [Option.some.injEq] at hchild
            subst hchild
            exact hstart
          · exact hbehind _ hcompound.spans
      | none =>
        have hpassC' : p₂.Passes [] p₃ := hpassC
        have hpassPVC : parser.Passes [] p₃ := hpassPV.andThen hpassC'
        refine ⟨p₃, p₄, compoundStatement.leaves, [],
          hpassPVC, hcompound, Parser.Passes.stay p₄ hcompound.wellFormed hcompound.settled,
          ?_, ?_⟩
        · simp only [optionalLeaves, List.append_nil, List.nil_append]
        · intro ref hstart hbehind
          refine ⟨?_, ?_, ?_, hstart⟩
          · intro child hchild
            cases hchild
          · intro child hchild
            cases hchild
          · intro child hchild
            cases hchild

/-- The function `parseFunctionDefinition` does not fault in a settled state
of the lexer with a consistent token cache and with a recursion budget of
four calls per character left at least: no assertion fails, no index leaves
its sequence, and the budget is not used up.  A tree that it returns was
parsed between the two states, its ranges pass the test, and no token is
left behind it. -/
theorem Parser.parseFunctionDefinition_parsed (fuel : Nat) (parser : Parser)
    (hwf : parser.lexer.WellFormed) (hsettled : parser.lexer.Settled)
    (hfuel : 4 * parser.lexer.left + 4 ≤ fuel) :
    (parser.parseFunctionDefinition fuel).Holds (fun node parser' =>
      parser.Parsed node.ref node.leaves parser' ∧ node.ranged = true ∧
      parser'.lexer.hasNext = false) := by
  rcases (Parser.parseOptionalSection_parsed .Param (Parser.parseParameterDeclarations fuel)
    (·.ref) ParameterDeclarations.leaves ParameterDeclarations.ranged
    "error: expected afterwards either 'VAR', 'CONST', or 'BEGIN'" parser hwf hsettled
    (fun p hw hs hl => Parser.parseParameterDeclarations_parsed fuel p hw hs
      (by omega))).cases with ⟨parameters, p₁, hparameters, hpassP, hparsedP⟩ | ⟨p₁, hparameters⟩
  swap
  · simp only [Parser.parseFunctionDefinition, hparameters, ParseResult.bind]
    exact trivial
  have hleft₁ := hpassP.advance.left_le
  rcases (Parser.parseOptionalSection_parsed .Var (Parser.parseVariableDeclarations fuel)
    (·.ref) VariableDeclarations.leaves VariableDeclarations.ranged
    "error: expected afterwards either 'CONST' or 'BEGIN'" p₁ hpassP.advance.2.1
    hpassP.settled
    (fun p hw hs hl => Parser.parseVariableDeclarations_parsed fuel p hw hs
      (by omega))).cases with ⟨locals, p₂, hlocals, hpassV, hparsedV⟩ | ⟨p₂, hlocals⟩
  swap
  · simp only [Parser.parseFunctionDefinition, hparameters, ParseResult.bind, hlocals]
    exact trivial
  have hleft₂ := hpassV.advance.left_le
  rcases (Parser.parseOptionalSection_parsed .Const (Parser.parseConstantDeclarations fuel)
    (·.ref) ConstantDeclarations.leaves ConstantDeclarations.ranged
    "error: expected afterwards 'BEGIN'" p₂ hpassV.advance.2.1 hpassV.settled
    (fun p hw hs hl => Parser.parseConstantDeclarations_parsed fuel p hw hs
      (by omega))).cases with ⟨constants, p₃, hconstants, hpassC, hparsedC⟩ | ⟨p₃, hconstants⟩
  swap
  · simp only [Parser.parseFunctionDefinition, hparameters, ParseResult.bind, hlocals,
      hconstants]
    exact trivial
  have hleft₃ := hpassC.advance.left_le
  rcases (Parser.parseCompoundStatement_parsed fuel p₃ hpassC.advance.2.1 hpassC.settled
    (by omega)).cases with ⟨compound, p₄, hcompound, hps, hrs⟩ | ⟨p₄, hcompound⟩
  swap
  · simp only [Parser.parseFunctionDefinition, hparameters, ParseResult.bind, hlocals,
      hconstants, hcompound]
    exact trivial
  rcases (Parser.parseGenericToken_parsed .ProgramTerminator p₄ hps.wellFormed
    hps.settled).cases with ⟨terminator, p₅, hterminator, hpt, hrt, _, _⟩ | ⟨p₅, hterminator⟩
  swap
  · simp only [Parser.parseFunctionDefinition, hparameters, ParseResult.bind, hlocals,
      hconstants, hcompound, hterminator]
    exact trivial
  by_cases hnext : p₅.lexer.hasNext = true
  · obtain ⟨token, lexer', hpeek, _⟩ :=
      Lexer.peek_settled p₅.lexer hpt.wellFormed hpt.settled hnext
    simp only [Parser.parseFunctionDefinition, hparameters, ParseResult.bind, hlocals,
      hconstants, hcompound, hterminator, hnext, if_true, hpeek, ParseResult.ofExcept]
    exact trivial
  have hnext' : p₅.lexer.hasNext = false := by simpa using hnext
  obtain ⟨a, b, leaves₁, leaves₂, hprefix, hfirst, hmiddle, hleaves, hchildren⟩ :=
    getStartingRangeReferenceForFunctionDef_parsed hwf hsettled parameters locals constants
      compound hpassP (fun child h => (hparsedP child h).1) hpassV
      (fun child h => (hparsedV child h).1) hpassC (fun child h => (hparsedC child h).1) hps
  obtain ⟨last, ref, hlast, hextend, hparsed, hc₁, hc₃, hc₂, _⟩ :=
    Parser.Parsed.hull hfirst hmiddle hpt
  have hfull := Parser.Parsed.earlier hprefix hparsed
  rw [hleaves] at hfull
  obtain ⟨hcp, hcv, hcc, hcs⟩ := hchildren ref hc₁ hc₂
  simp only [Parser.parseFunctionDefinition, hparameters, ParseResult.bind, hlocals,
    hconstants, hcompound, hterminator, hnext', Bool.false_eq_true, if_false, hlast,
    ParseResult.ofExcept, hextend]
  refine ⟨hfull, ?_, hnext'⟩
  apply FunctionDefinition.ranged_of
  · exact hfull.covers
  · exact fun child h => ⟨hcp child h, (hparsedP child h).2⟩
  · exact fun child h => ⟨hcv child h, (hparsedV child h).2⟩
  · exact fun child h => ⟨hcc child h, (hparsedC child h).2⟩
  · exact ⟨hcs, hrs⟩
  · exact ⟨hc₃, hrt⟩

/-- The parser that the constructor of `Parser` returns: the token cache of
its lexer is consistent, the lexer is settled, no token of the source code
was handed out yet, and no more characters are left than the source code
has. -/
theorem Parser.new_passes (code : List Char) (parser : Parser)
    (h : Parser.new { sourceCode := code } = .ok parser) :
    parser.lexer.WellFormed ∧ parser.lexer.Settled ∧
    (Lexer.new { sourceCode := code }).Hands [] parser.lexer ∧
    parser.lexer.left ≤ code.length := by
  have hwf₀ : (Lexer.new { sourceCode := code }).WellFormed := by
    intro t ht
    simp only [Lexer.new, Lexer.trimLeadingWhitespace, Option.mem_def, reduceCtorEq] at ht
  have hcache : (Lexer.new { sourceCode := code }).tokenCache = none := rfl
  by_cases hnext : (Lexer.new { sourceCode := code }).hasNext = true
  · obtain ⟨token, lexer', hpeek, hadvance, hsettled, hhands, _, _⟩ :=
      Lexer.peek_settled _ hwf₀ (Lexer.new_settled _) hnext
    simp only [Parser.new, hpeek] at h
    split at h
    · cases h
    simp only [Except.ok.injEq] at h
    subst h
    refine ⟨hadvance.2.1, hsettled, hhands, ?_⟩
    have hsource : lexer'.sourceCodeManager.sourceCode = code := hadvance.1
    simp only [Lexer.left, hsource]
    omega
  · have hnext' : (Lexer.new { sourceCode := code }).hasNext = false := by simpa using hnext
    simp only [Parser.new, Lexer.peek, hcache, Lexer.next, hnext', Bool.not_false, if_true,
      reduceCtorEq] at h

end parser

end pljit

namespace pljit

open common lexer parse_tree parser

/-- C32: the leaves of the tree that `parseFunctionDefinition` returns for a
source code, from left to right, have exactly the ranges of the token
sequence of the lexer on this source code, in the same order: the source
code lexes without error into a token list, and the list of the ranges of
the leaves `GenericToken`, `Identifier` and `Literal` of the tree is the
list of the ranges of these tokens, so that no token is dropped, duplicated
or reordered. -/
theorem C32_leaves_are_the_token_ranges (code : List Char) (fuel : Nat)
    (parser parser' : Parser) (node : FunctionDefinition)
    (hfuel : parserFuel code ≤ fuel)
    (hnew : Parser.new { sourceCode := code } = .ok parser)
    (hparse : parser.parseFunctionDefinition fuel = .ok node parser') :
    ∃ tokens : List Token,
      Lexer.tokens (code.length + 1) (Lexer.new { sourceCode := code }) = some tokens ∧
      node.leaves = tokens.map (·.ref) := by
  obtain ⟨hwf, hsettled, hstart, hleft⟩ := Parser.new_passes code parser hnew
  have hrun := Parser.parseFunctionDefinition_parsed fuel parser hwf hsettled
    (by unfold parserFuel at hfuel; omega)
  rw [hparse] at hrun
  obtain ⟨hparsed, _, hnext⟩ := hrun
  obtain ⟨tokens, hmap, hhands⟩ := hparsed.hands
  have hrest : Lexer.tokens 1 parser'.lexer = some [] := by
    simp only [Lexer.tokens, hnext, Bool.not_false, if_true]
  obtain ⟨fuel₁, hfrom⟩ := hhands 1 [] hrest
  obtain ⟨fuel₂, hall⟩ := hstart fuel₁ _ hfrom
  simp only [List.append_nil, List.nil_append] at hall
  have hlength := Lexer.tokens_length fuel₂ _ tokens rfl hall
  have hcode : (Lexer.new { sourceCode := code }).sourceCodeManager.sourceCode = code := rfl
  rw [hcode] at hlength
  exact ⟨tokens, Lexer.tokens_fuel fuel₂ _ tokens hall (code.length + 1) (by omega),
    hmap.symm⟩

/-- C32 on the source code of the test `TestParser.SimpleTest`: the four
leaves of its tree have the ranges of its four tokens. -/
theorem C32_leaves_are_the_token_ranges_witness :
    parserFuel scenarioSimple ≤ 108 ∧
    Parser.new { sourceCode := scenarioSimple } = .ok scenarioSimpleStart ∧
    scenarioSimpleStart.parseFunctionDefinition 108 = .ok scenarioSimpleTree scenarioSimpleEnd ∧
    ∃ tokens : List Token,
      Lexer.tokens (scenarioSimple.length + 1) (Lexer.new { sourceCode := scenarioSimple }) =
        some tokens ∧
      scenarioSimpleTree.leaves = tokens.map (·.ref) :=
  ⟨by decide!, by decide!, by decide!,
    C32_leaves_are_the_token_ranges scenarioSimple 108 scenarioSimpleStart scenarioSimpleEnd
      scenarioSimpleTree (by decide!) (by decide!) (by decide!)⟩

/-- C33: on the parser that the constructor returns for a source code,
`parseFunctionDefinition` fails no assertion, so that the precondition
`location.ref >= ref` of `extendUntil` holds at each of its calls; and in
the tree that it returns the range of every node has one character at
least, starts at the first character of the first leaf below the node, ends
at the last character of the last leaf below it, and contains the ranges of
the children of the node. -/
theorem C33_node_ranges_span_their_tokens (code : List Char) (fuel : Nat) (parser : Parser)
    (hfuel : parserFuel code ≤ fuel)
    (hnew : Parser.new { sourceCode := code } = .ok parser) :
    (∀ fault, parser.parseFunctionDefinition fuel ≠ .fault fault) ∧
    (∀ node parser', parser.parseFunctionDefinition fuel = .ok node parser' →
      node.ranged = true ∧ 0 < node.ref.length ∧
      node.ref.covers node.leaves = true) := by
  obtain ⟨hwf, hsettled, _, hleft⟩ := Parser.new_passes code parser hnew
  have hrun := Parser.parseFunctionDefinition_parsed fuel parser hwf hsettled
    (by unfold parserFuel at hfuel; omega)
  constructor
  · intro fault hfault
    rw [hfault] at hrun
    exact hrun
  · intro node parser' hparse
    rw [hparse] at hrun
    exact ⟨hrun.2.1, hrun.1.ref_length_pos, hrun.1.covers⟩

/-- C33 on the source code of the test `TestParser.SimpleTest`: the ranges
of the nodes of its tree pass the test. -/
theorem C33_node_ranges_span_their_tokens_witness :
    parserFuel scenarioSimple ≤ 108 ∧
    Parser.new { sourceCode := scenarioSimple } = .ok scenarioSimpleStart ∧
    scenarioSimpleStart.parseFunctionDefinition 108 = .ok scenarioSimpleTree scenarioSimpleEnd ∧
    scenarioSimpleTree.ranged = true ∧ 0 < scenarioSimpleTree.ref.length ∧
    scenarioSimpleTree.ref.covers scenarioSimpleTree.leaves = true :=
  ⟨by decide!, by decide!, by decide!,
    (C33_node_ranges_span_their_tokens scenarioSimple 108 scenarioSimpleStart (by decide!)
      (by decide!)).2 scenarioSimpleTree scenarioSimpleEnd (by decide!)⟩

/-- C39: lexing and parsing terminate.  The lexer on a source code hands out
its tokens, or an error token, within as many calls of `next` as the source
code has characters; a token that is no error token and that `next`
returns moves the position of the lexer forward by one character at least;
and on the parser that the constructor returns for the source code,
`parseFunctionDefinition` returns a tree or reports a parse error with a
recursion budget of four calls per character: every recursive call happens
behind a token that was consumed, so that the budget is never used up. -/
theorem C39_lexing_and_parsing_terminate (code : List Char) (fuel : Nat) (parser : Parser)
    (hfuel : parserFuel code ≤ fuel)
    (hnew : Parser.new { sourceCode := code } = .ok parser) :
    ((∃ tokens, Lexer.tokens (code.length + 1) (Lexer.new { sourceCode := code }) =
        some tokens) ∨
      Lexer.meetsError (code.length + 1) (Lexer.new { sourceCode := code }) = true) ∧
    (∀ (lexer lexer' : Lexer) (token : Token), lexer.WellFormed → lexer.Settled →
      lexer.next = .ok (token, lexer') → token.tokenType ≠ .LexerError →
      lexer.position < lexer'.position ∧ lexer'.left < lexer.left) ∧
    ((∃ node parser', parser.parseFunctionDefinition fuel = .ok node parser') ∨
      (∃ parser', parser.parseFunctionDefinition fuel = .error parser')) := by
  refine ⟨Lexer.new_lexes code, ?_, ?_⟩
  · intro lexer lexer' token hwf hsettled hstep hne
    have h := Lexer.next_left lexer lexer' token hwf hsettled hstep hne
    exact ⟨h.2.1, h.1⟩
  · obtain ⟨hwf, hsettled, _, hleft⟩ := Parser.new_passes code parser hnew
    have hrun := Parser.parseFunctionDefinition_parsed fuel parser hwf hsettled
      (by unfold parserFuel at hfuel; omega)
    cases hresult : parser.parseFunctionDefinition fuel with
    | ok node parser' => exact Or.inl ⟨node, parser', rfl⟩
    | error parser' => exact Or.inr ⟨parser', rfl⟩
    | fault fault =>
      rw [hresult] at hrun
      exact absurd hrun id

/-- C39 on the source code of the test `TestParser.SimpleTest`: the parser
returns its tree. -/
theorem C39_lexing_and_parsing_terminate_witness :
    parserFuel scenarioSimple ≤ 108 ∧
    Parser.new { sourceCode := scenarioSimple } = .ok scenarioSimpleStart ∧
    ((∃ node parser', scenarioSimpleStart.parseFunctionDefinition 108 = .ok node parser') ∨
      (∃ parser', scenarioSimpleStart.parseFunctionDefinition 108 = .error parser')) :=
  ⟨by decide!, by decide!,
    (C39_lexing_and_parsing_terminate scenarioSimple 108 scenarioSimpleStart (by decide!)
      (by decide!)).2.2⟩

end pljit

